import Mathlib

/-!
# HDBSCAN core: a shallow embedding of `distance.c`, `cluster.c` and `hdbscan.c`

Conventions of the embedding.

* `distance_t` (a C `double`) is modelled by a type `α` carrying a linear order
  (and, where the code does arithmetic, the structure of a linearly ordered field):
  comparisons and arithmetic are exact, there is no rounding and no NaN.
* The sorting functions (`partition`, `hdbscan_quicksort` and their callers) use only the
  comparisons `<=` and `>` of their sort keys; they are defined over every type with
  decidable `≤` and `<`, among them `double α`, the values of `α` together with NaN.
* `index_t`, `size_t`, `uint` indices are natural numbers; the index arithmetic of the
  code is done on them without wrap-around.
* C arrays are lists; a read outside the array yields a default value and a write
  outside the array is dropped.
-/

namespace Hdbscan

open SimpleGraph

/-! ## distance.c -/

/-- Modelled from the spec: the macro `TRIANGULAR_H` is declared in a header that is not
part of the sources; the spec gives `T(m) = m·(m+1)/2`. -/
def TRIANGULAR_H (n : Nat) : Nat := (n * n + n) / 2

/-- The fields of `struct distance` that the core uses: the row and column counts,
`numNeighbors`, the packed strict upper triangle `distances` and `coreDistances`. -/
structure distance (α : Type) where
  rows : Nat
  cols : Nat
  numNeighbors : Nat
  distances : List α
  coreDistances : List α

/-- The function `distance_get`: the distance between the elements `row` and `col`, read from
the packed upper triangle. -/
def distance_get {α : Type} [Zero α] (dis : distance α) (row col : Nat) : α :=
  if row < col then
    dis.distances.getD (dis.rows * row + col - TRIANGULAR_H (row + 1)) 0
  else if row = col then
    0
  else
    dis.distances.getD (dis.rows * col + row - TRIANGULAR_H (col + 1)) 0

/-- The `memmove` of `distance_get_core_distances` followed by the store at `low`: the
entries `low .. s-2` of the window move one place to the right, the last entry is
discarded and `t` is written at position `low`. -/
def shiftInsert {α : Type} (sortedDistance : List α) (low : Nat) (t : α) : List α :=
  sortedDistance.take low ++ t :: (sortedDistance.drop low).dropLast

/-- The `do … while (low < high)` search of `distance_get_core_distances`; the result is
the value of `low` when the loop is left. The `break` on an equal entry leaves `low`
as it is. The first argument bounds the number of iterations. -/
def searchLow {α : Type} [LinearOrder α] (D_MAX : α) (sortedDistance : List α) (t : α) :
    Nat → Nat → Nat → Nat
  | 0, low, _ => low
  | fuel + 1, low, high =>
    let mid := low + (high - low) / 2
    if sortedDistance.getD mid D_MAX > t then
      if low < mid then searchLow D_MAX sortedDistance t fuel low mid else low
    else if sortedDistance.getD mid D_MAX = t then
      low
    else
      if mid + 1 < high then searchLow D_MAX sortedDistance t fuel (mid + 1) high else mid + 1

/-- The body of the loop over `j` in `distance_get_core_distances`: the candidate `t` is
skipped when it exceeds the last entry of the window, otherwise the position `low` is
searched and `t` is inserted there unless it equals the last entry. -/
def windowStep {α : Type} [LinearOrder α] (D_MAX : α) (numNeighbors : Nat)
    (sortedDistance : List α) (t : α) : List α :=
  if t > sortedDistance.getD numNeighbors D_MAX then
    sortedDistance
  else
    let low := searchLow D_MAX sortedDistance t (numNeighbors + 2) 0 (numNeighbors + 1)
    if low < numNeighbors + 1 ∧ sortedDistance.getD numNeighbors D_MAX ≠ t then
      shiftInsert sortedDistance low t
    else
      sortedDistance

/-- The window `sortedDistance` of row `i` after the candidates `j = 0 .. rows-1`. -/
def coreWindow {α : Type} [LinearOrder α] [Zero α] (D_MAX : α) (dis : distance α) (i : Nat) :
    List α :=
  (List.range dis.rows).foldl
    (fun sortedDistance j => windowStep D_MAX dis.numNeighbors sortedDistance (distance_get dis i j))
    (List.replicate (dis.numNeighbors + 1) D_MAX)

/-- The function `distance_get_core_distances`: for every row the last entry of its window is
stored in `coreDistances`. -/
def distance_get_core_distances {α : Type} [LinearOrder α] [Zero α] (D_MAX : α)
    (dis : distance α) : distance α :=
  { dis with
    coreDistances :=
      (List.range dis.rows).map (fun i => (coreWindow D_MAX dis i).getD dis.numNeighbors D_MAX) }

/-- The cell of the packed upper triangle that holds the pair `i < j` in a store over `N`
rows. -/
def triIndex (N i j : Nat) : Nat := N * i + j - TRIANGULAR_H (i + 1)

/-- The value `distance_compute` stores for the rows `i` and `j`: the loop over `k` adds the
squared differences of the coordinates to `sum`, and the square root of `sum` is kept.
`diff a b` stands for `(distance_t)(a - b)`, the difference taken in the element type of the
data set (selected by `dis->datatype`) and converted to `distance_t`. -/
def pairDistance {α β : Type} [Zero α] [Add α] [Mul α] (diff : β → β → α) (sqrt : α → α)
    (dataset : Nat → β) (cols i j : Nat) : α :=
  sqrt ((List.range cols).foldl
    (fun sum k =>
      sum + diff (dataset (i * cols + k)) (dataset (j * cols + k)) *
        diff (dataset (i * cols + k)) (dataset (j * cols + k)))
    0)

/-- The two nested loops of `distance_compute` over `i` and `j = i+1 .. rows-1`, writing the
cell `i * rows + j - TRIANGULAR_H(i + 1)` of the store. -/
def fillDistances {α β : Type} [Zero α] [Add α] [Mul α] (diff : β → β → α) (sqrt : α → α)
    (dataset : Nat → β) (rows cols : Nat) (distances : List α) : List α :=
  (List.range rows).foldl
    (fun ds i =>
      (List.range' (i + 1) (rows - (i + 1))).foldl
        (fun ds j =>
          ds.set (i * rows + j - TRIANGULAR_H (i + 1)) (pairDistance diff sqrt dataset cols i j))
        ds)
    distances

/-- The function `distance_compute`: the store of `(rows * rows - rows) / 2` cells is allocated
(its content before the writes is `uninit`), filled with the pairwise distances, and the core
distances are computed. The data set is the flat buffer `dataset`, read at `i * cols + k`. -/
def distance_compute {α β : Type} [LinearOrder α] [Zero α] [Add α] [Mul α] (D_MAX : α)
    (diff : β → β → α) (sqrt : α → α) (uninit : Nat → α) (dataset : Nat → β)
    (rows cols numNeighbors : Nat) : distance α :=
  distance_get_core_distances D_MAX
    { rows := rows
      cols := cols
      numNeighbors := numNeighbors
      distances :=
        fillDistances diff sqrt dataset rows cols
          ((List.range ((rows * rows - rows) / 2)).map uninit)
      coreDistances := (List.range rows).map uninit }

/-- The `k`-th smallest element (counted from 0, with multiplicity) of the distances from
`p` to all points `q < N`, the self distance included. -/
def orderStatistic {α : Type} [LinearOrder α] [Zero α] (dis : distance α) (p k : Nat) : α :=
  (((List.range dis.rows).map (fun q => distance_get dis p q)).insertionSort (· ≤ ·)).getD k 0

/-- The distance store of the four points `0, 2, -2, 1` on a line:
`d(0,1)=2, d(0,2)=2, d(0,3)=1, d(1,2)=4, d(1,3)=1, d(2,3)=3`, with `mpts = 3`. -/
def dupStore : distance Nat :=
  { rows := 4, cols := 1, numNeighbors := 2, distances := [2, 2, 1, 4, 1, 3], coreDistances := [] }

/-! ## hdbscan.c: construction of the minimum spanning tree -/

/-- The mutual reachability distance as `hdbscan_construct_mst` computes it for the pair
`(neighbor, currentPoint)`: the pairwise distance, raised to the core distance of
`currentPoint` and then to the core distance of `neighbor` where those are greater. -/
def mutualReachability {α : Type} [LinearOrder α] [Zero α] (dis : distance α)
    (neighbor currentPoint : Nat) : α :=
  let d := distance_get dis neighbor currentPoint
  let d1 := if dis.coreDistances.getD currentPoint 0 > d then dis.coreDistances.getD currentPoint 0 else d
  if dis.coreDistances.getD neighbor 0 > d1 then dis.coreDistances.getD neighbor 0 else d1

/-- The variables the loop over `neighbor` of `hdbscan_construct_mst` updates. The value `-1` of
`nearestMRDPoint` is `none`. -/
structure MstScan (α : Type) where
  nearestMRDNeighbors : List Nat
  nearestMRDDistances : List α
  nearestMRDPoint : Option Nat
  nearestMRDDistance : α

/-- The first half of the body of the loop over `neighbor`: the nearest distance and the
nearest neighbour of `neighbor` are replaced when the mutual reachability distance to
`currentPoint` is strictly smaller. -/
def mstUpdateNearest {α : Type} [LinearOrder α] [Zero α] (D_MAX : α) (dis : distance α)
    (currentPoint : Nat) (s : MstScan α) (neighbor : Nat) : MstScan α :=
  if mutualReachability dis neighbor currentPoint < s.nearestMRDDistances.getD neighbor D_MAX then
    { s with
      nearestMRDDistances :=
        s.nearestMRDDistances.set neighbor (mutualReachability dis neighbor currentPoint)
      nearestMRDNeighbors := s.nearestMRDNeighbors.set neighbor currentPoint }
  else s

/-- The second half of the body of the loop over `neighbor`: `neighbor` becomes the closest
point found so far when its nearest distance is at most `nearestMRDDistance`. -/
def mstSelectNearest {α : Type} [LinearOrder α] (D_MAX : α) (s : MstScan α) (neighbor : Nat) :
    MstScan α :=
  if s.nearestMRDDistances.getD neighbor D_MAX ≤ s.nearestMRDDistance then
    { s with
      nearestMRDDistance := s.nearestMRDDistances.getD neighbor D_MAX
      nearestMRDPoint := some neighbor }
  else s

/-- One iteration of the loop over `neighbor` in `hdbscan_construct_mst`: the current point
and the attached points are skipped. -/
def mstScanStep {α : Type} [LinearOrder α] [Zero α] (D_MAX : α) (dis : distance α)
    (attachedPoints : List Bool) (currentPoint : Nat) (s : MstScan α) (neighbor : Nat) :
    MstScan α :=
  if currentPoint = neighbor then s
  else if attachedPoints.getD neighbor false = true then s
  else mstSelectNearest D_MAX (mstUpdateNearest D_MAX dis currentPoint s neighbor) neighbor

/-- The variables of `hdbscan_construct_mst` that live across the expansion rounds. -/
structure MstState (α : Type) where
  attachedPoints : List Bool
  nearestMRDNeighbors : List Nat
  otherVertexIndices : List Nat
  nearestMRDDistances : List α
  currentPoint : Nat

/-- One expansion round of `hdbscan_construct_mst` (the body of the loop over
`numAttachedPoints`). The round has no result (`none`) when `nearestMRDPoint` is still `-1`
after the scan, where the code writes `attachedPoints[-1]`. -/
def mstRound {α : Type} [LinearOrder α] [Zero α] (D_MAX : α) (dis : distance α) (size : Nat)
    (st : MstState α) (numAttachedPoints : Nat) : Option (MstState α) :=
  let scan := (List.range size).foldl (mstScanStep D_MAX dis st.attachedPoints st.currentPoint)
    { nearestMRDNeighbors := st.nearestMRDNeighbors
      nearestMRDDistances := st.nearestMRDDistances
      nearestMRDPoint := none
      nearestMRDDistance := D_MAX }
  match scan.nearestMRDPoint with
  | none => none
  | some nearestMRDPoint =>
    some
      { attachedPoints := st.attachedPoints.set nearestMRDPoint true
        nearestMRDNeighbors := scan.nearestMRDNeighbors
        otherVertexIndices := st.otherVertexIndices.set numAttachedPoints numAttachedPoints
        nearestMRDDistances := scan.nearestMRDDistances
        currentPoint := nearestMRDPoint }

/-- The state of `hdbscan_construct_mst` before the first expansion round: only the last point
is attached, the three lists have `ssize = size - 1 + selfEdgeCapacity` entries, `0`, `0` and
`DBL_MAX` (the lists of `int_array_list_init_full` and `double_array_list_init_full`). -/
def mstInit {α : Type} (D_MAX : α) (size : Nat) (selfEdges : Bool) : MstState α :=
  let selfEdgeCapacity := if selfEdges then size else 0
  let ssize := size - 1 + selfEdgeCapacity
  { attachedPoints := List.replicate (size - 1) false ++ [true]
    nearestMRDNeighbors := List.replicate ssize 0
    otherVertexIndices := List.replicate ssize 0
    nearestMRDDistances := List.replicate ssize D_MAX
    currentPoint := size - 1 }

/-- The loop of `hdbscan_construct_mst` that attaches the self edges: for
`i = size-1 .. 2*size-2` the vertex `i - (size - 1)` is written into both vertex lists and its
core distance into the weights, at position `i`. -/
def mstSelfEdges {α : Type} [Zero α] (dis : distance α) (size : Nat) (st : MstState α) :
    MstState α :=
  (List.range' (size - 1) size).foldl
    (fun st i =>
      let vertex := i - (size - 1)
      { st with
        nearestMRDNeighbors := st.nearestMRDNeighbors.set i vertex
        otherVertexIndices := st.otherVertexIndices.set i vertex
        nearestMRDDistances := st.nearestMRDDistances.set i (dis.coreDistances.getD vertex 0) })
    st

/-- The three parallel lists that `hdbscan_construct_mst` hands to `graph_init`. -/
structure MstEdges (α : Type) where
  verticesA : List Nat
  verticesB : List Nat
  edgeWeights : List α
  deriving DecidableEq, Repr

/-- The function `hdbscan_construct_mst` up to the call of `graph_init`: the expansion rounds
`numAttachedPoints = 1 .. size-1`, then the self edges when `selfEdges` is set. The result is
the triple `(nearestMRDNeighbors, otherVertexIndices, nearestMRDDistances)`. -/
def hdbscan_construct_mst {α : Type} [LinearOrder α] [Zero α] (D_MAX : α) (dis : distance α)
    (size : Nat) (selfEdges : Bool) : Option (MstEdges α) :=
  ((List.range' 1 (size - 1)).foldlM (mstRound D_MAX dis size) (mstInit D_MAX size selfEdges)).map
    (fun st =>
      let st1 := if selfEdges then mstSelfEdges dis size st else st
      { verticesA := st1.nearestMRDNeighbors
        verticesB := st1.otherVertexIndices
        edgeWeights := st1.nearestMRDDistances })

/-- The store of `dupStore` with the core distances of `mpts = 2`. -/
def lineStore : distance Nat :=
  { rows := 4, cols := 1, numNeighbors := 1, distances := [2, 2, 1, 4, 1, 3],
    coreDistances := [1, 1, 2, 1] }

/-! ## cluster.c -/

/-- The fields of `struct cluster`. Pointers to clusters (`parent`, the entries of
`propagatedDescendants`) are positions in the list `sc->clusters`; `NULL` is `none`. -/
structure cluster (α : Type) where
  label : Nat
  birthLevel : α
  deathLevel : α
  numPoints : Int
  offset : Nat
  stability : α
  propagatedStability : α
  propagatedLowestChildDeathLevel : α
  numConstraintsSatisfied : Int
  propagatedNumConstraintsSatisfied : Int
  parent : Option Nat
  hasChildren : Bool
  virtualChildCluster : List Nat
  propagatedDescendants : List Nat

/-- The list `sc->clusters`: position 0 holds `NULL`. -/
abbrev ClusterList (α : Type) := List (Option (cluster α))

/-- The function `cluster_init` for a cluster stored at position `pos` of the list: the new
cluster is appended and, when it has a parent, the parent is marked as having children. -/
def cluster_init {α : Type} [Zero α] (D_MAX : α) (clusters : ClusterList α) (label : Nat)
    (parent : Option Nat) (birthLevel : α) (numPoints : Int) : ClusterList α × cluster α :=
  let cl : cluster α :=
    { label := label
      birthLevel := birthLevel
      deathLevel := 0
      numPoints := numPoints
      offset := 0
      stability := 0
      propagatedStability := 0
      propagatedLowestChildDeathLevel := D_MAX
      numConstraintsSatisfied := 0
      propagatedNumConstraintsSatisfied := 0
      parent := parent
      hasChildren := false
      virtualChildCluster := []
      propagatedDescendants := [] }
  let clusters1 :=
    match parent with
    | none => clusters
    | some p =>
      match clusters.getD p none with
      | none => clusters
      | some par => clusters.set p (some { par with hasChildren := true })
  (clusters1, cl)

/-- The function `cluster_detach_points`: the result is the updated cluster and the return
code, `true` for `CLUSTER_SUCCESS` and `false` for `CLUSTER_ERROR`. -/
def cluster_detach_points {α : Type} [LinearOrderedField α] (cl : cluster α) (numPoints : Int)
    (level : α) : cluster α × Bool :=
  let cl1 : cluster α :=
    { cl with
      numPoints := cl.numPoints - numPoints
      stability := cl.stability + (numPoints : α) * (1 / level - 1 / cl.birthLevel) }
  if cl1.numPoints = 0 then
    ({ cl1 with deathLevel := level }, true)
  else if cl1.numPoints < 0 then
    (cl1, false)
  else
    (cl1, true)

/-- The update of the parent in `cluster_propagate` when the cluster itself is chosen: its
stability and constraint count are added and the cluster (position `x`) is appended to the
descendants of the parent. -/
def propagateSelf {α : Type} [Add α] (par cl : cluster α) (x : Nat) : cluster α :=
  { par with
    propagatedNumConstraintsSatisfied :=
      par.propagatedNumConstraintsSatisfied + cl.numConstraintsSatisfied
    propagatedStability := par.propagatedStability + cl.stability
    propagatedDescendants := par.propagatedDescendants ++ [x] }

/-- The update of the parent in `cluster_propagate` when the descendants of the cluster are
chosen: the propagated stability and constraint count are added and the descendants of the
cluster are appended, in order, to those of the parent. -/
def propagateDescendants {α : Type} [Add α] (par cl : cluster α) : cluster α :=
  { par with
    propagatedNumConstraintsSatisfied :=
      par.propagatedNumConstraintsSatisfied + cl.propagatedNumConstraintsSatisfied
    propagatedStability := par.propagatedStability + cl.propagatedStability
    propagatedDescendants := par.propagatedDescendants ++ cl.propagatedDescendants }

/-- The first step of `cluster_propagate`: a lowest child death level that still has its
initial value `DBL_MAX` becomes the death level of the cluster. -/
def propagateDeath {α : Type} [LinearOrder α] (D_MAX : α) (cl : cluster α) : cluster α :=
  if cl.propagatedLowestChildDeathLevel = D_MAX then
    { cl with propagatedLowestChildDeathLevel := cl.deathLevel }
  else cl

/-- The second step of `cluster_propagate`: the lowest child death level of the parent is
lowered to the one of the cluster. -/
def propagateParentDeath {α : Type} [LinearOrder α] (cl par : cluster α) : cluster α :=
  if cl.propagatedLowestChildDeathLevel < par.propagatedLowestChildDeathLevel then
    { par with propagatedLowestChildDeathLevel := cl.propagatedLowestChildDeathLevel }
  else par

/-- The third step of `cluster_propagate`: the choice between the cluster (position `x`) and
its propagated descendants, by the constraint counts and then by the stabilities. -/
def propagateChoice {α : Type} [LinearOrder α] [Add α] (par cl : cluster α) (x : Nat) :
    cluster α :=
  if cl.hasChildren = false ∨
      cl.numConstraintsSatisfied > cl.propagatedNumConstraintsSatisfied then
    propagateSelf par cl x
  else if cl.numConstraintsSatisfied < cl.propagatedNumConstraintsSatisfied then
    propagateDescendants par cl
  else if cl.numConstraintsSatisfied = cl.propagatedNumConstraintsSatisfied then
    if cl.stability ≥ cl.propagatedStability then
      propagateSelf par cl x
    else
      propagateDescendants par cl
  else par

/-- The function `cluster_propagate` applied to the cluster at position `x` of the list; the
cluster and its parent (at position `p`) are updated in the list. Nothing happens for a
cluster without parent. -/
def cluster_propagate {α : Type} [LinearOrder α] [Add α] (D_MAX : α) (clusters : ClusterList α)
    (x : Nat) : ClusterList α :=
  match clusters.getD x none with
  | none => clusters
  | some cl =>
    match cl.parent with
    | none => clusters
    | some p =>
      match (clusters.set x (some (propagateDeath D_MAX cl))).getD p none with
      | none => clusters.set x (some (propagateDeath D_MAX cl))
      | some par =>
        (clusters.set x (some (propagateDeath D_MAX cl))).set p
          (some (propagateChoice (propagateParentDeath (propagateDeath D_MAX cl) par)
            (propagateDeath D_MAX cl) x))

/-! ## hdbscan.c: propagation of the cluster tree -/

/-- Modelled from the spec: `set_insert` of the set library (not part of the sources), an
ordered set of integers backed by an array: the value is appended unless it is present. -/
def set_insert (s : List Nat) (v : Nat) : List Nat :=
  if v ∈ s then s else s ++ [v]

/-- Modelled from the spec: `set_sort` of the set library (not part of the sources): the
elements are put in ascending order. -/
def set_sort (s : List Nat) : List Nat :=
  s.insertionSort (· ≤ ·)

/-- The variables of the loop of `hdbscan_propagate_tree`. -/
structure PropagateState (α : Type) where
  clusters : ClusterList α
  clustersToExamine : List Nat
  addedToExaminationList : List Bool
  infiniteStability : Bool

/-- The body of the first loop of `hdbscan_propagate_tree`: a cluster without children is put
on the examination list. -/
def propagateInitStep {α : Type} (clusters : ClusterList α) (st : PropagateState α) (i : Nat) :
    PropagateState α :=
  match clusters.getD i none with
  | none => st
  | some cl =>
    if cl.hasChildren = false then
      { st with
        clustersToExamine := set_insert st.clustersToExamine cl.label
        addedToExaminationList := st.addedToExaminationList.set cl.label true }
    else st

/-- The first loop of `hdbscan_propagate_tree`, over all positions of the cluster list. -/
def propagateInit {α : Type} (clusters : ClusterList α) : PropagateState α :=
  (List.range clusters.length).foldl (propagateInitStep clusters)
    { clusters := clusters
      clustersToExamine := []
      addedToExaminationList := List.replicate clusters.length false
      infiniteStability := false }

/-- One iteration of the `while` loop of `hdbscan_propagate_tree` for the label `x` removed
from the end of the examination list, `rest` being the remaining list. There is no result
when the cluster at position `x` or its parent is `NULL`. -/
def propagateStep {α : Type} [LinearOrder α] [Add α] (D_MAX : α) (st : PropagateState α)
    (x : Nat) (rest : List Nat) : Option (PropagateState α) :=
  match st.clusters.getD x none with
  | none => none
  | some _ =>
    let clusters1 := cluster_propagate D_MAX st.clusters x
    match clusters1.getD x none with
    | none => none
    | some currentCluster =>
      let infiniteStability :=
        if currentCluster.stability = D_MAX then true else st.infiniteStability
      match currentCluster.parent with
      | none =>
        some
          { clusters := clusters1
            clustersToExamine := set_sort rest
            addedToExaminationList := st.addedToExaminationList
            infiniteStability := infiniteStability }
      | some p =>
        match clusters1.getD p none with
        | none => none
        | some parent =>
          if st.addedToExaminationList.getD parent.label false = false then
            some
              { clusters := clusters1
                clustersToExamine := set_sort (set_insert rest parent.label)
                addedToExaminationList := st.addedToExaminationList.set parent.label true
                infiniteStability := infiniteStability }
          else
            some
              { clusters := clusters1
                clustersToExamine := set_sort rest
                addedToExaminationList := st.addedToExaminationList
                infiniteStability := infiniteStability }

/-- The `while (clustersToExamine->size > 0)` loop of `hdbscan_propagate_tree`; the first
argument bounds the number of iterations, and there is no result when it is used up. -/
def propagateLoop {α : Type} [LinearOrder α] [Add α] (D_MAX : α) :
    Nat → PropagateState α → Option (PropagateState α)
  | 0, st => if st.clustersToExamine = [] then some st else none
  | fuel + 1, st =>
    match st.clustersToExamine.getLast? with
    | none => some st
    | some x =>
      match propagateStep D_MAX st x st.clustersToExamine.dropLast with
      | none => none
      | some st1 => propagateLoop D_MAX fuel st1

/-- The function `hdbscan_propagate_tree`: the clusters after the propagation and the flag
`infiniteStability` that is returned. The loop runs at most once per cluster. -/
def hdbscan_propagate_tree {α : Type} [LinearOrder α] [Add α] (D_MAX : α)
    (clusters : ClusterList α) : Option (ClusterList α × Bool) :=
  (propagateLoop D_MAX clusters.length (propagateInit clusters)).map
    (fun st => (st.clusters, st.infiniteStability))

/-! ## hdbscan.c: construction of the hierarchy and of the cluster tree

The sets of the set library and the array lists (neither is part of the sources) are lists:
a set is a list without repetition in the order of insertion (`set_insert`), `set_remove` is
`List.erase`, `set_remove_at` and `set_value_at` at the last index are `getLast?`, `dropLast`
and `getLastD`, `set_find` is membership. The loops whose number of iterations is not known in
advance take a bound on it as their first argument and yield `none` when the bound is used up;
the theorems show that, on the graphs they are about, the bounds given by
`hdbscan_compute_hierarchy_and_cluster_tree` are not used up. -/

/-- Modelled from the spec: the graph of the graph module (not part of the sources): the
parallel arrays of the edges and, for every vertex, the list `edges[v]` of its neighbours. -/
structure graph (α : Type) where
  numVertices : Nat
  verticesA : List Nat
  verticesB : List Nat
  edgeWeights : List α
  edges : List (List Nat)

/-- Modelled from the spec: one step of `graph_init` (graph module, not part of the sources):
the edge `(a, b)` is entered in the neighbour lists of `a` and, when `a ≠ b`, of `b`. -/
def graphAddEdge (edges : List (List Nat)) (a b : Nat) : List (List Nat) :=
  let edges1 := edges.set a (edges.getD a [] ++ [b])
  if a ≠ b then edges1.set b (edges1.getD b [] ++ [a]) else edges1

/-- Modelled from the spec: `graph_init` of the graph module (not part of the sources): the
graph over `numVertices` vertices with the given edge arrays; the neighbour lists are built
from the arrays. -/
def graph_init {α : Type} (numVertices : Nat) (verticesA verticesB : List Nat)
    (edgeWeights : List α) : graph α :=
  { numVertices := numVertices
    verticesA := verticesA
    verticesB := verticesB
    edgeWeights := edgeWeights
    edges :=
      (List.range edgeWeights.length).foldl
        (fun edges i => graphAddEdge edges (verticesA.getD i 0) (verticesB.getD i 0))
        (List.replicate numVertices []) }

/-- Modelled from the spec: `graph_remove_edge` of the graph module (not part of the
sources): one entry `b` leaves the neighbour list of `a` and, when `a ≠ b`, one entry `a`
leaves the neighbour list of `b`. -/
def graph_remove_edge {α : Type} (g : graph α) (a b : Nat) : graph α :=
  let edges1 := g.edges.set a ((g.edges.getD a []).erase b)
  { g with edges := if a ≠ b then edges1.set b ((edges1.getD b []).erase a) else edges1 }

/-- An entry of the hierarchy: the edge weight of the level and the labels of the points. -/
structure hierarchy_entry (α : Type) where
  edgeWeight : α
  labels : List Nat

/-- The function `cluster_add_points_to_virtual_child_cluster`: the points are added to the
ordered set `virtualChildCluster`. -/
def cluster_add_points_to_virtual_child_cluster {α : Type} (cl : cluster α)
    (points : List Nat) : cluster α :=
  { cl with virtualChildCluster := points.foldl set_insert cl.virtualChildCluster }

/-- The function `hdbscan_create_new_cluster`: the points get the label `clusterLabel`, they
are detached from the parent (position `parentCluster` of the cluster list) at `edgeWeight`,
and either a new cluster is made by `cluster_init` (label other than 0) or the points join
the virtual child cluster of the parent (label 0, result `NULL`). The return value of
`cluster_detach_points` is not looked at. -/
def hdbscan_create_new_cluster {α : Type} [LinearOrderedField α] (D_MAX : α)
    (clusters : ClusterList α) (points : List Nat) (clusterLabels : List Nat)
    (parentCluster : Nat) (clusterLabel : Nat) (edgeWeight : α) :
    ClusterList α × List Nat × Option (cluster α) :=
  let clusterLabels1 := points.foldl (fun labels d => labels.set d clusterLabel) clusterLabels
  let clusters1 :=
    match clusters.getD parentCluster none with
    | none => clusters
    | some par =>
      clusters.set parentCluster (some (cluster_detach_points par points.length edgeWeight).1)
  if clusterLabel ≠ 0 then
    ((cluster_init D_MAX clusters1 clusterLabel (some parentCluster) edgeWeight points.length).1,
      clusterLabels1,
      some (cluster_init D_MAX clusters1 clusterLabel (some parentCluster) edgeWeight
        points.length).2)
  else
    (match clusters1.getD parentCluster none with
      | none => clusters1
      | some par =>
        clusters1.set parentCluster (some (cluster_add_points_to_virtual_child_cluster par points)),
      clusterLabels1, none)

/-- The variables of `hdbscan_compute_hierarchy_and_cluster_tree` that live across the
iterations of its main loop. `edgeCount` is `currentEdgeIndex + 1`; `newClusters` holds the
positions of the new clusters in the cluster list; `noiseWrites[p]` counts the writes to
`pointNoiseLevels[p]` and `pointLastClusters[p]` (it is not a variable of the code). -/
structure HierarchyState (α : Type) where
  mst : graph α
  clusters : ClusterList α
  hierarchy : List (Nat × hierarchy_entry α)
  lineCount : Nat
  edgeCount : Nat
  nextClusterLabel : Nat
  nextLevelSignificant : Bool
  previousClusterLabels : List Nat
  currentClusterLabels : List Nat
  affectedClusterLabels : List Nat
  affectedVertices : List Nat
  newClusters : List Nat
  pointNoiseLevels : List α
  pointLastClusters : List Nat
  noiseWrites : List Nat

/-- The loop that removes all edges tied with the current edge weight, for
`currentEdgeIndex = n - 1` downwards: the edge leaves the graph, and unless its first vertex
is noise its two vertices and the label of the first join the affected sets. -/
def removeTiedEdges {α : Type} [LinearOrder α] [Zero α] (currentEdgeWeight : α) :
    Nat → HierarchyState α → HierarchyState α
  | 0, st => { st with edgeCount := 0 }
  | n + 1, st =>
    if st.mst.edgeWeights.getD n 0 = currentEdgeWeight then
      let firstVertex := st.mst.verticesA.getD n 0
      let secondVertex := st.mst.verticesB.getD n 0
      let mst1 := graph_remove_edge st.mst firstVertex secondVertex
      if st.currentClusterLabels.getD firstVertex 0 = 0 then
        removeTiedEdges currentEdgeWeight n { st with mst := mst1 }
      else
        removeTiedEdges currentEdgeWeight n
          { st with
            mst := mst1
            affectedVertices :=
              set_insert (set_insert st.affectedVertices firstVertex) secondVertex
            affectedClusterLabels :=
              set_insert st.affectedClusterLabels (st.currentClusterLabels.getD firstVertex 0) }
    else { st with edgeCount := n + 1 }

/-- The variables of the examination of one affected cluster: those of the loop over
`examinedVertices` and those of the exploration of one potential child cluster. -/
structure ExamineState where
  examinedVertices : List Nat
  firstChildCluster : List Nat
  unexploredFirstChildClusterPoints : List Nat
  numChildClusters : Nat
  constructingSubCluster : List Nat
  unexploredSubClusterPoints : List Nat
  anyEdges : Bool
  incrementedChildCount : Bool

/-- The body of the loop over the neighbours of the vertex that is explored: a neighbour new
to `constructingSubCluster` is also put on the list of unexplored points and leaves
`examinedVertices`. -/
def exploreNeighbor (es : ExamineState) (neighbor : Nat) : ExamineState :=
  if neighbor ∈ es.constructingSubCluster then
    { es with anyEdges := true }
  else
    { es with
      anyEdges := true
      constructingSubCluster := es.constructingSubCluster ++ [neighbor]
      unexploredSubClusterPoints := es.unexploredSubClusterPoints ++ [neighbor]
      examinedVertices := es.examinedVertices.erase neighbor }

/-- The loop `while (unexploredSubClusterPoints->size > 0)`: the last unexplored point is
explored; when the sub cluster becomes valid the child count goes up, and the loop is left by
`break` when this is the first valid child, which is then kept in `firstChildCluster`. The
first argument bounds the number of iterations; there is no result when it is used up. -/
def exploreLoop (edges : List (List Nat)) (minPoints : Nat) :
    Nat → ExamineState → Option ExamineState
  | 0, es => if es.unexploredSubClusterPoints = [] then some es else none
  | fuel + 1, es =>
    match es.unexploredSubClusterPoints.getLast? with
    | none => some es
    | some vertexToExplore =>
      let es1 :=
        (edges.getD vertexToExplore []).foldl exploreNeighbor
          { es with unexploredSubClusterPoints := es.unexploredSubClusterPoints.dropLast }
      if es1.incrementedChildCount = false ∧ es1.constructingSubCluster.length ≥ minPoints ∧
          es1.anyEdges = true then
        if es1.firstChildCluster.length = 0 then
          some
            { es1 with
              incrementedChildCount := true
              numChildClusters := es1.numChildClusters + 1
              firstChildCluster := es1.constructingSubCluster.foldl set_insert es1.firstChildCluster
              unexploredFirstChildClusterPoints :=
                es1.unexploredSubClusterPoints.foldl set_insert
                  es1.unexploredFirstChildClusterPoints }
        else
          exploreLoop edges minPoints fuel
            { es1 with
              incrementedChildCount := true
              numChildClusters := es1.numChildClusters + 1 }
      else exploreLoop edges minPoints fuel es1

/-- The creation of a cluster for the points `points` out of the examined cluster: the call
of `hdbscan_create_new_cluster` with the next cluster label, the new cluster being appended
to `newClusters` and to the cluster list. -/
def createChildCluster {α : Type} [LinearOrderedField α] (D_MAX : α) (st : HierarchyState α)
    (points : List Nat) (examinedClusterLabel : Nat) (currentEdgeWeight : α) :
    HierarchyState α :=
  let r := hdbscan_create_new_cluster D_MAX st.clusters points st.currentClusterLabels
    examinedClusterLabel st.nextClusterLabel currentEdgeWeight
  { st with
    clusters := r.1 ++ [r.2.2]
    currentClusterLabels := r.2.1
    newClusters := st.newClusters ++ [r.1.length]
    nextClusterLabel := st.nextClusterLabel + 1 }

/-- The assignment of the points `points` of the examined cluster to noise: the call of
`hdbscan_create_new_cluster` with the label 0, then the noise level and the last cluster of
every point are written. -/
def assignNoise {α : Type} [LinearOrderedField α] (D_MAX : α) (st : HierarchyState α)
    (points : List Nat) (examinedClusterLabel : Nat) (currentEdgeWeight : α) :
    HierarchyState α :=
  let r := hdbscan_create_new_cluster D_MAX st.clusters points st.currentClusterLabels
    examinedClusterLabel 0 currentEdgeWeight
  { st with
    clusters := r.1
    currentClusterLabels := r.2.1
    pointNoiseLevels :=
      points.foldl (fun levels point => levels.set point currentEdgeWeight) st.pointNoiseLevels
    pointLastClusters :=
      points.foldl (fun last point => last.set point examinedClusterLabel) st.pointLastClusters
    noiseWrites :=
      points.foldl (fun w point => w.set point (w.getD point 0 + 1)) st.noiseWrites }

/-- What follows the exploration of a potential child cluster: with two or more valid
children a valid sub cluster becomes a new cluster unless it contains the member of the
first child cluster (then the child count goes down again); a sub cluster that is not valid
becomes noise. -/
def resolveSubCluster {α : Type} [LinearOrderedField α] (D_MAX : α) (minPoints : Nat)
    (st : HierarchyState α) (es : ExamineState) (examinedClusterLabel : Nat)
    (currentEdgeWeight : α) : HierarchyState α × ExamineState :=
  if es.numChildClusters ≥ 2 ∧ es.constructingSubCluster.length ≥ minPoints ∧
      es.anyEdges = true then
    if es.firstChildCluster.getLastD 0 ∈ es.constructingSubCluster then
      (st, { es with numChildClusters := es.numChildClusters - 1 })
    else
      (createChildCluster D_MAX st es.constructingSubCluster examinedClusterLabel
        currentEdgeWeight, es)
  else if es.constructingSubCluster.length < minPoints ∨ es.anyEdges = false then
    (assignNoise D_MAX st es.constructingSubCluster examinedClusterLabel currentEdgeWeight, es)
  else (st, es)

/-- The loop `while (examinedVertices->size > 0)`: the last examined vertex is the root of a
potential child cluster, which is explored and resolved. The first argument bounds the number
of iterations; there is no result when it is used up. -/
def examineRoots {α : Type} [LinearOrderedField α] (D_MAX : α) (minPoints : Nat)
    (examinedClusterLabel : Nat) (currentEdgeWeight : α) :
    Nat → HierarchyState α → ExamineState → Option (HierarchyState α × ExamineState)
  | 0, st, es => if es.examinedVertices = [] then some (st, es) else none
  | fuel + 1, st, es =>
    match es.examinedVertices.getLast? with
    | none => some (st, es)
    | some rootVertex =>
      match exploreLoop st.mst.edges minPoints st.mst.numVertices
          { es with
            examinedVertices := es.examinedVertices.dropLast
            constructingSubCluster := [rootVertex]
            unexploredSubClusterPoints := [rootVertex]
            anyEdges := false
            incrementedChildCount := false } with
      | none => none
      | some es1 =>
        examineRoots D_MAX minPoints examinedClusterLabel currentEdgeWeight fuel
          (resolveSubCluster D_MAX minPoints st es1 examinedClusterLabel currentEdgeWeight).1
          (resolveSubCluster D_MAX minPoints st es1 examinedClusterLabel currentEdgeWeight).2

/-- The body of the loop over the neighbours when the first child cluster is explored to its
end. -/
def exploreFirstChildNeighbor (es : ExamineState) (neighbor : Nat) : ExamineState :=
  if neighbor ∈ es.firstChildCluster then es
  else
    { es with
      firstChildCluster := es.firstChildCluster ++ [neighbor]
      unexploredFirstChildClusterPoints :=
        set_insert es.unexploredFirstChildClusterPoints neighbor }

/-- The loop `while (unexploredFirstChildClusterPoints->size > 0)` that finishes the
exploration of the first child cluster. The first argument bounds the number of iterations;
there is no result when it is used up. -/
def exploreFirstChild (edges : List (List Nat)) : Nat → ExamineState → Option ExamineState
  | 0, es => if es.unexploredFirstChildClusterPoints = [] then some es else none
  | fuel + 1, es =>
    match es.unexploredFirstChildClusterPoints.getLast? with
    | none => some es
    | some vertexToExplore =>
      exploreFirstChild edges fuel
        ((edges.getD vertexToExplore []).foldl exploreFirstChildNeighbor
          { es with
            unexploredFirstChildClusterPoints := es.unexploredFirstChildClusterPoints.dropLast })

/-- The examination of one affected cluster: its affected vertices are taken out of
`affectedVertices`, the potential child clusters are explored from them, and when there was a
split the first child cluster is explored to its end and becomes a new cluster. -/
def examineCluster {α : Type} [LinearOrderedField α] (D_MAX : α) (minPoints : Nat)
    (currentEdgeWeight : α) (st : HierarchyState α) (examinedClusterLabel : Nat) :
    Option (HierarchyState α) :=
  match examineRoots D_MAX minPoints examinedClusterLabel currentEdgeWeight st.mst.numVertices
      { st with
        affectedVertices :=
          st.affectedVertices.filter
            (fun n => st.currentClusterLabels.getD n 0 ≠ examinedClusterLabel) }
      { examinedVertices :=
          st.affectedVertices.filter
            (fun n => st.currentClusterLabels.getD n 0 = examinedClusterLabel)
        firstChildCluster := []
        unexploredFirstChildClusterPoints := []
        numChildClusters := 0
        constructingSubCluster := []
        unexploredSubClusterPoints := []
        anyEdges := false
        incrementedChildCount := false } with
  | none => none
  | some (st1, es) =>
    if es.numChildClusters ≥ 2 ∧
        st1.currentClusterLabels.getD (es.firstChildCluster.getD 0 0) 0 = examinedClusterLabel then
      match exploreFirstChild st1.mst.edges st1.mst.numVertices es with
      | none => none
      | some es1 =>
        some (createChildCluster D_MAX st1 es1.firstChildCluster examinedClusterLabel
          currentEdgeWeight)
    else some st1

/-- The loop `while (affectedClusterLabels->size > 0)`, the labels being given in the order
in which they are removed from the end of the set. -/
def examineClusters {α : Type} [LinearOrderedField α] (D_MAX : α) (minPoints : Nat)
    (currentEdgeWeight : α) : List Nat → HierarchyState α → Option (HierarchyState α)
  | [], st => some st
  | examinedClusterLabel :: labels, st =>
    match examineCluster D_MAX minPoints currentEdgeWeight st examinedClusterLabel with
    | none => none
    | some st1 => examineClusters D_MAX minPoints currentEdgeWeight labels st1

/-- The end of an iteration of the main loop: a hierarchy entry with the previous labels is
written when the level is significant, the new clusters get the line number as offset, and
the current labels become the previous ones. -/
def recordLevel {α : Type} (compactHierarchy : Bool) (currentEdgeWeight : α)
    (st : HierarchyState α) : HierarchyState α :=
  let significant :=
    compactHierarchy = false ∨ st.nextLevelSignificant = true ∨ st.newClusters.length > 0
  let lineCount := if significant then st.lineCount + 1 else st.lineCount
  { st with
    lineCount := lineCount
    hierarchy :=
      if significant then
        st.hierarchy ++
          [(lineCount, { edgeWeight := currentEdgeWeight, labels := st.previousClusterLabels })]
      else st.hierarchy
    clusters :=
      st.newClusters.foldl
        (fun clusters i =>
          match clusters.getD i none with
          | none => clusters
          | some cl => clusters.set i (some { cl with offset := lineCount }))
        st.clusters
    previousClusterLabels := st.currentClusterLabels
    nextLevelSignificant := if st.newClusters.length = 0 then false else true }

/-- One iteration of the main loop of `hdbscan_compute_hierarchy_and_cluster_tree`, for
`currentEdgeIndex = st.edgeCount - 1 ≥ 0`. -/
def hierarchyStep {α : Type} [LinearOrderedField α] (D_MAX : α) (minPoints : Nat)
    (compactHierarchy : Bool) (st : HierarchyState α) : Option (HierarchyState α) :=
  let currentEdgeWeight := st.mst.edgeWeights.getD (st.edgeCount - 1) 0
  let st1 := removeTiedEdges currentEdgeWeight st.edgeCount { st with newClusters := [] }
  if st1.affectedClusterLabels.length < 1 then some st1
  else
    match examineClusters D_MAX minPoints currentEdgeWeight st1.affectedClusterLabels.reverse
        { st1 with affectedClusterLabels := [] } with
    | none => none
    | some st2 => some (recordLevel compactHierarchy currentEdgeWeight st2)

/-- The main loop `while (currentEdgeIndex >= 0)`. The first argument bounds the number of
iterations; there is no result when it is used up. -/
def hierarchyLoop {α : Type} [LinearOrderedField α] (D_MAX : α) (minPoints : Nat)
    (compactHierarchy : Bool) : Nat → HierarchyState α → Option (HierarchyState α)
  | 0, st => if st.edgeCount = 0 then some st else none
  | fuel + 1, st =>
    if st.edgeCount = 0 then some st
    else
      match hierarchyStep D_MAX minPoints compactHierarchy st with
      | none => none
      | some st1 => hierarchyLoop D_MAX minPoints compactHierarchy fuel st1

/-- The state of `hdbscan_compute_hierarchy_and_cluster_tree` before its main loop: all
points carry the label 1, the cluster list holds `NULL` and the root cluster with birth
level `NAN`. The arrays `pointNoiseLevels` and `pointLastClusters` are those of the caller. -/
def hierarchyInit {α : Type} [Zero α] (D_MAX NAN : α) (mst : graph α)
    (pointNoiseLevels : List α) (pointLastClusters : List Nat) : HierarchyState α :=
  { mst := mst
    clusters :=
      [none, some (cluster_init D_MAX [none] 1 none NAN (mst.numVertices : Int)).2]
    hierarchy := []
    lineCount := 0
    edgeCount := mst.edgeWeights.length
    nextClusterLabel := 2
    nextLevelSignificant := true
    previousClusterLabels := List.replicate mst.numVertices 1
    currentClusterLabels := List.replicate mst.numVertices 1
    affectedClusterLabels := []
    affectedVertices := []
    newClusters := []
    pointNoiseLevels := pointNoiseLevels
    pointLastClusters := pointLastClusters
    noiseWrites := List.replicate mst.numVertices 0 }

/-- The function `hdbscan_compute_hierarchy_and_cluster_tree`: the main loop, then the final
hierarchy entry with key 0, edge weight 0 and all labels 0. -/
def hdbscan_compute_hierarchy_and_cluster_tree {α : Type} [LinearOrderedField α] (D_MAX NAN : α)
    (minPoints : Nat) (mst : graph α) (compactHierarchy : Bool) (pointNoiseLevels : List α)
    (pointLastClusters : List Nat) : Option (HierarchyState α) :=
  (hierarchyLoop D_MAX minPoints compactHierarchy mst.edgeWeights.length
      (hierarchyInit D_MAX NAN mst pointNoiseLevels pointLastClusters)).map
    (fun st =>
      { st with
        hierarchy :=
          st.hierarchy ++
            [(0, { edgeWeight := 0, labels := List.replicate mst.numVertices 0 })]
        lineCount := st.lineCount + 1 })

/-! ## hdbscan.c: the flat partition and the outlier scores -/

/-- Modelled from the spec: `hashtable_lookup` of the hash table module (not part of the
sources) on a table kept as the list of its entries in the order of insertion: the value
stored under `key`, if there is one. -/
def hashtable_lookup {β : Type} (table : List (Nat × β)) (key : Nat) : Option β :=
  (table.find? (fun e => e.1 = key)).map (fun e => e.2)

/-- The first loop of `hdbscan_find_prominent_clusters`: the label of the cluster at position
`c` of the cluster list is appended to the list that the table `significant` holds under the
offset of the cluster; the list is made when the table has none for that offset. A position
that holds no cluster leaves the table as it is. -/
def significantInsert {α : Type} (clusters : ClusterList α) (significant : List (Nat × List Nat))
    (c : Nat) : List (Nat × List Nat) :=
  match clusters.getD c none with
  | none => significant
  | some cl =>
    match hashtable_lookup significant cl.offset with
    | none => significant ++ [(cl.offset, [cl.label])]
    | some _ =>
      significant.map (fun e => if e.1 = cl.offset then (e.1, e.2 ++ [cl.label]) else e)

/-- The loop over the points in `hdbscan_find_prominent_clusters` for one key of
`significant`: a point whose label in the hierarchy entry is in `clusterList` gets that
label. -/
def assignSignificant (numPoints : Nat) (labels : List Nat) (clusterList : List Nat)
    (clusterLabels : List Nat) : List Nat :=
  (List.range numPoints).foldl
    (fun clusterLabels j =>
      if labels.getD j 0 ∈ clusterList then clusterLabels.set j (labels.getD j 0)
      else clusterLabels)
    clusterLabels

/-- The function `hdbscan_find_prominent_clusters`: the result is the array `clusterLabels`.
The propagated descendants of the root cluster (position 1) are grouped by their offset; for
every offset `key` the hierarchy entry with the key `key + 1` is looked up and the points
that carry one of the grouped labels there get this label; all other points keep the label 0
of `calloc`. There is no result when the cluster list has no root or the hierarchy has no
entry for `key + 1` (the code then reads through a pointer that was never set). -/
def hdbscan_find_prominent_clusters {α : Type} (clusters : ClusterList α)
    (hierarchy : List (Nat × hierarchy_entry α)) (numPoints : Nat) : Option (List Nat) :=
  match clusters.getD 1 none with
  | none => none
  | some cl =>
    (cl.propagatedDescendants.foldl (significantInsert clusters) []).foldlM
      (fun clusterLabels e =>
        match hashtable_lookup hierarchy (e.1 + 1) with
        | none => none
        | some hpSecond => some (assignSignificant numPoints hpSecond.labels e.2 clusterLabels))
      (List.replicate numPoints 0)

/-- The fields of `struct outlier_score`. -/
structure outlier_score (α : Type) where
  id : Nat
  score : α
  coreDistance : α

/-- The body of the loop of `hdbscsan_calculate_outlier_scores` for the point `i`:
`epsilon_max` is the `propagatedLowestChildDeathLevel` of the cluster at the position
`pointLastClusters[i]`, `epsilon` is `pointNoiseLevels[i]`, and the score is 0 when
`epsilon` is 0 and `1 - epsilon_max / epsilon` otherwise. There is no result when the
position holds no cluster. -/
def outlierScoreAt {α : Type} [LinearOrderedField α] (clusters : ClusterList α)
    (coreDistances pointNoiseLevels : List α) (pointLastClusters : List Nat) (i : Nat) :
    Option (outlier_score α) :=
  match clusters.getD (pointLastClusters.getD i 0) none with
  | none => none
  | some c =>
    let epsilon_max := c.propagatedLowestChildDeathLevel
    let epsilon := pointNoiseLevels.getD i 0
    some
      { id := i
        score := if epsilon ≠ 0 then 1 - epsilon_max / epsilon else 0
        coreDistance := coreDistances.getD i 0 }

/-- Modelled from the spec: the order of `outlier_score_compare` (declared outside the
sources): ascending by score, then by core distance, then by id. -/
def outlier_score_le {α : Type} [LinearOrder α] (a b : outlier_score α) : Prop :=
  a.score < b.score ∨ (a.score = b.score ∧
    (a.coreDistance < b.coreDistance ∨ (a.coreDistance = b.coreDistance ∧ a.id ≤ b.id)))

instance outlier_score_le_decidable {α : Type} [LinearOrder α] :
    DecidableRel (outlier_score_le : outlier_score α → outlier_score α → Prop) :=
  fun a b => by unfold outlier_score_le; exact inferInstance

/-- The loop of `hdbscsan_calculate_outlier_scores` for `i = 0, …, n - 1`: the entries
`outlierScores[0 .. n-1]`, before they are sorted. There is no result when a point has no
last cluster in the cluster list. -/
def outlierScoresLoop {α : Type} [LinearOrderedField α] (clusters : ClusterList α)
    (coreDistances pointNoiseLevels : List α) (pointLastClusters : List Nat) :
    Nat → Option (List (outlier_score α))
  | 0 => some []
  | n + 1 =>
    match outlierScoresLoop clusters coreDistances pointNoiseLevels pointLastClusters n with
    | none => none
    | some scores =>
      match outlierScoreAt clusters coreDistances pointNoiseLevels pointLastClusters n with
      | none => none
      | some s => some (scores ++ [s])

/-- The function `hdbscsan_calculate_outlier_scores`: the scores of all points, sorted by
`qsort` with `outlier_score_compare`. -/
def hdbscsan_calculate_outlier_scores {α : Type} [LinearOrderedField α]
    (clusters : ClusterList α) (coreDistances : List α) (numPoints : Nat)
    (pointNoiseLevels : List α) (pointLastClusters : List Nat) :
    Option (List (outlier_score α)) :=
  (outlierScoresLoop clusters coreDistances pointNoiseLevels pointLastClusters numPoints).map
    (fun scores => scores.insertionSort outlier_score_le)

/-! ## hdbscan.c: the run of the whole pipeline -/

/-- Modelled from the spec: `graph_quicksort_by_edge_weight` of the graph module (not part of
the sources): the three edge arrays are permuted consistently so that the weights stand in
non-decreasing order; the vertices and the neighbour lists stay. The spec leaves the order of
edges of equal weight open; here they keep the order they had. -/
def graph_quicksort_by_edge_weight {α : Type} [LinearOrder α] (g : graph α) : graph α :=
  { g with
    verticesA :=
      ((g.verticesA.zip (g.verticesB.zip g.edgeWeights)).insertionSort
        (fun e f => e.2.2 ≤ f.2.2)).map (fun e => e.1)
    verticesB :=
      ((g.verticesA.zip (g.verticesB.zip g.edgeWeights)).insertionSort
        (fun e f => e.2.2 ≤ f.2.2)).map (fun e => e.2.1)
    edgeWeights :=
      ((g.verticesA.zip (g.verticesB.zip g.edgeWeights)).insertionSort
        (fun e f => e.2.2 ≤ f.2.2)).map (fun e => e.2.2) }

/-- The function `hdbscan_get_dataset_size`; `rows * cols` is a product of `uint` values. -/
def hdbscan_get_dataset_size (rows cols rowwise : Nat) : Nat :=
  if rowwise = 1 then rows else rows * cols % 4294967296

/-- The fields of `struct hdbscan` that the pipeline reads or writes. A pointer that is
`NULL` is `none`. -/
structure hdbscan (α : Type) where
  minPoints : Nat
  selfEdges : Bool
  numPoints : Nat
  distanceFunction : distance α
  mst : Option (graph α)
  clusters : Option (ClusterList α)
  hierarchy : Option (List (Nat × hierarchy_entry α))
  clusterLabels : Option (List Nat)
  outlierScores : Option (List (outlier_score α))

/-- The function `hdbscan_init` for a given `sc`. The field `numPoints`, which the function
does not set, and the distance store keep the values of `sc`. -/
def hdbscan_init {α : Type} (sc : hdbscan α) (minPoints : Nat) : hdbscan α :=
  { sc with
    minPoints := minPoints
    selfEdges := true
    hierarchy := none
    clusterLabels := none
    clusters := none
    outlierScores := none }

/-- What `hdbscan_do_run` leaves behind: the engine `sc` and the values that the local
arrays `pointNoiseLevels` and `pointLastClusters` and the local flag `infiniteStability` have
when the function returns. -/
structure RunResult (α : Type) where
  sc : hdbscan α
  pointNoiseLevels : List α
  pointLastClusters : List Nat
  infiniteStability : Bool

/-- The function `hdbscan_do_run`: the spanning tree is built and sorted, then the hierarchy
and the cluster tree are built with `compactHierarchy = 0` on the local arrays
`pointNoiseLevels` and `pointLastClusters` (whose content at the start is that of the
arguments), the tree is propagated and the flat partition is extracted. The function
`hdbscan_compute_hierarchy_and_cluster_tree` appends to the cluster list and inserts into the
hierarchy of `sc`, which `hdbscan_run` has made (empty) just before; when one of them is
`NULL` there is no list to work on (`hdbscan_propagate_tree` reads `sc->clusters->size`) and
the run has no result. A cluster list or hierarchy that is not empty is outside this
model. -/
def hdbscan_do_run {α : Type} [LinearOrderedField α] (D_MAX NAN : α)
    (pointNoiseLevels : List α) (pointLastClusters : List Nat) (sc : hdbscan α) :
    Option (RunResult α) :=
  match hdbscan_construct_mst D_MAX sc.distanceFunction sc.numPoints sc.selfEdges with
  | none => none
  | some edges =>
    match sc.clusters, sc.hierarchy with
    | some [], some [] =>
      match hdbscan_compute_hierarchy_and_cluster_tree D_MAX NAN sc.minPoints
          (graph_quicksort_by_edge_weight
            (graph_init sc.numPoints edges.verticesA edges.verticesB edges.edgeWeights))
          false pointNoiseLevels pointLastClusters with
      | none => none
      | some st =>
        match hdbscan_propagate_tree D_MAX st.clusters with
        | none => none
        | some propagated =>
          match hdbscan_find_prominent_clusters propagated.1 st.hierarchy sc.numPoints with
          | none => none
          | some clusterLabels =>
            some
              { sc :=
                  { sc with
                    mst := some st.mst
                    clusters := some propagated.1
                    hierarchy := some st.hierarchy
                    clusterLabels := some clusterLabels }
                pointNoiseLevels := st.pointNoiseLevels
                pointLastClusters := st.pointLastClusters
                infiniteStability := propagated.2 }
    | _, _ => none

/-- The state in which `hdbscan_run` calls `hdbscan_do_run`: `numPoints` comes from
`hdbscan_get_dataset_size`, the distance store from `distance_compute` with the arguments
`rows`, `cols` and `minPoints - 1`, and the cluster list and the hierarchy are new. -/
def hdbscan_run_state {α β : Type} [LinearOrderedField α] (D_MAX : α) (diff : β → β → α)
    (sqrt : α → α) (uninit : Nat → α) (sc : hdbscan α) (dataset : Nat → β)
    (rows cols rowwise : Nat) : hdbscan α :=
  { sc with
    numPoints := hdbscan_get_dataset_size rows cols rowwise
    distanceFunction := distance_compute D_MAX diff sqrt uninit dataset rows cols (sc.minPoints - 1)
    clusters := some []
    hierarchy := some [] }

/-- The function `hdbscan_run` for an initialised `sc`. -/
def hdbscan_run {α β : Type} [LinearOrderedField α] (D_MAX NAN : α) (diff : β → β → α)
    (sqrt : α → α) (uninit : Nat → α) (pointNoiseLevels : List α) (pointLastClusters : List Nat)
    (sc : hdbscan α) (dataset : Nat → β) (rows cols rowwise : Nat) : Option (RunResult α) :=
  hdbscan_do_run D_MAX NAN pointNoiseLevels pointLastClusters
    (hdbscan_run_state D_MAX diff sqrt uninit sc dataset rows cols rowwise)

/-- The function `hdbscan_minimal_clean`: labels, outlier scores, spanning tree and cluster
list are released and their pointers set to `NULL`; a hierarchy that has entries is
cleared. -/
def hdbscan_minimal_clean {α : Type} (sc : hdbscan α) : hdbscan α :=
  { sc with
    clusterLabels := none
    outlierScores := none
    mst := none
    hierarchy := sc.hierarchy.map (fun _ => [])
    clusters := none }

/-- The function `hdbscan_rerun`: after `hdbscan_minimal_clean` the pointers of `sc` are set
to `NULL`, the core distances are computed for `minPts - 1` neighbours from the distances
that are stored, and `hdbscan_do_run` is called. -/
def hdbscan_rerun {α : Type} [LinearOrderedField α] (D_MAX NAN : α)
    (pointNoiseLevels : List α) (pointLastClusters : List Nat) (sc : hdbscan α) (minPts : Nat) :
    Option (RunResult α) :=
  hdbscan_do_run D_MAX NAN pointNoiseLevels pointLastClusters
    { hdbscan_minimal_clean sc with
      selfEdges := true
      hierarchy := none
      clusterLabels := none
      clusters := none
      outlierScores := none
      minPoints := minPts
      distanceFunction :=
        distance_get_core_distances D_MAX
          { (hdbscan_minimal_clean sc).distanceFunction with numNeighbors := minPts - 1 } }

/-! ## hdbscan.c: statistics -/

/-- The statistics of one kind of distance in `struct clustering_stats` (the type is declared
in a header that is not part of the sources; the fields are those the code uses). -/
structure stats_values (α : Type) where
  mean : α
  max : α
  variance : α
  standardDev : α
  skewness : α
  kurtosis : α

/-- The fields of `struct clustering_stats`. -/
structure clustering_stats (α : Type) where
  count : Int
  coreDistanceValues : stats_values α
  intraDistanceValues : stats_values α

/-- The function `hdbscan_analyse_stats`: the first `if` chain looks at the skewness and
kurtosis of the intra cluster distances, the second at those of the core distances. Only the
tests `> 0.0` and `< 0.0` are used, so any relation `<` will do (for a C `double` both tests
fail on a NaN). -/
def hdbscan_analyse_stats {α : Type} [LT α] [Zero α] [DecidableRel (fun a b : α => a < b)]
    (stats : clustering_stats α) : Int :=
  let validity : Int := 0
  let skew_cr := stats.coreDistanceValues.skewness
  let skew_dr := stats.intraDistanceValues.skewness
  let kurtosis_cr := stats.coreDistanceValues.kurtosis
  let kurtosis_dr := stats.intraDistanceValues.kurtosis
  let validity :=
    if skew_dr > 0 ∧ kurtosis_dr > 0 then validity + 2
    else if skew_dr < 0 ∧ kurtosis_dr > 0 then validity + 1
    else if skew_dr > 0 ∧ kurtosis_dr < 0 then validity + 0
    else validity + -1
  let validity :=
    if skew_cr > 0 ∧ kurtosis_cr > 0 then validity + 2
    else if skew_cr < 0 ∧ kurtosis_cr > 0 then validity + 1
    else if skew_cr > 0 ∧ kurtosis_cr < 0 then validity + 0
    else validity + -1
  validity

/-- The validity score of one pair of skewness and kurtosis in the words of the spec: 2 if
both are positive, 1 if the skewness is negative and the kurtosis positive, 0 if the skewness
is positive and the kurtosis negative, and -1 otherwise. -/
def specValidity {α : Type} [LT α] [Zero α] [DecidableRel (fun a b : α => a < b)]
    (s k : α) : Int :=
  if 0 < s ∧ 0 < k then 2
  else if s < 0 ∧ 0 < k then 1
  else if 0 < s ∧ k < 0 then 0
  else -1

/-! ## hdbscan.c: sorting the clusters -/

/-- The values of a C `double` as the comparisons of the sorting functions see them: a number
of `α`, or NaN. -/
inductive double (α : Type) where
  | nan : double α
  | num : α → double α

/-- The comparison `a <= b` of two `double` values: false when one of them is NaN. -/
def double.le {α : Type} [LE α] : double α → double α → Prop
  | double.num a, double.num b => a ≤ b
  | _, _ => False

/-- The comparison `a < b` of two `double` values: false when one of them is NaN. -/
def double.lt {α : Type} [LT α] : double α → double α → Prop
  | double.num a, double.num b => a < b
  | _, _ => False

instance double.instLE {α : Type} [LE α] : LE (double α) := ⟨double.le⟩

instance double.instLT {α : Type} [LT α] : LT (double α) := ⟨double.lt⟩

instance double.instZero {α : Type} [Zero α] : Zero (double α) := ⟨double.num 0⟩

instance double.decidableLE {α : Type} [LE α] [DecidableRel (LE.le : α → α → Prop)] :
    DecidableRel (LE.le : double α → double α → Prop)
  | double.num a, double.num b => inferInstanceAs (Decidable (a ≤ b))
  | double.nan, _ => isFalse (fun h => h)
  | double.num _, double.nan => isFalse (fun h => h)

instance double.decidableLT {α : Type} [LT α] [DecidableRel (LT.lt : α → α → Prop)] :
    DecidableRel (LT.lt : double α → double α → Prop)
  | double.num a, double.num b => inferInstanceAs (Decidable (a < b))
  | double.nan, _ => isFalse (fun h => h)
  | double.num _, double.nan => isFalse (fun h => h)

/-- The exchange of the entries `i` and `j` of an array through a temporary variable. -/
def swapEntries {β : Type} (l : List β) (i j : Nat) (dflt : β) : List β :=
  (l.set i (l.getD j dflt)).set j (l.getD i dflt)

/-- The loop `while((up < down) && (d_data[up] <= x)) up++` of `partition`; the result is the
value of `up` when the loop is left. The first argument bounds the number of iterations;
there is no result when it is used up. -/
def scanUp {α : Type} [LE α] [LT α] [DecidableRel (LE.le : α → α → Prop)]
    [DecidableRel (LT.lt : α → α → Prop)] [Zero α]
    (d_data : List α) (x : α) (down : Nat) :
    Nat → Nat → Option Nat
  | 0, up => if up < down ∧ d_data.getD up 0 ≤ x then none else some up
  | fuel + 1, up =>
    if up < down ∧ d_data.getD up 0 ≤ x then scanUp d_data x down fuel (up + 1) else some up

/-- The loop `while((up < down) && (d_data[down] > x)) down--` of `partition`; the result is
the value of `down` when the loop is left. The first argument bounds the number of
iterations; there is no result when it is used up. -/
def scanDown {α : Type} [LE α] [LT α] [DecidableRel (LE.le : α → α → Prop)]
    [DecidableRel (LT.lt : α → α → Prop)] [Zero α]
    (d_data : List α) (x : α) (up : Nat) :
    Nat → Nat → Option Nat
  | 0, down => if up < down ∧ d_data.getD down 0 > x then none else some down
  | fuel + 1, down =>
    if up < down ∧ d_data.getD down 0 > x then scanDown d_data x up fuel (down - 1)
    else some down

/-- The loop `while(up < down)` of `partition`: the two scans, the `break` when the indices
meet, and the exchange of the entries at `up` and `down` in both arrays. The result is the
two arrays and the values of `up` and `down` when the loop is left. The first argument bounds
the number of iterations; there is no result when it is used up. -/
def partitionLoop {α : Type} [LE α] [LT α] [DecidableRel (LE.le : α → α → Prop)]
    [DecidableRel (LT.lt : α → α → Prop)] [Zero α] (x : α) :
    Nat → List Nat → List α → Nat → Nat → Option (List Nat × List α × Nat × Nat)
  | 0, c_data, d_data, up, down => if up < down then none else some (c_data, d_data, up, down)
  | fuel + 1, c_data, d_data, up, down =>
    if up < down then
      match scanUp d_data x down (down - up) up with
      | none => none
      | some up1 =>
        match scanDown d_data x up1 (down - up1) down with
        | none => none
        | some down1 =>
          if up1 = down1 then some (c_data, d_data, up1, down1)
          else
            partitionLoop x fuel (swapEntries c_data up1 down1 0) (swapEntries d_data up1 down1 0)
              up1 down1
    else some (c_data, d_data, up, down)

/-- The function `partition`: the entry `x = d_data[lower]` is the pivot; after the loop `up`
is lowered by one when `d_data[up] > x`, and the entries at `lower` and `up` are exchanged in
both arrays. The result is the two arrays and `*pivot`. -/
def partition {α : Type} [LE α] [LT α] [DecidableRel (LE.le : α → α → Prop)]
    [DecidableRel (LT.lt : α → α → Prop)] [Zero α]
    (c_data : List Nat) (d_data : List α)
    (lower upper : Nat) : Option (List Nat × List α × Nat) :=
  let x := d_data.getD lower 0
  let x2 := c_data.getD lower 0
  match partitionLoop x (2 * (upper - lower)) c_data d_data (lower + 1) upper with
  | none => none
  | some (c1, d1, up, _) =>
    let up1 := if d1.getD up 0 > x then up - 1 else up
    some ((c1.set lower (c1.getD up1 0)).set up1 x2, (d1.set lower (d1.getD up1 0)).set up1 x,
      up1)

/-- The function `hdbscan_quicksort` on the data of the two array lists. The indices are not
negative here: the code calls itself with `pivot - 1 = -1` only for `left = 0`, and then does
nothing, as it does for the right end 0. The first argument bounds the depth of the
recursion; there is no result when it is used up. -/
def hdbscan_quicksort {α : Type} [LE α] [LT α] [DecidableRel (LE.le : α → α → Prop)]
    [DecidableRel (LT.lt : α → α → Prop)] [Zero α] :
    Nat → List Nat → List α → Nat → Nat → Option (List Nat × List α)
  | 0, clusters, sortData, left, right =>
    if left < right then none else some (clusters, sortData)
  | fuel + 1, clusters, sortData, left, right =>
    if left < right then
      match partition clusters sortData left right with
      | none => none
      | some (c1, d1, pivot) =>
        match hdbscan_quicksort fuel c1 d1 left (pivot - 1) with
        | none => none
        | some (c2, d2) => hdbscan_quicksort fuel c2 d2 (pivot + 1) right
    else some (clusters, sortData)

/-- The fields of `struct distance_values` (declared in a header that is not part of the
sources). -/
structure distance_values (α : Type) where
  min_cr : α
  max_cr : α
  cr_confidence : α
  min_dr : α
  max_dr : α
  dr_confidence : α

/-- The loops that fill the array of the sort data (`distances`, `lengths`) in
`hdbscan_sort_by_similarity` and `hdbscan_sort_by_length`, run in the order of the index:
the value of every key is appended. There is no result when a key has no value. -/
def gatherSortData {α : Type} (value : Nat → Option α) : List Nat → Option (List α)
  | [] => some []
  | key :: keys =>
    match value key with
    | none => none
    | some v =>
      match gatherSortData value keys with
      | none => none
      | some sortData => some (v :: sortData)

/-- The body of the loops of `hdbscan_sort_by_similarity`: the entry of the table for the key
is looked up and its confidence of the kind `distanceType` is taken. There is no value when
the table has no entry for the key (`dv` is `NULL` then). The value of the macro
`CORE_DISTANCE_TYPE`, declared outside the sources, is a parameter. -/
def clusterConfidence {α : Type} (CORE_DISTANCE_TYPE : Int)
    (distanceMap : List (Nat × distance_values α)) (distanceType : Int) (key : Nat) :
    Option α :=
  match hashtable_lookup distanceMap key with
  | none => none
  | some dv =>
    some (if distanceType = CORE_DISTANCE_TYPE then dv.cr_confidence else dv.dr_confidence)

/-- The function `hdbscan_sort_by_similarity`: when `clusters` is `NULL` or empty the keys of
the table are taken (in the order of the key set), otherwise the given clusters; the
confidences are gathered and the clusters are sorted along with them by `hdbscan_quicksort`
from 0 to `clusters->size - 1`. -/
def hdbscan_sort_by_similarity {α : Type} [LE α] [LT α] [DecidableRel (LE.le : α → α → Prop)]
    [DecidableRel (LT.lt : α → α → Prop)] [Zero α]
    (CORE_DISTANCE_TYPE : Int)
    (distanceMap : List (Nat × distance_values α)) (clusters : Option (List Nat))
    (distanceType : Int) : Option (List Nat) :=
  let clusters1 :=
    if (clusters.getD []).length = 0 then distanceMap.map (fun e => e.1) else clusters.getD []
  match gatherSortData (clusterConfidence CORE_DISTANCE_TYPE distanceMap distanceType)
      clusters1 with
  | none => none
  | some distances =>
    (hdbscan_quicksort clusters1.length clusters1 distances 0 (clusters1.length - 1)).map
      (fun r => r.1)

/-- The body of the loops of `hdbscan_sort_by_length`: the list of the table for the key is
looked up and its size is converted to `double`, here the type `α`. There is no value when
the table has no entry for the key (`lst` is `NULL` then). -/
def clusterLength (α : Type) [NatCast α] (clusterTable : List (Nat × List Nat)) (key : Nat) :
    Option α :=
  match hashtable_lookup clusterTable key with
  | none => none
  | some lst => some (lst.length : α)

/-- The function `hdbscan_sort_by_length` for `clusters` other than `NULL` (the function
asserts it): when `clusters` is empty the keys of the table are taken, otherwise the given
clusters; the sizes of their lists are gathered as values of the type `α` and the clusters
are sorted along with them by `hdbscan_quicksort` from 0 to `clusters->size - 1`. -/
def hdbscan_sort_by_length (α : Type) [LE α] [LT α] [DecidableRel (LE.le : α → α → Prop)]
    [DecidableRel (LT.lt : α → α → Prop)] [Zero α] [NatCast α]
    (clusterTable : List (Nat × List Nat)) (clusters : List Nat) : Option (List Nat) :=
  let clusters1 := if clusters.length = 0 then clusterTable.map (fun e => e.1) else clusters
  match gatherSortData (clusterLength α clusterTable) clusters1 with
  | none => none
  | some lengths =>
    (hdbscan_quicksort clusters1.length clusters1 lengths 0 (clusters1.length - 1)).map
      (fun r => r.1)

/-! ## hdbscan.c: the distances within the clusters -/

/-- The body of the loop over `k` of `hdbscan_get_min_max_distances`: the distance between
the point `index` and the member `idxList[k]` lowers `min_dr` when it is smaller and not
zero, and raises `max_dr` when it is greater. -/
def minMaxPairStep {α : Type} [LinearOrder α] [Zero α] (dis : distance α) (index : Nat)
    (idxList : List Nat) (dl : distance_values α) (k : Nat) : distance_values α :=
  let d := distance_get dis index (idxList.getD k 0)
  let dl1 := if dl.min_dr > d ∧ (d < 0 ∨ d > 0) then { dl with min_dr := d } else dl
  if dl1.max_dr < d then { dl1 with max_dr := d } else dl1

/-- The loop `for(size_t k = j+1; k < clusterLabels->size; k++)` of
`hdbscan_get_min_max_distances`, where `j` is the position of the key of the cluster in the
key set. -/
def minMaxPairLoop {α : Type} [LinearOrder α] [Zero α] (dis : distance α) (j index : Nat)
    (idxList : List Nat) (dl : distance_values α) : distance_values α :=
  (List.range' (j + 1) (idxList.length - (j + 1))).foldl (minMaxPairStep dis index idxList) dl

/-- The body of the loop over the members `i` of a cluster in `hdbscan_get_min_max_distances`.
When the map has no entry for the key, a new entry is made from the core distance of the
member, with `min_dr = DBL_MAX` and `max_dr = DBL_MIN`, and inserted; otherwise the core
distance of the member lowers `min_cr` (when it is not zero) and raises `max_cr`. Then the
loop over `k` runs on the entry. The entry is changed through the pointer `dl`; here the
changed entry is written back to the map. -/
def minMaxMemberStep {α : Type} [LinearOrder α] [Zero α] (D_MAX D_MIN : α) (dis : distance α)
    (key j : Nat) (idxList : List Nat) (distanceMap : List (Nat × distance_values α))
    (i : Nat) : List (Nat × distance_values α) :=
  let index := idxList.getD i 0
  let core := dis.coreDistances.getD index 0
  match hashtable_lookup distanceMap key with
  | none =>
    distanceMap ++
      [(key, minMaxPairLoop dis j index idxList
        { min_cr := core, max_cr := core, cr_confidence := 0, min_dr := D_MAX, max_dr := D_MIN,
          dr_confidence := 0 })]
  | some dl =>
    let dl1 := if dl.min_cr > core ∧ (core < 0 ∨ core > 0) then { dl with min_cr := core } else dl
    let dl2 := if dl1.max_cr < core then { dl1 with max_cr := core } else dl1
    distanceMap.map
      (fun e => if e.1 = key then (key, minMaxPairLoop dis j index idxList dl2) else e)

/-- The body of the loop over the positions `j` of the key set in
`hdbscan_get_min_max_distances`: the key at position `j` is read, its list of members is
looked up and the loop over the members runs. There is no result when the table has no list
for the key (`clusterLabels` is `NULL` then). -/
def minMaxKeyStep {α : Type} [LinearOrder α] [Zero α] (D_MAX D_MIN : α) (dis : distance α)
    (clusterTable : List (Nat × List Nat)) (distanceMap : List (Nat × distance_values α))
    (j : Nat) : Option (List (Nat × distance_values α)) :=
  let key := (clusterTable.getD j (0, [])).1
  match hashtable_lookup clusterTable key with
  | none => none
  | some idxList =>
    some ((List.range idxList.length).foldl (minMaxMemberStep D_MAX D_MIN dis key j idxList)
      distanceMap)

/-- The function `hdbscan_get_min_max_distances`. The cluster table is the list of its
entries in the order of the key set; the result is the distance map, in the order in which
the entries were inserted. The values of `DBL_MAX` and `DBL_MIN` are parameters. -/
def hdbscan_get_min_max_distances {α : Type} [LinearOrder α] [Zero α] (D_MAX D_MIN : α)
    (dis : distance α) (clusterTable : List (Nat × List Nat)) :
    Option (List (Nat × distance_values α)) :=
  (List.range clusterTable.length).foldlM (minMaxKeyStep D_MAX D_MIN dis clusterTable) []

/-- The pair `(min_dr, max_dr)` that a distance map holds for the cluster `key`. -/
def intraRange {α : Type} (distanceMap : Option (List (Nat × distance_values α))) (key : Nat) :
    Option (α × α) :=
  match distanceMap with
  | none => none
  | some m => (hashtable_lookup m key).map (fun dl => (dl.min_dr, dl.max_dr))

/-! ## hdbscan.c: the moments of the ratios of the clusters -/

/-- The assignment of the two skewness fields of `stats`. -/
def setSkewness {α : Type} (stats : clustering_stats α) (core intra : α) : clustering_stats α :=
  { stats with
    coreDistanceValues := { stats.coreDistanceValues with skewness := core }
    intraDistanceValues := { stats.intraDistanceValues with skewness := intra } }

/-- The assignment of the two kurtosis fields of `stats`. -/
def setKurtosis {α : Type} (stats : clustering_stats α) (core intra : α) : clustering_stats α :=
  { stats with
    coreDistanceValues := { stats.coreDistanceValues with kurtosis := core }
    intraDistanceValues := { stats.intraDistanceValues with kurtosis := intra } }

/-- The first `if` of `hdbscan_skew_kurt_2`: the skewness, for `count >= 2`, and `0.0/0.0`
otherwise. -/
def skewStage {α : Type} [Ring α] (fdiv : α → α → α) (stats : clustering_stats α)
    (sum_sc sum_sd : α) : clustering_stats α :=
  if stats.count ≥ 2 then
    setSkewness stats
      (fdiv (stats.count : α) (((stats.count - 1) * (stats.count - 2) : Int) : α) *
        fdiv sum_sc (stats.coreDistanceValues.standardDev ^ 3))
      (fdiv (stats.count : α) (((stats.count - 1) * (stats.count - 2) : Int) : α) *
        fdiv sum_sd (stats.intraDistanceValues.standardDev ^ 3))
  else setSkewness stats (fdiv 0 0) (fdiv 0 0)

/-- The second `if` of `hdbscan_skew_kurt_2`: the first term of the kurtosis, for
`count >= 3`. -/
def kurtStage1 {α : Type} [Ring α] (fdiv : α → α → α) (stats : clustering_stats α)
    (sum_dc sum_dd : α) : clustering_stats α :=
  if stats.count ≥ 3 then
    setKurtosis stats
      (fdiv ((stats.count : α) * ((stats.count + 1 : Int) : α))
          (((stats.count - 1) * (stats.count - 2) * (stats.count - 3) : Int) : α) *
        fdiv sum_dc (stats.coreDistanceValues.standardDev ^ 4))
      (fdiv ((stats.count : α) * ((stats.count + 1 : Int) : α))
          (((stats.count - 1) * (stats.count - 2) * (stats.count - 3) : Int) : α) *
        fdiv sum_dd (stats.intraDistanceValues.standardDev ^ 4))
  else stats

/-- The third `if` of `hdbscan_skew_kurt_2`: the second term is subtracted from the
kurtosis, for `count >= 3`, and the kurtosis is `0.0/0.0` otherwise. -/
def kurtStage2 {α : Type} [Ring α] (fdiv : α → α → α) (stats : clustering_stats α) :
    clustering_stats α :=
  if stats.count ≥ 3 then
    setKurtosis stats
      (stats.coreDistanceValues.kurtosis -
        fdiv (3 * ((stats.count : α) - 1) * ((stats.count - 1 : Int) : α))
          (((stats.count - 2) * (stats.count - 3) : Int) : α))
      (stats.intraDistanceValues.kurtosis -
        fdiv (3 * ((stats.count : α) - 1) * ((stats.count - 1 : Int) : α))
          (((stats.count - 2) * (stats.count - 3) : Int) : α))
  else setKurtosis stats (fdiv 0 0) (fdiv 0 0)

/-- The function `hdbscan_skew_kurt_2`. The division of `double` values is the parameter
`fdiv`, so that a division by zero stays visible; `0.0/0.0` is `fdiv 0 0`. The count `N` is
an `int32_t`, whose products in the divisors are taken without overflow here (they do not
overflow for counts up to 1291) and converted to `double`. -/
def hdbscan_skew_kurt_2 {α : Type} [Ring α] (fdiv : α → α → α) (stats : clustering_stats α)
    (sum_sc sum_sd sum_dc sum_dd : α) : clustering_stats α :=
  kurtStage2 fdiv (kurtStage1 fdiv (skewStage fdiv stats sum_sc sum_sd) sum_dc sum_dd)

/-- The first loop of `hdbscan_calculate_stats_helper` for one kind of distance: `mean` and
`max` start as `r[0]`; for `i = 1, …, count - 1` the maximum is raised to `r[i]` where that is
greater and `r[i]` is added to `mean`. The result is the pair of `mean` (still the sum) and
`max`. -/
def statsSumMax {α : Type} [LinearOrderedRing α] (r : List α) (count : Int) : α × α :=
  (List.range' 1 (count.toNat - 1)).foldl
    (fun s i => (s.1 + r.getD i 0, if r.getD i 0 > s.2 then r.getD i 0 else s.2))
    (r.getD 0 0, r.getD 0 0)

/-- The second loop of `hdbscan_calculate_stats_helper` for one kind of distance: for
`i = 0, …, count - 1` the square of `r[i] - mean` is added to `variance`, its third power to
the sum of the third powers and its fourth power to the sum of the fourth powers. The sums
start at 0; `variance` starts at the value it has in `stats` when the function is called.
The result is the triple of `variance`, the sum of the third and the sum of the fourth
powers. -/
def statsPowerSums {α : Type} [LinearOrderedRing α] (r : List α) (count : Int) (mean : α)
    (variance : α) : α × α × α :=
  (List.range count.toNat).foldl
    (fun s i =>
      (s.1 + (r.getD i 0 - mean) * (r.getD i 0 - mean), s.2.1 + (r.getD i 0 - mean) ^ 3,
        s.2.2 + (r.getD i 0 - mean) ^ 4))
    (variance, 0, 0)

/-- The function `hdbscan_calculate_stats_helper`: mean and maximum of the ratios `cr` and
`dr`, then the variance (divided by `count - 1`), the standard deviation, and the skewness
and kurtosis by `hdbscan_skew_kurt_2`. The function reads `stats->count` and, in the second
loop, the values that the `variance` fields have when it is called. The division and the
square root of `double` values are parameters. -/
def hdbscan_calculate_stats_helper {α : Type} [LinearOrderedRing α] (fdiv : α → α → α)
    (sqrt : α → α) (cr dr : List α) (stats : clustering_stats α) : clustering_stats α :=
  let mean_c := fdiv (statsSumMax cr stats.count).1 (stats.count : α)
  let mean_d := fdiv (statsSumMax dr stats.count).1 (stats.count : α)
  let sums_c := statsPowerSums cr stats.count mean_c stats.coreDistanceValues.variance
  let sums_d := statsPowerSums dr stats.count mean_d stats.intraDistanceValues.variance
  let variance_c := fdiv sums_c.1 ((stats.count - 1 : Int) : α)
  let variance_d := fdiv sums_d.1 ((stats.count - 1 : Int) : α)
  hdbscan_skew_kurt_2 fdiv
    { stats with
      coreDistanceValues :=
        { stats.coreDistanceValues with
          mean := mean_c
          max := (statsSumMax cr stats.count).2
          variance := variance_c
          standardDev := sqrt variance_c }
      intraDistanceValues :=
        { stats.intraDistanceValues with
          mean := mean_d
          max := (statsSumMax dr stats.count).2
          variance := variance_d
          standardDev := sqrt variance_d } }
    sums_c.2.1 sums_d.2.1 sums_c.2.2 sums_d.2.2

/-! ## listlib: the prime helper and its test -/

/-- Modelled from the spec: `find_prime_less_than` of the list library (`listlib/primes.h`,
not part of the sources; only its test is). The spec describes it as the function that
returns the largest prime `p ≤ k`; for `k < 2`, where there is none, the result is 0 here. -/
def find_prime_less_than : Nat → Nat
  | 0 => 0
  | k + 1 => if Nat.Prime (k + 1) then k + 1 else find_prime_less_than k

/-- The function `test_find_prime_less_than` of `primetests.c` for a given implementation of
the helper: the four assertions, all of which must hold for the test to pass. -/
def test_find_prime_less_than (helper : Nat → Nat) : Prop :=
  29 = helper 10 ∧ 29 = helper 29 ∧ 91 = helper 93 ∧ 93 = helper 93

/-- The value that a result `x` of `int` arithmetic has when it leaves the range of the
32-bit integers and wraps around: `x` modulo `2^32`, taken between `-2^31` and `2^31 - 1`. -/
def wrapInt32 (x : Int) : Int := (x + 2147483648) % 4294967296 - 2147483648

/-- The difference `(distance_t)(dt[..] - dt[..])` of the branch `H_INT` of
`distance_compute`: the two elements are subtracted as `int` values, and the result of the
subtraction is converted to `distance_t`. -/
def int32Diff (a b : Int) : ℚ := ((wrapInt32 (a - b) : Int) : ℚ)

/-! ### Auxiliary notions for the proofs about the expansion rounds -/

/-- The unattached points other than the current one: those that the scan of a round
looks at. -/
def mstCandidate (attachedPoints : List Bool) (currentPoint v : Nat) : Prop :=
  currentPoint ≠ v ∧ attachedPoints.getD v false = false

instance (attachedPoints : List Bool) (currentPoint v : Nat) :
    Decidable (mstCandidate attachedPoints currentPoint v) := by
  unfold mstCandidate; infer_instance

/-- The nearest distance of `v` after the scan of a round. -/
def scanDist {α : Type} [LinearOrder α] [Zero α] (D_MAX : α) (dis : distance α)
    (attachedPoints : List Bool) (currentPoint : Nat) (dists : List α) (v : Nat) : α :=
  if mstCandidate attachedPoints currentPoint v ∧
      mutualReachability dis v currentPoint < dists.getD v D_MAX then
    mutualReachability dis v currentPoint
  else dists.getD v D_MAX

/-- The nearest neighbour of `v` after the scan of a round. -/
def scanNeighbor {α : Type} [LinearOrder α] [Zero α] (D_MAX : α) (dis : distance α)
    (attachedPoints : List Bool) (currentPoint : Nat) (dists : List α) (neighbors : List Nat)
    (v : Nat) : Nat :=
  if mstCandidate attachedPoints currentPoint v ∧
      mutualReachability dis v currentPoint < dists.getD v D_MAX then
    currentPoint
  else neighbors.getD v 0

/-- What holds after the scan has looked at the points below `n`. -/
structure ScanInv {α : Type} [LinearOrder α] [Zero α] (D_MAX : α) (dis : distance α)
    (attachedPoints : List Bool) (currentPoint : Nat) (dists : List α) (neighbors : List Nat)
    (n : Nat) (s : MstScan α) : Prop where
  len_d : s.nearestMRDDistances.length = dists.length
  len_n : s.nearestMRDNeighbors.length = neighbors.length
  dist_lt : ∀ v, v < n →
    s.nearestMRDDistances.getD v D_MAX = scanDist D_MAX dis attachedPoints currentPoint dists v
  dist_ge : ∀ v, n ≤ v → s.nearestMRDDistances.getD v D_MAX = dists.getD v D_MAX
  nb_lt : ∀ v, v < n →
    s.nearestMRDNeighbors.getD v 0 =
      scanNeighbor D_MAX dis attachedPoints currentPoint dists neighbors v
  nb_ge : ∀ v, n ≤ v → s.nearestMRDNeighbors.getD v 0 = neighbors.getD v 0
  best_le : s.nearestMRDDistance ≤ D_MAX
  best_none : s.nearestMRDPoint = none →
    ∀ v, v < n → ¬ mstCandidate attachedPoints currentPoint v
  best_none_eq : s.nearestMRDPoint = none → s.nearestMRDDistance = D_MAX
  best_some : ∀ p, s.nearestMRDPoint = some p →
    p < n ∧ mstCandidate attachedPoints currentPoint p ∧
    s.nearestMRDDistance = scanDist D_MAX dis attachedPoints currentPoint dists p ∧
    ∀ v, v < n → mstCandidate attachedPoints currentPoint v →
      scanDist D_MAX dis attachedPoints currentPoint dists p ≤
        scanDist D_MAX dis attachedPoints currentPoint dists v

/-- The hypothesis "the mutual reachability distances are finite": they lie strictly below
`D_MAX`, the value that stands for "no distance yet" in `hdbscan_construct_mst`. -/
def FiniteMRD {α : Type} [LinearOrder α] [Zero α] (D_MAX : α) (dis : distance α) (size : Nat) :
    Prop :=
  ∀ a b, a < size → b < size → a ≠ b → mutualReachability dis a b < D_MAX

/-- The invariant of the expansion rounds of `hdbscan_construct_mst` when `k` points are
attached; `pt t` is the point attached as number `t` (`pt 0` is the last point of the data
set). -/
structure PrimInv {α : Type} [LinearOrder α] [Zero α] (D_MAX : α) (dis : distance α)
    (size ssize k : Nat) (pt : Nat → Nat) (st : MstState α) : Prop where
  att_len : st.attachedPoints.length = size
  nb_len : st.nearestMRDNeighbors.length = ssize
  ot_len : st.otherVertexIndices.length = ssize
  d_len : st.nearestMRDDistances.length = ssize
  pt_zero : pt 0 = size - 1
  pt_lt : ∀ t, t < k → pt t < size
  pt_inj : ∀ s t, s < k → t < k → pt s = pt t → s = t
  pt_cur : st.currentPoint = pt (k - 1)
  att_iff : ∀ v, v < size → (st.attachedPoints.getD v false = true ↔ ∃ t, t < k ∧ pt t = v)
  d_le : ∀ v, st.nearestMRDDistances.getD v D_MAX ≤ D_MAX
  nb_lt : ∀ v, st.nearestMRDNeighbors.getD v 0 < size
  other_lt : ∀ v, v < k → v < ssize → st.otherVertexIndices.getD v 0 = v
  other_ge : ∀ v, k ≤ v → st.otherVertexIndices.getD v 0 = 0
  frozen : FiniteMRD D_MAX dis size → ∀ t, 1 ≤ t → t < k →
    (∃ s, s < t ∧ st.nearestMRDNeighbors.getD (pt t) 0 = pt s) ∧
    st.nearestMRDDistances.getD (pt t) D_MAX =
      mutualReachability dis (pt t) (st.nearestMRDNeighbors.getD (pt t) 0) ∧
    ∀ s, s < t → ∀ y, y < size → (∀ s', s' < t → pt s' ≠ y) →
      st.nearestMRDDistances.getD (pt t) D_MAX ≤ mutualReachability dis y (pt s)
  keys_init : k = 1 → ∀ v, st.nearestMRDDistances.getD v D_MAX = D_MAX
  keys_le : ∀ v, v < size → st.attachedPoints.getD v false = false → ∀ s, s + 1 < k →
    st.nearestMRDDistances.getD v D_MAX ≤ mutualReachability dis v (pt s)
  keys_nb : FiniteMRD D_MAX dis size → 2 ≤ k → ∀ v, v < size →
    st.attachedPoints.getD v false = false →
    ∃ s, s + 1 < k ∧ st.nearestMRDNeighbors.getD v 0 = pt s ∧
      st.nearestMRDDistances.getD v D_MAX =
        mutualReachability dis v (st.nearestMRDNeighbors.getD v 0)

/-- The weight of the edge between `a` and `b` in the mutual reachability graph:
`max(coreDistance[a], coreDistance[b], d(a,b))`. -/
def mrdWeight {α : Type} [LinearOrder α] [Zero α] (dis : distance α) (a b : Nat) : α :=
  max (max (dis.coreDistances.getD a 0) (dis.coreDistances.getD b 0)) (distance_get dis a b)

/-- The weight `mrdWeight` as a function of the unordered pair of end points. -/
def mrdEdgeWeight {α : Type} [LinearOrder α] [Zero α] (dis : distance α) (size : Nat) :
    Sym2 (Fin size) → α :=
  Sym2.lift ⟨fun a b => mrdWeight dis a.val b.val, by
    intro a b
    have hget : distance_get dis a.val b.val = distance_get dis b.val a.val := by
      unfold distance_get
      rcases Nat.lt_trichotomy a.val b.val with h | h | h
      · rw [if_pos h, if_neg (by omega), if_neg (by omega)]
      · rw [h]
      · rw [if_neg (by omega), if_neg (by omega), if_pos h]
    show mrdWeight dis a.val b.val = mrdWeight dis b.val a.val
    unfold mrdWeight
    rw [hget, max_comm (dis.coreDistances.getD a.val 0)]⟩

/-- The graph on the points `0 .. size-1` whose edges are the real edges of the result of
`hdbscan_construct_mst`: the pairs `(verticesA[v], verticesB[v])` at the positions
`v ≤ size - 2`. -/
def mstGraph {α : Type} (size : Nat) (g : MstEdges α) : SimpleGraph (Fin size) :=
  SimpleGraph.fromRel
    (fun a b => ∃ v, v < size - 1 ∧ g.verticesA.getD v 0 = a.val ∧ g.verticesB.getD v 0 = b.val)

/-- The stability of the cluster at position `d` of the list (`0` for `NULL`). -/
def stabilityAt {α : Type} [Zero α] (clusters : ClusterList α) (d : Nat) : α :=
  match clusters.getD d none with
  | none => 0
  | some c => c.stability

/-- The position of the parent of the cluster at position `j`, if there is one. -/
def parentAt {α : Type} (clusters : ClusterList α) (j : Nat) : Option Nat :=
  match clusters.getD j none with
  | none => none
  | some c => c.parent

/-- What `cluster_propagate` adds to the propagated stability of the parent of the cluster
`cl`: the stability of the cluster when it has no children or its stability is at least its
propagated stability, the propagated stability otherwise (constraint counts being equal). -/
def chosenStability {α : Type} [LinearOrder α] (cl : cluster α) : α :=
  if cl.hasChildren = false ∨ cl.stability ≥ cl.propagatedStability then cl.stability
  else cl.propagatedStability

/-- What `cluster_propagate` appends to the descendants of the parent of the cluster at
position `x`. -/
def chosenDescendants {α : Type} [LinearOrder α] (cl : cluster α) (x : Nat) : List Nat :=
  if cl.hasChildren = false ∨ cl.stability ≥ cl.propagatedStability then [x]
  else cl.propagatedDescendants

/-- A well-formed cluster tree in the list `sc->clusters`: position 0 holds `NULL`, position 1
the root, every further position a cluster whose parent stands at a smaller position; the
label of a cluster is its position, and `hasChildren` is set exactly for the clusters that are
the parent of some cluster. -/
structure ClusterTree {α : Type} (clusters : ClusterList α) : Prop where
  two_le : 2 ≤ clusters.length
  null : clusters.getD 0 none = none
  root : ∃ r, clusters.getD 1 none = some r ∧ r.parent = none
  nonroot : ∀ i, 2 ≤ i → i < clusters.length →
    ∃ c p, clusters.getD i none = some c ∧ c.parent = some p ∧ 1 ≤ p ∧ p < i
  label : ∀ i c, clusters.getD i none = some c → c.label = i
  children : ∀ i c, clusters.getD i none = some c →
    (c.hasChildren = true ↔ ∃ j, parentAt clusters j = some i)

/-- The cluster at position `a` is a proper ancestor of the cluster at position `s`. -/
inductive IsAncestor {α : Type} (clusters : ClusterList α) : Nat → Nat → Prop
  | parent {a s : Nat} : parentAt clusters s = some a → IsAncestor clusters a s
  | step {a p s : Nat} : parentAt clusters s = some p → IsAncestor clusters a p →
      IsAncestor clusters a s

/-- The clusters come from `cluster_init` and carry no constraints: the propagated stability
is 0, there are no propagated descendants and the constraint counts are 0. -/
def FreshPropagation {α : Type} [Zero α] (clusters : ClusterList α) : Prop :=
  ∀ i c, clusters.getD i none = some c →
    c.propagatedStability = 0 ∧ c.propagatedDescendants = [] ∧
    c.numConstraintsSatisfied = 0 ∧ c.propagatedNumConstraintsSatisfied = 0

/-- The value `chosenStability` of the cluster at position `j` (`0` for `NULL`). -/
def chosenAt {α : Type} [LinearOrder α] [Zero α] (clusters : ClusterList α) (j : Nat) : α :=
  match clusters.getD j none with
  | none => 0
  | some c => chosenStability c

/-- The invariant of the loop of `hdbscan_propagate_tree` on the cluster tree `cs0`; `D` is the
set of the clusters on which `cluster_propagate` has been called. -/
structure PropInv {α : Type} [LinearOrderedAddCommMonoid α] (cs0 : ClusterList α)
    (st : PropagateState α) (D : Finset Nat) : Prop where
  len : st.clusters.length = cs0.length
  alen : st.addedToExaminationList.length = cs0.length
  frame_none : ∀ i, cs0.getD i none = none → st.clusters.getD i none = none
  frame_some : ∀ i c0, cs0.getD i none = some c0 →
    ∃ c, st.clusters.getD i none = some c ∧ c.label = c0.label ∧ c.parent = c0.parent ∧
      c.hasChildren = c0.hasChildren ∧ c.stability = c0.stability ∧
      c.numConstraintsSatisfied = 0 ∧ c.propagatedNumConstraintsSatisfied = 0
  D_valid : ∀ x ∈ D, 1 ≤ x ∧ x < cs0.length
  W_sorted : st.clustersToExamine.Sorted (· ≤ ·)
  W_nodup : st.clustersToExamine.Nodup
  W_mem : ∀ x ∈ st.clustersToExamine,
    1 ≤ x ∧ x < cs0.length ∧ x ∉ D ∧ st.addedToExaminationList.getD x false = true
  added_mem : ∀ i, st.addedToExaminationList.getD i false = true →
    i ∈ st.clustersToExamine ∨ i ∈ D
  added_iff : ∀ i c0, cs0.getD i none = some c0 →
    (st.addedToExaminationList.getD i false = true ↔
      (c0.hasChildren = false ∨ ∃ j ∈ D, parentAt cs0 j = some i))
  closed : ∀ x ∈ D, ∀ j, parentAt cs0 j = some x → j ∈ D
  value : ∀ i c, st.clusters.getD i none = some c →
    c.propagatedStability =
      ∑ j in D.filter (fun j => parentAt cs0 j = some i), chosenAt st.clusters j
  desc_sum : ∀ i c, st.clusters.getD i none = some c →
    (c.propagatedDescendants.map (stabilityAt cs0)).sum = c.propagatedStability
  desc_sub : ∀ i c, st.clusters.getD i none = some c → ∀ d ∈ c.propagatedDescendants,
    ∃ j ∈ D, parentAt cs0 j = some i ∧ (d = j ∨ IsAncestor cs0 j d)
  desc_nodup : ∀ i c, st.clusters.getD i none = some c → c.propagatedDescendants.Nodup
  desc_anti : ∀ i c, st.clusters.getD i none = some c →
    ∀ a ∈ c.propagatedDescendants, ∀ b ∈ c.propagatedDescendants, ¬ IsAncestor cs0 a b

/-- The cluster at position `i` exists and has no children. -/
def isLeafAt {α : Type} (clusters : ClusterList α) (i : Nat) : Bool :=
  match clusters.getD i none with
  | none => false
  | some c => !c.hasChildren

/-- A cluster as `cluster_init` leaves it, with the given stability and `hasChildren` flag. -/
def exampleCluster (label : Nat) (parent : Option Nat) (stability : Int) (hasChildren : Bool) :
    cluster Int :=
  { label := label
    birthLevel := 1
    deathLevel := 0
    numPoints := 0
    offset := 0
    stability := stability
    propagatedStability := 0
    propagatedLowestChildDeathLevel := 1000
    numConstraintsSatisfied := 0
    propagatedNumConstraintsSatisfied := 0
    parent := parent
    hasChildren := hasChildren
    virtualChildCluster := []
    propagatedDescendants := [] }

/-- A cluster tree: the root (position 1) with the two children 2 and 3 of stabilities 3
and 5. -/
def exampleTree : ClusterList Int :=
  [none, some (exampleCluster 1 none 0 true), some (exampleCluster 2 (some 1) 3 false),
    some (exampleCluster 3 (some 1) 5 false)]

/-! ### Auxiliary notions for the proofs about the hierarchy construction -/

/-- The cluster list agrees with the labels of the points: position 0 holds `NULL`, every
position `L` from 1 up to the next cluster label holds a cluster with label `L` whose
`numPoints` is the number of points that carry the label `L`, and, when the edge weights are
positive (`pos`), a cluster other than the root that has lost all its points has children or a
positive death level. -/
structure ClustersOk {α : Type} [LinearOrderedField α] (pos : Prop) (clusters : ClusterList α)
    (labels : List Nat) (next : Nat) : Prop where
  len : clusters.length = next
  two_le : 2 ≤ next
  null : clusters.getD 0 none = none
  some : ∀ L, 1 ≤ L → L < next → ∃ c, clusters.getD L none = some c ∧ c.label = L ∧
    c.numPoints = (labels.count L : Int) ∧
    (pos → 2 ≤ L → c.hasChildren = true ∨ 0 < c.deathLevel ∨ 0 < c.numPoints)
  lt : ∀ x ∈ labels, x < next

/-- The number of the edges `0, …, n - 1` of the edge arrays that join `u` and `v`. -/
def edgeMult (A B : List Nat) : Nat → Nat → Nat → Nat
  | 0, _, _ => 0
  | n + 1, u, v =>
    edgeMult A B n u v +
      if (A.getD n 0 = u ∧ B.getD n 0 = v) ∨ (A.getD n 0 = v ∧ B.getD n 0 = u) then 1 else 0

/-- The neighbour lists `edges` are those of the graph with the vertices `0, …, N - 1` and the
edges `0, …, n - 1` of the edge arrays: `v` stands in the list of `u` as often as there are
edges that join them. -/
structure GraphOk (N : Nat) (A B : List Nat) (n : Nat) (edges : List (List Nat)) : Prop where
  len : edges.length = N
  lt : ∀ i, i < n → A.getD i 0 < N ∧ B.getD i 0 < N
  count : ∀ u v, (edges.getD u []).count v = edgeMult A B n u v

/-- The set `S` of vertices is closed under the neighbour lists `edges`. -/
def AdjClosed (edges : List (List Nat)) (S : Nat → Prop) : Prop :=
  ∀ u v, v ∈ edges.getD u [] → S u → S v

/-- The vertices of `F` lie in one connected component of the graph with the neighbour lists
`edges`: a closed set of vertices that contains one of them contains all of them. -/
def SameComponent (edges : List (List Nat)) (F : List Nat) : Prop :=
  ∀ S, AdjClosed edges S → ∀ u, u ∈ F → ∀ v, v ∈ F → S u → S v

/-- The state of the exploration of the potential child cluster with the root `r`: the sub
cluster `C` under construction, the unexplored points `U`, the flag `anyEdges` and the
examined vertices `ex`, where `ex0` are the examined vertices at the start. -/
structure ExploreCore (edges : List (List Nat)) (N r : Nat) (ex0 : List Nat)
    (C U : List Nat) (anyEdges : Bool) (ex : List Nat) : Prop where
  root_mem : r ∈ C
  nodup : C.Nodup
  lt : ∀ v, v ∈ C → v < N
  comp : SameComponent edges C
  closed : ∀ u, u ∈ C → u ∉ U → ∀ v, v ∈ edges.getD u [] → v ∈ C
  unexplored_mem : ∀ v, v ∈ U → v ∈ C
  any_root : anyEdges = true → edges.getD r [] ≠ []
  nonroot : ∀ v, v ∈ C → v ≠ r → edges.getD r [] ≠ [] ∧ edges.getD v [] ≠ []
  root_any : r ∉ U → edges.getD r [] ≠ [] → anyEdges = true
  ex_nodup : ex.Nodup
  ex_sub : ∀ v, v ∈ ex → v ∈ ex0 ∧ v ∉ C
  ex_keep : ∀ v, v ∈ ex0 → v ∈ ex ∨ v ∈ C

/-- The counting of the valid child clusters during an exploration that has not been left by
`break`. -/
structure ExploreCount (minPoints : Nat) (F0 UF0 : List Nat) (cnt0 : Nat)
    (es : ExamineState) : Prop where
  inc_iff : es.incrementedChildCount = true ↔
    (minPoints ≤ es.constructingSubCluster.length ∧ es.anyEdges = true)
  inc_first : es.incrementedChildCount = true → F0 ≠ []
  first_eq : es.firstChildCluster = F0
  unex_eq : es.unexploredFirstChildClusterPoints = UF0
  cnt : es.numChildClusters = cnt0 + if es.incrementedChildCount = true then 1 else 0

/-- The first child cluster `F` with its unexplored points `UF`: the vertices of `F` lie in
one component, all of them have neighbours, and the neighbours of the explored ones are in
`F`. -/
structure FirstCore (edges : List (List Nat)) (N : Nat) (F UF : List Nat) : Prop where
  ne : F ≠ []
  nodup : F.Nodup
  lt : ∀ v, v ∈ F → v < N
  comp : SameComponent edges F
  closed : ∀ u, u ∈ F → u ∉ UF → ∀ v, v ∈ edges.getD u [] → v ∈ F
  unexplored_mem : ∀ v, v ∈ UF → v ∈ F
  nonempty : ∀ v, v ∈ F → edges.getD v [] ≠ []

/-- The part of the invariant of the hierarchy construction that holds between any two calls
of `hdbscan_create_new_cluster`: the neighbour lists are those of the edges that remain, the
cluster list agrees with the labels, the points with label 0 are those whose noise level has
been written (once), and neighbours carry the same label. -/
structure HierCore {α : Type} [LinearOrderedField α] (pos : Prop) (N : Nat) (A B : List Nat)
    (Wts : List α) (st : HierarchyState α) : Prop where
  numVertices : st.mst.numVertices = N
  vA : st.mst.verticesA = A
  vB : st.mst.verticesB = B
  vW : st.mst.edgeWeights = Wts
  count_le : st.edgeCount ≤ Wts.length
  graph : GraphOk N A B st.edgeCount st.mst.edges
  labels_len : st.currentClusterLabels.length = N
  clusters : ClustersOk pos st.clusters st.currentClusterLabels st.nextClusterLabel
  writes_len : st.noiseWrites.length = N
  writes : ∀ v, v < N →
    st.noiseWrites.getD v 0 = if st.currentClusterLabels.getD v 0 = 0 then 1 else 0
  same : ∀ u v, v ∈ st.mst.edges.getD u [] →
    st.currentClusterLabels.getD u 0 = st.currentClusterLabels.getD v 0

/-- The invariant of the loop over the examined vertices of the cluster with the label `L`,
where `pend` are the affected cluster labels that are still to be examined. -/
structure RootsInv {α : Type} [LinearOrderedField α] (pos : Prop) (N : Nat) (A B : List Nat)
    (Wts : List α) (minPoints L : Nat) (pend : List Nat) (st : HierarchyState α)
    (es : ExamineState) : Prop where
  core : HierCore pos N A B Wts st
  label_pos : 1 ≤ L
  label_lt : L < st.nextClusterLabel
  pend_ok : ∀ L1, L1 ∈ pend → 1 ≤ L1 ∧ L1 < st.nextClusterLabel
  aff_nodup : st.affectedVertices.Nodup
  aff : ∀ v, v ∈ st.affectedVertices →
    v < N ∧ st.currentClusterLabels.getD v 0 ≠ L ∧ st.currentClusterLabels.getD v 0 ∈ pend
  isolated : ∀ v, v < N → st.mst.edges.getD v [] = [] →
    st.currentClusterLabels.getD v 0 = 0 ∨ v ∈ st.affectedVertices ∨ v ∈ es.examinedVertices
  ex_nodup : es.examinedVertices.Nodup
  ex : ∀ v, v ∈ es.examinedVertices → v < N ∧ st.currentClusterLabels.getD v 0 = L
  first :
    (es.firstChildCluster = [] ∧ es.numChildClusters = 0 ∧
      es.unexploredFirstChildClusterPoints = []) ∨
    (1 ≤ es.numChildClusters ∧
      FirstCore st.mst.edges N es.firstChildCluster es.unexploredFirstChildClusterPoints ∧
      minPoints ≤ es.firstChildCluster.length ∧
      es.unexploredFirstChildClusterPoints.Nodup ∧
      ∀ v, v ∈ es.firstChildCluster → st.currentClusterLabels.getD v 0 = L)

/-- The invariant of the loop over the affected cluster labels, where `pend` are the labels
that are still to be examined: an affected vertex carries one of these labels, and a vertex
without neighbours is noise or affected. -/
structure PendInv {α : Type} [LinearOrderedField α] (pos : Prop) (N : Nat) (A B : List Nat)
    (Wts : List α) (pend : List Nat) (st : HierarchyState α) : Prop where
  core : HierCore pos N A B Wts st
  pend_ok : ∀ L1, L1 ∈ pend → 1 ≤ L1 ∧ L1 < st.nextClusterLabel
  aff_nodup : st.affectedVertices.Nodup
  aff : ∀ v, v ∈ st.affectedVertices → v < N ∧ st.currentClusterLabels.getD v 0 ∈ pend
  isolated : ∀ v, v < N → st.mst.edges.getD v [] = [] →
    st.currentClusterLabels.getD v 0 = 0 ∨ v ∈ st.affectedVertices

/-- The invariant of the main loop of `hdbscan_compute_hierarchy_and_cluster_tree`: next to
`HierCore`, the affected sets are empty and every vertex without neighbours is noise. -/
structure HierInv {α : Type} [LinearOrderedField α] (pos : Prop) (N : Nat) (A B : List Nat)
    (Wts : List α) (st : HierarchyState α) : Prop where
  core : HierCore pos N A B Wts st
  aff_nil : st.affectedVertices = []
  labels_nil : st.affectedClusterLabels = []
  isolated : ∀ v, v < N → st.mst.edges.getD v [] = [] → st.currentClusterLabels.getD v 0 = 0

/-- Modelled from the spec: what `graph_quicksort_by_edge_weight` of the graph module (not
part of the sources) makes of the graph `g0`: the three edge arrays are permuted consistently
so that the weights stand in non-decreasing order; the vertices and the neighbour lists
stay. -/
structure SortedByEdgeWeight {α : Type} [LinearOrder α] (g0 g : graph α) : Prop where
  numVertices : g.numVertices = g0.numVertices
  edges : g.edges = g0.edges
  lenA : g.verticesA.length = g.edgeWeights.length
  lenB : g.verticesB.length = g.edgeWeights.length
  perm : List.Perm (g.verticesA.zip (g.verticesB.zip g.edgeWeights))
    (g0.verticesA.zip (g0.verticesB.zip g0.edgeWeights))
  sorted : g.edgeWeights.Sorted (· ≤ ·)

/-- The graphs that `hdbscan_compute_hierarchy_and_cluster_tree` is run on: parallel edge
arrays whose ends are vertices, neighbour lists that are those of the edge arrays, a self
loop at every vertex, and the weights in non-decreasing order. -/
structure SortedSelfLoopGraph {α : Type} [LinearOrder α] (mst : graph α) : Prop where
  lenA : mst.verticesA.length = mst.edgeWeights.length
  lenB : mst.verticesB.length = mst.edgeWeights.length
  graph : GraphOk mst.numVertices mst.verticesA mst.verticesB mst.edgeWeights.length mst.edges
  selfLoops : ∀ v, v < mst.numVertices → ∃ i, i < mst.edgeWeights.length ∧
    mst.verticesA.getD i 0 = v ∧ mst.verticesB.getD i 0 = v
  sorted : mst.edgeWeights.Sorted (· ≤ ·)

/-- The store of `lineStore` over the rational numbers. -/
def lineStoreQ : distance ℚ :=
  { rows := 4, cols := 1, numNeighbors := 1, distances := [2, 2, 1, 4, 1, 3],
    coreDistances := [1, 1, 2, 1] }

/-- The graph of the edges that `hdbscan_construct_mst` produces for `lineStoreQ`, with the
edge arrays sorted by weight. -/
def lineMst : graph ℚ :=
  { graph_init 4 [3, 3, 0, 0, 1, 2, 3] [0, 1, 2, 0, 1, 2, 3] [1, 1, 2, 1, 1, 2, 1] with
    verticesA := [3, 3, 0, 1, 3, 0, 2]
    verticesB := [0, 1, 0, 1, 3, 2, 2]
    edgeWeights := [1, 1, 1, 1, 1, 2, 2] }

/-- A sorted graph with self loops on six points: two paths `0 - 1 - 2` and `3 - 4 - 5` with
edges of weight 2, joined by an edge of weight 5; the self loops have weight 1. -/
def twoGroupsMst : graph ℚ :=
  graph_init 6 [0, 1, 2, 3, 4, 5, 0, 1, 3, 4, 2] [0, 1, 2, 3, 4, 5, 1, 2, 4, 5, 3]
    [1, 1, 1, 1, 1, 1, 2, 2, 2, 2, 5]

/-! ## Runs on points of a line

The inputs of the example runs: data sets with one integer column. `D_MAX` is `1000000`, `NAN`
is `0`, and the local arrays of `hdbscan_do_run` hold zeros when the run starts. -/

/-- An engine before `hdbscan_init`: no field has been given a value, the pointers are
`NULL`. -/
def emptyEngine : hdbscan ℚ :=
  { minPoints := 0
    selfEdges := false
    numPoints := 0
    distanceFunction :=
      { rows := 0, cols := 0, numNeighbors := 0, distances := [], coreDistances := [] }
    mst := none
    clusters := none
    hierarchy := none
    clusterLabels := none
    outlierScores := none }

/-- The difference of two integer elements of a data set, converted to `distance_t`. -/
def intDiff (a b : ℤ) : ℚ := ((a - b : ℤ) : ℚ)

/-- A square root on the rational numbers that is exact on the squares of the integers: the
integer square root of the numerator. -/
def sqrtQ (x : ℚ) : ℚ := ((Nat.sqrt x.num.natAbs : ℕ) : ℚ)

/-- The data set `0, 1, 2, 100, 101, 102`. -/
def data6 (i : Nat) : ℤ := [0, 1, 2, 100, 101, 102].getD i 0

/-- The linear chain `0, 1, 2, …` -/
def dataChain (i : Nat) : ℤ := (i : ℤ)

/-- The data set `0, 2, -2, 1`. -/
def data4 (i : Nat) : ℤ := [0, 2, -2, 1].getD i 0

/-- The data set whose points are all equal to 5. -/
def dataConstant (_i : Nat) : ℤ := 5

/-- The pairs `i < j < N` in the order of the cells of the packed upper triangle. -/
def trianglePairs (N : Nat) : List (Nat × Nat) :=
  (List.range N).flatMap (fun i => (List.range' (i + 1) (N - (i + 1))).map (fun j => (i, j)))

/-- The packed upper triangle of the distances `|data i - data j|` of `N` points of a line. -/
def lineDistances (data : Nat → ℤ) (N : Nat) : List ℚ :=
  (trianglePairs N).map (fun p => ((|data p.1 - data p.2| : ℤ) : ℚ))

/-- The engine in the state in which `hdbscan_run` calls `hdbscan_do_run` for `N` points of a
line and `minPoints = mpts`: the distance store holds `lineDistances` and the core distances
computed from them. -/
def lineState (data : Nat → ℤ) (N mpts : Nat) : hdbscan ℚ :=
  { minPoints := mpts
    selfEdges := true
    numPoints := N
    distanceFunction :=
      distance_get_core_distances 1000000
        { rows := N
          cols := 1
          numNeighbors := mpts - 1
          distances := lineDistances data N
          coreDistances := [] }
    mst := none
    clusters := some []
    hierarchy := some []
    clusterLabels := none
    outlierScores := none }

/-- The labels, the noise levels and the last clusters of the points after a run, and the
value of `propagatedLowestChildDeathLevel` of the clusters at the positions 1, 2 and 3 of the
cluster list. -/
def runDigest (r : RunResult ℚ) :
    (Option (List Nat) × List ℚ × List Nat) × (Option ℚ × Option ℚ × Option ℚ) :=
  ((r.sc.clusterLabels, r.pointNoiseLevels, r.pointLastClusters),
    (((r.sc.clusters.getD []).getD 1 none).map (fun c => c.propagatedLowestChildDeathLevel),
      ((r.sc.clusters.getD []).getD 2 none).map (fun c => c.propagatedLowestChildDeathLevel),
      ((r.sc.clusters.getD []).getD 3 none).map (fun c => c.propagatedLowestChildDeathLevel)))

/-- The noise levels that have been written are positive: the arrays `pointNoiseLevels` and
`noiseWrites` are equally long, and `pointNoiseLevels[v] > 0` for every point `v` whose noise
level has been written. -/
def NoisePos {α : Type} [LinearOrderedField α] (st : HierarchyState α) : Prop :=
  st.pointNoiseLevels.length = st.noiseWrites.length ∧
    ∀ v, v < st.noiseWrites.length → 1 ≤ st.noiseWrites.getD v 0 →
      0 < st.pointNoiseLevels.getD v 0

/-- The arrays `c1` and `d1` are the arrays `c` and `d` with their entries rearranged by one
and the same permutation of the indices, which leaves the indices outside `lo, …, hi` where
they are. -/
def PermutedOn {α : Type} [Zero α] (lo hi : Nat) (c : List Nat) (d : List α) (c1 : List Nat)
    (d1 : List α) : Prop :=
  c1.length = c.length ∧ d1.length = d.length ∧
    ∃ σ : Equiv.Perm Nat, (∀ i, i < lo ∨ hi < i → σ i = i) ∧
      ∀ i, c1.getD i 0 = c.getD (σ i) 0 ∧ d1.getD i 0 = d.getD (σ i) 0

/-- The invariant of the loop of `partition` for the pivot `x`, where `c0` and `d0` are the
arrays at the start: the entries between `lower` and `up` are at most `x`, those after `down`
up to `upper` are greater than `x`. -/
structure PartInv {α : Type} [LinearOrder α] [Zero α] (x : α) (lower upper : Nat)
    (c0 : List Nat) (d0 : List α) (c : List Nat) (d : List α) (up down : Nat) : Prop where
  perm : PermutedOn (lower + 1) upper c0 d0 c d
  lo_up : lower < up
  up_down : up ≤ down
  down_upper : down ≤ upper
  below : ∀ i, lower < i → i < up → d.getD i 0 ≤ x
  above : ∀ i, down < i → i ≤ upper → x < d.getD i 0

/-! ### Auxiliary notions for the statistics, the order of the propagation and the detach -/

/-- The sample variance of the first `count` entries of `r`, in the words of the spec: the
sum of the squares of `x_i - mean` divided by `count - 1`, where `mean` is the sum of the
`x_i` divided by `count`. -/
def sampleVariance {α : Type} [Field α] (r : List α) (count : Nat) : α :=
  (((List.range count).map
    (fun i => (r.getD i 0 - ((List.range count).map (fun j => r.getD j 0)).sum / count) ^ 2)).sum) /
    ((count : α) - 1)

/-- A value of `clustering_stats` with the given count whose fields all hold `v`. -/
def statsFilled {α : Type} (count : Int) (v : α) : clustering_stats α :=
  { count := count
    coreDistanceValues :=
      { mean := v, max := v, variance := v, standardDev := v, skewness := v, kurtosis := v }
    intraDistanceValues :=
      { mean := v, max := v, variance := v, standardDev := v, skewness := v, kurtosis := v } }

/-- The loop of `hdbscan_propagate_tree` together with the list of the labels `x` on which it
calls `cluster_propagate`, in the order of the calls: `propagateLoop` with the label of every
iteration recorded. -/
def propagateTrace {α : Type} [LinearOrder α] [Add α] (D_MAX : α) :
    Nat → PropagateState α → Option (PropagateState α × List Nat)
  | 0, st => if st.clustersToExamine = [] then some (st, []) else none
  | fuel + 1, st =>
    match st.clustersToExamine.getLast? with
    | none => some (st, [])
    | some x =>
      match propagateStep D_MAX st x st.clustersToExamine.dropLast with
      | none => none
      | some st1 => (propagateTrace D_MAX fuel st1).map (fun r => (r.1, x :: r.2))

/-- The part of the invariant of the loop of `hdbscan_propagate_tree` that concerns the order
of the calls only; `D` is the set of the clusters on which `cluster_propagate` has been
called. -/
structure OrderInv {α : Type} (cs0 : ClusterList α) (st : PropagateState α) (D : Finset Nat) :
    Prop where
  len : st.clusters.length = cs0.length
  alen : st.addedToExaminationList.length = cs0.length
  frame_none : ∀ i, cs0.getD i none = none → st.clusters.getD i none = none
  frame_some : ∀ i c0, cs0.getD i none = some c0 →
    ∃ c, st.clusters.getD i none = some c ∧ c.label = c0.label ∧ c.parent = c0.parent ∧
      c.hasChildren = c0.hasChildren ∧ c.stability = c0.stability
  D_valid : ∀ x ∈ D, 1 ≤ x ∧ x < cs0.length
  W_sorted : st.clustersToExamine.Sorted (· ≤ ·)
  W_nodup : st.clustersToExamine.Nodup
  W_mem : ∀ x ∈ st.clustersToExamine,
    1 ≤ x ∧ x < cs0.length ∧ x ∉ D ∧ st.addedToExaminationList.getD x false = true
  added_mem : ∀ i, st.addedToExaminationList.getD i false = true →
    i ∈ st.clustersToExamine ∨ i ∈ D
  added_iff : ∀ i c0, cs0.getD i none = some c0 →
    (st.addedToExaminationList.getD i false = true ↔
      (c0.hasChildren = false ∨ ∃ j ∈ D, parentAt cs0 j = some i))
  closed : ∀ x ∈ D, ∀ j, parentAt cs0 j = some x → j ∈ D

/-- A cluster as `cluster_init` leaves it, over the rationals with `+∞`, with the given
stability and `hasChildren` flag. -/
def infiniteCluster (label : Nat) (parent : Option Nat) (stability : WithTop ℚ)
    (hasChildren : Bool) : cluster (WithTop ℚ) :=
  { label := label
    birthLevel := 10
    deathLevel := 0
    numPoints := 0
    offset := 0
    stability := stability
    propagatedStability := 0
    propagatedLowestChildDeathLevel := 1000000
    numConstraintsSatisfied := 0
    propagatedNumConstraintsSatisfied := 0
    parent := parent
    hasChildren := hasChildren
    virtualChildCluster := []
    propagatedDescendants := [] }

/-- A cluster tree with infinite stabilities: the root (position 1) with the two children 2
and 3, both of stability `+∞`, as it arises when their points are detached at the level 0. -/
def infiniteTree : ClusterList (WithTop ℚ) :=
  [none, some (infiniteCluster 1 none 0 true), some (infiniteCluster 2 (some 1) ⊤ false),
    some (infiniteCluster 3 (some 1) ⊤ false)]

/-- A data set of two rows and one column of `int` elements: `2147483647` and `-2`. -/
def dataWide (i : Nat) : Int := [2147483647, -2].getD i 0

/-- A call of `hdbscan_create_new_cluster` in the construction of the hierarchy: the state
at the call, the points, the label of the examined cluster (the parent), the edge weight and
whether the call is made with the label 0 (`noise`) or with the next cluster label. -/
structure ClusterCall (α : Type) where
  st : HierarchyState α
  points : List Nat
  parentCluster : Nat
  edgeWeight : α
  noise : Bool

/-- The state after the call. -/
def callResult {α : Type} [LinearOrderedField α] (D_MAX : α) (c : ClusterCall α) :
    HierarchyState α :=
  if c.noise = true then assignNoise D_MAX c.st c.points c.parentCluster c.edgeWeight
  else createChildCluster D_MAX c.st c.points c.parentCluster c.edgeWeight

/-- The return code of the call of `cluster_detach_points` that `hdbscan_create_new_cluster`
makes in the call `c` (`true` for `CLUSTER_SUCCESS`), if the parent is a cluster. -/
def callDetachCode {α : Type} [LinearOrderedField α] (c : ClusterCall α) : Option Bool :=
  (c.st.clusters.getD c.parentCluster none).map
    (fun par => (cluster_detach_points par c.points.length c.edgeWeight).2)

/-- The calls of `hdbscan_create_new_cluster` that `resolveSubCluster` makes. -/
def resolveSubClusterCalls {α : Type} (minPoints : Nat) (st : HierarchyState α)
    (es : ExamineState) (examinedClusterLabel : Nat) (currentEdgeWeight : α) :
    List (ClusterCall α) :=
  if es.numChildClusters ≥ 2 ∧ es.constructingSubCluster.length ≥ minPoints ∧
      es.anyEdges = true then
    if es.firstChildCluster.getLastD 0 ∈ es.constructingSubCluster then []
    else [⟨st, es.constructingSubCluster, examinedClusterLabel, currentEdgeWeight, false⟩]
  else if es.constructingSubCluster.length < minPoints ∨ es.anyEdges = false then
    [⟨st, es.constructingSubCluster, examinedClusterLabel, currentEdgeWeight, true⟩]
  else []

/-- The calls of `hdbscan_create_new_cluster` in the loop `examineRoots`, in their order. -/
def examineRootsCalls {α : Type} [LinearOrderedField α] (D_MAX : α) (minPoints : Nat)
    (examinedClusterLabel : Nat) (currentEdgeWeight : α) :
    Nat → HierarchyState α → ExamineState → List (ClusterCall α)
  | 0, _, _ => []
  | fuel + 1, st, es =>
    match es.examinedVertices.getLast? with
    | none => []
    | some rootVertex =>
      match exploreLoop st.mst.edges minPoints st.mst.numVertices
          { es with
            examinedVertices := es.examinedVertices.dropLast
            constructingSubCluster := [rootVertex]
            unexploredSubClusterPoints := [rootVertex]
            anyEdges := false
            incrementedChildCount := false } with
      | none => []
      | some es1 =>
        resolveSubClusterCalls minPoints st es1 examinedClusterLabel currentEdgeWeight ++
          examineRootsCalls D_MAX minPoints examinedClusterLabel currentEdgeWeight fuel
            (resolveSubCluster D_MAX minPoints st es1 examinedClusterLabel currentEdgeWeight).1
            (resolveSubCluster D_MAX minPoints st es1 examinedClusterLabel currentEdgeWeight).2

/-- The calls of `hdbscan_create_new_cluster` in the examination of one affected cluster. -/
def examineClusterCalls {α : Type} [LinearOrderedField α] (D_MAX : α) (minPoints : Nat)
    (currentEdgeWeight : α) (st : HierarchyState α) (examinedClusterLabel : Nat) :
    List (ClusterCall α) :=
  examineRootsCalls D_MAX minPoints examinedClusterLabel currentEdgeWeight st.mst.numVertices
      { st with
        affectedVertices :=
          st.affectedVertices.filter
            (fun n => st.currentClusterLabels.getD n 0 ≠ examinedClusterLabel) }
      { examinedVertices :=
          st.affectedVertices.filter
            (fun n => st.currentClusterLabels.getD n 0 = examinedClusterLabel)
        firstChildCluster := []
        unexploredFirstChildClusterPoints := []
        numChildClusters := 0
        constructingSubCluster := []
        unexploredSubClusterPoints := []
        anyEdges := false
        incrementedChildCount := false } ++
  match examineRoots D_MAX minPoints examinedClusterLabel currentEdgeWeight st.mst.numVertices
      { st with
        affectedVertices :=
          st.affectedVertices.filter
            (fun n => st.currentClusterLabels.getD n 0 ≠ examinedClusterLabel) }
      { examinedVertices :=
          st.affectedVertices.filter
            (fun n => st.currentClusterLabels.getD n 0 = examinedClusterLabel)
        firstChildCluster := []
        unexploredFirstChildClusterPoints := []
        numChildClusters := 0
        constructingSubCluster := []
        unexploredSubClusterPoints := []
        anyEdges := false
        incrementedChildCount := false } with
  | none => []
  | some (st1, es) =>
    if es.numChildClusters ≥ 2 ∧
        st1.currentClusterLabels.getD (es.firstChildCluster.getD 0 0) 0 = examinedClusterLabel then
      match exploreFirstChild st1.mst.edges st1.mst.numVertices es with
      | none => []
      | some es1 => [⟨st1, es1.firstChildCluster, examinedClusterLabel, currentEdgeWeight, false⟩]
    else []

/-- The calls of `hdbscan_create_new_cluster` in the loop over the affected cluster labels. -/
def examineClustersCalls {α : Type} [LinearOrderedField α] (D_MAX : α) (minPoints : Nat)
    (currentEdgeWeight : α) : List Nat → HierarchyState α → List (ClusterCall α)
  | [], _ => []
  | examinedClusterLabel :: labels, st =>
    examineClusterCalls D_MAX minPoints currentEdgeWeight st examinedClusterLabel ++
      match examineCluster D_MAX minPoints currentEdgeWeight st examinedClusterLabel with
      | none => []
      | some st1 => examineClustersCalls D_MAX minPoints currentEdgeWeight labels st1

/-- The calls of `hdbscan_create_new_cluster` in one iteration of the main loop. -/
def hierarchyStepCalls {α : Type} [LinearOrderedField α] (D_MAX : α) (minPoints : Nat)
    (st : HierarchyState α) : List (ClusterCall α) :=
  let currentEdgeWeight := st.mst.edgeWeights.getD (st.edgeCount - 1) 0
  let st1 := removeTiedEdges currentEdgeWeight st.edgeCount { st with newClusters := [] }
  if st1.affectedClusterLabels.length < 1 then []
  else
    examineClustersCalls D_MAX minPoints currentEdgeWeight st1.affectedClusterLabels.reverse
      { st1 with affectedClusterLabels := [] }

/-- The calls of `hdbscan_create_new_cluster` in the main loop. -/
def hierarchyLoopCalls {α : Type} [LinearOrderedField α] (D_MAX : α) (minPoints : Nat)
    (compactHierarchy : Bool) : Nat → HierarchyState α → List (ClusterCall α)
  | 0, _ => []
  | fuel + 1, st =>
    if st.edgeCount = 0 then []
    else
      hierarchyStepCalls D_MAX minPoints st ++
        match hierarchyStep D_MAX minPoints compactHierarchy st with
        | none => []
        | some st1 => hierarchyLoopCalls D_MAX minPoints compactHierarchy fuel st1

/-- The calls of `hdbscan_create_new_cluster` that
`hdbscan_compute_hierarchy_and_cluster_tree` makes, in their order. -/
def hierarchyCalls {α : Type} [LinearOrderedField α] (D_MAX NAN : α) (minPoints : Nat)
    (mst : graph α) (compactHierarchy : Bool) (pointNoiseLevels : List α)
    (pointLastClusters : List Nat) : List (ClusterCall α) :=
  hierarchyLoopCalls D_MAX minPoints compactHierarchy mst.edgeWeights.length
    (hierarchyInit D_MAX NAN mst pointNoiseLevels pointLastClusters)

/-- The state of the main loop of `hdbscan_compute_hierarchy_and_cluster_tree` after `k`
iterations (the state at the end of the loop when it ends before). -/
def hierarchyIter {α : Type} [LinearOrderedField α] (D_MAX : α) (minPoints : Nat)
    (compactHierarchy : Bool) : Nat → HierarchyState α → Option (HierarchyState α)
  | 0, st => some st
  | k + 1, st =>
    if st.edgeCount = 0 then some st
    else
      match hierarchyStep D_MAX minPoints compactHierarchy st with
      | none => none
      | some st1 => hierarchyIter D_MAX minPoints compactHierarchy k st1

/-- What holds at a call of `hdbscan_create_new_cluster` in an iteration with the edge weight
`W` and the affected cluster labels `pend0`: the invariant `HierCore`, the parent is one of
the affected labels and a cluster of the list, and the points are distinct points of the
parent. -/
structure CallOk {α : Type} [LinearOrderedField α] (pos : Prop) (N : Nat) (A B : List Nat)
    (Wts : List α) (pend0 : List Nat) (W : α) (c : ClusterCall α) : Prop where
  core : HierCore pos N A B Wts c.st
  label_pos : 1 ≤ c.parentCluster
  label_lt : c.parentCluster < c.st.nextClusterLabel
  label_mem : c.parentCluster ∈ pend0
  nodup : c.points.Nodup
  ne : c.points ≠ []
  labels : ∀ v, v ∈ c.points → v < N ∧ c.st.currentClusterLabels.getD v 0 = c.parentCluster
  weight : c.edgeWeight = W

/-- The edge weight of the iteration of the main loop that starts in the state `st`. -/
def stepWeight {α : Type} [Zero α] (st : HierarchyState α) : α :=
  st.mst.edgeWeights.getD (st.edgeCount - 1) 0

/-- The state of the iteration that starts in `st` after the removal of the edges tied with
the current edge weight. -/
def stepStart {α : Type} [LinearOrder α] [Zero α] (st : HierarchyState α) : HierarchyState α :=
  removeTiedEdges (stepWeight st) st.edgeCount { st with newClusters := [] }

/-- Every cluster other than the root has a stability of at least 0 and a birth level of at
least `W`. -/
def StabilityAt {α : Type} [LinearOrderedField α] (W : α) (st : HierarchyState α) : Prop :=
  ∀ i c, 2 ≤ i → st.clusters.getD i none = some c → 0 ≤ c.stability ∧ W ≤ c.birthLevel

/-- Every cluster other than the root has a stability of at least 0 and a birth level that
is at least the weight of every edge that remains. -/
def StabilityInv {α : Type} [LinearOrderedField α] (Wts : List α) (st : HierarchyState α) :
    Prop :=
  ∀ i c, 2 ≤ i → st.clusters.getD i none = some c →
    0 ≤ c.stability ∧ ∀ j, j < st.edgeCount → Wts.getD j 0 ≤ c.birthLevel

/-- The point `p` belongs to the birth of a cluster with the label `M` and the given offset,
as far as the hierarchy tells so far: the entry with the key `offset + 1` gives `p` the label
`M`, or that entry is still to come (`offset = lineCount`) and `p` carries the label `M`. -/
def BornAt {α : Type} (hierarchy : List (Nat × hierarchy_entry α)) (lineCount : Nat)
    (currentClusterLabels : List Nat) (offset p M : Nat) : Prop :=
  (∃ e, hashtable_lookup hierarchy (offset + 1) = some e ∧ e.labels.getD p 0 = M) ∨
  (offset = lineCount ∧ currentClusterLabels.getD p 0 = M)

/-- The point `p` belongs to the birth of the cluster at position `M` of the cluster list. -/
def Born {α : Type} (st : HierarchyState α) (p M : Nat) : Prop :=
  ∃ c, st.clusters.getD M none = some c ∧
    BornAt st.hierarchy st.lineCount st.currentClusterLabels c.offset p M

/-- The invariant of the main loop about the levels of the hierarchy: the keys are
`1, …, lineCount`, the cluster list is a tree of clusters as `cluster_init` leaves them, a
cluster whose level `offset + 1` is still to come makes the next level significant and has
kept a point, and the clusters to whose birth a point belongs are its last cluster and
ancestors of it. -/
structure LevelInv {α : Type} [Zero α] (N : Nat) (st : HierarchyState α) : Prop where
  prev : st.previousClusterLabels = st.currentClusterLabels
  keys : st.hierarchy.map (fun e => e.1) = List.range' 1 st.lineCount
  tree : ClusterTree st.clusters
  fresh : ∀ i c, st.clusters.getD i none = some c →
    c.propagatedStability = 0 ∧ c.propagatedDescendants = [] ∧
    c.numConstraintsSatisfied = 0 ∧ c.propagatedNumConstraintsSatisfied = 0
  offset_le : ∀ M c, st.clusters.getD M none = some c → c.offset ≤ st.lineCount
  pending : ∀ M c, 2 ≤ M → st.clusters.getD M none = some c → c.offset = st.lineCount →
    st.nextLevelSignificant = true ∧ ∃ p, p < N ∧ st.currentClusterLabels.getD p 0 ≠ 0
  history : ∀ p, p < N → ∃ l, 1 ≤ l ∧ l < st.clusters.length ∧
    (st.currentClusterLabels.getD p 0 ≠ 0 → st.currentClusterLabels.getD p 0 = l) ∧
    ∀ M, 2 ≤ M → Born st p M → (M = l ∨ IsAncestor st.clusters M l)

/-- What the examination of the affected clusters keeps and changes, from the state `st0` at
the start of an iteration to the state `st`: the hierarchy stays, the clusters of `st0` keep
offset and parent, the clusters after them are new, children of clusters of `st0` that have
a point, and a point keeps its label, becomes noise or goes to a new child of its cluster. -/
structure LevelFrame {α : Type} [Zero α] (N : Nat) (st0 st : HierarchyState α) : Prop where
  hierarchy : st.hierarchy = st0.hierarchy
  lineCount : st.lineCount = st0.lineCount
  prev : st.previousClusterLabels = st0.previousClusterLabels
  signif : st.nextLevelSignificant = st0.nextLevelSignificant
  len_le : st0.clusters.length ≤ st.clusters.length
  old : ∀ i c0, st0.clusters.getD i none = some c0 →
    ∃ c, st.clusters.getD i none = some c ∧ c.offset = c0.offset ∧ c.parent = c0.parent
  new : ∀ i, st0.clusters.length ≤ i → i < st.clusters.length →
    ∃ c L, st.clusters.getD i none = some c ∧ c.parent = some L ∧ 1 ≤ L ∧
      L < st0.clusters.length ∧ ∃ p, p < N ∧ st.currentClusterLabels.getD p 0 = i
  labels : ∀ p, p < N →
    st.currentClusterLabels.getD p 0 = st0.currentClusterLabels.getD p 0 ∨
    (st0.currentClusterLabels.getD p 0 ≠ 0 ∧ st.currentClusterLabels.getD p 0 = 0) ∨
    (st0.clusters.length ≤ st.currentClusterLabels.getD p 0 ∧
      parentAt st.clusters (st.currentClusterLabels.getD p 0) =
        some (st0.currentClusterLabels.getD p 0))
  newClusters : ∀ i, i ∈ st.newClusters ↔ (st0.clusters.length ≤ i ∧ i < st.clusters.length)
  tree : ClusterTree st.clusters
  fresh : ∀ i c, st.clusters.getD i none = some c →
    c.propagatedStability = 0 ∧ c.propagatedDescendants = [] ∧
    c.numConstraintsSatisfied = 0 ∧ c.propagatedNumConstraintsSatisfied = 0

/-- The state `st1` is reached from the state `st` by iterations of the main loop: the
clusters of `st` are still there with their offsets, and the points that belong to their
births are the same. -/
structure LevelLater {α : Type} (st st1 : HierarchyState α) : Prop where
  len_le : st.clusters.length ≤ st1.clusters.length
  offset : ∀ M c, st.clusters.getD M none = some c →
    ∃ c1, st1.clusters.getD M none = some c1 ∧ c1.offset = c.offset
  born : ∀ p M, 2 ≤ M → M < st.clusters.length → (Born st p M ↔ Born st1 p M)

/-- The state `st1` is reached from the state `st` by one iteration of the main loop: next
to `LevelLater`, when clusters are new in `st1` the iteration has appended the hierarchy
entry with the key `st1.lineCount` and the labels of `st`, and this key is their offset. -/
structure LevelStep {α : Type} (st st1 : HierarchyState α) : Prop where
  later : LevelLater st st1
  created : ∀ M, st.clusters.length ≤ M → M < st1.clusters.length →
    ∃ c W, st1.clusters.getD M none = some c ∧ c.offset = st1.lineCount ∧
      st1.hierarchy = st.hierarchy ++
        [(st1.lineCount, { edgeWeight := W, labels := st.currentClusterLabels })]

/-- The hierarchy entry with the key `offset + 1` of the cluster at position `M` gives the
point `p` the label `M`: the test by which `hdbscan_find_prominent_clusters` assigns `p` to
the cluster. -/
def birthMember {α : Type} (clusters : ClusterList α) (hierarchy : List (Nat × hierarchy_entry α))
    (p M : Nat) : Prop :=
  ∃ c e, clusters.getD M none = some c ∧ hashtable_lookup hierarchy (c.offset + 1) = some e ∧
    e.labels.getD p 0 = M

/-- An entry of the table `sig` of `hdbscan_find_prominent_clusters` assigns the label `M` to
the point `j`: the label is in the list of the entry, and the hierarchy entry after the key
gives `j` this label. -/
def prominentHit {α : Type} (hierarchy : List (Nat × hierarchy_entry α))
    (sig : List (Nat × List Nat)) (j M : Nat) : Prop :=
  ∃ e hp, e ∈ sig ∧ hashtable_lookup hierarchy (e.1 + 1) = some hp ∧
    hp.labels.getD j 0 = M ∧ M ∈ e.2

/-- The body of the second loop of `hdbscan_find_prominent_clusters` for the entry `e` of the
table `significant`: the hierarchy entry with the key `e.1 + 1` is looked up, and the points
that carry one of the labels of `e.2` there get this label. -/
def prominentStep {α : Type} (hierarchy : List (Nat × hierarchy_entry α)) (numPoints : Nat)
    (clusterLabels : List Nat) (e : Nat × List Nat) : Option (List Nat) :=
  match hashtable_lookup hierarchy (e.1 + 1) with
  | none => none
  | some hpSecond => some (assignSignificant numPoints hpSecond.labels e.2 clusterLabels)

/-- An `int` data set of two rows and two columns: the rows `(-2147483647, 5)` and `(2, 1)`. -/
def dataFar (i : Nat) : Int := [-2147483647, 5, 2, 1].getD i 0

/-- A table of three clusters whose confidences are NaN, 1 and 2; NaN is what
`hdbscan_calculate_stats` stores for a cluster with `max_cr / min_cr = 0 / 0`. -/
def nanTable : List (Nat × distance_values (double ℚ)) :=
  [(0, ⟨double.num 0, double.num 0, double.nan, double.num 0, double.num 0, double.nan⟩),
   (1, ⟨double.num 1, double.num 1, double.num 1, double.num 1, double.num 1, double.num 1⟩),
   (2, ⟨double.num 1, double.num 1, double.num 2, double.num 1, double.num 1, double.num 2⟩)]

/-! ## Theorems -/

theorem two_mul_TRIANGULAR_H (n : Nat) : 2 * TRIANGULAR_H n = n * n + n := by
  unfold TRIANGULAR_H
  have h : 2 ∣ n * n + n := by
    have : n * n + n = n * (n + 1) := by ring
    rw [this]
    exact (Nat.even_mul_succ_self n).two_dvd
  omega

theorem triIndex_two_mul {N i j : Nat} (hij : i < j) (hj : j < N) :
    2 * triIndex N i j + (i + 1) * (i + 1) + (i + 1) = 2 * (N * i) + 2 * j := by
  unfold triIndex
  have h := two_mul_TRIANGULAR_H (i + 1)
  have h2 : (i + 1) * (i + 1) + (i + 1) ≤ 2 * (N * i) + 2 * j := by
    have : (i+1) * i ≤ N * i := Nat.mul_le_mul_right i (by omega)
    nlinarith
  omega

theorem triIndex_lt {N i j : Nat} (hij : i < j) (hj : j < N) :
    triIndex N i j < (N * N - N) / 2 := by
  have h := triIndex_two_mul hij hj
  have h3 : 2 * triIndex N i j + 2 ≤ N * N - N := by
    have h4 : N ≤ N * N := Nat.le_mul_self N
    have : 2 * triIndex N i j + 2 + N ≤ N * N := by
      obtain ⟨m, rfl⟩ : ∃ m, N = j + 1 + m := ⟨N - (j+1), by omega⟩
      obtain ⟨d, rfl⟩ : ∃ d, j = i + 1 + d := ⟨j - (i+1), by omega⟩
      nlinarith
    omega
  omega

theorem triIndex_inj {N i j i' j' : Nat} (hij : i < j) (hj : j < N) (hij' : i' < j') (hj' : j' < N)
    (h : triIndex N i j = triIndex N i' j') : i = i' ∧ j = j' := by
  have h1 := triIndex_two_mul hij hj
  have h2 := triIndex_two_mul hij' hj'
  rw [h] at h1
  rcases Nat.lt_trichotomy i i' with hlt | heq | hgt
  · exfalso
    obtain ⟨d, rfl⟩ : ∃ d, i' = i + 1 + d := ⟨i' - (i+1), by omega⟩
    obtain ⟨m, rfl⟩ : ∃ m, N = j' + 1 + m := ⟨N - (j'+1), by omega⟩
    obtain ⟨e, rfl⟩ : ∃ e, j' = i + 1 + d + 1 + e := ⟨j' - (i+1+d+1), by omega⟩
    nlinarith
  · subst heq
    exact ⟨rfl, by omega⟩
  · exfalso
    obtain ⟨d, rfl⟩ : ∃ d, i = i' + 1 + d := ⟨i - (i'+1), by omega⟩
    obtain ⟨m, rfl⟩ : ∃ m, N = j + 1 + m := ⟨N - (j+1), by omega⟩
    obtain ⟨e, rfl⟩ : ∃ e, j = i' + 1 + d + 1 + e := ⟨j - (i'+1+d+1), by omega⟩
    nlinarith

theorem foldl_set_length {ι α : Type} (f : ι → Nat) (v : ι → α) (l : List ι) (ds : List α) :
    (l.foldl (fun ds x => ds.set (f x) (v x)) ds).length = ds.length := by
  induction l generalizing ds with
  | nil => rfl
  | cons y l ih => simp [List.foldl_cons, ih]

theorem foldl_set_getD_untouched {ι α : Type} (f : ι → Nat) (v : ι → α) (d : α) (k : Nat)
    (l : List ι) (ds : List α) (h : ∀ y ∈ l, f y ≠ k) :
    (l.foldl (fun ds x => ds.set (f x) (v x)) ds).getD k d = ds.getD k d := by
  induction l generalizing ds with
  | nil => rfl
  | cons y l ih =>
    rw [List.foldl_cons, ih _ (fun z hz => h z (List.mem_cons_of_mem _ hz))]
    have hy : f y ≠ k := h y (List.mem_cons_self _ _)
    simp [List.getD_eq_getElem?_getD, List.getElem?_set_ne hy]

theorem foldl_set_getD_written {ι α : Type} (f : ι → Nat) (v : ι → α) (d : α) (k : Nat) (w : α)
    (l : List ι) (ds : List α) (hx : ∃ x ∈ l, f x = k) (huniq : ∀ y ∈ l, f y = k → v y = w)
    (hlt : k < ds.length) :
    (l.foldl (fun ds x => ds.set (f x) (v x)) ds).getD k d = w := by
  induction l generalizing ds with
  | nil => obtain ⟨x, hx, _⟩ := hx; cases hx
  | cons y l ih =>
    rw [List.foldl_cons]
    by_cases hex : ∃ z ∈ l, f z = k
    · exact ih _ hex (fun z hz => huniq z (List.mem_cons_of_mem _ hz)) (by simpa using hlt)
    · have hun : ∀ z ∈ l, f z ≠ k := fun z hz hfz => hex ⟨z, hz, hfz⟩
      rw [foldl_set_getD_untouched f v d k l _ hun]
      obtain ⟨x, hx, hfx⟩ := hx
      rcases List.mem_cons.mp hx with rfl | hxl
      · have hw : v x = w := huniq x (List.mem_cons_self _ _) hfx
        subst hfx
        simp [List.getD_eq_getElem?_getD, hlt, hw]
      · exact absurd hfx (hun x hxl)

theorem foldl_foldl_eq_foldl_bind {ι κ σ : Type} (g : ι → List κ) (step : σ → ι → κ → σ)
    (l : List ι) (s : σ) :
    l.foldl (fun s i => (g i).foldl (fun s j => step s i j) s) s =
      (l.flatMap (fun i => (g i).map (fun j => (i, j)))).foldl (fun s p => step s p.1 p.2) s := by
  induction l generalizing s with
  | nil => rfl
  | cons i l ih =>
    simp only [List.foldl_cons, List.flatMap_cons, List.foldl_append, ih, List.foldl_map]

/-- C2: `distance_get(i,i) = 0` and `distance_get(i,j) = distance_get(j,i)` for every
distance store and all indices. -/
theorem distance_get_self_symm {α : Type} [Zero α] (dis : distance α) (i j : Nat) :
    distance_get dis i i = 0 ∧ distance_get dis i j = distance_get dis j i := by
  refine ⟨by simp [distance_get], ?_⟩
  unfold distance_get
  rcases Nat.lt_trichotomy i j with h | h | h
  · have h1 : ¬ j < i := by omega
    have h2 : ¬ j = i := by omega
    simp [h, h1, h2]
  · subst h
    rfl
  · have h1 : ¬ i < j := by omega
    have h2 : ¬ i = j := by omega
    simp [h, h1, h2]

/-- C1 (failing input): on the store of the points `0, 2, -2, 1` with `mpts = 3` the code
leaves the window of row 0 as `[2, 0, 1]`, not sorted, and stores `coreDistances[0] = 1`,
while the third smallest of the distances `0, 2, 2, 1` of row 0 is `2`. -/
theorem core_distance_duplicate_failure :
    coreWindow 1000 dupStore 0 = [2, 0, 1] ∧
    (distance_get_core_distances 1000 dupStore).coreDistances.getD 0 0 = 1 ∧
    orderStatistic dupStore 0 2 = 2 := by
  decide

theorem pairDistance_eq_sum {α β : Type} [LinearOrderedCommRing α] (diff : β → β → α)
    (sqrt : α → α) (dataset : Nat → β) (cols i j : Nat) :
    pairDistance diff sqrt dataset cols i j =
      sqrt (∑ k in Finset.range cols,
        (diff (dataset (i * cols + k)) (dataset (j * cols + k))) ^ 2) := by
  unfold pairDistance
  congr 1
  generalize hf : (fun k => diff (dataset (i * cols + k)) (dataset (j * cols + k))) = f
  have hf2 : ∀ k, diff (dataset (i * cols + k)) (dataset (j * cols + k)) = f k := by
    intro k; rw [← hf]
  simp only [hf2]
  generalize cols = n
  induction n with
  | zero => simp
  | succ n ih =>
    rw [List.range_succ, List.foldl_append, ih, Finset.sum_range_succ]
    simp [pow_two]

theorem pairDistance_comm {α β : Type} [LinearOrderedCommRing α] (diff : β → β → α)
    (sqrt : α → α) (dataset : Nat → β) (cols i j : Nat)
    (hsym : ∀ a b, diff a b * diff a b = diff b a * diff b a) :
    pairDistance diff sqrt dataset cols i j = pairDistance diff sqrt dataset cols j i := by
  rw [pairDistance_eq_sum, pairDistance_eq_sum]
  congr 1
  apply Finset.sum_congr rfl
  intro k _
  rw [pow_two, pow_two, hsym]

theorem fillDistances_length {α β : Type} [Zero α] [Add α] [Mul α] (diff : β → β → α)
    (sqrt : α → α) (dataset : Nat → β) (rows cols : Nat) (distances : List α) :
    (fillDistances diff sqrt dataset rows cols distances).length = distances.length := by
  unfold fillDistances
  rw [foldl_foldl_eq_foldl_bind (fun i => List.range' (i + 1) (rows - (i + 1)))
    (fun (ds : List α) (i j : Nat) => ds.set (i * rows + j - TRIANGULAR_H (i + 1))
      (pairDistance diff sqrt dataset cols i j))]
  exact foldl_set_length (fun p : Nat × Nat => p.1 * rows + p.2 - TRIANGULAR_H (p.1 + 1))
    (fun p => pairDistance diff sqrt dataset cols p.1 p.2) _ _

theorem fillDistances_getD {α β : Type} [Zero α] [Add α] [Mul α] (diff : β → β → α)
    (sqrt : α → α) (dataset : Nat → β) (rows cols : Nat) (distances : List α)
    (hlen : distances.length = (rows * rows - rows) / 2) (d : α) (i j : Nat) (hij : i < j)
    (hj : j < rows) :
    (fillDistances diff sqrt dataset rows cols distances).getD (triIndex rows i j) d =
      pairDistance diff sqrt dataset cols i j := by
  unfold fillDistances
  rw [foldl_foldl_eq_foldl_bind (fun i => List.range' (i + 1) (rows - (i + 1)))
    (fun (ds : List α) (i j : Nat) => ds.set (i * rows + j - TRIANGULAR_H (i + 1))
      (pairDistance diff sqrt dataset cols i j))]
  have hmem : ∀ p : Nat × Nat,
      p ∈ (List.range rows).flatMap
        (fun i => (List.range' (i + 1) (rows - (i + 1))).map (fun j => (i, j))) →
      p.1 < p.2 ∧ p.2 < rows := by
    intro p hp
    simp only [List.mem_flatMap, List.mem_range, List.mem_map, List.mem_range'_1] at hp
    obtain ⟨a, _, b, hb, rfl⟩ := hp
    simp only
    omega
  have hidx : ∀ p : Nat × Nat, p.1 * rows + p.2 - TRIANGULAR_H (p.1 + 1) = triIndex rows p.1 p.2 := by
    intro p
    unfold triIndex
    rw [Nat.mul_comm]
  apply foldl_set_getD_written (fun p : Nat × Nat => p.1 * rows + p.2 - TRIANGULAR_H (p.1 + 1))
    (fun p => pairDistance diff sqrt dataset cols p.1 p.2)
  · refine ⟨(i, j), ?_, hidx (i, j)⟩
    simp only [List.mem_flatMap, List.mem_range, List.mem_map, List.mem_range'_1]
    exact ⟨i, by omega, j, by omega, rfl⟩
  · intro p hp hk
    obtain ⟨h1, h2⟩ := hmem p hp
    rw [hidx] at hk
    obtain ⟨e1, e2⟩ := triIndex_inj h1 h2 hij hj hk
    rw [e1, e2]
  · rw [hlen]
    exact triIndex_lt hij hj

/-- The cell `distance_compute` writes for a pair of rows is the cell `distance_get` reads for
it: for all rows `i ≠ j` below `rows`, `distance_get(i,j)` is the square root of the sum over
the columns `k` of the squares of `diff x[i][k] x[j][k]`. Here `diff` is the difference as the
code takes it in the element type of the data set; it is the difference of the coordinates
only where that subtraction is exact. -/
theorem distance_compute_get_euclidean {α β : Type} [LinearOrderedCommRing α] (D_MAX : α)
    (diff : β → β → α) (sqrt : α → α) (uninit : Nat → α) (dataset : Nat → β)
    (rows cols numNeighbors : Nat)
    (hsym : ∀ a b, diff a b * diff a b = diff b a * diff b a)
    (i j : Nat) (hi : i < rows) (hj : j < rows) (hne : i ≠ j) :
    distance_get (distance_compute D_MAX diff sqrt uninit dataset rows cols numNeighbors) i j =
      sqrt (∑ k in Finset.range cols,
        (diff (dataset (i * cols + k)) (dataset (j * cols + k))) ^ 2) := by
  rw [← pairDistance_eq_sum diff sqrt dataset cols i j]
  have hlen : ((List.range ((rows * rows - rows) / 2)).map uninit).length =
      (rows * rows - rows) / 2 := by simp
  unfold distance_get distance_compute distance_get_core_distances
  simp only
  rcases Nat.lt_or_gt_of_ne hne with h | h
  · rw [if_pos h]
    exact fillDistances_getD diff sqrt dataset rows cols _ hlen 0 i j h hj
  · rw [if_neg (by omega), if_neg hne]
    rw [pairDistance_comm diff sqrt dataset cols i j hsym]
    exact fillDistances_getD diff sqrt dataset rows cols _ hlen 0 j i h hi

/-- An instance of `distance_compute_get_euclidean`: three rows with two integer columns
each, the exact integer difference and the integer square root; the rows 2 and 0. -/
theorem distance_compute_get_euclidean_witness :
    distance_get
        (distance_compute (1000 : ℤ) (fun a b : ℤ => a - b) Int.sqrt (fun _ => 7)
          (fun n => [0, 0, 3, 4, 6, 8].getD n 0) 3 2 1) 2 0 =
      Int.sqrt (∑ k in Finset.range 2,
        ((fun a b : ℤ => a - b) ((fun n => [0, 0, 3, 4, 6, 8].getD n 0) (2 * 2 + k))
          ((fun n => [0, 0, 3, 4, 6, 8].getD n 0) (0 * 2 + k))) ^ 2) :=
  distance_compute_get_euclidean 1000 (fun a b : ℤ => a - b) Int.sqrt (fun _ => 7)
    (fun n => [0, 0, 3, 4, 6, 8].getD n 0) 3 2 1 (fun a b => by ring) 2 0 (by decide)
    (by decide) (by decide)

/-! ### The scan of one expansion round -/

theorem getD_set_eq {α : Type} (l : List α) (i j : Nat) (a d : α) :
    (l.set i a).getD j d = if i = j ∧ i < l.length then a else l.getD j d := by
  simp only [List.getD_eq_getElem?_getD, List.getElem?_set]
  by_cases h : i = j
  · subst h
    by_cases h2 : i < l.length
    · simp [h2]
    · simp [h2, List.getElem?_eq_none (Nat.le_of_not_lt h2)]
  · simp [h]

theorem scanInv_step {α : Type} [LinearOrder α] [Zero α] (D_MAX : α) (dis : distance α)
    (attachedPoints : List Bool) (currentPoint : Nat) (dists : List α) (neighbors : List Nat)
    (hlen : neighbors.length = dists.length)
    (hD : ∀ v, dists.getD v D_MAX ≤ D_MAX)
    (n : Nat) (hn : mstCandidate attachedPoints currentPoint n → n < dists.length)
    (s : MstScan α)
    (h : ScanInv D_MAX dis attachedPoints currentPoint dists neighbors n s) :
    ScanInv D_MAX dis attachedPoints currentPoint dists neighbors (n + 1)
      (mstScanStep D_MAX dis attachedPoints currentPoint s n) := by
  have hsD : ∀ v, scanDist D_MAX dis attachedPoints currentPoint dists v ≤ D_MAX := by
    intro v
    unfold scanDist
    split
    · rename_i hc
      exact le_trans (le_of_lt hc.2) (hD v)
    · exact hD v
  by_cases hc : mstCandidate attachedPoints currentPoint n
  swap
  · -- the point is skipped
    have hstep : mstScanStep D_MAX dis attachedPoints currentPoint s n = s := by
      unfold mstScanStep
      unfold mstCandidate at hc
      by_cases h1 : currentPoint = n
      · rw [if_pos h1]
      · have h2 : attachedPoints.getD n false = true := by
          cases hb : attachedPoints.getD n false
          · exact absurd ⟨h1, hb⟩ hc
          · rfl
        rw [if_neg h1, if_pos h2]
    rw [hstep]
    have hsd : scanDist D_MAX dis attachedPoints currentPoint dists n = dists.getD n D_MAX := by
      unfold scanDist; simp [hc]
    have hsn : scanNeighbor D_MAX dis attachedPoints currentPoint dists neighbors n =
        neighbors.getD n 0 := by
      unfold scanNeighbor; simp [hc]
    refine ⟨h.len_d, h.len_n, ?_, ?_, ?_, ?_, h.best_le, ?_, h.best_none_eq, ?_⟩
    · intro v hv
      rcases Nat.lt_succ_iff_lt_or_eq.mp hv with hlt | heq
      · exact h.dist_lt v hlt
      · subst heq; rw [hsd]; exact h.dist_ge v (le_refl _)
    · intro v hv; exact h.dist_ge v (by omega)
    · intro v hv
      rcases Nat.lt_succ_iff_lt_or_eq.mp hv with hlt | heq
      · exact h.nb_lt v hlt
      · subst heq; rw [hsn]; exact h.nb_ge v (le_refl _)
    · intro v hv; exact h.nb_ge v (by omega)
    · intro hnone v hv
      rcases Nat.lt_succ_iff_lt_or_eq.mp hv with hlt | heq
      · exact h.best_none hnone v hlt
      · subst heq; exact hc
    · intro p hp
      obtain ⟨h1, h2, h3, h4⟩ := h.best_some p hp
      refine ⟨by omega, h2, h3, ?_⟩
      intro v hv hcv
      rcases Nat.lt_succ_iff_lt_or_eq.mp hv with hlt | heq
      · exact h4 v hlt hcv
      · subst heq; exact absurd hcv hc
  · -- the point is an unattached neighbour
    have hnlt : n < dists.length := hn hc
    have hpre : s.nearestMRDDistances.getD n D_MAX = dists.getD n D_MAX := h.dist_ge n (le_refl _)
    have hsd : scanDist D_MAX dis attachedPoints currentPoint dists n =
        if mutualReachability dis n currentPoint < dists.getD n D_MAX then
          mutualReachability dis n currentPoint else dists.getD n D_MAX := by
      unfold scanDist
      by_cases hm : mutualReachability dis n currentPoint < dists.getD n D_MAX
      · rw [if_pos ⟨hc, hm⟩, if_pos hm]
      · rw [if_neg (fun hh => hm hh.2), if_neg hm]
    have hsn : scanNeighbor D_MAX dis attachedPoints currentPoint dists neighbors n =
        if mutualReachability dis n currentPoint < dists.getD n D_MAX then
          currentPoint else neighbors.getD n 0 := by
      unfold scanNeighbor
      by_cases hm : mutualReachability dis n currentPoint < dists.getD n D_MAX
      · rw [if_pos ⟨hc, hm⟩, if_pos hm]
      · rw [if_neg (fun hh => hm hh.2), if_neg hm]
    -- the state after the update of the nearest distance of `n`
    have hstep : mstScanStep D_MAX dis attachedPoints currentPoint s n =
        mstSelectNearest D_MAX (mstUpdateNearest D_MAX dis currentPoint s n) n := by
      unfold mstScanStep
      rw [if_neg hc.1, if_neg (by rw [hc.2]; simp)]
    obtain ⟨s1, hs1def, hs1p, hs1b, hs1d, hs1n, hs1dn, hs1nn, hs1ld, hs1ln⟩ :
        ∃ s1 : MstScan α,
          mstUpdateNearest D_MAX dis currentPoint s n = s1 ∧
          s1.nearestMRDPoint = s.nearestMRDPoint ∧
          s1.nearestMRDDistance = s.nearestMRDDistance ∧
          (∀ v, v ≠ n → s1.nearestMRDDistances.getD v D_MAX = s.nearestMRDDistances.getD v D_MAX) ∧
          (∀ v, v ≠ n → s1.nearestMRDNeighbors.getD v 0 = s.nearestMRDNeighbors.getD v 0) ∧
          s1.nearestMRDDistances.getD n D_MAX =
            scanDist D_MAX dis attachedPoints currentPoint dists n ∧
          s1.nearestMRDNeighbors.getD n 0 =
            scanNeighbor D_MAX dis attachedPoints currentPoint dists neighbors n ∧
          s1.nearestMRDDistances.length = dists.length ∧
          s1.nearestMRDNeighbors.length = neighbors.length := by
      unfold mstUpdateNearest
      rw [hpre]
      by_cases hm : mutualReachability dis n currentPoint < dists.getD n D_MAX
      · rw [if_pos hm]
        refine ⟨_, rfl, rfl, rfl, ?_, ?_, ?_, ?_, ?_, ?_⟩
        · intro v hv
          simp only
          rw [getD_set_eq, if_neg (fun hh => hv hh.1.symm)]
        · intro v hv
          simp only
          rw [getD_set_eq, if_neg (fun hh => hv hh.1.symm)]
        · simp only
          rw [getD_set_eq, if_pos ⟨rfl, by rw [h.len_d]; exact hnlt⟩, hsd, if_pos hm]
        · simp only
          rw [getD_set_eq, if_pos ⟨rfl, by rw [h.len_n, hlen]; exact hnlt⟩, hsn, if_pos hm]
        · simp only [List.length_set]; exact h.len_d
        · simp only [List.length_set]; exact h.len_n
      · rw [if_neg hm]
        refine ⟨s, rfl, rfl, rfl, fun _ _ => rfl, fun _ _ => rfl, ?_, ?_, h.len_d, h.len_n⟩
        · rw [hpre, hsd, if_neg hm]
        · rw [h.nb_ge n (le_refl _), hsn, if_neg hm]
    have hdl : ∀ (t : MstScan α), t.nearestMRDDistances = s1.nearestMRDDistances →
        t.nearestMRDNeighbors = s1.nearestMRDNeighbors →
        (t.nearestMRDDistances.length = dists.length ∧
         t.nearestMRDNeighbors.length = neighbors.length ∧
         (∀ v, v < n + 1 → t.nearestMRDDistances.getD v D_MAX =
            scanDist D_MAX dis attachedPoints currentPoint dists v) ∧
         (∀ v, n + 1 ≤ v → t.nearestMRDDistances.getD v D_MAX = dists.getD v D_MAX) ∧
         (∀ v, v < n + 1 → t.nearestMRDNeighbors.getD v 0 =
            scanNeighbor D_MAX dis attachedPoints currentPoint dists neighbors v) ∧
         (∀ v, n + 1 ≤ v → t.nearestMRDNeighbors.getD v 0 = neighbors.getD v 0)) := by
      intro t htd htn
      rw [htd, htn]
      refine ⟨hs1ld, hs1ln, ?_, ?_, ?_, ?_⟩
      · intro v hv
        rcases Nat.lt_succ_iff_lt_or_eq.mp hv with hlt | heq
        · rw [hs1d v (by omega)]; exact h.dist_lt v hlt
        · subst heq; exact hs1dn
      · intro v hv
        rw [hs1d v (by omega)]; exact h.dist_ge v (by omega)
      · intro v hv
        rcases Nat.lt_succ_iff_lt_or_eq.mp hv with hlt | heq
        · rw [hs1n v (by omega)]; exact h.nb_lt v hlt
        · subst heq; exact hs1nn
      · intro v hv
        rw [hs1n v (by omega)]; exact h.nb_ge v (by omega)
    rw [hstep, hs1def]
    unfold mstSelectNearest
    by_cases hle : s1.nearestMRDDistances.getD n D_MAX ≤ s1.nearestMRDDistance
    · rw [if_pos hle]
      obtain ⟨a1, a2, a3, a4, a5, a6⟩ := hdl
        { s1 with
          nearestMRDDistance := s1.nearestMRDDistances.getD n D_MAX
          nearestMRDPoint := some n } rfl rfl
      refine ⟨a1, a2, a3, a4, a5, a6, ?_, ?_, ?_, ?_⟩
      · simp only; rw [hs1dn]; exact hsD n
      · intro hnone; simp at hnone
      · intro hnone; simp at hnone
      · intro p hp
        simp only [Option.some.injEq] at hp
        subst hp
        refine ⟨by omega, hc, by simp only; exact hs1dn, ?_⟩
        intro v hv hcv
        rcases Nat.lt_succ_iff_lt_or_eq.mp hv with hlt | heq
        · rw [hs1dn, hs1b] at hle
          cases hsp : s.nearestMRDPoint with
          | none => exact absurd hcv (h.best_none hsp v hlt)
          | some q =>
            obtain ⟨_, _, q3, q4⟩ := h.best_some q hsp
            rw [q3] at hle
            exact le_trans hle (q4 v hlt hcv)
        · subst heq; exact le_refl _
    · rw [if_neg hle]
      obtain ⟨a1, a2, a3, a4, a5, a6⟩ := hdl s1 rfl rfl
      refine ⟨a1, a2, a3, a4, a5, a6, by rw [hs1b]; exact h.best_le, ?_, ?_, ?_⟩
      · intro hnone
        rw [hs1p] at hnone
        exfalso
        apply hle
        rw [hs1dn, hs1b, h.best_none_eq hnone]
        exact hsD n
      · intro hnone
        rw [hs1p] at hnone
        rw [hs1b]
        exact h.best_none_eq hnone
      · intro p hp
        rw [hs1p] at hp
        obtain ⟨q1, q2, q3, q4⟩ := h.best_some p hp
        refine ⟨by omega, q2, by rw [hs1b]; exact q3, ?_⟩
        intro v hv hcv
        rcases Nat.lt_succ_iff_lt_or_eq.mp hv with hlt | heq
        · exact q4 v hlt hcv
        · subst heq
          rw [hs1dn, hs1b, q3] at hle
          exact le_of_lt (lt_of_not_le hle)

theorem scanInv_foldl {α : Type} [LinearOrder α] [Zero α] (D_MAX : α) (dis : distance α)
    (attachedPoints : List Bool) (currentPoint : Nat) (dists : List α) (neighbors : List Nat)
    (hlen : neighbors.length = dists.length)
    (hD : ∀ v, dists.getD v D_MAX ≤ D_MAX) (size : Nat)
    (hn : ∀ n, n < size → mstCandidate attachedPoints currentPoint n → n < dists.length) :
    ScanInv D_MAX dis attachedPoints currentPoint dists neighbors size
      ((List.range size).foldl (mstScanStep D_MAX dis attachedPoints currentPoint)
        { nearestMRDNeighbors := neighbors
          nearestMRDDistances := dists
          nearestMRDPoint := none
          nearestMRDDistance := D_MAX }) := by
  induction size with
  | zero =>
    refine ⟨rfl, rfl, ?_, fun _ _ => rfl, ?_, fun _ _ => rfl, le_refl _, ?_, fun _ => rfl, ?_⟩
    · intro v hv; omega
    · intro v hv; omega
    · intro _ v hv; omega
    · intro p hp; simp at hp
  | succ n ih =>
    rw [List.range_succ, List.foldl_append]
    exact scanInv_step D_MAX dis attachedPoints currentPoint dists neighbors hlen hD n
      (hn n (Nat.lt_succ_self n)) _ (ih (fun m hm => hn m (Nat.lt_succ_of_lt hm)))

theorem getD_replicate {α : Type} (n i : Nat) (a : α) : (List.replicate n a).getD i a = a := by
  rw [List.getD_eq_getElem?_getD]
  by_cases h : i < n
  · simp [List.getElem?_replicate, h]
  · simp [List.getElem?_replicate, h]

theorem getD_attached_init (size v : Nat) (hsize : 1 ≤ size) (hv : v < size) :
    (List.replicate (size - 1) false ++ [true]).getD v false = true ↔ v = size - 1 := by
  rw [List.getD_eq_getElem?_getD]
  by_cases h : v < size - 1
  · rw [List.getElem?_append_left (by simpa using h)]
    simp [List.getElem?_replicate, h]
    omega
  · have hv2 : v = size - 1 := by omega
    subst hv2
    rw [List.getElem?_append_right (by simp)]
    simp

theorem primInv_init {α : Type} [LinearOrder α] [Zero α] (D_MAX : α) (dis : distance α)
    (size : Nat) (selfEdges : Bool) (hsize : 1 ≤ size) :
    PrimInv D_MAX dis size (size - 1 + if selfEdges then size else 0) 1 (fun _ => size - 1)
      (mstInit D_MAX size selfEdges) := by
  unfold mstInit
  refine ⟨?_, ?_, ?_, ?_, rfl, ?_, ?_, rfl, ?_, ?_, ?_, ?_, ?_, ?_, ?_, ?_, ?_⟩
  · simp; omega
  · simp
  · simp
  · simp
  · intro t _; show size - 1 < size; omega
  · intro s t hs ht _; omega
  · intro v hv
    simp only
    rw [getD_attached_init size v hsize hv]
    constructor
    · intro h; exact ⟨0, by omega, h.symm⟩
    · rintro ⟨t, _, h⟩; exact h.symm
  · intro v; simp only; rw [getD_replicate]
  · intro v; simp only; rw [getD_replicate]; omega
  · intro v hv _; simp only; rw [getD_replicate]; omega
  · intro v _; simp only; rw [getD_replicate]
  · intro _ t h1 h2; omega
  · intro _ v; simp only; rw [getD_replicate]
  · intro v _ _ s hs; omega
  · intro _ h; omega

theorem exists_unattached {size k : Nat} (pt : Nat → Nat) (hk : k < size)
    (attached : Nat → Prop) (h : ∀ v, v < size → attached v → ∃ t, t < k ∧ pt t = v) :
    ∃ v, v < size ∧ ¬ attached v := by
  by_contra hcon
  push_neg at hcon
  have hex : ∀ v, v < size → ∃ t, t < k ∧ pt t = v := fun v hv => h v hv (hcon v hv)
  choose! f hf using hex
  have hcard : (Finset.range size).card ≤ (Finset.range k).card := by
    apply Finset.card_le_card_of_injOn f
    · intro v hv
      have hv2 : v < size := by simpa using hv
      simpa using (hf v hv2).1
    · intro a ha b hb hab
      have ha2 : a < size := by simpa using ha
      have hb2 : b < size := by simpa using hb
      rw [← (hf a ha2).2, ← (hf b hb2).2, hab]
  simp at hcard
  omega

theorem scanDist_of_not_candidate {α : Type} [LinearOrder α] [Zero α] (D_MAX : α)
    (dis : distance α) (attachedPoints : List Bool) (currentPoint : Nat) (dists : List α)
    (neighbors : List Nat) (v : Nat) (h : ¬ mstCandidate attachedPoints currentPoint v) :
    scanDist D_MAX dis attachedPoints currentPoint dists v = dists.getD v D_MAX ∧
    scanNeighbor D_MAX dis attachedPoints currentPoint dists neighbors v = neighbors.getD v 0 := by
  unfold scanDist scanNeighbor
  rw [if_neg (fun hh => h hh.1), if_neg (fun hh => h hh.1)]
  exact ⟨rfl, rfl⟩

theorem scanDist_le {α : Type} [LinearOrder α] [Zero α] (D_MAX : α)
    (dis : distance α) (attachedPoints : List Bool) (currentPoint : Nat) (dists : List α)
    (v : Nat) (h : mstCandidate attachedPoints currentPoint v) :
    scanDist D_MAX dis attachedPoints currentPoint dists v ≤ mutualReachability dis v currentPoint ∧
    scanDist D_MAX dis attachedPoints currentPoint dists v ≤ dists.getD v D_MAX := by
  unfold scanDist
  by_cases hm : mutualReachability dis v currentPoint < dists.getD v D_MAX
  · rw [if_pos ⟨h, hm⟩]
    exact ⟨le_refl _, le_of_lt hm⟩
  · rw [if_neg (fun hh => hm hh.2)]
    exact ⟨le_of_not_lt hm, le_refl _⟩

theorem primInv_round {α : Type} [LinearOrder α] [Zero α] (D_MAX : α) (dis : distance α)
    (size ssize k : Nat) (pt : Nat → Nat) (st : MstState α)
    (hss : size - 1 ≤ ssize) (hk1 : 1 ≤ k) (hk : k < size)
    (h : PrimInv D_MAX dis size ssize k pt st) :
    ∃ p st', mstRound D_MAX dis size st k = some st' ∧
      PrimInv D_MAX dis size ssize (k + 1) (Function.update pt k p) st' := by
  -- the current point
  have hc_lt : st.currentPoint < size := by rw [h.pt_cur]; exact h.pt_lt _ (by omega)
  have hc_att : st.attachedPoints.getD st.currentPoint false = true :=
    (h.att_iff _ hc_lt).2 ⟨k - 1, by omega, h.pt_cur.symm⟩
  have hlast_att : st.attachedPoints.getD (size - 1) false = true :=
    (h.att_iff _ (by omega)).2 ⟨0, by omega, h.pt_zero⟩
  have hcand_lt : ∀ n, n < size → mstCandidate st.attachedPoints st.currentPoint n →
      n < st.nearestMRDDistances.length := by
    intro n hn hc
    rw [h.d_len]
    have : n ≠ size - 1 := by
      intro heq
      have h2 := hc.2
      rw [heq, hlast_att] at h2
      exact absurd h2 (by simp)
    omega
  have hscan := scanInv_foldl D_MAX dis st.attachedPoints st.currentPoint st.nearestMRDDistances
    st.nearestMRDNeighbors (by rw [h.nb_len, h.d_len]) h.d_le size hcand_lt
  -- some point is unattached
  obtain ⟨u, hu_lt, hu_att⟩ := exists_unattached pt hk
    (fun v => st.attachedPoints.getD v false = true)
    (fun v hv hatt => (h.att_iff v hv).1 hatt)
  have hu_cand : mstCandidate st.attachedPoints st.currentPoint u := by
    refine ⟨?_, by simpa using hu_att⟩
    intro heq
    rw [← heq] at hu_att
    exact hu_att hc_att
  generalize hsc : (List.range size).foldl (mstScanStep D_MAX dis st.attachedPoints st.currentPoint)
        { nearestMRDNeighbors := st.nearestMRDNeighbors
          nearestMRDDistances := st.nearestMRDDistances
          nearestMRDPoint := none
          nearestMRDDistance := D_MAX } = scan at hscan
  cases hp : scan.nearestMRDPoint with
  | none => exact absurd hu_cand (hscan.best_none hp u hu_lt)
  | some p =>
    obtain ⟨hp_lt, hp_cand, hp_best, hp_min⟩ := hscan.best_some p hp
    refine ⟨p, { attachedPoints := st.attachedPoints.set p true
                 nearestMRDNeighbors := scan.nearestMRDNeighbors
                 otherVertexIndices := st.otherVertexIndices.set k k
                 nearestMRDDistances := scan.nearestMRDDistances
                 currentPoint := p }, ?_, ?_⟩
    · unfold mstRound
      simp only [hsc, hp]
    · -- facts about the lists after the scan
      have hp_unatt : st.attachedPoints.getD p false = false := hp_cand.2
      have hp_new : ∀ t, t < k → pt t ≠ p := by
        intro t ht heq
        have := (h.att_iff p hp_lt).2 ⟨t, ht, heq⟩
        rw [hp_unatt] at this
        exact absurd this (by simp)
      have hupd_lt : ∀ t, t < k → Function.update pt k p t = pt t := by
        intro t ht
        exact Function.update_noteq (by omega) _ _
      have hupd_k : Function.update pt k p k = p := Function.update_same _ _ _
      have hsd_le : ∀ v, scanDist D_MAX dis st.attachedPoints st.currentPoint
          st.nearestMRDDistances v ≤ D_MAX := by
        intro v
        unfold scanDist
        split
        · rename_i hcm
          exact le_trans (le_of_lt hcm.2) (h.d_le v)
        · exact h.d_le v
      have hatt' : ∀ v, v < size →
          ((st.attachedPoints.set p true).getD v false = true ↔
            (st.attachedPoints.getD v false = true ∨ v = p)) := by
        intro v hv
        rw [getD_set_eq]
        by_cases hpv : p = v
        · subst hpv
          rw [if_pos ⟨rfl, by rw [h.att_len]; exact hv⟩]
          simp
        · rw [if_neg (fun hh => hpv hh.1)]
          constructor
          · intro h1; exact Or.inl h1
          · rintro (h1 | h1)
            · exact h1
            · exact absurd h1.symm hpv
      -- an unattached point other than the current one, after the scan
      have hcand_facts : ∀ v, v < size → mstCandidate st.attachedPoints st.currentPoint v →
          (∀ s, s < k → scan.nearestMRDDistances.getD v D_MAX ≤ mutualReachability dis v (pt s)) ∧
          (FiniteMRD D_MAX dis size → ∃ s, s < k ∧ scan.nearestMRDNeighbors.getD v 0 = pt s ∧
            scan.nearestMRDDistances.getD v D_MAX =
              mutualReachability dis v (scan.nearestMRDNeighbors.getD v 0)) := by
        intro v hv hcv
        rw [hscan.dist_lt v hv, hscan.nb_lt v hv]
        have hle := scanDist_le D_MAX dis st.attachedPoints st.currentPoint
          st.nearestMRDDistances v hcv
        constructor
        · intro s hs
          by_cases hsk : s = k - 1
          · rw [hsk, ← h.pt_cur]; exact hle.1
          · exact le_trans hle.2 (h.keys_le v hv hcv.2 s (by omega))
        · intro hfin
          unfold scanDist scanNeighbor
          by_cases hm : mutualReachability dis v st.currentPoint <
              st.nearestMRDDistances.getD v D_MAX
          · rw [if_pos ⟨hcv, hm⟩, if_pos ⟨hcv, hm⟩]
            exact ⟨k - 1, by omega, h.pt_cur, rfl⟩
          · rw [if_neg (fun hh => hm hh.2), if_neg (fun hh => hm hh.2)]
            have hk2 : 2 ≤ k := by
              by_contra hk2
              have hk1' : k = 1 := by omega
              apply hm
              rw [h.keys_init hk1' v]
              exact hfin v st.currentPoint hv hc_lt (fun heq => hcv.1 heq.symm)
            obtain ⟨s, hs, hs1, hs2⟩ := h.keys_nb hfin hk2 v hv hcv.2
            exact ⟨s, by omega, hs1, hs2⟩
      have hnot_cand : ∀ t, t < k → ¬ mstCandidate st.attachedPoints st.currentPoint (pt t) := by
        intro t ht hc
        have := (h.att_iff (pt t) (h.pt_lt t ht)).2 ⟨t, ht, rfl⟩
        rw [hc.2] at this
        exact absurd this (by simp)
      have hold_d : ∀ t, t < k → scan.nearestMRDDistances.getD (pt t) D_MAX =
          st.nearestMRDDistances.getD (pt t) D_MAX := by
        intro t ht
        rw [hscan.dist_lt _ (h.pt_lt t ht)]
        exact (scanDist_of_not_candidate D_MAX dis _ _ _ st.nearestMRDNeighbors _
          (hnot_cand t ht)).1
      have hold_n : ∀ t, t < k → scan.nearestMRDNeighbors.getD (pt t) 0 =
          st.nearestMRDNeighbors.getD (pt t) 0 := by
        intro t ht
        rw [hscan.nb_lt _ (h.pt_lt t ht)]
        exact (scanDist_of_not_candidate D_MAX dis _ _ _ st.nearestMRDNeighbors _
          (hnot_cand t ht)).2
      have hunatt_cand : ∀ y, y < size → (∀ s', s' < k → pt s' ≠ y) →
          mstCandidate st.attachedPoints st.currentPoint y := by
        intro y hy hne
        refine ⟨?_, ?_⟩
        · rw [h.pt_cur]; exact hne (k - 1) (by omega)
        · cases hb : st.attachedPoints.getD y false
          · rfl
          · obtain ⟨t, ht, hpt⟩ := (h.att_iff y hy).1 hb
            exact absurd hpt (hne t ht)
      constructor
      · simp only [List.length_set]; exact h.att_len
      · rw [hscan.len_n]; exact h.nb_len
      · simp only [List.length_set]; exact h.ot_len
      · rw [hscan.len_d]; exact h.d_len
      · rw [hupd_lt 0 (by omega)]; exact h.pt_zero
      · intro t ht
        rcases Nat.lt_succ_iff_lt_or_eq.mp ht with hlt | heq
        · rw [hupd_lt t hlt]; exact h.pt_lt t hlt
        · rw [heq, hupd_k]; exact hp_lt
      · intro s t hs ht hst
        rcases Nat.lt_succ_iff_lt_or_eq.mp hs with hslt | hseq <;>
        rcases Nat.lt_succ_iff_lt_or_eq.mp ht with htlt | hteq
        · rw [hupd_lt s hslt, hupd_lt t htlt] at hst
          exact h.pt_inj s t hslt htlt hst
        · rw [hupd_lt s hslt, hteq, hupd_k] at hst
          exact absurd hst (hp_new s hslt)
        · rw [hupd_lt t htlt, hseq, hupd_k] at hst
          exact absurd hst.symm (hp_new t htlt)
        · omega
      · show p = Function.update pt k p (k + 1 - 1)
        rw [Nat.add_sub_cancel, hupd_k]
      · intro v hv
        show (st.attachedPoints.set p true).getD v false = true ↔ _
        rw [hatt' v hv, h.att_iff v hv]
        constructor
        · rintro (⟨t, ht, hpt⟩ | hvp)
          · exact ⟨t, by omega, by rw [hupd_lt t ht]; exact hpt⟩
          · exact ⟨k, by omega, by rw [hupd_k]; exact hvp.symm⟩
        · rintro ⟨t, ht, hpt⟩
          rcases Nat.lt_succ_iff_lt_or_eq.mp ht with hlt | heq
          · rw [hupd_lt t hlt] at hpt; exact Or.inl ⟨t, hlt, hpt⟩
          · rw [heq, hupd_k] at hpt; exact Or.inr hpt.symm
      · intro v
        show scan.nearestMRDDistances.getD v D_MAX ≤ D_MAX
        by_cases hv : v < size
        · rw [hscan.dist_lt v hv]; exact hsd_le v
        · rw [hscan.dist_ge v (by omega)]; exact h.d_le v
      · intro v
        show scan.nearestMRDNeighbors.getD v 0 < size
        by_cases hv : v < size
        · rw [hscan.nb_lt v hv]
          unfold scanNeighbor
          split
          · exact hc_lt
          · exact h.nb_lt v
        · rw [hscan.nb_ge v (by omega)]; exact h.nb_lt v
      · intro v hv hvs
        show (st.otherVertexIndices.set k k).getD v 0 = v
        rw [getD_set_eq]
        by_cases hkv : k = v
        · rw [if_pos ⟨hkv, by rw [h.ot_len, hkv]; exact hvs⟩]; exact hkv
        · rw [if_neg (fun hh => hkv hh.1)]
          exact h.other_lt v (by omega) hvs
      · intro v hv
        show (st.otherVertexIndices.set k k).getD v 0 = 0
        rw [getD_set_eq, if_neg (fun hh => by omega)]
        exact h.other_ge v (by omega)
      · intro hfin t ht1 ht
        show (∃ s, s < t ∧ scan.nearestMRDNeighbors.getD (Function.update pt k p t) 0 =
            Function.update pt k p s) ∧
          scan.nearestMRDDistances.getD (Function.update pt k p t) D_MAX =
            mutualReachability dis (Function.update pt k p t)
              (scan.nearestMRDNeighbors.getD (Function.update pt k p t) 0) ∧
          ∀ s, s < t → ∀ y, y < size → (∀ s', s' < t → Function.update pt k p s' ≠ y) →
            scan.nearestMRDDistances.getD (Function.update pt k p t) D_MAX ≤
              mutualReachability dis y (Function.update pt k p s)
        rcases Nat.lt_succ_iff_lt_or_eq.mp ht with hlt | heq
        · rw [hupd_lt t hlt, hold_d t hlt, hold_n t hlt]
          obtain ⟨⟨s, hs, hs1⟩, f2, f3⟩ := h.frozen hfin t ht1 hlt
          refine ⟨⟨s, hs, by rw [hupd_lt s (by omega)]; exact hs1⟩, f2, ?_⟩
          intro s hs y hy hne
          rw [hupd_lt s (by omega)]
          apply f3 s hs y hy
          intro s' hs'
          have := hne s' hs'
          rwa [hupd_lt s' (by omega)] at this
        · subst heq
          rw [hupd_k]
          obtain ⟨g1, g2⟩ := hcand_facts p hp_lt hp_cand
          obtain ⟨s, hs, hs1, hs2⟩ := g2 hfin
          refine ⟨⟨s, hs, by rw [hupd_lt s hs]; exact hs1⟩, hs2, ?_⟩
          intro s hs y hy hne
          rw [hupd_lt s hs]
          have hyc : mstCandidate st.attachedPoints st.currentPoint y := by
            apply hunatt_cand y hy
            intro s' hs'
            have := hne s' hs'
            rwa [hupd_lt s' hs'] at this
          rw [hscan.dist_lt p hp_lt]
          refine le_trans (hp_min y hy hyc) ?_
          rw [← hscan.dist_lt y hy]
          exact (hcand_facts y hy hyc).1 s hs
      · intro hk1'; omega
      · intro v hv hva s hs
        show scan.nearestMRDDistances.getD v D_MAX ≤
          mutualReachability dis v (Function.update pt k p s)
        have hva' : (st.attachedPoints.set p true).getD v false = false := hva
        have hnot : ¬ (st.attachedPoints.getD v false = true ∨ v = p) := by
          rw [← hatt' v hv, hva']; simp
        push_neg at hnot
        have hyc : mstCandidate st.attachedPoints st.currentPoint v := by
          refine ⟨?_, by simpa using hnot.1⟩
          intro heq
          rw [← heq] at hnot
          exact hnot.1 hc_att
        rw [hupd_lt s (by omega)]
        exact (hcand_facts v hv hyc).1 s (by omega)
      · intro hfin _ v hv hva
        show ∃ s, s + 1 < k + 1 ∧ scan.nearestMRDNeighbors.getD v 0 = Function.update pt k p s ∧
          scan.nearestMRDDistances.getD v D_MAX =
            mutualReachability dis v (scan.nearestMRDNeighbors.getD v 0)
        have hva' : (st.attachedPoints.set p true).getD v false = false := hva
        have hnot : ¬ (st.attachedPoints.getD v false = true ∨ v = p) := by
          rw [← hatt' v hv, hva']; simp
        push_neg at hnot
        have hyc : mstCandidate st.attachedPoints st.currentPoint v := by
          refine ⟨?_, by simpa using hnot.1⟩
          intro heq
          rw [← heq] at hnot
          exact hnot.1 hc_att
        obtain ⟨s, hs, hs1, hs2⟩ := (hcand_facts v hv hyc).2 hfin
        exact ⟨s, by omega, by rw [hupd_lt s hs]; exact hs1, hs2⟩

theorem primInv_rounds {α : Type} [LinearOrder α] [Zero α] (D_MAX : α) (dis : distance α)
    (size : Nat) (selfEdges : Bool) (hsize : 1 ≤ size) (n : Nat) (hn : n ≤ size - 1) :
    ∃ pt st, (List.range' 1 n).foldlM (mstRound D_MAX dis size) (mstInit D_MAX size selfEdges) =
        some st ∧
      PrimInv D_MAX dis size (size - 1 + if selfEdges then size else 0) (n + 1) pt st := by
  induction n with
  | zero =>
    exact ⟨_, _, rfl, primInv_init D_MAX dis size selfEdges hsize⟩
  | succ n ih =>
    obtain ⟨pt, st, hst, hinv⟩ := ih (by omega)
    obtain ⟨p, st', hst', hinv'⟩ := primInv_round D_MAX dis size _ (n + 1) pt st (by omega)
      (by omega) (by omega) hinv
    refine ⟨_, st', ?_, hinv'⟩
    rw [List.range'_concat, List.foldlM_append, hst]
    simp only [Option.bind_eq_bind, Option.some_bind, List.foldlM_cons, List.foldlM_nil, mul_one]
    have hidx : 1 + 1 * n = n + 1 := by omega
    rw [hidx, hst']
    rfl

theorem getElem?_eq_some_getD {α : Type} (l : List α) (i : Nat) (d : α) (h : i < l.length) :
    l[i]? = some (l.getD i d) := by
  rw [List.getD_eq_getElem?_getD, List.getElem?_eq_getElem h]
  rfl

theorem mstSelfEdges_fields {α : Type} [Zero α] (dis : distance α) (size : Nat) (l : List Nat)
    (st : MstState α) :
    (l.foldl
      (fun (st : MstState α) i =>
        { st with
          nearestMRDNeighbors := st.nearestMRDNeighbors.set i (i - (size - 1))
          otherVertexIndices := st.otherVertexIndices.set i (i - (size - 1))
          nearestMRDDistances :=
            st.nearestMRDDistances.set i (dis.coreDistances.getD (i - (size - 1)) 0) })
      st).nearestMRDNeighbors =
      l.foldl (fun ds i => ds.set (id i) (i - (size - 1))) st.nearestMRDNeighbors ∧
    (l.foldl
      (fun (st : MstState α) i =>
        { st with
          nearestMRDNeighbors := st.nearestMRDNeighbors.set i (i - (size - 1))
          otherVertexIndices := st.otherVertexIndices.set i (i - (size - 1))
          nearestMRDDistances :=
            st.nearestMRDDistances.set i (dis.coreDistances.getD (i - (size - 1)) 0) })
      st).otherVertexIndices =
      l.foldl (fun ds i => ds.set (id i) (i - (size - 1))) st.otherVertexIndices ∧
    (l.foldl
      (fun (st : MstState α) i =>
        { st with
          nearestMRDNeighbors := st.nearestMRDNeighbors.set i (i - (size - 1))
          otherVertexIndices := st.otherVertexIndices.set i (i - (size - 1))
          nearestMRDDistances :=
            st.nearestMRDDistances.set i (dis.coreDistances.getD (i - (size - 1)) 0) })
      st).nearestMRDDistances =
      l.foldl (fun ds i => ds.set (id i) (dis.coreDistances.getD (i - (size - 1)) 0))
        st.nearestMRDDistances := by
  induction l generalizing st with
  | nil => exact ⟨rfl, rfl, rfl⟩
  | cons i l ih =>
    simp only [List.foldl_cons]
    exact ih _


theorem foldl_set_range'_getD {α : Type} (val : Nat → α) (a n : Nat) (l : List α) (v : Nat)
    (d : α) :
    ((List.range' a n).foldl (fun ds i => ds.set (id i) (val i)) l).getD v d =
      if a ≤ v ∧ v < a + n ∧ v < l.length then val v else l.getD v d := by
  by_cases h : a ≤ v ∧ v < a + n ∧ v < l.length
  · rw [if_pos h]
    apply foldl_set_getD_written id val d v (val v) _ l
    · exact ⟨v, by simp [List.mem_range'_1]; omega, rfl⟩
    · intro y _ hy
      simp only [id] at hy
      rw [hy]
    · exact h.2.2
  · rw [if_neg h]
    by_cases hl : v < l.length
    · apply foldl_set_getD_untouched id val d v _ l
      intro y hy hyv
      simp only [id] at hyv
      subst hyv
      simp only [List.mem_range'_1] at hy
      exact h ⟨hy.1, hy.2, hl⟩
    · rw [List.getD_eq_getElem?_getD, List.getD_eq_getElem?_getD,
        List.getElem?_eq_none (by rw [foldl_set_length]; omega),
        List.getElem?_eq_none (by omega)]

theorem construct_mst_result {α : Type} [LinearOrder α] [Zero α] (D_MAX : α) (dis : distance α)
    (size : Nat) (selfEdges : Bool) (hsize : 1 ≤ size) :
    ∃ pt st,
      PrimInv D_MAX dis size (size - 1 + if selfEdges then size else 0) size pt st ∧
      hdbscan_construct_mst D_MAX dis size selfEdges =
        some
          { verticesA := (if selfEdges then mstSelfEdges dis size st else st).nearestMRDNeighbors
            verticesB := (if selfEdges then mstSelfEdges dis size st else st).otherVertexIndices
            edgeWeights := (if selfEdges then mstSelfEdges dis size st else st).nearestMRDDistances } := by
  obtain ⟨pt, st, hst, hinv⟩ := primInv_rounds D_MAX dis size selfEdges hsize (size - 1) (le_refl _)
  rw [Nat.sub_add_cancel hsize] at hinv
  refine ⟨pt, st, hinv, ?_⟩
  unfold hdbscan_construct_mst
  rw [hst]
  rfl

/-- C4: for `size ≥ 1` and `selfEdges` set, `hdbscan_construct_mst` produces three lists of
`2 * size - 1` entries each; at every position `v ≤ size - 2` stands an edge between the point
`v` and a point of the data set, and at position `size - 1 + i` stands the self loop of the
point `i`, whose weight is `coreDistances[i]`. -/
theorem construct_mst_layout {α : Type} [LinearOrder α] [Zero α] (D_MAX : α) (dis : distance α)
    (size : Nat) (hsize : 1 ≤ size) :
    ∃ g, hdbscan_construct_mst D_MAX dis size true = some g ∧
      g.verticesA.length = 2 * size - 1 ∧
      g.verticesB.length = 2 * size - 1 ∧
      g.edgeWeights.length = 2 * size - 1 ∧
      (∀ v, v < size - 1 → g.verticesB[v]? = some v ∧
        ∃ a, g.verticesA[v]? = some a ∧ a < size) ∧
      (∀ i, i < size →
        g.verticesA[size - 1 + i]? = some i ∧
        g.verticesB[size - 1 + i]? = some i ∧
        g.edgeWeights[size - 1 + i]? = some (dis.coreDistances.getD i 0)) := by
  obtain ⟨pt, st, hinv, hres⟩ := construct_mst_result D_MAX dis size true hsize
  refine ⟨_, hres, ?_⟩
  simp only [if_true] at hinv ⊢
  obtain ⟨hA, hB, hW⟩ := mstSelfEdges_fields dis size (List.range' (size - 1) size) st
  have hlenA : (mstSelfEdges dis size st).nearestMRDNeighbors.length = 2 * size - 1 := by
    unfold mstSelfEdges; rw [hA, foldl_set_length, hinv.nb_len]; omega
  have hlenB : (mstSelfEdges dis size st).otherVertexIndices.length = 2 * size - 1 := by
    unfold mstSelfEdges; rw [hB, foldl_set_length, hinv.ot_len]; omega
  have hlenW : (mstSelfEdges dis size st).nearestMRDDistances.length = 2 * size - 1 := by
    unfold mstSelfEdges; rw [hW, foldl_set_length, hinv.d_len]; omega
  have hgA : ∀ v, (mstSelfEdges dis size st).nearestMRDNeighbors.getD v 0 =
      if size - 1 ≤ v ∧ v < size - 1 + size ∧ v < st.nearestMRDNeighbors.length then
        v - (size - 1) else st.nearestMRDNeighbors.getD v 0 := by
    intro v; unfold mstSelfEdges; rw [hA, foldl_set_range'_getD]
  have hgB : ∀ v, (mstSelfEdges dis size st).otherVertexIndices.getD v 0 =
      if size - 1 ≤ v ∧ v < size - 1 + size ∧ v < st.otherVertexIndices.length then
        v - (size - 1) else st.otherVertexIndices.getD v 0 := by
    intro v; unfold mstSelfEdges; rw [hB, foldl_set_range'_getD]
  have hgW : ∀ v, (mstSelfEdges dis size st).nearestMRDDistances.getD v 0 =
      if size - 1 ≤ v ∧ v < size - 1 + size ∧ v < st.nearestMRDDistances.length then
        dis.coreDistances.getD (v - (size - 1)) 0 else st.nearestMRDDistances.getD v 0 := by
    intro v; unfold mstSelfEdges; rw [hW, foldl_set_range'_getD]
  refine ⟨hlenA, hlenB, hlenW, ?_, ?_⟩
  · intro v hv
    constructor
    · rw [getElem?_eq_some_getD _ v 0 (by rw [hlenB]; omega), hgB v,
        if_neg (fun hh => by omega), hinv.other_lt v (by omega) (by omega)]
    · refine ⟨_, getElem?_eq_some_getD _ v 0 (by rw [hlenA]; omega), ?_⟩
      rw [hgA v, if_neg (fun hh => by omega)]
      exact hinv.nb_lt v
  · intro i hi
    refine ⟨?_, ?_, ?_⟩
    · rw [getElem?_eq_some_getD _ _ 0 (by rw [hlenA]; omega), hgA,
        if_pos ⟨by omega, by omega, by rw [hinv.nb_len]; omega⟩]
      congr 1; omega
    · rw [getElem?_eq_some_getD _ _ 0 (by rw [hlenB]; omega), hgB,
        if_pos ⟨by omega, by omega, by rw [hinv.ot_len]; omega⟩]
      congr 1; omega
    · rw [getElem?_eq_some_getD _ _ 0 (by rw [hlenW]; omega), hgW,
        if_pos ⟨by omega, by omega, by rw [hinv.d_len]; omega⟩]
      congr 3; omega

/-- Witness of C4: the four points `0, 2, -2, 1` on a line with `mpts = 2`. -/
theorem construct_mst_layout_witness :
    ∃ g, hdbscan_construct_mst 1000 lineStore 4 true = some g ∧
      g.verticesA.length = 2 * 4 - 1 ∧
      g.verticesB.length = 2 * 4 - 1 ∧
      g.edgeWeights.length = 2 * 4 - 1 ∧
      (∀ v, v < 4 - 1 → g.verticesB[v]? = some v ∧
        ∃ a, g.verticesA[v]? = some a ∧ a < 4) ∧
      (∀ i, i < 4 →
        g.verticesA[4 - 1 + i]? = some i ∧
        g.verticesB[4 - 1 + i]? = some i ∧
        g.edgeWeights[4 - 1 + i]? = some (lineStore.coreDistances.getD i 0)) :=
  construct_mst_layout 1000 lineStore 4 (by decide)

/-! ### Prim rounds on an abstract vertex type -/

theorem prim_isTree {V : Type} (G : SimpleGraph V) (pt : Nat → V) (par : Nat → V) (n : Nat)
    (hinj : ∀ s t, s ≤ n → t ≤ n → pt s = pt t → s = t)
    (hpar : ∀ t, 1 ≤ t → t ≤ n → ∃ s, s < t ∧ par t = pt s)
    (hsurj : ∀ z, ∃ s, s ≤ n ∧ pt s = z)
    (hAdj : ∀ a b, G.Adj a b ↔ ∃ t, 1 ≤ t ∧ t ≤ n ∧ s(a, b) = s(par t, pt t)) :
    G.IsTree := by
  have hreach : ∀ s, s ≤ n → G.Reachable (pt 0) (pt s) := by
    intro s
    induction s using Nat.strong_induction_on with
    | _ s ih =>
      intro hs
      rcases Nat.eq_zero_or_pos s with h0 | hpos
      · rw [h0]
      · obtain ⟨s', hs', hpar'⟩ := hpar s hpos hs
        have hadj : G.Adj (pt s') (pt s) := (hAdj _ _).2 ⟨s, hpos, hs, by rw [hpar']⟩
        exact (ih s' hs' (by omega)).trans hadj.reachable
  have hpre : G.Preconnected := by
    intro u v
    obtain ⟨su, hsu, rfl⟩ := hsurj u
    obtain ⟨sv, hsv, rfl⟩ := hsurj v
    exact (hreach su hsu).symm.trans (hreach sv hsv)
  refine ⟨{ preconnected := hpre, nonempty := ⟨pt 0⟩ }, ?_⟩
  · rw [isAcyclic_iff_forall_adj_isBridge]
    intro a b hab
    rw [isBridge_iff]
    refine ⟨hab, ?_⟩
    obtain ⟨t, ht1, ht, hedge⟩ := (hAdj a b).1 hab
    -- the points hanging below `pt t`
    let D : V → Prop := fun z =>
      Relation.ReflTransGen (fun x y => ∃ t', 1 ≤ t' ∧ t' ≤ n ∧ x = par t' ∧ y = pt t') (pt t) z
    have hDge : ∀ z, D z → ∃ s, t ≤ s ∧ s ≤ n ∧ pt s = z := by
      intro z hz
      induction hz with
      | refl => exact ⟨t, le_refl _, ht, rfl⟩
      | @tail x y _ hstep ih =>
        obtain ⟨s, hs1, hs2, hs3⟩ := ih
        obtain ⟨t', h1, h2, h3, h4⟩ := hstep
        obtain ⟨s', hs', hps'⟩ := hpar t' h1 h2
        have : s = s' := hinj s s' hs2 (by omega) (by rw [hs3, h3, hps'])
        exact ⟨t', by omega, h2, h4.symm⟩
    have hpar_notD : ¬ D (par t) := by
      intro hD
      obtain ⟨s, hs1, hs2, hs3⟩ := hDge _ hD
      obtain ⟨s', hs', hps'⟩ := hpar t ht1 ht
      have : s = s' := hinj s s' hs2 (by omega) (by rw [hs3, hps'])
      omega
    have hDt : D (pt t) := Relation.ReflTransGen.refl
    -- adjacency in the graph without the edge keeps the side
    have hside : ∀ x y, (G \ fromEdgeSet {s(a, b)}).Adj x y → (D x ↔ D y) := by
      intro x y hxy
      have hxy' : G.Adj x y ∧ s(x, y) ≠ s(a, b) := by
        simp only [sdiff_adj, fromEdgeSet_adj, Set.mem_singleton_iff, not_and, not_not] at hxy
        refine ⟨hxy.1, ?_⟩
        intro heq
        exact hxy.1.ne (hxy.2 heq)
      obtain ⟨t', h1, h2, h3⟩ := (hAdj x y).1 hxy'.1
      have hne : t' ≠ t := by
        intro heq
        apply hxy'.2
        rw [h3, hedge, heq]
      have hkey : D (par t') ↔ D (pt t') := by
        constructor
        · intro hD
          exact Relation.ReflTransGen.tail hD ⟨t', h1, h2, rfl, rfl⟩
        · intro hD
          rcases Relation.ReflTransGen.cases_tail hD with heq | ⟨c, hc, hstep⟩
          · exact absurd (hinj t' t h2 ht heq) hne
          · obtain ⟨t'', g1, g2, g3, g4⟩ := hstep
            have : t' = t'' := hinj t' t'' h2 g2 g4
            rw [this, ← g3]
            exact hc
      rcases Sym2.eq_iff.mp h3 with ⟨e1, e2⟩ | ⟨e1, e2⟩
      · rw [e1, e2]; exact hkey
      · rw [e1, e2]; exact hkey.symm
    have hside_reach : ∀ x y, (G \ fromEdgeSet {s(a, b)}).Reachable x y → (D x ↔ D y) := by
      intro x y hxy
      rw [reachable_iff_reflTransGen] at hxy
      induction hxy with
      | refl => exact Iff.rfl
      | @tail c d _ hstep ih => exact ih.trans (hside c d hstep)
    intro hreach'
    have := hside_reach a b hreach'
    rcases Sym2.eq_iff.mp hedge with ⟨e1, e2⟩ | ⟨e1, e2⟩
    · rw [e1, e2] at this
      exact hpar_notD (this.2 hDt)
    · rw [e1, e2] at this
      exact hpar_notD (this.1 hDt)

/-! ### The result of `hdbscan_construct_mst` as a spanning tree -/

theorem mutualReachability_eq_mrdWeight {α : Type} [LinearOrder α] [Zero α] (dis : distance α)
    (a b : Nat) : mutualReachability dis a b = mrdWeight dis a b := by
  unfold mutualReachability mrdWeight
  simp only [gt_iff_lt]
  rw [max_assoc]
  have hmax : ∀ x y : α, (if y < x then x else y) = max x y := by
    intro x y
    rcases lt_or_le y x with h | h
    · rw [if_pos h, max_eq_left (le_of_lt h)]
    · rw [if_neg (not_lt.mpr h), max_eq_right h]
  rw [hmax, hmax]

theorem distance_get_comm {α : Type} [Zero α] (dis : distance α) (i j : Nat) :
    distance_get dis i j = distance_get dis j i := by
  unfold distance_get
  rcases Nat.lt_trichotomy i j with h | h | h
  · rw [if_pos h, if_neg (by omega), if_neg (by omega)]
  · rw [h]
  · rw [if_neg (by omega), if_neg (by omega), if_pos h]

theorem mrdWeight_comm {α : Type} [LinearOrder α] [Zero α] (dis : distance α) (a b : Nat) :
    mrdWeight dis a b = mrdWeight dis b a := by
  unfold mrdWeight
  rw [distance_get_comm dis a b, max_comm (dis.coreDistances.getD a 0)]

theorem finiteMRD_of_lt {α : Type} [LinearOrder α] [Zero α] (D_MAX : α) (dis : distance α)
    (size : Nat) (hd : ∀ a b, a < size → b < size → distance_get dis a b < D_MAX)
    (hc : ∀ a, a < size → dis.coreDistances.getD a 0 < D_MAX) :
    FiniteMRD D_MAX dis size := by
  intro a b ha hb _
  rw [mutualReachability_eq_mrdWeight]
  unfold mrdWeight
  exact max_lt (max_lt (hc a ha) (hc b hb)) (hd a b ha hb)

theorem getD_eq_of_lt {α : Type} (l : List α) (i : Nat) (d d' : α) (h : i < l.length) :
    l.getD i d = l.getD i d' := by
  rw [List.getD_eq_getElem?_getD, List.getD_eq_getElem?_getD, List.getElem?_eq_getElem h]
  rfl

/-- The real edges of the result of `hdbscan_construct_mst` are the entries of the lists at
the end of the expansion rounds. -/
theorem construct_mst_real_edges {α : Type} [LinearOrder α] [Zero α] (D_MAX : α)
    (dis : distance α) (size : Nat) (selfEdges : Bool) (hsize : 1 ≤ size) :
    ∃ pt st g,
      PrimInv D_MAX dis size (size - 1 + if selfEdges then size else 0) size pt st ∧
      hdbscan_construct_mst D_MAX dis size selfEdges = some g ∧
      ∀ v, v < size - 1 →
        g.verticesA.getD v 0 = st.nearestMRDNeighbors.getD v 0 ∧
        g.verticesB.getD v 0 = v ∧
        g.edgeWeights.getD v 0 = st.nearestMRDDistances.getD v D_MAX := by
  obtain ⟨pt, st, hinv, hres⟩ := construct_mst_result D_MAX dis size selfEdges hsize
  refine ⟨pt, st, _, hinv, hres, ?_⟩
  intro v hv
  have hvd : v < st.nearestMRDDistances.length := by rw [hinv.d_len]; omega
  cases selfEdges with
  | false =>
    simp only [Bool.false_eq_true, if_false]
    exact ⟨trivial, hinv.other_lt v (by omega) (by omega), getD_eq_of_lt _ _ _ _ hvd⟩
  | true =>
    simp only [if_true]
    obtain ⟨hA, hB, hW⟩ := mstSelfEdges_fields dis size (List.range' (size - 1) size) st
    refine ⟨?_, ?_, ?_⟩
    · unfold mstSelfEdges
      rw [hA, foldl_set_range'_getD, if_neg (fun hh => by omega)]
    · unfold mstSelfEdges
      rw [hB, foldl_set_range'_getD, if_neg (fun hh => by omega)]
      exact hinv.other_lt v (by omega) (by omega)
    · unfold mstSelfEdges
      rw [hW, foldl_set_range'_getD, if_neg (fun hh => by omega)]
      exact getD_eq_of_lt _ _ _ _ hvd

/-- The attachment order as a sequence of elements of `Fin size`. -/
theorem primInv_trace {α : Type} [LinearOrder α] [Zero α] (D_MAX : α) (dis : distance α)
    (size ssize : Nat) (pt : Nat → Nat) (st : MstState α) (hsize : 1 ≤ size)
    (hfin : FiniteMRD D_MAX dis size)
    (h : PrimInv D_MAX dis size ssize size pt st) :
    ∃ (ptF parF : Nat → Fin size),
      (∀ t, t ≤ size - 1 → (ptF t).val = pt t) ∧
      (∀ t, (parF t).val = st.nearestMRDNeighbors.getD (pt t) 0) ∧
      (∀ s t, s ≤ size - 1 → t ≤ size - 1 → ptF s = ptF t → s = t) ∧
      (∀ t, 1 ≤ t → t ≤ size - 1 → ∃ s, s < t ∧ parF t = ptF s) ∧
      (∀ z, ∃ s, s ≤ size - 1 ∧ ptF s = z) ∧
      (∀ t, 1 ≤ t → t ≤ size - 1 → pt t < size - 1) ∧
      (∀ t, 1 ≤ t → t ≤ size - 1 →
        mrdEdgeWeight dis size s(parF t, ptF t) = st.nearestMRDDistances.getD (pt t) D_MAX) ∧
      (∀ t, 1 ≤ t → t ≤ size - 1 → ∀ s, s < t → ∀ y, (∀ s', s' < t → ptF s' ≠ y) →
        mrdEdgeWeight dis size s(parF t, ptF t) ≤ mrdEdgeWeight dis size s(ptF s, y)) := by
  let ptF : Nat → Fin size := fun t =>
    if ht : pt t < size then ⟨pt t, ht⟩ else ⟨size - 1, by omega⟩
  let parF : Nat → Fin size := fun t => ⟨st.nearestMRDNeighbors.getD (pt t) 0, h.nb_lt _⟩
  have hptF : ∀ t, t ≤ size - 1 → (ptF t).val = pt t := by
    intro t ht
    have := h.pt_lt t (by omega)
    simp only [ptF, dif_pos this]
  have hinj : ∀ s t, s ≤ size - 1 → t ≤ size - 1 → ptF s = ptF t → s = t := by
    intro s t hs ht heq
    apply h.pt_inj s t (by omega) (by omega)
    rw [← hptF s hs, ← hptF t ht, heq]
  have hw : ∀ t, 1 ≤ t → t ≤ size - 1 →
      mrdEdgeWeight dis size s(parF t, ptF t) = st.nearestMRDDistances.getD (pt t) D_MAX := by
    intro t h1 h2
    obtain ⟨_, f2, _⟩ := h.frozen hfin t h1 (by omega)
    rw [f2, mutualReachability_eq_mrdWeight, mrdWeight_comm]
    show mrdWeight dis (parF t).val (ptF t).val = _
    rw [hptF t h2]
  refine ⟨ptF, parF, hptF, fun _ => rfl, hinj, ?_, ?_, ?_, hw, ?_⟩
  · intro t h1 h2
    obtain ⟨⟨s, hs, hs1⟩, _, _⟩ := h.frozen hfin t h1 (by omega)
    refine ⟨s, hs, ?_⟩
    apply Fin.ext
    rw [hptF s (by omega)]
    exact hs1
  · intro z
    have hcard : ((Finset.range size).image ptF).card = size := by
      rw [Finset.card_image_of_injOn, Finset.card_range]
      intro a ha b hb hab
      have ha' : a < size := by simpa using ha
      have hb' : b < size := by simpa using hb
      exact hinj a b (by omega) (by omega) hab
    have huniv : (Finset.range size).image ptF = Finset.univ := by
      apply Finset.eq_univ_of_card
      rw [hcard, Fintype.card_fin]
    have hz : z ∈ (Finset.range size).image ptF := by rw [huniv]; exact Finset.mem_univ z
    obtain ⟨s, hs, hsz⟩ := Finset.mem_image.mp hz
    have hs' : s < size := by simpa using hs
    exact ⟨s, by omega, hsz⟩
  · intro t h1 h2
    have hlt := h.pt_lt t (by omega)
    have hne : pt t ≠ size - 1 := by
      intro heq
      have := h.pt_inj t 0 (by omega) (by omega) (by rw [heq, h.pt_zero])
      omega
    omega
  · intro t h1 h2 s hs y hy
    rw [hw t h1 h2]
    obtain ⟨_, _, f3⟩ := h.frozen hfin t h1 (by omega)
    have := f3 s hs y.val y.isLt (by
      intro s' hs' heq
      apply hy s' hs'
      apply Fin.ext
      rw [hptF s' (by omega)]
      exact heq)
    rw [mutualReachability_eq_mrdWeight, mrdWeight_comm] at this
    show _ ≤ mrdWeight dis (ptF s).val y.val
    rw [hptF s (by omega)]
    exact this

/-- C6: for `size ≥ 1` and distances and core distances below `D_MAX`, the real edges
`(nearestMRDNeighbors[v], v)`, `v ≤ size - 2`, produced by `hdbscan_construct_mst` form a tree
on the `size` points: the graph is connected and has no cycle. -/
theorem construct_mst_isTree {α : Type} [LinearOrder α] [Zero α] (D_MAX : α)
    (dis : distance α) (size : Nat) (selfEdges : Bool) (hsize : 1 ≤ size)
    (hd : ∀ a b, a < size → b < size → distance_get dis a b < D_MAX)
    (hc : ∀ a, a < size → dis.coreDistances.getD a 0 < D_MAX) :
    ∃ g, hdbscan_construct_mst D_MAX dis size selfEdges = some g ∧
      (∀ v, v < size - 1 → g.verticesB.getD v 0 = v) ∧
      (mstGraph size g).IsTree := by
  obtain ⟨pt, st, g, hinv, hres, hg⟩ := construct_mst_real_edges D_MAX dis size selfEdges hsize
  have hfin := finiteMRD_of_lt D_MAX dis size hd hc
  obtain ⟨ptF, parF, h1, h2, h3, h4, h5, h6, _, _⟩ :=
    primInv_trace D_MAX dis size _ pt st hsize hfin hinv
  refine ⟨g, hres, fun v hv => (hg v hv).2.1, ?_⟩
  apply prim_isTree (mstGraph size g) ptF parF (size - 1) h3 h4 h5
  have hrel : ∀ a b : Fin size,
      (∃ v, v < size - 1 ∧ g.verticesA.getD v 0 = a.val ∧ g.verticesB.getD v 0 = b.val) ↔
      ∃ t, 1 ≤ t ∧ t ≤ size - 1 ∧ a = parF t ∧ b = ptF t := by
    intro a b
    constructor
    · rintro ⟨v, hv, hA, hB⟩
      rw [(hg v hv).2.1] at hB
      rw [(hg v hv).1] at hA
      obtain ⟨t, ht, hpt⟩ := h5 b
      have ht1 : 1 ≤ t := by
        rcases Nat.eq_zero_or_pos t with h0 | hpos
        · exfalso
          have := h1 0 (by omega)
          rw [h0] at hpt
          rw [hpt, hinv.pt_zero] at this
          omega
        · exact hpos
      have hbv : pt t = v := by rw [← h1 t ht, hpt, hB]
      refine ⟨t, ht1, ht, ?_, hpt.symm⟩
      apply Fin.ext
      rw [h2 t, hbv, hA]
    · rintro ⟨t, ht1, ht, rfl, rfl⟩
      refine ⟨pt t, h6 t ht1 ht, ?_, ?_⟩
      · rw [(hg _ (h6 t ht1 ht)).1, h2 t]
      · rw [(hg _ (h6 t ht1 ht)).2.1, h1 t ht]
  have hne : ∀ t, 1 ≤ t → t ≤ size - 1 → parF t ≠ ptF t := by
    intro t ht1 ht heq
    obtain ⟨s, hs, hps⟩ := h4 t ht1 ht
    have := h3 s t (by omega) ht (by rw [← hps, heq])
    omega
  intro a b
  unfold mstGraph
  rw [fromRel_adj, hrel a b, hrel b a]
  constructor
  · rintro ⟨_, ⟨t, ht1, ht, ha, hb⟩ | ⟨t, ht1, ht, hb, ha⟩⟩
    · exact ⟨t, ht1, ht, by rw [ha, hb]⟩
    · exact ⟨t, ht1, ht, by rw [ha, hb, Sym2.eq_swap]⟩
  · rintro ⟨t, ht1, ht, heq⟩
    rcases Sym2.eq_iff.mp heq with ⟨e1, e2⟩ | ⟨e1, e2⟩
    · exact ⟨by rw [e1, e2]; exact hne t ht1 ht, Or.inl ⟨t, ht1, ht, e1, e2⟩⟩
    · exact ⟨by rw [e1, e2]; exact (hne t ht1 ht).symm, Or.inr ⟨t, ht1, ht, e2, e1⟩⟩

theorem lineStore_distance_lt (a b : Nat) (ha : a < 4) (hb : b < 4) :
    distance_get lineStore a b < 1000 := by
  interval_cases a <;> interval_cases b <;> decide

theorem lineStore_core_lt (a : Nat) (ha : a < 4) : lineStore.coreDistances.getD a 0 < 1000 := by
  interval_cases a <;> decide

/-- Witness of C6: the four points `0, 2, -2, 1` on a line with `mpts = 2`. -/
theorem construct_mst_isTree_witness :
    ∃ g, hdbscan_construct_mst 1000 lineStore 4 true = some g ∧
      (∀ v, v < 4 - 1 → g.verticesB.getD v 0 = v) ∧
      (mstGraph 4 g).IsTree :=
  construct_mst_isTree 1000 lineStore 4 true (by decide) lineStore_distance_lt
    lineStore_core_lt

/-! ### Propagation of the cluster tree -/

theorem propagateDeath_fields {α : Type} [LinearOrder α] (D_MAX : α) (cl : cluster α) :
    (propagateDeath D_MAX cl).label = cl.label ∧
    (propagateDeath D_MAX cl).parent = cl.parent ∧
    (propagateDeath D_MAX cl).hasChildren = cl.hasChildren ∧
    (propagateDeath D_MAX cl).stability = cl.stability ∧
    (propagateDeath D_MAX cl).propagatedStability = cl.propagatedStability ∧
    (propagateDeath D_MAX cl).propagatedDescendants = cl.propagatedDescendants ∧
    (propagateDeath D_MAX cl).numConstraintsSatisfied = cl.numConstraintsSatisfied ∧
    (propagateDeath D_MAX cl).propagatedNumConstraintsSatisfied =
      cl.propagatedNumConstraintsSatisfied := by
  unfold propagateDeath
  split <;> exact ⟨rfl, rfl, rfl, rfl, rfl, rfl, rfl, rfl⟩

theorem propagateParentDeath_fields {α : Type} [LinearOrder α] (cl par : cluster α) :
    (propagateParentDeath cl par).label = par.label ∧
    (propagateParentDeath cl par).parent = par.parent ∧
    (propagateParentDeath cl par).hasChildren = par.hasChildren ∧
    (propagateParentDeath cl par).stability = par.stability ∧
    (propagateParentDeath cl par).propagatedStability = par.propagatedStability ∧
    (propagateParentDeath cl par).propagatedDescendants = par.propagatedDescendants ∧
    (propagateParentDeath cl par).numConstraintsSatisfied = par.numConstraintsSatisfied ∧
    (propagateParentDeath cl par).propagatedNumConstraintsSatisfied =
      par.propagatedNumConstraintsSatisfied := by
  unfold propagateParentDeath
  split <;> exact ⟨rfl, rfl, rfl, rfl, rfl, rfl, rfl, rfl⟩

theorem propagateChoice_fields {α : Type} [LinearOrder α] [Add α] (par cl : cluster α) (x : Nat)
    (hcons : cl.numConstraintsSatisfied = cl.propagatedNumConstraintsSatisfied) :
    (propagateChoice par cl x).label = par.label ∧
    (propagateChoice par cl x).parent = par.parent ∧
    (propagateChoice par cl x).hasChildren = par.hasChildren ∧
    (propagateChoice par cl x).stability = par.stability ∧
    (propagateChoice par cl x).numConstraintsSatisfied = par.numConstraintsSatisfied ∧
    (propagateChoice par cl x).propagatedNumConstraintsSatisfied =
      par.propagatedNumConstraintsSatisfied + cl.numConstraintsSatisfied ∧
    (propagateChoice par cl x).propagatedStability =
      par.propagatedStability + chosenStability cl ∧
    (propagateChoice par cl x).propagatedDescendants =
      par.propagatedDescendants ++ chosenDescendants cl x := by
  unfold propagateChoice chosenStability chosenDescendants
  have hgt : ¬ cl.numConstraintsSatisfied > cl.propagatedNumConstraintsSatisfied := by
    rw [hcons]; exact lt_irrefl _
  have hlt : ¬ cl.numConstraintsSatisfied < cl.propagatedNumConstraintsSatisfied := by
    rw [hcons]; exact lt_irrefl _
  by_cases hleaf : cl.hasChildren = false
  · rw [if_pos (Or.inl hleaf), if_pos (Or.inl hleaf), if_pos (Or.inl hleaf)]
    exact ⟨rfl, rfl, rfl, rfl, rfl, rfl, rfl, rfl⟩
  · rw [if_neg (fun hh => hh.elim hleaf hgt), if_neg hlt, if_pos hcons]
    by_cases hst : cl.stability ≥ cl.propagatedStability
    · rw [if_pos hst, if_pos (Or.inr hst), if_pos (Or.inr hst)]
      exact ⟨rfl, rfl, rfl, rfl, rfl, rfl, rfl, rfl⟩
    · rw [if_neg hst, if_neg (fun hh => hh.elim hleaf hst), if_neg (fun hh => hh.elim hleaf hst)]
      refine ⟨rfl, rfl, rfl, rfl, rfl, ?_, rfl, rfl⟩
      show par.propagatedNumConstraintsSatisfied + cl.propagatedNumConstraintsSatisfied = _
      rw [hcons]

theorem cluster_propagate_eq {α : Type} [LinearOrder α] [Add α] (D_MAX : α)
    (clusters : ClusterList α) (x p : Nat) (cl par : cluster α)
    (hx : clusters.getD x none = some cl) (hp : cl.parent = some p) (hxp : p ≠ x)
    (hpar : clusters.getD p none = some par) :
    cluster_propagate D_MAX clusters x =
      (clusters.set x (some (propagateDeath D_MAX cl))).set p
        (some (propagateChoice (propagateParentDeath (propagateDeath D_MAX cl) par)
          (propagateDeath D_MAX cl) x)) := by
  have hpar1 : (clusters.set x (some (propagateDeath D_MAX cl))).getD p none = some par := by
    rw [getD_set_eq, if_neg (fun hh => hxp hh.1.symm)]
    exact hpar
  unfold cluster_propagate
  simp only [hx, hp, hpar1]

theorem cluster_propagate_root {α : Type} [LinearOrder α] [Add α] (D_MAX : α)
    (clusters : ClusterList α) (x : Nat) (cl : cluster α)
    (hx : clusters.getD x none = some cl) (hp : cl.parent = none) :
    cluster_propagate D_MAX clusters x = clusters := by
  unfold cluster_propagate
  simp only [hx, hp]

theorem parentAt_lt {α : Type} {clusters : ClusterList α} (h : ClusterTree clusters)
    {j p : Nat} (hp : parentAt clusters j = some p) : 1 ≤ p ∧ p < j ∧ j < clusters.length := by
  unfold parentAt at hp
  have hjlt : j < clusters.length := by
    by_contra hlt
    rw [List.getD_eq_getElem?_getD, List.getElem?_eq_none (by omega)] at hp
    simp at hp
  rcases Nat.lt_or_ge j 2 with hj | hj
  · exfalso
    interval_cases j
    · rw [h.null] at hp; simp at hp
    · obtain ⟨r, hr, hrp⟩ := h.root
      rw [hr] at hp
      simp only at hp
      rw [hrp] at hp
      simp at hp
  · obtain ⟨c, q, hc, hcp, h1, h2⟩ := h.nonroot j hj hjlt
    rw [hc] at hp
    simp only at hp
    rw [hcp] at hp
    have : q = p := by simpa using hp
    subst this
    exact ⟨h1, h2, hjlt⟩

theorem isAncestor_lt {α : Type} {clusters : ClusterList α} (h : ClusterTree clusters)
    {a s : Nat} (ha : IsAncestor clusters a s) : 1 ≤ a ∧ a < s ∧ s < clusters.length := by
  induction ha with
  | parent hp => exact parentAt_lt h hp
  | step hp _ ih =>
    have := parentAt_lt h hp
    omega

theorem isAncestor_trans {α : Type} {clusters : ClusterList α} {a b c : Nat}
    (hab : IsAncestor clusters a b) (hbc : IsAncestor clusters b c) : IsAncestor clusters a c := by
  induction hbc with
  | parent hp => exact IsAncestor.step hp hab
  | step hp _ ih => exact IsAncestor.step hp ih

/-- The ancestors of a cluster form a chain. -/
theorem isAncestor_chain {α : Type} {clusters : ClusterList α} {a b s : Nat}
    (ha : IsAncestor clusters a s) (hb : IsAncestor clusters b s) :
    a = b ∨ IsAncestor clusters a b ∨ IsAncestor clusters b a := by
  induction ha generalizing b with
  | @parent s hp =>
    cases hb with
    | parent hp' =>
      rw [hp] at hp'
      exact Or.inl (by simpa using hp')
    | step hp' hb' =>
      rw [hp] at hp'
      cases Option.some.inj hp'
      exact Or.inr (Or.inr hb')
  | @step p s hp ha' ih =>
    cases hb with
    | parent hp' =>
      rw [hp] at hp'
      cases Option.some.inj hp'
      exact Or.inr (Or.inl ha')
    | step hp' hb' =>
      rw [hp] at hp'
      cases Option.some.inj hp'
      exact ih hb'

/-- Two different children of one cluster have disjoint, unrelated subtrees. -/
theorem subtree_disjoint {α : Type} {clusters : ClusterList α} (h : ClusterTree clusters)
    {p j j' d d' : Nat} (hj : parentAt clusters j = some p) (hj' : parentAt clusters j' = some p)
    (hne : j ≠ j') (hd : d = j ∨ IsAncestor clusters j d)
    (hd' : d' = j' ∨ IsAncestor clusters j' d') :
    d ≠ d' ∧ ¬ IsAncestor clusters d d' := by
  -- if `d` is `d'` or above it, both `j` and `j'` are `d'` or above it
  have key : (d = d' ∨ IsAncestor clusters d d') → False := by
    intro hdd
    have hjd' : j = d' ∨ IsAncestor clusters j d' := by
      rcases hd with rfl | hd
      · exact hdd
      · rcases hdd with rfl | hdd
        · exact Or.inr hd
        · exact Or.inr (isAncestor_trans hd hdd)
    -- compare `j` and `j'`
    have hcomp : j = j' ∨ IsAncestor clusters j j' ∨ IsAncestor clusters j' j := by
      rcases hjd' with rfl | hjd'
      · rcases hd' with rfl | hd'
        · exact Or.inl rfl
        · exact Or.inr (Or.inr hd')
      · rcases hd' with rfl | hd'
        · exact Or.inr (Or.inl hjd')
        · exact isAncestor_chain hjd' hd'
    have hpj := parentAt_lt h hj
    have hpj' := parentAt_lt h hj'
    rcases hcomp with heq | hanc | hanc
    · exact hne heq
    · -- `j` is above `j'`, so `j` is the parent `p` of `j'` or above it
      cases hanc with
      | parent hp' =>
        rw [hj'] at hp'
        have : p = j := by simpa using hp'
        omega
      | step hp' hrest =>
        rw [hj'] at hp'
        cases Option.some.inj hp'
        have := isAncestor_lt h hrest
        omega
    · cases hanc with
      | parent hp' =>
        rw [hj] at hp'
        have : p = j' := by simpa using hp'
        omega
      | step hp' hrest =>
        rw [hj] at hp'
        cases Option.some.inj hp'
        have := isAncestor_lt h hrest
        omega
  exact ⟨fun heq => key (Or.inl heq), fun hanc => key (Or.inr hanc)⟩

theorem lt_succ_eq_of_ne {i m : Nat} (h : i ≠ m) : decide (i < m + 1) = decide (i < m) := by
  by_cases h1 : i < m
  · simp [h1]; omega
  · simp [h1]; omega

theorem propagateInit_fold {α : Type} (clusters : ClusterList α)
    (hlabel : ∀ i c, clusters.getD i none = some c → c.label = i) (m : Nat)
    (hm : m ≤ clusters.length) :
    ((List.range m).foldl (propagateInitStep clusters)
        { clusters := clusters
          clustersToExamine := []
          addedToExaminationList := List.replicate clusters.length false
          infiniteStability := false }).clusters = clusters ∧
    ((List.range m).foldl (propagateInitStep clusters)
        { clusters := clusters
          clustersToExamine := []
          addedToExaminationList := List.replicate clusters.length false
          infiniteStability := false }).clustersToExamine =
      (List.range m).filter (isLeafAt clusters) ∧
    ((List.range m).foldl (propagateInitStep clusters)
        { clusters := clusters
          clustersToExamine := []
          addedToExaminationList := List.replicate clusters.length false
          infiniteStability := false }).addedToExaminationList.length = clusters.length ∧
    (∀ i, ((List.range m).foldl (propagateInitStep clusters)
        { clusters := clusters
          clustersToExamine := []
          addedToExaminationList := List.replicate clusters.length false
          infiniteStability := false }).addedToExaminationList.getD i false =
        (decide (i < m) && isLeafAt clusters i)) := by
  induction m with
  | zero =>
    refine ⟨rfl, rfl, by simp, ?_⟩
    intro i
    simp only [List.range_zero, List.foldl_nil, Nat.not_lt_zero, decide_False, Bool.false_and]
    exact getD_replicate _ _ _
  | succ m ih =>
    obtain ⟨h1, h2, h3, h4⟩ := ih (by omega)
    rw [List.range_succ, List.foldl_append, List.filter_append]
    simp only [List.foldl_cons, List.foldl_nil]
    generalize (List.range m).foldl (propagateInitStep clusters)
        { clusters := clusters
          clustersToExamine := []
          addedToExaminationList := List.replicate clusters.length false
          infiniteStability := false } = st at h1 h2 h3 h4
    unfold propagateInitStep
    cases hc : clusters.getD m none with
    | none =>
      have hleaf : isLeafAt clusters m = false := by unfold isLeafAt; rw [hc]
      refine ⟨h1, ?_, h3, ?_⟩
      · rw [h2]; simp [hleaf]
      · intro i
        show st.addedToExaminationList.getD i false = _
        rw [h4 i]
        by_cases him : i = m
        · subst him; simp [hleaf]
        · rw [lt_succ_eq_of_ne him]
    | some cl =>
      have hlab := hlabel m cl hc
      by_cases hch : cl.hasChildren = false
      · simp only [if_pos hch]
        have hleaf : isLeafAt clusters m = true := by
          unfold isLeafAt; rw [hc]; simp [hch]
        have hnotin : m ∉ (List.range m).filter (isLeafAt clusters) := by
          intro hmem
          have := (List.mem_filter.mp hmem).1
          simp at this
        refine ⟨h1, ?_, ?_, ?_⟩
        · show set_insert _ cl.label = _
          rw [hlab, h2]
          unfold set_insert
          rw [if_neg hnotin]
          simp [hleaf]
        · show (List.set _ cl.label true).length = _
          rw [List.length_set]; exact h3
        · intro i
          show (List.set _ cl.label true).getD i false = _
          rw [hlab, getD_set_eq, h4 i]
          by_cases him : m = i
          · subst him
            rw [if_pos ⟨rfl, by rw [h3]; omega⟩]
            simp [hleaf]
          · rw [if_neg (fun hh => him hh.1), lt_succ_eq_of_ne (Ne.symm him)]
      · simp only [if_neg hch]
        have hleaf : isLeafAt clusters m = false := by
          unfold isLeafAt; rw [hc]
          cases hcc : cl.hasChildren
          · exact absurd hcc hch
          · simp [hcc]
        refine ⟨h1, ?_, h3, ?_⟩
        · rw [h2]; simp [hleaf]
        · intro i
          show st.addedToExaminationList.getD i false = _
          rw [h4 i]
          by_cases him : i = m
          · subst him; simp [hleaf]
          · rw [lt_succ_eq_of_ne him]

theorem isLeafAt_of_ge {α : Type} (clusters : ClusterList α) (i : Nat)
    (hi : clusters.length ≤ i) : isLeafAt clusters i = false := by
  unfold isLeafAt
  rw [List.getD_eq_getElem?_getD, List.getElem?_eq_none hi]
  rfl

theorem propagateInit_spec {α : Type} (clusters : ClusterList α)
    (hlabel : ∀ i c, clusters.getD i none = some c → c.label = i) :
    (propagateInit clusters).clusters = clusters ∧
    (propagateInit clusters).clustersToExamine =
      (List.range clusters.length).filter (isLeafAt clusters) ∧
    (propagateInit clusters).addedToExaminationList.length = clusters.length ∧
    (∀ i, (propagateInit clusters).addedToExaminationList.getD i false = isLeafAt clusters i) := by
  obtain ⟨h1, h2, h3, h4⟩ := propagateInit_fold clusters hlabel clusters.length (le_refl _)
  refine ⟨h1, h2, h3, ?_⟩
  intro i
  unfold propagateInit
  rw [h4 i]
  by_cases hi : i < clusters.length
  · simp [hi]
  · simp [isLeafAt_of_ge clusters i (by omega)]

theorem getD_some_lt {α : Type} {l : List (Option α)} {i : Nat} {c : α}
    (h : l.getD i none = some c) : i < l.length := by
  by_contra hlt
  rw [List.getD_eq_getElem?_getD, List.getElem?_eq_none (by omega)] at h
  simp at h

theorem propInv_init {α : Type} [LinearOrderedAddCommMonoid α] (cs0 : ClusterList α)
    (hwf : ClusterTree cs0) (hfresh : FreshPropagation cs0) :
    PropInv cs0 (propagateInit cs0) ∅ := by
  obtain ⟨h1, h2, h3, h4⟩ := propagateInit_spec cs0 hwf.label
  have hleaf_some : ∀ i, isLeafAt cs0 i = true →
      ∃ c0, cs0.getD i none = some c0 ∧ c0.hasChildren = false := by
    intro i hi
    unfold isLeafAt at hi
    cases hc : cs0.getD i none with
    | none => rw [hc] at hi; simp at hi
    | some c0 =>
      rw [hc] at hi
      exact ⟨c0, rfl, by simpa using hi⟩
  refine ⟨by rw [h1], h3, ?_, ?_, ?_, ?_, ?_, ?_, ?_, ?_, ?_, ?_, ?_, ?_, ?_, ?_⟩
  · intro i hi; rw [h1]; exact hi
  · intro i c0 hc0
    obtain ⟨_, _, f3, f4⟩ := hfresh i c0 hc0
    exact ⟨c0, by rw [h1]; exact hc0, rfl, rfl, rfl, rfl, f3, f4⟩
  · intro x hx; simp at hx
  · rw [h2]
    exact ((List.sorted_lt_range _).filter _).le_of_lt
  · rw [h2]
    exact (List.nodup_range _).filter _
  · intro x hx
    rw [h2] at hx
    obtain ⟨hx1, hx2⟩ := List.mem_filter.mp hx
    obtain ⟨c0, hc0, _⟩ := hleaf_some x hx2
    refine ⟨?_, by simpa using hx1, by simp, by rw [h4 x]; exact hx2⟩
    rcases Nat.eq_zero_or_pos x with h0 | hpos
    · rw [h0, hwf.null] at hc0; simp at hc0
    · exact hpos
  · intro i hi
    rw [h4 i] at hi
    left
    rw [h2]
    obtain ⟨c0, hc0, _⟩ := hleaf_some i hi
    exact List.mem_filter.mpr ⟨by simpa using getD_some_lt hc0, hi⟩
  · intro i c0 hc0
    rw [h4 i]
    unfold isLeafAt
    rw [hc0]
    simp
  · intro x hx; simp at hx
  · intro i c hc
    rw [h1] at hc
    rw [(hfresh i c hc).1]
    simp
  · intro i c hc
    rw [h1] at hc
    rw [(hfresh i c hc).1, (hfresh i c hc).2.1]
    simp
  · intro i c hc d hd
    rw [h1] at hc
    rw [(hfresh i c hc).2.1] at hd
    simp at hd
  · intro i c hc
    rw [h1] at hc
    rw [(hfresh i c hc).2.1]
    exact List.nodup_nil
  · intro i c hc a ha
    rw [h1] at hc
    rw [(hfresh i c hc).2.1] at ha
    simp at ha

/-- A cluster on which `cluster_propagate` has not been called lies below a cluster of the
examination list or is one of them. -/
theorem unprocessed_le_examine {α : Type} [LinearOrderedAddCommMonoid α] (cs0 : ClusterList α)
    (hwf : ClusterTree cs0) (st : PropagateState α) (D : Finset Nat) (h : PropInv cs0 st D) :
    ∀ m y, cs0.length - y ≤ m → 1 ≤ y → y < cs0.length → y ∉ D →
      ∃ z ∈ st.clustersToExamine, y ≤ z := by
  intro m
  induction m with
  | zero => intro y hm h1 h2; omega
  | succ m ih =>
    intro y hm h1 h2 hD
    have hsome : ∃ c0, cs0.getD y none = some c0 := by
      rcases Nat.lt_or_ge y 2 with hy | hy
      · have : y = 1 := by omega
        subst this
        obtain ⟨r, hr, _⟩ := hwf.root
        exact ⟨r, hr⟩
      · obtain ⟨c, p, hc, _⟩ := hwf.nonroot y hy h2
        exact ⟨c, hc⟩
    obtain ⟨c0, hc0⟩ := hsome
    by_cases hadd : st.addedToExaminationList.getD y false = true
    · rcases h.added_mem y hadd with hw | hd
      · exact ⟨y, hw, le_refl _⟩
      · exact absurd hd hD
    · have hnot := mt (h.added_iff y c0 hc0).2 hadd
      push_neg at hnot
      have hch : c0.hasChildren = true := by
        cases hcc : c0.hasChildren
        · exact absurd hcc hnot.1
        · rfl
      obtain ⟨j, hj⟩ := (hwf.children y c0 hc0).1 hch
      have hjlt := parentAt_lt hwf hj
      have hjD : j ∉ D := fun hjD => hnot.2 j hjD hj
      obtain ⟨z, hz, hjz⟩ := ih j (by omega) (by omega) hjlt.2.2 hjD
      exact ⟨z, hz, by omega⟩

theorem mem_set_sort (l : List Nat) (x : Nat) : x ∈ set_sort l ↔ x ∈ l := by
  unfold set_sort
  exact (List.perm_insertionSort (· ≤ ·) l).mem_iff

theorem nodup_set_sort (l : List Nat) (h : l.Nodup) : (set_sort l).Nodup := by
  unfold set_sort
  exact (List.perm_insertionSort (· ≤ ·) l).nodup_iff.mpr h

theorem sorted_set_sort (l : List Nat) : (set_sort l).Sorted (· ≤ ·) := by
  unfold set_sort
  exact List.sorted_insertionSort (· ≤ ·) l

theorem chosenStability_congr {α : Type} [LinearOrder α] (c c' : cluster α)
    (h1 : c'.hasChildren = c.hasChildren) (h2 : c'.stability = c.stability)
    (h3 : c'.propagatedStability = c.propagatedStability) :
    chosenStability c' = chosenStability c := by
  unfold chosenStability
  rw [h1, h2, h3]

theorem chosenDescendants_congr {α : Type} [LinearOrder α] (c c' : cluster α) (x : Nat)
    (h1 : c'.hasChildren = c.hasChildren) (h2 : c'.stability = c.stability)
    (h3 : c'.propagatedStability = c.propagatedStability)
    (h4 : c'.propagatedDescendants = c.propagatedDescendants) :
    chosenDescendants c' x = chosenDescendants c x := by
  unfold chosenDescendants
  rw [h1, h2, h3, h4]

/-- The facts about the cluster `x` taken from the end of the examination list. -/
theorem propInv_last {α : Type} [LinearOrderedAddCommMonoid α] (cs0 : ClusterList α)
    (hwf : ClusterTree cs0) (st : PropagateState α) (D : Finset Nat) (h : PropInv cs0 st D)
    (x : Nat) (rest : List Nat) (hW : st.clustersToExamine = rest ++ [x]) :
    (1 ≤ x ∧ x < cs0.length ∧ x ∉ D ∧ st.addedToExaminationList.getD x false = true) ∧
    (∀ y ∈ rest, y ≠ x ∧ 1 ≤ y ∧ y < cs0.length ∧ y ∉ D ∧
      st.addedToExaminationList.getD y false = true) ∧
    rest.Nodup ∧
    (∀ j, parentAt cs0 j = some x → j ∈ D) := by
  have hx := h.W_mem x (by rw [hW]; simp)
  have hnd := h.W_nodup
  rw [hW] at hnd
  have hnd' := List.nodup_append.mp hnd
  have hmax : ∀ z ∈ st.clustersToExamine, z ≤ x := by
    intro z hz
    rw [hW] at hz
    have hs := h.W_sorted
    rw [hW] at hs
    rcases List.mem_append.mp hz with hz1 | hz1
    · exact (List.pairwise_append.mp hs).2.2 z hz1 x (by simp)
    · simp at hz1; omega
  refine ⟨hx, ?_, hnd'.1, ?_⟩
  · intro y hy
    have hy' := h.W_mem y (by rw [hW]; exact List.mem_append_left _ hy)
    refine ⟨?_, hy'⟩
    intro heq
    exact hnd'.2.2 hy (by simp [heq])
  · intro j hj
    by_contra hjD
    have hjlt := parentAt_lt hwf hj
    obtain ⟨z, hz, hjz⟩ := unprocessed_le_examine cs0 hwf st D h (cs0.length - j) j (le_refl _)
      (by omega) hjlt.2.2 hjD
    have := hmax z hz
    omega

/-- The step of the loop of `hdbscan_propagate_tree` on the root: the clusters are unchanged. -/
theorem propInv_step_root {α : Type} [LinearOrderedAddCommMonoid α] (D_MAX : α)
    (cs0 : ClusterList α) (hwf : ClusterTree cs0) (st : PropagateState α) (D : Finset Nat)
    (h : PropInv cs0 st D) (x : Nat) (rest : List Nat)
    (hW : st.clustersToExamine = rest ++ [x]) (hroot : parentAt cs0 x = none) :
    ∃ st', propagateStep D_MAX st x rest = some st' ∧ PropInv cs0 st' (insert x D) := by
  obtain ⟨⟨hx1, hx2, hxD, hxa⟩, hrest, hrnd, hchild⟩ := propInv_last cs0 hwf st D h x rest hW
  have hsome : ∃ c0, cs0.getD x none = some c0 := by
    rcases Nat.lt_or_ge x 2 with hy | hy
    · have : x = 1 := by omega
      subst this
      obtain ⟨r, hr, _⟩ := hwf.root
      exact ⟨r, hr⟩
    · obtain ⟨c, p, hc, _⟩ := hwf.nonroot x hy hx2
      exact ⟨c, hc⟩
  obtain ⟨c0, hc0⟩ := hsome
  obtain ⟨cx, hcx, _, hcxp, _⟩ := h.frame_some x c0 hc0
  have hc0p : c0.parent = none := by
    unfold parentAt at hroot
    rw [hc0] at hroot
    exact hroot
  rw [hc0p] at hcxp
  have hprop : cluster_propagate D_MAX st.clusters x = st.clusters :=
    cluster_propagate_root D_MAX st.clusters x cx hcx hcxp
  refine ⟨{ clusters := st.clusters
            clustersToExamine := set_sort rest
            addedToExaminationList := st.addedToExaminationList
            infiniteStability := if cx.stability = D_MAX then true else st.infiniteStability },
    ?_, ?_⟩
  · unfold propagateStep
    simp only [hcx, hprop, hcxp]
  · have hnopar : ∀ i, ¬ parentAt cs0 x = some i := by
      intro i hi
      rw [hroot] at hi
      simp at hi
    have hfilter : ∀ i, (insert x D).filter (fun j => parentAt cs0 j = some i) =
        D.filter (fun j => parentAt cs0 j = some i) := by
      intro i
      rw [Finset.filter_insert, if_neg (hnopar i)]
    refine ⟨h.len, h.alen, h.frame_none, h.frame_some, ?_, sorted_set_sort _,
      nodup_set_sort _ hrnd, ?_, ?_, ?_, ?_, ?_, h.desc_sum, ?_, h.desc_nodup, h.desc_anti⟩
    · intro y hy
      rcases Finset.mem_insert.mp hy with rfl | hy
      · exact ⟨hx1, hx2⟩
      · exact h.D_valid y hy
    · intro y hy
      have hy' := hrest y ((mem_set_sort rest y).1 hy)
      refine ⟨hy'.2.1, hy'.2.2.1, ?_, hy'.2.2.2.2⟩
      intro hmem
      rcases Finset.mem_insert.mp hmem with heq | hmem
      · exact hy'.1 heq
      · exact hy'.2.2.2.1 hmem
    · intro i hi
      rcases h.added_mem i hi with hw | hd
      · rw [hW] at hw
        rcases List.mem_append.mp hw with hw | hw
        · exact Or.inl ((mem_set_sort rest i).2 hw)
        · right
          simp at hw
          rw [hw]
          exact Finset.mem_insert_self _ _
      · exact Or.inr (Finset.mem_insert_of_mem hd)
    · intro i c0' hc0'
      rw [h.added_iff i c0' hc0']
      constructor
      · rintro (hl | ⟨j, hj, hpj⟩)
        · exact Or.inl hl
        · exact Or.inr ⟨j, Finset.mem_insert_of_mem hj, hpj⟩
      · rintro (hl | ⟨j, hj, hpj⟩)
        · exact Or.inl hl
        · rcases Finset.mem_insert.mp hj with rfl | hj
          · exact absurd hpj (hnopar i)
          · exact Or.inr ⟨j, hj, hpj⟩
    · intro y hy j hj
      rcases Finset.mem_insert.mp hy with rfl | hy
      · exact Finset.mem_insert_of_mem (hchild j hj)
      · exact Finset.mem_insert_of_mem (h.closed y hy j hj)
    · intro i c hc
      show c.propagatedStability = _
      rw [hfilter i]
      exact h.value i c hc
    · intro i c hc d hd
      obtain ⟨j, hj, hpj⟩ := h.desc_sub i c hc d hd
      exact ⟨j, Finset.mem_insert_of_mem hj, hpj⟩

theorem clusterTree_some {α : Type} {cs0 : ClusterList α} (hwf : ClusterTree cs0) (x : Nat)
    (h1 : 1 ≤ x) (h2 : x < cs0.length) : ∃ c0, cs0.getD x none = some c0 := by
  rcases Nat.lt_or_ge x 2 with hy | hy
  · have : x = 1 := by omega
    subst this
    obtain ⟨r, hr, _⟩ := hwf.root
    exact ⟨r, hr⟩
  · obtain ⟨c, p, hc, _⟩ := hwf.nonroot x hy h2
    exact ⟨c, hc⟩

/-- The examination list and the flags after a step on a cluster with parent `p`. -/
theorem propagateStep_nonroot {α : Type} [LinearOrderedAddCommMonoid α] (D_MAX : α)
    (cs0 : ClusterList α) (st : PropagateState α) (D : Finset Nat)
    (h : PropInv cs0 st D) (x p : Nat) (rest : List Nat)
    (hW : st.clustersToExamine = rest ++ [x])
    (hrest : ∀ y ∈ rest, st.addedToExaminationList.getD y false = true) (hrnd : rest.Nodup)
    (cx cl1 par2 : cluster α)
    (hcx : st.clusters.getD x none = some cx)
    (hx1 : (cluster_propagate D_MAX st.clusters x).getD x none = some cl1)
    (hcl1 : cl1.parent = some p)
    (hp1 : (cluster_propagate D_MAX st.clusters x).getD p none = some par2)
    (hlab : par2.label = p) (hpx : p ≠ x) (hpD : p ∉ D) (hplt : p < cs0.length) :
    ∃ st', propagateStep D_MAX st x rest = some st' ∧
      st'.clusters = cluster_propagate D_MAX st.clusters x ∧
      (∀ y, y ∈ st'.clustersToExamine ↔ (y ∈ rest ∨ y = p)) ∧
      st'.clustersToExamine.Nodup ∧
      st'.clustersToExamine.Sorted (· ≤ ·) ∧
      (∀ i, st'.addedToExaminationList.getD i false = true ↔
        (st.addedToExaminationList.getD i false = true ∨ i = p)) ∧
      st'.addedToExaminationList.length = cs0.length := by
  by_cases hadd : st.addedToExaminationList.getD p false = false
  · have hpnot : p ∉ rest := by
      intro hmem
      have := hrest p hmem
      rw [hadd] at this
      exact absurd this (by simp)
    refine ⟨{ clusters := cluster_propagate D_MAX st.clusters x
              clustersToExamine := set_sort (set_insert rest p)
              addedToExaminationList := st.addedToExaminationList.set p true
              infiniteStability := if cl1.stability = D_MAX then true else st.infiniteStability },
      ?_, rfl, ?_, ?_, sorted_set_sort _, ?_, ?_⟩
    · unfold propagateStep
      simp only [hcx, hx1, hcl1, hp1, hlab, hadd, if_true]
    · intro y
      show y ∈ set_sort (set_insert rest p) ↔ _
      rw [mem_set_sort]
      unfold set_insert
      rw [if_neg hpnot]
      simp
    · show (set_sort (set_insert rest p)).Nodup
      apply nodup_set_sort
      unfold set_insert
      rw [if_neg hpnot]
      exact List.nodup_append.mpr ⟨hrnd, List.nodup_singleton p, by
        intro a ha hb
        simp at hb
        exact hpnot (hb ▸ ha)⟩
    · intro i
      show (st.addedToExaminationList.set p true).getD i false = true ↔ _
      rw [getD_set_eq]
      by_cases hpi : p = i
      · subst hpi
        rw [if_pos ⟨rfl, by rw [h.alen]; exact hplt⟩]
        simp
      · rw [if_neg (fun hh => hpi hh.1)]
        constructor
        · intro hh; exact Or.inl hh
        · rintro (hh | hh)
          · exact hh
          · exact absurd hh.symm hpi
    · show (st.addedToExaminationList.set p true).length = _
      rw [List.length_set]; exact h.alen
  · have hadd' : st.addedToExaminationList.getD p false = true := by
      cases hb : st.addedToExaminationList.getD p false
      · exact absurd hb hadd
      · rfl
    have hpin : p ∈ rest := by
      rcases h.added_mem p hadd' with hw | hd
      · rw [hW] at hw
        rcases List.mem_append.mp hw with hw | hw
        · exact hw
        · simp at hw; exact absurd hw hpx
      · exact absurd hd hpD
    refine ⟨{ clusters := cluster_propagate D_MAX st.clusters x
              clustersToExamine := set_sort rest
              addedToExaminationList := st.addedToExaminationList
              infiniteStability := if cl1.stability = D_MAX then true else st.infiniteStability },
      ?_, rfl, ?_, nodup_set_sort _ hrnd, sorted_set_sort _, ?_, h.alen⟩
    · unfold propagateStep
      simp only [hcx, hx1, hcl1, hp1, hlab, if_neg hadd]
    · intro y
      show y ∈ set_sort rest ↔ _
      rw [mem_set_sort]
      constructor
      · intro hy; exact Or.inl hy
      · rintro (hy | hy)
        · exact hy
        · rw [hy]; exact hpin
    · intro i
      show st.addedToExaminationList.getD i false = true ↔ _
      constructor
      · intro hh; exact Or.inl hh
      · rintro (hh | hh)
        · exact hh
        · rw [hh]; exact hadd'

/-- The step of the loop of `hdbscan_propagate_tree` on a cluster with a parent. -/
theorem propInv_step_nonroot {α : Type} [LinearOrderedAddCommMonoid α] (D_MAX : α)
    (cs0 : ClusterList α) (hwf : ClusterTree cs0) (st : PropagateState α) (D : Finset Nat)
    (h : PropInv cs0 st D) (x p : Nat) (rest : List Nat)
    (hW : st.clustersToExamine = rest ++ [x]) (hpar : parentAt cs0 x = some p) :
    ∃ st', propagateStep D_MAX st x rest = some st' ∧ PropInv cs0 st' (insert x D) := by
  obtain ⟨⟨hx1, hx2, hxD, hxa⟩, hrest, hrnd, hchild⟩ := propInv_last cs0 hwf st D h x rest hW
  have hplt := parentAt_lt hwf hpar
  obtain ⟨c0, hc0⟩ := clusterTree_some hwf x hx1 hx2
  obtain ⟨c0p, hc0p⟩ := clusterTree_some hwf p hplt.1 (by omega)
  obtain ⟨cx, hcx, _, hcxp, hcxh, hcxs, hcxn, hcxpn⟩ := h.frame_some x c0 hc0
  obtain ⟨par, hparc, hparl, hparp, hparh, hpars, hparn, hparpn⟩ := h.frame_some p c0p hc0p
  have hc0par : c0.parent = some p := by
    unfold parentAt at hpar
    rw [hc0] at hpar
    exact hpar
  rw [hc0par] at hcxp
  have hpx : p ≠ x := by omega
  have hpD : p ∉ D := fun hp => hxD (h.closed p hp x hpar)
  -- the clusters after `cluster_propagate`
  have hprop := cluster_propagate_eq D_MAX st.clusters x p cx par hcx hcxp hpx hparc
  obtain ⟨d1, d2, d3, d4, d5, d6, d7, d8⟩ := propagateDeath_fields D_MAX cx
  have hcons1 : (propagateDeath D_MAX cx).numConstraintsSatisfied =
      (propagateDeath D_MAX cx).propagatedNumConstraintsSatisfied := by
    rw [d7, d8, hcxn, hcxpn]
  obtain ⟨e1, e2, e3, e4, e5, e6, e7, e8⟩ :=
    propagateChoice_fields (propagateParentDeath (propagateDeath D_MAX cx) par)
      (propagateDeath D_MAX cx) x hcons1
  obtain ⟨g1, g2, g3, g4, g5, g6, g7, g8⟩ :=
    propagateParentDeath_fields (propagateDeath D_MAX cx) par
  generalize hcl1 : propagateDeath D_MAX cx = cl1 at *
  generalize hpar2 : propagateChoice (propagateParentDeath cl1 par) cl1 x = par2 at *
  have hxlen : x < st.clusters.length := by rw [h.len]; exact hx2
  have hplen : p < st.clusters.length := by rw [h.len]; omega
  have hget : ∀ i, (cluster_propagate D_MAX st.clusters x).getD i none =
      if i = p then some par2 else if i = x then some cl1 else st.clusters.getD i none := by
    intro i
    rw [hprop, getD_set_eq, getD_set_eq]
    by_cases hip : i = p
    · rw [if_pos hip, if_pos ⟨hip.symm, by rw [List.length_set]; exact hplen⟩]
    · rw [if_neg hip, if_neg (fun hh => hip hh.1.symm)]
      by_cases hix : i = x
      · rw [if_pos hix, if_pos ⟨hix.symm, hxlen⟩]
      · rw [if_neg hix, if_neg (fun hh => hix hh.1.symm)]
  have hgx : (cluster_propagate D_MAX st.clusters x).getD x none = some cl1 := by
    rw [hget x, if_neg (Ne.symm hpx), if_pos rfl]
  have hgp : (cluster_propagate D_MAX st.clusters x).getD p none = some par2 := by
    rw [hget p, if_pos rfl]
  have hlab2 : par2.label = p := by
    rw [e1, g1, hparl]
    exact hwf.label p c0p hc0p
  obtain ⟨st', hst', hcl, hWmem, hWnd, hWs, hadd, haddlen⟩ :=
    propagateStep_nonroot D_MAX cs0 st D h x p rest hW (fun y hy => (hrest y hy).2.2.2.2) hrnd
      cx cl1 par2 hcx hgx (by rw [d2]; exact hcxp) hgp hlab2 hpx hpD (by omega)
  refine ⟨st', hst', ?_⟩
  -- the chosen stability and descendants of `x`
  have hchS : chosenStability cl1 = chosenStability cx := chosenStability_congr cx cl1 d3 d4 d5
  have hchD : chosenDescendants cl1 x = chosenDescendants cx x :=
    chosenDescendants_congr cx cl1 x d3 d4 d5 d6
  have hp2S : par2.propagatedStability = par.propagatedStability + chosenStability cx := by
    rw [e7, g5, hchS]
  have hp2D : par2.propagatedDescendants =
      par.propagatedDescendants ++ chosenDescendants cx x := by
    rw [e8, g6, hchD]
  have hchosenAt : ∀ j, j ≠ p → chosenAt st'.clusters j = chosenAt st.clusters j := by
    intro j hjp
    unfold chosenAt
    rw [hcl, hget j, if_neg hjp]
    by_cases hjx : j = x
    · rw [if_pos hjx, hjx, hcx]
      exact hchS
    · rw [if_neg hjx]
  have hfilter_p : (insert x D).filter (fun j => parentAt cs0 j = some p) =
      insert x (D.filter (fun j => parentAt cs0 j = some p)) := by
    rw [Finset.filter_insert, if_pos hpar]
  have hfilter_ne : ∀ i, i ≠ p → (insert x D).filter (fun j => parentAt cs0 j = some i) =
      D.filter (fun j => parentAt cs0 j = some i) := by
    intro i hip
    rw [Finset.filter_insert, if_neg]
    rw [hpar]
    intro heq
    exact hip (Option.some.inj heq).symm
  have hsum_congr : ∀ i, ∑ j in D.filter (fun j => parentAt cs0 j = some i),
      chosenAt st'.clusters j =
      ∑ j in D.filter (fun j => parentAt cs0 j = some i), chosenAt st.clusters j := by
    intro i
    apply Finset.sum_congr rfl
    intro j hj
    apply hchosenAt
    intro hjp
    exact hpD (hjp ▸ (Finset.mem_filter.mp hj).1)
  -- the descendants chosen for `x` lie in the subtree of `x`
  have hchsub : ∀ d ∈ chosenDescendants cx x, d = x ∨ IsAncestor cs0 x d := by
    intro d hd
    unfold chosenDescendants at hd
    split at hd
    · left; simpa using hd
    · right
      obtain ⟨j, _, hpj, hdj⟩ := h.desc_sub x cx hcx d hd
      rcases hdj with rfl | hdj
      · exact IsAncestor.parent hpj
      · exact isAncestor_trans (IsAncestor.parent hpj) hdj
  have hchnd : (chosenDescendants cx x).Nodup := by
    unfold chosenDescendants
    split
    · exact List.nodup_singleton x
    · exact h.desc_nodup x cx hcx
  have hchanti : ∀ a ∈ chosenDescendants cx x, ∀ b ∈ chosenDescendants cx x,
      ¬ IsAncestor cs0 a b := by
    intro a ha b hb
    unfold chosenDescendants at ha hb
    split at ha
    · rename_i hcond
      rw [if_pos hcond] at hb
      simp at ha hb
      rw [ha, hb]
      intro hanc
      have := isAncestor_lt hwf hanc
      omega
    · rename_i hcond
      rw [if_neg hcond] at hb
      exact h.desc_anti x cx hcx a ha b hb
  have hchsum : ((chosenDescendants cx x).map (stabilityAt cs0)).sum = chosenStability cx := by
    unfold chosenDescendants chosenStability
    split
    · simp only [List.map_cons, List.map_nil, List.sum_cons, List.sum_nil, add_zero]
      unfold stabilityAt
      rw [hc0]
      exact hcxs.symm
    · exact h.desc_sum x cx hcx
  -- every cluster of the new list
  have hcases : ∀ i c, st'.clusters.getD i none = some c →
      (i = p ∧ c = par2) ∨ (i ≠ p ∧ i = x ∧ c = cl1) ∨
      (i ≠ p ∧ i ≠ x ∧ st.clusters.getD i none = some c) := by
    intro i c hc
    rw [hcl, hget i] at hc
    by_cases hip : i = p
    · rw [if_pos hip] at hc
      exact Or.inl ⟨hip, (Option.some.inj hc).symm⟩
    · rw [if_neg hip] at hc
      by_cases hix : i = x
      · rw [if_pos hix] at hc
        exact Or.inr (Or.inl ⟨hip, hix, (Option.some.inj hc).symm⟩)
      · rw [if_neg hix] at hc
        exact Or.inr (Or.inr ⟨hip, hix, hc⟩)
  refine ⟨?_, haddlen, ?_, ?_, ?_, hWs, hWnd, ?_, ?_, ?_, ?_, ?_, ?_, ?_, ?_, ?_⟩
  · rw [hcl, hprop, List.length_set, List.length_set]; exact h.len
  · intro i hi
    rw [hcl, hget i]
    have hip : i ≠ p := by intro heq; rw [heq, hc0p] at hi; simp at hi
    have hix : i ≠ x := by intro heq; rw [heq, hc0] at hi; simp at hi
    rw [if_neg hip, if_neg hix]
    exact h.frame_none i hi
  · intro i c0' hc0'
    rw [hcl, hget i]
    by_cases hip : i = p
    · rw [if_pos hip]
      rw [hip, hc0p] at hc0'
      cases Option.some.inj hc0'
      refine ⟨par2, rfl, by rw [e1, g1, hparl], by rw [e2, g2, hparp], by rw [e3, g3, hparh],
        by rw [e4, g4, hpars], by rw [e5, g7, hparn], ?_⟩
      rw [e6, g8, hparpn, d7, hcxn]
      rfl
    · rw [if_neg hip]
      by_cases hix : i = x
      · rw [if_pos hix]
        rw [hix, hc0] at hc0'
        cases Option.some.inj hc0'
        obtain ⟨cx', hcx', f1, f2, f3, f4, f5, f6⟩ := h.frame_some x c0 hc0
        rw [hcx] at hcx'
        cases Option.some.inj hcx'
        exact ⟨cl1, rfl, by rw [d1, f1], by rw [d2, f2], by rw [d3, f3], by rw [d4, f4],
          by rw [d7, f5], by rw [d8, f6]⟩
      · rw [if_neg hix]
        exact h.frame_some i c0' hc0'
  · intro y hy
    rcases Finset.mem_insert.mp hy with rfl | hy
    · exact ⟨hx1, hx2⟩
    · exact h.D_valid y hy
  · intro y hy
    rcases (hWmem y).1 hy with hy | hy
    · have hy' := hrest y hy
      refine ⟨hy'.2.1, hy'.2.2.1, ?_, (hadd y).2 (Or.inl hy'.2.2.2.2)⟩
      intro hmem
      rcases Finset.mem_insert.mp hmem with heq | hmem
      · exact hy'.1 heq
      · exact hy'.2.2.2.1 hmem
    · subst hy
      refine ⟨hplt.1, by omega, ?_, (hadd y).2 (Or.inr rfl)⟩
      intro hmem
      rcases Finset.mem_insert.mp hmem with heq | hmem
      · exact hpx heq
      · exact hpD hmem
  · intro i hi
    rcases (hadd i).1 hi with hi | hi
    · rcases h.added_mem i hi with hw | hd
      · rw [hW] at hw
        rcases List.mem_append.mp hw with hw | hw
        · exact Or.inl ((hWmem i).2 (Or.inl hw))
        · right
          simp at hw
          rw [hw]
          exact Finset.mem_insert_self _ _
      · exact Or.inr (Finset.mem_insert_of_mem hd)
    · exact Or.inl ((hWmem i).2 (Or.inr hi))
  · intro i c0' hc0'
    rw [hadd i, h.added_iff i c0' hc0']
    constructor
    · rintro ((hl | ⟨j, hj, hpj⟩) | hip)
      · exact Or.inl hl
      · exact Or.inr ⟨j, Finset.mem_insert_of_mem hj, hpj⟩
      · exact Or.inr ⟨x, Finset.mem_insert_self _ _, by rw [hip]; exact hpar⟩
    · rintro (hl | ⟨j, hj, hpj⟩)
      · exact Or.inl (Or.inl hl)
      · rcases Finset.mem_insert.mp hj with rfl | hj
        · rw [hpar] at hpj
          exact Or.inr (Option.some.inj hpj).symm
        · exact Or.inl (Or.inr ⟨j, hj, hpj⟩)
  · intro y hy j hj
    rcases Finset.mem_insert.mp hy with rfl | hy
    · exact Finset.mem_insert_of_mem (hchild j hj)
    · exact Finset.mem_insert_of_mem (h.closed y hy j hj)
  · intro i c hc
    rcases hcases i c hc with ⟨rfl, rfl⟩ | ⟨hip, rfl, rfl⟩ | ⟨hip, hix, hold⟩
    · rw [hfilter_p, Finset.sum_insert (fun hmem => hxD (Finset.mem_filter.mp hmem).1),
        hsum_congr, hchosenAt x (Ne.symm hpx), hp2S, h.value i par hparc, add_comm]
      unfold chosenAt
      rw [hcx]
    · rw [hfilter_ne i hip, hsum_congr, d5]
      exact h.value i cx hcx
    · rw [hfilter_ne i hip, hsum_congr]
      exact h.value i c hold
  · intro i c hc
    rcases hcases i c hc with ⟨rfl, rfl⟩ | ⟨hip, rfl, rfl⟩ | ⟨hip, hix, hold⟩
    · rw [hp2D, hp2S, List.map_append, List.sum_append, hchsum, h.desc_sum i par hparc]
    · rw [d6, d5]
      exact h.desc_sum i cx hcx
    · exact h.desc_sum i c hold
  · intro i c hc d hd
    rcases hcases i c hc with ⟨rfl, rfl⟩ | ⟨hip, rfl, rfl⟩ | ⟨hip, hix, hold⟩
    · rw [hp2D] at hd
      rcases List.mem_append.mp hd with hd | hd
      · obtain ⟨j, hj, hpj⟩ := h.desc_sub i par hparc d hd
        exact ⟨j, Finset.mem_insert_of_mem hj, hpj⟩
      · exact ⟨x, Finset.mem_insert_self _ _, hpar, hchsub d hd⟩
    · rw [d6] at hd
      obtain ⟨j, hj, hpj⟩ := h.desc_sub i cx hcx d hd
      exact ⟨j, Finset.mem_insert_of_mem hj, hpj⟩
    · obtain ⟨j, hj, hpj⟩ := h.desc_sub i c hold d hd
      exact ⟨j, Finset.mem_insert_of_mem hj, hpj⟩
  · intro i c hc
    rcases hcases i c hc with ⟨rfl, rfl⟩ | ⟨hip, rfl, rfl⟩ | ⟨hip, hix, hold⟩
    · rw [hp2D]
      refine List.nodup_append.mpr ⟨h.desc_nodup i par hparc, hchnd, ?_⟩
      intro a ha hb
      obtain ⟨j, hj, hpj, hdj⟩ := h.desc_sub i par hparc a ha
      have hjx : j ≠ x := fun heq => hxD (heq ▸ hj)
      exact (subtree_disjoint hwf hpj hpar hjx hdj (hchsub a hb)).1 rfl
    · rw [d6]
      exact h.desc_nodup i cx hcx
    · exact h.desc_nodup i c hold
  · intro i c hc a ha b hb
    rcases hcases i c hc with ⟨rfl, rfl⟩ | ⟨hip, rfl, rfl⟩ | ⟨hip, hix, hold⟩
    · rw [hp2D] at ha hb
      rcases List.mem_append.mp ha with ha | ha <;> rcases List.mem_append.mp hb with hb | hb
      · exact h.desc_anti i par hparc a ha b hb
      · obtain ⟨j, hj, hpj, hdj⟩ := h.desc_sub i par hparc a ha
        have hjx : j ≠ x := fun heq => hxD (heq ▸ hj)
        exact (subtree_disjoint hwf hpj hpar hjx hdj (hchsub b hb)).2
      · obtain ⟨j, hj, hpj, hdj⟩ := h.desc_sub i par hparc b hb
        have hjx : j ≠ x := fun heq => hxD (heq ▸ hj)
        exact (subtree_disjoint hwf hpar hpj (Ne.symm hjx) (hchsub a ha) hdj).2
      · exact hchanti a ha b hb
    · rw [d6] at ha hb
      exact h.desc_anti i cx hcx a ha b hb
    · exact h.desc_anti i c hold a ha b hb

theorem propInv_loop {α : Type} [LinearOrderedAddCommMonoid α] (D_MAX : α)
    (cs0 : ClusterList α) (hwf : ClusterTree cs0) (fuel : Nat) :
    ∀ (st : PropagateState α) (D : Finset Nat), PropInv cs0 st D →
      cs0.length - 1 - D.card ≤ fuel →
      ∃ st' D', propagateLoop D_MAX fuel st = some st' ∧ PropInv cs0 st' D' ∧
        st'.clustersToExamine = [] := by
  induction fuel with
  | zero =>
    intro st D h hfuel
    have hsub : D ⊆ Finset.Ico 1 cs0.length := by
      intro y hy
      have := h.D_valid y hy
      simp only [Finset.mem_Ico]
      exact this
    have hcard : (Finset.Ico 1 cs0.length).card ≤ D.card := by
      simp only [Nat.card_Ico]
      omega
    have heq := Finset.eq_of_subset_of_card_le hsub hcard
    have hWnil : st.clustersToExamine = [] := by
      cases hl : st.clustersToExamine with
      | nil => rfl
      | cons y l =>
        exfalso
        have hy := h.W_mem y (by rw [hl]; simp)
        apply hy.2.2.1
        rw [heq]
        simp only [Finset.mem_Ico]
        exact ⟨hy.1, hy.2.1⟩
    refine ⟨st, D, ?_, h, hWnil⟩
    unfold propagateLoop
    rw [if_pos hWnil]
  | succ fuel ih =>
    intro st D h hfuel
    cases hlast : st.clustersToExamine.getLast? with
    | none =>
      refine ⟨st, D, ?_, h, List.getLast?_eq_none_iff.mp hlast⟩
      unfold propagateLoop
      simp only [hlast]
    | some x =>
      have hW : st.clustersToExamine = st.clustersToExamine.dropLast ++ [x] :=
        (List.dropLast_append_getLast? x hlast).symm
      have hxD : x ∉ D := (h.W_mem x (by rw [hW]; simp)).2.2.1
      have hstep : ∃ st1, propagateStep D_MAX st x st.clustersToExamine.dropLast = some st1 ∧
          PropInv cs0 st1 (insert x D) := by
        cases hpar : parentAt cs0 x with
        | none => exact propInv_step_root D_MAX cs0 hwf st D h x _ hW hpar
        | some p => exact propInv_step_nonroot D_MAX cs0 hwf st D h x p _ hW hpar
      obtain ⟨st1, hst1, hinv1⟩ := hstep
      have hcard : (insert x D).card = D.card + 1 := Finset.card_insert_of_not_mem hxD
      obtain ⟨st', D', hst', hinv', hnil⟩ := ih st1 (insert x D) hinv1 (by omega)
      refine ⟨st', D', ?_, hinv', hnil⟩
      unfold propagateLoop
      simp only [hlast, hst1]
      exact hst'

/-- The function `hdbscan_propagate_tree` returns on a well-formed cluster tree, and
`cluster_propagate` has then been called on every cluster. -/
theorem propagate_tree_final {α : Type} [LinearOrderedAddCommMonoid α] (D_MAX : α)
    (cs0 : ClusterList α) (hwf : ClusterTree cs0) (hfresh : FreshPropagation cs0) :
    ∃ st D, hdbscan_propagate_tree D_MAX cs0 = some (st.clusters, st.infiniteStability) ∧
      PropInv cs0 st D ∧ ∀ y, 1 ≤ y → y < cs0.length → y ∈ D := by
  obtain ⟨st, D, hst, hinv, hnil⟩ := propInv_loop D_MAX cs0 hwf cs0.length
    (propagateInit cs0) ∅ (propInv_init cs0 hwf hfresh) (by simp)
  refine ⟨st, D, ?_, hinv, ?_⟩
  · unfold hdbscan_propagate_tree
    rw [hst]
    rfl
  · intro y h1 h2
    by_contra hyD
    obtain ⟨z, hz, _⟩ := unprocessed_le_examine cs0 hwf st D hinv (cs0.length - y) y (le_refl _)
      h1 h2 hyD
    rw [hnil] at hz
    simp at hz

theorem exampleTree_getD (i : Nat) (c : cluster Int) (h : exampleTree.getD i none = some c) :
    (i = 1 ∧ c = exampleCluster 1 none 0 true) ∨
    (i = 2 ∧ c = exampleCluster 2 (some 1) 3 false) ∨
    (i = 3 ∧ c = exampleCluster 3 (some 1) 5 false) := by
  have hi : i < 4 := getD_some_lt h
  interval_cases i
  · simp [exampleTree] at h
  · left; exact ⟨rfl, by simpa [exampleTree] using h.symm⟩
  · right; left; exact ⟨rfl, by simpa [exampleTree] using h.symm⟩
  · right; right; exact ⟨rfl, by simpa [exampleTree] using h.symm⟩

theorem exampleTree_parentAt (j i : Nat) (h : parentAt exampleTree j = some i) :
    i = 1 ∧ (j = 2 ∨ j = 3) := by
  unfold parentAt at h
  cases hc : exampleTree.getD j none with
  | none => rw [hc] at h; simp at h
  | some c =>
    rw [hc] at h
    rcases exampleTree_getD j c hc with ⟨rfl, rfl⟩ | ⟨rfl, rfl⟩ | ⟨rfl, rfl⟩
    · simp [exampleCluster] at h
    · simp only [exampleCluster] at h
      exact ⟨(Option.some.inj h).symm, Or.inl rfl⟩
    · simp only [exampleCluster] at h
      exact ⟨(Option.some.inj h).symm, Or.inr rfl⟩

theorem exampleTree_wf : ClusterTree exampleTree := by
  refine ⟨by decide, rfl, ⟨_, rfl, rfl⟩, ?_, ?_, ?_⟩
  · intro i h2 hlt
    have hlt' : i < 4 := hlt
    interval_cases i
    · exact ⟨_, 1, rfl, rfl, by omega, by omega⟩
    · exact ⟨_, 1, rfl, rfl, by omega, by omega⟩
  · intro i c hc
    rcases exampleTree_getD i c hc with ⟨rfl, rfl⟩ | ⟨rfl, rfl⟩ | ⟨rfl, rfl⟩ <;> rfl
  · intro i c hc
    rcases exampleTree_getD i c hc with ⟨rfl, rfl⟩ | ⟨rfl, rfl⟩ | ⟨rfl, rfl⟩
    · constructor
      · intro _; exact ⟨2, rfl⟩
      · intro _; rfl
    · constructor
      · intro h; simp [exampleCluster] at h
      · rintro ⟨j, hj⟩
        have := (exampleTree_parentAt j 2 hj).1
        omega
    · constructor
      · intro h; simp [exampleCluster] at h
      · rintro ⟨j, hj⟩
        have := (exampleTree_parentAt j 3 hj).1
        omega

theorem count_set_add (l : List Nat) (i a b : Nat) (h : i < l.length) :
    (l.set i a).count b + (if l.getD i 0 = b then 1 else 0) =
      l.count b + (if a = b then 1 else 0) := by
  induction l generalizing i with
  | nil => simp at h
  | cons x l ih =>
    cases i with
    | zero =>
      simp only [List.set_cons_zero, List.count_cons, List.getD_cons_zero, beq_iff_eq]
      omega
    | succ i =>
      have := ih i (by simpa using h)
      simp only [List.set_cons_succ, List.count_cons, List.getD_cons_succ, beq_iff_eq]
      omega

theorem foldl_set_insert_mem (l acc : List Nat) (v : Nat) :
    v ∈ l.foldl set_insert acc ↔ v ∈ acc ∨ v ∈ l := by
  induction l generalizing acc with
  | nil => simp
  | cons x l ih =>
    rw [List.foldl_cons, ih]
    unfold set_insert
    by_cases hx : x ∈ acc
    · rw [if_pos hx]
      constructor
      · rintro (h | h)
        · exact Or.inl h
        · exact Or.inr (List.mem_cons_of_mem _ h)
      · rintro (h | h)
        · exact Or.inl h
        · rcases List.mem_cons.mp h with h | h
          · subst h; exact Or.inl hx
          · exact Or.inr h
    · rw [if_neg hx]
      simp only [List.mem_append, List.mem_singleton, List.mem_cons]
      tauto

theorem foldl_set_insert_nodup (l acc : List Nat) (h : acc.Nodup) :
    (l.foldl set_insert acc).Nodup := by
  induction l generalizing acc with
  | nil => exact h
  | cons x l ih =>
    rw [List.foldl_cons]
    apply ih
    unfold set_insert
    by_cases hx : x ∈ acc
    · rw [if_pos hx]; exact h
    · rw [if_neg hx]
      exact List.Nodup.append h (List.nodup_singleton x) (by
        intro a ha hb
        rw [List.mem_singleton] at hb
        subst hb
        exact hx ha)

theorem foldl_set_insert_nil (l : List Nat) (h : l.Nodup) : l.foldl set_insert [] = l := by
  have key : ∀ (l acc : List Nat), (acc ++ l).Nodup → l.foldl set_insert acc = acc ++ l := by
    intro l
    induction l with
    | nil => intro acc _; simp
    | cons x l ih =>
      intro acc hnd
      rw [List.foldl_cons]
      have hx : x ∉ acc := by
        intro hx
        have := List.nodup_append.mp hnd
        exact this.2.2 hx (List.mem_cons_self _ _)
      have : set_insert acc x = acc ++ [x] := by unfold set_insert; rw [if_neg hx]
      rw [this, ih (acc ++ [x]) (by simpa using hnd)]
      simp
  simpa using key l [] (by simpa using h)

theorem set_insert_length_le (s : List Nat) (v : Nat) : (set_insert s v).length ≤ s.length + 1 := by
  unfold set_insert
  split
  · omega
  · simp

theorem set_insert_nodup (s : List Nat) (v : Nat) (h : s.Nodup) : (set_insert s v).Nodup :=
  foldl_set_insert_nodup [v] s h

theorem set_insert_mem (s : List Nat) (v w : Nat) : w ∈ set_insert s v ↔ w ∈ s ∨ w = v := by
  have := foldl_set_insert_mem [v] s w
  simpa using this

theorem nodup_length_le (l : List Nat) (N : Nat) (hnd : l.Nodup) (hlt : ∀ v ∈ l, v < N) :
    l.length ≤ N := by
  have hsub : l ⊆ List.range N := fun v hv => List.mem_range.mpr (hlt v hv)
  have := (List.Nodup.subperm hnd hsub).length_le
  simpa using this

theorem nodup_subset_length_le (l m : List Nat) (hnd : l.Nodup) (hsub : ∀ v ∈ l, v ∈ m) :
    l.length ≤ m.length :=
  (List.Nodup.subperm hnd hsub).length_le

theorem relabel_length (points labels : List Nat) (M : Nat) :
    (points.foldl (fun labels d => labels.set d M) labels).length = labels.length := by
  induction points generalizing labels with
  | nil => rfl
  | cons x l ih => rw [List.foldl_cons, ih, List.length_set]

theorem relabel_getD (points labels : List Nat) (M p : Nat) :
    (points.foldl (fun labels d => labels.set d M) labels).getD p 0 =
      if p ∈ points ∧ p < labels.length then M else labels.getD p 0 := by
  induction points generalizing labels with
  | nil => simp
  | cons x l ih =>
    rw [List.foldl_cons, ih, List.length_set, getD_set_eq]
    by_cases hp : p < labels.length
    · by_cases hl : p ∈ l
      · rw [if_pos ⟨hl, hp⟩, if_pos ⟨List.mem_cons_of_mem _ hl, hp⟩]
      · rw [if_neg (fun h => hl h.1)]
        by_cases hx : x = p
        · subst hx
          rw [if_pos ⟨rfl, hp⟩, if_pos ⟨List.mem_cons_self _ _, hp⟩]
        · rw [if_neg (fun h => hx h.1), if_neg]
          rintro ⟨h1, _⟩
          rcases List.mem_cons.mp h1 with h | h
          · exact hx h.symm
          · exact hl h
    · rw [if_neg (show ¬(p ∈ l ∧ p < labels.length) from fun h => hp h.2),
        if_neg (show ¬(x = p ∧ x < labels.length) from fun h => hp (h.1 ▸ h.2)),
        if_neg (show ¬(p ∈ x :: l ∧ p < labels.length) from fun h => hp h.2)]

theorem relabel_count (points : List Nat) (L M : Nat) (labels : List Nat) (hnd : points.Nodup)
    (hpts : ∀ p ∈ points, p < labels.length ∧ labels.getD p 0 = L) (b : Nat) :
    (points.foldl (fun labels d => labels.set d M) labels).count b +
        (if L = b then points.length else 0) =
      labels.count b + (if M = b then points.length else 0) := by
  induction points generalizing labels with
  | nil => simp
  | cons x l ih =>
    rw [List.foldl_cons]
    have hx := hpts x (List.mem_cons_self _ _)
    have hnd' := List.nodup_cons.mp hnd
    have h1 := count_set_add labels x M b hx.1
    rw [hx.2] at h1
    have h2 := ih (labels.set x M) hnd'.2 (by
      intro p hp
      have hpx : x ≠ p := fun h => hnd'.1 (h ▸ hp)
      have := hpts p (List.mem_cons_of_mem _ hp)
      rw [List.length_set, getD_set_eq, if_neg (fun h => hpx h.1)]
      exact this)
    simp only [List.length_cons]
    split_ifs at h1 h2 ⊢ <;> omega

theorem getD_append_length {α : Type} (l : List α) (a d : α) :
    (l ++ [a]).getD l.length d = a := by
  rw [List.getD_eq_getElem?_getD, List.getElem?_append_right (le_refl _)]
  simp

theorem getD_append_lt {α : Type} (l : List α) (a d : α) (i : Nat) (h : i < l.length) :
    (l ++ [a]).getD i d = l.getD i d := by
  rw [List.getD_eq_getElem?_getD, List.getD_eq_getElem?_getD, List.getElem?_append_left h]

theorem cluster_detach_points_fields {α : Type} [LinearOrderedField α] (cl : cluster α)
    (k : Int) (level : α) :
    (cluster_detach_points cl k level).1.label = cl.label ∧
    (cluster_detach_points cl k level).1.numPoints = cl.numPoints - k ∧
    (cluster_detach_points cl k level).1.hasChildren = cl.hasChildren ∧
    (cluster_detach_points cl k level).1.deathLevel =
      (if cl.numPoints - k = 0 then level else cl.deathLevel) := by
  unfold cluster_detach_points
  by_cases h : cl.numPoints - k = 0
  · simp [h]
  · by_cases h2 : cl.numPoints - k < 0
    · simp [h, h2]
    · simp [h, h2]

theorem create_new_cluster_child_eq {α : Type} [LinearOrderedField α] (D_MAX W : α)
    (clusters : ClusterList α) (labels points : List Nat) (L next : Nat) (c : cluster α)
    (hc : clusters.getD L none = some c) (hnext : next ≠ 0) :
    hdbscan_create_new_cluster D_MAX clusters points labels L next W =
      (clusters.set L
          (some { (cluster_detach_points c points.length W).1 with hasChildren := true }),
        points.foldl (fun labels d => labels.set d next) labels,
        some (cluster_init D_MAX ([] : ClusterList α) next (some L) W points.length).2) := by
  have hlt : L < clusters.length := getD_some_lt hc
  unfold hdbscan_create_new_cluster
  simp only [hc, if_pos hnext]
  have h1 : (clusters.set L (some (cluster_detach_points c points.length W).1)).getD L none =
      some (cluster_detach_points c points.length W).1 := by
    rw [getD_set_eq, if_pos ⟨rfl, hlt⟩]
  unfold cluster_init
  simp only [h1, List.set_set]

theorem create_new_cluster_noise_eq {α : Type} [LinearOrderedField α] (D_MAX W : α)
    (clusters : ClusterList α) (labels points : List Nat) (L : Nat) (c : cluster α)
    (hc : clusters.getD L none = some c) :
    hdbscan_create_new_cluster D_MAX clusters points labels L 0 W =
      (clusters.set L
          (some (cluster_add_points_to_virtual_child_cluster
            (cluster_detach_points c points.length W).1 points)),
        points.foldl (fun labels d => labels.set d 0) labels, none) := by
  have hlt : L < clusters.length := getD_some_lt hc
  unfold hdbscan_create_new_cluster
  have h1 : (clusters.set L (some (cluster_detach_points c points.length W).1)).getD L none =
      some (cluster_detach_points c points.length W).1 := by
    rw [getD_set_eq, if_pos ⟨rfl, hlt⟩]
  simp only [hc, h1, List.set_set, ne_eq, not_true_eq_false, if_false]

theorem getD_append_length_eq {α : Type} (l : List α) (a d : α) (n : Nat) (h : l.length = n) :
    (l ++ [a]).getD n d = a := by
  subst h
  exact getD_append_length l a d

theorem relabel_lt (points labels : List Nat) (M bound : Nat) (hM : M < bound)
    (h : ∀ x ∈ labels, x < bound) :
    ∀ x ∈ points.foldl (fun labels d => labels.set d M) labels, x < bound := by
  intro x hx
  obtain ⟨i, hi, rfl⟩ := List.getElem_of_mem hx
  have hi' : i < labels.length := by rwa [relabel_length] at hi
  have hget := relabel_getD points labels M i
  rw [List.getD_eq_getElem?_getD, List.getElem?_eq_getElem hi] at hget
  simp only [Option.getD_some] at hget
  rw [hget]
  split
  · exact hM
  · rw [List.getD_eq_getElem?_getD, List.getElem?_eq_getElem hi']
    exact h _ (List.getElem_mem _)

theorem count_eq_zero_of_lt (labels : List Nat) (next : Nat) (h : ∀ x ∈ labels, x < next) :
    labels.count next = 0 := by
  rw [List.count_eq_zero]
  intro hmem
  exact Nat.lt_irrefl _ (h _ hmem)

theorem create_child_ok {α : Type} [LinearOrderedField α] (pos : Prop) (D_MAX W : α)
    (clusters : ClusterList α) (labels points : List Nat) (L next : Nat)
    (hok : ClustersOk pos clusters labels next) (hL : 1 ≤ L) (hLn : L < next)
    (hnd : points.Nodup) (hne : points ≠ [])
    (hpts : ∀ p ∈ points, p < labels.length ∧ labels.getD p 0 = L) :
    (hdbscan_create_new_cluster D_MAX clusters points labels L next W).2.1 =
      points.foldl (fun labels d => labels.set d next) labels ∧
    ClustersOk pos
      ((hdbscan_create_new_cluster D_MAX clusters points labels L next W).1 ++
        [(hdbscan_create_new_cluster D_MAX clusters points labels L next W).2.2])
      (points.foldl (fun labels d => labels.set d next) labels) (next + 1) := by
  obtain ⟨c, hc, hlab, hnum, hdead⟩ := hok.some L hL hLn
  have hnext : next ≠ 0 := by have := hok.two_le; omega
  rw [create_new_cluster_child_eq D_MAX W clusters labels points L next c hc hnext]
  refine ⟨rfl, ?_⟩
  have hfields := cluster_detach_points_fields c points.length W
  have hlen : (clusters.set L
      (some { (cluster_detach_points c points.length W).1 with hasChildren := true })).length =
      next := by rw [List.length_set, hok.len]
  have hcount := relabel_count points L next labels hnd hpts
  have hplen : 0 < points.length := List.length_pos.mpr hne
  refine ⟨by simp [hok.len], by have := hok.two_le; omega, ?_, ?_, ?_⟩
  · rw [getD_append_lt _ _ _ _ (by rw [hlen]; omega), getD_set_eq,
      if_neg (fun h => by omega)]
    exact hok.null
  · intro L1 hL1 hL1n
    by_cases hnew : L1 = next
    · subst hnew
      refine ⟨(cluster_init D_MAX ([] : ClusterList α) L1 (some L) W points.length).2,
        ?_, ?_, ?_, ?_⟩
      · exact getD_append_length_eq _ _ _ _ hlen
      · rfl
      · have h0 := count_eq_zero_of_lt labels L1 hok.lt
        have := hcount L1
        rw [if_neg (by omega), if_pos rfl, h0] at this
        show (points.length : Int) = _
        omega
      · intro _ _
        right; right
        show (0 : Int) < (points.length : Int)
        omega
    · rw [getD_append_lt _ _ _ _ (by rw [hlen]; omega), getD_set_eq]
      by_cases hLL : L = L1
      · subst hLL
        rw [if_pos ⟨rfl, by rw [hok.len]; omega⟩]
        refine ⟨_, rfl, ?_, ?_, ?_⟩
        · show (cluster_detach_points c points.length W).1.label = L
          rw [hfields.1, hlab]
        · show (cluster_detach_points c points.length W).1.numPoints = _
          rw [hfields.2.1, hnum]
          have := hcount L
          rw [if_pos rfl, if_neg (fun h => hnew h.symm)] at this
          omega
        · intro _ _
          left; rfl
      · rw [if_neg (fun h => hLL h.1)]
        obtain ⟨c1, hc1, hlab1, hnum1, hdead1⟩ := hok.some L1 hL1 (by omega)
        refine ⟨c1, hc1, hlab1, ?_, hdead1⟩
        rw [hnum1]
        have := hcount L1
        rw [if_neg hLL, if_neg (fun h => hnew h.symm)] at this
        omega
  · exact relabel_lt points labels next (next + 1) (by omega)
      (fun x hx => by have := hok.lt x hx; omega)

theorem assign_noise_ok {α : Type} [LinearOrderedField α] (pos : Prop) (D_MAX W : α)
    (clusters : ClusterList α) (labels points : List Nat) (L next : Nat)
    (hok : ClustersOk pos clusters labels next) (hL : 1 ≤ L) (hLn : L < next)
    (hnd : points.Nodup) (hW : pos → 0 < W)
    (hpts : ∀ p ∈ points, p < labels.length ∧ labels.getD p 0 = L) :
    (hdbscan_create_new_cluster D_MAX clusters points labels L 0 W).2.1 =
      points.foldl (fun labels d => labels.set d 0) labels ∧
    ClustersOk pos (hdbscan_create_new_cluster D_MAX clusters points labels L 0 W).1
      (points.foldl (fun labels d => labels.set d 0) labels) next := by
  obtain ⟨c, hc, hlab, hnum, hdead⟩ := hok.some L hL hLn
  rw [create_new_cluster_noise_eq D_MAX W clusters labels points L c hc]
  refine ⟨rfl, ?_⟩
  have hfields := cluster_detach_points_fields c points.length W
  have hcount := relabel_count points L 0 labels hnd hpts
  refine ⟨by simp [hok.len], hok.two_le, ?_, ?_, ?_⟩
  · rw [getD_set_eq, if_neg (fun h => by omega)]
    exact hok.null
  · intro L1 hL1 hL1n
    rw [getD_set_eq]
    by_cases hLL : L = L1
    · subst hLL
      rw [if_pos ⟨rfl, by rw [hok.len]; omega⟩]
      have hnp : (cluster_detach_points c points.length W).1.numPoints =
          ((points.foldl (fun labels d => labels.set d 0) labels).count L : Int) := by
        rw [hfields.2.1, hnum]
        have := hcount L
        rw [if_pos rfl, if_neg (by omega)] at this
        omega
      refine ⟨_, rfl, ?_, ?_, ?_⟩
      · show (cluster_detach_points c points.length W).1.label = L
        rw [hfields.1, hlab]
      · exact hnp
      · intro hp h2
        show (cluster_detach_points c points.length W).1.hasChildren = true ∨
          0 < (cluster_detach_points c points.length W).1.deathLevel ∨
          0 < (cluster_detach_points c points.length W).1.numPoints
        rw [hfields.2.2.1, hfields.2.2.2]
        by_cases hz : c.numPoints - (points.length : Int) = 0
        · rw [if_pos hz]
          exact Or.inr (Or.inl (hW hp))
        · right; right
          rw [hnp]
          rw [hfields.2.1] at hnp
          omega
    · rw [if_neg (fun h => hLL h.1)]
      obtain ⟨c1, hc1, hlab1, hnum1, hdead1⟩ := hok.some L1 hL1 (by omega)
      refine ⟨c1, hc1, hlab1, ?_, hdead1⟩
      rw [hnum1]
      have := hcount L1
      rw [if_neg hLL, if_neg (by omega)] at this
      omega
  · exact relabel_lt points labels 0 next (by have := hok.two_le; omega) hok.lt

theorem edgeMult_symm (A B : List Nat) (n u v : Nat) : edgeMult A B n u v = edgeMult A B n v u := by
  induction n with
  | zero => rfl
  | succ n ih =>
    unfold edgeMult
    rw [ih]
    congr 1
    apply if_congr _ rfl rfl
    tauto

theorem edgeMult_pos (A B : List Nat) (n u v : Nat) :
    0 < edgeMult A B n u v ↔
      ∃ i, i < n ∧ ((A.getD i 0 = u ∧ B.getD i 0 = v) ∨ (A.getD i 0 = v ∧ B.getD i 0 = u)) := by
  induction n with
  | zero => simp [edgeMult]
  | succ n ih =>
    unfold edgeMult
    constructor
    · intro h
      by_cases hc : (A.getD n 0 = u ∧ B.getD n 0 = v) ∨ (A.getD n 0 = v ∧ B.getD n 0 = u)
      · exact ⟨n, by omega, hc⟩
      · rw [if_neg hc] at h
        obtain ⟨i, hi, hci⟩ := ih.mp (by omega)
        exact ⟨i, by omega, hci⟩
    · rintro ⟨i, hi, hci⟩
      by_cases hin : i = n
      · subst hin
        rw [if_pos hci]
        omega
      · have := ih.mpr ⟨i, by omega, hci⟩
        omega

theorem GraphOk.mem_iff {N : Nat} {A B : List Nat} {n : Nat} {edges : List (List Nat)}
    (h : GraphOk N A B n edges) (u v : Nat) :
    v ∈ edges.getD u [] ↔
      ∃ i, i < n ∧ ((A.getD i 0 = u ∧ B.getD i 0 = v) ∨ (A.getD i 0 = v ∧ B.getD i 0 = u)) := by
  rw [← List.count_pos_iff, h.count, edgeMult_pos]

theorem GraphOk.symm {N : Nat} {A B : List Nat} {n : Nat} {edges : List (List Nat)}
    (h : GraphOk N A B n edges) {u v : Nat} (huv : v ∈ edges.getD u []) : u ∈ edges.getD v [] := by
  rw [h.mem_iff] at huv ⊢
  obtain ⟨i, hi, hc⟩ := huv
  exact ⟨i, hi, hc.symm⟩

theorem GraphOk.mem_lt {N : Nat} {A B : List Nat} {n : Nat} {edges : List (List Nat)}
    (h : GraphOk N A B n edges) {u v : Nat} (huv : v ∈ edges.getD u []) : u < N ∧ v < N := by
  rw [h.mem_iff] at huv
  obtain ⟨i, hi, hc⟩ := huv
  have := h.lt i hi
  rcases hc with ⟨h1, h2⟩ | ⟨h1, h2⟩
  · rw [h1, h2] at this; exact this
  · rw [h1, h2] at this; exact this.symm

theorem GraphOk.nil_of_zero {N : Nat} {A B : List Nat} {edges : List (List Nat)}
    (h : GraphOk N A B 0 edges) (u : Nat) : edges.getD u [] = [] := by
  apply List.eq_nil_iff_forall_not_mem.mpr
  intro v hv
  rw [h.mem_iff] at hv
  obtain ⟨i, hi, _⟩ := hv
  omega

theorem GraphOk.edge_mem {N : Nat} {A B : List Nat} {n : Nat} {edges : List (List Nat)}
    (h : GraphOk N A B n edges) (i : Nat) (hi : i < n) :
    B.getD i 0 ∈ edges.getD (A.getD i 0) [] := by
  rw [h.mem_iff]
  exact ⟨i, hi, Or.inl ⟨rfl, rfl⟩⟩

theorem graphAddEdge_length (edges : List (List Nat)) (a b : Nat) :
    (graphAddEdge edges a b).length = edges.length := by
  unfold graphAddEdge
  by_cases hab : a ≠ b
  · simp [hab]
  · simp [hab]

theorem graphAddEdge_count (edges : List (List Nat)) (a b : Nat) (ha : a < edges.length)
    (hb : b < edges.length) (u v : Nat) :
    ((graphAddEdge edges a b).getD u []).count v =
      (edges.getD u []).count v + if (a = u ∧ b = v) ∨ (a = v ∧ b = u) then 1 else 0 := by
  unfold graphAddEdge
  by_cases hab : a = b
  · subst hab
    simp only [ne_eq, not_true_eq_false, if_false]
    rw [getD_set_eq]
    by_cases hu : a = u
    · subst hu
      rw [if_pos ⟨rfl, ha⟩, List.count_append, List.count_singleton]
      congr 1
      by_cases hv : a = v
      · subst hv; simp
      · rw [if_neg (by simpa using hv), if_neg (by tauto)]
    · rw [if_neg (fun h => hu h.1), if_neg (by tauto)]
      rfl
  · simp only [ne_eq, hab, not_false_eq_true, if_true]
    rw [getD_set_eq, List.length_set, getD_set_eq, getD_set_eq]
    by_cases hbu : b = u
    · subst hbu
      rw [if_pos ⟨rfl, hb⟩, if_neg (fun h => hab h.1), List.count_append, List.count_singleton]
      congr 1
      by_cases hv : a = v
      · subst hv; simp
      · rw [if_neg (by simpa using hv), if_neg (by tauto)]
    · rw [if_neg (fun h => hbu h.1)]
      by_cases hau : a = u
      · subst hau
        rw [if_pos ⟨rfl, ha⟩, List.count_append, List.count_singleton]
        congr 1
        by_cases hv : b = v
        · subst hv; simp
        · rw [if_neg (by simpa using hv), if_neg (by tauto)]
      · rw [if_neg (fun h => hau h.1), if_neg (by tauto)]
        rfl

theorem graph_init_ok {α : Type} (N : Nat) (A B : List Nat) (W : List α)
    (hlt : ∀ i, i < W.length → A.getD i 0 < N ∧ B.getD i 0 < N) :
    GraphOk N A B W.length (graph_init N A B W).edges := by
  have key : ∀ n, n ≤ W.length →
      GraphOk N A B n
        ((List.range n).foldl
          (fun edges i => graphAddEdge edges (A.getD i 0) (B.getD i 0))
          (List.replicate N [])) := by
    intro n
    induction n with
    | zero =>
      intro _
      refine ⟨by simp, fun i hi => by omega, ?_⟩
      intro u v
      simp only [List.range_zero, List.foldl_nil, edgeMult]
      rw [getD_replicate]
      rfl
    | succ n ih =>
      intro hn
      have h := ih (by omega)
      rw [List.range_succ, List.foldl_append]
      simp only [List.foldl_cons, List.foldl_nil]
      refine ⟨by rw [graphAddEdge_length, h.len], fun i hi => hlt i (by omega), ?_⟩
      intro u v
      have hb := hlt n (by omega)
      rw [graphAddEdge_count _ _ _ (by rw [h.len]; exact hb.1) (by rw [h.len]; exact hb.2),
        h.count]
      rfl
  exact key W.length (le_refl _)

theorem graph_remove_edge_count {α : Type} (g : graph α) (a b : Nat) (ha : a < g.edges.length)
    (hb : b < g.edges.length) (hab : b ∈ g.edges.getD a []) (hba : a ∈ g.edges.getD b [])
    (u v : Nat) :
    ((graph_remove_edge g a b).edges.getD u []).count v +
        (if (a = u ∧ b = v) ∨ (a = v ∧ b = u) then 1 else 0) =
      (g.edges.getD u []).count v := by
  unfold graph_remove_edge
  by_cases heq : a = b
  · subst heq
    simp only [ne_eq, not_true_eq_false, if_false]
    rw [getD_set_eq]
    by_cases hu : a = u
    · subst hu
      rw [if_pos ⟨rfl, ha⟩, List.count_erase]
      by_cases hv : a = v
      · subst hv
        have := List.count_pos_iff.mpr hab
        simp only [beq_self_eq_true, if_true, and_self, or_self]
        omega
      · rw [if_neg (by simpa using hv), if_neg (by tauto)]
        omega
    · rw [if_neg (fun h => hu h.1), if_neg (by tauto)]
      rfl
  · simp only [ne_eq, heq, not_false_eq_true, if_true]
    rw [getD_set_eq, List.length_set, getD_set_eq, getD_set_eq]
    have hne : ¬(a = b ∧ a < g.edges.length) := fun h => heq h.1
    by_cases hbu : b = u
    · subst hbu
      rw [if_pos ⟨rfl, hb⟩, if_neg hne, List.count_erase]
      by_cases hv : a = v
      · subst hv
        have := List.count_pos_iff.mpr hba
        rw [if_pos (by simp), if_pos (by tauto)]
        omega
      · rw [if_neg (by simpa using hv), if_neg (by tauto)]
        omega
    · rw [if_neg (fun h => hbu h.1)]
      by_cases hau : a = u
      · subst hau
        rw [if_pos ⟨rfl, ha⟩, List.count_erase]
        by_cases hv : b = v
        · subst hv
          have := List.count_pos_iff.mpr hab
          rw [if_pos (by simp), if_pos (by tauto)]
          omega
        · rw [if_neg (by simpa using hv), if_neg (by tauto)]
          omega
      · rw [if_neg (fun h => hau h.1), if_neg (by tauto)]
        rfl

theorem graph_remove_edge_length {α : Type} (g : graph α) (a b : Nat) :
    (graph_remove_edge g a b).edges.length = g.edges.length := by
  unfold graph_remove_edge
  show (if a ≠ b then _ else _ : List (List Nat)).length = _
  split
  · rw [List.length_set, List.length_set]
  · rw [List.length_set]

theorem graph_remove_edge_ok {α : Type} (N : Nat) (A B : List Nat) (n : Nat) (g : graph α)
    (h : GraphOk N A B (n + 1) g.edges) :
    GraphOk N A B n (graph_remove_edge g (A.getD n 0) (B.getD n 0)).edges := by
  have hab := h.lt n (by omega)
  have hmem := h.edge_mem n (by omega)
  have hmem' := h.symm hmem
  refine ⟨?_, fun i hi => h.lt i (by omega), ?_⟩
  · rw [graph_remove_edge_length, h.len]
  · intro u v
    have := graph_remove_edge_count g _ _ (by rw [h.len]; exact hab.1) (by rw [h.len]; exact hab.2)
      hmem hmem' u v
    have h2 := h.count u v
    unfold edgeMult at h2
    omega

theorem graph_remove_edge_subset {α : Type} (g : graph α) (a b u v : Nat)
    (h : v ∈ (graph_remove_edge g a b).edges.getD u []) : v ∈ g.edges.getD u [] := by
  unfold graph_remove_edge at h
  by_cases heq : a = b
  · subst heq
    simp only [ne_eq, not_true_eq_false, if_false] at h
    rw [getD_set_eq] at h
    split at h
    · rename_i hc
      rw [← hc.1]
      exact List.mem_of_mem_erase h
    · exact h
  · simp only [ne_eq, heq, not_false_eq_true, if_true] at h
    rw [getD_set_eq, List.length_set, getD_set_eq, getD_set_eq] at h
    split at h
    · rename_i hc
      rw [if_neg (fun hh => heq hh.1)] at h
      rw [← hc.1]
      exact List.mem_of_mem_erase h
    · split at h
      · rename_i hc
        rw [← hc.1]
        exact List.mem_of_mem_erase h
      · exact h

theorem graph_remove_edge_fields {α : Type} (g : graph α) (a b : Nat) :
    (graph_remove_edge g a b).numVertices = g.numVertices ∧
    (graph_remove_edge g a b).verticesA = g.verticesA ∧
    (graph_remove_edge g a b).verticesB = g.verticesB ∧
    (graph_remove_edge g a b).edgeWeights = g.edgeWeights :=
  ⟨rfl, rfl, rfl, rfl⟩

theorem exploreNeighbor_fold (nb : List Nat) (es : ExamineState)
    (hex : es.examinedVertices.Nodup) (hC : es.constructingSubCluster.Nodup) :
    (nb.foldl exploreNeighbor es).firstChildCluster = es.firstChildCluster ∧
    (nb.foldl exploreNeighbor es).unexploredFirstChildClusterPoints =
      es.unexploredFirstChildClusterPoints ∧
    (nb.foldl exploreNeighbor es).numChildClusters = es.numChildClusters ∧
    (nb.foldl exploreNeighbor es).incrementedChildCount = es.incrementedChildCount ∧
    ((nb.foldl exploreNeighbor es).anyEdges = true ↔ es.anyEdges = true ∨ nb ≠ []) ∧
    (∀ v, v ∈ (nb.foldl exploreNeighbor es).constructingSubCluster ↔
      v ∈ es.constructingSubCluster ∨ v ∈ nb) ∧
    (nb.foldl exploreNeighbor es).constructingSubCluster.Nodup ∧
    (∀ v, v ∈ (nb.foldl exploreNeighbor es).unexploredSubClusterPoints ↔
      v ∈ es.unexploredSubClusterPoints ∨ (v ∈ nb ∧ v ∉ es.constructingSubCluster)) ∧
    (nb.foldl exploreNeighbor es).unexploredSubClusterPoints.length +
        es.constructingSubCluster.length =
      es.unexploredSubClusterPoints.length +
        (nb.foldl exploreNeighbor es).constructingSubCluster.length ∧
    (nb.foldl exploreNeighbor es).examinedVertices.Nodup ∧
    (∀ v, v ∈ (nb.foldl exploreNeighbor es).examinedVertices ↔
      v ∈ es.examinedVertices ∧ (v ∈ es.constructingSubCluster ∨ v ∉ nb)) := by
  induction nb generalizing es with
  | nil => simp [hex, hC]
  | cons x nb ih =>
    rw [List.foldl_cons]
    by_cases hx : x ∈ es.constructingSubCluster
    · have he : exploreNeighbor es x = { es with anyEdges := true } := by
        unfold exploreNeighbor; rw [if_pos hx]
      rw [he]
      obtain ⟨h1, h2, h3, h4, h5, h6, h7, h8, h9, h10, h11⟩ :=
        ih { es with anyEdges := true } hex hC
      refine ⟨h1, h2, h3, h4, ?_, ?_, h7, ?_, h9, h10, ?_⟩
      · rw [h5]; simp
      · intro v
        rw [h6 v]
        constructor
        · rintro (h | h)
          · exact Or.inl h
          · exact Or.inr (List.mem_cons_of_mem _ h)
        · rintro (h | h)
          · exact Or.inl h
          · rcases List.mem_cons.mp h with h | h
            · subst h; exact Or.inl hx
            · exact Or.inr h
      · intro v
        rw [h8 v]
        constructor
        · rintro (h | ⟨h, hn⟩)
          · exact Or.inl h
          · exact Or.inr ⟨List.mem_cons_of_mem _ h, hn⟩
        · rintro (h | ⟨h, hn⟩)
          · exact Or.inl h
          · rcases List.mem_cons.mp h with h | h
            · subst h; exact absurd hx hn
            · exact Or.inr ⟨h, hn⟩
      · intro v
        rw [h11 v]
        constructor
        · rintro ⟨h, hh⟩
          refine ⟨h, ?_⟩
          rcases hh with hh | hh
          · exact Or.inl hh
          · by_cases hvx : v = x
            · subst hvx; exact Or.inl hx
            · right
              intro hm
              rcases List.mem_cons.mp hm with hm | hm
              · exact hvx hm
              · exact hh hm
        · rintro ⟨h, hh⟩
          refine ⟨h, ?_⟩
          rcases hh with hh | hh
          · exact Or.inl hh
          · exact Or.inr (fun hm => hh (List.mem_cons_of_mem _ hm))
    · have he : exploreNeighbor es x =
          { es with
            anyEdges := true
            constructingSubCluster := es.constructingSubCluster ++ [x]
            unexploredSubClusterPoints := es.unexploredSubClusterPoints ++ [x]
            examinedVertices := es.examinedVertices.erase x } := by
        unfold exploreNeighbor; rw [if_neg hx]
      rw [he]
      have hC' : (es.constructingSubCluster ++ [x]).Nodup :=
        List.Nodup.append hC (List.nodup_singleton x) (by
          intro a ha hb
          rw [List.mem_singleton] at hb
          subst hb
          exact hx ha)
      obtain ⟨h1, h2, h3, h4, h5, h6, h7, h8, h9, h10, h11⟩ :=
        ih { es with
            anyEdges := true
            constructingSubCluster := es.constructingSubCluster ++ [x]
            unexploredSubClusterPoints := es.unexploredSubClusterPoints ++ [x]
            examinedVertices := es.examinedVertices.erase x } (List.Nodup.erase x hex) hC'
      refine ⟨h1, h2, h3, h4, ?_, ?_, h7, ?_, ?_, h10, ?_⟩
      · rw [h5]; simp
      · intro v
        rw [h6 v]
        simp only [List.mem_append, List.mem_singleton, List.mem_cons]
        tauto
      · intro v
        rw [h8 v]
        simp only [List.mem_append, List.mem_singleton, List.mem_cons]
        by_cases hvx : v = x
        · subst hvx; tauto
        · tauto
      · simp only [List.length_append, List.length_singleton] at h9
        omega
      · intro v
        rw [h11 v]
        simp only [List.mem_append, List.mem_singleton, List.mem_cons,
          List.Nodup.mem_erase_iff hex]
        by_cases hvx : v = x
        · subst hvx; tauto
        · tauto

theorem exploreFirstChildNeighbor_fold (nb : List Nat) (es : ExamineState)
    (hF : es.firstChildCluster.Nodup) :
    (nb.foldl exploreFirstChildNeighbor es).examinedVertices = es.examinedVertices ∧
    (nb.foldl exploreFirstChildNeighbor es).numChildClusters = es.numChildClusters ∧
    (∀ v, v ∈ (nb.foldl exploreFirstChildNeighbor es).firstChildCluster ↔
      v ∈ es.firstChildCluster ∨ v ∈ nb) ∧
    (nb.foldl exploreFirstChildNeighbor es).firstChildCluster.Nodup ∧
    (∀ v, v ∈ (nb.foldl exploreFirstChildNeighbor es).unexploredFirstChildClusterPoints ↔
      v ∈ es.unexploredFirstChildClusterPoints ∨ (v ∈ nb ∧ v ∉ es.firstChildCluster)) ∧
    (nb.foldl exploreFirstChildNeighbor es).unexploredFirstChildClusterPoints.length +
        es.firstChildCluster.length ≤
      es.unexploredFirstChildClusterPoints.length +
        (nb.foldl exploreFirstChildNeighbor es).firstChildCluster.length := by
  induction nb generalizing es with
  | nil => simp [hF]
  | cons x nb ih =>
    rw [List.foldl_cons]
    by_cases hx : x ∈ es.firstChildCluster
    · have he : exploreFirstChildNeighbor es x = es := by
        unfold exploreFirstChildNeighbor; rw [if_pos hx]
      rw [he]
      obtain ⟨h1, h2, h3, h4, h5, h6⟩ := ih es hF
      refine ⟨h1, h2, ?_, h4, ?_, h6⟩
      · intro v
        rw [h3 v]
        simp only [List.mem_cons]
        by_cases hvx : v = x
        · subst hvx; tauto
        · tauto
      · intro v
        rw [h5 v]
        simp only [List.mem_cons]
        by_cases hvx : v = x
        · subst hvx; tauto
        · tauto
    · have he : exploreFirstChildNeighbor es x =
          { es with
            firstChildCluster := es.firstChildCluster ++ [x]
            unexploredFirstChildClusterPoints :=
              set_insert es.unexploredFirstChildClusterPoints x } := by
        unfold exploreFirstChildNeighbor; rw [if_neg hx]
      rw [he]
      have hF' : (es.firstChildCluster ++ [x]).Nodup :=
        List.Nodup.append hF (List.nodup_singleton x) (by
          intro a ha hb
          rw [List.mem_singleton] at hb
          subst hb
          exact hx ha)
      obtain ⟨h1, h2, h3, h4, h5, h6⟩ :=
        ih { es with
            firstChildCluster := es.firstChildCluster ++ [x]
            unexploredFirstChildClusterPoints :=
              set_insert es.unexploredFirstChildClusterPoints x } hF'
      refine ⟨h1, h2, ?_, h4, ?_, ?_⟩
      · intro v
        rw [h3 v]
        simp only [List.mem_append, List.mem_singleton, List.mem_cons]
        tauto
      · intro v
        rw [h5 v]
        simp only [List.mem_append, List.mem_singleton, List.mem_cons, set_insert_mem]
        by_cases hvx : v = x
        · subst hvx; tauto
        · tauto
      · have := set_insert_length_le es.unexploredFirstChildClusterPoints x
        simp only [List.length_append, List.length_singleton] at h6
        omega

theorem exploreCore_step (edges : List (List Nat)) (N r : Nat) (ex0 : List Nat)
    (hsym : ∀ u v, v ∈ edges.getD u [] → u ∈ edges.getD v [])
    (hlt : ∀ u v, v ∈ edges.getD u [] → v < N)
    (es : ExamineState) (x : Nat)
    (hx : es.unexploredSubClusterPoints.getLast? = some x)
    (h : ExploreCore edges N r ex0 es.constructingSubCluster es.unexploredSubClusterPoints
      es.anyEdges es.examinedVertices) :
    ExploreCore edges N r ex0
      ((edges.getD x []).foldl exploreNeighbor
        { es with unexploredSubClusterPoints := es.unexploredSubClusterPoints.dropLast }).constructingSubCluster
      ((edges.getD x []).foldl exploreNeighbor
        { es with unexploredSubClusterPoints := es.unexploredSubClusterPoints.dropLast }).unexploredSubClusterPoints
      ((edges.getD x []).foldl exploreNeighbor
        { es with unexploredSubClusterPoints := es.unexploredSubClusterPoints.dropLast }).anyEdges
      ((edges.getD x []).foldl exploreNeighbor
        { es with unexploredSubClusterPoints := es.unexploredSubClusterPoints.dropLast }).examinedVertices := by
  obtain ⟨_, _, _, _, h5, h6, h7, h8, _, h10, h11⟩ :=
    exploreNeighbor_fold (edges.getD x [])
      { es with unexploredSubClusterPoints := es.unexploredSubClusterPoints.dropLast }
      h.ex_nodup h.nodup
  simp only at h5 h6 h8 h11
  have hU : es.unexploredSubClusterPoints = es.unexploredSubClusterPoints.dropLast ++ [x] :=
    (List.dropLast_append_getLast? x hx).symm
  have hxU : x ∈ es.unexploredSubClusterPoints := List.mem_of_mem_getLast? hx
  have hxC : x ∈ es.constructingSubCluster := h.unexplored_mem x hxU
  have hUmem : ∀ v, v ∈ es.unexploredSubClusterPoints →
      v ∈ es.unexploredSubClusterPoints.dropLast ∨ v = x := by
    intro v hv
    rw [hU] at hv
    simpa using hv
  refine ⟨?_, h7, ?_, ?_, ?_, ?_, ?_, ?_, ?_, h10, ?_, ?_⟩
  · exact (h6 r).mpr (Or.inl h.root_mem)
  · intro v hv
    rcases (h6 v).mp hv with hv | hv
    · exact h.lt v hv
    · exact hlt x v hv
  · intro S hS u hu v hv hSu
    have hSx_of : ∀ w, w ∈ edges.getD x [] → S w → S x :=
      fun w hw hSw => hS w x (hsym x w hw) hSw
    have hSx : S x := by
      rcases (h6 u).mp hu with hu | hu
      · exact h.comp S hS u hu x hxC hSu
      · exact hSx_of u hu hSu
    rcases (h6 v).mp hv with hv | hv
    · exact h.comp S hS x hxC v hv hSx
    · exact hS x v hv hSx
  · intro u hu hnu v hv
    rw [h8] at hnu
    have huC : u ∈ es.constructingSubCluster := by
      rcases (h6 u).mp hu with hu | hu
      · exact hu
      · by_contra hc
        exact hnu (Or.inr ⟨hu, hc⟩)
    by_cases huU : u ∈ es.unexploredSubClusterPoints
    · rcases hUmem u huU with hd | hd
      · exact absurd (Or.inl hd) hnu
      · subst hd
        exact (h6 v).mpr (Or.inr hv)
    · exact (h6 v).mpr (Or.inl (h.closed u huC huU v hv))
  · intro v hv
    rcases (h8 v).mp hv with hv | hv
    · exact (h6 v).mpr (Or.inl (h.unexplored_mem v (List.mem_of_mem_dropLast hv)))
    · exact (h6 v).mpr (Or.inr hv.1)
  · intro ha
    rcases h5.mp ha with ha | ha
    · exact h.any_root ha
    · by_cases hxr : x = r
      · rw [← hxr]; exact ha
      · exact (h.nonroot x hxC hxr).1
  · intro v hv hvr
    rcases (h6 v).mp hv with hv | hv
    · exact h.nonroot v hv hvr
    · have hvne : edges.getD v [] ≠ [] := List.ne_nil_of_mem (hsym x v hv)
      refine ⟨?_, hvne⟩
      by_cases hxr : x = r
      · rw [← hxr]; exact List.ne_nil_of_mem hv
      · exact (h.nonroot x hxC hxr).1
  · intro hr hne
    rw [h8] at hr
    apply h5.mpr
    by_cases hrU : r ∈ es.unexploredSubClusterPoints
    · rcases hUmem r hrU with hd | hd
      · exact absurd (Or.inl hd) hr
      · right; rw [← hd]; exact hne
    · exact Or.inl (h.root_any hrU hne)
  · intro v hv
    obtain ⟨hv1, hv2⟩ := (h11 v).mp hv
    have := h.ex_sub v hv1
    refine ⟨this.1, ?_⟩
    intro hc
    rcases (h6 v).mp hc with hc | hc
    · exact this.2 hc
    · rcases hv2 with hv2 | hv2
      · exact this.2 hv2
      · exact hv2 hc
  · intro v hv
    rcases h.ex_keep v hv with hk | hk
    · by_cases hnb : v ∈ edges.getD x []
      · exact Or.inr ((h6 v).mpr (Or.inr hnb))
      · exact Or.inl ((h11 v).mpr ⟨hk, Or.inr hnb⟩)
    · exact Or.inr ((h6 v).mpr (Or.inl hk))

theorem exploreLoop_spec (edges : List (List Nat)) (N minPoints r : Nat) (ex0 F0 UF0 : List Nat)
    (cnt0 : Nat)
    (hsym : ∀ u v, v ∈ edges.getD u [] → u ∈ edges.getD v [])
    (hlt : ∀ u v, v ∈ edges.getD u [] → v < N) (hUF0 : UF0.Nodup) :
    ∀ (fuel : Nat) (es : ExamineState),
      ExploreCore edges N r ex0 es.constructingSubCluster es.unexploredSubClusterPoints
        es.anyEdges es.examinedVertices →
      ExploreCount minPoints F0 UF0 cnt0 es →
      es.unexploredSubClusterPoints.length + N ≤ es.constructingSubCluster.length + fuel →
      ∃ es1, exploreLoop edges minPoints fuel es = some es1 ∧
        ExploreCore edges N r ex0 es1.constructingSubCluster es1.unexploredSubClusterPoints
          es1.anyEdges es1.examinedVertices ∧
        ((es1.unexploredSubClusterPoints = [] ∧ ExploreCount minPoints F0 UF0 cnt0 es1) ∨
          (F0 = [] ∧ es1.firstChildCluster = es1.constructingSubCluster ∧
            (∀ v, v ∈ es1.unexploredFirstChildClusterPoints ↔
              v ∈ UF0 ∨ v ∈ es1.unexploredSubClusterPoints) ∧
            es1.numChildClusters = cnt0 + 1 ∧
            minPoints ≤ es1.constructingSubCluster.length ∧ es1.anyEdges = true ∧
            es1.unexploredFirstChildClusterPoints.Nodup)) := by
  intro fuel
  induction fuel with
  | zero =>
    intro es hcore hcount hm
    have hC := nodup_length_le _ N hcore.nodup hcore.lt
    have hU : es.unexploredSubClusterPoints = [] := List.length_eq_zero.mp (by omega)
    refine ⟨es, ?_, hcore, Or.inl ⟨hU, hcount⟩⟩
    unfold exploreLoop
    rw [if_pos hU]
  | succ fuel ih =>
    intro es hcore hcount hm
    unfold exploreLoop
    cases hlast : es.unexploredSubClusterPoints.getLast? with
    | none =>
      have hU : es.unexploredSubClusterPoints = [] := List.getLast?_eq_none_iff.mp hlast
      exact ⟨es, rfl, hcore, Or.inl ⟨hU, hcount⟩⟩
    | some x =>
      simp only
      have hstep := exploreCore_step edges N r ex0 hsym hlt es x hlast hcore
      obtain ⟨h1, h2, h3, h4, h5, h6, h7, h8, h9, h10, h11⟩ :=
        exploreNeighbor_fold (edges.getD x [])
          { es with unexploredSubClusterPoints := es.unexploredSubClusterPoints.dropLast }
          hcore.ex_nodup hcore.nodup
      simp only at h1 h2 h3 h4 h5 h9
      have hxU : x ∈ es.unexploredSubClusterPoints := List.mem_of_mem_getLast? hlast
      have hUpos : 0 < es.unexploredSubClusterPoints.length := List.length_pos_of_mem hxU
      rw [List.length_dropLast] at h9
      generalize hes1 : (edges.getD x []).foldl exploreNeighbor
          { es with unexploredSubClusterPoints := es.unexploredSubClusterPoints.dropLast } = es1
        at hstep h1 h2 h3 h4 h5 h6 h7 h8 h9 h10 h11 ⊢
      have hmono : es.constructingSubCluster.length ≤ es1.constructingSubCluster.length :=
        nodup_subset_length_le _ _ hcore.nodup (fun v hv => (h6 v).mpr (Or.inl hv))
      by_cases hcond : es1.incrementedChildCount = false ∧
          es1.constructingSubCluster.length ≥ minPoints ∧ es1.anyEdges = true
      · rw [if_pos hcond]
        have hinc : es.incrementedChildCount = false := by rw [← h4]; exact hcond.1
        have hcnt : es1.numChildClusters = cnt0 := by
          rw [h3, hcount.cnt, hinc]; simp
        by_cases hF : es1.firstChildCluster.length = 0
        · rw [if_pos hF]
          have hF0 : F0 = [] := by
            rw [← hcount.first_eq, ← h1]; exact List.length_eq_zero.mp hF
          have hFnil : es1.firstChildCluster = [] := List.length_eq_zero.mp hF
          refine ⟨_, rfl, hstep, Or.inr ⟨hF0, ?_, ?_, ?_, hcond.2.1, hcond.2.2, ?_⟩⟩
          · show es1.constructingSubCluster.foldl set_insert es1.firstChildCluster = _
            rw [hFnil]
            exact foldl_set_insert_nil _ h7
          · intro v
            show v ∈ es1.unexploredSubClusterPoints.foldl set_insert
              es1.unexploredFirstChildClusterPoints ↔ _
            rw [foldl_set_insert_mem, h2, hcount.unex_eq]
          · show es1.numChildClusters + 1 = cnt0 + 1
            rw [hcnt]
          · show (es1.unexploredSubClusterPoints.foldl set_insert
              es1.unexploredFirstChildClusterPoints).Nodup
            apply foldl_set_insert_nodup
            rw [h2, hcount.unex_eq]
            exact hUF0
        · rw [if_neg hF]
          apply ih
          · exact hstep
          · refine ⟨?_, ?_, ?_, ?_, ?_⟩
            · show true = true ↔ _
              simp only [true_iff]
              exact ⟨hcond.2.1, hcond.2.2⟩
            · intro _ hF0
              apply hF
              rw [h1, hcount.first_eq, hF0]
              rfl
            · show es1.firstChildCluster = F0
              rw [h1, hcount.first_eq]
            · show es1.unexploredFirstChildClusterPoints = UF0
              rw [h2, hcount.unex_eq]
            · show es1.numChildClusters + 1 = cnt0 + if true = true then 1 else 0
              rw [hcnt]; simp
          · show es1.unexploredSubClusterPoints.length + N ≤
              es1.constructingSubCluster.length + fuel
            omega
      · rw [if_neg hcond]
        apply ih
        · exact hstep
        · refine ⟨?_, ?_, ?_, ?_, ?_⟩
          · rw [h4]
            constructor
            · intro hi
              have := hcount.inc_iff.mp hi
              exact ⟨by omega, h5.mpr (Or.inl this.2)⟩
            · intro hv
              by_contra hi
              apply hcond
              refine ⟨?_, hv.1, hv.2⟩
              rw [h4]
              simpa using hi
          · rw [h4]; exact hcount.inc_first
          · rw [h1, hcount.first_eq]
          · rw [h2, hcount.unex_eq]
          · rw [h3, h4]; exact hcount.cnt
        · omega

theorem exploreFirstChild_spec (edges : List (List Nat)) (N : Nat)
    (hsym : ∀ u v, v ∈ edges.getD u [] → u ∈ edges.getD v [])
    (hlt : ∀ u v, v ∈ edges.getD u [] → v < N) :
    ∀ (fuel : Nat) (es : ExamineState),
      FirstCore edges N es.firstChildCluster es.unexploredFirstChildClusterPoints →
      es.unexploredFirstChildClusterPoints.length + N ≤ es.firstChildCluster.length + fuel →
      ∃ es1, exploreFirstChild edges fuel es = some es1 ∧
        FirstCore edges N es1.firstChildCluster [] ∧
        (∀ v, v ∈ es.firstChildCluster → v ∈ es1.firstChildCluster) := by
  intro fuel
  induction fuel with
  | zero =>
    intro es hcore hm
    have hC := nodup_length_le _ N hcore.nodup hcore.lt
    have hU : es.unexploredFirstChildClusterPoints = [] := List.length_eq_zero.mp (by omega)
    refine ⟨es, ?_, ?_, fun v hv => hv⟩
    · unfold exploreFirstChild
      rw [if_pos hU]
    · rw [← hU]; exact hcore
  | succ fuel ih =>
    intro es hcore hm
    unfold exploreFirstChild
    cases hlast : es.unexploredFirstChildClusterPoints.getLast? with
    | none =>
      have hU : es.unexploredFirstChildClusterPoints = [] := List.getLast?_eq_none_iff.mp hlast
      refine ⟨es, rfl, ?_, fun v hv => hv⟩
      rw [← hU]; exact hcore
    | some x =>
      simp only
      obtain ⟨_, _, h3, h4, h5, h6⟩ :=
        exploreFirstChildNeighbor_fold (edges.getD x [])
          { es with
            unexploredFirstChildClusterPoints := es.unexploredFirstChildClusterPoints.dropLast }
          hcore.nodup
      simp only at h3 h5 h6
      have hU : es.unexploredFirstChildClusterPoints =
          es.unexploredFirstChildClusterPoints.dropLast ++ [x] :=
        (List.dropLast_append_getLast? x hlast).symm
      have hxU : x ∈ es.unexploredFirstChildClusterPoints := List.mem_of_mem_getLast? hlast
      have hxF : x ∈ es.firstChildCluster := hcore.unexplored_mem x hxU
      have hUpos : 0 < es.unexploredFirstChildClusterPoints.length := List.length_pos_of_mem hxU
      have hUmem : ∀ v, v ∈ es.unexploredFirstChildClusterPoints →
          v ∈ es.unexploredFirstChildClusterPoints.dropLast ∨ v = x := by
        intro v hv
        rw [hU] at hv
        simpa using hv
      rw [List.length_dropLast] at h6
      generalize hes1 : (edges.getD x []).foldl exploreFirstChildNeighbor
          { es with
            unexploredFirstChildClusterPoints :=
              es.unexploredFirstChildClusterPoints.dropLast } = es1
        at h3 h4 h5 h6 ⊢
      have hcore1 : FirstCore edges N es1.firstChildCluster
          es1.unexploredFirstChildClusterPoints := by
        refine ⟨?_, h4, ?_, ?_, ?_, ?_, ?_⟩
        · exact List.ne_nil_of_mem ((h3 x).mpr (Or.inl hxF))
        · intro v hv
          rcases (h3 v).mp hv with hv | hv
          · exact hcore.lt v hv
          · exact hlt x v hv
        · intro S hS u hu v hv hSu
          have hSx : S x := by
            rcases (h3 u).mp hu with hu | hu
            · exact hcore.comp S hS u hu x hxF hSu
            · exact hS u x (hsym x u hu) hSu
          rcases (h3 v).mp hv with hv | hv
          · exact hcore.comp S hS x hxF v hv hSx
          · exact hS x v hv hSx
        · intro u hu hnu v hv
          rw [h5] at hnu
          have huF : u ∈ es.firstChildCluster := by
            rcases (h3 u).mp hu with hu | hu
            · exact hu
            · by_contra hc
              exact hnu (Or.inr ⟨hu, hc⟩)
          by_cases huU : u ∈ es.unexploredFirstChildClusterPoints
          · rcases hUmem u huU with hd | hd
            · exact absurd (Or.inl hd) hnu
            · subst hd
              exact (h3 v).mpr (Or.inr hv)
          · exact (h3 v).mpr (Or.inl (hcore.closed u huF huU v hv))
        · intro v hv
          rcases (h5 v).mp hv with hv | hv
          · exact (h3 v).mpr (Or.inl (hcore.unexplored_mem v (List.mem_of_mem_dropLast hv)))
          · exact (h3 v).mpr (Or.inr hv.1)
        · intro v hv
          rcases (h3 v).mp hv with hv | hv
          · exact hcore.nonempty v hv
          · exact List.ne_nil_of_mem (hsym x v hv)
      obtain ⟨es2, he2, hc2, hsub2⟩ := ih es1 hcore1 (by omega)
      exact ⟨es2, he2, hc2, fun v hv => hsub2 v ((h3 v).mpr (Or.inl hv))⟩

theorem foldl_incr_length (points w : List Nat) :
    (points.foldl (fun w point => w.set point (w.getD point 0 + 1)) w).length = w.length := by
  induction points generalizing w with
  | nil => rfl
  | cons x l ih => rw [List.foldl_cons, ih, List.length_set]

theorem foldl_incr_getD (points w : List Nat) (hnd : points.Nodup)
    (hlt : ∀ p, p ∈ points → p < w.length) (v : Nat) :
    (points.foldl (fun w point => w.set point (w.getD point 0 + 1)) w).getD v 0 =
      if v ∈ points then w.getD v 0 + 1 else w.getD v 0 := by
  induction points generalizing w with
  | nil => simp
  | cons x l ih =>
    have hnd' := List.nodup_cons.mp hnd
    rw [List.foldl_cons, ih _ hnd'.2 (fun p hp => by
      rw [List.length_set]; exact hlt p (List.mem_cons_of_mem _ hp))]
    rw [getD_set_eq]
    by_cases hvl : v ∈ l
    · have hxv : x ≠ v := fun h => hnd'.1 (h ▸ hvl)
      rw [if_pos hvl, if_neg (fun h => hxv h.1), if_pos (List.mem_cons_of_mem _ hvl)]
    · rw [if_neg hvl]
      by_cases hxv : x = v
      · subst hxv
        rw [if_pos ⟨rfl, hlt x (List.mem_cons_self _ _)⟩, if_pos (List.mem_cons_self _ _)]
      · rw [if_neg (fun h => hxv h.1), if_neg]
        intro h
        rcases List.mem_cons.mp h with h | h
        · exact hxv h.symm
        · exact hvl h

theorem createChildCluster_core {α : Type} [LinearOrderedField α] (pos : Prop) (N : Nat)
    (A B : List Nat) (Wts : List α) (D_MAX W : α) (st : HierarchyState α) (C : List Nat) (L : Nat)
    (hcore : HierCore pos N A B Wts st) (hL : 1 ≤ L) (hLn : L < st.nextClusterLabel)
    (hnd : C.Nodup) (hne : C ≠ [])
    (hC : ∀ v, v ∈ C → v < N ∧ st.currentClusterLabels.getD v 0 = L)
    (hclosed : ∀ u, u ∈ C → ∀ v, v ∈ st.mst.edges.getD u [] → v ∈ C) :
    HierCore pos N A B Wts (createChildCluster D_MAX st C L W) ∧
    (createChildCluster D_MAX st C L W).mst = st.mst ∧
    (createChildCluster D_MAX st C L W).edgeCount = st.edgeCount ∧
    (createChildCluster D_MAX st C L W).affectedVertices = st.affectedVertices ∧
    (createChildCluster D_MAX st C L W).nextClusterLabel = st.nextClusterLabel + 1 ∧
    (∀ v, (createChildCluster D_MAX st C L W).currentClusterLabels.getD v 0 =
      if v ∈ C then st.nextClusterLabel else st.currentClusterLabels.getD v 0) := by
  have hCl : ∀ p, p ∈ C → p < st.currentClusterLabels.length ∧
      st.currentClusterLabels.getD p 0 = L := by
    intro p hp
    rw [hcore.labels_len]
    exact hC p hp
  obtain ⟨hlab, hok⟩ := create_child_ok pos D_MAX W st.clusters st.currentClusterLabels C L
    st.nextClusterLabel hcore.clusters hL hLn hnd hne hCl
  have hget : ∀ v, (createChildCluster D_MAX st C L W).currentClusterLabels.getD v 0 =
      if v ∈ C then st.nextClusterLabel else st.currentClusterLabels.getD v 0 := by
    intro v
    show (hdbscan_create_new_cluster D_MAX st.clusters C st.currentClusterLabels L
      st.nextClusterLabel W).2.1.getD v 0 = _
    rw [hlab, relabel_getD]
    by_cases hv : v ∈ C
    · rw [if_pos ⟨hv, (hCl v hv).1⟩, if_pos hv]
    · rw [if_neg (fun h => hv h.1), if_neg hv]
  have hnext : st.nextClusterLabel ≠ 0 := by have := hcore.clusters.two_le; omega
  refine ⟨⟨hcore.numVertices, hcore.vA, hcore.vB, hcore.vW, hcore.count_le, hcore.graph, ?_, ?_,
    hcore.writes_len, ?_, ?_⟩, rfl, rfl, rfl, rfl, hget⟩
  · show (hdbscan_create_new_cluster D_MAX st.clusters C st.currentClusterLabels L
      st.nextClusterLabel W).2.1.length = N
    rw [hlab, relabel_length, hcore.labels_len]
  · show ClustersOk pos
      ((hdbscan_create_new_cluster D_MAX st.clusters C st.currentClusterLabels L
          st.nextClusterLabel W).1 ++
        [(hdbscan_create_new_cluster D_MAX st.clusters C st.currentClusterLabels L
          st.nextClusterLabel W).2.2])
      (hdbscan_create_new_cluster D_MAX st.clusters C st.currentClusterLabels L
          st.nextClusterLabel W).2.1 (st.nextClusterLabel + 1)
    rw [hlab]
    exact hok
  · intro v hv
    rw [hget v]
    show st.noiseWrites.getD v 0 = _
    rw [hcore.writes v hv]
    by_cases hvC : v ∈ C
    · rw [if_pos hvC, (hC v hvC).2, if_neg (by omega), if_neg hnext]
    · rw [if_neg hvC]
  · intro u v huv
    have huv' : v ∈ st.mst.edges.getD u [] := huv
    rw [hget u, hget v]
    by_cases huC : u ∈ C
    · rw [if_pos huC, if_pos (hclosed u huC v huv')]
    · have hvC : v ∉ C := fun hvC => huC (hclosed v hvC u (hcore.graph.symm huv'))
      rw [if_neg huC, if_neg hvC]
      exact hcore.same u v huv'

theorem assignNoise_core {α : Type} [LinearOrderedField α] (pos : Prop) (N : Nat)
    (A B : List Nat) (Wts : List α) (D_MAX W : α) (st : HierarchyState α) (C : List Nat) (L : Nat)
    (hcore : HierCore pos N A B Wts st) (hL : 1 ≤ L) (hLn : L < st.nextClusterLabel)
    (hnd : C.Nodup) (hW : pos → 0 < W)
    (hC : ∀ v, v ∈ C → v < N ∧ st.currentClusterLabels.getD v 0 = L)
    (hclosed : ∀ u, u ∈ C → ∀ v, v ∈ st.mst.edges.getD u [] → v ∈ C) :
    HierCore pos N A B Wts (assignNoise D_MAX st C L W) ∧
    (assignNoise D_MAX st C L W).mst = st.mst ∧
    (assignNoise D_MAX st C L W).edgeCount = st.edgeCount ∧
    (assignNoise D_MAX st C L W).affectedVertices = st.affectedVertices ∧
    (assignNoise D_MAX st C L W).nextClusterLabel = st.nextClusterLabel ∧
    (∀ v, (assignNoise D_MAX st C L W).currentClusterLabels.getD v 0 =
      if v ∈ C then 0 else st.currentClusterLabels.getD v 0) := by
  have hCl : ∀ p, p ∈ C → p < st.currentClusterLabels.length ∧
      st.currentClusterLabels.getD p 0 = L := by
    intro p hp
    rw [hcore.labels_len]
    exact hC p hp
  obtain ⟨hlab, hok⟩ := assign_noise_ok pos D_MAX W st.clusters st.currentClusterLabels C L
    st.nextClusterLabel hcore.clusters hL hLn hnd hW hCl
  have hget : ∀ v, (assignNoise D_MAX st C L W).currentClusterLabels.getD v 0 =
      if v ∈ C then 0 else st.currentClusterLabels.getD v 0 := by
    intro v
    show (hdbscan_create_new_cluster D_MAX st.clusters C st.currentClusterLabels L
      0 W).2.1.getD v 0 = _
    rw [hlab, relabel_getD]
    by_cases hv : v ∈ C
    · rw [if_pos ⟨hv, (hCl v hv).1⟩, if_pos hv]
    · rw [if_neg (fun h => hv h.1), if_neg hv]
  refine ⟨⟨hcore.numVertices, hcore.vA, hcore.vB, hcore.vW, hcore.count_le, hcore.graph, ?_, ?_,
    ?_, ?_, ?_⟩, rfl, rfl, rfl, rfl, hget⟩
  · show (hdbscan_create_new_cluster D_MAX st.clusters C st.currentClusterLabels L
      0 W).2.1.length = N
    rw [hlab, relabel_length, hcore.labels_len]
  · show ClustersOk pos
      (hdbscan_create_new_cluster D_MAX st.clusters C st.currentClusterLabels L 0 W).1
      (hdbscan_create_new_cluster D_MAX st.clusters C st.currentClusterLabels L 0 W).2.1
      st.nextClusterLabel
    rw [hlab]
    exact hok
  · show (C.foldl (fun w point => w.set point (w.getD point 0 + 1)) st.noiseWrites).length = N
    rw [foldl_incr_length, hcore.writes_len]
  · intro v hv
    rw [hget v]
    show (C.foldl (fun w point => w.set point (w.getD point 0 + 1)) st.noiseWrites).getD v 0 = _
    rw [foldl_incr_getD C st.noiseWrites hnd
      (fun p hp => by rw [hcore.writes_len]; exact (hC p hp).1), hcore.writes v hv]
    by_cases hvC : v ∈ C
    · rw [if_pos hvC, if_pos hvC, (hC v hvC).2, if_neg (by omega), if_pos rfl]
    · rw [if_neg hvC, if_neg hvC]
  · intro u v huv
    have huv' : v ∈ st.mst.edges.getD u [] := huv
    rw [hget u, hget v]
    by_cases huC : u ∈ C
    · rw [if_pos huC, if_pos (hclosed u huC v huv')]
    · have hvC : v ∉ C := fun hvC => huC (hclosed v hvC u (hcore.graph.symm huv'))
      rw [if_neg huC, if_neg hvC]
      exact hcore.same u v huv'

theorem getLastD_mem (l : List Nat) (h : l ≠ []) : l.getLastD 0 ∈ l := by
  cases l with
  | nil => exact absurd rfl h
  | cons x l =>
    rw [List.getLastD_cons]
    induction l generalizing x with
    | nil => simp
    | cons y l ih =>
      rw [List.getLastD_cons]
      exact List.mem_cons_of_mem _ (ih y (by simp))

theorem resolveSubCluster_spec {α : Type} [LinearOrderedField α] (pos : Prop) (N : Nat)
    (A B : List Nat) (Wts : List α) (D_MAX W : α) (minPoints L : Nat) (pend : List Nat)
    (st : HierarchyState α) (es es1 : ExamineState) (r : Nat)
    (hinv : RootsInv pos N A B Wts minPoints L pend st es)
    (hr : es.examinedVertices.getLast? = some r)
    (hW : pos → 0 < W)
    (hcore1 : ExploreCore st.mst.edges N r es.examinedVertices.dropLast
      es1.constructingSubCluster es1.unexploredSubClusterPoints es1.anyEdges
      es1.examinedVertices)
    (hres : (es1.unexploredSubClusterPoints = [] ∧
        ExploreCount minPoints es.firstChildCluster es.unexploredFirstChildClusterPoints
          es.numChildClusters es1) ∨
      (es.firstChildCluster = [] ∧ es1.firstChildCluster = es1.constructingSubCluster ∧
        (∀ v, v ∈ es1.unexploredFirstChildClusterPoints ↔
          v ∈ es.unexploredFirstChildClusterPoints ∨ v ∈ es1.unexploredSubClusterPoints) ∧
        es1.numChildClusters = es.numChildClusters + 1 ∧
        minPoints ≤ es1.constructingSubCluster.length ∧ es1.anyEdges = true ∧
        es1.unexploredFirstChildClusterPoints.Nodup)) :
    RootsInv pos N A B Wts minPoints L pend
      (resolveSubCluster D_MAX minPoints st es1 L W).1
      (resolveSubCluster D_MAX minPoints st es1 L W).2 ∧
    (resolveSubCluster D_MAX minPoints st es1 L W).2.examinedVertices = es1.examinedVertices ∧
    (resolveSubCluster D_MAX minPoints st es1 L W).1.mst = st.mst ∧
    (resolveSubCluster D_MAX minPoints st es1 L W).1.edgeCount = st.edgeCount ∧
    (resolveSubCluster D_MAX minPoints st es1 L W).1.affectedVertices = st.affectedVertices := by
  have hexeq : es.examinedVertices = es.examinedVertices.dropLast ++ [r] :=
    (List.dropLast_append_getLast? r hr).symm
  have hrex : r ∈ es.examinedVertices := List.mem_of_mem_getLast? hr
  have hrL := hinv.ex r hrex
  have hsym : ∀ u v, v ∈ st.mst.edges.getD u [] → u ∈ st.mst.edges.getD v [] :=
    fun u v h => hinv.core.graph.symm h
  -- the labels of the sub cluster
  have hlabC : ∀ v, v ∈ es1.constructingSubCluster →
      v < N ∧ st.currentClusterLabels.getD v 0 = L := by
    intro v hv
    refine ⟨hcore1.lt v hv, ?_⟩
    exact hcore1.comp (fun w => st.currentClusterLabels.getD w 0 = L)
      (fun a b hab ha => by
        show st.currentClusterLabels.getD b 0 = L
        rw [← hinv.core.same a b hab]; exact ha)
      r hcore1.root_mem v hv hrL.2
  have hex_ne : ∀ v, v ∈ es.examinedVertices.dropLast → v ≠ r := by
    intro v hv hvr
    have hnd := hinv.ex_nodup
    rw [hexeq] at hnd
    exact (List.nodup_append.mp hnd).2.2 hv (List.mem_singleton.mpr hvr)
  have hex_cases : ∀ v, v ∈ es.examinedVertices → st.mst.edges.getD v [] = [] →
      v = r ∨ v ∈ es1.examinedVertices := by
    intro v hv hiso
    rw [hexeq] at hv
    rcases List.mem_append.mp hv with hv | hv
    · rcases hcore1.ex_keep v hv with hk | hk
      · exact Or.inr hk
      · exact absurd hiso (hcore1.nonroot v hk (hex_ne v hv)).2
    · exact Or.inl (List.mem_singleton.mp hv)
  have hex1 : ∀ v, v ∈ es1.examinedVertices →
      v < N ∧ st.currentClusterLabels.getD v 0 = L ∧ v ∉ es1.constructingSubCluster := by
    intro v hv
    have := hcore1.ex_sub v hv
    have h2 := hinv.ex v (List.mem_of_mem_dropLast this.1)
    exact ⟨h2.1, h2.2, this.2⟩
  have haffC : ∀ v, v ∈ st.affectedVertices → v ∉ es1.constructingSubCluster := by
    intro v hv hvC
    exact (hinv.aff v hv).2.1 (hlabC v hvC).2
  -- a sub cluster that meets the first child cluster contains it
  have hmeet : ∀ f, f ∈ es.firstChildCluster → f ∈ es1.constructingSubCluster →
      es1.unexploredSubClusterPoints = [] →
      FirstCore st.mst.edges N es.firstChildCluster es.unexploredFirstChildClusterPoints →
      ∀ v, v ∈ es.firstChildCluster → v ∈ es1.constructingSubCluster := by
    intro f hf hfC hU hfirst v hv
    exact hfirst.comp (fun w => w ∈ es1.constructingSubCluster)
      (fun a b hab ha => hcore1.closed a ha (by rw [hU]; simp) b hab) f hf v hv hfC
  unfold resolveSubCluster
  rcases hres with ⟨hU, hcount⟩ | ⟨hF0, hF1, hUF1, hcnt1, hsize1, hany1, hUFnd⟩
  · -- the exploration has come to its end
    have hclosedAll : ∀ u, u ∈ es1.constructingSubCluster → ∀ v,
        v ∈ st.mst.edges.getD u [] → v ∈ es1.constructingSubCluster :=
      fun u hu v hv => hcore1.closed u hu (by rw [hU]; simp) v hv
    by_cases hvalid : minPoints ≤ es1.constructingSubCluster.length ∧ es1.anyEdges = true
    · have hinc := hcount.inc_iff.mpr hvalid
      have hFne := hcount.inc_first hinc
      have hcnt := hcount.cnt
      rw [if_pos hinc] at hcnt
      rcases hinv.first with ⟨hnil, _, _⟩ | ⟨hc1, hfirst, hsz, hufnd, hlabF⟩
      · exact absurd hnil hFne
      · have hrne : st.mst.edges.getD r [] ≠ [] := hcore1.any_root hvalid.2
        have hiso_ex : ∀ v, v ∈ es.examinedVertices → st.mst.edges.getD v [] = [] →
            v ∈ es1.examinedVertices := by
          intro v hv hiso
          rcases hex_cases v hv hiso with h | h
          · subst h; exact absurd hiso hrne
          · exact h
        rw [if_pos ⟨by omega, hvalid.1, hvalid.2⟩]
        by_cases hmem : es1.firstChildCluster.getLastD 0 ∈ es1.constructingSubCluster
        · rw [if_pos hmem]
          refine ⟨⟨hinv.core, hinv.label_pos, hinv.label_lt, hinv.pend_ok, hinv.aff_nodup,
            hinv.aff, ?_, hcore1.ex_nodup, fun v hv => ⟨(hex1 v hv).1, (hex1 v hv).2.1⟩, ?_⟩,
            rfl, rfl, rfl, rfl⟩
          · intro v hv hiso
            rcases hinv.isolated v hv hiso with h | h | h
            · exact Or.inl h
            · exact Or.inr (Or.inl h)
            · exact Or.inr (Or.inr (hiso_ex v h hiso))
          · right
            refine ⟨?_, ?_, ?_, ?_, ?_⟩
            · show 1 ≤ es1.numChildClusters - 1
              omega
            · show FirstCore st.mst.edges N es1.firstChildCluster
                es1.unexploredFirstChildClusterPoints
              rw [hcount.first_eq, hcount.unex_eq]; exact hfirst
            · show minPoints ≤ es1.firstChildCluster.length
              rw [hcount.first_eq]; exact hsz
            · show es1.unexploredFirstChildClusterPoints.Nodup
              rw [hcount.unex_eq]; exact hufnd
            · show ∀ v, v ∈ es1.firstChildCluster → _
              rw [hcount.first_eq]; exact hlabF
        · rw [if_neg hmem]
          have hdisj : ∀ f, f ∈ es.firstChildCluster → f ∉ es1.constructingSubCluster := by
            intro f hf hfC
            apply hmem
            rw [hcount.first_eq]
            exact hmeet f hf hfC hU hfirst _ (getLastD_mem _ hFne)
          obtain ⟨hc, hmst, hec, haff, hnext, hget⟩ :=
            createChildCluster_core pos N A B Wts D_MAX W st es1.constructingSubCluster L
              hinv.core hinv.label_pos hinv.label_lt hcore1.nodup
              (List.ne_nil_of_mem hcore1.root_mem) hlabC hclosedAll
          refine ⟨⟨hc, hinv.label_pos, by rw [hnext]; have := hinv.label_lt; omega, ?_, ?_, ?_,
            ?_, hcore1.ex_nodup, ?_, ?_⟩, rfl, hmst, hec, haff⟩
          · intro L1 hL1
            rw [hnext]
            have := hinv.pend_ok L1 hL1
            omega
          · rw [haff]; exact hinv.aff_nodup
          · intro v hv
            rw [haff] at hv
            rw [hget v, if_neg (haffC v hv)]
            exact hinv.aff v hv
          · intro v hv hiso
            rw [hmst] at hiso
            rw [hget v, haff]
            have hvC : v ∉ es1.constructingSubCluster := by
              intro hvC
              by_cases hvr : v = r
              · subst hvr; exact hrne hiso
              · exact (hcore1.nonroot v hvC hvr).2 hiso
            rw [if_neg hvC]
            rcases hinv.isolated v hv hiso with h | h | h
            · exact Or.inl h
            · exact Or.inr (Or.inl h)
            · exact Or.inr (Or.inr (hiso_ex v h hiso))
          · intro v hv
            have := hex1 v hv
            rw [hget v, if_neg this.2.2]
            exact ⟨this.1, this.2.1⟩
          · right
            rw [hmst]
            refine ⟨show 1 ≤ es1.numChildClusters by omega, ?_, ?_, ?_, ?_⟩
            · rw [hcount.first_eq, hcount.unex_eq]; exact hfirst
            · rw [hcount.first_eq]; exact hsz
            · rw [hcount.unex_eq]; exact hufnd
            · rw [hcount.first_eq]
              intro v hv
              rw [hget v, if_neg (hdisj v hv)]
              exact hlabF v hv
    · have hinc : es1.incrementedChildCount = false := by
        cases h : es1.incrementedChildCount with
        | false => rfl
        | true => exact absurd (hcount.inc_iff.mp h) hvalid
      have hcnt := hcount.cnt
      rw [hinc] at hcnt
      simp only [Bool.false_eq_true, if_false, Nat.add_zero] at hcnt
      rw [if_neg (fun h => hvalid ⟨h.2.1, h.2.2⟩)]
      have hnv : es1.constructingSubCluster.length < minPoints ∨ es1.anyEdges = false := by
        by_cases hsz : es1.constructingSubCluster.length < minPoints
        · exact Or.inl hsz
        · right
          cases h : es1.anyEdges with
          | false => rfl
          | true => exact absurd ⟨by omega, h⟩ hvalid
      rw [if_pos hnv]
      have hdisj : ∀ f, f ∈ es.firstChildCluster → f ∉ es1.constructingSubCluster := by
        intro f hf hfC
        rcases hinv.first with ⟨hnil, _, _⟩ | ⟨hc1, hfirst, hsz, hufnd, hlabF⟩
        · rw [hnil] at hf; cases hf
        · apply hvalid
          have hsub := hmeet f hf hfC hU hfirst
          refine ⟨?_, ?_⟩
          · have := nodup_subset_length_le _ _ hfirst.nodup hsub
            omega
          · apply hcore1.root_any (by rw [hU]; simp)
            by_cases hfr : f = r
            · rw [← hfr]; exact hfirst.nonempty f hf
            · exact (hcore1.nonroot f hfC hfr).1
      obtain ⟨hc, hmst, hec, haff, hnext, hget⟩ :=
        assignNoise_core pos N A B Wts D_MAX W st es1.constructingSubCluster L
          hinv.core hinv.label_pos hinv.label_lt hcore1.nodup hW hlabC hclosedAll
      refine ⟨⟨hc, hinv.label_pos, by rw [hnext]; exact hinv.label_lt, ?_, ?_, ?_,
        ?_, hcore1.ex_nodup, ?_, ?_⟩, rfl, hmst, hec, haff⟩
      · intro L1 hL1
        rw [hnext]
        exact hinv.pend_ok L1 hL1
      · rw [haff]; exact hinv.aff_nodup
      · intro v hv
        rw [haff] at hv
        rw [hget v, if_neg (haffC v hv)]
        exact hinv.aff v hv
      · intro v hv hiso
        rw [hmst] at hiso
        rw [hget v, haff]
        by_cases hvC : v ∈ es1.constructingSubCluster
        · rw [if_pos hvC]; exact Or.inl rfl
        · rw [if_neg hvC]
          rcases hinv.isolated v hv hiso with h | h | h
          · exact Or.inl h
          · exact Or.inr (Or.inl h)
          · rcases hex_cases v h hiso with h2 | h2
            · subst h2; exact absurd hcore1.root_mem hvC
            · exact Or.inr (Or.inr h2)
      · intro v hv
        have := hex1 v hv
        rw [hget v, if_neg this.2.2]
        exact ⟨this.1, this.2.1⟩
      · rcases hinv.first with ⟨hnil, hz, hunil⟩ | ⟨hc1, hfirst, hsz, hufnd, hlabF⟩
        · left
          exact ⟨by rw [hcount.first_eq]; exact hnil, by rw [hcnt]; exact hz,
            by rw [hcount.unex_eq]; exact hunil⟩
        · right
          rw [hmst]
          refine ⟨show 1 ≤ es1.numChildClusters by omega, ?_, ?_, ?_, ?_⟩
          · rw [hcount.first_eq, hcount.unex_eq]; exact hfirst
          · rw [hcount.first_eq]; exact hsz
          · rw [hcount.unex_eq]; exact hufnd
          · rw [hcount.first_eq]
            intro v hv
            rw [hget v, if_neg (hdisj v hv)]
            exact hlabF v hv
  · -- the exploration has been left with the first valid child cluster
    rcases hinv.first with ⟨hnil, hz, hunil⟩ | ⟨hc1, hfirst, hsz, hufnd, hlabF⟩
    · have hcnt : es1.numChildClusters = 1 := by rw [hcnt1, hz]
      have hn1 : ¬(es1.numChildClusters ≥ 2 ∧ es1.constructingSubCluster.length ≥ minPoints ∧
          es1.anyEdges = true) := fun h => by omega
      have hn2 : ¬(es1.constructingSubCluster.length < minPoints ∨ es1.anyEdges = false) := by
        intro h
        rcases h with h | h
        · omega
        · rw [hany1] at h; cases h
      rw [if_neg hn1, if_neg hn2]
      have hrne : st.mst.edges.getD r [] ≠ [] := hcore1.any_root hany1
      refine ⟨⟨hinv.core, hinv.label_pos, hinv.label_lt, hinv.pend_ok, hinv.aff_nodup,
        hinv.aff, ?_, hcore1.ex_nodup, fun v hv => ⟨(hex1 v hv).1, (hex1 v hv).2.1⟩, ?_⟩,
        rfl, rfl, rfl, rfl⟩
      · intro v hv hiso
        rcases hinv.isolated v hv hiso with h | h | h
        · exact Or.inl h
        · exact Or.inr (Or.inl h)
        · rcases hex_cases v h hiso with h2 | h2
          · subst h2; exact absurd hiso hrne
          · exact Or.inr (Or.inr h2)
      · right
        refine ⟨show 1 ≤ es1.numChildClusters by omega, ?_, by rw [hF1]; exact hsize1, hUFnd,
          by rw [hF1]; exact fun v hv => (hlabC v hv).2⟩
        rw [hF1]
        refine ⟨List.ne_nil_of_mem hcore1.root_mem, hcore1.nodup, hcore1.lt, hcore1.comp, ?_, ?_, ?_⟩
        · intro u hu hnu v hv
          apply hcore1.closed u hu _ v hv
          intro hc
          exact hnu ((hUF1 u).mpr (Or.inr hc))
        · intro v hv
          rcases (hUF1 v).mp hv with h | h
          · rw [hunil] at h; cases h
          · exact hcore1.unexplored_mem v h
        · intro v hv
          by_cases hvr : v = r
          · rw [hvr]; exact hrne
          · exact (hcore1.nonroot v hv hvr).2
    · exact absurd hF0 hfirst.ne

theorem examineRoots_spec {α : Type} [LinearOrderedField α] (pos : Prop) (N : Nat)
    (A B : List Nat) (Wts : List α) (D_MAX W : α) (minPoints L : Nat) (pend : List Nat)
    (hW : pos → 0 < W) :
    ∀ (fuel : Nat) (st : HierarchyState α) (es : ExamineState),
      RootsInv pos N A B Wts minPoints L pend st es →
      es.examinedVertices.length ≤ fuel →
      ∃ st1 es1, examineRoots D_MAX minPoints L W fuel st es = some (st1, es1) ∧
        RootsInv pos N A B Wts minPoints L pend st1 es1 ∧
        es1.examinedVertices = [] ∧
        st1.mst = st.mst ∧ st1.edgeCount = st.edgeCount ∧
        st1.affectedVertices = st.affectedVertices := by
  intro fuel
  induction fuel with
  | zero =>
    intro st es hinv hlen
    have hnil : es.examinedVertices = [] := List.length_eq_zero.mp (by omega)
    refine ⟨st, es, ?_, hinv, hnil, rfl, rfl, rfl⟩
    unfold examineRoots
    rw [if_pos hnil]
  | succ fuel ih =>
    intro st es hinv hlen
    unfold examineRoots
    cases hlast : es.examinedVertices.getLast? with
    | none =>
      exact ⟨st, es, rfl, hinv, List.getLast?_eq_none_iff.mp hlast, rfl, rfl, rfl⟩
    | some r =>
      simp only
      have hexeq : es.examinedVertices = es.examinedVertices.dropLast ++ [r] :=
        (List.dropLast_append_getLast? r hlast).symm
      have hrex : r ∈ es.examinedVertices := List.mem_of_mem_getLast? hlast
      have hrL := hinv.ex r hrex
      have hnd0 : es.examinedVertices.dropLast.Nodup :=
        List.Nodup.sublist (List.dropLast_sublist _) hinv.ex_nodup
      have hex_ne : ∀ v, v ∈ es.examinedVertices.dropLast → v ≠ r := by
        intro v hv hvr
        have hnd := hinv.ex_nodup
        rw [hexeq] at hnd
        exact (List.nodup_append.mp hnd).2.2 hv (List.mem_singleton.mpr hvr)
      have hcore0 : ExploreCore st.mst.edges N r es.examinedVertices.dropLast [r] [r] false
          es.examinedVertices.dropLast := by
        refine ⟨List.mem_singleton_self r, List.nodup_singleton r, ?_, ?_, ?_, fun v hv => hv,
          ?_, ?_, ?_, hnd0, ?_, fun v hv => Or.inl hv⟩
        · intro v hv
          rw [List.mem_singleton.mp hv]; exact hrL.1
        · intro S _ u hu v hv hSu
          rw [List.mem_singleton.mp hv, ← List.mem_singleton.mp hu]; exact hSu
        · intro u hu hnu
          exact absurd hu hnu
        · intro h; cases h
        · intro v hv hvr
          exact absurd (List.mem_singleton.mp hv) hvr
        · intro h
          exact absurd (List.mem_singleton_self r) h
        · intro v hv
          exact ⟨hv, fun h => hex_ne v hv (List.mem_singleton.mp h)⟩
      have hcount0 : ExploreCount minPoints es.firstChildCluster
          es.unexploredFirstChildClusterPoints es.numChildClusters
          { es with
            examinedVertices := es.examinedVertices.dropLast
            constructingSubCluster := [r]
            unexploredSubClusterPoints := [r]
            anyEdges := false
            incrementedChildCount := false } := by
        refine ⟨?_, ?_, rfl, rfl, ?_⟩
        · simp
        · intro h; cases h
        · simp
      have hUF0 : es.unexploredFirstChildClusterPoints.Nodup := by
        rcases hinv.first with ⟨_, _, h⟩ | ⟨_, _, _, h, _⟩
        · rw [h]; exact List.nodup_nil
        · exact h
      obtain ⟨es1, hexp, hcore1, hres⟩ :=
        exploreLoop_spec st.mst.edges N minPoints r es.examinedVertices.dropLast
          es.firstChildCluster es.unexploredFirstChildClusterPoints es.numChildClusters
          (fun u v h => hinv.core.graph.symm h) (fun u v h => (hinv.core.graph.mem_lt h).2)
          hUF0 st.mst.numVertices
          { es with
            examinedVertices := es.examinedVertices.dropLast
            constructingSubCluster := [r]
            unexploredSubClusterPoints := [r]
            anyEdges := false
            incrementedChildCount := false }
          hcore0 hcount0 (by
            show [r].length + N ≤ [r].length + st.mst.numVertices
            rw [hinv.core.numVertices])
      rw [hexp]
      simp only
      obtain ⟨hinv1, hex1, hmst1, hec1, haff1⟩ :=
        resolveSubCluster_spec pos N A B Wts D_MAX W minPoints L pend st es es1 r hinv hlast hW
          hcore1 hres
      have hlen1 : (resolveSubCluster D_MAX minPoints st es1 L W).2.examinedVertices.length ≤
          fuel := by
        rw [hex1]
        have := nodup_subset_length_le _ _ hcore1.ex_nodup (fun v hv => (hcore1.ex_sub v hv).1)
        rw [List.length_dropLast] at this
        have hpos : 0 < es.examinedVertices.length := List.length_pos_of_mem hrex
        omega
      obtain ⟨st2, es2, he2, hinv2, hnil2, hmst2, hec2, haff2⟩ := ih _ _ hinv1 hlen1
      exact ⟨st2, es2, he2, hinv2, hnil2, by rw [hmst2, hmst1], by rw [hec2, hec1],
        by rw [haff2, haff1]⟩

theorem examineCluster_spec {α : Type} [LinearOrderedField α] (pos : Prop) (N : Nat)
    (A B : List Nat) (Wts : List α) (D_MAX W : α) (minPoints L : Nat) (pend : List Nat)
    (hW : pos → 0 < W) (st : HierarchyState α)
    (hinv : PendInv pos N A B Wts (L :: pend) st) :
    ∃ st1, examineCluster D_MAX minPoints W st L = some st1 ∧
      PendInv pos N A B Wts pend st1 ∧ st1.mst = st.mst ∧ st1.edgeCount = st.edgeCount := by
  have hLok := hinv.pend_ok L (List.mem_cons_self _ _)
  have hroots0 : RootsInv pos N A B Wts minPoints L pend
      { st with
        affectedVertices :=
          st.affectedVertices.filter (fun n => st.currentClusterLabels.getD n 0 ≠ L) }
      { examinedVertices :=
          st.affectedVertices.filter (fun n => st.currentClusterLabels.getD n 0 = L)
        firstChildCluster := []
        unexploredFirstChildClusterPoints := []
        numChildClusters := 0
        constructingSubCluster := []
        unexploredSubClusterPoints := []
        anyEdges := false
        incrementedChildCount := false } := by
    refine ⟨⟨hinv.core.numVertices, hinv.core.vA, hinv.core.vB, hinv.core.vW, hinv.core.count_le,
      hinv.core.graph, hinv.core.labels_len, hinv.core.clusters, hinv.core.writes_len,
      hinv.core.writes, hinv.core.same⟩, hLok.1, hLok.2,
      fun L1 hL1 => hinv.pend_ok L1 (List.mem_cons_of_mem _ hL1), ?_, ?_, ?_, ?_, ?_,
      Or.inl ⟨rfl, rfl, rfl⟩⟩
    · exact List.Nodup.filter _ hinv.aff_nodup
    · intro v hv
      have hv' := List.mem_filter.mp hv
      have hne : st.currentClusterLabels.getD v 0 ≠ L := by simpa using hv'.2
      have := hinv.aff v hv'.1
      refine ⟨this.1, hne, ?_⟩
      rcases List.mem_cons.mp this.2 with h | h
      · exact absurd h hne
      · exact h
    · intro v hv hiso
      rcases hinv.isolated v hv hiso with h | h
      · exact Or.inl h
      · by_cases hL : st.currentClusterLabels.getD v 0 = L
        · exact Or.inr (Or.inr (List.mem_filter.mpr ⟨h, by simpa using hL⟩))
        · exact Or.inr (Or.inl (List.mem_filter.mpr ⟨h, by simpa using hL⟩))
    · exact List.Nodup.filter _ hinv.aff_nodup
    · intro v hv
      have hv' := List.mem_filter.mp hv
      exact ⟨(hinv.aff v hv'.1).1, by simpa using hv'.2⟩
  have hlen0 : (st.affectedVertices.filter
      (fun n => st.currentClusterLabels.getD n 0 = L)).length ≤ st.mst.numVertices := by
    rw [hinv.core.numVertices]
    apply nodup_length_le _ N (List.Nodup.filter _ hinv.aff_nodup)
    intro v hv
    exact (hinv.aff v (List.mem_filter.mp hv).1).1
  obtain ⟨st1, es1, hroots, hinv1, hnil1, hmst1, hec1, haff1⟩ :=
    examineRoots_spec pos N A B Wts D_MAX W minPoints L pend hW st.mst.numVertices _ _
      hroots0 hlen0
  unfold examineCluster
  rw [hroots]
  simp only
  have hpend1 : PendInv pos N A B Wts pend st1 := by
    refine ⟨hinv1.core, hinv1.pend_ok, hinv1.aff_nodup,
      fun v hv => ⟨(hinv1.aff v hv).1, (hinv1.aff v hv).2.2⟩, ?_⟩
    intro v hv hiso
    rcases hinv1.isolated v hv hiso with h | h | h
    · exact Or.inl h
    · exact Or.inr h
    · rw [hnil1] at h; cases h
  by_cases hsplit : es1.numChildClusters ≥ 2 ∧
      st1.currentClusterLabels.getD (es1.firstChildCluster.getD 0 0) 0 = L
  · rw [if_pos hsplit]
    rcases hinv1.first with ⟨_, hz, _⟩ | ⟨_, hfirst, _, hufnd, hlabF⟩
    · omega
    · have hmeasure : es1.unexploredFirstChildClusterPoints.length + N ≤
          es1.firstChildCluster.length + st1.mst.numVertices := by
        rw [hinv1.core.numVertices]
        have := nodup_subset_length_le _ _ hufnd hfirst.unexplored_mem
        omega
      obtain ⟨es2, hexp2, hfirst2, hsub2⟩ :=
        exploreFirstChild_spec st1.mst.edges N (fun u v h => hinv1.core.graph.symm h)
          (fun u v h => (hinv1.core.graph.mem_lt h).2) st1.mst.numVertices es1 hfirst hmeasure
      rw [hexp2]
      simp only
      obtain ⟨f, hf⟩ := List.exists_mem_of_ne_nil _ hfirst.ne
      have hlab2 : ∀ v, v ∈ es2.firstChildCluster →
          v < N ∧ st1.currentClusterLabels.getD v 0 = L := by
        intro v hv
        refine ⟨hfirst2.lt v hv, ?_⟩
        exact hfirst2.comp (fun w => st1.currentClusterLabels.getD w 0 = L)
          (fun a b hab ha => by
            show st1.currentClusterLabels.getD b 0 = L
            rw [← hinv1.core.same a b hab]; exact ha)
          f (hsub2 f hf) v hv (hlabF f hf)
      obtain ⟨hc, hmst, hec, haff, hnext, hget⟩ :=
        createChildCluster_core pos N A B Wts D_MAX W st1 es2.firstChildCluster L
          hinv1.core hinv1.label_pos hinv1.label_lt hfirst2.nodup hfirst2.ne hlab2
          (fun u hu v hv => hfirst2.closed u hu (by simp) v hv)
      refine ⟨_, rfl, ⟨hc, ?_, ?_, ?_, ?_⟩, by rw [hmst, hmst1], by rw [hec, hec1]⟩
      · intro L1 hL1
        rw [hnext]
        have := hinv1.pend_ok L1 hL1
        omega
      · rw [haff]; exact hinv1.aff_nodup
      · intro v hv
        rw [haff] at hv
        have hvF : v ∉ es2.firstChildCluster :=
          fun hvF => (hinv1.aff v hv).2.1 (hlab2 v hvF).2
        rw [hget v, if_neg hvF]
        exact ⟨(hinv1.aff v hv).1, (hinv1.aff v hv).2.2⟩
      · intro v hv hiso
        rw [hmst] at hiso
        have hvF : v ∉ es2.firstChildCluster := fun hvF => hfirst2.nonempty v hvF hiso
        rw [hget v, if_neg hvF, haff]
        exact hpend1.isolated v hv hiso
  · rw [if_neg hsplit]
    exact ⟨st1, rfl, hpend1, hmst1, hec1⟩

theorem resolveSubCluster_labels {α : Type} [LinearOrderedField α] (D_MAX W : α)
    (minPoints L : Nat) (st : HierarchyState α) (es : ExamineState) :
    (resolveSubCluster D_MAX minPoints st es L W).1.affectedClusterLabels =
      st.affectedClusterLabels := by
  unfold resolveSubCluster
  split
  · split <;> rfl
  · split <;> rfl

theorem examineRoots_labels {α : Type} [LinearOrderedField α] (D_MAX W : α)
    (minPoints L : Nat) :
    ∀ (fuel : Nat) (st st1 : HierarchyState α) (es es1 : ExamineState),
      examineRoots D_MAX minPoints L W fuel st es = some (st1, es1) →
      st1.affectedClusterLabels = st.affectedClusterLabels := by
  intro fuel
  induction fuel with
  | zero =>
    intro st st1 es es1 h
    unfold examineRoots at h
    split at h
    · cases h; rfl
    · cases h
  | succ fuel ih =>
    intro st st1 es es1 h
    unfold examineRoots at h
    split at h
    · cases h; rfl
    · split at h
      · cases h
      · rw [ih _ _ _ _ h, resolveSubCluster_labels]

theorem examineCluster_labels {α : Type} [LinearOrderedField α] (D_MAX W : α)
    (minPoints L : Nat) (st st1 : HierarchyState α)
    (h : examineCluster D_MAX minPoints W st L = some st1) :
    st1.affectedClusterLabels = st.affectedClusterLabels := by
  unfold examineCluster at h
  split at h
  · cases h
  · rename_i st2 es2 hroots
    have := examineRoots_labels D_MAX W minPoints L _ _ _ _ _ hroots
    split at h
    · split at h
      · cases h
      · cases h
        exact this
    · cases h
      exact this

theorem examineClusters_spec {α : Type} [LinearOrderedField α] (pos : Prop) (N : Nat)
    (A B : List Nat) (Wts : List α) (D_MAX W : α) (minPoints : Nat) (hW : pos → 0 < W) :
    ∀ (pend : List Nat) (st : HierarchyState α),
      PendInv pos N A B Wts pend st →
      ∃ st1, examineClusters D_MAX minPoints W pend st = some st1 ∧
        PendInv pos N A B Wts [] st1 ∧ st1.mst = st.mst ∧ st1.edgeCount = st.edgeCount ∧
        st1.affectedClusterLabels = st.affectedClusterLabels := by
  intro pend
  induction pend with
  | nil =>
    intro st hinv
    exact ⟨st, rfl, hinv, rfl, rfl, rfl⟩
  | cons L pend ih =>
    intro st hinv
    obtain ⟨st1, he1, hinv1, hmst1, hec1⟩ :=
      examineCluster_spec pos N A B Wts D_MAX W minPoints L pend hW st hinv
    obtain ⟨st2, he2, hinv2, hmst2, hec2, hlab2⟩ := ih st1 hinv1
    unfold examineClusters
    rw [he1]
    simp only
    exact ⟨st2, he2, hinv2, by rw [hmst2, hmst1], by rw [hec2, hec1],
      by rw [hlab2, examineCluster_labels D_MAX W minPoints L st st1 he1]⟩

theorem graph_remove_edge_other {α : Type} (g : graph α) (a b v : Nat) (hva : v ≠ a)
    (hvb : v ≠ b) : (graph_remove_edge g a b).edges.getD v [] = g.edges.getD v [] := by
  unfold graph_remove_edge
  show (if a ≠ b then _ else _ : List (List Nat)).getD v [] = _
  split
  · rw [getD_set_eq, if_neg (fun h => hvb h.1.symm), getD_set_eq, if_neg (fun h => hva h.1.symm)]
  · rw [getD_set_eq, if_neg (fun h => hva h.1.symm)]

theorem getD_mem_of_lt (l : List Nat) (i : Nat) (h : i < l.length) : l.getD i 0 ∈ l := by
  rw [List.getD_eq_getElem?_getD, List.getElem?_eq_getElem h]
  exact List.getElem_mem _

theorem removeTiedEdges_spec {α : Type} [LinearOrderedField α] (pos : Prop) (N : Nat)
    (A B : List Nat) (Wts : List α) (W : α) :
    ∀ (n : Nat) (st : HierarchyState α),
      PendInv pos N A B Wts st.affectedClusterLabels { st with edgeCount := n } →
      PendInv pos N A B Wts (removeTiedEdges W n st).affectedClusterLabels
        (removeTiedEdges W n st) ∧
      (removeTiedEdges W n st).edgeCount ≤ n ∧
      (∀ m, n = m + 1 → st.mst.edgeWeights.getD m 0 = W →
        (removeTiedEdges W n st).edgeCount ≤ m) := by
  intro n
  induction n with
  | zero =>
    intro st hinv
    unfold removeTiedEdges
    exact ⟨hinv, le_refl _, fun m hm => by omega⟩
  | succ n ih =>
    intro st hinv
    unfold removeTiedEdges
    by_cases hw : st.mst.edgeWeights.getD n 0 = W
    · rw [if_pos hw]
      simp only
      have hcore := hinv.core
      have hgraph : GraphOk N A B (n + 1) st.mst.edges := hcore.graph
      have hA : st.mst.verticesA = A := hcore.vA
      have hB : st.mst.verticesB = B := hcore.vB
      rw [hA, hB]
      have hab := hgraph.lt n (by omega)
      have hmem := hgraph.edge_mem n (by omega)
      have hgraph1 := graph_remove_edge_ok N A B n st.mst hgraph
      have hsame : st.currentClusterLabels.getD (A.getD n 0) 0 =
          st.currentClusterLabels.getD (B.getD n 0) 0 := hcore.same _ _ hmem
      have hcount_le : n ≤ Wts.length := by have : n + 1 ≤ Wts.length := hcore.count_le; omega
      have hsame1 : ∀ u v,
          v ∈ (graph_remove_edge st.mst (A.getD n 0) (B.getD n 0)).edges.getD u [] →
          st.currentClusterLabels.getD u 0 = st.currentClusterLabels.getD v 0 :=
        fun u v h => hcore.same u v (graph_remove_edge_subset _ _ _ _ _ h)
      have hiso_cases : ∀ v, v < N →
          (graph_remove_edge st.mst (A.getD n 0) (B.getD n 0)).edges.getD v [] = [] →
          v = A.getD n 0 ∨ v = B.getD n 0 ∨ st.mst.edges.getD v [] = [] := by
        intro v _ hiso
        by_cases hva : v = A.getD n 0
        · exact Or.inl hva
        · by_cases hvb : v = B.getD n 0
          · exact Or.inr (Or.inl hvb)
          · rw [graph_remove_edge_other _ _ _ _ hva hvb] at hiso
            exact Or.inr (Or.inr hiso)
      by_cases hzero : st.currentClusterLabels.getD (A.getD n 0) 0 = 0
      · rw [if_pos hzero]
        have hinv1 : PendInv pos N A B Wts
            ({ st with mst := graph_remove_edge st.mst (A.getD n 0) (B.getD n 0) } :
              HierarchyState α).affectedClusterLabels
            { ({ st with mst := graph_remove_edge st.mst (A.getD n 0) (B.getD n 0) } :
              HierarchyState α) with edgeCount := n } := by
          refine ⟨⟨hcore.numVertices, hA, hB, hcore.vW, hcount_le, hgraph1, hcore.labels_len,
            hcore.clusters, hcore.writes_len, hcore.writes, hsame1⟩, hinv.pend_ok,
            hinv.aff_nodup, hinv.aff, ?_⟩
          intro v hv hiso
          rcases hiso_cases v hv hiso with h | h | h
          · left; rw [h]; exact hzero
          · left; rw [h, ← hsame]; exact hzero
          · exact hinv.isolated v hv h
        obtain ⟨h1, h2, _⟩ := ih _ hinv1
        exact ⟨h1, by omega, fun m hm _ => by omega⟩
      · rw [if_neg hzero]
        have hinv1 : PendInv pos N A B Wts
            ({ st with
                mst := graph_remove_edge st.mst (A.getD n 0) (B.getD n 0)
                affectedVertices :=
                  set_insert (set_insert st.affectedVertices (A.getD n 0)) (B.getD n 0)
                affectedClusterLabels :=
                  set_insert st.affectedClusterLabels
                    (st.currentClusterLabels.getD (A.getD n 0) 0) } :
              HierarchyState α).affectedClusterLabels
            { ({ st with
                mst := graph_remove_edge st.mst (A.getD n 0) (B.getD n 0)
                affectedVertices :=
                  set_insert (set_insert st.affectedVertices (A.getD n 0)) (B.getD n 0)
                affectedClusterLabels :=
                  set_insert st.affectedClusterLabels
                    (st.currentClusterLabels.getD (A.getD n 0) 0) } :
              HierarchyState α) with edgeCount := n } := by
          refine ⟨⟨hcore.numVertices, hA, hB, hcore.vW, hcount_le, hgraph1, hcore.labels_len,
            hcore.clusters, hcore.writes_len, hcore.writes, hsame1⟩, ?_, ?_, ?_, ?_⟩
          · intro L1 hL1
            rcases (set_insert_mem _ _ _).mp hL1 with h | h
            · exact hinv.pend_ok L1 h
            · rw [h]
              refine ⟨by omega, ?_⟩
              apply hcore.clusters.lt
              apply getD_mem_of_lt
              have : st.currentClusterLabels.length = N := hcore.labels_len
              rw [this]; exact hab.1
          · exact set_insert_nodup _ _ (set_insert_nodup _ _ hinv.aff_nodup)
          · intro v hv
            show v < N ∧ st.currentClusterLabels.getD v 0 ∈
              set_insert st.affectedClusterLabels (st.currentClusterLabels.getD (A.getD n 0) 0)
            rw [set_insert_mem]
            rcases (set_insert_mem _ _ _).mp hv with h | h
            · rcases (set_insert_mem _ _ _).mp h with h | h
              · exact ⟨(hinv.aff v h).1, Or.inl (hinv.aff v h).2⟩
              · rw [h]; exact ⟨hab.1, Or.inr rfl⟩
            · rw [h]; exact ⟨hab.2, Or.inr hsame.symm⟩
          · intro v hv hiso
            show st.currentClusterLabels.getD v 0 = 0 ∨
              v ∈ set_insert (set_insert st.affectedVertices (A.getD n 0)) (B.getD n 0)
            rw [set_insert_mem, set_insert_mem]
            rcases hiso_cases v hv hiso with h | h | h
            · exact Or.inr (Or.inl (Or.inr h))
            · exact Or.inr (Or.inr h)
            · rcases hinv.isolated v hv h with h2 | h2
              · exact Or.inl h2
              · exact Or.inr (Or.inl (Or.inl h2))
        obtain ⟨h1, h2, _⟩ := ih _ hinv1
        exact ⟨h1, by omega, fun m hm _ => by omega⟩
    · rw [if_neg hw]
      refine ⟨hinv, le_refl _, ?_⟩
      intro m hm hwm
      have : n = m := by omega
      subst this
      exact absurd hwm hw

theorem offsets_clustersOk {α : Type} [LinearOrderedField α] (pos : Prop) (labels : List Nat)
    (next lineCount : Nat) (idxs : List Nat) :
    ∀ (clusters : ClusterList α), ClustersOk pos clusters labels next →
      ClustersOk pos
        (idxs.foldl
          (fun clusters i =>
            match clusters.getD i none with
            | none => clusters
            | some cl => clusters.set i (some { cl with offset := lineCount }))
          clusters) labels next := by
  induction idxs with
  | nil => intro clusters h; exact h
  | cons i idxs ih =>
    intro clusters h
    rw [List.foldl_cons]
    apply ih
    cases hc : clusters.getD i none with
    | none => exact h
    | some cl =>
      simp only
      have hi : i < clusters.length := getD_some_lt hc
      refine ⟨by rw [List.length_set]; exact h.len, h.two_le, ?_, ?_, h.lt⟩
      · rw [getD_set_eq, if_neg]
        · exact h.null
        · rintro ⟨h0, _⟩
          rw [h0, h.null] at hc
          cases hc
      · intro L hL hLn
        rw [getD_set_eq]
        obtain ⟨c, hcL, h1, h2, h3⟩ := h.some L hL hLn
        by_cases hiL : i = L
        · subst hiL
          rw [if_pos ⟨rfl, hi⟩]
          rw [hc] at hcL
          cases hcL
          exact ⟨_, rfl, h1, h2, h3⟩
        · rw [if_neg (fun hh => hiL hh.1)]
          exact ⟨c, hcL, h1, h2, h3⟩

theorem recordLevel_inv {α : Type} [LinearOrderedField α] (pos : Prop) (N : Nat)
    (A B : List Nat) (Wts : List α) (compactHierarchy : Bool) (W : α) (st : HierarchyState α)
    (h : HierInv pos N A B Wts st) :
    HierInv pos N A B Wts (recordLevel compactHierarchy W st) ∧
    (recordLevel compactHierarchy W st).edgeCount = st.edgeCount := by
  refine ⟨⟨⟨h.core.numVertices, h.core.vA, h.core.vB, h.core.vW, h.core.count_le, h.core.graph,
    h.core.labels_len, ?_, h.core.writes_len, h.core.writes, h.core.same⟩, h.aff_nil,
    h.labels_nil, h.isolated⟩, rfl⟩
  exact offsets_clustersOk pos _ _ _ _ _ h.core.clusters

theorem hierarchyStep_spec {α : Type} [LinearOrderedField α] (pos : Prop) (N : Nat)
    (A B : List Nat) (Wts : List α) (D_MAX : α) (minPoints : Nat) (compactHierarchy : Bool)
    (hpos : pos → ∀ i, i < Wts.length → 0 < Wts.getD i 0)
    (st : HierarchyState α) (h : HierInv pos N A B Wts st) (hne : st.edgeCount ≠ 0) :
    ∃ st1, hierarchyStep D_MAX minPoints compactHierarchy st = some st1 ∧
      HierInv pos N A B Wts st1 ∧ st1.edgeCount < st.edgeCount := by
  obtain ⟨m, hm⟩ : ∃ m, st.edgeCount = m + 1 := ⟨st.edgeCount - 1, by omega⟩
  have hWts : st.mst.edgeWeights = Wts := h.core.vW
  have hmlt : m < Wts.length := by have := h.core.count_le; omega
  have hW : pos → 0 < st.mst.edgeWeights.getD (st.edgeCount - 1) 0 := by
    intro hp
    rw [hWts, hm]
    exact hpos hp m hmlt
  have hinv0 : PendInv pos N A B Wts
      ({ st with newClusters := [] } : HierarchyState α).affectedClusterLabels
      { ({ st with newClusters := [] } : HierarchyState α) with edgeCount := st.edgeCount } := by
    refine ⟨⟨h.core.numVertices, h.core.vA, h.core.vB, h.core.vW, h.core.count_le, h.core.graph,
      h.core.labels_len, h.core.clusters, h.core.writes_len, h.core.writes, h.core.same⟩,
      ?_, ?_, ?_, ?_⟩
    · intro L1 hL1
      have : L1 ∈ st.affectedClusterLabels := hL1
      rw [h.labels_nil] at this
      cases this
    · show st.affectedVertices.Nodup
      rw [h.aff_nil]; exact List.nodup_nil
    · intro v hv
      have : v ∈ st.affectedVertices := hv
      rw [h.aff_nil] at this
      cases this
    · intro v hv hiso
      exact Or.inl (h.isolated v hv hiso)
  obtain ⟨hinv1, hle1, hlt1⟩ :=
    removeTiedEdges_spec pos N A B Wts (st.mst.edgeWeights.getD (st.edgeCount - 1) 0)
      st.edgeCount { st with newClusters := [] } hinv0
  have hlt : (removeTiedEdges (st.mst.edgeWeights.getD (st.edgeCount - 1) 0) st.edgeCount
      { st with newClusters := [] }).edgeCount < st.edgeCount := by
    have := hlt1 m hm (by
      show st.mst.edgeWeights.getD m 0 = st.mst.edgeWeights.getD (st.edgeCount - 1) 0
      rw [hm]; rfl)
    omega
  unfold hierarchyStep
  simp only
  generalize hst1 : removeTiedEdges (st.mst.edgeWeights.getD (st.edgeCount - 1) 0) st.edgeCount
      { st with newClusters := [] } = st1 at hinv1 hle1 hlt
  by_cases hnone : st1.affectedClusterLabels.length < 1
  · rw [if_pos hnone]
    have hnil : st1.affectedClusterLabels = [] := List.length_eq_zero.mp (by omega)
    refine ⟨st1, rfl, ⟨hinv1.core, ?_, hnil, ?_⟩, hlt⟩
    · apply List.eq_nil_iff_forall_not_mem.mpr
      intro v hv
      have := (hinv1.aff v hv).2
      rw [hnil] at this
      cases this
    · intro v hv hiso
      rcases hinv1.isolated v hv hiso with h1 | h1
      · exact h1
      · have := (hinv1.aff v h1).2
        rw [hnil] at this
        cases this
  · rw [if_neg hnone]
    have hinv2 : PendInv pos N A B Wts st1.affectedClusterLabels.reverse
        { st1 with affectedClusterLabels := [] } := by
      refine ⟨⟨hinv1.core.numVertices, hinv1.core.vA, hinv1.core.vB, hinv1.core.vW,
        hinv1.core.count_le, hinv1.core.graph, hinv1.core.labels_len, hinv1.core.clusters,
        hinv1.core.writes_len, hinv1.core.writes, hinv1.core.same⟩, ?_, hinv1.aff_nodup, ?_,
        hinv1.isolated⟩
      · intro L1 hL1
        exact hinv1.pend_ok L1 (List.mem_reverse.mp hL1)
      · intro v hv
        exact ⟨(hinv1.aff v hv).1, List.mem_reverse.mpr (hinv1.aff v hv).2⟩
    obtain ⟨st2, he2, hinv3, hmst2, hec2, hlab2⟩ :=
      examineClusters_spec pos N A B Wts D_MAX (st.mst.edgeWeights.getD (st.edgeCount - 1) 0)
        minPoints hW _ _ hinv2
    rw [he2]
    simp only
    have hinv4 : HierInv pos N A B Wts st2 := by
      refine ⟨hinv3.core, ?_, hlab2, ?_⟩
      · apply List.eq_nil_iff_forall_not_mem.mpr
        intro v hv
        have := (hinv3.aff v hv).2
        cases this
      · intro v hv hiso
        rcases hinv3.isolated v hv hiso with h1 | h1
        · exact h1
        · have := (hinv3.aff v h1).2
          cases this
    obtain ⟨hinv5, hec5⟩ := recordLevel_inv pos N A B Wts compactHierarchy
      (st.mst.edgeWeights.getD (st.edgeCount - 1) 0) st2 hinv4
    refine ⟨_, rfl, hinv5, ?_⟩
    rw [hec5, hec2]
    exact hlt

theorem hierarchyLoop_spec {α : Type} [LinearOrderedField α] (pos : Prop) (N : Nat)
    (A B : List Nat) (Wts : List α) (D_MAX : α) (minPoints : Nat) (compactHierarchy : Bool)
    (hpos : pos → ∀ i, i < Wts.length → 0 < Wts.getD i 0) :
    ∀ (fuel : Nat) (st : HierarchyState α), HierInv pos N A B Wts st → st.edgeCount ≤ fuel →
      ∃ st1, hierarchyLoop D_MAX minPoints compactHierarchy fuel st = some st1 ∧
        HierInv pos N A B Wts st1 ∧ st1.edgeCount = 0 := by
  intro fuel
  induction fuel with
  | zero =>
    intro st h hle
    have h0 : st.edgeCount = 0 := by omega
    refine ⟨st, ?_, h, h0⟩
    unfold hierarchyLoop
    rw [if_pos h0]
  | succ fuel ih =>
    intro st h hle
    unfold hierarchyLoop
    by_cases h0 : st.edgeCount = 0
    · rw [if_pos h0]
      exact ⟨st, rfl, h, h0⟩
    · rw [if_neg h0]
      obtain ⟨st1, hs1, hinv1, hlt1⟩ :=
        hierarchyStep_spec pos N A B Wts D_MAX minPoints compactHierarchy hpos st h h0
      rw [hs1]
      simp only
      exact ih st1 hinv1 (by omega)

theorem count_replicate_one (N L : Nat) :
    (List.replicate N 1).count L = if L = 1 then N else 0 := by
  rw [List.count_replicate]
  by_cases h : L = 1
  · subst h; simp
  · rw [if_neg h, if_neg]
    simpa using fun hh => h hh.symm

theorem hierarchyInit_inv {α : Type} [LinearOrderedField α] (pos : Prop) (mst : graph α)
    (D_MAX NAN : α) (pointNoiseLevels : List α) (pointLastClusters : List Nat)
    (hgraph : GraphOk mst.numVertices mst.verticesA mst.verticesB mst.edgeWeights.length
      mst.edges)
    (hinc : ∀ v, v < mst.numVertices → ∃ i, i < mst.edgeWeights.length ∧
      (mst.verticesA.getD i 0 = v ∨ mst.verticesB.getD i 0 = v)) :
    HierInv pos mst.numVertices mst.verticesA mst.verticesB mst.edgeWeights
      (hierarchyInit D_MAX NAN mst pointNoiseLevels pointLastClusters) := by
  refine ⟨⟨rfl, rfl, rfl, rfl, le_refl _, hgraph, ?_, ?_, ?_, ?_, ?_⟩, rfl, rfl, ?_⟩
  · show (List.replicate mst.numVertices 1).length = mst.numVertices
    simp
  · refine ⟨rfl, le_refl _, rfl, ?_, ?_⟩
    · intro L hL hLn
      have : L = 1 := by
        have : L < 2 := hLn
        omega
      subst this
      refine ⟨_, rfl, rfl, ?_, ?_⟩
      · show (mst.numVertices : Int) = ((List.replicate mst.numVertices 1).count 1 : Int)
        rw [count_replicate_one, if_pos rfl]
      · intro _ h2
        omega
    · intro x hx
      have hx' : x ∈ List.replicate mst.numVertices 1 := hx
      rw [(List.mem_replicate.mp hx').2]
      show 1 < 2
      omega
  · show (List.replicate mst.numVertices 0).length = mst.numVertices
    simp
  · intro v hv
    show (List.replicate mst.numVertices 0).getD v 0 =
      if (List.replicate mst.numVertices 1).getD v 0 = 0 then 1 else 0
    rw [getD_replicate]
    have : (List.replicate mst.numVertices 1).getD v 0 = 1 := by
      rw [List.getD_eq_getElem?_getD, List.getElem?_replicate, if_pos hv]
      rfl
    rw [if_neg (by rw [this]; decide)]
  · intro u v huv
    have hb := hgraph.mem_lt huv
    show (List.replicate mst.numVertices 1).getD u 0 = (List.replicate mst.numVertices 1).getD v 0
    rw [List.getD_eq_getElem?_getD, List.getElem?_replicate, if_pos hb.1,
      List.getD_eq_getElem?_getD, List.getElem?_replicate, if_pos hb.2]
  · intro v hv hiso
    exfalso
    obtain ⟨i, hi, hvi⟩ := hinc v hv
    have hiso' : mst.edges.getD v [] = [] := hiso
    rcases hvi with hvi | hvi
    · have := hgraph.edge_mem i hi
      rw [hvi, hiso'] at this
      cases this
    · have := hgraph.symm (hgraph.edge_mem i hi)
      rw [hvi, hiso'] at this
      cases this

/-- The hierarchy construction on a graph whose neighbour lists are those of its edge arrays
and in which every vertex is an end of some edge: the function returns, all points carry the
label 0, the noise level of every point has been written once, the cluster list agrees with
the labels, and when all edge weights are positive (`pos`) every cluster other than the root
has children or a positive death level. -/
theorem compute_hierarchy_final {α : Type} [LinearOrderedField α] (pos : Prop) (mst : graph α)
    (D_MAX NAN : α) (minPoints : Nat) (compactHierarchy : Bool)
    (pointNoiseLevels : List α) (pointLastClusters : List Nat)
    (hgraph : GraphOk mst.numVertices mst.verticesA mst.verticesB mst.edgeWeights.length
      mst.edges)
    (hinc : ∀ v, v < mst.numVertices → ∃ i, i < mst.edgeWeights.length ∧
      (mst.verticesA.getD i 0 = v ∨ mst.verticesB.getD i 0 = v))
    (hpos : pos → ∀ i, i < mst.edgeWeights.length → 0 < mst.edgeWeights.getD i 0) :
    ∃ st, hdbscan_compute_hierarchy_and_cluster_tree D_MAX NAN minPoints mst
        compactHierarchy pointNoiseLevels pointLastClusters = some st ∧
      st.edgeCount = 0 ∧
      st.currentClusterLabels.length = mst.numVertices ∧
      (∀ v, v < mst.numVertices → st.currentClusterLabels.getD v 0 = 0) ∧
      (∀ v, v < mst.numVertices → st.noiseWrites.getD v 0 = 1) ∧
      ClustersOk pos st.clusters st.currentClusterLabels st.nextClusterLabel := by
  have hinit := hierarchyInit_inv pos mst D_MAX NAN pointNoiseLevels pointLastClusters
    hgraph hinc
  obtain ⟨st1, hl1, hinv1, hz1⟩ :=
    hierarchyLoop_spec pos mst.numVertices mst.verticesA mst.verticesB mst.edgeWeights D_MAX
      minPoints compactHierarchy hpos mst.edgeWeights.length _ hinit (le_refl _)
  have hlab : ∀ v, v < mst.numVertices → st1.currentClusterLabels.getD v 0 = 0 := by
    intro v hv
    apply hinv1.isolated v hv
    have hg := hinv1.core.graph
    rw [hz1] at hg
    exact hg.nil_of_zero v
  unfold hdbscan_compute_hierarchy_and_cluster_tree
  rw [hl1]
  refine ⟨_, rfl, hz1, hinv1.core.labels_len, hlab, ?_, hinv1.core.clusters⟩
  intro v hv
  show st1.noiseWrites.getD v 0 = 1
  rw [hinv1.core.writes v hv, if_pos (hlab v hv)]

theorem edgeMult_eq_countP (A B : List Nat) (u v : Nat) :
    ∀ n, n ≤ A.length → n ≤ B.length →
      edgeMult A B n u v =
        ((A.zip B).take n).countP
          (fun p => decide ((p.1 = u ∧ p.2 = v) ∨ (p.1 = v ∧ p.2 = u))) := by
  intro n
  induction n with
  | zero => intro _ _; simp [edgeMult]
  | succ n ih =>
    intro hA hB
    unfold edgeMult
    rw [ih (by omega) (by omega), List.take_succ, List.countP_append]
    congr 1
    have hz : (A.zip B)[n]? = some (A.getD n 0, B.getD n 0) := by
      rw [List.getElem?_zip_eq_some]
      exact ⟨getElem?_eq_some_getD A n 0 (by omega), getElem?_eq_some_getD B n 0 (by omega)⟩
    rw [hz]
    simp only [Option.toList_some, List.countP_cons, List.countP_nil, Nat.zero_add]
    by_cases hc : (A.getD n 0 = u ∧ B.getD n 0 = v) ∨ (A.getD n 0 = v ∧ B.getD n 0 = u)
    · rw [if_pos hc, if_pos (by simpa using hc)]
    · rw [if_neg hc, if_neg (by simpa using hc)]

theorem zip_getD_mem (A B : List Nat) (i : Nat) (hA : i < A.length) (hB : i < B.length) :
    (A.getD i 0, B.getD i 0) ∈ A.zip B := by
  have hz : (A.zip B)[i]? = some (A.getD i 0, B.getD i 0) := by
    rw [List.getElem?_zip_eq_some]
    exact ⟨getElem?_eq_some_getD A i 0 hA, getElem?_eq_some_getD B i 0 hB⟩
  obtain ⟨hlt, hget⟩ := List.getElem?_eq_some_iff.mp hz
  rw [← hget]
  exact List.getElem_mem _

theorem mem_zip_getD (A B : List Nat) (p : Nat × Nat) (h : p ∈ A.zip B) :
    ∃ i, i < A.length ∧ i < B.length ∧ A.getD i 0 = p.1 ∧ B.getD i 0 = p.2 := by
  obtain ⟨i, hi, hp⟩ := List.mem_iff_getElem.mp h
  have hlen : i < A.length ∧ i < B.length := by
    rw [List.length_zip] at hi
    exact ⟨lt_of_lt_of_le hi (inf_le_left), lt_of_lt_of_le hi (inf_le_right)⟩
  refine ⟨i, hlen.1, hlen.2, ?_⟩
  rw [List.getElem_zip] at hp
  rw [List.getD_eq_getElem?_getD, List.getElem?_eq_getElem hlen.1,
    List.getD_eq_getElem?_getD, List.getElem?_eq_getElem hlen.2, ← hp]
  exact ⟨rfl, rfl⟩

theorem zip_pairs_of_triples {α : Type} (A B : List Nat) (W : List α)
    (hB : B.length = W.length) :
    A.zip B = (A.zip (B.zip W)).map (Prod.map id Prod.fst) := by
  rw [← List.zip_map_right, List.map_fst_zip _ _ (by omega)]

theorem graphOk_of_perm {α : Type} (N : Nat) (A0 B0 A B : List Nat) (W0 W : List α)
    (edges : List (List Nat))
    (hA0 : A0.length = W0.length) (hB0 : B0.length = W0.length)
    (hA : A.length = W.length) (hB : B.length = W.length)
    (hperm : List.Perm (A.zip (B.zip W)) (A0.zip (B0.zip W0)))
    (h : GraphOk N A0 B0 W0.length edges) :
    GraphOk N A B W.length edges ∧
    (∀ v, (∃ i, i < W0.length ∧ A0.getD i 0 = v ∧ B0.getD i 0 = v) →
      ∃ i, i < W.length ∧ A.getD i 0 = v ∧ B.getD i 0 = v) := by
  have hpairs : List.Perm (A.zip B) (A0.zip B0) := by
    rw [zip_pairs_of_triples A B W hB, zip_pairs_of_triples A0 B0 W0 hB0]
    exact hperm.map _
  have hlen : W.length = W0.length := by
    have := hpairs.length_eq
    rw [List.length_zip, List.length_zip, hA, hB, hA0, hB0] at this
    simpa using this
  refine ⟨⟨h.len, ?_, ?_⟩, ?_⟩
  · intro i hi
    have hm := zip_getD_mem A B i (by omega) (by omega)
    obtain ⟨j, hj, _, h1, h2⟩ := mem_zip_getD A0 B0 _ (hpairs.mem_iff.mp hm)
    have := h.lt j (by omega)
    rw [h1, h2] at this
    exact this
  · intro u v
    rw [h.count u v, edgeMult_eq_countP A0 B0 u v W0.length (by omega) (by omega),
      edgeMult_eq_countP A B u v W.length (by omega) (by omega)]
    have e0 : (A0.zip B0).take W0.length = A0.zip B0 := by
      apply List.take_of_length_le
      rw [List.length_zip, hA0, hB0]; simp
    have e1 : (A.zip B).take W.length = A.zip B := by
      apply List.take_of_length_le
      rw [List.length_zip, hA, hB]; simp
    rw [e0, e1]
    exact (hpairs.countP_eq _).symm
  · rintro v ⟨i, hi, h1, h2⟩
    have hm := zip_getD_mem A0 B0 i (by omega) (by omega)
    rw [h1, h2] at hm
    obtain ⟨j, hj, _, h3, h4⟩ := mem_zip_getD A B _ (hpairs.mem_iff.mpr hm)
    exact ⟨j, by omega, h3, h4⟩

/-- The lists that `hdbscan_construct_mst` produces with self edges: `2 * size - 1` entries
each, all ends are points, and position `size - 1 + v` holds the self loop of `v`. -/
theorem construct_mst_shape {α : Type} [LinearOrder α] [Zero α] (D_MAX : α) (dis : distance α)
    (size : Nat) (hsize : 1 ≤ size) (g : MstEdges α)
    (hg : hdbscan_construct_mst D_MAX dis size true = some g) :
    g.verticesA.length = 2 * size - 1 ∧
    g.verticesB.length = 2 * size - 1 ∧
    g.edgeWeights.length = 2 * size - 1 ∧
    (∀ i, i < 2 * size - 1 → g.verticesA.getD i 0 < size ∧ g.verticesB.getD i 0 < size) ∧
    (∀ v, v < size →
      g.verticesA.getD (size - 1 + v) 0 = v ∧ g.verticesB.getD (size - 1 + v) 0 = v) := by
  obtain ⟨pt, st, hinv, hres⟩ := construct_mst_result D_MAX dis size true hsize
  rw [hres] at hg
  cases hg
  simp only [if_true] at hinv ⊢
  obtain ⟨hA, hB, hW⟩ := mstSelfEdges_fields dis size (List.range' (size - 1) size) st
  have hlenA : (mstSelfEdges dis size st).nearestMRDNeighbors.length = 2 * size - 1 := by
    unfold mstSelfEdges; rw [hA, foldl_set_length, hinv.nb_len]; omega
  have hlenB : (mstSelfEdges dis size st).otherVertexIndices.length = 2 * size - 1 := by
    unfold mstSelfEdges; rw [hB, foldl_set_length, hinv.ot_len]; omega
  have hlenW : (mstSelfEdges dis size st).nearestMRDDistances.length = 2 * size - 1 := by
    unfold mstSelfEdges; rw [hW, foldl_set_length, hinv.d_len]; omega
  have hgA : ∀ v, (mstSelfEdges dis size st).nearestMRDNeighbors.getD v 0 =
      if size - 1 ≤ v ∧ v < size - 1 + size ∧ v < st.nearestMRDNeighbors.length then
        v - (size - 1) else st.nearestMRDNeighbors.getD v 0 := by
    intro v; unfold mstSelfEdges; rw [hA, foldl_set_range'_getD]
  have hgB : ∀ v, (mstSelfEdges dis size st).otherVertexIndices.getD v 0 =
      if size - 1 ≤ v ∧ v < size - 1 + size ∧ v < st.otherVertexIndices.length then
        v - (size - 1) else st.otherVertexIndices.getD v 0 := by
    intro v; unfold mstSelfEdges; rw [hB, foldl_set_range'_getD]
  refine ⟨hlenA, hlenB, hlenW, ?_, ?_⟩
  · intro i hi
    rw [hgA i, hgB i]
    by_cases hlow : i < size - 1
    · rw [if_neg (fun hh => by omega), if_neg (fun hh => by omega),
        hinv.other_lt i (by omega) (by omega)]
      exact ⟨hinv.nb_lt i, by omega⟩
    · rw [if_pos ⟨by omega, by omega, by rw [hinv.nb_len]; omega⟩,
        if_pos ⟨by omega, by omega, by rw [hinv.ot_len]; omega⟩]
      omega
  · intro v hv
    rw [hgA, hgB, if_pos ⟨by omega, by omega, by rw [hinv.nb_len]; omega⟩,
      if_pos ⟨by omega, by omega, by rw [hinv.ot_len]; omega⟩]
    omega

/-- The result of `hdbscan_construct_mst` with self edges, made a graph by `graph_init` and
sorted by edge weight, is a graph as the hierarchy construction takes it. -/
theorem sorted_mst_selfLoopGraph {α : Type} [LinearOrder α] [Zero α] (D_MAX : α)
    (dis : distance α) (size : Nat) (hsize : 1 ≤ size) (g : MstEdges α) (mst : graph α)
    (hg : hdbscan_construct_mst D_MAX dis size true = some g)
    (hsort : SortedByEdgeWeight (graph_init size g.verticesA g.verticesB g.edgeWeights) mst) :
    mst.numVertices = size ∧ SortedSelfLoopGraph mst := by
  obtain ⟨hlA, hlB, hlW, hlt, hself⟩ := construct_mst_shape D_MAX dis size hsize g hg
  have hok0 : GraphOk size g.verticesA g.verticesB g.edgeWeights.length
      (graph_init size g.verticesA g.verticesB g.edgeWeights).edges :=
    graph_init_ok size g.verticesA g.verticesB g.edgeWeights
      (fun i hi => hlt i (by rw [hlW] at hi; exact hi))
  have hN : mst.numVertices = size := hsort.numVertices
  obtain ⟨hok, hloops⟩ := graphOk_of_perm size g.verticesA g.verticesB mst.verticesA
    mst.verticesB g.edgeWeights mst.edgeWeights mst.edges (by rw [hlA, hlW]) (by rw [hlB, hlW])
    hsort.lenA hsort.lenB hsort.perm (by rw [hsort.edges]; exact hok0)
  refine ⟨hN, hsort.lenA, hsort.lenB, by rw [hN]; exact hok, ?_, hsort.sorted⟩
  intro v hv
  rw [hN] at hv
  apply hloops
  exact ⟨size - 1 + v, by rw [hlW]; omega, (hself v hv).1, (hself v hv).2⟩

/-- C8: for every sorted graph with self loops whose edge weights are all positive,
`hdbscan_compute_hierarchy_and_cluster_tree` returns, and every cluster of the cluster list
other than the root (positions 2 and up) has `hasChildren = TRUE` or a positive death
level. -/
theorem compute_hierarchy_clusters_dead {α : Type} [LinearOrderedField α] (D_MAX NAN : α)
    (minPoints : Nat) (compactHierarchy : Bool) (pointNoiseLevels : List α)
    (pointLastClusters : List Nat) (mst : graph α)
    (hmst : SortedSelfLoopGraph mst)
    (hpos : ∀ i, i < mst.edgeWeights.length → 0 < mst.edgeWeights.getD i 0) :
    ∃ st, hdbscan_compute_hierarchy_and_cluster_tree D_MAX NAN minPoints mst compactHierarchy
        pointNoiseLevels pointLastClusters = some st ∧
      ∀ L, 2 ≤ L → L < st.clusters.length →
        ∃ c, st.clusters.getD L none = some c ∧ (c.hasChildren = true ∨ 0 < c.deathLevel) := by
  obtain ⟨st, hst, _, hlen, hlab, _, hok⟩ :=
    compute_hierarchy_final True mst D_MAX NAN minPoints compactHierarchy pointNoiseLevels
      pointLastClusters hmst.graph
      (fun v hv => by
        obtain ⟨i, hi, h1, _⟩ := hmst.selfLoops v hv
        exact ⟨i, hi, Or.inl h1⟩)
      (fun _ => hpos)
  refine ⟨st, hst, ?_⟩
  intro L hL hLn
  rw [hok.len] at hLn
  obtain ⟨c, hc, _, hnum, hdead⟩ := hok.some L (by omega) hLn
  refine ⟨c, hc, ?_⟩
  have hcount : st.currentClusterLabels.count L = 0 := by
    rw [List.count_eq_zero]
    intro hmem
    obtain ⟨i, hi, hget⟩ := List.getElem_of_mem hmem
    have := hlab i (by rw [← hlen]; exact hi)
    rw [List.getD_eq_getElem?_getD, List.getElem?_eq_getElem hi] at this
    simp only [Option.getD_some] at this
    omega
  rcases hdead trivial hL with h | h | h
  · exact Or.inl h
  · exact Or.inr h
  · rw [hnum, hcount] at h
    exact absurd h (by decide)

/-- Witness of C8: the graph `twoGroupsMst` with `mpts = 2`. -/
theorem compute_hierarchy_clusters_dead_witness :
    ∃ st, hdbscan_compute_hierarchy_and_cluster_tree (1000 : ℚ) 0 2 twoGroupsMst false
        [0, 0, 0, 0, 0, 0] [0, 0, 0, 0, 0, 0] = some st ∧
      ∀ L, 2 ≤ L → L < st.clusters.length →
        ∃ c, st.clusters.getD L none = some c ∧ (c.hasChildren = true ∨ 0 < c.deathLevel) :=
  compute_hierarchy_clusters_dead 1000 0 2 false [0, 0, 0, 0, 0, 0] [0, 0, 0, 0, 0, 0]
    twoGroupsMst
    ⟨rfl, rfl, graph_init_ok 6 _ _ _ (by decide), by decide, by decide⟩ (by decide)

/-- On `twoGroupsMst` with `mpts = 2` the hierarchy construction makes the root cluster and
two child clusters, which die at the level 2. -/
theorem twoGroupsMst_clusters :
    (hdbscan_compute_hierarchy_and_cluster_tree (1000 : ℚ) 0 2 twoGroupsMst false
        [0, 0, 0, 0, 0, 0] [0, 0, 0, 0, 0, 0]).map
      (fun st => (st.pointLastClusters,
        st.clusters.map (fun c => c.map (fun c => (c.label, c.deathLevel, c.hasChildren))))) =
    some ([2, 2, 2, 3, 3, 3],
      [none, some (1, 5, true), some (2, 2, false), some (3, 2, false)]) := by
  decide

/-! ### The validity score of the statistics -/

/-- C20: `hdbscan_analyse_stats` returns the sum of the validity scores of the intra cluster
distances and of the core distances, each score being 2, 1, 0 or -1 as the spec says; the
result lies between -2 and 4. -/
theorem analyse_stats_eq_spec {α : Type} [LT α] [Zero α] [DecidableRel (fun a b : α => a < b)]
    (stats : clustering_stats α) :
    hdbscan_analyse_stats stats =
        specValidity stats.intraDistanceValues.skewness stats.intraDistanceValues.kurtosis +
          specValidity stats.coreDistanceValues.skewness stats.coreDistanceValues.kurtosis ∧
      -2 ≤ hdbscan_analyse_stats stats ∧ hdbscan_analyse_stats stats ≤ 4 := by
  have key : hdbscan_analyse_stats stats =
      specValidity stats.intraDistanceValues.skewness stats.intraDistanceValues.kurtosis +
        specValidity stats.coreDistanceValues.skewness stats.coreDistanceValues.kurtosis := by
    unfold hdbscan_analyse_stats specValidity
    simp only [gt_iff_lt]
    split_ifs <;> rfl
  have bound : ∀ s k : α, -1 ≤ specValidity s k ∧ specValidity s k ≤ 2 := by
    intro s k
    unfold specValidity
    split_ifs <;> decide
  refine ⟨key, ?_, ?_⟩
  · rw [key]
    have h1 := bound stats.intraDistanceValues.skewness stats.intraDistanceValues.kurtosis
    have h2 := bound stats.coreDistanceValues.skewness stats.coreDistanceValues.kurtosis
    omega
  · rw [key]
    have h1 := bound stats.intraDistanceValues.skewness stats.intraDistanceValues.kurtosis
    have h2 := bound stats.coreDistanceValues.skewness stats.coreDistanceValues.kurtosis
    omega

/-- The value 4 is taken: both pairs positive. -/
theorem analyse_stats_four :
    hdbscan_analyse_stats
      ({ count := 5
         coreDistanceValues :=
           { mean := 0, max := 0, variance := 0, standardDev := 0, skewness := 1, kurtosis := 1 }
         intraDistanceValues :=
           { mean := 0, max := 0, variance := 0, standardDev := 0, skewness := 2, kurtosis := 3 } } :
        clustering_stats Int) = 4 := by
  decide

/-- The value -2 is taken: both kurtoses are zero. -/
theorem analyse_stats_minus_two :
    hdbscan_analyse_stats
      ({ count := 5
         coreDistanceValues :=
           { mean := 0, max := 0, variance := 0, standardDev := 0, skewness := 1, kurtosis := 0 }
         intraDistanceValues :=
           { mean := 0, max := 0, variance := 0, standardDev := 0, skewness := -2, kurtosis := 0 } } :
        clustering_stats Int) = -2 := by
  decide

/-! ### Runs on points of a line -/

set_option maxRecDepth 1000000 in
set_option maxHeartbeats 4000000 in
theorem do_run_six_digest :
    (hdbscan_do_run (1000000 : ℚ) 0 (List.replicate 6 0) (List.replicate 6 0)
      (lineState data6 6 2)).map runDigest =
      some ((some [3, 3, 3, 2, 2, 2], [1, 1, 1, 1, 1, 1], [3, 3, 3, 2, 2, 2]),
        (some 1, some 1, some 1)) := by
  decide

set_option maxRecDepth 1000000 in
set_option maxHeartbeats 4000000 in
theorem do_run_four_digest :
    (hdbscan_do_run (1000000 : ℚ) 0 (List.replicate 4 0) (List.replicate 4 0)
      (lineState data4 4 2)).map runDigest =
      some ((some [0, 0, 0, 0], [1, 1, 2, 1], [1, 1, 1, 1]),
        (some 1000000, none, none)) := by
  decide

theorem pairDistance_line (sqrt : ℚ → ℚ)
    (hsqrt : ∀ z : ℤ, sqrt ((z : ℚ) * (z : ℚ)) = ((|z| : ℤ) : ℚ)) (data : Nat → ℤ)
    (i j : Nat) : pairDistance intDiff sqrt data 1 i j = ((|data i - data j| : ℤ) : ℚ) := by
  unfold pairDistance intDiff
  have h1 : List.range 1 = [0] := rfl
  rw [h1]
  simp only [List.foldl_cons, List.foldl_nil, zero_add, Nat.mul_one, Nat.add_zero]
  exact hsqrt _

theorem fillDistances_line (sqrt : ℚ → ℚ)
    (hsqrt : ∀ z : ℤ, sqrt ((z : ℚ) * (z : ℚ)) = ((|z| : ℤ) : ℚ)) (data : Nat → ℤ) (N : Nat)
    (distances : List ℚ) (hlen : distances.length = (N * N - N) / 2)
    (hpl : (trianglePairs N).length = (N * N - N) / 2)
    (hp : ∀ k, k < (N * N - N) / 2 →
      ((trianglePairs N).getD k (0, 0)).1 < ((trianglePairs N).getD k (0, 0)).2 ∧
        ((trianglePairs N).getD k (0, 0)).2 < N ∧
        triIndex N ((trianglePairs N).getD k (0, 0)).1 ((trianglePairs N).getD k (0, 0)).2 = k) :
    fillDistances intDiff sqrt data N 1 distances = lineDistances data N := by
  have hl1 : (fillDistances intDiff sqrt data N 1 distances).length = (N * N - N) / 2 := by
    rw [fillDistances_length, hlen]
  have hl2 : (lineDistances data N).length = (N * N - N) / 2 := by
    unfold lineDistances
    rw [List.length_map, hpl]
  apply List.ext_getElem (by rw [hl1, hl2])
  intro k h1 h2
  rw [hl1] at h1
  obtain ⟨hlt, hN, hk⟩ := hp k h1
  have e1 : (fillDistances intDiff sqrt data N 1 distances).getD k 0 =
      ((|data ((trianglePairs N).getD k (0, 0)).1 - data ((trianglePairs N).getD k (0, 0)).2| : ℤ) : ℚ) := by
    conv_lhs => rw [← hk]
    rw [fillDistances_getD intDiff sqrt data N 1 distances hlen 0 _ _ hlt hN]
    exact pairDistance_line sqrt hsqrt data _ _
  have e2 : (lineDistances data N).getD k 0 =
      ((|data ((trianglePairs N).getD k (0, 0)).1 - data ((trianglePairs N).getD k (0, 0)).2| : ℤ) : ℚ) := by
    unfold lineDistances
    rw [List.getD_eq_getElem _ _ (by rw [List.length_map, hpl]; exact h1), List.getElem_map,
      List.getD_eq_getElem _ _ (by rw [hpl]; exact h1)]
  rw [List.getD_eq_getElem _ _ (by rw [hl1]; exact h1)] at e1
  rw [List.getD_eq_getElem _ _ (by rw [hl2]; exact h1)] at e2
  rw [e1, e2]

theorem run_state_line (sqrt : ℚ → ℚ)
    (hsqrt : ∀ z : ℤ, sqrt ((z : ℚ) * (z : ℚ)) = ((|z| : ℤ) : ℚ)) (uninit : Nat → ℚ)
    (data : Nat → ℤ) (N mpts : Nat)
    (hpl : (trianglePairs N).length = (N * N - N) / 2)
    (hp : ∀ k, k < (N * N - N) / 2 →
      ((trianglePairs N).getD k (0, 0)).1 < ((trianglePairs N).getD k (0, 0)).2 ∧
        ((trianglePairs N).getD k (0, 0)).2 < N ∧
        triIndex N ((trianglePairs N).getD k (0, 0)).1 ((trianglePairs N).getD k (0, 0)).2 = k) :
    hdbscan_run_state 1000000 intDiff sqrt uninit (hdbscan_init emptyEngine mpts) data N 1 1 =
      lineState data N mpts := by
  unfold hdbscan_run_state lineState distance_compute
  rw [fillDistances_line sqrt hsqrt data N _ (by simp) hpl hp]
  rfl

theorem sqrtQ_sq (z : ℤ) : sqrtQ ((z : ℚ) * (z : ℚ)) = ((|z| : ℤ) : ℚ) := by
  unfold sqrtQ
  have h : ((z : ℚ) * (z : ℚ)) = ((z * z : ℤ) : ℚ) := by push_cast; ring
  rw [h, Rat.num_intCast, Int.natAbs_mul, Nat.sqrt_eq]
  rw [← Int.cast_natCast, Int.natCast_natAbs]

theorem trianglePairs_six :
    (trianglePairs 6).length = (6 * 6 - 6) / 2 ∧
    ∀ k, k < (6 * 6 - 6) / 2 →
      ((trianglePairs 6).getD k (0, 0)).1 < ((trianglePairs 6).getD k (0, 0)).2 ∧
        ((trianglePairs 6).getD k (0, 0)).2 < 6 ∧
        triIndex 6 ((trianglePairs 6).getD k (0, 0)).1 ((trianglePairs 6).getD k (0, 0)).2 = k := by
  decide

set_option maxRecDepth 100000 in
theorem trianglePairs_twenty :
    (trianglePairs 20).length = (20 * 20 - 20) / 2 ∧
    ∀ k, k < (20 * 20 - 20) / 2 →
      ((trianglePairs 20).getD k (0, 0)).1 < ((trianglePairs 20).getD k (0, 0)).2 ∧
        ((trianglePairs 20).getD k (0, 0)).2 < 20 ∧
        triIndex 20 ((trianglePairs 20).getD k (0, 0)).1 ((trianglePairs 20).getD k (0, 0)).2 = k := by
  decide

set_option maxRecDepth 1000000 in
set_option maxHeartbeats 4000000 in
theorem do_run_chain_digest :
    (hdbscan_do_run (1000000 : ℚ) 0 (List.replicate 20 0) (List.replicate 20 0)
      (lineState dataChain 20 3)).map runDigest =
      some ((some (List.replicate 20 0), 
        [2, 1, 1, 1, 1, 1, 1, 1, 1, 1, 1, 1, 1, 1, 1, 1, 1, 1, 1, 2], List.replicate 20 1),
        (some 1000000, none, none)) := by
  decide

theorem run_six_points (sqrt : ℚ → ℚ)
    (hsqrt : ∀ z : ℤ, sqrt ((z : ℚ) * (z : ℚ)) = ((|z| : ℤ) : ℚ)) (uninit : Nat → ℚ) :
    ∃ r, hdbscan_run 1000000 0 intDiff sqrt uninit (List.replicate 6 0) (List.replicate 6 0)
        (hdbscan_init emptyEngine 2) data6 6 1 1 = some r ∧
      runDigest r = ((some [3, 3, 3, 2, 2, 2], [1, 1, 1, 1, 1, 1], [3, 3, 3, 2, 2, 2]),
        (some 1, some 1, some 1)) := by
  unfold hdbscan_run
  rw [run_state_line sqrt hsqrt uninit data6 6 2 trianglePairs_six.1 trianglePairs_six.2]
  exact Option.map_eq_some'.mp do_run_six_digest

theorem run_chain (sqrt : ℚ → ℚ)
    (hsqrt : ∀ z : ℤ, sqrt ((z : ℚ) * (z : ℚ)) = ((|z| : ℤ) : ℚ)) (uninit : Nat → ℚ) :
    ∃ r, hdbscan_run 1000000 0 intDiff sqrt uninit (List.replicate 20 0) (List.replicate 20 0)
        (hdbscan_init emptyEngine 3) dataChain 20 1 1 = some r ∧
      runDigest r = ((some (List.replicate 20 0),
        [2, 1, 1, 1, 1, 1, 1, 1, 1, 1, 1, 1, 1, 1, 1, 1, 1, 1, 1, 2], List.replicate 20 1),
        (some 1000000, none, none)) := by
  unfold hdbscan_run
  rw [run_state_line sqrt hsqrt uninit dataChain 20 3 trianglePairs_twenty.1
    trianglePairs_twenty.2]
  exact Option.map_eq_some'.mp do_run_chain_digest

theorem do_run_clusters_none {α : Type} [LinearOrderedField α] (D_MAX NAN : α)
    (pointNoiseLevels : List α) (pointLastClusters : List Nat) (sc : hdbscan α)
    (h : sc.clusters = none) :
    hdbscan_do_run D_MAX NAN pointNoiseLevels pointLastClusters sc = none := by
  unfold hdbscan_do_run
  rw [h]
  split <;> rfl

theorem hdbscan_rerun_none {α : Type} [LinearOrderedField α] (D_MAX NAN : α)
    (pointNoiseLevels : List α) (pointLastClusters : List Nat) (sc : hdbscan α) (minPts : Nat) :
    hdbscan_rerun D_MAX NAN pointNoiseLevels pointLastClusters sc minPts = none := by
  unfold hdbscan_rerun
  exact do_run_clusters_none D_MAX NAN _ _ _ rfl

theorem do_run_outlierScores {α : Type} [LinearOrderedField α] (D_MAX NAN : α)
    (pointNoiseLevels : List α) (pointLastClusters : List Nat) (sc : hdbscan α)
    (r : RunResult α)
    (h : hdbscan_do_run D_MAX NAN pointNoiseLevels pointLastClusters sc = some r) :
    r.sc.outlierScores = sc.outlierScores ∧ r.sc.numPoints = sc.numPoints ∧
      r.sc.distanceFunction = sc.distanceFunction := by
  unfold hdbscan_do_run at h
  split at h
  · cases h
  · split at h
    · split at h
      · cases h
      · split at h
        · cases h
        · split at h
          · cases h
          · cases h
            exact ⟨rfl, rfl, rfl⟩
    · cases h

theorem run_state_fields {α β : Type} [LinearOrderedField α] (D_MAX : α) (diff : β → β → α)
    (sqrt : α → α) (uninit : Nat → α) (sc : hdbscan α) (dataset : Nat → β)
    (rows cols rowwise : Nat) :
    (hdbscan_run_state D_MAX diff sqrt uninit sc dataset rows cols rowwise).numPoints =
        (if rowwise = 1 then rows else rows * cols % 4294967296) ∧
      (hdbscan_run_state D_MAX diff sqrt uninit sc dataset rows cols
        rowwise).distanceFunction.rows = rows ∧
      (hdbscan_run_state D_MAX diff sqrt uninit sc dataset rows cols
        rowwise).distanceFunction.cols = cols ∧
      (hdbscan_run_state D_MAX diff sqrt uninit sc dataset rows cols
        rowwise).distanceFunction.distances.length = (rows * rows - rows) / 2 ∧
      (hdbscan_run_state D_MAX diff sqrt uninit sc dataset rows cols
        rowwise).distanceFunction.coreDistances.length = rows := by
  refine ⟨rfl, rfl, rfl, ?_, ?_⟩
  · show (fillDistances diff sqrt dataset rows cols _).length = _
    rw [fillDistances_length]
    simp
  · show ((List.range rows).map _).length = rows
    simp

/-- C14: `hdbscan_rerun` right after a successful `hdbscan_run` has no result. The run on the
data set `0, 1, 2, 100, 101, 102` with `mpts = 2` succeeds with the labels
`3, 3, 3, 2, 2, 2`; `hdbscan_rerun` with the same `mpts` then sets `sc->clusters` and
`sc->hierarchy` to `NULL` and calls `hdbscan_do_run`, which works on these lists without
making them. -/
theorem rerun_after_run_fails :
    ∃ r, hdbscan_run 1000000 0 intDiff sqrtQ (fun _ => 0) (List.replicate 6 0)
        (List.replicate 6 0) (hdbscan_init emptyEngine 2) data6 6 1 1 = some r ∧
      r.sc.clusterLabels = some [3, 3, 3, 2, 2, 2] ∧
      hdbscan_rerun 1000000 0 (List.replicate 6 0) (List.replicate 6 0) r.sc 2 = none := by
  obtain ⟨r, hr, hd⟩ := run_six_points sqrtQ sqrtQ_sq (fun _ => 0)
  exact ⟨r, hr, congrArg (fun d => d.1.1) hd, hdbscan_rerun_none _ _ _ _ _ _⟩

/-- C15: after a successful `hdbscan_run` the engine holds no outlier scores. The run on the
data set `0, 1, 2, 100, 101, 102` with `mpts = 2` succeeds with the labels
`3, 3, 3, 2, 2, 2`, and `sc->outlierScores` is still `NULL`, as `hdbscan_init` has left it:
`hdbscan_do_run` does not call `hdbscsan_calculate_outlier_scores`. -/
theorem run_leaves_no_outlier_scores :
    ∃ r, hdbscan_run 1000000 0 intDiff sqrtQ (fun _ => 0) (List.replicate 6 0)
        (List.replicate 6 0) (hdbscan_init emptyEngine 2) data6 6 1 1 = some r ∧
      r.sc.clusterLabels = some [3, 3, 3, 2, 2, 2] ∧
      r.sc.outlierScores = none := by
  obtain ⟨r, hr, hd⟩ := run_six_points sqrtQ sqrtQ_sq (fun _ => 0)
  refine ⟨r, hr, congrArg (fun d => d.1.1) hd, ?_⟩
  unfold hdbscan_run at hr
  exact (do_run_outlierScores _ _ _ _ _ r hr).1

/-- C16: for `rows = 2`, `cols = 3` and `rowwise = 0`, `hdbscan_run` sets `numPoints` to 6,
but the distance store it fills is one over 2 rows: it holds one distance and two core
distances. -/
theorem run_not_rowwise_store :
    (hdbscan_run_state 1000000 intDiff sqrtQ (fun _ => 0) (hdbscan_init emptyEngine 2)
        dataChain 2 3 0).numPoints = 6 ∧
      (hdbscan_run_state 1000000 intDiff sqrtQ (fun _ => 0) (hdbscan_init emptyEngine 2)
        dataChain 2 3 0).distanceFunction.rows = 2 ∧
      (hdbscan_run_state 1000000 intDiff sqrtQ (fun _ => 0) (hdbscan_init emptyEngine 2)
        dataChain 2 3 0).distanceFunction.distances.length = 1 ∧
      (hdbscan_run_state 1000000 intDiff sqrtQ (fun _ => 0) (hdbscan_init emptyEngine 2)
        dataChain 2 3 0).distanceFunction.coreDistances.length = 2 := by
  obtain ⟨h1, h2, _, h4, h5⟩ := run_state_fields 1000000 intDiff sqrtQ (fun _ => 0)
    (hdbscan_init emptyEngine 2) dataChain 2 3 0
  exact ⟨h1, h2, h4, h5⟩

/-- C17: on the data set `0, 1, 2, 100, 101, 102` with `mpts = 2` the run (`distance_compute`,
`hdbscan_construct_mst`, the sort, the hierarchy construction, the propagation and
`hdbscan_find_prominent_clusters`) returns with the labels `A, A, A, B, B, B`, where `A = 3`
and `B = 2`, so `A ≠ B` and neither is 0. The square root is any function that is exact on the
squares of the integers. -/
theorem run_six_points_labels (sqrt : ℚ → ℚ)
    (hsqrt : ∀ z : ℤ, sqrt ((z : ℚ) * (z : ℚ)) = ((|z| : ℤ) : ℚ)) (uninit : Nat → ℚ) :
    ∃ r A B, hdbscan_run 1000000 0 intDiff sqrt uninit (List.replicate 6 0)
        (List.replicate 6 0) (hdbscan_init emptyEngine 2) data6 6 1 1 = some r ∧
      r.sc.clusterLabels = some [A, A, A, B, B, B] ∧ A = 3 ∧ B = 2 ∧
      A ≠ B ∧ A ≠ 0 ∧ B ≠ 0 := by
  obtain ⟨r, hr, hd⟩ := run_six_points sqrt hsqrt uninit
  exact ⟨r, 3, 2, hr, congrArg (fun d => d.1.1) hd, rfl, rfl, by decide, by decide, by decide⟩

/-- Witness of C17: the integer square root of the numerator, and a store that holds 7 in
every cell before it is filled. -/
theorem run_six_points_labels_witness :
    (∀ z : ℤ, sqrtQ ((z : ℚ) * (z : ℚ)) = ((|z| : ℤ) : ℚ)) ∧
    ∃ r A B, hdbscan_run 1000000 0 intDiff sqrtQ (fun _ => 7) (List.replicate 6 0)
        (List.replicate 6 0) (hdbscan_init emptyEngine 2) data6 6 1 1 = some r ∧
      r.sc.clusterLabels = some [A, A, A, B, B, B] ∧ A = 3 ∧ B = 2 ∧
      A ≠ B ∧ A ≠ 0 ∧ B ≠ 0 :=
  ⟨sqrtQ_sq, run_six_points_labels sqrtQ sqrtQ_sq (fun _ => 7)⟩

/-- C18, as it is in the code: on the chain `0, 1, …, 19` with `mpts = 3` the run returns and
all 20 points get the label 0. The root cluster never splits, and the flat partition is made
of the descendants of the root only. -/
theorem run_chain_all_noise (sqrt : ℚ → ℚ)
    (hsqrt : ∀ z : ℤ, sqrt ((z : ℚ) * (z : ℚ)) = ((|z| : ℤ) : ℚ)) (uninit : Nat → ℚ) :
    ∃ r, hdbscan_run 1000000 0 intDiff sqrt uninit (List.replicate 20 0)
        (List.replicate 20 0) (hdbscan_init emptyEngine 3) dataChain 20 1 1 = some r ∧
      r.sc.clusterLabels = some (List.replicate 20 0) := by
  obtain ⟨r, hr, hd⟩ := run_chain sqrt hsqrt uninit
  exact ⟨r, hr, congrArg (fun d => d.1.1) hd⟩

/-- Witness of C18 as amended: the integer square root of the numerator, and a store that
holds 7 in every cell before it is filled. -/
theorem run_chain_all_noise_witness :
    (∀ z : ℤ, sqrtQ ((z : ℚ) * (z : ℚ)) = ((|z| : ℤ) : ℚ)) ∧
    ∃ r, hdbscan_run 1000000 0 intDiff sqrtQ (fun _ => 7) (List.replicate 20 0)
        (List.replicate 20 0) (hdbscan_init emptyEngine 3) dataChain 20 1 1 = some r ∧
      r.sc.clusterLabels = some (List.replicate 20 0) :=
  ⟨sqrtQ_sq, run_chain_all_noise sqrtQ sqrtQ_sq (fun _ => 7)⟩

/-- C18 fails on the chain `0, 1, …, 19` with `mpts = 3`: the run returns, and there is no
label other than 0 that all 20 points carry, since they all carry the label 0. -/
theorem run_chain_no_cluster :
    ∃ r, hdbscan_run 1000000 0 intDiff sqrtQ (fun _ => 0) (List.replicate 20 0)
        (List.replicate 20 0) (hdbscan_init emptyEngine 3) dataChain 20 1 1 = some r ∧
      ¬ ∃ L, L ≠ 0 ∧ r.sc.clusterLabels = some (List.replicate 20 L) := by
  obtain ⟨r, hr, hd⟩ := run_chain sqrtQ sqrtQ_sq (fun _ => 0)
  refine ⟨r, hr, ?_⟩
  rintro ⟨L, hL, hlab⟩
  have h0 : r.sc.clusterLabels = some (List.replicate 20 0) := congrArg (fun d => d.1.1) hd
  rw [h0] at hlab
  have := congrArg (fun o => (o.getD []).getD 0 0) hlab
  simp at this
  exact hL this.symm

/-! ### The outlier scores -/

theorem outlierScoresLoop_spec {α : Type} [LinearOrderedField α] (clusters : ClusterList α)
    (coreDistances pointNoiseLevels : List α) (pointLastClusters : List Nat) :
    ∀ n, (∀ i, i < n → (clusters.getD (pointLastClusters.getD i 0) none).isSome = true) →
      ∃ scores, outlierScoresLoop clusters coreDistances pointNoiseLevels pointLastClusters n =
          some scores ∧
        scores.map (fun s => s.id) = List.range n ∧
        ∀ s, s ∈ scores → ∃ c, clusters.getD (pointLastClusters.getD s.id 0) none = some c ∧
          s.score = (if pointNoiseLevels.getD s.id 0 ≠ 0 then
            1 - c.propagatedLowestChildDeathLevel / pointNoiseLevels.getD s.id 0 else 0) ∧
          s.coreDistance = coreDistances.getD s.id 0 := by
  intro n
  induction n with
  | zero =>
    intro _
    exact ⟨[], rfl, rfl, fun s hs => by cases hs⟩
  | succ n ih =>
    intro hcl
    obtain ⟨scores, hs, hids, hall⟩ := ih (fun i hi => hcl i (by omega))
    obtain ⟨c, hc⟩ := Option.isSome_iff_exists.mp (hcl n (by omega))
    have hat : outlierScoreAt clusters coreDistances pointNoiseLevels pointLastClusters n =
        some
          { id := n
            score := if pointNoiseLevels.getD n 0 ≠ 0 then
              1 - c.propagatedLowestChildDeathLevel / pointNoiseLevels.getD n 0 else 0
            coreDistance := coreDistances.getD n 0 } := by
      unfold outlierScoreAt
      rw [hc]
    refine ⟨scores ++
      [{ id := n
         score := if pointNoiseLevels.getD n 0 ≠ 0 then
           1 - c.propagatedLowestChildDeathLevel / pointNoiseLevels.getD n 0 else 0
         coreDistance := coreDistances.getD n 0 }], ?_, ?_, ?_⟩
    · unfold outlierScoresLoop
      rw [hs, hat]
    · rw [List.map_append, hids, List.range_succ]
      rfl
    · intro s hmem
      rcases List.mem_append.mp hmem with h | h
      · exact hall s h
      · rw [List.mem_singleton.mp h]
        exact ⟨c, hc, rfl, rfl⟩

theorem outlier_score_le_total {α : Type} [LinearOrder α] :
    IsTotal (outlier_score α) outlier_score_le := by
  constructor
  intro a b
  unfold outlier_score_le
  rcases lt_trichotomy a.score b.score with h | h | h
  · exact Or.inl (Or.inl h)
  · rcases lt_trichotomy a.coreDistance b.coreDistance with h1 | h1 | h1
    · exact Or.inl (Or.inr ⟨h, Or.inl h1⟩)
    · rcases le_total a.id b.id with h2 | h2
      · exact Or.inl (Or.inr ⟨h, Or.inr ⟨h1, h2⟩⟩)
      · exact Or.inr (Or.inr ⟨h.symm, Or.inr ⟨h1.symm, h2⟩⟩)
    · exact Or.inr (Or.inr ⟨h.symm, Or.inl h1⟩)
  · exact Or.inr (Or.inl h)

theorem outlier_score_le_trans {α : Type} [LinearOrder α] :
    IsTrans (outlier_score α) outlier_score_le := by
  constructor
  intro a b c hab hbc
  unfold outlier_score_le at *
  rcases hab with h | ⟨h, h1⟩
  · rcases hbc with k | ⟨k, _⟩
    · exact Or.inl (lt_trans h k)
    · exact Or.inl (k ▸ h)
  · rcases hbc with k | ⟨k, k1⟩
    · exact Or.inl (h ▸ k)
    · refine Or.inr ⟨h.trans k, ?_⟩
      rcases h1 with h1 | ⟨h1, h2⟩
      · rcases k1 with k1 | ⟨k1, _⟩
        · exact Or.inl (lt_trans h1 k1)
        · exact Or.inl (k1 ▸ h1)
      · rcases k1 with k1 | ⟨k1, k2⟩
        · exact Or.inl (h1 ▸ k1)
        · exact Or.inr ⟨h1.trans k1, le_trans h2 k2⟩

theorem calculate_outlier_scores_spec {α : Type} [LinearOrderedField α]
    (clusters : ClusterList α) (coreDistances : List α) (numPoints : Nat)
    (pointNoiseLevels : List α) (pointLastClusters : List Nat)
    (hcl : ∀ i, i < numPoints →
      (clusters.getD (pointLastClusters.getD i 0) none).isSome = true) :
    ∃ scores, hdbscsan_calculate_outlier_scores clusters coreDistances numPoints
        pointNoiseLevels pointLastClusters = some scores ∧
      List.Perm (scores.map (fun s => s.id)) (List.range numPoints) ∧
      scores.Sorted outlier_score_le ∧
      ∀ s, s ∈ scores → ∃ c, clusters.getD (pointLastClusters.getD s.id 0) none = some c ∧
        s.score = (if pointNoiseLevels.getD s.id 0 ≠ 0 then
          1 - c.propagatedLowestChildDeathLevel / pointNoiseLevels.getD s.id 0 else 0) ∧
        s.coreDistance = coreDistances.getD s.id 0 := by
  obtain ⟨scores, hs, hids, hall⟩ := outlierScoresLoop_spec clusters coreDistances
    pointNoiseLevels pointLastClusters numPoints hcl
  haveI := @outlier_score_le_total α _
  haveI := @outlier_score_le_trans α _
  refine ⟨scores.insertionSort outlier_score_le, ?_, ?_, List.sorted_insertionSort _ _, ?_⟩
  · unfold hdbscsan_calculate_outlier_scores
    rw [hs]
    rfl
  · rw [← hids]
    exact (List.perm_insertionSort _ _).map _
  · intro s hmem
    exact hall s ((List.perm_insertionSort _ _).mem_iff.mp hmem)

theorem score_eq_zero_iff {α : Type} [LinearOrderedField α] (epsilon_max epsilon : α) :
    (if epsilon ≠ 0 then 1 - epsilon_max / epsilon else 0) = 0 ↔
      (epsilon = 0 ∨ epsilon_max = epsilon) := by
  by_cases h : epsilon = 0
  · rw [if_neg (not_not.mpr h)]
    exact ⟨fun _ => Or.inl h, fun _ => rfl⟩
  · rw [if_pos h]
    constructor
    · intro h1
      right
      have : epsilon_max / epsilon = 1 := by linarith
      rwa [div_eq_one_iff_eq h] at this
    · rintro (h1 | h1)
      · exact absurd h1 h
      · rw [h1, div_self h, sub_self]

theorem trianglePairs_four :
    (trianglePairs 4).length = (4 * 4 - 4) / 2 ∧
    ∀ k, k < (4 * 4 - 4) / 2 →
      ((trianglePairs 4).getD k (0, 0)).1 < ((trianglePairs 4).getD k (0, 0)).2 ∧
        ((trianglePairs 4).getD k (0, 0)).2 < 4 ∧
        triIndex 4 ((trianglePairs 4).getD k (0, 0)).1 ((trianglePairs 4).getD k (0, 0)).2 = k := by
  decide

theorem run_four_points (sqrt : ℚ → ℚ)
    (hsqrt : ∀ z : ℤ, sqrt ((z : ℚ) * (z : ℚ)) = ((|z| : ℤ) : ℚ)) (uninit : Nat → ℚ) :
    ∃ r, hdbscan_run 1000000 0 intDiff sqrt uninit (List.replicate 4 0) (List.replicate 4 0)
        (hdbscan_init emptyEngine 2) data4 4 1 1 = some r ∧
      runDigest r = ((some [0, 0, 0, 0], [1, 1, 2, 1], [1, 1, 1, 1]),
        (some 1000000, none, none)) ∧ r.sc.numPoints = 4 := by
  unfold hdbscan_run
  rw [run_state_line sqrt hsqrt uninit data4 4 2 trianglePairs_four.1 trianglePairs_four.2]
  obtain ⟨r, hr, hd⟩ := Option.map_eq_some'.mp do_run_four_digest
  exact ⟨r, hr, hd, (do_run_outlierScores _ _ _ _ _ r hr).2.1⟩

/-- C12: on the data set `0, 2, -2, 1` with `mpts = 2` the run returns;
`hdbscsan_calculate_outlier_scores`, called with the cluster list, the noise levels and the
last clusters of that run, returns, and the score of the point 0 is `1 - D_MAX / 1`, which is
negative (`D_MAX` is `1000000` here). The last cluster of every point is the root, which has
no children and has kept `propagatedLowestChildDeathLevel = D_MAX`. -/
theorem outlier_score_negative :
    ∃ r scores, hdbscan_run 1000000 0 intDiff sqrtQ (fun _ => 0) (List.replicate 4 0)
        (List.replicate 4 0) (hdbscan_init emptyEngine 2) data4 4 1 1 = some r ∧
      hdbscsan_calculate_outlier_scores (r.sc.clusters.getD [])
        r.sc.distanceFunction.coreDistances r.sc.numPoints r.pointNoiseLevels
        r.pointLastClusters = some scores ∧
      ∃ s, s ∈ scores ∧ s.id = 0 ∧ s.score = -999999 ∧ s.score < 0 := by
  obtain ⟨r, hr, hd, hn⟩ := run_four_points sqrtQ sqrtQ_sq (fun _ => 0)
  have hpnl : r.pointNoiseLevels = [1, 1, 2, 1] := congrArg (fun d => d.1.2.1) hd
  have hplc : r.pointLastClusters = [1, 1, 1, 1] := congrArg (fun d => d.1.2.2) hd
  have hroot : ((r.sc.clusters.getD []).getD 1 none).map
      (fun c => c.propagatedLowestChildDeathLevel) = some 1000000 :=
    congrArg (fun d => d.2.1) hd
  obtain ⟨c1, hc1, hp1⟩ := Option.map_eq_some'.mp hroot
  have hcl : ∀ i, i < r.sc.numPoints →
      ((r.sc.clusters.getD []).getD (r.pointLastClusters.getD i 0) none).isSome = true := by
    intro i hi
    rw [hn] at hi
    rw [hplc]
    have : ([1, 1, 1, 1] : List Nat).getD i 0 = 1 := by
      interval_cases i <;> rfl
    rw [this, hc1]
    rfl
  obtain ⟨scores, hs, hperm, _, hall⟩ := calculate_outlier_scores_spec (r.sc.clusters.getD [])
    r.sc.distanceFunction.coreDistances r.sc.numPoints r.pointNoiseLevels r.pointLastClusters hcl
  have h0 : 0 ∈ scores.map (fun s => s.id) := by
    rw [hperm.mem_iff, hn]
    decide
  obtain ⟨s, hsmem, hsid⟩ := List.mem_map.mp h0
  obtain ⟨c, hc, hscore, _⟩ := hall s hsmem
  have hsid0 : s.id = 0 := hsid
  rw [hsid0, hpnl] at hscore
  rw [hsid0, hplc] at hc
  have hcc : c = c1 := by
    have h1 : ([1, 1, 1, 1] : List Nat).getD 0 0 = 1 := rfl
    rw [h1, hc1] at hc
    exact (Option.some.inj hc).symm
  rw [hcc, hp1] at hscore
  have hval : s.score = -999999 := by
    rw [hscore]
    norm_num
  exact ⟨r, scores, hr, hs, s, hsmem, hsid0, hval, by rw [hval]; norm_num⟩

/-- C13 fails on the data set `0, 1, 2, 100, 101, 102` with `mpts = 2`: the run returns,
`hdbscsan_calculate_outlier_scores` returns on its results, and the score of the point 0 is
0 although `epsilon = pointNoiseLevels[0]` is 1: `epsilon_max` is 1 as well. -/
theorem outlier_score_zero_epsilon_one :
    ∃ r scores, hdbscan_run 1000000 0 intDiff sqrtQ (fun _ => 0) (List.replicate 6 0)
        (List.replicate 6 0) (hdbscan_init emptyEngine 2) data6 6 1 1 = some r ∧
      hdbscsan_calculate_outlier_scores (r.sc.clusters.getD [])
        r.sc.distanceFunction.coreDistances 6 r.pointNoiseLevels
        r.pointLastClusters = some scores ∧
      r.pointNoiseLevels.getD 0 0 = 1 ∧
      ∃ s, s ∈ scores ∧ s.id = 0 ∧ s.score = 0 ∧
        ¬ (s.score = 0 ↔ r.pointNoiseLevels.getD 0 0 = 0) := by
  obtain ⟨r, hr, hd⟩ := run_six_points sqrtQ sqrtQ_sq (fun _ => 0)
  have hpnl : r.pointNoiseLevels = [1, 1, 1, 1, 1, 1] := congrArg (fun d => d.1.2.1) hd
  have hplc : r.pointLastClusters = [3, 3, 3, 2, 2, 2] := congrArg (fun d => d.1.2.2) hd
  have h2 : ((r.sc.clusters.getD []).getD 2 none).map
      (fun c => c.propagatedLowestChildDeathLevel) = some 1 :=
    congrArg (fun d => d.2.2.1) hd
  have h3 : ((r.sc.clusters.getD []).getD 3 none).map
      (fun c => c.propagatedLowestChildDeathLevel) = some 1 :=
    congrArg (fun d => d.2.2.2) hd
  obtain ⟨c2, hc2, _⟩ := Option.map_eq_some'.mp h2
  obtain ⟨c3, hc3, hp3⟩ := Option.map_eq_some'.mp h3
  have hcl : ∀ i, i < 6 →
      ((r.sc.clusters.getD []).getD (r.pointLastClusters.getD i 0) none).isSome = true := by
    intro i hi
    rw [hplc]
    have : ([3, 3, 3, 2, 2, 2] : List Nat).getD i 0 = 3 ∨
        ([3, 3, 3, 2, 2, 2] : List Nat).getD i 0 = 2 := by
      interval_cases i
      · exact Or.inl rfl
      · exact Or.inl rfl
      · exact Or.inl rfl
      · exact Or.inr rfl
      · exact Or.inr rfl
      · exact Or.inr rfl
    rcases this with h | h
    · rw [h, hc3]; rfl
    · rw [h, hc2]; rfl
  obtain ⟨scores, hs, hperm, _, hall⟩ := calculate_outlier_scores_spec (r.sc.clusters.getD [])
    r.sc.distanceFunction.coreDistances 6 r.pointNoiseLevels r.pointLastClusters hcl
  have h0 : 0 ∈ scores.map (fun s => s.id) := by
    rw [hperm.mem_iff]
    decide
  obtain ⟨s, hsmem, hsid⟩ := List.mem_map.mp h0
  obtain ⟨c, hc, hscore, _⟩ := hall s hsmem
  have hsid0 : s.id = 0 := hsid
  rw [hsid0, hpnl] at hscore
  rw [hsid0, hplc] at hc
  have hcc : c = c3 := by
    have h1 : ([3, 3, 3, 2, 2, 2] : List Nat).getD 0 0 = 3 := rfl
    rw [h1, hc3] at hc
    exact (Option.some.inj hc).symm
  rw [hcc, hp3] at hscore
  have hval : s.score = 0 := by
    rw [hscore]
    norm_num
  have he : r.pointNoiseLevels.getD 0 0 = 1 := by rw [hpnl]; rfl
  refine ⟨r, scores, hr, hs, he, s, hsmem, hsid0, hval, ?_⟩
  rw [he]
  intro hiff
  exact one_ne_zero (hiff.mp hval)

/-- C13, as it is in the code: when every point has a last cluster in the cluster list,
`hdbscsan_calculate_outlier_scores` returns one score for every point id, and the score of
a point is 0 if and only if `epsilon = pointNoiseLevels[p]` is 0 or equals `epsilon_max`,
the `propagatedLowestChildDeathLevel` of the last cluster of the point. -/
theorem outlier_score_zero_iff {α : Type} [LinearOrderedField α]
    (clusters : ClusterList α) (coreDistances : List α) (numPoints : Nat)
    (pointNoiseLevels : List α) (pointLastClusters : List Nat)
    (hcl : ∀ i, i < numPoints →
      (clusters.getD (pointLastClusters.getD i 0) none).isSome = true) :
    ∃ scores, hdbscsan_calculate_outlier_scores clusters coreDistances numPoints
        pointNoiseLevels pointLastClusters = some scores ∧
      List.Perm (scores.map (fun s => s.id)) (List.range numPoints) ∧
      ∀ s, s ∈ scores → ∃ c, clusters.getD (pointLastClusters.getD s.id 0) none = some c ∧
        (s.score = 0 ↔ (pointNoiseLevels.getD s.id 0 = 0 ∨
          c.propagatedLowestChildDeathLevel = pointNoiseLevels.getD s.id 0)) := by
  obtain ⟨scores, hs, hperm, _, hall⟩ := calculate_outlier_scores_spec clusters coreDistances
    numPoints pointNoiseLevels pointLastClusters hcl
  refine ⟨scores, hs, hperm, ?_⟩
  intro s hmem
  obtain ⟨c, hc, hscore, _⟩ := hall s hmem
  refine ⟨c, hc, ?_⟩
  rw [hscore]
  exact score_eq_zero_iff _ _

/-- Witness of C13 as amended: a cluster list with the root only and two points, the first
with the noise level 2 and the second with the noise level 0. -/
theorem outlier_score_zero_iff_witness :
    (∀ i, i < 2 →
      (([none, some (cluster_init (1000 : ℚ) [none] 1 none 0 2).2] : ClusterList ℚ).getD
        (([1, 1] : List Nat).getD i 0) none).isSome = true) ∧
    ∃ scores, hdbscsan_calculate_outlier_scores
        ([none, some (cluster_init (1000 : ℚ) [none] 1 none 0 2).2] : ClusterList ℚ)
        [1, 1] 2 [2, 0] [1, 1] = some scores ∧
      List.Perm (scores.map (fun s => s.id)) (List.range 2) ∧
      ∀ s, s ∈ scores → ∃ c,
        ([none, some (cluster_init (1000 : ℚ) [none] 1 none 0 2).2] : ClusterList ℚ).getD
          (([1, 1] : List Nat).getD s.id 0) none = some c ∧
        (s.score = 0 ↔ (([2, 0] : List ℚ).getD s.id 0 = 0 ∨
          c.propagatedLowestChildDeathLevel = ([2, 0] : List ℚ).getD s.id 0)) :=
  ⟨by decide, outlier_score_zero_iff _ [1, 1] 2 [2, 0] [1, 1] (by decide)⟩

/-! ### The noise levels of the points -/

theorem foldl_incr_getD_untouched (points w : List Nat) (v : Nat) (hv : v ∉ points) :
    (points.foldl (fun w point => w.set point (w.getD point 0 + 1)) w).getD v 0 =
      w.getD v 0 := by
  induction points generalizing w with
  | nil => rfl
  | cons p ps ih =>
    rw [List.foldl_cons, ih _ (fun h => hv (List.mem_cons_of_mem _ h))]
    rw [getD_set_eq]
    rw [if_neg (show ¬(p = v ∧ p < w.length) from
      fun h => hv (h.1 ▸ List.mem_cons_self _ _))]

theorem assignNoise_noisePos {α : Type} [LinearOrderedField α] (D_MAX W : α)
    (st : HierarchyState α) (points : List Nat) (L : Nat) (hW : 0 < W) (h : NoisePos st) :
    NoisePos (assignNoise D_MAX st points L W) := by
  obtain ⟨hlen, hpos⟩ := h
  constructor
  · show (points.foldl (fun levels point => levels.set point W) st.pointNoiseLevels).length =
      (points.foldl (fun w point => w.set point (w.getD point 0 + 1)) st.noiseWrites).length
    rw [foldl_set_length (fun p : Nat => p) (fun _ => W), foldl_incr_length, hlen]
  · intro v hv hw
    have hv1 : v < st.noiseWrites.length := by
      have : (points.foldl (fun w point => w.set point (w.getD point 0 + 1))
          st.noiseWrites).length = st.noiseWrites.length := foldl_incr_length _ _
      rw [← this]
      exact hv
    show 0 < (points.foldl (fun levels point => levels.set point W) st.pointNoiseLevels).getD v 0
    by_cases hmem : v ∈ points
    · rw [foldl_set_getD_written (fun p : Nat => p) (fun _ => W) 0 v W points
        st.pointNoiseLevels ⟨v, hmem, rfl⟩ (fun _ _ _ => rfl) (by rw [hlen]; exact hv1)]
      exact hW
    · rw [foldl_set_getD_untouched (fun p : Nat => p) (fun _ => W) 0 v points
        st.pointNoiseLevels (fun y hy hyv => hmem (hyv ▸ hy))]
      apply hpos v hv1
      have hw1 : 1 ≤ (points.foldl (fun w point => w.set point (w.getD point 0 + 1))
          st.noiseWrites).getD v 0 := hw
      rw [foldl_incr_getD_untouched points st.noiseWrites v hmem] at hw1
      exact hw1

theorem resolveSubCluster_noisePos {α : Type} [LinearOrderedField α] (D_MAX W : α)
    (minPoints L : Nat) (st : HierarchyState α) (es : ExamineState) (hW : 0 < W)
    (h : NoisePos st) : NoisePos (resolveSubCluster D_MAX minPoints st es L W).1 := by
  unfold resolveSubCluster
  split
  · split
    · exact h
    · exact h
  · split
    · exact assignNoise_noisePos D_MAX W st _ L hW h
    · exact h

theorem examineRoots_noisePos {α : Type} [LinearOrderedField α] (D_MAX W : α)
    (minPoints L : Nat) (hW : 0 < W) :
    ∀ (fuel : Nat) (st st1 : HierarchyState α) (es es1 : ExamineState),
      NoisePos st → examineRoots D_MAX minPoints L W fuel st es = some (st1, es1) →
      NoisePos st1 := by
  intro fuel
  induction fuel with
  | zero =>
    intro st st1 es es1 hp h
    unfold examineRoots at h
    split at h
    · cases h; exact hp
    · cases h
  | succ fuel ih =>
    intro st st1 es es1 hp h
    unfold examineRoots at h
    split at h
    · cases h; exact hp
    · split at h
      · cases h
      · exact ih _ _ _ _ (resolveSubCluster_noisePos D_MAX W minPoints L st _ hW hp) h

theorem examineCluster_noisePos {α : Type} [LinearOrderedField α] (D_MAX W : α)
    (minPoints L : Nat) (hW : 0 < W) (st st1 : HierarchyState α) (hp : NoisePos st)
    (h : examineCluster D_MAX minPoints W st L = some st1) : NoisePos st1 := by
  unfold examineCluster at h
  split at h
  · cases h
  · rename_i st2 es2 hroots
    have h2 : NoisePos st2 := by
      refine examineRoots_noisePos D_MAX W minPoints L hW _ _ st2 _ es2 ?_ hroots
      exact hp
    split at h
    · split at h
      · cases h
      · cases h
        exact h2
    · cases h
      exact h2

theorem examineClusters_noisePos {α : Type} [LinearOrderedField α] (D_MAX W : α)
    (minPoints : Nat) (hW : 0 < W) :
    ∀ (pend : List Nat) (st st1 : HierarchyState α), NoisePos st →
      examineClusters D_MAX minPoints W pend st = some st1 → NoisePos st1 := by
  intro pend
  induction pend with
  | nil =>
    intro st st1 hp h
    cases h
    exact hp
  | cons L pend ih =>
    intro st st1 hp h
    unfold examineClusters at h
    split at h
    · cases h
    · rename_i st2 h2
      exact ih st2 st1 (examineCluster_noisePos D_MAX W minPoints L hW st st2 hp h2) h

theorem removeTiedEdges_noise {α : Type} [LinearOrder α] [Zero α] (W : α) :
    ∀ (n : Nat) (st : HierarchyState α),
      (removeTiedEdges W n st).pointNoiseLevels = st.pointNoiseLevels ∧
        (removeTiedEdges W n st).noiseWrites = st.noiseWrites := by
  intro n
  induction n with
  | zero =>
    intro st
    exact ⟨rfl, rfl⟩
  | succ n ih =>
    intro st
    unfold removeTiedEdges
    simp only
    split
    · split
      · exact ih _
      · exact ih _
    · exact ⟨rfl, rfl⟩

theorem hierarchyStep_noisePos {α : Type} [LinearOrderedField α] (D_MAX : α)
    (minPoints : Nat) (compactHierarchy : Bool) (st st1 : HierarchyState α)
    (hW : 0 < st.mst.edgeWeights.getD (st.edgeCount - 1) 0) (hp : NoisePos st)
    (h : hierarchyStep D_MAX minPoints compactHierarchy st = some st1) : NoisePos st1 := by
  have hrem := removeTiedEdges_noise (st.mst.edgeWeights.getD (st.edgeCount - 1) 0)
    st.edgeCount { st with newClusters := [] }
  have hp1 : NoisePos (removeTiedEdges (st.mst.edgeWeights.getD (st.edgeCount - 1) 0)
      st.edgeCount { st with newClusters := [] }) := by
    unfold NoisePos
    rw [hrem.1, hrem.2]
    exact hp
  unfold hierarchyStep at h
  simp only at h
  split at h
  · cases h
    exact hp1
  · split at h
    · cases h
    · rename_i st2 h2
      cases h
      have hp2 : NoisePos st2 := by
        refine examineClusters_noisePos D_MAX _ minPoints hW _ _ st2 ?_ h2
        exact hp1
      exact hp2

theorem hierarchyLoop_noisePos {α : Type} [LinearOrderedField α] (pos : Prop) (N : Nat)
    (A B : List Nat) (Wts : List α) (D_MAX : α) (minPoints : Nat) (compactHierarchy : Bool)
    (hpos : pos → ∀ i, i < Wts.length → 0 < Wts.getD i 0)
    (hall : ∀ i, i < Wts.length → 0 < Wts.getD i 0) :
    ∀ (fuel : Nat) (st st1 : HierarchyState α), HierInv pos N A B Wts st → NoisePos st →
      hierarchyLoop D_MAX minPoints compactHierarchy fuel st = some st1 → NoisePos st1 := by
  intro fuel
  induction fuel with
  | zero =>
    intro st st1 _ hp h
    unfold hierarchyLoop at h
    split at h
    · cases h; exact hp
    · cases h
  | succ fuel ih =>
    intro st st1 hinv hp h
    unfold hierarchyLoop at h
    split at h
    · cases h; exact hp
    · rename_i hne
      obtain ⟨st2, hs2, hinv2, _⟩ :=
        hierarchyStep_spec pos N A B Wts D_MAX minPoints compactHierarchy hpos st hinv hne
      rw [hs2] at h
      simp only at h
      have hW : 0 < st.mst.edgeWeights.getD (st.edgeCount - 1) 0 := by
        rw [hinv.core.vW]
        apply hall
        have := hinv.core.count_le
        omega
      exact ih st2 st1 hinv2 (hierarchyStep_noisePos D_MAX minPoints compactHierarchy st st2 hW
        hp hs2) h

theorem compute_hierarchy_noise_pos {α : Type} [LinearOrderedField α] (mst : graph α)
    (D_MAX NAN : α) (minPoints : Nat) (compactHierarchy : Bool)
    (pointNoiseLevels : List α) (pointLastClusters : List Nat)
    (hgraph : GraphOk mst.numVertices mst.verticesA mst.verticesB mst.edgeWeights.length
      mst.edges)
    (hinc : ∀ v, v < mst.numVertices → ∃ i, i < mst.edgeWeights.length ∧
      (mst.verticesA.getD i 0 = v ∨ mst.verticesB.getD i 0 = v))
    (hall : ∀ i, i < mst.edgeWeights.length → 0 < mst.edgeWeights.getD i 0)
    (hlen : pointNoiseLevels.length = mst.numVertices) :
    ∃ st, hdbscan_compute_hierarchy_and_cluster_tree D_MAX NAN minPoints mst
        compactHierarchy pointNoiseLevels pointLastClusters = some st ∧
      (∀ v, v < mst.numVertices → st.currentClusterLabels.getD v 0 = 0) ∧
      ∀ v, v < mst.numVertices → 0 < st.pointNoiseLevels.getD v 0 := by
  obtain ⟨st, hst, _, _, hlab, hw, _⟩ := compute_hierarchy_final False mst D_MAX NAN minPoints
    compactHierarchy pointNoiseLevels pointLastClusters hgraph hinc (fun h => h.elim)
  refine ⟨st, hst, hlab, ?_⟩
  unfold hdbscan_compute_hierarchy_and_cluster_tree at hst
  obtain ⟨st1, hl1, hmap⟩ := Option.map_eq_some'.mp hst
  have hinit := hierarchyInit_inv False mst D_MAX NAN pointNoiseLevels pointLastClusters
    hgraph hinc
  have hp0 : NoisePos (hierarchyInit D_MAX NAN mst pointNoiseLevels pointLastClusters) := by
    constructor
    · show pointNoiseLevels.length = (List.replicate mst.numVertices 0).length
      rw [hlen, List.length_replicate]
    · intro v _ hw0
      have hw1 : 1 ≤ (List.replicate mst.numVertices 0).getD v 0 := hw0
      rw [getD_replicate] at hw1
      omega
  have hp1 : NoisePos st1 := hierarchyLoop_noisePos False mst.numVertices mst.verticesA
    mst.verticesB mst.edgeWeights D_MAX minPoints compactHierarchy (fun h => h.elim) hall
    mst.edgeWeights.length _ st1 hinit hp0 hl1
  have e1 : st.pointNoiseLevels = st1.pointNoiseLevels := by rw [← hmap]
  have e2 : st.noiseWrites = st1.noiseWrites := by rw [← hmap]
  intro v hv
  rw [e1]
  have hwv := hw v hv
  rw [e2] at hwv
  apply hp1.2 v
  · by_contra hge
    have : st1.noiseWrites.getD v 0 = 0 := List.getD_eq_default _ _ (by omega)
    omega
  · omega

theorem zip_map_triples {α : Type} (l : List (Nat × Nat × α)) :
    (l.map (fun e => e.1)).zip ((l.map (fun e => e.2.1)).zip (l.map (fun e => e.2.2))) = l := by
  induction l with
  | nil => rfl
  | cons e l ih =>
    simp only [List.map_cons, List.zip_cons_cons, ih]

theorem graph_quicksort_sorted {α : Type} [LinearOrder α] (g : graph α) :
    SortedByEdgeWeight g (graph_quicksort_by_edge_weight g) := by
  haveI : IsTotal (Nat × Nat × α) (fun e f => e.2.2 ≤ f.2.2) := ⟨fun e f => le_total _ _⟩
  haveI : IsTrans (Nat × Nat × α) (fun e f => e.2.2 ≤ f.2.2) :=
    ⟨fun _ _ _ h1 h2 => le_trans h1 h2⟩
  refine ⟨rfl, rfl, ?_, ?_, ?_, ?_⟩
  · show (List.map _ _).length = (List.map _ _).length
    rw [List.length_map, List.length_map]
  · show (List.map _ _).length = (List.map _ _).length
    rw [List.length_map, List.length_map]
  · show List.Perm ((List.map _ _).zip ((List.map _ _).zip (List.map _ _))) _
    rw [zip_map_triples]
    exact List.perm_insertionSort _ _
  · show List.Sorted (· ≤ ·) (List.map _ _)
    have hs := List.sorted_insertionSort (fun e f : Nat × Nat × α => e.2.2 ≤ f.2.2)
      (g.verticesA.zip (g.verticesB.zip g.edgeWeights))
    exact List.pairwise_map.mpr hs

theorem graph_quicksort_weights_pos {α : Type} [LinearOrder α] [Zero α] (g : graph α)
    (hpos : ∀ i, i < g.edgeWeights.length → 0 < g.edgeWeights.getD i 0) :
    ∀ i, i < (graph_quicksort_by_edge_weight g).edgeWeights.length →
      0 < (graph_quicksort_by_edge_weight g).edgeWeights.getD i 0 := by
  intro i hi
  have hmem : (graph_quicksort_by_edge_weight g).edgeWeights.getD i 0 ∈
      (graph_quicksort_by_edge_weight g).edgeWeights := by
    rw [List.getD_eq_getElem _ _ hi]
    exact List.getElem_mem _
  have hmem1 : (graph_quicksort_by_edge_weight g).edgeWeights.getD i 0 ∈
      List.map (fun e : Nat × Nat × α => e.2.2)
        ((g.verticesA.zip (g.verticesB.zip g.edgeWeights)).insertionSort
          (fun e f => e.2.2 ≤ f.2.2)) := hmem
  obtain ⟨e, he, hew⟩ := List.mem_map.mp hmem1
  have he1 : e ∈ g.verticesA.zip (g.verticesB.zip g.edgeWeights) :=
    (List.perm_insertionSort _ _).mem_iff.mp he
  have he2 : e.2 ∈ g.verticesB.zip g.edgeWeights := (List.of_mem_zip he1).2
  have he3 : e.2.2 ∈ g.edgeWeights := (List.of_mem_zip he2).2
  obtain ⟨k, hk, hke⟩ := List.getElem_of_mem he3
  rw [← hew, ← hke, ← List.getD_eq_getElem _ 0 hk]
  exact hpos k hk

theorem do_run_stages {α : Type} [LinearOrderedField α] (D_MAX NAN : α)
    (pointNoiseLevels : List α) (pointLastClusters : List Nat) (sc : hdbscan α)
    (r : RunResult α)
    (h : hdbscan_do_run D_MAX NAN pointNoiseLevels pointLastClusters sc = some r) :
    ∃ g st, hdbscan_construct_mst D_MAX sc.distanceFunction sc.numPoints sc.selfEdges = some g ∧
      hdbscan_compute_hierarchy_and_cluster_tree D_MAX NAN sc.minPoints
        (graph_quicksort_by_edge_weight
          (graph_init sc.numPoints g.verticesA g.verticesB g.edgeWeights))
        false pointNoiseLevels pointLastClusters = some st ∧
      r.pointNoiseLevels = st.pointNoiseLevels ∧
      r.pointLastClusters = st.pointLastClusters := by
  unfold hdbscan_do_run at h
  split at h
  · cases h
  · rename_i g hg
    split at h
    · split at h
      · cases h
      · rename_i st hst
        split at h
        · cases h
        · split at h
          · cases h
          · cases h
            exact ⟨g, st, hg, hst, rfl, rfl⟩
    · cases h

/-- C11, as it is in the code: when the edges that `hdbscan_construct_mst` produces (with
self edges, for `numPoints ≥ 1`) all have positive weights, the hierarchy construction of
`hdbscan_do_run` on the sorted graph returns, every point `p` carries the label 0 at its end
and has `pointNoiseLevels[p] > 0`, and these are the noise levels that `hdbscan_do_run` ends
with. So every point has a positive noise level, whatever its final flat label. -/
theorem do_run_noise_levels_pos {α : Type} [LinearOrderedField α] (D_MAX NAN : α)
    (pointNoiseLevels : List α) (pointLastClusters : List Nat) (sc : hdbscan α)
    (g : MstEdges α) (hsize : 1 ≤ sc.numPoints) (hself : sc.selfEdges = true)
    (hlen : pointNoiseLevels.length = sc.numPoints)
    (hg : hdbscan_construct_mst D_MAX sc.distanceFunction sc.numPoints true = some g)
    (hpos : ∀ i, i < g.edgeWeights.length → 0 < g.edgeWeights.getD i 0) :
    ∃ st, hdbscan_compute_hierarchy_and_cluster_tree D_MAX NAN sc.minPoints
        (graph_quicksort_by_edge_weight
          (graph_init sc.numPoints g.verticesA g.verticesB g.edgeWeights))
        false pointNoiseLevels pointLastClusters = some st ∧
      (∀ p, p < sc.numPoints →
        st.currentClusterLabels.getD p 0 = 0 ∧ 0 < st.pointNoiseLevels.getD p 0) ∧
      ∀ r, hdbscan_do_run D_MAX NAN pointNoiseLevels pointLastClusters sc = some r →
        r.pointNoiseLevels = st.pointNoiseLevels := by
  have hsort := graph_quicksort_sorted
    (graph_init sc.numPoints g.verticesA g.verticesB g.edgeWeights)
  obtain ⟨hN, hmst⟩ := sorted_mst_selfLoopGraph D_MAX sc.distanceFunction sc.numPoints hsize g
    _ hg hsort
  obtain ⟨st, hst, hlab, hlev⟩ := compute_hierarchy_noise_pos
    (graph_quicksort_by_edge_weight
      (graph_init sc.numPoints g.verticesA g.verticesB g.edgeWeights))
    D_MAX NAN sc.minPoints false pointNoiseLevels pointLastClusters hmst.graph
    (fun v hv => by
      obtain ⟨i, hi, h1, _⟩ := hmst.selfLoops v hv
      exact ⟨i, hi, Or.inl h1⟩)
    (graph_quicksort_weights_pos _ hpos)
    (by rw [hN]; exact hlen)
  rw [hN] at hlab hlev
  refine ⟨st, hst, fun p hp => ⟨hlab p hp, hlev p hp⟩, ?_⟩
  intro r hr
  obtain ⟨g1, st1, hg1, hst1, hpnl, _⟩ := do_run_stages D_MAX NAN _ _ sc r hr
  rw [hself, hg] at hg1
  cases hg1
  rw [hst] at hst1
  cases hst1
  exact hpnl

set_option maxRecDepth 1000000 in
set_option maxHeartbeats 4000000 in
/-- Witness of C11 as amended: the four points `0, 2, -2, 1` with `mpts = 2`. -/
theorem do_run_noise_levels_pos_witness :
    ∃ st, hdbscan_compute_hierarchy_and_cluster_tree (1000000 : ℚ) 0 2
        (graph_quicksort_by_edge_weight
          (graph_init 4 [3, 3, 0, 0, 1, 2, 3] [0, 1, 2, 0, 1, 2, 3] [1, 1, 2, 1, 1, 2, 1]))
        false (List.replicate 4 0) (List.replicate 4 0) = some st ∧
      (∀ p, p < 4 →
        st.currentClusterLabels.getD p 0 = 0 ∧ 0 < st.pointNoiseLevels.getD p 0) ∧
      ∀ r, hdbscan_do_run 1000000 0 (List.replicate 4 0) (List.replicate 4 0)
          (lineState data4 4 2) = some r →
        r.pointNoiseLevels = st.pointNoiseLevels :=
  do_run_noise_levels_pos 1000000 0 (List.replicate 4 0) (List.replicate 4 0)
    (lineState data4 4 2)
    { verticesA := [3, 3, 0, 0, 1, 2, 3], verticesB := [0, 1, 2, 0, 1, 2, 3],
      edgeWeights := [1, 1, 2, 1, 1, 2, 1] }
    (by decide) rfl (by decide) (by decide) (by decide)

/-- C11 fails on the data set `0, 1, 2, 100, 101, 102` with `mpts = 2`: the run returns, the
point 0 has the final label 3 and the noise level 1, so its noise level is positive although
its label is not 0. -/
theorem noise_level_of_clustered_point :
    ∃ r, hdbscan_run 1000000 0 intDiff sqrtQ (fun _ => 0) (List.replicate 6 0)
        (List.replicate 6 0) (hdbscan_init emptyEngine 2) data6 6 1 1 = some r ∧
      r.sc.clusterLabels = some [3, 3, 3, 2, 2, 2] ∧
      r.pointNoiseLevels = [1, 1, 1, 1, 1, 1] ∧
      ¬ (0 < r.pointNoiseLevels.getD 0 0 ↔ (r.sc.clusterLabels.getD []).getD 0 0 = 0) := by
  obtain ⟨r, hr, hd⟩ := run_six_points sqrtQ sqrtQ_sq (fun _ => 0)
  have hlab : r.sc.clusterLabels = some [3, 3, 3, 2, 2, 2] := congrArg (fun d => d.1.1) hd
  have hpnl : r.pointNoiseLevels = [1, 1, 1, 1, 1, 1] := congrArg (fun d => d.1.2.1) hd
  refine ⟨r, hr, hlab, hpnl, ?_⟩
  rw [hlab, hpnl]
  decide

/-- Three identical points with `mpts = 2`: all edge weights are 0, the run returns, every
point has the final label 0 and the noise level 0. The positive edge weights are needed for
the noise levels to be positive. -/
theorem do_run_identical_points :
    (hdbscan_do_run (1000000 : ℚ) 0 (List.replicate 3 0) (List.replicate 3 0)
      (lineState dataConstant 3 2)).map runDigest =
      some ((some [0, 0, 0], [0, 0, 0], [1, 1, 1]), (some 1000000, none, none)) := by
  decide

/-! ### Sorting the clusters -/

theorem swapEntries_length {β : Type} (l : List β) (i j : Nat) (dflt : β) :
    (swapEntries l i j dflt).length = l.length := by
  unfold swapEntries
  rw [List.length_set, List.length_set]

theorem swapEntries_getD {β : Type} (l : List β) (a b : Nat) (dflt : β) (ha : a < l.length)
    (hb : b < l.length) (i : Nat) :
    (swapEntries l a b dflt).getD i dflt = l.getD (Equiv.swap a b i) dflt := by
  unfold swapEntries
  rw [getD_set_eq, getD_set_eq, List.length_set, Equiv.swap_apply_def]
  by_cases hia : i = a
  · rw [if_pos hia]
    by_cases hib : i = b
    · rw [if_pos ⟨hib.symm, hb⟩, ← hib, hia]
    · rw [if_neg (fun h => hib h.1.symm), if_pos ⟨hia.symm, ha⟩]
  · rw [if_neg hia]
    by_cases hib : i = b
    · rw [if_pos ⟨hib.symm, hb⟩, if_pos hib]
    · rw [if_neg (fun h => hib h.1.symm), if_neg (fun h => hia h.1.symm), if_neg hib]

theorem perm_maps_range (σ : Equiv.Perm Nat) (lo hi : Nat)
    (hfix : ∀ i, i < lo ∨ hi < i → σ i = i) (i : Nat) (h1 : lo ≤ i) (h2 : i ≤ hi) :
    lo ≤ σ i ∧ σ i ≤ hi := by
  by_contra hcon
  have hout : σ i < lo ∨ hi < σ i := by omega
  have h3 : σ (σ i) = σ i := hfix _ hout
  have h4 : σ i = i := σ.injective h3
  omega

theorem PermutedOn.refl {α : Type} [Zero α] (lo hi : Nat) (c : List Nat) (d : List α) :
    PermutedOn lo hi c d c d :=
  ⟨rfl, rfl, Equiv.refl _, fun _ _ => rfl, fun _ => ⟨rfl, rfl⟩⟩

theorem PermutedOn.trans {α : Type} [Zero α] {lo1 hi1 lo2 hi2 : Nat} (lo hi : Nat)
    {c c1 c2 : List Nat} {d d1 d2 : List α} (h1 : PermutedOn lo1 hi1 c d c1 d1)
    (h2 : PermutedOn lo2 hi2 c1 d1 c2 d2) (hlo1 : lo ≤ lo1) (hlo2 : lo ≤ lo2)
    (hhi1 : hi1 ≤ hi) (hhi2 : hi2 ≤ hi) : PermutedOn lo hi c d c2 d2 := by
  obtain ⟨hc1, hd1, σ1, hf1, hg1⟩ := h1
  obtain ⟨hc2, hd2, σ2, hf2, hg2⟩ := h2
  refine ⟨hc2.trans hc1, hd2.trans hd1, σ1 * σ2, ?_, ?_⟩
  · intro i hi
    rw [Equiv.Perm.mul_apply, hf2 i (by omega), hf1 i (by omega)]
  · intro i
    rw [Equiv.Perm.mul_apply, (hg2 i).1, (hg2 i).2, (hg1 _).1, (hg1 _).2]
    exact ⟨rfl, rfl⟩

theorem PermutedOn.swap {α : Type} [Zero α] (lo hi : Nat) (c : List Nat) (d : List α)
    (a b : Nat) (hlen : c.length = d.length) (hb : b < d.length) (hloa : lo ≤ a) (hab : a ≤ b)
    (hbhi : b ≤ hi) :
    PermutedOn lo hi c d (swapEntries c a b 0) (swapEntries d a b 0) := by
  refine ⟨swapEntries_length _ _ _ _, swapEntries_length _ _ _ _, Equiv.swap a b, ?_, ?_⟩
  · intro i hi
    exact Equiv.swap_apply_of_ne_of_ne (by omega) (by omega)
  · intro i
    exact ⟨swapEntries_getD c a b 0 (by omega) (by omega) i,
      swapEntries_getD d a b 0 (by omega) hb i⟩

theorem PermutedOn.outside {α : Type} [Zero α] {lo hi : Nat} {c c1 : List Nat}
    {d d1 : List α} (h : PermutedOn lo hi c d c1 d1) (i : Nat) (hi : i < lo ∨ hi < i) :
    c1.getD i 0 = c.getD i 0 ∧ d1.getD i 0 = d.getD i 0 := by
  obtain ⟨_, _, σ, hf, hg⟩ := h
  rw [(hg i).1, (hg i).2, hf i hi]
  exact ⟨rfl, rfl⟩

theorem PermutedOn.inside {α : Type} [Zero α] {lo hi : Nat} {c c1 : List Nat}
    {d d1 : List α} (h : PermutedOn lo hi c d c1 d1) (i : Nat) (h1 : lo ≤ i) (h2 : i ≤ hi) :
    ∃ j, lo ≤ j ∧ j ≤ hi ∧ c1.getD i 0 = c.getD j 0 ∧ d1.getD i 0 = d.getD j 0 := by
  obtain ⟨_, _, σ, hf, hg⟩ := h
  obtain ⟨h3, h4⟩ := perm_maps_range σ lo hi hf i h1 h2
  exact ⟨σ i, h3, h4, (hg i).1, (hg i).2⟩

theorem scanUp_spec {α : Type} [LinearOrder α] [Zero α] (d : List α) (x : α) (down : Nat) :
    ∀ (fuel up : Nat), up ≤ down → down - up ≤ fuel →
      ∃ r, scanUp d x down fuel up = some r ∧ up ≤ r ∧ r ≤ down ∧
        (∀ i, up ≤ i → i < r → d.getD i 0 ≤ x) ∧ (r < down → ¬ d.getD r 0 ≤ x) := by
  intro fuel
  induction fuel with
  | zero =>
    intro up h1 h2
    refine ⟨up, ?_, le_refl _, h1, fun i _ _ => by omega, fun h => by omega⟩
    unfold scanUp
    rw [if_neg (fun h => by omega)]
  | succ fuel ih =>
    intro up h1 h2
    unfold scanUp
    by_cases hc : up < down ∧ d.getD up 0 ≤ x
    · rw [if_pos hc]
      obtain ⟨r, hr, h3, h4, h5, h6⟩ := ih (up + 1) (by omega) (by omega)
      refine ⟨r, hr, by omega, h4, ?_, h6⟩
      intro i hi1 hi2
      by_cases hiu : i = up
      · rw [hiu]; exact hc.2
      · exact h5 i (by omega) hi2
    · rw [if_neg hc]
      refine ⟨up, rfl, le_refl _, h1, fun i _ _ => by omega, ?_⟩
      intro hlt hle
      exact hc ⟨hlt, hle⟩

theorem scanDown_spec {α : Type} [LinearOrder α] [Zero α] (d : List α) (x : α) (up : Nat) :
    ∀ (fuel down : Nat), up ≤ down → down - up ≤ fuel →
      ∃ r, scanDown d x up fuel down = some r ∧ up ≤ r ∧ r ≤ down ∧
        (∀ i, r < i → i ≤ down → x < d.getD i 0) ∧ (up < r → ¬ x < d.getD r 0) := by
  intro fuel
  induction fuel with
  | zero =>
    intro down h1 h2
    refine ⟨down, ?_, h1, le_refl _, fun i _ _ => by omega, fun h => by omega⟩
    unfold scanDown
    rw [if_neg (fun h => by omega)]
  | succ fuel ih =>
    intro down h1 h2
    unfold scanDown
    by_cases hc : up < down ∧ d.getD down 0 > x
    · rw [if_pos hc]
      obtain ⟨r, hr, h3, h4, h5, h6⟩ := ih (down - 1) (by omega) (by omega)
      refine ⟨r, hr, h3, by omega, ?_, h6⟩
      intro i hi1 hi2
      by_cases hiu : i = down
      · rw [hiu]; exact hc.2
      · exact h5 i hi1 (by omega)
    · rw [if_neg hc]
      refine ⟨down, rfl, h1, le_refl _, fun i _ _ => by omega, ?_⟩
      intro hlt hle
      exact hc ⟨hlt, hle⟩

theorem partitionLoop_spec {α : Type} [LinearOrder α] [Zero α] (x : α) (lower upper : Nat)
    (c0 : List Nat) (d0 : List α) (hlen0 : c0.length = d0.length) (hup : upper < d0.length) :
    ∀ (fuel : Nat) (c : List Nat) (d : List α) (up down : Nat),
      PartInv x lower upper c0 d0 c d up down →
      2 * (down - up) + (if d.getD up 0 ≤ x then 0 else 1) ≤ fuel →
      ∃ c1 d1 m, partitionLoop x fuel c d up down = some (c1, d1, m, m) ∧
        PartInv x lower upper c0 d0 c1 d1 m m := by
  intro fuel
  induction fuel with
  | zero =>
    intro c d up down hinv hfuel
    have hud := hinv.up_down
    have he : up = down := by omega
    subst he
    refine ⟨c, d, up, ?_, hinv⟩
    unfold partitionLoop
    rw [if_neg (lt_irrefl _)]
  | succ fuel ih =>
    intro c d up down hinv hfuel
    have hud := hinv.up_down
    unfold partitionLoop
    by_cases hlt : up < down
    · rw [if_pos hlt]
      obtain ⟨up1, hs1, h1a, h1b, h1c, h1d⟩ := scanUp_spec d x down (down - up) up hud
        (le_refl _)
      obtain ⟨down1, hs2, h2a, h2b, h2c, h2d⟩ := scanDown_spec d x up1 (down - up1) down h1b
        (le_refl _)
      rw [hs1]
      simp only
      rw [hs2]
      simp only
      have hbelow : ∀ i, lower < i → i < up1 → d.getD i 0 ≤ x := by
        intro i hi1 hi2
        by_cases hiu : i < up
        · exact hinv.below i hi1 hiu
        · exact h1c i (by omega) hi2
      have habove : ∀ i, down1 < i → i ≤ upper → x < d.getD i 0 := by
        intro i hi1 hi2
        by_cases hid : i ≤ down
        · exact h2c i hi1 hid
        · exact hinv.above i (by omega) hi2
      have hlo := hinv.lo_up
      have hdu := hinv.down_upper
      by_cases he : up1 = down1
      · rw [if_pos he]
        subst he
        exact ⟨c, d, up1, rfl, hinv.perm, by omega, le_refl _, by omega, hbelow, habove⟩
      · rw [if_neg he]
        have hlt1 : up1 < down1 := by omega
        have hlenc : c.length = d.length := by
          rw [hinv.perm.1, hinv.perm.2.1, hlen0]
        have hlend : d.length = d0.length := hinv.perm.2.1
        have hd1 : d.getD down1 0 ≤ x := not_lt.mp (h2d hlt1)
        have hu1 : ¬ d.getD up1 0 ≤ x := h1d (by omega)
        have hget : ∀ i, (swapEntries d up1 down1 0).getD i 0 =
            d.getD (Equiv.swap up1 down1 i) 0 :=
          swapEntries_getD d up1 down1 0 (by omega) (by omega)
        have hinv1 : PartInv x lower upper c0 d0 (swapEntries c up1 down1 0)
            (swapEntries d up1 down1 0) up1 down1 := by
          refine ⟨?_, by omega, by omega, by omega, ?_, ?_⟩
          · exact PermutedOn.trans (lower + 1) upper hinv.perm
              (PermutedOn.swap (lower + 1) upper c d up1 down1 hlenc (by omega) (by omega)
                (by omega) (by omega))
              (le_refl _) (le_refl _) (le_refl _) (le_refl _)
          · intro i hi1 hi2
            rw [hget, Equiv.swap_apply_of_ne_of_ne (by omega) (by omega)]
            exact hbelow i hi1 hi2
          · intro i hi1 hi2
            rw [hget, Equiv.swap_apply_of_ne_of_ne (by omega) (by omega)]
            exact habove i hi1 hi2
        apply ih _ _ _ _ hinv1
        have hle : (swapEntries d up1 down1 0).getD up1 0 ≤ x := by
          rw [hget, Equiv.swap_apply_left]
          exact hd1
        rw [if_pos hle]
        by_cases hsame : up1 = up ∧ down1 = down
        · obtain ⟨e1, e2⟩ := hsame
          rw [e1] at hu1
          rw [if_neg hu1] at hfuel
          omega
        · have : 2 * (down1 - up1) + 2 ≤ 2 * (down - up) := by omega
          omega
    · rw [if_neg hlt]
      have he : up = down := by omega
      subst he
      exact ⟨c, d, up, rfl, hinv⟩

theorem partition_spec {α : Type} [LinearOrder α] [Zero α] (c0 : List Nat) (d0 : List α)
    (lower upper : Nat) (hlen0 : c0.length = d0.length) (hlu : lower < upper)
    (hup : upper < d0.length) :
    ∃ c1 d1 p, partition c0 d0 lower upper = some (c1, d1, p) ∧
      lower ≤ p ∧ p ≤ upper ∧ PermutedOn lower upper c0 d0 c1 d1 ∧
      (∀ i, lower ≤ i → i < p → d1.getD i 0 ≤ d1.getD p 0) ∧
      (∀ i, p < i → i ≤ upper → d1.getD p 0 < d1.getD i 0) := by
  have hinit : PartInv (d0.getD lower 0) lower upper c0 d0 c0 d0 (lower + 1) upper :=
    ⟨PermutedOn.refl _ _ _ _, by omega, by omega, le_refl _, fun i _ _ => by omega,
      fun i _ _ => by omega⟩
  obtain ⟨c1, d1, m, hloop, hinv⟩ := partitionLoop_spec (d0.getD lower 0) lower upper c0 d0
    hlen0 hup (2 * (upper - lower)) c0 d0 (lower + 1) upper hinit (by split <;> omega)
  have hlo := hinv.lo_up
  have hdu := hinv.down_upper
  have hlenc : c1.length = d1.length := by rw [hinv.perm.1, hinv.perm.2.1, hlen0]
  have hlend : d1.length = d0.length := hinv.perm.2.1
  have hx : d1.getD lower 0 = d0.getD lower 0 := (hinv.perm.outside lower (by omega)).2
  have hx2 : c1.getD lower 0 = c0.getD lower 0 := (hinv.perm.outside lower (by omega)).1
  have hres : partition c0 d0 lower upper =
      some (swapEntries c1 lower (if d1.getD m 0 > d0.getD lower 0 then m - 1 else m) 0,
        swapEntries d1 lower (if d1.getD m 0 > d0.getD lower 0 then m - 1 else m) 0,
        if d1.getD m 0 > d0.getD lower 0 then m - 1 else m) := by
    unfold partition
    simp only
    rw [hloop]
    simp only
    unfold swapEntries
    rw [hx, hx2]
  generalize hp : (if d1.getD m 0 > d0.getD lower 0 then m - 1 else m) = p at hres
  have hpr : lower ≤ p ∧ p ≤ m ∧ d1.getD p 0 ≤ d0.getD lower 0 ∧
      (∀ i, p < i → i ≤ upper → d0.getD lower 0 < d1.getD i 0) := by
    by_cases hgt : d1.getD m 0 > d0.getD lower 0
    · rw [if_pos hgt] at hp
      subst hp
      refine ⟨by omega, by omega, ?_, ?_⟩
      · by_cases hlm : lower < m - 1
        · exact hinv.below (m - 1) hlm (by omega)
        · have : m - 1 = lower := by omega
          rw [this, hx]
      · intro i hi1 hi2
        by_cases him : i = m
        · rw [him]; exact hgt
        · exact hinv.above i (by omega) hi2
    · rw [if_neg hgt] at hp
      subst hp
      exact ⟨by omega, le_refl _, not_lt.mp hgt, fun i hi1 hi2 => hinv.above i hi1 hi2⟩
  obtain ⟨hp1, hp2, hp3, hp4⟩ := hpr
  have hget : ∀ i, (swapEntries d1 lower p 0).getD i 0 = d1.getD (Equiv.swap lower p i) 0 :=
    swapEntries_getD d1 lower p 0 (by omega) (by omega)
  have hpiv : (swapEntries d1 lower p 0).getD p 0 = d0.getD lower 0 := by
    rw [hget, Equiv.swap_apply_right, hx]
  refine ⟨_, _, p, hres, hp1, by omega, ?_, ?_, ?_⟩
  · exact PermutedOn.trans lower upper hinv.perm
      (PermutedOn.swap lower upper c1 d1 lower p hlenc (by omega) (le_refl _) hp1 (by omega))
      (by omega) (le_refl _) (le_refl _) (le_refl _)
  · intro i hi1 hi2
    rw [hpiv, hget]
    by_cases hil : i = lower
    · rw [hil, Equiv.swap_apply_left]
      exact hp3
    · rw [Equiv.swap_apply_of_ne_of_ne hil (by omega)]
      exact hinv.below i (by omega) (by omega)
  · intro i hi1 hi2
    rw [hpiv, hget, Equiv.swap_apply_of_ne_of_ne (by omega) (by omega)]
    exact hp4 i hi1 hi2

theorem quicksort_spec {α : Type} [LinearOrder α] [Zero α] :
    ∀ (fuel : Nat) (c : List Nat) (d : List α) (left right : Nat),
      c.length = d.length → right < d.length → right - left ≤ fuel →
      ∃ c1 d1, hdbscan_quicksort fuel c d left right = some (c1, d1) ∧
        PermutedOn left right c d c1 d1 ∧
        (∀ i j, left ≤ i → i ≤ j → j ≤ right → d1.getD i 0 ≤ d1.getD j 0) ∧
        (right ≤ left → c1 = c ∧ d1 = d) := by
  intro fuel
  induction fuel with
  | zero =>
    intro c d left right _ _ hfuel
    refine ⟨c, d, ?_, PermutedOn.refl _ _ _ _, ?_, fun _ => ⟨rfl, rfl⟩⟩
    · unfold hdbscan_quicksort
      rw [if_neg (by omega)]
    · intro i j h1 h2 h3
      have : i = j := by omega
      rw [this]
  | succ fuel ih =>
    intro c d left right hlen hr hfuel
    unfold hdbscan_quicksort
    by_cases hlt : left < right
    · rw [if_pos hlt]
      obtain ⟨c1, d1, p, hpart, hp1, hp2, hperm1, hbelow, habove⟩ :=
        partition_spec c d left right hlen hlt hr
      rw [hpart]
      simp only
      have hlen1 : c1.length = d1.length := by rw [hperm1.1, hperm1.2.1, hlen]
      have hd1 : d1.length = d.length := hperm1.2.1
      obtain ⟨c2, d2, hq2, hperm2, hsorted2, hsame2⟩ :=
        ih c1 d1 left (p - 1) hlen1 (by omega) (by omega)
      rw [hq2]
      simp only
      have hlen2 : c2.length = d2.length := by rw [hperm2.1, hperm2.2.1, hlen1]
      have hd2 : d2.length = d1.length := hperm2.2.1
      obtain ⟨c3, d3, hq3, hperm3, hsorted3, _⟩ :=
        ih c2 d2 (p + 1) right hlen2 (by omega) (by omega)
      refine ⟨c3, d3, hq3, ?_, ?_, fun h => by omega⟩
      · exact PermutedOn.trans left right
          (PermutedOn.trans left right hperm1 hperm2 (le_refl _) (le_refl _) (le_refl _)
            (by omega))
          hperm3 (le_refl _) (by omega) (le_refl _) (le_refl _)
      · have hA : ∀ i, left ≤ i → i < p → d2.getD i 0 ≤ d1.getD p 0 := by
          intro i hi1 hi2
          obtain ⟨j, hj1, hj2, _, hj4⟩ := hperm2.inside i hi1 (by omega)
          rw [hj4]
          exact hbelow j hj1 (by omega)
        have hB : d2.getD p 0 = d1.getD p 0 := by
          by_cases hp0 : p - 1 ≤ left
          · rw [(hsame2 hp0).2]
          · exact (hperm2.outside p (by omega)).2
        have hC : ∀ i, p < i → i ≤ right → d1.getD p 0 < d2.getD i 0 := by
          intro i hi1 hi2
          rw [(hperm2.outside i (by omega)).2]
          exact habove i hi1 hi2
        have hD : ∀ i, i ≤ p → d3.getD i 0 = d2.getD i 0 := by
          intro i hi
          exact (hperm3.outside i (by omega)).2
        have hE : ∀ i, p < i → i ≤ right → d1.getD p 0 < d3.getD i 0 := by
          intro i hi1 hi2
          obtain ⟨j, hj1, hj2, _, hj4⟩ := hperm3.inside i (by omega) hi2
          rw [hj4]
          exact hC j (by omega) hj2
        intro i j hi hij hj
        rcases Nat.lt_trichotomy j p with hjp | hjp | hjp
        · rw [hD i (by omega), hD j (by omega)]
          exact hsorted2 i j hi hij (by omega)
        · rcases Nat.lt_or_ge i p with hip | hip
          · rw [hD i (by omega), hD j (by omega), hjp, hB]
            exact hA i hi hip
          · have : i = j := by omega
            rw [this]
        · rcases Nat.lt_trichotomy i p with hip | hip | hip
          · rw [hD i (by omega)]
            exact le_of_lt (lt_of_le_of_lt (hA i hi hip) (hE j hjp hj))
          · rw [hD i (by omega), hip, hB]
            exact le_of_lt (hE j hjp hj)
          · exact hsorted3 i j (by omega) hij hj
    · rw [if_neg hlt]
      refine ⟨c, d, rfl, PermutedOn.refl _ _ _ _, ?_, fun _ => ⟨rfl, rfl⟩⟩
      intro i j h1 h2 h3
      have : i = j := by omega
      rw [this]

theorem perm_of_index_perm {β : Type} (l l1 : List β) (dflt : β) (σ : Equiv.Perm Nat)
    (hlen : l1.length = l.length) (hfix : ∀ i, l.length ≤ i → σ i = i)
    (hget : ∀ i, l1.getD i dflt = l.getD (σ i) dflt) : l1.Perm l := by
  have hlt : ∀ i, i < l.length → σ i < l.length := by
    intro i hi
    by_contra hcon
    have h1 : σ (σ i) = σ i := hfix _ (by omega)
    have h2 : σ i = i := σ.injective h1
    omega
  have hlt' : ∀ a, a < l.length → σ.symm a < l.length := by
    intro a ha
    by_contra hcon
    have h1 : σ (σ.symm a) = σ.symm a := hfix _ (by omega)
    rw [Equiv.apply_symm_apply] at h1
    omega
  have h1 : l1 = ((List.range l.length).map σ).map (fun i => l.getD i dflt) := by
    apply List.ext_getElem
    · simp [hlen]
    · intro i hi1 hi2
      rw [← List.getD_eq_getElem l1 dflt hi1, hget i]
      simp
  have h2 : l = (List.range l.length).map (fun i => l.getD i dflt) := by
    apply List.ext_getElem
    · simp
    · intro i hi1 hi2
      rw [List.getElem_map, List.getElem_range, List.getD_eq_getElem _ _ hi1]
  have h3 : ((List.range l.length).map σ).Perm (List.range l.length) := by
    apply (List.perm_ext_iff_of_nodup ((List.nodup_range _).map σ.injective)
      (List.nodup_range _)).mpr
    intro a
    rw [List.mem_map, List.mem_range]
    constructor
    · rintro ⟨i, hi, rfl⟩
      exact hlt i (List.mem_range.mp hi)
    · intro ha
      exact ⟨σ.symm a, List.mem_range.mpr (hlt' a ha), Equiv.apply_symm_apply _ _⟩
  rw [h1]
  conv_rhs => rw [h2]
  exact h3.map _

theorem zip_getD_pair {β γ : Type} (c : List β) (d : List γ) (hlen : c.length = d.length)
    (a : β) (b : γ) (i : Nat) : (c.zip d).getD i (a, b) = (c.getD i a, d.getD i b) := by
  by_cases hi : i < c.length
  · rw [List.getD_eq_getElem _ _ (by rw [List.length_zip]; omega), List.getElem_zip,
      List.getD_eq_getElem _ _ hi, List.getD_eq_getElem _ _ (by omega)]
  · rw [List.getD_eq_default _ _ (by rw [List.length_zip]; omega),
      List.getD_eq_default _ _ (by omega), List.getD_eq_default _ _ (by omega)]

theorem PermutedOn.perm_zip {α : Type} [Zero α] {lo hi : Nat} {c c1 : List Nat}
    {d d1 : List α} (h : PermutedOn lo hi c d c1 d1) (hlen : c.length = d.length)
    (hhi : hi < d.length) : List.Perm (c1.zip d1) (c.zip d) := by
  obtain ⟨hc, hd, σ, hf, hg⟩ := h
  apply perm_of_index_perm (c.zip d) (c1.zip d1) (0, 0) σ
  · rw [List.length_zip, List.length_zip, hc, hd]
  · intro i hi1
    rw [List.length_zip] at hi1
    exact hf i (by omega)
  · intro i
    rw [zip_getD_pair c1 d1 (by omega), zip_getD_pair c d hlen, (hg i).1, (hg i).2]

theorem PermutedOn.perm_fst {α : Type} [Zero α] {lo hi : Nat} {c c1 : List Nat}
    {d d1 : List α} (h : PermutedOn lo hi c d c1 d1) (hhi : hi < c.length) :
    List.Perm c1 c := by
  obtain ⟨hc, _, σ, hf, hg⟩ := h
  exact perm_of_index_perm c c1 0 σ hc (fun i hi1 => hf i (by omega)) (fun i => (hg i).1)

theorem gatherSortData_spec {α : Type} [Zero α] (value : Nat → Option α) :
    ∀ keys : List Nat, (∀ k, k ∈ keys → (value k).isSome = true) →
      ∃ sortData, gatherSortData value keys = some sortData ∧
        sortData.length = keys.length ∧
        ∀ i, i < keys.length → value (keys.getD i 0) = some (sortData.getD i 0) := by
  intro keys
  induction keys with
  | nil =>
    intro _
    exact ⟨[], rfl, rfl, fun i hi => by simp at hi⟩
  | cons k keys ih =>
    intro hall
    obtain ⟨v, hv⟩ := Option.isSome_iff_exists.mp (hall k (List.mem_cons_self _ _))
    obtain ⟨ds, hds, hlen, hget⟩ := ih (fun k1 hk1 => hall k1 (List.mem_cons_of_mem _ hk1))
    refine ⟨v :: ds, ?_, by simp [hlen], ?_⟩
    · unfold gatherSortData
      rw [hv, hds]
    · intro i hi
      cases i with
      | zero => exact hv
      | succ i =>
        have := hget i (by simpa using hi)
        simpa using this

theorem hashtable_lookup_key {β : Type} (table : List (Nat × β)) (k : Nat)
    (h : k ∈ table.map (fun e => e.1)) : (hashtable_lookup table k).isSome = true := by
  unfold hashtable_lookup
  rw [Option.isSome_map', List.find?_isSome]
  obtain ⟨e, he, hek⟩ := List.mem_map.mp h
  exact ⟨e, he, by simpa using hek⟩

theorem sort_by_value_spec {α : Type} [LinearOrder α] [Zero α] (value : Nat → Option α)
    (keys : List Nat) (hall : ∀ k, k ∈ keys → (value k).isSome = true) :
    ∃ sortData res d1, gatherSortData value keys = some sortData ∧
      hdbscan_quicksort keys.length keys sortData 0 (keys.length - 1) = some (res, d1) ∧
      res.Perm keys ∧
      ∀ i j, i ≤ j → j < res.length →
        ∃ a b, value (res.getD i 0) = some a ∧ value (res.getD j 0) = some b ∧ a ≤ b := by
  obtain ⟨ds, hds, hlen, hget⟩ := gatherSortData_spec value keys hall
  by_cases hnil : keys.length = 0
  · have hk : keys = [] := List.length_eq_zero.mp hnil
    subst hk
    have hd : ds = [] := List.length_eq_zero.mp hlen
    subst hd
    refine ⟨[], [], [], hds, rfl, List.Perm.refl _, ?_⟩
    intro i j _ hj
    simp at hj
  · obtain ⟨res, d1, hq, hperm, hsorted, _⟩ := quicksort_spec keys.length keys ds 0
      (keys.length - 1) hlen.symm (by omega) (by omega)
    refine ⟨ds, res, d1, hds, hq, hperm.perm_fst (by omega), ?_⟩
    intro i j hij hj
    have hrl : res.length = keys.length := hperm.1
    rw [hrl] at hj
    obtain ⟨k1, _, hk1, hc1, hd1⟩ := hperm.inside i (Nat.zero_le _) (by omega)
    obtain ⟨k2, _, hk2, hc2, hd2⟩ := hperm.inside j (Nat.zero_le _) (by omega)
    refine ⟨d1.getD i 0, d1.getD j 0, ?_, ?_, hsorted i j (Nat.zero_le _) hij (by omega)⟩
    · rw [hc1, hd1]
      exact hget k1 (by omega)
    · rw [hc2, hd2]
      exact hget k2 (by omega)

theorem sort_by_similarity_spec {α : Type} [LinearOrder α] [Zero α] (CORE_DISTANCE_TYPE : Int)
    (distanceMap : List (Nat × distance_values α)) (clusters : Option (List Nat))
    (distanceType : Int)
    (hall : ∀ k, k ∈ clusters.getD [] → (hashtable_lookup distanceMap k).isSome = true) :
    ∃ res, hdbscan_sort_by_similarity CORE_DISTANCE_TYPE distanceMap clusters distanceType =
        some res ∧
      res.Perm (if (clusters.getD []).length = 0 then distanceMap.map (fun e => e.1)
        else clusters.getD []) ∧
      ∀ i j, i ≤ j → j < res.length →
        ∃ a b, clusterConfidence CORE_DISTANCE_TYPE distanceMap distanceType (res.getD i 0) =
            some a ∧
          clusterConfidence CORE_DISTANCE_TYPE distanceMap distanceType (res.getD j 0) =
            some b ∧ a ≤ b := by
  have hall1 : ∀ k, k ∈ (if (clusters.getD []).length = 0 then distanceMap.map (fun e => e.1)
      else clusters.getD []) →
      (clusterConfidence CORE_DISTANCE_TYPE distanceMap distanceType k).isSome = true := by
    intro k hk
    have hl : (hashtable_lookup distanceMap k).isSome = true := by
      split at hk
      · exact hashtable_lookup_key distanceMap k hk
      · exact hall k hk
    obtain ⟨dv, hdv⟩ := Option.isSome_iff_exists.mp hl
    unfold clusterConfidence
    rw [hdv]
    rfl
  obtain ⟨ds, res, d1, hds, hq, hperm, hsorted⟩ := sort_by_value_spec _ _ hall1
  refine ⟨res, ?_, hperm, hsorted⟩
  unfold hdbscan_sort_by_similarity
  simp only
  rw [hds]
  simp only
  rw [hq]
  rfl

theorem sort_by_length_spec (α : Type) [LinearOrderedField α]
    (clusterTable : List (Nat × List Nat)) (clusters : List Nat)
    (hall : ∀ k, k ∈ clusters → (hashtable_lookup clusterTable k).isSome = true) :
    ∃ res, hdbscan_sort_by_length α clusterTable clusters = some res ∧
      res.Perm (if clusters.length = 0 then clusterTable.map (fun e => e.1) else clusters) ∧
      ∀ i j, i ≤ j → j < res.length →
        ∃ la lb, hashtable_lookup clusterTable (res.getD i 0) = some la ∧
          hashtable_lookup clusterTable (res.getD j 0) = some lb ∧ la.length ≤ lb.length := by
  have hall1 : ∀ k, k ∈ (if clusters.length = 0 then clusterTable.map (fun e => e.1)
      else clusters) → (clusterLength α clusterTable k).isSome = true := by
    intro k hk
    have hl : (hashtable_lookup clusterTable k).isSome = true := by
      split at hk
      · exact hashtable_lookup_key clusterTable k hk
      · exact hall k hk
    obtain ⟨lst, hlst⟩ := Option.isSome_iff_exists.mp hl
    unfold clusterLength
    rw [hlst]
    rfl
  obtain ⟨ds, res, d1, hds, hq, hperm, hsorted⟩ := sort_by_value_spec _ _ hall1
  refine ⟨res, ?_, hperm, ?_⟩
  · unfold hdbscan_sort_by_length
    simp only
    rw [hds]
    simp only
    rw [hq]
    rfl
  · intro i j hij hj
    obtain ⟨a, b, ha, hb, hab⟩ := hsorted i j hij hj
    unfold clusterLength at ha hb
    split at ha
    · cases ha
    · rename_i la hla
      split at hb
      · cases hb
      · rename_i lb hlb
        refine ⟨la, lb, hla, hlb, ?_⟩
        cases ha
        cases hb
        exact Nat.cast_le.mp hab

/-- Sort keys of a linear order (no NaN among them): for two equally long arrays and
`right` below their length (whether `left ≤ right` or not), `hdbscan_quicksort` returns
whenever the bound on the depth of its recursion is at
least `right - left`; the pairs of entries of the two arrays are rearranged, the entries outside
`left, …, right` stay, and `sortData[left..right]` is in non-decreasing order. When every
given cluster has an entry in the table, `hdbscan_sort_by_similarity` and
`hdbscan_sort_by_length` return; the result is a rearrangement of the given clusters (of the
keys of the table when none are given), in non-decreasing order of the confidence, and of the
size of the list of the cluster. -/
theorem quicksort_sorts {α : Type} [LinearOrderedField α] (clusters : List Nat)
    (sortData : List α) (left right : Nat) (hlen : clusters.length = sortData.length)
    (hr : right < sortData.length) :
    (∀ fuel, right - left ≤ fuel →
      ∃ c1 d1, hdbscan_quicksort fuel clusters sortData left right = some (c1, d1) ∧
        List.Perm (c1.zip d1) (clusters.zip sortData) ∧
        (∀ i, i < left ∨ right < i →
          c1.getD i 0 = clusters.getD i 0 ∧ d1.getD i 0 = sortData.getD i 0) ∧
        ∀ i j, left ≤ i → i ≤ j → j ≤ right → d1.getD i 0 ≤ d1.getD j 0) ∧
    (∀ (CORE_DISTANCE_TYPE : Int) (distanceMap : List (Nat × distance_values α))
        (given : Option (List Nat)) (distanceType : Int),
      (∀ k, k ∈ given.getD [] → (hashtable_lookup distanceMap k).isSome = true) →
      ∃ res, hdbscan_sort_by_similarity CORE_DISTANCE_TYPE distanceMap given distanceType =
          some res ∧
        res.Perm (if (given.getD []).length = 0 then distanceMap.map (fun e => e.1)
          else given.getD []) ∧
        ∀ i j, i ≤ j → j < res.length →
          ∃ a b, clusterConfidence CORE_DISTANCE_TYPE distanceMap distanceType
              (res.getD i 0) = some a ∧
            clusterConfidence CORE_DISTANCE_TYPE distanceMap distanceType (res.getD j 0) =
              some b ∧ a ≤ b) ∧
    (∀ (clusterTable : List (Nat × List Nat)) (given : List Nat),
      (∀ k, k ∈ given → (hashtable_lookup clusterTable k).isSome = true) →
      ∃ res, hdbscan_sort_by_length α clusterTable given = some res ∧
        res.Perm (if given.length = 0 then clusterTable.map (fun e => e.1) else given) ∧
        ∀ i j, i ≤ j → j < res.length →
          ∃ la lb, hashtable_lookup clusterTable (res.getD i 0) = some la ∧
            hashtable_lookup clusterTable (res.getD j 0) = some lb ∧
            la.length ≤ lb.length) := by
  refine ⟨?_, ?_, ?_⟩
  · intro fuel hfuel
    obtain ⟨c1, d1, hq, hperm, hsorted, _⟩ := quicksort_spec fuel clusters sortData left right
      hlen hr hfuel
    exact ⟨c1, d1, hq, hperm.perm_zip hlen hr, fun i hi => hperm.outside i hi, hsorted⟩
  · intro CORE_DISTANCE_TYPE distanceMap given distanceType hall
    exact sort_by_similarity_spec CORE_DISTANCE_TYPE distanceMap given distanceType hall
  · intro clusterTable given hall
    exact sort_by_length_spec α clusterTable given hall

/-- An instance of `quicksort_sorts`: the clusters `10, 11, 12, 13` with the sort data
`5, 3, 9, 1`, sorted from 0 to 3; for the sort functions a table with the keys 4, 7 and 9. -/
theorem quicksort_sorts_witness :
    ([10, 11, 12, 13] : List Nat).length = ([5, 3, 9, 1] : List ℚ).length ∧
    3 < ([5, 3, 9, 1] : List ℚ).length ∧
    (∃ c1 d1, hdbscan_quicksort 3 [10, 11, 12, 13] ([5, 3, 9, 1] : List ℚ) 0 3 =
        some (c1, d1) ∧
      List.Perm (c1.zip d1) (([10, 11, 12, 13] : List Nat).zip ([5, 3, 9, 1] : List ℚ)) ∧
      (∀ i, i < 0 ∨ 3 < i →
        c1.getD i 0 = ([10, 11, 12, 13] : List Nat).getD i 0 ∧
          d1.getD i 0 = ([5, 3, 9, 1] : List ℚ).getD i 0) ∧
      ∀ i j, 0 ≤ i → i ≤ j → j ≤ 3 → d1.getD i 0 ≤ d1.getD j 0) ∧
    (∃ res, hdbscan_sort_by_length ℚ [(4, [1, 2, 3]), (7, [1]), (9, [5, 6])] [9, 4] =
        some res ∧
      res.Perm (if ([9, 4] : List Nat).length = 0 then
        ([(4, [1, 2, 3]), (7, [1]), (9, [5, 6])] : List (Nat × List Nat)).map (fun e => e.1)
        else [9, 4]) ∧
      ∀ i j, i ≤ j → j < res.length →
        ∃ la lb, hashtable_lookup [(4, [1, 2, 3]), (7, [1]), (9, [5, 6])] (res.getD i 0) =
            some la ∧
          hashtable_lookup [(4, [1, 2, 3]), (7, [1]), (9, [5, 6])] (res.getD j 0) =
            some lb ∧ la.length ≤ lb.length) :=
  ⟨rfl, by decide,
    (quicksort_sorts [10, 11, 12, 13] ([5, 3, 9, 1] : List ℚ) 0 3 rfl (by decide)).1 3
      (le_refl _),
    (quicksort_sorts [10, 11, 12, 13] ([5, 3, 9, 1] : List ℚ) 0 3 rfl (by decide)).2.2
      [(4, [1, 2, 3]), (7, [1]), (9, [5, 6])] [9, 4] (by decide)⟩

/-! ### The detach, the prime helper and the core distance window -/

theorem find_prime_less_than_values :
    find_prime_less_than 10 = 7 ∧ find_prime_less_than 29 = 29 ∧
      find_prime_less_than 93 = 89 := by
  refine ⟨?_, ?_, ?_⟩
  · have h10 : ¬ Nat.Prime 10 := by norm_num
    have h9 : ¬ Nat.Prime 9 := by norm_num
    have h8 : ¬ Nat.Prime 8 := by norm_num
    have h7 : Nat.Prime 7 := by norm_num
    show (if Nat.Prime 10 then 10 else if Nat.Prime 9 then 9 else if Nat.Prime 8 then 8 else
      if Nat.Prime 7 then 7 else find_prime_less_than 6) = 7
    rw [if_neg h10, if_neg h9, if_neg h8, if_pos h7]
  · have h29 : Nat.Prime 29 := by norm_num
    show (if Nat.Prime 29 then 29 else find_prime_less_than 28) = 29
    rw [if_pos h29]
  · have h93 : ¬ Nat.Prime 93 := by norm_num
    have h92 : ¬ Nat.Prime 92 := by norm_num
    have h91 : ¬ Nat.Prime 91 := by norm_num
    have h90 : ¬ Nat.Prime 90 := by norm_num
    have h89 : Nat.Prime 89 := by norm_num
    show (if Nat.Prime 93 then 93 else if Nat.Prime 92 then 92 else if Nat.Prime 91 then 91
      else if Nat.Prime 90 then 90 else if Nat.Prime 89 then 89 else
        find_prime_less_than 88) = 89
    rw [if_neg h93, if_neg h92, if_neg h91, if_neg h90, if_pos h89]

theorem find_prime_less_than_spec (k : Nat) (hk : 2 ≤ k) :
    Nat.Prime (find_prime_less_than k) ∧ find_prime_less_than k ≤ k ∧
      ∀ p, Nat.Prime p → p ≤ k → p ≤ find_prime_less_than k := by
  induction k with
  | zero => omega
  | succ k ih =>
    unfold find_prime_less_than
    by_cases hp : Nat.Prime (k + 1)
    · rw [if_pos hp]
      exact ⟨hp, le_refl _, fun p _ hle => hle⟩
    · rw [if_neg hp]
      have hk2 : 2 ≤ k := by
        rcases Nat.lt_or_ge k 2 with h | h
        · exfalso
          have : k + 1 = 2 := by omega
          rw [this] at hp
          exact hp Nat.prime_two
        · exact h
      obtain ⟨h1, h2, h3⟩ := ih hk2
      refine ⟨h1, by omega, ?_⟩
      intro p hpp hle
      apply h3 p hpp
      rcases Nat.lt_or_ge p (k + 1) with h | h
      · omega
      · exfalso
        have : p = k + 1 := by omega
        rw [this] at hpp
        exact hp hpp

/-- C27 (counterexample): the helper, the largest prime below or equal to its argument, does not pass
`test_find_prime_less_than`. -/
theorem prime_test_fails : ¬ test_find_prime_less_than find_prime_less_than := by
  intro h
  have h10 := h.1
  rw [find_prime_less_than_values.1] at h10
  omega

/-- C27 (as amended): of the values that `test_find_prime_less_than` asserts, the helper has
only the second: `find_prime_less_than(10) = 7`, `find_prime_less_than(29) = 29` and
`find_prime_less_than(93) = 89`; the third and the fourth assertion ask for two different
values of the same call, so that no function passes the test. -/
theorem prime_test_values :
    find_prime_less_than 10 = 7 ∧ find_prime_less_than 29 = 29 ∧
      find_prime_less_than 93 = 89 ∧
      ∀ helper : Nat → Nat, ¬ test_find_prime_less_than helper := by
  refine ⟨find_prime_less_than_values.1, find_prime_less_than_values.2.1,
    find_prime_less_than_values.2.2, ?_⟩
  intro helper h
  have h3 := h.2.2.1
  have h4 := h.2.2.2
  omega

/-- C29 (failing input), on the store of the points `0, 2, -2, 1` with `mpts = 3`: in row 0 the window
is `[0, 2, D_MAX]` after the candidates 0 and 1, `[2, 0, 2]` after the candidate 2, whose
distance 2 equals an entry of the window, and `[2, 0, 1]` after the last candidate; the last
two are not sorted. -/
theorem core_window_unsorted :
    (List.range 2).foldl
        (fun sortedDistance j =>
          windowStep 1000 dupStore.numNeighbors sortedDistance (distance_get dupStore 0 j))
        (List.replicate (dupStore.numNeighbors + 1) 1000) = [0, 2, 1000] ∧
    (List.range 3).foldl
        (fun sortedDistance j =>
          windowStep 1000 dupStore.numNeighbors sortedDistance (distance_get dupStore 0 j))
        (List.replicate (dupStore.numNeighbors + 1) 1000) = [2, 0, 2] ∧
    coreWindow 1000 dupStore 0 = [2, 0, 1] ∧
    ¬ List.Sorted (· ≤ ·) ([2, 0, 2] : List Nat) ∧
    ¬ List.Sorted (· ≤ ·) (coreWindow 1000 dupStore 0) := by
  decide

/-! ### The moments of the ratios -/

theorem setSkewness_fields {α : Type} (stats : clustering_stats α) (c d : α) :
    (setSkewness stats c d).count = stats.count ∧
    (setSkewness stats c d).coreDistanceValues.skewness = c ∧
    (setSkewness stats c d).intraDistanceValues.skewness = d ∧
    (setSkewness stats c d).coreDistanceValues.kurtosis = stats.coreDistanceValues.kurtosis ∧
    (setSkewness stats c d).intraDistanceValues.kurtosis =
      stats.intraDistanceValues.kurtosis ∧
    (setSkewness stats c d).coreDistanceValues.standardDev =
      stats.coreDistanceValues.standardDev ∧
    (setSkewness stats c d).intraDistanceValues.standardDev =
      stats.intraDistanceValues.standardDev ∧
    (setSkewness stats c d).coreDistanceValues.variance = stats.coreDistanceValues.variance ∧
    (setSkewness stats c d).intraDistanceValues.variance =
      stats.intraDistanceValues.variance :=
  ⟨rfl, rfl, rfl, rfl, rfl, rfl, rfl, rfl, rfl⟩

theorem setKurtosis_fields {α : Type} (stats : clustering_stats α) (c d : α) :
    (setKurtosis stats c d).count = stats.count ∧
    (setKurtosis stats c d).coreDistanceValues.kurtosis = c ∧
    (setKurtosis stats c d).intraDistanceValues.kurtosis = d ∧
    (setKurtosis stats c d).coreDistanceValues.skewness = stats.coreDistanceValues.skewness ∧
    (setKurtosis stats c d).intraDistanceValues.skewness =
      stats.intraDistanceValues.skewness ∧
    (setKurtosis stats c d).coreDistanceValues.standardDev =
      stats.coreDistanceValues.standardDev ∧
    (setKurtosis stats c d).intraDistanceValues.standardDev =
      stats.intraDistanceValues.standardDev ∧
    (setKurtosis stats c d).coreDistanceValues.variance = stats.coreDistanceValues.variance ∧
    (setKurtosis stats c d).intraDistanceValues.variance =
      stats.intraDistanceValues.variance :=
  ⟨rfl, rfl, rfl, rfl, rfl, rfl, rfl, rfl, rfl⟩

theorem skewStage_frame {α : Type} [Ring α] (fdiv : α → α → α) (stats : clustering_stats α)
    (sum_sc sum_sd : α) :
    (skewStage fdiv stats sum_sc sum_sd).count = stats.count ∧
    (skewStage fdiv stats sum_sc sum_sd).coreDistanceValues.standardDev =
      stats.coreDistanceValues.standardDev ∧
    (skewStage fdiv stats sum_sc sum_sd).intraDistanceValues.standardDev =
      stats.intraDistanceValues.standardDev ∧
    (skewStage fdiv stats sum_sc sum_sd).coreDistanceValues.variance =
      stats.coreDistanceValues.variance ∧
    (skewStage fdiv stats sum_sc sum_sd).intraDistanceValues.variance =
      stats.intraDistanceValues.variance := by
  unfold skewStage
  split <;> exact ⟨rfl, rfl, rfl, rfl, rfl⟩

theorem kurtStage1_frame {α : Type} [Ring α] (fdiv : α → α → α) (stats : clustering_stats α)
    (sum_dc sum_dd : α) :
    (kurtStage1 fdiv stats sum_dc sum_dd).count = stats.count ∧
    (kurtStage1 fdiv stats sum_dc sum_dd).coreDistanceValues.skewness =
      stats.coreDistanceValues.skewness ∧
    (kurtStage1 fdiv stats sum_dc sum_dd).coreDistanceValues.variance =
      stats.coreDistanceValues.variance ∧
    (kurtStage1 fdiv stats sum_dc sum_dd).intraDistanceValues.variance =
      stats.intraDistanceValues.variance := by
  unfold kurtStage1
  split <;> exact ⟨rfl, rfl, rfl, rfl⟩

theorem kurtStage2_frame {α : Type} [Ring α] (fdiv : α → α → α) (stats : clustering_stats α) :
    (kurtStage2 fdiv stats).count = stats.count ∧
    (kurtStage2 fdiv stats).coreDistanceValues.skewness = stats.coreDistanceValues.skewness ∧
    (kurtStage2 fdiv stats).coreDistanceValues.variance = stats.coreDistanceValues.variance ∧
    (kurtStage2 fdiv stats).intraDistanceValues.variance =
      stats.intraDistanceValues.variance := by
  unfold kurtStage2
  split <;> exact ⟨rfl, rfl, rfl, rfl⟩

theorem skew_kurt_2_frame {α : Type} [Ring α] (fdiv : α → α → α) (stats : clustering_stats α)
    (sum_sc sum_sd sum_dc sum_dd : α) :
    (hdbscan_skew_kurt_2 fdiv stats sum_sc sum_sd sum_dc sum_dd).count = stats.count ∧
    (hdbscan_skew_kurt_2 fdiv stats sum_sc sum_sd sum_dc sum_dd).coreDistanceValues.variance =
      stats.coreDistanceValues.variance ∧
    (hdbscan_skew_kurt_2 fdiv stats sum_sc sum_sd sum_dc sum_dd).intraDistanceValues.variance =
      stats.intraDistanceValues.variance := by
  unfold hdbscan_skew_kurt_2
  refine ⟨?_, ?_, ?_⟩
  · rw [(kurtStage2_frame _ _).1, (kurtStage1_frame _ _ _ _).1, (skewStage_frame _ _ _ _).1]
  · rw [(kurtStage2_frame _ _).2.2.1, (kurtStage1_frame _ _ _ _).2.2.1,
      (skewStage_frame _ _ _ _).2.2.2.1]
  · rw [(kurtStage2_frame _ _).2.2.2, (kurtStage1_frame _ _ _ _).2.2.2,
      (skewStage_frame _ _ _ _).2.2.2.2]

theorem foldl_powerSums_fst {α : Type} [LinearOrderedRing α] (r : List α) (mean : α) :
    ∀ (l : List Nat) (s : α × α × α),
      (l.foldl
        (fun s i =>
          (s.1 + (r.getD i 0 - mean) * (r.getD i 0 - mean), s.2.1 + (r.getD i 0 - mean) ^ 3,
            s.2.2 + (r.getD i 0 - mean) ^ 4)) s).1 =
        s.1 + (l.map (fun i => (r.getD i 0 - mean) * (r.getD i 0 - mean))).sum := by
  intro l
  induction l with
  | nil => intro s; simp
  | cons i l ih =>
    intro s
    rw [List.foldl_cons, ih, List.map_cons, List.sum_cons, add_assoc]

theorem foldl_sumMax_fst {α : Type} [LinearOrderedRing α] (r : List α) :
    ∀ (l : List Nat) (s : α × α),
      (l.foldl
        (fun s i => (s.1 + r.getD i 0, if r.getD i 0 > s.2 then r.getD i 0 else s.2)) s).1 =
        s.1 + (l.map (fun i => r.getD i 0)).sum := by
  intro l
  induction l with
  | nil => intro s; simp
  | cons i l ih =>
    intro s
    rw [List.foldl_cons, ih, List.map_cons, List.sum_cons, add_assoc]

/-- The variance that `hdbscan_calculate_stats_helper` stores: the value the field had before
the call plus the sum of the squares of `x_i - mean`, divided by `count - 1`, where `mean` is
`x_0` plus the sum of `x_1, …, x_{count-1}`, divided by `count`. -/
theorem calculate_stats_helper_variance {α : Type} [LinearOrderedRing α] (fdiv : α → α → α)
    (sqrt : α → α) (cr dr : List α) (stats : clustering_stats α) :
    (hdbscan_calculate_stats_helper fdiv sqrt cr dr stats).coreDistanceValues.variance =
      fdiv
        (stats.coreDistanceValues.variance +
          ((List.range stats.count.toNat).map
            (fun i =>
              (cr.getD i 0 -
                  fdiv (cr.getD 0 0 +
                    ((List.range' 1 (stats.count.toNat - 1)).map (fun j => cr.getD j 0)).sum)
                    (stats.count : α)) *
                (cr.getD i 0 -
                  fdiv (cr.getD 0 0 +
                    ((List.range' 1 (stats.count.toNat - 1)).map (fun j => cr.getD j 0)).sum)
                    (stats.count : α)))).sum)
        ((stats.count - 1 : Int) : α) := by
  unfold hdbscan_calculate_stats_helper
  simp only
  rw [(skew_kurt_2_frame fdiv _ _ _ _ _).2.1]
  unfold statsPowerSums statsSumMax
  rw [foldl_powerSums_fst, foldl_sumMax_fst]

/-- C21 (failing input): for the ratios `1, 3` (core) and `2, 6` (intra) and `count = 2`, a
`clustering_stats` whose fields hold 0 before the call gets the sample variance 2 of the core
ratios, but one whose fields hold 1 gets the variance 3: the field `variance` is added to,
starting from the value it has. -/
theorem stats_variance_depends_on_prior :
    sampleVariance ([1, 3] : List ℚ) 2 = 2 ∧
    (hdbscan_calculate_stats_helper (fun a b : ℚ => a / b) sqrtQ [1, 3] [2, 6]
      (statsFilled 2 0)).coreDistanceValues.variance = 2 ∧
    (hdbscan_calculate_stats_helper (fun a b : ℚ => a / b) sqrtQ [1, 3] [2, 6]
      (statsFilled 2 1)).coreDistanceValues.variance = 3 := by
  refine ⟨?_, ?_, ?_⟩
  · unfold sampleVariance
    have h2 : List.range 2 = [0, 1] := rfl
    rw [h2]
    simp only [List.map_cons, List.map_nil, List.sum_cons, List.sum_nil, List.getD_cons_zero,
      List.getD_cons_succ]
    norm_num
  · rw [calculate_stats_helper_variance]
    have h2 : List.range (statsFilled 2 (0 : ℚ)).count.toNat = [0, 1] := rfl
    have h1 : List.range' 1 ((statsFilled 2 (0 : ℚ)).count.toNat - 1) = [1] := rfl
    have hc : (statsFilled 2 (0 : ℚ)).count = 2 := rfl
    have hv : (statsFilled 2 (0 : ℚ)).coreDistanceValues.variance = 0 := rfl
    rw [h2, h1, hc, hv]
    simp only [List.map_cons, List.map_nil, List.sum_cons, List.sum_nil, List.getD_cons_zero,
      List.getD_cons_succ]
    norm_num
  · rw [calculate_stats_helper_variance]
    have h2 : List.range (statsFilled 2 (1 : ℚ)).count.toNat = [0, 1] := rfl
    have h1 : List.range' 1 ((statsFilled 2 (1 : ℚ)).count.toNat - 1) = [1] := rfl
    have hc : (statsFilled 2 (1 : ℚ)).count = 2 := rfl
    have hv : (statsFilled 2 (1 : ℚ)).coreDistanceValues.variance = 1 := rfl
    rw [h2, h1, hc, hv]
    simp only [List.map_cons, List.map_nil, List.sum_cons, List.sum_nil, List.getD_cons_zero,
      List.getD_cons_succ]
    norm_num

/-- C22 (failing input): for `count = 3` the kurtosis is not `0.0/0.0` but the value of the
formula, in which both divisors, `(N-1)(N-2)(N-3)` and `(N-2)(N-3)`, are 0. For `count = 2`
the skewness is computed with the divisor `(N-1)(N-2) = 0`. For `count < 3` the kurtosis and
for `count < 2` the skewness is `0.0/0.0`. -/
theorem skew_kurt_count_three {α : Type} [Ring α] (fdiv : α → α → α) (v : α)
    (sum_sc sum_sd sum_dc sum_dd : α) :
    (hdbscan_skew_kurt_2 fdiv (statsFilled 3 v) sum_sc sum_sd sum_dc
        sum_dd).coreDistanceValues.kurtosis =
      fdiv (3 * 4) 0 * fdiv sum_dc (v ^ 4) - fdiv (3 * (3 - 1) * 2) 0 ∧
    (hdbscan_skew_kurt_2 fdiv (statsFilled 3 v) sum_sc sum_sd sum_dc
        sum_dd).intraDistanceValues.kurtosis =
      fdiv (3 * 4) 0 * fdiv sum_dd (v ^ 4) - fdiv (3 * (3 - 1) * 2) 0 ∧
    (hdbscan_skew_kurt_2 fdiv (statsFilled 2 v) sum_sc sum_sd sum_dc
        sum_dd).coreDistanceValues.skewness = fdiv 2 0 * fdiv sum_sc (v ^ 3) ∧
    (∀ N : Int, N < 3 →
      (hdbscan_skew_kurt_2 fdiv (statsFilled N v) sum_sc sum_sd sum_dc
        sum_dd).coreDistanceValues.kurtosis = fdiv 0 0) ∧
    (∀ N : Int, N < 2 →
      (hdbscan_skew_kurt_2 fdiv (statsFilled N v) sum_sc sum_sd sum_dc
        sum_dd).coreDistanceValues.skewness = fdiv 0 0) := by
  have hc : ∀ N : Int, (statsFilled N v).count = N := fun _ => rfl
  have hsd : ∀ N : Int, (statsFilled N v).coreDistanceValues.standardDev = v := fun _ => rfl
  have hsd2 : ∀ N : Int, (statsFilled N v).intraDistanceValues.standardDev = v := fun _ => rfl
  have hk3 : (kurtStage1 fdiv (skewStage fdiv (statsFilled 3 v) sum_sc sum_sd) sum_dc
      sum_dd).count = 3 := by
    rw [(kurtStage1_frame _ _ _ _).1, (skewStage_frame _ _ _ _).1]
    rfl
  have hs3 : (skewStage fdiv (statsFilled 3 v) sum_sc sum_sd).count = 3 := by
    rw [(skewStage_frame _ _ _ _).1]
    rfl
  refine ⟨?_, ?_, ?_, ?_, ?_⟩
  · unfold hdbscan_skew_kurt_2
    unfold kurtStage2
    rw [hk3, if_pos (by decide), (setKurtosis_fields _ _ _).2.1]
    unfold kurtStage1
    rw [hs3, if_pos (by decide), (setKurtosis_fields _ _ _).2.1,
      (skewStage_frame _ _ _ _).2.1, hsd]
    norm_num
  · unfold hdbscan_skew_kurt_2
    unfold kurtStage2
    rw [hk3, if_pos (by decide), (setKurtosis_fields _ _ _).2.2.1]
    unfold kurtStage1
    rw [hs3, if_pos (by decide), (setKurtosis_fields _ _ _).2.2.1,
      (skewStage_frame _ _ _ _).2.2.1, hsd2]
    norm_num
  · unfold hdbscan_skew_kurt_2
    rw [(kurtStage2_frame _ _).2.1, (kurtStage1_frame _ _ _ _).2.1]
    unfold skewStage
    rw [hc, if_pos (by decide), (setSkewness_fields _ _ _).2.1, hsd]
    norm_num
  · intro N hN
    unfold hdbscan_skew_kurt_2
    unfold kurtStage2
    rw [(kurtStage1_frame _ _ _ _).1, (skewStage_frame _ _ _ _).1, hc,
      if_neg (by omega), (setKurtosis_fields _ _ _).2.1]
  · intro N hN
    unfold hdbscan_skew_kurt_2
    rw [(kurtStage2_frame _ _).2.1, (kurtStage1_frame _ _ _ _).2.1]
    unfold skewStage
    rw [hc, if_neg (by omega), (setSkewness_fields _ _ _).2.1]

/-! ### The distances within the clusters -/

/-- The first round of the loop over the keys of `hdbscan_get_min_max_distances` on the
clusters `1 = {0, 1}` and `2 = {2, 3}` of `lineStore` leaves a map with one entry, for the
key 1. -/
theorem minMaxKeyStep_first (D_MAX D_MIN : Nat) :
    ∃ dl, minMaxKeyStep D_MAX D_MIN lineStore [(1, [0, 1]), (2, [2, 3])] [] 0 =
      some [(1, dl)] := by
  simp [minMaxKeyStep, hashtable_lookup, minMaxMemberStep, List.range_succ]

/-- The second round of the loop over the keys of `hdbscan_get_min_max_distances` on the
clusters `1 = {0, 1}` and `2 = {2, 3}` of `lineStore`: the entry of the key 2 gets the core
distances 1 and 2, and `min_dr`, `max_dr` stay as they were initialised. -/
theorem minMaxKeyStep_second (D_MAX D_MIN : Nat) (dl : distance_values Nat) :
    minMaxKeyStep D_MAX D_MIN lineStore [(1, [0, 1]), (2, [2, 3])] [(1, dl)] 1 =
      some [(1, dl), (2, ⟨1, 2, 0, D_MAX, D_MIN, 0⟩)] := by
  simp [minMaxKeyStep, hashtable_lookup, minMaxMemberStep, List.range_succ, minMaxPairLoop,
    lineStore]

set_option maxRecDepth 1000000 in
set_option maxHeartbeats 4000000 in
/-- C23 (failing input): on the four points of `lineStore` with the clusters `1 = {0, 1}` and
`2 = {2, 3}` (the distance between the points 2 and 3 is 3), the entry of the cluster 2 keeps
the initial values `min_dr = DBL_MAX` and `max_dr = DBL_MIN`, whatever these constants are,
when its key is the second of the key set: the loop over `k` starts at `j + 1`, where `j` is
the position of the key, and looks at no pair then. When the key is the first of the key set
the entry is `min_dr = max_dr = 3` (with 1000 for `DBL_MAX` and 0 for `DBL_MIN`). -/
theorem min_max_distances_key_position :
    distance_get lineStore 2 3 = 3 ∧
    (∀ D_MAX D_MIN : Nat,
      intraRange (hdbscan_get_min_max_distances D_MAX D_MIN lineStore
        [(1, [0, 1]), (2, [2, 3])]) 2 = some (D_MAX, D_MIN)) ∧
    intraRange (hdbscan_get_min_max_distances 1000 0 lineStore [(2, [2, 3]), (1, [0, 1])]) 2 =
      some (3, 3) ∧
    intraRange (hdbscan_get_min_max_distances 1000 0 lineStore [(1, [0, 1]), (2, [2, 3])]) 1 =
      some (2, 2) := by
  refine ⟨by decide, ?_, by decide, by decide⟩
  intro D_MAX D_MIN
  obtain ⟨dl, h1⟩ := minMaxKeyStep_first D_MAX D_MIN
  have h2 := minMaxKeyStep_second D_MAX D_MIN dl
  unfold hdbscan_get_min_max_distances
  have hr : List.range ([(1, [0, 1]), (2, [2, 3])] : List (Nat × List Nat)).length = [0, 1] :=
    rfl
  rw [hr, List.foldlM_cons, h1]
  simp only [Option.some_bind, List.foldlM_cons, h2, List.foldlM_nil]
  rfl

/-! ### Ties in the expansion rounds -/

theorem propagateTrace_fst {α : Type} [LinearOrder α] [Add α] (D_MAX : α) (fuel : Nat) :
    ∀ st : PropagateState α,
      (propagateTrace D_MAX fuel st).map (fun r => r.1) = propagateLoop D_MAX fuel st := by
  induction fuel with
  | zero =>
    intro st
    unfold propagateTrace propagateLoop
    split <;> rfl
  | succ fuel ih =>
    intro st
    unfold propagateTrace propagateLoop
    cases hlast : st.clustersToExamine.getLast? with
    | none => rfl
    | some x =>
      simp only
      cases hstep : propagateStep D_MAX st x st.clustersToExamine.dropLast with
      | none => rfl
      | some st1 =>
        simp only [Option.map_map]
        exact ih st1

theorem propagateChoice_frame {α : Type} [LinearOrder α] [Add α] (par cl : cluster α)
    (x : Nat) :
    (propagateChoice par cl x).label = par.label ∧
    (propagateChoice par cl x).parent = par.parent ∧
    (propagateChoice par cl x).hasChildren = par.hasChildren ∧
    (propagateChoice par cl x).stability = par.stability := by
  unfold propagateChoice
  split_ifs <;> exact ⟨rfl, rfl, rfl, rfl⟩

theorem propagateInit_flag {α : Type} (clusters : ClusterList α) (m : Nat) :
    ((List.range m).foldl (propagateInitStep clusters)
        { clusters := clusters
          clustersToExamine := []
          addedToExaminationList := List.replicate clusters.length false
          infiniteStability := false }).infiniteStability = false := by
  induction m with
  | zero => rfl
  | succ m ih =>
    rw [List.range_succ, List.foldl_append]
    simp only [List.foldl_cons, List.foldl_nil]
    generalize (List.range m).foldl (propagateInitStep clusters)
        { clusters := clusters
          clustersToExamine := []
          addedToExaminationList := List.replicate clusters.length false
          infiniteStability := false } = st at ih
    unfold propagateInitStep
    cases clusters.getD m none with
    | none => exact ih
    | some cl =>
      simp only
      split
      · exact ih
      · exact ih

theorem orderInv_init {α : Type} (cs0 : ClusterList α) (hwf : ClusterTree cs0) :
    OrderInv cs0 (propagateInit cs0) ∅ := by
  obtain ⟨h1, h2, h3, h4⟩ := propagateInit_spec cs0 hwf.label
  have hleaf_some : ∀ i, isLeafAt cs0 i = true →
      ∃ c0, cs0.getD i none = some c0 ∧ c0.hasChildren = false := by
    intro i hi
    unfold isLeafAt at hi
    cases hc : cs0.getD i none with
    | none => rw [hc] at hi; simp at hi
    | some c0 =>
      rw [hc] at hi
      exact ⟨c0, rfl, by simpa using hi⟩
  refine ⟨by rw [h1], h3, ?_, ?_, ?_, ?_, ?_, ?_, ?_, ?_, ?_⟩
  · intro i hi; rw [h1]; exact hi
  · intro i c0 hc0
    exact ⟨c0, by rw [h1]; exact hc0, rfl, rfl, rfl, rfl⟩
  · intro x hx; simp at hx
  · rw [h2]
    exact ((List.sorted_lt_range _).filter _).le_of_lt
  · rw [h2]
    exact (List.nodup_range _).filter _
  · intro x hx
    rw [h2] at hx
    obtain ⟨hx1, hx2⟩ := List.mem_filter.mp hx
    obtain ⟨c0, hc0, _⟩ := hleaf_some x hx2
    refine ⟨?_, by simpa using hx1, by simp, by rw [h4 x]; exact hx2⟩
    rcases Nat.eq_zero_or_pos x with h0 | hpos
    · rw [h0, hwf.null] at hc0; simp at hc0
    · exact hpos
  · intro i hi
    rw [h4 i] at hi
    left
    rw [h2]
    obtain ⟨c0, hc0, _⟩ := hleaf_some i hi
    exact List.mem_filter.mpr ⟨by simpa using getD_some_lt hc0, hi⟩
  · intro i c0 hc0
    rw [h4 i]
    unfold isLeafAt
    rw [hc0]
    simp
  · intro x hx; simp at hx

/-- A cluster on which `cluster_propagate` has not been called lies below a cluster of the
examination list or is one of them (for the invariant of the order of the calls). -/
theorem orderInv_unprocessed {α : Type} (cs0 : ClusterList α)
    (hwf : ClusterTree cs0) (st : PropagateState α) (D : Finset Nat) (h : OrderInv cs0 st D) :
    ∀ m y, cs0.length - y ≤ m → 1 ≤ y → y < cs0.length → y ∉ D →
      ∃ z ∈ st.clustersToExamine, y ≤ z := by
  intro m
  induction m with
  | zero => intro y hm h1 h2; omega
  | succ m ih =>
    intro y hm h1 h2 hD
    obtain ⟨c0, hc0⟩ := clusterTree_some hwf y h1 h2
    by_cases hadd : st.addedToExaminationList.getD y false = true
    · rcases h.added_mem y hadd with hw | hd
      · exact ⟨y, hw, le_refl _⟩
      · exact absurd hd hD
    · have hnot := mt (h.added_iff y c0 hc0).2 hadd
      push_neg at hnot
      have hch : c0.hasChildren = true := by
        cases hcc : c0.hasChildren
        · exact absurd hcc hnot.1
        · rfl
      obtain ⟨j, hj⟩ := (hwf.children y c0 hc0).1 hch
      have hjlt := parentAt_lt hwf hj
      have hjD : j ∉ D := fun hjD => hnot.2 j hjD hj
      obtain ⟨z, hz, hjz⟩ := ih j (by omega) (by omega) hjlt.2.2 hjD
      exact ⟨z, hz, by omega⟩

theorem orderInv_last {α : Type} (cs0 : ClusterList α)
    (hwf : ClusterTree cs0) (st : PropagateState α) (D : Finset Nat) (h : OrderInv cs0 st D)
    (x : Nat) (rest : List Nat) (hW : st.clustersToExamine = rest ++ [x]) :
    (1 ≤ x ∧ x < cs0.length ∧ x ∉ D ∧ st.addedToExaminationList.getD x false = true) ∧
    (∀ y ∈ rest, y ≠ x ∧ 1 ≤ y ∧ y < cs0.length ∧ y ∉ D ∧
      st.addedToExaminationList.getD y false = true) ∧
    rest.Nodup ∧
    (∀ j, parentAt cs0 j = some x → j ∈ D) := by
  have hx := h.W_mem x (by rw [hW]; simp)
  have hnd := h.W_nodup
  rw [hW] at hnd
  have hnd' := List.nodup_append.mp hnd
  have hmax : ∀ z ∈ st.clustersToExamine, z ≤ x := by
    intro z hz
    rw [hW] at hz
    have hs := h.W_sorted
    rw [hW] at hs
    rcases List.mem_append.mp hz with hz1 | hz1
    · exact (List.pairwise_append.mp hs).2.2 z hz1 x (by simp)
    · simp at hz1; omega
  refine ⟨hx, ?_, hnd'.1, ?_⟩
  · intro y hy
    have hy' := h.W_mem y (by rw [hW]; exact List.mem_append_left _ hy)
    refine ⟨?_, hy'⟩
    intro heq
    exact hnd'.2.2 hy (by simp [heq])
  · intro j hj
    by_contra hjD
    have hjlt := parentAt_lt hwf hj
    obtain ⟨z, hz, hjz⟩ := orderInv_unprocessed cs0 hwf st D h (cs0.length - j) j (le_refl _)
      (by omega) hjlt.2.2 hjD
    have := hmax z hz
    omega

/-- The step of the loop of `hdbscan_propagate_tree` on the root, for the invariant of the
order of the calls. -/
theorem orderInv_step_root {α : Type} [LinearOrder α] [Add α] (D_MAX : α)
    (cs0 : ClusterList α) (hwf : ClusterTree cs0) (st : PropagateState α) (D : Finset Nat)
    (h : OrderInv cs0 st D) (x : Nat) (rest : List Nat) (c0 : cluster α)
    (hc0 : cs0.getD x none = some c0)
    (hW : st.clustersToExamine = rest ++ [x]) (hroot : parentAt cs0 x = none) :
    ∃ st', propagateStep D_MAX st x rest = some st' ∧ OrderInv cs0 st' (insert x D) ∧
      st'.infiniteStability = (if c0.stability = D_MAX then true else st.infiniteStability) := by
  obtain ⟨⟨hx1, hx2, hxD, hxa⟩, hrest, hrnd, hchild⟩ := orderInv_last cs0 hwf st D h x rest hW
  obtain ⟨cx, hcx, _, hcxp, _, hcxs⟩ := h.frame_some x c0 hc0
  have hc0p : c0.parent = none := by
    unfold parentAt at hroot
    rw [hc0] at hroot
    exact hroot
  rw [hc0p] at hcxp
  have hprop : cluster_propagate D_MAX st.clusters x = st.clusters :=
    cluster_propagate_root D_MAX st.clusters x cx hcx hcxp
  refine ⟨{ clusters := st.clusters
            clustersToExamine := set_sort rest
            addedToExaminationList := st.addedToExaminationList
            infiniteStability := if cx.stability = D_MAX then true else st.infiniteStability },
    ?_, ?_, ?_⟩
  · unfold propagateStep
    simp only [hcx, hprop, hcxp]
  · have hnopar : ∀ i, ¬ parentAt cs0 x = some i := by
      intro i hi
      rw [hroot] at hi
      simp at hi
    refine ⟨h.len, h.alen, h.frame_none, h.frame_some, ?_, sorted_set_sort _,
      nodup_set_sort _ hrnd, ?_, ?_, ?_, ?_⟩
    · intro y hy
      rcases Finset.mem_insert.mp hy with rfl | hy
      · exact ⟨hx1, hx2⟩
      · exact h.D_valid y hy
    · intro y hy
      have hy' := hrest y ((mem_set_sort rest y).1 hy)
      refine ⟨hy'.2.1, hy'.2.2.1, ?_, hy'.2.2.2.2⟩
      intro hmem
      rcases Finset.mem_insert.mp hmem with heq | hmem
      · exact hy'.1 heq
      · exact hy'.2.2.2.1 hmem
    · intro i hi
      rcases h.added_mem i hi with hw | hd
      · rw [hW] at hw
        rcases List.mem_append.mp hw with hw | hw
        · exact Or.inl ((mem_set_sort rest i).2 hw)
        · right
          simp at hw
          rw [hw]
          exact Finset.mem_insert_self _ _
      · exact Or.inr (Finset.mem_insert_of_mem hd)
    · intro i c0' hc0'
      rw [h.added_iff i c0' hc0']
      constructor
      · rintro (hl | ⟨j, hj, hpj⟩)
        · exact Or.inl hl
        · exact Or.inr ⟨j, Finset.mem_insert_of_mem hj, hpj⟩
      · rintro (hl | ⟨j, hj, hpj⟩)
        · exact Or.inl hl
        · rcases Finset.mem_insert.mp hj with rfl | hj
          · exact absurd hpj (hnopar i)
          · exact Or.inr ⟨j, hj, hpj⟩
    · intro y hy j hj
      rcases Finset.mem_insert.mp hy with rfl | hy
      · exact Finset.mem_insert_of_mem (hchild j hj)
      · exact Finset.mem_insert_of_mem (h.closed y hy j hj)
  · show (if cx.stability = D_MAX then true else st.infiniteStability) = _
    rw [hcxs]

/-- The examination list and the flags after a step on a cluster with parent `p`, from the
facts about the list alone. -/
theorem orderStep_nonroot {α : Type} [LinearOrder α] [Add α] (D_MAX : α)
    (cs0 : ClusterList α) (st : PropagateState α) (D : Finset Nat)
    (halen : st.addedToExaminationList.length = cs0.length)
    (hadded : ∀ i, st.addedToExaminationList.getD i false = true →
      i ∈ st.clustersToExamine ∨ i ∈ D)
    (x p : Nat) (rest : List Nat)
    (hW : st.clustersToExamine = rest ++ [x])
    (hrest : ∀ y ∈ rest, st.addedToExaminationList.getD y false = true) (hrnd : rest.Nodup)
    (cx cl1 par2 : cluster α)
    (hcx : st.clusters.getD x none = some cx)
    (hx1 : (cluster_propagate D_MAX st.clusters x).getD x none = some cl1)
    (hcl1 : cl1.parent = some p)
    (hp1 : (cluster_propagate D_MAX st.clusters x).getD p none = some par2)
    (hlab : par2.label = p) (hpx : p ≠ x) (hpD : p ∉ D) (hplt : p < cs0.length) :
    ∃ st', propagateStep D_MAX st x rest = some st' ∧
      st'.clusters = cluster_propagate D_MAX st.clusters x ∧
      (∀ y, y ∈ st'.clustersToExamine ↔ (y ∈ rest ∨ y = p)) ∧
      st'.clustersToExamine.Nodup ∧
      st'.clustersToExamine.Sorted (· ≤ ·) ∧
      (∀ i, st'.addedToExaminationList.getD i false = true ↔
        (st.addedToExaminationList.getD i false = true ∨ i = p)) ∧
      st'.addedToExaminationList.length = cs0.length ∧
      st'.infiniteStability =
        (if cl1.stability = D_MAX then true else st.infiniteStability) := by
  by_cases hadd : st.addedToExaminationList.getD p false = false
  · have hpnot : p ∉ rest := by
      intro hmem
      have := hrest p hmem
      rw [hadd] at this
      exact absurd this (by simp)
    refine ⟨{ clusters := cluster_propagate D_MAX st.clusters x
              clustersToExamine := set_sort (set_insert rest p)
              addedToExaminationList := st.addedToExaminationList.set p true
              infiniteStability := if cl1.stability = D_MAX then true else st.infiniteStability },
      ?_, rfl, ?_, ?_, sorted_set_sort _, ?_, ?_, rfl⟩
    · unfold propagateStep
      simp only [hcx, hx1, hcl1, hp1, hlab, hadd, if_true]
    · intro y
      show y ∈ set_sort (set_insert rest p) ↔ _
      rw [mem_set_sort]
      unfold set_insert
      rw [if_neg hpnot]
      simp
    · show (set_sort (set_insert rest p)).Nodup
      apply nodup_set_sort
      unfold set_insert
      rw [if_neg hpnot]
      exact List.nodup_append.mpr ⟨hrnd, List.nodup_singleton p, by
        intro a ha hb
        simp at hb
        exact hpnot (hb ▸ ha)⟩
    · intro i
      show (st.addedToExaminationList.set p true).getD i false = true ↔ _
      rw [getD_set_eq]
      by_cases hpi : p = i
      · subst hpi
        rw [if_pos ⟨rfl, by rw [halen]; exact hplt⟩]
        simp
      · rw [if_neg (fun hh => hpi hh.1)]
        constructor
        · intro hh; exact Or.inl hh
        · rintro (hh | hh)
          · exact hh
          · exact absurd hh.symm hpi
    · show (st.addedToExaminationList.set p true).length = _
      rw [List.length_set]; exact halen
  · have hadd' : st.addedToExaminationList.getD p false = true := by
      cases hb : st.addedToExaminationList.getD p false
      · exact absurd hb hadd
      · rfl
    have hpin : p ∈ rest := by
      rcases hadded p hadd' with hw | hd
      · rw [hW] at hw
        rcases List.mem_append.mp hw with hw | hw
        · exact hw
        · simp at hw; exact absurd hw hpx
      · exact absurd hd hpD
    refine ⟨{ clusters := cluster_propagate D_MAX st.clusters x
              clustersToExamine := set_sort rest
              addedToExaminationList := st.addedToExaminationList
              infiniteStability := if cl1.stability = D_MAX then true else st.infiniteStability },
      ?_, rfl, ?_, nodup_set_sort _ hrnd, sorted_set_sort _, ?_, halen, rfl⟩
    · unfold propagateStep
      simp only [hcx, hx1, hcl1, hp1, hlab, if_neg hadd]
    · intro y
      show y ∈ set_sort rest ↔ _
      rw [mem_set_sort]
      constructor
      · intro hy; exact Or.inl hy
      · rintro (hy | hy)
        · exact hy
        · rw [hy]; exact hpin
    · intro i
      show st.addedToExaminationList.getD i false = true ↔ _
      constructor
      · intro hh; exact Or.inl hh
      · rintro (hh | hh)
        · exact hh
        · rw [hh]; exact hadd'

/-- The step of the loop of `hdbscan_propagate_tree` on a cluster with a parent, for the
invariant of the order of the calls. -/
theorem orderInv_step_nonroot {α : Type} [LinearOrder α] [Add α] (D_MAX : α)
    (cs0 : ClusterList α) (hwf : ClusterTree cs0) (st : PropagateState α) (D : Finset Nat)
    (h : OrderInv cs0 st D) (x p : Nat) (rest : List Nat) (c0 : cluster α)
    (hc0 : cs0.getD x none = some c0)
    (hW : st.clustersToExamine = rest ++ [x]) (hpar : parentAt cs0 x = some p) :
    ∃ st', propagateStep D_MAX st x rest = some st' ∧ OrderInv cs0 st' (insert x D) ∧
      st'.infiniteStability = (if c0.stability = D_MAX then true else st.infiniteStability) := by
  obtain ⟨⟨hx1, hx2, hxD, hxa⟩, hrest, hrnd, hchild⟩ := orderInv_last cs0 hwf st D h x rest hW
  have hplt := parentAt_lt hwf hpar
  obtain ⟨c0p, hc0p⟩ := clusterTree_some hwf p hplt.1 (by omega)
  obtain ⟨cx, hcx, hcxl, hcxp, hcxh, hcxs⟩ := h.frame_some x c0 hc0
  obtain ⟨par, hparc, hparl, hparp, hparh, hpars⟩ := h.frame_some p c0p hc0p
  have hc0par : c0.parent = some p := by
    unfold parentAt at hpar
    rw [hc0] at hpar
    exact hpar
  rw [hc0par] at hcxp
  have hpx : p ≠ x := by omega
  have hpD : p ∉ D := fun hp => hxD (h.closed p hp x hpar)
  have hprop := cluster_propagate_eq D_MAX st.clusters x p cx par hcx hcxp hpx hparc
  obtain ⟨d1, d2, d3, d4, _⟩ := propagateDeath_fields D_MAX cx
  obtain ⟨e1, e2, e3, e4⟩ :=
    propagateChoice_frame (propagateParentDeath (propagateDeath D_MAX cx) par)
      (propagateDeath D_MAX cx) x
  obtain ⟨g1, g2, g3, g4, _⟩ :=
    propagateParentDeath_fields (propagateDeath D_MAX cx) par
  generalize hcl1 : propagateDeath D_MAX cx = cl1 at *
  generalize hpar2 : propagateChoice (propagateParentDeath cl1 par) cl1 x = par2 at *
  have hxlen : x < st.clusters.length := by rw [h.len]; exact hx2
  have hplen : p < st.clusters.length := by rw [h.len]; omega
  have hget : ∀ i, (cluster_propagate D_MAX st.clusters x).getD i none =
      if i = p then some par2 else if i = x then some cl1 else st.clusters.getD i none := by
    intro i
    rw [hprop, getD_set_eq, getD_set_eq]
    by_cases hip : i = p
    · rw [if_pos hip, if_pos ⟨hip.symm, by rw [List.length_set]; exact hplen⟩]
    · rw [if_neg hip, if_neg (fun hh => hip hh.1.symm)]
      by_cases hix : i = x
      · rw [if_pos hix, if_pos ⟨hix.symm, hxlen⟩]
      · rw [if_neg hix, if_neg (fun hh => hix hh.1.symm)]
  have hgx : (cluster_propagate D_MAX st.clusters x).getD x none = some cl1 := by
    rw [hget x, if_neg (Ne.symm hpx), if_pos rfl]
  have hgp : (cluster_propagate D_MAX st.clusters x).getD p none = some par2 := by
    rw [hget p, if_pos rfl]
  have hlab2 : par2.label = p := by
    rw [e1, g1, hparl]
    exact hwf.label p c0p hc0p
  obtain ⟨st', hst', hcl, hWmem, hWnd, hWs, hadd, haddlen, hflag⟩ :=
    orderStep_nonroot D_MAX cs0 st D h.alen h.added_mem x p rest hW
      (fun y hy => (hrest y hy).2.2.2.2) hrnd
      cx cl1 par2 hcx hgx (by rw [d2]; exact hcxp) hgp hlab2 hpx hpD (by omega)
  refine ⟨st', hst', ?_, ?_⟩
  · refine ⟨?_, haddlen, ?_, ?_, ?_, hWs, hWnd, ?_, ?_, ?_, ?_⟩
    · rw [hcl, hprop, List.length_set, List.length_set]; exact h.len
    · intro i hi
      rw [hcl, hget i]
      have hip : i ≠ p := by intro heq; rw [heq, hc0p] at hi; simp at hi
      have hix : i ≠ x := by intro heq; rw [heq, hc0] at hi; simp at hi
      rw [if_neg hip, if_neg hix]
      exact h.frame_none i hi
    · intro i c0' hc0'
      rw [hcl, hget i]
      by_cases hip : i = p
      · rw [if_pos hip]
        rw [hip, hc0p] at hc0'
        cases Option.some.inj hc0'
        exact ⟨par2, rfl, by rw [e1, g1, hparl], by rw [e2, g2, hparp], by rw [e3, g3, hparh],
          by rw [e4, g4, hpars]⟩
      · rw [if_neg hip]
        by_cases hix : i = x
        · rw [if_pos hix]
          rw [hix, hc0] at hc0'
          cases Option.some.inj hc0'
          exact ⟨cl1, rfl, by rw [d1, hcxl], by rw [d2, hcxp, hc0par], by rw [d3, hcxh],
            by rw [d4, hcxs]⟩
        · rw [if_neg hix]
          exact h.frame_some i c0' hc0'
    · intro y hy
      rcases Finset.mem_insert.mp hy with rfl | hy
      · exact ⟨hx1, hx2⟩
      · exact h.D_valid y hy
    · intro y hy
      rcases (hWmem y).1 hy with hy | hy
      · have hy' := hrest y hy
        refine ⟨hy'.2.1, hy'.2.2.1, ?_, (hadd y).2 (Or.inl hy'.2.2.2.2)⟩
        intro hmem
        rcases Finset.mem_insert.mp hmem with heq | hmem
        · exact hy'.1 heq
        · exact hy'.2.2.2.1 hmem
      · subst hy
        refine ⟨hplt.1, by omega, ?_, (hadd y).2 (Or.inr rfl)⟩
        intro hmem
        rcases Finset.mem_insert.mp hmem with heq | hmem
        · exact hpx heq
        · exact hpD hmem
    · intro i hi
      rcases (hadd i).1 hi with hi | hi
      · rcases h.added_mem i hi with hw | hd
        · rw [hW] at hw
          rcases List.mem_append.mp hw with hw | hw
          · exact Or.inl ((hWmem i).2 (Or.inl hw))
          · right
            simp at hw
            rw [hw]
            exact Finset.mem_insert_self _ _
        · exact Or.inr (Finset.mem_insert_of_mem hd)
      · exact Or.inl ((hWmem i).2 (Or.inr hi))
    · intro i c0' hc0'
      rw [hadd i, h.added_iff i c0' hc0']
      constructor
      · rintro ((hl | ⟨j, hj, hpj⟩) | hip)
        · exact Or.inl hl
        · exact Or.inr ⟨j, Finset.mem_insert_of_mem hj, hpj⟩
        · exact Or.inr ⟨x, Finset.mem_insert_self _ _, by rw [hip]; exact hpar⟩
      · rintro (hl | ⟨j, hj, hpj⟩)
        · exact Or.inl (Or.inl hl)
        · rcases Finset.mem_insert.mp hj with rfl | hj
          · rw [hpar] at hpj
            exact Or.inr (Option.some.inj hpj).symm
          · exact Or.inl (Or.inr ⟨j, hj, hpj⟩)
    · intro y hy j hj
      rcases Finset.mem_insert.mp hy with rfl | hy
      · exact Finset.mem_insert_of_mem (hchild j hj)
      · exact Finset.mem_insert_of_mem (h.closed y hy j hj)
  · rw [hflag, d4, hcxs]

/-- The loop of `hdbscan_propagate_tree` on a well-formed cluster tree: it comes to an end,
the calls of `cluster_propagate` are the clusters that were still to be processed, each once,
every cluster comes before its parent, and the flag is raised exactly for a stability equal
to `DBL_MAX`. -/
theorem orderInv_loop {α : Type} [LinearOrder α] [Add α] (D_MAX : α)
    (cs0 : ClusterList α) (hwf : ClusterTree cs0) (fuel : Nat) :
    ∀ (st : PropagateState α) (D : Finset Nat), OrderInv cs0 st D →
      cs0.length - 1 - D.card ≤ fuel →
      ∃ st' calls, propagateTrace D_MAX fuel st = some (st', calls) ∧
        calls.Nodup ∧
        (∀ y, y ∈ calls ↔ (1 ≤ y ∧ y < cs0.length ∧ y ∉ D)) ∧
        (∀ j p, parentAt cs0 j = some p → p ∈ calls →
          j ∈ D ∨ ∃ l1 l2 l3, calls = l1 ++ j :: (l2 ++ p :: l3)) ∧
        (st'.infiniteStability = true ↔
          (st.infiniteStability = true ∨
            ∃ y ∈ calls, ∃ c, cs0.getD y none = some c ∧ c.stability = D_MAX)) := by
  have hdone : ∀ (st : PropagateState α) (D : Finset Nat), OrderInv cs0 st D →
      st.clustersToExamine = [] → ∀ y, ¬ (1 ≤ y ∧ y < cs0.length ∧ y ∉ D) := by
    intro st D h hnil y hy
    obtain ⟨z, hz, _⟩ := orderInv_unprocessed cs0 hwf st D h (cs0.length - y) y (le_refl _)
      hy.1 hy.2.1 hy.2.2
    rw [hnil] at hz
    simp at hz
  induction fuel with
  | zero =>
    intro st D h hfuel
    have hsub : D ⊆ Finset.Ico 1 cs0.length := by
      intro y hy
      have := h.D_valid y hy
      simp only [Finset.mem_Ico]
      exact this
    have hcard : (Finset.Ico 1 cs0.length).card ≤ D.card := by
      simp only [Nat.card_Ico]
      omega
    have heq := Finset.eq_of_subset_of_card_le hsub hcard
    have hWnil : st.clustersToExamine = [] := by
      cases hl : st.clustersToExamine with
      | nil => rfl
      | cons y l =>
        exfalso
        have hy := h.W_mem y (by rw [hl]; simp)
        apply hy.2.2.1
        rw [heq]
        simp only [Finset.mem_Ico]
        exact ⟨hy.1, hy.2.1⟩
    refine ⟨st, [], ?_, List.nodup_nil, ?_, ?_, ?_⟩
    · unfold propagateTrace
      rw [if_pos hWnil]
    · intro y
      constructor
      · intro hy; simp at hy
      · intro hy; exact absurd hy (hdone st D h hWnil y)
    · intro j p _ hp; simp at hp
    · simp
  | succ fuel ih =>
    intro st D h hfuel
    cases hlast : st.clustersToExamine.getLast? with
    | none =>
      have hWnil := List.getLast?_eq_none_iff.mp hlast
      refine ⟨st, [], ?_, List.nodup_nil, ?_, ?_, ?_⟩
      · unfold propagateTrace
        simp only [hlast]
      · intro y
        constructor
        · intro hy; simp at hy
        · intro hy; exact absurd hy (hdone st D h hWnil y)
      · intro j p _ hp; simp at hp
      · simp
    | some x =>
      have hW : st.clustersToExamine = st.clustersToExamine.dropLast ++ [x] :=
        (List.dropLast_append_getLast? x hlast).symm
      obtain ⟨⟨hx1, hx2, hxD, _⟩, _, _, hchild⟩ :=
        orderInv_last cs0 hwf st D h x _ hW
      obtain ⟨c0, hc0⟩ := clusterTree_some hwf x hx1 hx2
      have hstep : ∃ st1, propagateStep D_MAX st x st.clustersToExamine.dropLast = some st1 ∧
          OrderInv cs0 st1 (insert x D) ∧
          st1.infiniteStability =
            (if c0.stability = D_MAX then true else st.infiniteStability) := by
        cases hpar : parentAt cs0 x with
        | none => exact orderInv_step_root D_MAX cs0 hwf st D h x _ c0 hc0 hW hpar
        | some p => exact orderInv_step_nonroot D_MAX cs0 hwf st D h x p _ c0 hc0 hW hpar
      obtain ⟨st1, hst1, hinv1, hflag1⟩ := hstep
      have hcard : (insert x D).card = D.card + 1 := Finset.card_insert_of_not_mem hxD
      obtain ⟨st', calls, hst', hnd, hmem, hord, hflag⟩ :=
        ih st1 (insert x D) hinv1 (by omega)
      have hxnot : x ∉ calls := by
        intro hxc
        exact ((hmem x).1 hxc).2.2 (Finset.mem_insert_self _ _)
      refine ⟨st', x :: calls, ?_, List.nodup_cons.mpr ⟨hxnot, hnd⟩, ?_, ?_, ?_⟩
      · unfold propagateTrace
        simp only [hlast, hst1, hst', Option.map_some']
      · intro y
        rw [List.mem_cons, hmem y]
        constructor
        · rintro (rfl | ⟨h1, h2, h3⟩)
          · exact ⟨hx1, hx2, hxD⟩
          · exact ⟨h1, h2, fun hyD => h3 (Finset.mem_insert_of_mem hyD)⟩
        · rintro ⟨h1, h2, h3⟩
          by_cases hyx : y = x
          · exact Or.inl hyx
          · right
            refine ⟨h1, h2, ?_⟩
            intro hyD
            rcases Finset.mem_insert.mp hyD with heq | hyD
            · exact hyx heq
            · exact h3 hyD
      · intro j p hjp hp
        rcases List.mem_cons.mp hp with hpx | hpc
        · left
          rw [hpx] at hjp
          exact hchild j hjp
        · rcases hord j p hjp hpc with hjD | ⟨l1, l2, l3, hsplit⟩
          · rcases Finset.mem_insert.mp hjD with hjx | hjD
            · right
              obtain ⟨l2, l3, hl⟩ := List.append_of_mem hpc
              refine ⟨[], l2, l3, ?_⟩
              rw [hjx, hl]
              rfl
            · exact Or.inl hjD
          · right
            refine ⟨x :: l1, l2, l3, ?_⟩
            rw [hsplit]
            rfl
      · rw [hflag, hflag1]
        constructor
        · rintro (hf | ⟨y, hy, c, hc, hcs⟩)
          · by_cases hcd : c0.stability = D_MAX
            · exact Or.inr ⟨x, List.mem_cons_self _ _, c0, hc0, hcd⟩
            · rw [if_neg hcd] at hf
              exact Or.inl hf
          · exact Or.inr ⟨y, List.mem_cons_of_mem _ hy, c, hc, hcs⟩
        · rintro (hf | ⟨y, hy, c, hc, hcs⟩)
          · left
            split
            · rfl
            · exact hf
          · rcases List.mem_cons.mp hy with hyx | hyc
            · left
              rw [hyx, hc0] at hc
              cases Option.some.inj hc
              rw [if_pos hcs]
            · exact Or.inr ⟨y, hyc, c, hc, hcs⟩

/-- The run of `hdbscan_propagate_tree` on a well-formed cluster tree, with the list of the
calls of `cluster_propagate`. -/
theorem propagate_tree_trace {α : Type} [LinearOrder α] [Add α] (D_MAX : α)
    (cs0 : ClusterList α) (hwf : ClusterTree cs0) :
    ∃ st calls, propagateTrace D_MAX cs0.length (propagateInit cs0) = some (st, calls) ∧
      hdbscan_propagate_tree D_MAX cs0 = some (st.clusters, st.infiniteStability) ∧
      calls.Nodup ∧
      (∀ y, y ∈ calls ↔ (1 ≤ y ∧ y < cs0.length)) ∧
      (∀ j p, parentAt cs0 j = some p → ∃ l1 l2 l3, calls = l1 ++ j :: (l2 ++ p :: l3)) ∧
      (st.infiniteStability = true ↔
        ∃ y c, cs0.getD y none = some c ∧ c.stability = D_MAX) := by
  obtain ⟨st, calls, htr, hnd, hmem, hord, hflag⟩ := orderInv_loop D_MAX cs0 hwf cs0.length
    (propagateInit cs0) ∅ (orderInv_init cs0 hwf) (by simp)
  have hmem' : ∀ y, y ∈ calls ↔ (1 ≤ y ∧ y < cs0.length) := by
    intro y
    rw [hmem y]
    simp
  refine ⟨st, calls, htr, ?_, hnd, hmem', ?_, ?_⟩
  · unfold hdbscan_propagate_tree
    rw [← propagateTrace_fst, htr]
    rfl
  · intro j p hjp
    have hlt := parentAt_lt hwf hjp
    rcases hord j p hjp ((hmem' p).2 ⟨hlt.1, by omega⟩) with hjD | hsplit
    · simp at hjD
    · exact hsplit
  · rw [hflag]
    have hinit : (propagateInit cs0).infiniteStability = false := by
      unfold propagateInit
      exact propagateInit_flag cs0 cs0.length
    rw [hinit]
    constructor
    · rintro (hf | ⟨y, _, c, hc, hcs⟩)
      · simp at hf
      · exact ⟨y, c, hc, hcs⟩
    · rintro ⟨y, c, hc, hcs⟩
      right
      refine ⟨y, (hmem' y).2 ⟨?_, getD_some_lt hc⟩, c, hc, hcs⟩
      rcases Nat.eq_zero_or_pos y with h0 | hpos
      · rw [h0, hwf.null] at hc; simp at hc
      · exact hpos

/-- C30: on every well-formed cluster tree (the parent of a cluster stands at a smaller
position, and so has a smaller label) `hdbscan_propagate_tree` returns, that is the loop over
the examination list comes to an end; the labels on which it calls `cluster_propagate`, in
the order of the calls, are the clusters of the list (the positions from 1 on), each exactly
once, and every cluster with a parent comes before its parent in that order. -/
theorem propagate_tree_call_order {α : Type} [LinearOrder α] [Add α] (D_MAX : α)
    (cs0 : ClusterList α) (hwf : ClusterTree cs0) :
    ∃ st calls, propagateTrace D_MAX cs0.length (propagateInit cs0) = some (st, calls) ∧
      hdbscan_propagate_tree D_MAX cs0 = some (st.clusters, st.infiniteStability) ∧
      calls.Nodup ∧
      (∀ y, y ∈ calls ↔ (1 ≤ y ∧ y < cs0.length)) ∧
      (∀ j p, parentAt cs0 j = some p → ∃ l1 l2 l3, calls = l1 ++ j :: (l2 ++ p :: l3)) := by
  obtain ⟨st, calls, h1, h2, h3, h4, h5, _⟩ := propagate_tree_trace D_MAX cs0 hwf
  exact ⟨st, calls, h1, h2, h3, h4, h5⟩

/-- Witness of C30: the root with the two children 2 and 3. -/
theorem propagate_tree_call_order_witness :
    ∃ st calls, propagateTrace 1000 exampleTree.length (propagateInit exampleTree) =
        some (st, calls) ∧
      hdbscan_propagate_tree 1000 exampleTree = some (st.clusters, st.infiniteStability) ∧
      calls.Nodup ∧
      (∀ y, y ∈ calls ↔ (1 ≤ y ∧ y < exampleTree.length)) ∧
      (∀ j p, parentAt exampleTree j = some p →
        ∃ l1 l2 l3, calls = l1 ++ j :: (l2 ++ p :: l3)) :=
  propagate_tree_call_order 1000 exampleTree exampleTree_wf

/-! ### Infinite stabilities -/

theorem infiniteTree_getD (i : Nat) (c : cluster (WithTop ℚ))
    (h : infiniteTree.getD i none = some c) :
    (i = 1 ∧ c = infiniteCluster 1 none 0 true) ∨
    (i = 2 ∧ c = infiniteCluster 2 (some 1) ⊤ false) ∨
    (i = 3 ∧ c = infiniteCluster 3 (some 1) ⊤ false) := by
  have hi : i < 4 := getD_some_lt h
  interval_cases i
  · simp [infiniteTree] at h
  · left; exact ⟨rfl, by simpa [infiniteTree] using h.symm⟩
  · right; left; exact ⟨rfl, by simpa [infiniteTree] using h.symm⟩
  · right; right; exact ⟨rfl, by simpa [infiniteTree] using h.symm⟩

theorem infiniteTree_parentAt (j i : Nat) (h : parentAt infiniteTree j = some i) :
    i = 1 ∧ (j = 2 ∨ j = 3) := by
  unfold parentAt at h
  cases hc : infiniteTree.getD j none with
  | none => rw [hc] at h; simp at h
  | some c =>
    rw [hc] at h
    rcases infiniteTree_getD j c hc with ⟨rfl, rfl⟩ | ⟨rfl, rfl⟩ | ⟨rfl, rfl⟩
    · simp [infiniteCluster] at h
    · simp only [infiniteCluster] at h
      exact ⟨(Option.some.inj h).symm, Or.inl rfl⟩
    · simp only [infiniteCluster] at h
      exact ⟨(Option.some.inj h).symm, Or.inr rfl⟩

theorem infiniteTree_wf : ClusterTree infiniteTree := by
  refine ⟨by decide, rfl, ⟨_, rfl, rfl⟩, ?_, ?_, ?_⟩
  · intro i h2 hlt
    have hlt' : i < 4 := hlt
    interval_cases i
    · exact ⟨_, 1, rfl, rfl, by omega, by omega⟩
    · exact ⟨_, 1, rfl, rfl, by omega, by omega⟩
  · intro i c hc
    rcases infiniteTree_getD i c hc with ⟨rfl, rfl⟩ | ⟨rfl, rfl⟩ | ⟨rfl, rfl⟩ <;> rfl
  · intro i c hc
    rcases infiniteTree_getD i c hc with ⟨rfl, rfl⟩ | ⟨rfl, rfl⟩ | ⟨rfl, rfl⟩
    · constructor
      · intro _; exact ⟨2, rfl⟩
      · intro _; rfl
    · constructor
      · intro h; simp [infiniteCluster] at h
      · rintro ⟨j, hj⟩
        have := (infiniteTree_parentAt j 2 hj).1
        omega
    · constructor
      · intro h; simp [infiniteCluster] at h
      · rintro ⟨j, hj⟩
        have := (infiniteTree_parentAt j 3 hj).1
        omega

/-- C28 (failing input): on the cluster tree `infiniteTree`, whose clusters 2 and 3 have the
stability `+∞`, `hdbscan_propagate_tree` returns `FALSE` (with 1000000 for `DBL_MAX`): the
flag is raised for a stability equal to `DBL_MAX`, which `+∞` is not. -/
theorem propagate_tree_infinite_not_flagged :
    (∃ c, infiniteTree.getD 2 none = some c ∧ c.stability = ⊤) ∧
    (∃ c, infiniteTree.getD 3 none = some c ∧ c.stability = ⊤) ∧
    ∃ clusters, hdbscan_propagate_tree (1000000 : WithTop ℚ) infiniteTree =
      some (clusters, false) := by
  refine ⟨⟨_, rfl, rfl⟩, ⟨_, rfl, rfl⟩, ?_⟩
  obtain ⟨st, calls, _, hrun, _, _, _, hflag⟩ :=
    propagate_tree_trace (1000000 : WithTop ℚ) infiniteTree infiniteTree_wf
  have hfalse : st.infiniteStability = false := by
    cases hb : st.infiniteStability
    · rfl
    · exfalso
      obtain ⟨y, c, hc, hcs⟩ := hflag.1 hb
      rcases infiniteTree_getD y c hc with ⟨_, rfl⟩ | ⟨_, rfl⟩ | ⟨_, rfl⟩
      · have h0 : ((0 : ℚ) : WithTop ℚ) = ((1000000 : ℚ) : WithTop ℚ) := hcs
        rw [WithTop.coe_eq_coe] at h0
        norm_num at h0
      · have h0 : (⊤ : WithTop ℚ) = ((1000000 : ℚ) : WithTop ℚ) := hcs
        exact WithTop.top_ne_coe h0
      · have h0 : (⊤ : WithTop ℚ) = ((1000000 : ℚ) : WithTop ℚ) := hcs
        exact WithTop.top_ne_coe h0
  rw [hfalse] at hrun
  exact ⟨st.clusters, hrun⟩

/-! ### The return code of `cluster_detach_points` -/

/-- The return code of `cluster_detach_points` is not looked at. The
function `hdbscan_create_new_cluster` called with a label other than 0 takes the points from
the count of the parent, whatever the count becomes, and makes the new cluster; and on a
sorted graph with a self loop on every vertex (the spanning tree that `hdbscan_do_run` hands
over) `hdbscan_compute_hierarchy_and_cluster_tree` returns with every cluster at
`numPoints = 0`. -/
theorem create_new_cluster_ignores_detach_code {α : Type} [LinearOrderedField α]
    (D_MAX NAN : α) (minPoints : Nat) (compactHierarchy : Bool) (pointNoiseLevels : List α)
    (pointLastClusters : List Nat) (mst : graph α) (clusters : ClusterList α)
    (points clusterLabels : List Nat) (parentCluster clusterLabel : Nat) (edgeWeight : α)
    (par : cluster α)
    (hmst : SortedSelfLoopGraph mst)
    (hpar : clusters.getD parentCluster none = some par)
    (hlabel : clusterLabel ≠ 0) :
    (∃ c, (hdbscan_create_new_cluster D_MAX clusters points clusterLabels parentCluster
          clusterLabel edgeWeight).2.2 = some c ∧
        c.label = clusterLabel ∧ c.parent = some parentCluster ∧
        c.numPoints = (points.length : Int)) ∧
    (∃ p, (hdbscan_create_new_cluster D_MAX clusters points clusterLabels parentCluster
          clusterLabel edgeWeight).1.getD parentCluster none = some p ∧
        p.numPoints = par.numPoints - (points.length : Int)) ∧
    ∃ st, hdbscan_compute_hierarchy_and_cluster_tree D_MAX NAN minPoints mst compactHierarchy
        pointNoiseLevels pointLastClusters = some st ∧
      ∀ L, 1 ≤ L → L < st.clusters.length →
        ∃ c, st.clusters.getD L none = some c ∧ c.numPoints = 0 := by
  have hplt : parentCluster < clusters.length := getD_some_lt hpar
  refine ⟨?_, ?_, ?_⟩
  · unfold hdbscan_create_new_cluster
    simp only [hpar, if_pos hlabel]
    exact ⟨_, rfl, rfl, rfl, rfl⟩
  · have hdet : (cluster_detach_points par (points.length : Int) edgeWeight).1.numPoints =
        par.numPoints - (points.length : Int) := by
      unfold cluster_detach_points
      simp only
      split
      · rfl
      · split <;> rfl
    unfold hdbscan_create_new_cluster
    simp only [hpar, if_pos hlabel]
    unfold cluster_init
    simp only
    have hget : (clusters.set parentCluster
        (some (cluster_detach_points par (points.length : Int) edgeWeight).1)).getD
          parentCluster none =
        some (cluster_detach_points par (points.length : Int) edgeWeight).1 := by
      rw [getD_set_eq, if_pos ⟨rfl, hplt⟩]
    rw [hget]
    simp only
    rw [getD_set_eq, if_pos ⟨rfl, by rw [List.length_set]; exact hplt⟩]
    exact ⟨_, rfl, hdet⟩
  · obtain ⟨st, hst, _, hlen, hlab, _, hok⟩ :=
      compute_hierarchy_final False mst D_MAX NAN minPoints compactHierarchy pointNoiseLevels
        pointLastClusters hmst.graph
        (fun v hv => by
          obtain ⟨i, hi, h1, _⟩ := hmst.selfLoops v hv
          exact ⟨i, hi, Or.inl h1⟩)
        (fun h => h.elim)
    refine ⟨st, hst, ?_⟩
    intro L hL hLn
    rw [hok.len] at hLn
    obtain ⟨c, hc, _, hnum, _⟩ := hok.some L hL hLn
    refine ⟨c, hc, ?_⟩
    have hcount : st.currentClusterLabels.count L = 0 := by
      rw [List.count_eq_zero]
      intro hmem
      obtain ⟨i, hi, hget⟩ := List.getElem_of_mem hmem
      have := hlab i (by rw [← hlen]; exact hi)
      rw [List.getD_eq_getElem?_getD, List.getElem?_eq_getElem hi] at this
      simp only [Option.getD_some] at this
      omega
    rw [hnum, hcount]
    rfl

/-- An instance of `create_new_cluster_ignores_detach_code`: the graph `twoGroupsMst`, and
five points taken from a root cluster of
four points. -/
theorem create_new_cluster_ignores_detach_code_witness :
    (∃ c, (hdbscan_create_new_cluster (1000 : ℚ)
          [none, some (cluster_init (1000 : ℚ) [none] 1 none 0 4).2] [0, 1, 2, 3, 0]
          [1, 1, 1, 1] 1 2 1).2.2 = some c ∧
        c.label = 2 ∧ c.parent = some 1 ∧
        c.numPoints = (([0, 1, 2, 3, 0] : List Nat).length : Int)) ∧
    (∃ p, (hdbscan_create_new_cluster (1000 : ℚ)
          [none, some (cluster_init (1000 : ℚ) [none] 1 none 0 4).2] [0, 1, 2, 3, 0]
          [1, 1, 1, 1] 1 2 1).1.getD 1 none = some p ∧
        p.numPoints = (cluster_init (1000 : ℚ) [none] 1 none 0 4).2.numPoints -
          (([0, 1, 2, 3, 0] : List Nat).length : Int)) ∧
    ∃ st, hdbscan_compute_hierarchy_and_cluster_tree (1000 : ℚ) 0 2 twoGroupsMst false
        [0, 0, 0, 0, 0, 0] [0, 0, 0, 0, 0, 0] = some st ∧
      ∀ L, 1 ≤ L → L < st.clusters.length →
        ∃ c, st.clusters.getD L none = some c ∧ c.numPoints = 0 :=
  create_new_cluster_ignores_detach_code 1000 0 2 false [0, 0, 0, 0, 0, 0] [0, 0, 0, 0, 0, 0]
    twoGroupsMst
    [none, some (cluster_init (1000 : ℚ) [none] 1 none 0 4).2] [0, 1, 2, 3, 0] [1, 1, 1, 1] 1 2 1
    (cluster_init (1000 : ℚ) [none] 1 none 0 4).2
    ⟨rfl, rfl, graph_init_ok 6 _ _ _ (by decide), by decide, by decide⟩ rfl (by decide)

/-! ### The choice of `cluster_propagate`, the self loops and the packed triangle -/

/-- C31: for a cluster (position `x`) with a parent (position `p`) whose two constraint
counts are equal, `cluster_propagate` adds the stability of the cluster to the propagated
stability of the parent and appends the cluster itself to the propagated descendants of the
parent when the cluster has no children or its stability is at least its propagated
stability; otherwise it adds the propagated stability and appends the propagated descendants
of the cluster, in their order. For a cluster without parent the list stays as it is. -/
theorem cluster_propagate_tie {α : Type} [LinearOrder α] [Add α] (D_MAX : α)
    (clusters : ClusterList α) (x p : Nat) (cl par : cluster α)
    (hx : clusters.getD x none = some cl) (hp : cl.parent = some p) (hxp : p ≠ x)
    (hpar : clusters.getD p none = some par)
    (hcons : cl.numConstraintsSatisfied = cl.propagatedNumConstraintsSatisfied) :
    (∃ par1, (cluster_propagate D_MAX clusters x).getD p none = some par1 ∧
      par1.propagatedStability =
        par.propagatedStability +
          (if cl.hasChildren = false ∨ cl.stability ≥ cl.propagatedStability then cl.stability
            else cl.propagatedStability) ∧
      par1.propagatedDescendants =
        par.propagatedDescendants ++
          (if cl.hasChildren = false ∨ cl.stability ≥ cl.propagatedStability then [x]
            else cl.propagatedDescendants)) ∧
    (∀ y c, clusters.getD y none = some c → c.parent = none →
      cluster_propagate D_MAX clusters y = clusters) := by
  refine ⟨?_, fun y c hy hc => cluster_propagate_root D_MAX clusters y c hy hc⟩
  have hplt : p < clusters.length := getD_some_lt hpar
  obtain ⟨_, _, d3, d4, d5, d6, d7, d8⟩ := propagateDeath_fields D_MAX cl
  obtain ⟨_, _, _, _, _, _, e7, e8⟩ :=
    propagateChoice_fields (propagateParentDeath (propagateDeath D_MAX cl) par)
      (propagateDeath D_MAX cl) x (by rw [d7, d8]; exact hcons)
  obtain ⟨_, _, _, _, g5, g6, _⟩ := propagateParentDeath_fields (propagateDeath D_MAX cl) par
  rw [cluster_propagate_eq D_MAX clusters x p cl par hx hp hxp hpar, getD_set_eq,
    if_pos ⟨rfl, by rw [List.length_set]; exact hplt⟩]
  refine ⟨_, rfl, ?_, ?_⟩
  · rw [e7, g5]
    unfold chosenStability
    rw [d3, d4, d5]
  · rw [e8, g6]
    unfold chosenDescendants
    rw [d3, d4, d5, d6]

/-- Witness of C31: the cluster 2 of `exampleTree`, whose parent is the root. -/
theorem cluster_propagate_tie_witness :
    (∃ par1, (cluster_propagate (1000 : Int) exampleTree 2).getD 1 none = some par1 ∧
      par1.propagatedStability =
        (exampleCluster 1 none 0 true).propagatedStability +
          (if (exampleCluster 2 (some 1) 3 false).hasChildren = false ∨
              (exampleCluster 2 (some 1) 3 false).stability ≥
                (exampleCluster 2 (some 1) 3 false).propagatedStability then
            (exampleCluster 2 (some 1) 3 false).stability
            else (exampleCluster 2 (some 1) 3 false).propagatedStability) ∧
      par1.propagatedDescendants =
        (exampleCluster 1 none 0 true).propagatedDescendants ++
          (if (exampleCluster 2 (some 1) 3 false).hasChildren = false ∨
              (exampleCluster 2 (some 1) 3 false).stability ≥
                (exampleCluster 2 (some 1) 3 false).propagatedStability then [2]
            else (exampleCluster 2 (some 1) 3 false).propagatedDescendants)) ∧
    (∀ y c, exampleTree.getD y none = some c → c.parent = none →
      cluster_propagate (1000 : Int) exampleTree y = exampleTree) :=
  cluster_propagate_tie 1000 exampleTree 2 1 (exampleCluster 2 (some 1) 3 false)
    (exampleCluster 1 none 0 true) rfl rfl (by decide) rfl rfl

/-- The entries of the three lists of `hdbscan_construct_mst` at the position of the self
loop of the point `i`. -/
theorem construct_mst_self_loop_getD {α : Type} [LinearOrder α] [Zero α] (D_MAX : α)
    (dis : distance α) (size : Nat) (i : Nat) (hi : i < size) :
    ∃ g, hdbscan_construct_mst D_MAX dis size true = some g ∧
      g.verticesA.length = 2 * size - 1 ∧
      g.verticesA.getD (size - 1 + i) 0 = i ∧
      g.verticesB.getD (size - 1 + i) 0 = i ∧
      g.edgeWeights.getD (size - 1 + i) 0 = dis.coreDistances.getD i 0 := by
  obtain ⟨pt, st, hinv, hres⟩ := construct_mst_result D_MAX dis size true (by omega)
  refine ⟨_, hres, ?_⟩
  simp only [if_true] at hinv ⊢
  obtain ⟨hA, hB, hW⟩ := mstSelfEdges_fields dis size (List.range' (size - 1) size) st
  refine ⟨?_, ?_, ?_, ?_⟩
  · unfold mstSelfEdges; rw [hA, foldl_set_length, hinv.nb_len]; omega
  · unfold mstSelfEdges
    rw [hA, foldl_set_range'_getD, if_pos ⟨by omega, by omega, by rw [hinv.nb_len]; omega⟩]
    omega
  · unfold mstSelfEdges
    rw [hB, foldl_set_range'_getD, if_pos ⟨by omega, by omega, by rw [hinv.ot_len]; omega⟩]
    omega
  · unfold mstSelfEdges
    rw [hW, foldl_set_range'_getD, if_pos ⟨by omega, by omega, by rw [hinv.d_len]; omega⟩]
    congr 2
    omega

/-- C32 (as amended): with `selfEdges` set, the self loop that `hdbscan_construct_mst`
appends for the point `i` stands at the position `size - 1 + i` of the three lists, after the
`size - 1` real edges; both its end points are `i` and its weight is `coreDistances[i]`. -/
theorem construct_mst_self_loop {α : Type} [LinearOrder α] [Zero α] (D_MAX : α)
    (dis : distance α) (size : Nat) (i : Nat) (hi : i < size) :
    ∃ g, hdbscan_construct_mst D_MAX dis size true = some g ∧
      size - 1 + i < g.verticesA.length ∧
      g.verticesA.getD (size - 1 + i) 0 = i ∧
      g.verticesB.getD (size - 1 + i) 0 = i ∧
      g.edgeWeights.getD (size - 1 + i) 0 = dis.coreDistances.getD i 0 := by
  obtain ⟨g, hg, hlen, h1, h2, h3⟩ := construct_mst_self_loop_getD D_MAX dis size i hi
  exact ⟨g, hg, by omega, h1, h2, h3⟩

/-- Witness of C32: the self loop of the point 1 of the four points `0, 2, -2, 1`. -/
theorem construct_mst_self_loop_witness :
    ∃ g, hdbscan_construct_mst 1000 lineStore 4 true = some g ∧
      4 - 1 + 1 < g.verticesA.length ∧
      g.verticesA.getD (4 - 1 + 1) 0 = 1 ∧
      g.verticesB.getD (4 - 1 + 1) 0 = 1 ∧
      g.edgeWeights.getD (4 - 1 + 1) 0 = lineStore.coreDistances.getD 1 0 :=
  construct_mst_self_loop 1000 lineStore 4 1 (by decide)

/-- C32 (counterexample): for the four points `0, 2, -2, 1` the self loop of the point 1
(position 4 of the lists) does not have the end points 1 and `4 - 1 + 1 = 4`: both its end
points are 1. -/
theorem construct_mst_self_loop_ends :
    ¬ (∀ g, hdbscan_construct_mst 1000 lineStore 4 true = some g →
      ∀ i, i < 4 →
        (g.verticesA.getD (4 - 1 + i) 0 = i ∧ g.verticesB.getD (4 - 1 + i) 0 = 4 - 1 + i) ∨
        (g.verticesA.getD (4 - 1 + i) 0 = 4 - 1 + i ∧ g.verticesB.getD (4 - 1 + i) 0 = i)) := by
  intro hall
  obtain ⟨g, hg, _, h1, h2, _⟩ := construct_mst_self_loop_getD 1000 lineStore 4 1 (by decide)
  rcases hall g hg 1 (by decide) with h | h
  · rw [h2] at h
    omega
  · rw [h1] at h
    omega

theorem tri_even (i : Nat) : 2 ∣ i * i + i := by
  have : i * i + i = i * (i + 1) := by ring
  rw [this]
  exact (Nat.even_mul_succ_self i).two_dvd

/-- Every cell below the first cell of row `i` of the packed triangle holds a pair of an
earlier row. -/
theorem triIndex_surj_below (N : Nat) :
    ∀ i, i + 1 ≤ N → ∀ k, 2 * k + i * i + i < 2 * (N * i) →
      ∃ a b, a < b ∧ b < N ∧ triIndex N a b = k := by
  intro i
  induction i with
  | zero =>
    intro _ k hk
    omega
  | succ i ih =>
    intro hi k hk
    by_cases hlow : 2 * k + i * i + i < 2 * (N * i)
    · exact ih (by omega) k hlow
    · have he := tri_even i
      have e1 : (i + 1) * (i + 1) = i * i + 2 * i + 1 := by ring
      have e2 : N * (i + 1) = N * i + N := by ring
      rw [e1, e2] at hk
      obtain ⟨j, hj⟩ : ∃ j, 2 * j + 2 * (N * i) = 2 * k + i * i + 3 * i + 2 :=
        ⟨(2 * k + i * i + 3 * i + 2 - 2 * (N * i)) / 2, by omega⟩
      have hij : i < j := by omega
      have hjN : j < N := by omega
      refine ⟨i, j, hij, hjN, ?_⟩
      have h2 := triIndex_two_mul hij hjN
      rw [e1] at h2
      omega

/-- C36: the index `k(i,j) = N * i + j - T(i + 1)` that `distance_get` reads (for `i < j`)
and `distance_compute` writes lies below `(N * N - N) / 2`, the number of cells of the store,
for all `i < j < N`; two different pairs have different indices; and every cell below
`(N * N - N) / 2` is the cell of a pair. -/
theorem triIndex_bijective (N : Nat) :
    (∀ i j, i < j → j < N → triIndex N i j < (N * N - N) / 2) ∧
    (∀ i j a b, i < j → j < N → a < b → b < N → triIndex N i j = triIndex N a b →
      i = a ∧ j = b) ∧
    (∀ k, k < (N * N - N) / 2 → ∃ i j, i < j ∧ j < N ∧ triIndex N i j = k) ∧
    (∀ (α : Type) [Zero α] (dis : distance α) (i j : Nat), dis.rows = N → i < j →
      distance_get dis i j = dis.distances.getD (triIndex N i j) 0) ∧
    (∀ i j, i * N + j - TRIANGULAR_H (i + 1) = triIndex N i j) := by
  refine ⟨fun i j hij hj => triIndex_lt hij hj,
    fun i j a b hij hj hab hb h => triIndex_inj hij hj hab hb h, ?_, ?_, ?_⟩
  · intro k hk
    rcases Nat.eq_zero_or_pos N with h0 | hpos
    · subst h0
      simp at hk
    · apply triIndex_surj_below N (N - 1) (by omega) k
      obtain ⟨m, rfl⟩ : ∃ m, N = m + 1 := ⟨N - 1, by omega⟩
      have he := tri_even m
      have e1 : (m + 1) * (m + 1) - (m + 1) = m * m + m := by
        have : (m + 1) * (m + 1) = m * m + m + (m + 1) := by ring
        omega
      rw [e1] at hk
      have e2 : (m + 1) * (m + 1 - 1) = m * m + m := by
        rw [Nat.add_sub_cancel]; ring
      rw [e2, Nat.add_sub_cancel]
      omega
  · intro α _ dis i j hrows hij
    unfold distance_get triIndex
    rw [if_pos hij, hrows]
  · intro i j
    unfold triIndex
    rw [Nat.mul_comm]

/-! ### The rearrangement by `hdbscan_quicksort` -/

theorem getElem?_eq_of_getD_eq {β : Type} (L L1 : List β) (dflt : β)
    (hlen : L1.length = L.length) (i : Nat) (h : L1.getD i dflt = L.getD i dflt) :
    L1[i]? = L[i]? := by
  by_cases hi : i < L.length
  · rw [getElem?_eq_some_getD L1 i dflt (by omega), getElem?_eq_some_getD L i dflt hi, h]
  · rw [List.getElem?_eq_none (by omega), List.getElem?_eq_none (by omega)]

/-- A rearrangement of a list that leaves the entries outside the window of `n` entries from
`left` on where they are is a rearrangement of the window. -/
theorem window_perm {β : Type} (L L1 : List β) (dflt : β) (left n : Nat)
    (hlen : L1.length = L.length) (hperm : L1.Perm L)
    (hout : ∀ i, i < left ∨ left + n ≤ i → L1.getD i dflt = L.getD i dflt) :
    ((L1.drop left).take n).Perm ((L.drop left).take n) := by
  have hA : L1.take left = L.take left := by
    apply List.ext_getElem?
    intro i
    by_cases hi : i < left
    · rw [List.getElem?_take_of_lt hi, List.getElem?_take_of_lt hi]
      exact getElem?_eq_of_getD_eq L L1 dflt hlen i (hout i (Or.inl hi))
    · rw [List.getElem?_eq_none (by rw [List.length_take]; omega),
        List.getElem?_eq_none (by rw [List.length_take]; omega)]
  have hC : (L1.drop left).drop n = (L.drop left).drop n := by
    apply List.ext_getElem?
    intro i
    rw [List.drop_drop, List.drop_drop, List.getElem?_drop, List.getElem?_drop]
    exact getElem?_eq_of_getD_eq L L1 dflt hlen _ (hout _ (Or.inr (by omega)))
  have h1 : L1 = L1.take left ++ ((L1.drop left).take n ++ (L1.drop left).drop n) := by
    rw [List.take_append_drop, List.take_append_drop]
  have h2 : L = L.take left ++ ((L.drop left).take n ++ (L.drop left).drop n) := by
    rw [List.take_append_drop, List.take_append_drop]
  rw [h1, h2, hA, hC] at hperm
  exact (List.perm_append_right_iff _).mp ((List.perm_append_left_iff _).mp hperm)

/-- Sort keys of a linear order (no NaN among them): for two equally long arrays and `right`
below their length, `hdbscan_quicksort` (with a bound on the depth of its recursion of at least `right - left`) returns, and it
rearranges both arrays by one and the same permutation: the pairs `(clusters[i], sortData[i])`
at the indices `left, …, right` after the call are a rearrangement of those before the call,
and the two entries at every index outside `left, …, right` are unchanged. -/
theorem quicksort_window_perm {α : Type} [LinearOrder α] [Zero α] (clusters : List Nat)
    (sortData : List α) (left right fuel : Nat) (hlen : clusters.length = sortData.length)
    (hr : right < sortData.length) (hfuel : right - left ≤ fuel) :
    ∃ c1 d1, hdbscan_quicksort fuel clusters sortData left right = some (c1, d1) ∧
      c1.length = clusters.length ∧ d1.length = sortData.length ∧
      List.Perm (((c1.zip d1).drop left).take (right + 1 - left))
        (((clusters.zip sortData).drop left).take (right + 1 - left)) ∧
      ∀ i, i < left ∨ right < i →
        c1.getD i 0 = clusters.getD i 0 ∧ d1.getD i 0 = sortData.getD i 0 := by
  obtain ⟨c1, d1, hq, hperm, _, hsame⟩ :=
    quicksort_spec fuel clusters sortData left right hlen hr hfuel
  refine ⟨c1, d1, hq, hperm.1, hperm.2.1, ?_, fun i hi => hperm.outside i hi⟩
  rcases Nat.lt_or_ge right left with hlt | hge
  · obtain ⟨hc, hd⟩ := hsame (by omega)
    rw [hc, hd]
  · apply window_perm _ _ ((0 : Nat), (0 : α)) left (right + 1 - left)
    · rw [List.length_zip, List.length_zip, hperm.1, hperm.2.1]
    · exact hperm.perm_zip hlen hr
    · intro i hi
      have hlen1 : c1.length = d1.length := by rw [hperm.1, hperm.2.1, hlen]
      rw [zip_getD_pair c1 d1 hlen1, zip_getD_pair clusters sortData hlen]
      have := hperm.outside i (by omega)
      rw [this.1, this.2]

/-- An instance of `quicksort_window_perm`: three clusters and their values, sorted as a
whole. -/
theorem quicksort_window_perm_witness :
    ∃ c1 d1, hdbscan_quicksort 2 [7, 8, 9] ([3, 1, 2] : List Int) 0 2 = some (c1, d1) ∧
      c1.length = [7, 8, 9].length ∧ d1.length = ([3, 1, 2] : List Int).length ∧
      List.Perm (((c1.zip d1).drop 0).take (2 + 1 - 0))
        ((([7, 8, 9].zip ([3, 1, 2] : List Int)).drop 0).take (2 + 1 - 0)) ∧
      ∀ i, i < 0 ∨ 2 < i →
        c1.getD i 0 = [7, 8, 9].getD i 0 ∧ d1.getD i 0 = ([3, 1, 2] : List Int).getD i 0 :=
  quicksort_window_perm [7, 8, 9] ([3, 1, 2] : List Int) 0 2 2 rfl (by decide) (by decide)

/-! ### Differences of `int` elements -/

/-- C34 (failing input): for the `int` data set of the two rows `2147483647` and `-2` (one
column) the difference `2147483647 - (-2) = 2147483649` leaves the range of `int`; the
subtraction is done before the conversion to `distance_t`, the difference that is squared is
`-2147483647`, and the stored distance is the square root of `2147483647^2`, not of the
square `2147483649^2` of the exact difference. -/
theorem distance_compute_int_wraps (D_MAX : ℚ) (sqrt : ℚ → ℚ) (uninit : Nat → ℚ)
    (numNeighbors : Nat) :
    int32Diff (dataWide 0) (dataWide 1) = -2147483647 ∧
    dataWide 0 - dataWide 1 = 2147483649 ∧
    distance_get (distance_compute D_MAX int32Diff sqrt uninit dataWide 2 1 numNeighbors) 0 1 =
      sqrt (2147483647 ^ 2) ∧
    (2147483647 : ℚ) ^ 2 ≠ ((dataWide 0 - dataWide 1 : Int) : ℚ) ^ 2 := by
  have hd : int32Diff (dataWide 0) (dataWide 1) = -2147483647 := by
    unfold int32Diff wrapInt32 dataWide
    norm_num
  have h2 : dataWide 0 - dataWide 1 = 2147483649 := by
    unfold dataWide
    norm_num
  refine ⟨hd, h2, ?_, ?_⟩
  · have hlen : ((List.range ((2 * 2 - 2) / 2)).map uninit).length = (2 * 2 - 2) / 2 := by simp
    unfold distance_get distance_compute distance_get_core_distances
    simp only
    rw [if_pos (by decide)]
    have hf := fillDistances_getD int32Diff sqrt dataWide 2 1 _ hlen 0 0 1 (by decide)
      (by decide)
    unfold triIndex at hf
    rw [hf, pairDistance_eq_sum]
    simp only [Finset.sum_range_one, Nat.zero_mul, Nat.one_mul, Nat.add_zero]
    rw [hd]
    norm_num
  · rw [h2]
    norm_num

/-! ### The window of `distance_get_core_distances` on rows of distinct distances -/

/-- The binary search of `distance_get_core_distances` finds the position `k` that separates
the entries below `t` from the entries above `t`, when no entry equals `t`. -/
theorem searchLow_spec {α : Type} [LinearOrder α] (D_MAX : α) (w : List α) (t : α) (k : Nat)
    (hlow : ∀ i, i < k → w.getD i D_MAX < t)
    (hhigh : ∀ i, k ≤ i → i < w.length → t < w.getD i D_MAX) :
    ∀ fuel lo hi, lo ≤ k → k ≤ hi → hi ≤ w.length → lo < hi → hi - lo ≤ fuel →
      searchLow D_MAX w t fuel lo hi = k := by
  intro fuel
  induction fuel with
  | zero =>
    intro lo hi _ _ _ hlt hf
    omega
  | succ fuel ih =>
    intro lo hi hlo hhi hlen hlt hf
    unfold searchLow
    simp only
    have hmid1 : lo ≤ lo + (hi - lo) / 2 := by omega
    have hmid2 : lo + (hi - lo) / 2 < hi := by omega
    by_cases hgt : w.getD (lo + (hi - lo) / 2) D_MAX > t
    · rw [if_pos hgt]
      have hk : k ≤ lo + (hi - lo) / 2 := by
        by_contra hc
        exact lt_asymm hgt (hlow _ (by omega))
      by_cases hlm : lo < lo + (hi - lo) / 2
      · rw [if_pos hlm]
        exact ih lo _ hlo hk (by omega) hlm (by omega)
      · rw [if_neg hlm]
        omega
    · rw [if_neg hgt]
      have hk : lo + (hi - lo) / 2 < k := by
        by_contra hc
        exact hgt (hhigh _ (by omega) (by omega))
      have hne : ¬ w.getD (lo + (hi - lo) / 2) D_MAX = t := ne_of_lt (hlow _ hk)
      rw [if_neg hne]
      by_cases hmh : lo + (hi - lo) / 2 + 1 < hi
      · rw [if_pos hmh]
        exact ih _ hi (by omega) hhi hlen hmh (by omega)
      · rw [if_neg hmh]
        omega

/-- The place of a new value in a sorted list that does not hold it. -/
theorem orderedInsert_split {α : Type} [LinearOrder α] (d t : α) :
    ∀ L : List α, L.Sorted (· ≤ ·) → t ∉ L →
      ∃ k, k ≤ L.length ∧ (∀ i, i < k → L.getD i d < t) ∧
        (∀ i, k ≤ i → i < L.length → t < L.getD i d) ∧
        L.orderedInsert (· ≤ ·) t = L.take k ++ t :: L.drop k := by
  intro L
  induction L with
  | nil =>
    intro _ _
    exact ⟨0, le_refl _, fun i hi => by omega, fun i _ hi => by simp at hi, rfl⟩
  | cons a L ih =>
    intro hs hnot
    have hta : t ≠ a := fun h => hnot (by rw [h]; exact List.mem_cons_self _ _)
    have hnot1 : t ∉ L := fun h => hnot (List.mem_cons_of_mem _ h)
    by_cases hle : t ≤ a
    · refine ⟨0, Nat.zero_le _, fun i hi => by omega, ?_, ?_⟩
      · intro i _ hi
        have hmem : (a :: L).getD i d ∈ a :: L := by
          rw [List.getD_eq_getElem _ _ hi]
          exact List.getElem_mem _
        have hlt : t < a := lt_of_le_of_ne hle hta
        rcases List.mem_cons.mp hmem with h | h
        · rw [h]; exact hlt
        · exact lt_of_lt_of_le hlt (List.rel_of_sorted_cons hs _ h)
      · rw [List.orderedInsert, if_pos hle]
        rfl
    · obtain ⟨k, hk, h1, h2, h3⟩ := ih (List.Sorted.of_cons hs) hnot1
      refine ⟨k + 1, by simp only [List.length_cons]; omega, ?_, ?_, ?_⟩
      · intro i hi
        cases i with
        | zero => exact lt_of_not_le hle
        | succ i => exact h1 i (by omega)
      · intro i hki hi
        cases i with
        | zero => omega
        | succ i =>
          simp only [List.length_cons] at hi
          exact h2 i (by omega) (by omega)
      · rw [List.orderedInsert, if_neg hle, h3]
        rfl

/-- One round of the loop over `j` on a window that is the front of a sorted list without the
candidate: the window becomes the front of the list with the candidate inserted at its
place. -/
theorem windowStep_take {α : Type} [LinearOrder α] (D_MAX : α) (n : Nat) (L : List α) (t : α)
    (hs : L.Sorted (· ≤ ·)) (hnot : t ∉ L) (hlen : n + 1 ≤ L.length) :
    windowStep D_MAX n (L.take (n + 1)) t = (L.orderedInsert (· ≤ ·) t).take (n + 1) := by
  obtain ⟨k, hk, h1, h2, h3⟩ := orderedInsert_split D_MAX t L hs hnot
  have hget : ∀ i, i < n + 1 → (L.take (n + 1)).getD i D_MAX = L.getD i D_MAX := by
    intro i hi
    rw [List.getD_eq_getElem?_getD, List.getD_eq_getElem?_getD, List.getElem?_take_of_lt hi]
  have hwlen : (L.take (n + 1)).length = n + 1 := by
    rw [List.length_take]; omega
  unfold windowStep
  rw [hget n (by omega)]
  by_cases hgt : t > L.getD n D_MAX
  · rw [if_pos hgt]
    have hkn : n < k := by
      by_contra hc
      exact lt_asymm hgt (h2 n (by omega) (by omega))
    rw [h3, List.take_append_of_le_length (by rw [List.length_take]; omega), List.take_take,
      Nat.min_eq_left (by omega)]
  · rw [if_neg hgt]
    have hkn : k ≤ n := by
      by_contra hc
      exact hgt (h1 n (by omega))
    have hsearch : searchLow D_MAX (L.take (n + 1)) t (n + 2) 0 (n + 1) = k := by
      apply searchLow_spec D_MAX (L.take (n + 1)) t k
      · intro i hi
        rw [hget i (by omega)]
        exact h1 i hi
      · intro i hki hi
        rw [hwlen] at hi
        rw [hget i hi]
        exact h2 i hki (by omega)
      · omega
      · omega
      · omega
      · omega
      · omega
    have hcond : k < n + 1 ∧ L.getD n D_MAX ≠ t := ⟨by omega, ne_of_gt (h2 n hkn (by omega))⟩
    simp only [hsearch]
    rw [if_pos hcond, h3]
    unfold shiftInsert
    have a1 : (L.take (n + 1)).take k = L.take k := by
      rw [List.take_take, Nat.min_eq_left (by omega)]
    have a2 : ((L.take (n + 1)).drop k).dropLast = (L.drop k).take (n - k) := by
      rw [List.drop_take, List.dropLast_eq_take, List.take_take, List.length_take,
        List.length_drop]
      congr 1
      omega
    have a3 : (L.take k ++ t :: L.drop k).take (n + 1) =
        L.take k ++ t :: (L.drop k).take (n - k) := by
      have e : n + 1 - (L.take k).length = (n - k) + 1 := by
        rw [List.length_take]; omega
      rw [List.take_append_eq_append_take, e, List.take_succ_cons,
        List.take_of_length_le (by rw [List.length_take]; omega)]
    rw [a1, a2, a3]

theorem orderedInsert_append_ge {α : Type} [LinearOrder α] (t : α) (R : List α)
    (hR : ∀ x ∈ R, t ≤ x) :
    ∀ S : List α, (S ++ R).orderedInsert (· ≤ ·) t = S.orderedInsert (· ≤ ·) t ++ R := by
  intro S
  induction S with
  | nil =>
    cases R with
    | nil => rfl
    | cons a R =>
      rw [List.nil_append, List.orderedInsert_of_le _ _ (hR a (List.mem_cons_self _ _))]
      rfl
  | cons a S ih =>
    by_cases h : t ≤ a
    · rw [List.cons_append, List.orderedInsert_of_le _ _ h, List.orderedInsert_of_le _ _ h]
      rfl
    · have e1 : ∀ X : List α, (a :: X).orderedInsert (· ≤ ·) t = a :: X.orderedInsert (· ≤ ·) t := by
        intro X
        rw [List.orderedInsert, if_neg h]
      rw [List.cons_append, e1, e1, ih]
      rfl

/-- The window after the candidates `ts`, started on the front of the sorted values `S`
followed by the initial entries `D_MAX`: it is the front of the sorted values of `S` and
`ts`, followed by the initial entries. -/
theorem window_foldl {α : Type} [LinearOrder α] (D_MAX : α) (n : Nat) :
    ∀ (ts S : List α), S.Sorted (· ≤ ·) → (∀ x ∈ S, x < D_MAX) → (∀ x ∈ ts, x < D_MAX) →
      (S ++ ts).Nodup →
      ∃ S1 : List α, S1.Sorted (· ≤ ·) ∧ S1.Perm (S ++ ts) ∧
        ts.foldl (fun w t => windowStep D_MAX n w t)
            ((S ++ List.replicate (n + 1) D_MAX).take (n + 1)) =
          (S1 ++ List.replicate (n + 1) D_MAX).take (n + 1) := by
  intro ts
  induction ts with
  | nil =>
    intro S hs _ _ _
    exact ⟨S, hs, by rw [List.append_nil], rfl⟩
  | cons t ts ih =>
    intro S hs hS hts hnd
    have htS : t ∉ S := by
      intro h
      have := List.nodup_append.mp hnd
      exact this.2.2 h (List.mem_cons_self _ _)
    have htD : t < D_MAX := hts t (List.mem_cons_self _ _)
    have hsorted : (S ++ List.replicate (n + 1) D_MAX).Sorted (· ≤ ·) := by
      refine List.pairwise_append.mpr
        ⟨hs, List.pairwise_replicate.mpr (Or.inr (le_refl _)), ?_⟩
      intro a ha b hb
      rw [List.eq_of_mem_replicate hb]
      exact le_of_lt (hS a ha)
    have hnot : t ∉ S ++ List.replicate (n + 1) D_MAX := by
      intro h
      rcases List.mem_append.mp h with h | h
      · exact htS h
      · exact ne_of_lt htD (List.eq_of_mem_replicate h)
    have hstep := windowStep_take D_MAX n (S ++ List.replicate (n + 1) D_MAX) t hsorted hnot
      (by rw [List.length_append, List.length_replicate]; omega)
    rw [orderedInsert_append_ge t _ (fun x hx => by
      rw [List.eq_of_mem_replicate hx]; exact le_of_lt htD) S] at hstep
    have hperm : (S.orderedInsert (· ≤ ·) t).Perm (t :: S) := List.perm_orderedInsert _ _ _
    obtain ⟨S1, hs1, hp1, hf1⟩ := ih (S.orderedInsert (· ≤ ·) t) (hs.orderedInsert t S)
      (fun x hx => by
        rcases List.mem_cons.mp (hperm.subset hx) with h | h
        · rw [h]; exact htD
        · exact hS x h)
      (fun x hx => hts x (List.mem_cons_of_mem _ hx))
      (by
        have hp : (S.orderedInsert (· ≤ ·) t ++ ts).Perm (S ++ t :: ts) :=
          (hperm.append_right ts).trans (List.perm_middle.symm)
        exact hp.nodup_iff.mpr hnd)
    refine ⟨S1, hs1, hp1.trans ((hperm.append_right ts).trans List.perm_middle.symm), ?_⟩
    rw [List.foldl_cons, hstep]
    exact hf1

/-- The window of the row `p` after the candidates `j < m`, for a row of distinct distances
below `D_MAX`: the front of the sorted distances, followed by the initial entries. -/
theorem coreWindow_initial {α : Type} [LinearOrder α] [Zero α] (D_MAX : α) (dis : distance α)
    (p m : Nat) (hm : m ≤ dis.rows)
    (hdist : ((List.range dis.rows).map (fun q => distance_get dis p q)).Nodup)
    (hfin : ∀ q, q < dis.rows → distance_get dis p q < D_MAX) :
    (List.range m).foldl
        (fun sortedDistance j =>
          windowStep D_MAX dis.numNeighbors sortedDistance (distance_get dis p j))
        (List.replicate (dis.numNeighbors + 1) D_MAX) =
      ((((List.range m).map (fun q => distance_get dis p q)).insertionSort (· ≤ ·)) ++
        List.replicate (dis.numNeighbors + 1) D_MAX).take (dis.numNeighbors + 1) := by
  have hsub : ((List.range m).map (fun q => distance_get dis p q)).Sublist
      ((List.range dis.rows).map (fun q => distance_get dis p q)) := by
    apply List.Sublist.map
    have : List.range m = (List.range dis.rows).take m := by
      rw [List.take_range, Nat.min_eq_left hm]
    rw [this]
    exact List.take_sublist _ _
  obtain ⟨S1, hs1, hp1, hf1⟩ := window_foldl D_MAX dis.numNeighbors
    ((List.range m).map (fun q => distance_get dis p q)) [] List.sorted_nil
    (fun x hx => by simp at hx)
    (fun x hx => by
      obtain ⟨q, hq, rfl⟩ := List.mem_map.mp hx
      exact hfin q (by have := List.mem_range.mp hq; omega))
    (by rw [List.nil_append]; exact hdist.sublist hsub)
  rw [List.nil_append] at hp1 hf1
  rw [List.take_of_length_le (by rw [List.length_replicate])] at hf1
  have hS : S1 = ((List.range m).map (fun q => distance_get dis p q)).insertionSort (· ≤ ·) :=
    List.eq_of_perm_of_sorted (hp1.trans (List.perm_insertionSort _ _).symm) hs1
      (List.sorted_insertionSort _ _)
  rw [← hS, ← hf1, List.foldl_map]

/-- C38: for a row `p` whose distances to all points are pairwise distinct and below `D_MAX`,
and `numNeighbors = mpts - 1` with `1 ≤ mpts`: the window of `distance_get_core_distances`
is sorted after every candidate; when `mpts ≤ N` the value stored in `coreDistances[p]` is
the `mpts`-th smallest of the distances of the row (the entry `mpts - 1` of the sorted row,
counted from 0); and when `N < mpts` it is the initial value `D_MAX`. -/
theorem core_distance_distinct {α : Type} [LinearOrder α] [Zero α] (D_MAX : α)
    (dis : distance α) (p mpts : Nat) (hmpts : 1 ≤ mpts) (hnum : dis.numNeighbors = mpts - 1)
    (hp : p < dis.rows)
    (hdist : ((List.range dis.rows).map (fun q => distance_get dis p q)).Nodup)
    (hfin : ∀ q, q < dis.rows → distance_get dis p q < D_MAX) :
    (∀ m, m ≤ dis.rows →
      List.Sorted (· ≤ ·)
        ((List.range m).foldl
          (fun sortedDistance j =>
            windowStep D_MAX dis.numNeighbors sortedDistance (distance_get dis p j))
          (List.replicate (dis.numNeighbors + 1) D_MAX))) ∧
    (mpts ≤ dis.rows →
      (distance_get_core_distances D_MAX dis).coreDistances.getD p 0 =
        orderStatistic dis p (mpts - 1)) ∧
    (dis.rows < mpts →
      (distance_get_core_distances D_MAX dis).coreDistances.getD p 0 = D_MAX) := by
  have hcore : (distance_get_core_distances D_MAX dis).coreDistances.getD p 0 =
      (coreWindow D_MAX dis p).getD dis.numNeighbors D_MAX := by
    unfold distance_get_core_distances
    simp only
    rw [List.getD_eq_getElem?_getD, List.getElem?_map,
      List.getElem?_range hp]
    rfl
  have hwin := coreWindow_initial D_MAX dis p dis.rows (le_refl _) hdist hfin
  have hlenS : (((List.range dis.rows).map (fun q => distance_get dis p q)).insertionSort
      (· ≤ ·)).length = dis.rows := by
    rw [List.length_insertionSort, List.length_map, List.length_range]
  refine ⟨?_, ?_, ?_⟩
  · intro m hm
    rw [coreWindow_initial D_MAX dis p m hm hdist hfin]
    apply List.Pairwise.sublist (List.take_sublist _ _)
    refine List.pairwise_append.mpr
      ⟨List.sorted_insertionSort _ _, List.pairwise_replicate.mpr (Or.inr (le_refl _)), ?_⟩
    intro a ha b hb
    rw [List.eq_of_mem_replicate hb]
    obtain ⟨q, hq, rfl⟩ := List.mem_map.mp ((List.perm_insertionSort _ _).subset ha)
    exact le_of_lt (hfin q (by have := List.mem_range.mp hq; omega))
  · intro hle
    rw [hcore]
    unfold coreWindow orderStatistic
    rw [hwin, hnum]
    rw [List.getD_eq_getElem?_getD, List.getD_eq_getElem?_getD,
      List.getElem?_take_of_lt (by omega),
      List.getElem?_append_left (by rw [hlenS]; omega)]
    rw [List.getElem?_eq_getElem (by rw [hlenS]; omega)]
    rfl
  · intro hlt
    rw [hcore]
    unfold coreWindow
    rw [hwin, hnum]
    rw [List.getD_eq_getElem?_getD, List.getElem?_take_of_lt (by omega),
      List.getElem?_append_right (by rw [hlenS]; omega), List.getElem?_replicate]
    split <;> rfl

/-- A store of three points on a line (`0, 1, 3`), `mpts = 2`. -/
theorem core_distance_distinct_witness :
    (∀ m, m ≤ (⟨3, 1, 1, [1, 3, 2], []⟩ : distance Nat).rows →
      List.Sorted (· ≤ ·)
        ((List.range m).foldl
          (fun sortedDistance j =>
            windowStep 1000 (⟨3, 1, 1, [1, 3, 2], []⟩ : distance Nat).numNeighbors
              sortedDistance (distance_get (⟨3, 1, 1, [1, 3, 2], []⟩ : distance Nat) 0 j))
          (List.replicate ((⟨3, 1, 1, [1, 3, 2], []⟩ : distance Nat).numNeighbors + 1) 1000))) ∧
    (2 ≤ (⟨3, 1, 1, [1, 3, 2], []⟩ : distance Nat).rows →
      (distance_get_core_distances 1000
          (⟨3, 1, 1, [1, 3, 2], []⟩ : distance Nat)).coreDistances.getD 0 0 =
        orderStatistic (⟨3, 1, 1, [1, 3, 2], []⟩ : distance Nat) 0 (2 - 1)) ∧
    ((⟨3, 1, 1, [1, 3, 2], []⟩ : distance Nat).rows < 2 →
      (distance_get_core_distances 1000
          (⟨3, 1, 1, [1, 3, 2], []⟩ : distance Nat)).coreDistances.getD 0 0 = 1000) :=
  core_distance_distinct 1000 ⟨3, 1, 1, [1, 3, 2], []⟩ 0 2 (by decide) rfl (by decide)
    (by decide) (by decide)

/-! ### The calls of `hdbscan_create_new_cluster` during the construction of the hierarchy -/

theorem resolveSubCluster_calls {α : Type} [LinearOrderedField α] (pos : Prop) (N : Nat)
    (A B : List Nat) (Wts : List α) (D_MAX W : α) (minPoints L : Nat) (pend pend0 : List Nat)
    (P : HierarchyState α → Prop)
    (hcall : ∀ c, CallOk pos N A B Wts pend0 W c → P c.st → P (callResult D_MAX c))
    (st : HierarchyState α) (es es1 : ExamineState) (r : Nat)
    (hinv : RootsInv pos N A B Wts minPoints L pend st es)
    (hr : es.examinedVertices.getLast? = some r) (hL0 : L ∈ pend0)
    (hcore1 : ExploreCore st.mst.edges N r es.examinedVertices.dropLast
      es1.constructingSubCluster es1.unexploredSubClusterPoints es1.anyEdges
      es1.examinedVertices)
    (hP : P st) :
    P (resolveSubCluster D_MAX minPoints st es1 L W).1 ∧
    ∀ c, c ∈ resolveSubClusterCalls minPoints st es1 L W →
      CallOk pos N A B Wts pend0 W c ∧ P c.st := by
  have hrex : r ∈ es.examinedVertices := List.mem_of_mem_getLast? hr
  have hrL := hinv.ex r hrex
  have hlabC : ∀ v, v ∈ es1.constructingSubCluster →
      v < N ∧ st.currentClusterLabels.getD v 0 = L := by
    intro v hv
    refine ⟨hcore1.lt v hv, ?_⟩
    exact hcore1.comp (fun w => st.currentClusterLabels.getD w 0 = L)
      (fun a b hab ha => by
        show st.currentClusterLabels.getD b 0 = L
        rw [← hinv.core.same a b hab]; exact ha)
      r hcore1.root_mem v hv hrL.2
  have hok : ∀ b : Bool,
      CallOk pos N A B Wts pend0 W ⟨st, es1.constructingSubCluster, L, W, b⟩ := fun b =>
    ⟨hinv.core, hinv.label_pos, hinv.label_lt, hL0, hcore1.nodup,
      List.ne_nil_of_mem hcore1.root_mem, hlabC, rfl⟩
  unfold resolveSubCluster resolveSubClusterCalls
  split
  · split
    · exact ⟨hP, fun c hc => by cases hc⟩
    · refine ⟨hcall _ (hok false) hP, ?_⟩
      intro c hc
      rw [List.mem_singleton.mp hc]
      exact ⟨hok false, hP⟩
  · split
    · refine ⟨hcall _ (hok true) hP, ?_⟩
      intro c hc
      rw [List.mem_singleton.mp hc]
      exact ⟨hok true, hP⟩
    · exact ⟨hP, fun c hc => by cases hc⟩

theorem examineRoots_calls {α : Type} [LinearOrderedField α] (pos : Prop) (N : Nat)
    (A B : List Nat) (Wts : List α) (D_MAX W : α) (minPoints L : Nat) (pend pend0 : List Nat)
    (hW : pos → 0 < W) (P : HierarchyState α → Prop)
    (hcall : ∀ c, CallOk pos N A B Wts pend0 W c → P c.st → P (callResult D_MAX c))
    (hL0 : L ∈ pend0) :
    ∀ (fuel : Nat) (st : HierarchyState α) (es : ExamineState),
      RootsInv pos N A B Wts minPoints L pend st es →
      es.examinedVertices.length ≤ fuel → P st →
      ∃ st1 es1, examineRoots D_MAX minPoints L W fuel st es = some (st1, es1) ∧
        RootsInv pos N A B Wts minPoints L pend st1 es1 ∧
        es1.examinedVertices = [] ∧
        st1.mst = st.mst ∧ st1.edgeCount = st.edgeCount ∧ P st1 ∧
        ∀ c, c ∈ examineRootsCalls D_MAX minPoints L W fuel st es →
          CallOk pos N A B Wts pend0 W c ∧ P c.st := by
  intro fuel
  induction fuel with
  | zero =>
    intro st es hinv hlen hP
    have hnil : es.examinedVertices = [] := List.length_eq_zero.mp (by omega)
    refine ⟨st, es, ?_, hinv, hnil, rfl, rfl, hP, ?_⟩
    · unfold examineRoots
      rw [if_pos hnil]
    · intro c hc
      unfold examineRootsCalls at hc
      cases hc
  | succ fuel ih =>
    intro st es hinv hlen hP
    unfold examineRoots examineRootsCalls
    cases hlast : es.examinedVertices.getLast? with
    | none =>
      exact ⟨st, es, rfl, hinv, List.getLast?_eq_none_iff.mp hlast, rfl, rfl, hP,
        fun c hc => by cases hc⟩
    | some r =>
      simp only
      have hexeq : es.examinedVertices = es.examinedVertices.dropLast ++ [r] :=
        (List.dropLast_append_getLast? r hlast).symm
      have hrex : r ∈ es.examinedVertices := List.mem_of_mem_getLast? hlast
      have hrL := hinv.ex r hrex
      have hnd0 : es.examinedVertices.dropLast.Nodup :=
        List.Nodup.sublist (List.dropLast_sublist _) hinv.ex_nodup
      have hex_ne : ∀ v, v ∈ es.examinedVertices.dropLast → v ≠ r := by
        intro v hv hvr
        have hnd := hinv.ex_nodup
        rw [hexeq] at hnd
        exact (List.nodup_append.mp hnd).2.2 hv (List.mem_singleton.mpr hvr)
      have hcore0 : ExploreCore st.mst.edges N r es.examinedVertices.dropLast [r] [r] false
          es.examinedVertices.dropLast := by
        refine ⟨List.mem_singleton_self r, List.nodup_singleton r, ?_, ?_, ?_, fun v hv => hv,
          ?_, ?_, ?_, hnd0, ?_, fun v hv => Or.inl hv⟩
        · intro v hv
          rw [List.mem_singleton.mp hv]; exact hrL.1
        · intro S _ u hu v hv hSu
          rw [List.mem_singleton.mp hv, ← List.mem_singleton.mp hu]; exact hSu
        · intro u hu hnu
          exact absurd hu hnu
        · intro h; cases h
        · intro v hv hvr
          exact absurd (List.mem_singleton.mp hv) hvr
        · intro h
          exact absurd (List.mem_singleton_self r) h
        · intro v hv
          exact ⟨hv, fun h => hex_ne v hv (List.mem_singleton.mp h)⟩
      have hcount0 : ExploreCount minPoints es.firstChildCluster
          es.unexploredFirstChildClusterPoints es.numChildClusters
          { es with
            examinedVertices := es.examinedVertices.dropLast
            constructingSubCluster := [r]
            unexploredSubClusterPoints := [r]
            anyEdges := false
            incrementedChildCount := false } := by
        refine ⟨?_, ?_, rfl, rfl, ?_⟩
        · simp
        · intro h; cases h
        · simp
      have hUF0 : es.unexploredFirstChildClusterPoints.Nodup := by
        rcases hinv.first with ⟨_, _, h⟩ | ⟨_, _, _, h, _⟩
        · rw [h]; exact List.nodup_nil
        · exact h
      obtain ⟨es1, hexp, hcore1, hres⟩ :=
        exploreLoop_spec st.mst.edges N minPoints r es.examinedVertices.dropLast
          es.firstChildCluster es.unexploredFirstChildClusterPoints es.numChildClusters
          (fun u v h => hinv.core.graph.symm h) (fun u v h => (hinv.core.graph.mem_lt h).2)
          hUF0 st.mst.numVertices
          { es with
            examinedVertices := es.examinedVertices.dropLast
            constructingSubCluster := [r]
            unexploredSubClusterPoints := [r]
            anyEdges := false
            incrementedChildCount := false }
          hcore0 hcount0 (by
            show [r].length + N ≤ [r].length + st.mst.numVertices
            rw [hinv.core.numVertices])
      rw [hexp]
      simp only
      obtain ⟨hinv1, hex1, hmst1, hec1, _⟩ :=
        resolveSubCluster_spec pos N A B Wts D_MAX W minPoints L pend st es es1 r hinv hlast hW
          hcore1 hres
      obtain ⟨hP1, hcalls1⟩ :=
        resolveSubCluster_calls pos N A B Wts D_MAX W minPoints L pend pend0 P hcall st es es1 r
          hinv hlast hL0 hcore1 hP
      have hlen1 : (resolveSubCluster D_MAX minPoints st es1 L W).2.examinedVertices.length ≤
          fuel := by
        rw [hex1]
        have := nodup_subset_length_le _ _ hcore1.ex_nodup (fun v hv => (hcore1.ex_sub v hv).1)
        rw [List.length_dropLast] at this
        have hpos : 0 < es.examinedVertices.length := List.length_pos_of_mem hrex
        omega
      obtain ⟨st2, es2, he2, hinv2, hnil2, hmst2, hec2, hP2, hcalls2⟩ :=
        ih _ _ hinv1 hlen1 hP1
      refine ⟨st2, es2, he2, hinv2, hnil2, by rw [hmst2, hmst1], by rw [hec2, hec1], hP2, ?_⟩
      intro c hc
      rcases List.mem_append.mp hc with h | h
      · exact hcalls1 c h
      · exact hcalls2 c h

theorem examineCluster_calls {α : Type} [LinearOrderedField α] (pos : Prop) (N : Nat)
    (A B : List Nat) (Wts : List α) (D_MAX W : α) (minPoints L : Nat) (pend pend0 : List Nat)
    (hW : pos → 0 < W) (P : HierarchyState α → Prop)
    (hcall : ∀ c, CallOk pos N A B Wts pend0 W c → P c.st → P (callResult D_MAX c))
    (haff : ∀ (st : HierarchyState α) (l : List Nat), P st → P { st with affectedVertices := l })
    (hL0 : L ∈ pend0) (st : HierarchyState α)
    (hinv : PendInv pos N A B Wts (L :: pend) st) (hP : P st) :
    ∃ st1, examineCluster D_MAX minPoints W st L = some st1 ∧
      PendInv pos N A B Wts pend st1 ∧ st1.mst = st.mst ∧ st1.edgeCount = st.edgeCount ∧
      P st1 ∧
      ∀ c, c ∈ examineClusterCalls D_MAX minPoints W st L →
        CallOk pos N A B Wts pend0 W c ∧ P c.st := by
  have hLok := hinv.pend_ok L (List.mem_cons_self _ _)
  have hroots0 : RootsInv pos N A B Wts minPoints L pend
      { st with
        affectedVertices :=
          st.affectedVertices.filter (fun n => st.currentClusterLabels.getD n 0 ≠ L) }
      { examinedVertices :=
          st.affectedVertices.filter (fun n => st.currentClusterLabels.getD n 0 = L)
        firstChildCluster := []
        unexploredFirstChildClusterPoints := []
        numChildClusters := 0
        constructingSubCluster := []
        unexploredSubClusterPoints := []
        anyEdges := false
        incrementedChildCount := false } := by
    refine ⟨⟨hinv.core.numVertices, hinv.core.vA, hinv.core.vB, hinv.core.vW, hinv.core.count_le,
      hinv.core.graph, hinv.core.labels_len, hinv.core.clusters, hinv.core.writes_len,
      hinv.core.writes, hinv.core.same⟩, hLok.1, hLok.2,
      fun L1 hL1 => hinv.pend_ok L1 (List.mem_cons_of_mem _ hL1), ?_, ?_, ?_, ?_, ?_,
      Or.inl ⟨rfl, rfl, rfl⟩⟩
    · exact List.Nodup.filter _ hinv.aff_nodup
    · intro v hv
      have hv' := List.mem_filter.mp hv
      have hne : st.currentClusterLabels.getD v 0 ≠ L := by simpa using hv'.2
      have := hinv.aff v hv'.1
      refine ⟨this.1, hne, ?_⟩
      rcases List.mem_cons.mp this.2 with h | h
      · exact absurd h hne
      · exact h
    · intro v hv hiso
      rcases hinv.isolated v hv hiso with h | h
      · exact Or.inl h
      · by_cases hL : st.currentClusterLabels.getD v 0 = L
        · exact Or.inr (Or.inr (List.mem_filter.mpr ⟨h, by simpa using hL⟩))
        · exact Or.inr (Or.inl (List.mem_filter.mpr ⟨h, by simpa using hL⟩))
    · exact List.Nodup.filter _ hinv.aff_nodup
    · intro v hv
      have hv' := List.mem_filter.mp hv
      exact ⟨(hinv.aff v hv'.1).1, by simpa using hv'.2⟩
  have hlen0 : (st.affectedVertices.filter
      (fun n => st.currentClusterLabels.getD n 0 = L)).length ≤ st.mst.numVertices := by
    rw [hinv.core.numVertices]
    apply nodup_length_le _ N (List.Nodup.filter _ hinv.aff_nodup)
    intro v hv
    exact (hinv.aff v (List.mem_filter.mp hv).1).1
  obtain ⟨st1, es1, hroots, hinv1, hnil1, hmst1, hec1, hP1, hcalls1⟩ :=
    examineRoots_calls pos N A B Wts D_MAX W minPoints L pend pend0 hW P hcall hL0
      st.mst.numVertices _ _ hroots0 hlen0 (haff st _ hP)
  unfold examineCluster examineClusterCalls
  rw [hroots]
  simp only
  have hpend1 : PendInv pos N A B Wts pend st1 := by
    refine ⟨hinv1.core, hinv1.pend_ok, hinv1.aff_nodup,
      fun v hv => ⟨(hinv1.aff v hv).1, (hinv1.aff v hv).2.2⟩, ?_⟩
    intro v hv hiso
    rcases hinv1.isolated v hv hiso with h | h | h
    · exact Or.inl h
    · exact Or.inr h
    · rw [hnil1] at h; cases h
  by_cases hsplit : es1.numChildClusters ≥ 2 ∧
      st1.currentClusterLabels.getD (es1.firstChildCluster.getD 0 0) 0 = L
  · rw [if_pos hsplit, if_pos hsplit]
    rcases hinv1.first with ⟨_, hz, _⟩ | ⟨_, hfirst, _, hufnd, hlabF⟩
    · omega
    · have hmeasure : es1.unexploredFirstChildClusterPoints.length + N ≤
          es1.firstChildCluster.length + st1.mst.numVertices := by
        rw [hinv1.core.numVertices]
        have := nodup_subset_length_le _ _ hufnd hfirst.unexplored_mem
        omega
      obtain ⟨es2, hexp2, hfirst2, hsub2⟩ :=
        exploreFirstChild_spec st1.mst.edges N (fun u v h => hinv1.core.graph.symm h)
          (fun u v h => (hinv1.core.graph.mem_lt h).2) st1.mst.numVertices es1 hfirst hmeasure
      rw [hexp2]
      simp only
      obtain ⟨f, hf⟩ := List.exists_mem_of_ne_nil _ hfirst.ne
      have hlab2 : ∀ v, v ∈ es2.firstChildCluster →
          v < N ∧ st1.currentClusterLabels.getD v 0 = L := by
        intro v hv
        refine ⟨hfirst2.lt v hv, ?_⟩
        exact hfirst2.comp (fun w => st1.currentClusterLabels.getD w 0 = L)
          (fun a b hab ha => by
            show st1.currentClusterLabels.getD b 0 = L
            rw [← hinv1.core.same a b hab]; exact ha)
          f (hsub2 f hf) v hv (hlabF f hf)
      obtain ⟨hc, hmst, hec, haff1, hnext, hget⟩ :=
        createChildCluster_core pos N A B Wts D_MAX W st1 es2.firstChildCluster L
          hinv1.core hinv1.label_pos hinv1.label_lt hfirst2.nodup hfirst2.ne hlab2
          (fun u hu v hv => hfirst2.closed u hu (by simp) v hv)
      have hok : CallOk pos N A B Wts pend0 W ⟨st1, es2.firstChildCluster, L, W, false⟩ :=
        ⟨hinv1.core, hinv1.label_pos, hinv1.label_lt, hL0, hfirst2.nodup, hfirst2.ne, hlab2,
          rfl⟩
      refine ⟨_, rfl, ⟨hc, ?_, ?_, ?_, ?_⟩, by rw [hmst, hmst1], by rw [hec, hec1],
        hcall _ hok hP1, ?_⟩
      · intro L1 hL1
        rw [hnext]
        have := hinv1.pend_ok L1 hL1
        omega
      · rw [haff1]; exact hinv1.aff_nodup
      · intro v hv
        rw [haff1] at hv
        have hvF : v ∉ es2.firstChildCluster :=
          fun hvF => (hinv1.aff v hv).2.1 (hlab2 v hvF).2
        rw [hget v, if_neg hvF]
        exact ⟨(hinv1.aff v hv).1, (hinv1.aff v hv).2.2⟩
      · intro v hv hiso
        rw [hmst] at hiso
        have hvF : v ∉ es2.firstChildCluster := fun hvF => hfirst2.nonempty v hvF hiso
        rw [hget v, if_neg hvF, haff1]
        exact hpend1.isolated v hv hiso
      · intro c hc
        rcases List.mem_append.mp hc with h | h
        · exact hcalls1 c h
        · rw [List.mem_singleton.mp h]
          exact ⟨hok, hP1⟩
  · rw [if_neg hsplit, if_neg hsplit]
    refine ⟨st1, rfl, hpend1, hmst1, hec1, hP1, ?_⟩
    intro c hc
    rcases List.mem_append.mp hc with h | h
    · exact hcalls1 c h
    · cases h

theorem examineClusters_calls {α : Type} [LinearOrderedField α] (pos : Prop) (N : Nat)
    (A B : List Nat) (Wts : List α) (D_MAX W : α) (minPoints : Nat) (pend0 : List Nat)
    (hW : pos → 0 < W) (P : HierarchyState α → Prop)
    (hcall : ∀ c, CallOk pos N A B Wts pend0 W c → P c.st → P (callResult D_MAX c))
    (haff : ∀ (st : HierarchyState α) (l : List Nat), P st → P { st with affectedVertices := l }) :
    ∀ (pend : List Nat) (st : HierarchyState α), (∀ L, L ∈ pend → L ∈ pend0) →
      PendInv pos N A B Wts pend st → P st →
      ∃ st1, examineClusters D_MAX minPoints W pend st = some st1 ∧
        PendInv pos N A B Wts [] st1 ∧ st1.mst = st.mst ∧ st1.edgeCount = st.edgeCount ∧
        st1.affectedClusterLabels = st.affectedClusterLabels ∧ P st1 ∧
        ∀ c, c ∈ examineClustersCalls D_MAX minPoints W pend st →
          CallOk pos N A B Wts pend0 W c ∧ P c.st := by
  intro pend
  induction pend with
  | nil =>
    intro st _ hinv hP
    exact ⟨st, rfl, hinv, rfl, rfl, rfl, hP, fun c hc => by
      unfold examineClustersCalls at hc
      cases hc⟩
  | cons L pend ih =>
    intro st hsub hinv hP
    obtain ⟨st1, he1, hinv1, hmst1, hec1, hP1, hcalls1⟩ :=
      examineCluster_calls pos N A B Wts D_MAX W minPoints L pend pend0 hW P hcall haff
        (hsub L (List.mem_cons_self _ _)) st hinv hP
    obtain ⟨st2, he2, hinv2, hmst2, hec2, hlab2, hP2, hcalls2⟩ :=
      ih st1 (fun L1 hL1 => hsub L1 (List.mem_cons_of_mem _ hL1)) hinv1 hP1
    unfold examineClusters examineClustersCalls
    rw [he1]
    simp only
    refine ⟨st2, he2, hinv2, by rw [hmst2, hmst1], by rw [hec2, hec1],
      by rw [hlab2, examineCluster_labels D_MAX W minPoints L st st1 he1], hP2, ?_⟩
    intro c hc
    rcases List.mem_append.mp hc with h | h
    · exact hcalls1 c h
    · exact hcalls2 c h

theorem removeTiedEdges_fields {α : Type} [LinearOrder α] [Zero α] (W : α) :
    ∀ (n : Nat) (st : HierarchyState α),
      (removeTiedEdges W n st).clusters = st.clusters ∧
      (removeTiedEdges W n st).hierarchy = st.hierarchy ∧
      (removeTiedEdges W n st).lineCount = st.lineCount ∧
      (removeTiedEdges W n st).nextClusterLabel = st.nextClusterLabel ∧
      (removeTiedEdges W n st).nextLevelSignificant = st.nextLevelSignificant ∧
      (removeTiedEdges W n st).previousClusterLabels = st.previousClusterLabels ∧
      (removeTiedEdges W n st).currentClusterLabels = st.currentClusterLabels ∧
      (removeTiedEdges W n st).newClusters = st.newClusters ∧
      (removeTiedEdges W n st).pointLastClusters = st.pointLastClusters := by
  intro n
  induction n with
  | zero =>
    intro st
    exact ⟨rfl, rfl, rfl, rfl, rfl, rfl, rfl, rfl, rfl⟩
  | succ n ih =>
    intro st
    unfold removeTiedEdges
    simp only
    split
    · split
      · exact ih _
      · exact ih _
    · exact ⟨rfl, rfl, rfl, rfl, rfl, rfl, rfl, rfl, rfl⟩

theorem stepStart_fields {α : Type} [LinearOrder α] [Zero α] (st : HierarchyState α) :
    (stepStart st).clusters = st.clusters ∧
    (stepStart st).hierarchy = st.hierarchy ∧
    (stepStart st).lineCount = st.lineCount ∧
    (stepStart st).nextClusterLabel = st.nextClusterLabel ∧
    (stepStart st).nextLevelSignificant = st.nextLevelSignificant ∧
    (stepStart st).previousClusterLabels = st.previousClusterLabels ∧
    (stepStart st).currentClusterLabels = st.currentClusterLabels ∧
    (stepStart st).newClusters = [] ∧
    (stepStart st).pointLastClusters = st.pointLastClusters :=
  removeTiedEdges_fields (stepWeight st) st.edgeCount { st with newClusters := [] }

/-- One iteration of the main loop, with an invariant `Q` of the loop, an invariant `P` of
the examination of the affected clusters (relative to the state at the start of the
iteration) and the calls of `hdbscan_create_new_cluster`. -/
theorem hierarchyStep_calls {α : Type} [LinearOrderedField α] (pos : Prop) (N : Nat)
    (A B : List Nat) (Wts : List α) (D_MAX : α) (minPoints : Nat) (compactHierarchy : Bool)
    (hpos : pos → ∀ i, i < Wts.length → 0 < Wts.getD i 0)
    (Q : HierarchyState α → Prop) (P S : HierarchyState α → HierarchyState α → Prop)
    (hskip : ∀ st, HierInv pos N A B Wts st → Q st → st.edgeCount ≠ 0 →
      (stepStart st).edgeCount < st.edgeCount →
      (stepStart st).affectedClusterLabels.length < 1 →
      Q (stepStart st) ∧ S st (stepStart st))
    (henter : ∀ st, HierInv pos N A B Wts st → Q st → st.edgeCount ≠ 0 →
      P st { stepStart st with affectedClusterLabels := [] })
    (haff : ∀ (st0 st : HierarchyState α) (l : List Nat),
      P st0 st → P st0 { st with affectedVertices := l })
    (hcall : ∀ st0 c, HierInv pos N A B Wts st0 → Q st0 → st0.edgeCount ≠ 0 →
      CallOk pos N A B Wts (stepStart st0).affectedClusterLabels.reverse (stepWeight st0) c →
      c.parentCluster < st0.nextClusterLabel → P st0 c.st → P st0 (callResult D_MAX c))
    (hrecord : ∀ st0 st2, HierInv pos N A B Wts st0 → Q st0 → st0.edgeCount ≠ 0 →
      P st0 st2 → HierInv pos N A B Wts st2 → st2.edgeCount = (stepStart st0).edgeCount →
      (stepStart st0).edgeCount < st0.edgeCount →
      Q (recordLevel compactHierarchy (stepWeight st0) st2) ∧
        S st0 (recordLevel compactHierarchy (stepWeight st0) st2))
    (st : HierarchyState α) (h : HierInv pos N A B Wts st) (hQ : Q st)
    (hne : st.edgeCount ≠ 0) :
    ∃ st1, hierarchyStep D_MAX minPoints compactHierarchy st = some st1 ∧
      HierInv pos N A B Wts st1 ∧ st1.edgeCount < st.edgeCount ∧ Q st1 ∧ S st st1 ∧
      ∀ c, c ∈ hierarchyStepCalls D_MAX minPoints st →
        CallOk pos N A B Wts (stepStart st).affectedClusterLabels.reverse (stepWeight st) c ∧
        c.parentCluster < st.nextClusterLabel ∧ P st c.st := by
  obtain ⟨m, hm⟩ : ∃ m, st.edgeCount = m + 1 := ⟨st.edgeCount - 1, by omega⟩
  have hWts : st.mst.edgeWeights = Wts := h.core.vW
  have hmlt : m < Wts.length := by have := h.core.count_le; omega
  have hW : pos → 0 < stepWeight st := by
    intro hp
    unfold stepWeight
    rw [hWts, hm]
    exact hpos hp m hmlt
  have hinv0 : PendInv pos N A B Wts
      ({ st with newClusters := [] } : HierarchyState α).affectedClusterLabels
      { ({ st with newClusters := [] } : HierarchyState α) with edgeCount := st.edgeCount } := by
    refine ⟨⟨h.core.numVertices, h.core.vA, h.core.vB, h.core.vW, h.core.count_le, h.core.graph,
      h.core.labels_len, h.core.clusters, h.core.writes_len, h.core.writes, h.core.same⟩,
      ?_, ?_, ?_, ?_⟩
    · intro L1 hL1
      have : L1 ∈ st.affectedClusterLabels := hL1
      rw [h.labels_nil] at this
      cases this
    · show st.affectedVertices.Nodup
      rw [h.aff_nil]; exact List.nodup_nil
    · intro v hv
      have : v ∈ st.affectedVertices := hv
      rw [h.aff_nil] at this
      cases this
    · intro v hv hiso
      exact Or.inl (h.isolated v hv hiso)
  obtain ⟨hinv1, hle1, hlt1⟩ :=
    removeTiedEdges_spec pos N A B Wts (stepWeight st) st.edgeCount { st with newClusters := [] }
      hinv0
  have hlt : (stepStart st).edgeCount < st.edgeCount := by
    have := hlt1 m hm (by
      show st.mst.edgeWeights.getD m 0 = st.mst.edgeWeights.getD (st.edgeCount - 1) 0
      rw [hm]; rfl)
    show (removeTiedEdges (stepWeight st) st.edgeCount { st with newClusters := [] }).edgeCount <
      st.edgeCount
    omega
  have hnext : (stepStart st).nextClusterLabel = st.nextClusterLabel := (stepStart_fields st).2.2.2.1
  have hskip1 := hskip st h hQ hne hlt
  have henter1 := henter st h hQ hne
  have hcall1 := hcall st
  have hrecord1 := hrecord st
  have hfold : removeTiedEdges (stepWeight st) st.edgeCount { st with newClusters := [] } =
      stepStart st := rfl
  rw [hfold] at hinv1
  have hstepeq : hierarchyStep D_MAX minPoints compactHierarchy st =
      if (stepStart st).affectedClusterLabels.length < 1 then some (stepStart st)
      else
        match examineClusters D_MAX minPoints (stepWeight st)
            (stepStart st).affectedClusterLabels.reverse
            { stepStart st with affectedClusterLabels := [] } with
        | none => none
        | some st2 => some (recordLevel compactHierarchy (stepWeight st) st2) := rfl
  have hcallseq : hierarchyStepCalls D_MAX minPoints st =
      if (stepStart st).affectedClusterLabels.length < 1 then []
      else
        examineClustersCalls D_MAX minPoints (stepWeight st)
          (stepStart st).affectedClusterLabels.reverse
          { stepStart st with affectedClusterLabels := [] } := rfl
  rw [hstepeq, hcallseq]
  generalize stepStart st = st1 at hinv1 hlt hnext hskip1 henter1 hcall1 hrecord1
  by_cases hnone : st1.affectedClusterLabels.length < 1
  · rw [if_pos hnone, if_pos hnone]
    have hnil : st1.affectedClusterLabels = [] := List.length_eq_zero.mp (by omega)
    refine ⟨st1, rfl, ⟨hinv1.core, ?_, hnil, ?_⟩, hlt, (hskip1 hnone).1, (hskip1 hnone).2,
      fun c hc => by cases hc⟩
    · apply List.eq_nil_iff_forall_not_mem.mpr
      intro v hv
      have := (hinv1.aff v hv).2
      rw [hnil] at this
      cases this
    · intro v hv hiso
      rcases hinv1.isolated v hv hiso with h1 | h1
      · exact h1
      · have := (hinv1.aff v h1).2
        rw [hnil] at this
        cases this
  · rw [if_neg hnone, if_neg hnone]
    have hinv2 : PendInv pos N A B Wts st1.affectedClusterLabels.reverse
        { st1 with affectedClusterLabels := [] } := by
      refine ⟨⟨hinv1.core.numVertices, hinv1.core.vA, hinv1.core.vB, hinv1.core.vW,
        hinv1.core.count_le, hinv1.core.graph, hinv1.core.labels_len, hinv1.core.clusters,
        hinv1.core.writes_len, hinv1.core.writes, hinv1.core.same⟩, ?_, hinv1.aff_nodup, ?_,
        hinv1.isolated⟩
      · intro L1 hL1
        exact hinv1.pend_ok L1 (List.mem_reverse.mp hL1)
      · intro v hv
        exact ⟨(hinv1.aff v hv).1, List.mem_reverse.mpr (hinv1.aff v hv).2⟩
    have hpendlt : ∀ L, L ∈ st1.affectedClusterLabels.reverse → L < st.nextClusterLabel := by
      intro L hL
      rw [← hnext]
      exact (hinv1.pend_ok L (List.mem_reverse.mp hL)).2
    obtain ⟨st2, he2, hinv3, hmst2, hec2, hlab2, hP2, hcalls2⟩ :=
      examineClusters_calls pos N A B Wts D_MAX (stepWeight st) minPoints
        st1.affectedClusterLabels.reverse hW
        (fun s => (∀ L, L ∈ st1.affectedClusterLabels.reverse → L < st.nextClusterLabel) ∧ P st s)
        (fun c hc hp => ⟨hp.1, hcall1 c h hQ hne hc (hp.1 _ hc.label_mem) hp.2⟩)
        (fun s l hp => ⟨hp.1, haff st s l hp.2⟩)
        st1.affectedClusterLabels.reverse { st1 with affectedClusterLabels := [] }
        (fun L hL => hL) hinv2 ⟨hpendlt, henter1⟩
    rw [he2]
    simp only
    have hinv4 : HierInv pos N A B Wts st2 := by
      refine ⟨hinv3.core, ?_, hlab2, ?_⟩
      · apply List.eq_nil_iff_forall_not_mem.mpr
        intro v hv
        have := (hinv3.aff v hv).2
        cases this
      · intro v hv hiso
        rcases hinv3.isolated v hv hiso with h1 | h1
        · exact h1
        · have := (hinv3.aff v h1).2
          cases this
    obtain ⟨hinv5, hec5⟩ := recordLevel_inv pos N A B Wts compactHierarchy (stepWeight st) st2
      hinv4
    refine ⟨_, rfl, hinv5, ?_, (hrecord1 st2 h hQ hne hP2.2 hinv4 hec2 hlt).1,
      (hrecord1 st2 h hQ hne hP2.2 hinv4 hec2 hlt).2, ?_⟩
    · rw [hec5, hec2]
      exact hlt
    · intro c hc
      obtain ⟨hok, hp⟩ := hcalls2 c hc
      exact ⟨hok, hp.1 _ hok.label_mem, hp.2⟩

/-- The main loop, with an invariant `Q` of the loop, an invariant `P` of the examination of
the affected clusters and the calls of `hdbscan_create_new_cluster`: the loop ends within
`edgeCount` iterations. -/
theorem hierarchyLoop_calls {α : Type} [LinearOrderedField α] (pos : Prop) (N : Nat)
    (A B : List Nat) (Wts : List α) (D_MAX : α) (minPoints : Nat) (compactHierarchy : Bool)
    (hpos : pos → ∀ i, i < Wts.length → 0 < Wts.getD i 0)
    (Q : HierarchyState α → Prop) (P S : HierarchyState α → HierarchyState α → Prop)
    (hskip : ∀ st, HierInv pos N A B Wts st → Q st → st.edgeCount ≠ 0 →
      (stepStart st).edgeCount < st.edgeCount →
      (stepStart st).affectedClusterLabels.length < 1 →
      Q (stepStart st) ∧ S st (stepStart st))
    (henter : ∀ st, HierInv pos N A B Wts st → Q st → st.edgeCount ≠ 0 →
      P st { stepStart st with affectedClusterLabels := [] })
    (haff : ∀ (st0 st : HierarchyState α) (l : List Nat),
      P st0 st → P st0 { st with affectedVertices := l })
    (hcall : ∀ st0 c, HierInv pos N A B Wts st0 → Q st0 → st0.edgeCount ≠ 0 →
      CallOk pos N A B Wts (stepStart st0).affectedClusterLabels.reverse (stepWeight st0) c →
      c.parentCluster < st0.nextClusterLabel → P st0 c.st → P st0 (callResult D_MAX c))
    (hrecord : ∀ st0 st2, HierInv pos N A B Wts st0 → Q st0 → st0.edgeCount ≠ 0 →
      P st0 st2 → HierInv pos N A B Wts st2 → st2.edgeCount = (stepStart st0).edgeCount →
      (stepStart st0).edgeCount < st0.edgeCount →
      Q (recordLevel compactHierarchy (stepWeight st0) st2) ∧
        S st0 (recordLevel compactHierarchy (stepWeight st0) st2)) :
    ∀ (fuel : Nat) (st : HierarchyState α), HierInv pos N A B Wts st → Q st →
      st.edgeCount ≤ fuel →
      ∃ st1, hierarchyLoop D_MAX minPoints compactHierarchy fuel st = some st1 ∧
        HierInv pos N A B Wts st1 ∧ st1.edgeCount = 0 ∧ Q st1 ∧
        ∀ c, c ∈ hierarchyLoopCalls D_MAX minPoints compactHierarchy fuel st →
          ∃ st0, HierInv pos N A B Wts st0 ∧ Q st0 ∧ st0.edgeCount ≠ 0 ∧
            CallOk pos N A B Wts (stepStart st0).affectedClusterLabels.reverse
              (stepWeight st0) c ∧
            c.parentCluster < st0.nextClusterLabel ∧ P st0 c.st := by
  intro fuel
  induction fuel with
  | zero =>
    intro st h hQ hle
    have h0 : st.edgeCount = 0 := by omega
    refine ⟨st, ?_, h, h0, hQ, ?_⟩
    · unfold hierarchyLoop
      rw [if_pos h0]
    · intro c hc
      unfold hierarchyLoopCalls at hc
      cases hc
  | succ fuel ih =>
    intro st h hQ hle
    unfold hierarchyLoop hierarchyLoopCalls
    by_cases h0 : st.edgeCount = 0
    · rw [if_pos h0, if_pos h0]
      exact ⟨st, rfl, h, h0, hQ, fun c hc => by cases hc⟩
    · rw [if_neg h0, if_neg h0]
      obtain ⟨st1, hs1, hinv1, hlt1, hQ1, _, hcalls1⟩ :=
        hierarchyStep_calls pos N A B Wts D_MAX minPoints compactHierarchy hpos Q P S hskip henter
          haff hcall hrecord st h hQ h0
      rw [hs1]
      simp only
      obtain ⟨st2, hl2, hinv2, hz2, hQ2, hcalls2⟩ := ih st1 hinv1 hQ1 (by omega)
      refine ⟨st2, hl2, hinv2, hz2, hQ2, ?_⟩
      intro c hc
      rcases List.mem_append.mp hc with hc | hc
      · obtain ⟨a, b, d⟩ := hcalls1 c hc
        exact ⟨st, h, hQ, h0, a, b, d⟩
      · exact hcalls2 c hc

/-- The states after `k` iterations of the main loop satisfy the invariant of the loop. -/
theorem hierarchyIter_calls {α : Type} [LinearOrderedField α] (pos : Prop) (N : Nat)
    (A B : List Nat) (Wts : List α) (D_MAX : α) (minPoints : Nat) (compactHierarchy : Bool)
    (hpos : pos → ∀ i, i < Wts.length → 0 < Wts.getD i 0)
    (Q : HierarchyState α → Prop) (P S : HierarchyState α → HierarchyState α → Prop)
    (hskip : ∀ st, HierInv pos N A B Wts st → Q st → st.edgeCount ≠ 0 →
      (stepStart st).edgeCount < st.edgeCount →
      (stepStart st).affectedClusterLabels.length < 1 →
      Q (stepStart st) ∧ S st (stepStart st))
    (henter : ∀ st, HierInv pos N A B Wts st → Q st → st.edgeCount ≠ 0 →
      P st { stepStart st with affectedClusterLabels := [] })
    (haff : ∀ (st0 st : HierarchyState α) (l : List Nat),
      P st0 st → P st0 { st with affectedVertices := l })
    (hcall : ∀ st0 c, HierInv pos N A B Wts st0 → Q st0 → st0.edgeCount ≠ 0 →
      CallOk pos N A B Wts (stepStart st0).affectedClusterLabels.reverse (stepWeight st0) c →
      c.parentCluster < st0.nextClusterLabel → P st0 c.st → P st0 (callResult D_MAX c))
    (hrecord : ∀ st0 st2, HierInv pos N A B Wts st0 → Q st0 → st0.edgeCount ≠ 0 →
      P st0 st2 → HierInv pos N A B Wts st2 → st2.edgeCount = (stepStart st0).edgeCount →
      (stepStart st0).edgeCount < st0.edgeCount →
      Q (recordLevel compactHierarchy (stepWeight st0) st2) ∧
        S st0 (recordLevel compactHierarchy (stepWeight st0) st2)) :
    ∀ (k : Nat) (st : HierarchyState α), HierInv pos N A B Wts st → Q st →
      ∃ st1, hierarchyIter D_MAX minPoints compactHierarchy k st = some st1 ∧
        HierInv pos N A B Wts st1 ∧ Q st1 ∧
        (st1.edgeCount = 0 ∨ st1.edgeCount + k ≤ st.edgeCount) := by
  intro k
  induction k with
  | zero =>
    intro st h hQ
    exact ⟨st, rfl, h, hQ, Or.inr (le_refl _)⟩
  | succ k ih =>
    intro st h hQ
    unfold hierarchyIter
    by_cases h0 : st.edgeCount = 0
    · rw [if_pos h0]
      exact ⟨st, rfl, h, hQ, Or.inl h0⟩
    · rw [if_neg h0]
      obtain ⟨st1, hs1, hinv1, hlt1, hQ1, _, _⟩ :=
        hierarchyStep_calls pos N A B Wts D_MAX minPoints compactHierarchy hpos Q P S hskip henter
          haff hcall hrecord st h hQ h0
      rw [hs1]
      simp only
      obtain ⟨st2, hl2, hinv2, hQ2, hcnt⟩ := ih st1 hinv1 hQ1
      refine ⟨st2, hl2, hinv2, hQ2, ?_⟩
      rcases hcnt with hc | hc
      · exact Or.inl hc
      · exact Or.inr (by omega)

theorem hierarchyLoop_succ {α : Type} [LinearOrderedField α] (D_MAX : α) (minPoints : Nat)
    (compactHierarchy : Bool) (fuel : Nat) (st : HierarchyState α) :
    hierarchyLoop D_MAX minPoints compactHierarchy (fuel + 1) st =
      if st.edgeCount = 0 then some st
      else
        match hierarchyStep D_MAX minPoints compactHierarchy st with
        | none => none
        | some st1 => hierarchyLoop D_MAX minPoints compactHierarchy fuel st1 := rfl

theorem hierarchyIter_succ {α : Type} [LinearOrderedField α] (D_MAX : α) (minPoints : Nat)
    (compactHierarchy : Bool) (k : Nat) (st : HierarchyState α) :
    hierarchyIter D_MAX minPoints compactHierarchy (k + 1) st =
      if st.edgeCount = 0 then some st
      else
        match hierarchyStep D_MAX minPoints compactHierarchy st with
        | none => none
        | some st1 => hierarchyIter D_MAX minPoints compactHierarchy k st1 := rfl

theorem hierarchyLoop_done {α : Type} [LinearOrderedField α] (D_MAX : α) (minPoints : Nat)
    (compactHierarchy : Bool) (fuel : Nat) (st : HierarchyState α) (h0 : st.edgeCount = 0) :
    hierarchyLoop D_MAX minPoints compactHierarchy fuel st = some st := by
  cases fuel with
  | zero => unfold hierarchyLoop; rw [if_pos h0]
  | succ f => unfold hierarchyLoop; rw [if_pos h0]

/-- The main loop with the bound `k + fuel` on its iterations runs `k` iterations and goes
on with the bound `fuel`. -/
theorem hierarchyLoop_add {α : Type} [LinearOrderedField α] (D_MAX : α) (minPoints : Nat)
    (compactHierarchy : Bool) (fuel : Nat) :
    ∀ (k : Nat) (st : HierarchyState α),
      hierarchyLoop D_MAX minPoints compactHierarchy (k + fuel) st =
        (hierarchyIter D_MAX minPoints compactHierarchy k st).bind
          (hierarchyLoop D_MAX minPoints compactHierarchy fuel) := by
  intro k
  induction k with
  | zero =>
    intro st
    rw [Nat.zero_add]
    rfl
  | succ k ih =>
    intro st
    have e : k + 1 + fuel = (k + fuel) + 1 := by omega
    rw [e, hierarchyLoop_succ, hierarchyIter_succ]
    by_cases h0 : st.edgeCount = 0
    · rw [if_pos h0, if_pos h0]
      exact (hierarchyLoop_done D_MAX minPoints compactHierarchy fuel st h0).symm
    · rw [if_neg h0, if_neg h0]
      cases hs : hierarchyStep D_MAX minPoints compactHierarchy st with
      | none => rfl
      | some st1 => exact ih st1

/-! ### The state after a call of `hdbscan_create_new_cluster` -/

theorem cluster_detach_points_static {α : Type} [LinearOrderedField α] (cl : cluster α)
    (k : Int) (level : α) :
    (cluster_detach_points cl k level).1.birthLevel = cl.birthLevel ∧
    (cluster_detach_points cl k level).1.offset = cl.offset ∧
    (cluster_detach_points cl k level).1.parent = cl.parent ∧
    (cluster_detach_points cl k level).1.stability =
      cl.stability + (k : α) * (1 / level - 1 / cl.birthLevel) ∧
    (cluster_detach_points cl k level).1.propagatedStability = cl.propagatedStability ∧
    (cluster_detach_points cl k level).1.propagatedDescendants = cl.propagatedDescendants ∧
    (cluster_detach_points cl k level).1.numConstraintsSatisfied = cl.numConstraintsSatisfied ∧
    (cluster_detach_points cl k level).1.propagatedNumConstraintsSatisfied =
      cl.propagatedNumConstraintsSatisfied := by
  unfold cluster_detach_points
  by_cases h : cl.numPoints - k = 0
  · simp [h]
  · by_cases h2 : cl.numPoints - k < 0
    · simp [h, h2]
    · simp [h, h2]

theorem cluster_detach_points_code {α : Type} [LinearOrderedField α] (cl : cluster α)
    (k : Int) (level : α) (h : k ≤ cl.numPoints) :
    (cluster_detach_points cl k level).2 = true := by
  unfold cluster_detach_points
  by_cases h1 : cl.numPoints - k = 0
  · simp [h1]
  · have h2 : ¬ cl.numPoints - k < 0 := by omega
    simp [h1, h2]

/-- The parent of a call and the number of its points. -/
theorem callOk_parent {α : Type} [LinearOrderedField α] {pos : Prop} {N : Nat}
    {A B : List Nat} {Wts : List α} {pend0 : List Nat} {W : α} {c : ClusterCall α}
    (hok : CallOk pos N A B Wts pend0 W c) :
    ∃ par, c.st.clusters.getD c.parentCluster none = some par ∧
      par.label = c.parentCluster ∧ c.parentCluster < c.st.clusters.length ∧
      c.st.clusters.length = c.st.nextClusterLabel ∧
      (c.points.length : Int) ≤ par.numPoints := by
  obtain ⟨par, hpar, hlab, hnum, _⟩ :=
    hok.core.clusters.some c.parentCluster hok.label_pos hok.label_lt
  refine ⟨par, hpar, hlab, getD_some_lt hpar, hok.core.clusters.len, ?_⟩
  have hpts : ∀ p ∈ c.points, p < c.st.currentClusterLabels.length ∧
      c.st.currentClusterLabels.getD p 0 = c.parentCluster := by
    intro p hp
    rw [hok.core.labels_len]
    exact hok.labels p hp
  have hcount := relabel_count c.points c.parentCluster (c.parentCluster + 1)
    c.st.currentClusterLabels hok.nodup hpts c.parentCluster
  rw [if_pos rfl, if_neg (by omega)] at hcount
  rw [hnum]
  have : c.points.length ≤ c.st.currentClusterLabels.count c.parentCluster := by omega
  exact_mod_cast this

/-- The cluster list and the labels after a call with the label 0. -/
theorem callResult_noise {α : Type} [LinearOrderedField α] (D_MAX : α) (c : ClusterCall α)
    (par : cluster α) (hpar : c.st.clusters.getD c.parentCluster none = some par)
    (hn : c.noise = true) :
    (callResult D_MAX c).clusters =
      c.st.clusters.set c.parentCluster
        (some (cluster_add_points_to_virtual_child_cluster
          (cluster_detach_points par c.points.length c.edgeWeight).1 c.points)) ∧
    (callResult D_MAX c).currentClusterLabels =
      c.points.foldl (fun labels d => labels.set d 0) c.st.currentClusterLabels ∧
    (callResult D_MAX c).nextClusterLabel = c.st.nextClusterLabel ∧
    (callResult D_MAX c).newClusters = c.st.newClusters ∧
    (callResult D_MAX c).hierarchy = c.st.hierarchy ∧
    (callResult D_MAX c).lineCount = c.st.lineCount ∧
    (callResult D_MAX c).previousClusterLabels = c.st.previousClusterLabels ∧
    (callResult D_MAX c).nextLevelSignificant = c.st.nextLevelSignificant := by
  have hres : callResult D_MAX c =
      assignNoise D_MAX c.st c.points c.parentCluster c.edgeWeight := by
    unfold callResult
    rw [if_pos hn]
  have heq := create_new_cluster_noise_eq D_MAX c.edgeWeight c.st.clusters
    c.st.currentClusterLabels c.points c.parentCluster par hpar
  rw [hres]
  refine ⟨?_, ?_, rfl, rfl, rfl, rfl, rfl, rfl⟩
  · show (hdbscan_create_new_cluster D_MAX c.st.clusters c.points c.st.currentClusterLabels
      c.parentCluster 0 c.edgeWeight).1 = _
    rw [heq]
  · show (hdbscan_create_new_cluster D_MAX c.st.clusters c.points c.st.currentClusterLabels
      c.parentCluster 0 c.edgeWeight).2.1 = _
    rw [heq]

/-- The cluster list and the labels after a call with the next cluster label. -/
theorem callResult_create {α : Type} [LinearOrderedField α] (D_MAX : α) (c : ClusterCall α)
    (par : cluster α) (hpar : c.st.clusters.getD c.parentCluster none = some par)
    (hnext : c.st.nextClusterLabel ≠ 0) (hn : c.noise = false) :
    (callResult D_MAX c).clusters =
      c.st.clusters.set c.parentCluster
          (some { (cluster_detach_points par c.points.length c.edgeWeight).1 with
            hasChildren := true }) ++
        [some (cluster_init D_MAX ([] : ClusterList α) c.st.nextClusterLabel
          (some c.parentCluster) c.edgeWeight c.points.length).2] ∧
    (callResult D_MAX c).currentClusterLabels =
      c.points.foldl (fun labels d => labels.set d c.st.nextClusterLabel)
        c.st.currentClusterLabels ∧
    (callResult D_MAX c).nextClusterLabel = c.st.nextClusterLabel + 1 ∧
    (callResult D_MAX c).newClusters = c.st.newClusters ++ [c.st.clusters.length] ∧
    (callResult D_MAX c).hierarchy = c.st.hierarchy ∧
    (callResult D_MAX c).lineCount = c.st.lineCount ∧
    (callResult D_MAX c).previousClusterLabels = c.st.previousClusterLabels ∧
    (callResult D_MAX c).nextLevelSignificant = c.st.nextLevelSignificant := by
  have hres : callResult D_MAX c =
      createChildCluster D_MAX c.st c.points c.parentCluster c.edgeWeight := by
    unfold callResult
    rw [if_neg (by rw [hn]; exact Bool.false_ne_true)]
  have heq := create_new_cluster_child_eq D_MAX c.edgeWeight c.st.clusters
    c.st.currentClusterLabels c.points c.parentCluster c.st.nextClusterLabel par hpar hnext
  rw [hres]
  refine ⟨?_, ?_, rfl, ?_, rfl, rfl, rfl, rfl⟩
  · show (hdbscan_create_new_cluster D_MAX c.st.clusters c.points c.st.currentClusterLabels
        c.parentCluster c.st.nextClusterLabel c.edgeWeight).1 ++
      [(hdbscan_create_new_cluster D_MAX c.st.clusters c.points c.st.currentClusterLabels
        c.parentCluster c.st.nextClusterLabel c.edgeWeight).2.2] = _
    rw [heq]
  · show (hdbscan_create_new_cluster D_MAX c.st.clusters c.points c.st.currentClusterLabels
      c.parentCluster c.st.nextClusterLabel c.edgeWeight).2.1 = _
    rw [heq]
  · show c.st.newClusters ++
      [(hdbscan_create_new_cluster D_MAX c.st.clusters c.points c.st.currentClusterLabels
        c.parentCluster c.st.nextClusterLabel c.edgeWeight).1.length] = _
    rw [heq]
    simp only [List.length_set]

/-- The entries of the cluster list after the offsets of the new clusters have been set. -/
theorem offsets_getD {α : Type} (lineCount : Nat) (idxs : List Nat) :
    ∀ (clusters : ClusterList α) (i : Nat),
      (idxs.foldl
        (fun clusters i =>
          match clusters.getD i none with
          | none => clusters
          | some cl => clusters.set i (some { cl with offset := lineCount }))
        clusters).getD i none =
      (clusters.getD i none).map
        (fun cl => if i ∈ idxs then { cl with offset := lineCount } else cl) := by
  induction idxs with
  | nil =>
    intro clusters i
    simp
  | cons j idxs ih =>
    intro clusters i
    rw [List.foldl_cons, ih]
    cases hj : clusters.getD j none with
    | none =>
      simp only
      by_cases hij : i = j
      · subst hij
        rw [hj]
        rfl
      · cases hi : clusters.getD i none with
        | none => rfl
        | some cl =>
          simp only [Option.map_some', List.mem_cons, hij, false_or]
    | some cj =>
      simp only
      rw [getD_set_eq]
      by_cases hij : j = i
      · subst hij
        rw [if_pos ⟨rfl, getD_some_lt hj⟩, hj]
        simp only [Option.map_some', List.mem_cons, true_or, if_true]
        split <;> rfl
      · rw [if_neg (fun h => hij h.1)]
        cases hi : clusters.getD i none with
        | none => rfl
        | some cl =>
          have : ¬ i = j := fun h => hij h.symm
          simp only [Option.map_some', List.mem_cons, this, false_or]

theorem offsets_length {α : Type} (lineCount : Nat) (idxs : List Nat) :
    ∀ (clusters : ClusterList α),
      (idxs.foldl
        (fun clusters i =>
          match clusters.getD i none with
          | none => clusters
          | some cl => clusters.set i (some { cl with offset := lineCount }))
        clusters).length = clusters.length := by
  induction idxs with
  | nil => intro clusters; rfl
  | cons j idxs ih =>
    intro clusters
    rw [List.foldl_cons, ih]
    split
    · rfl
    · rw [List.length_set]

theorem recordLevel_clusters_getD {α : Type} (compactHierarchy : Bool) (W : α)
    (st : HierarchyState α) (i : Nat) :
    (recordLevel compactHierarchy W st).clusters.getD i none =
      (st.clusters.getD i none).map
        (fun cl =>
          if i ∈ st.newClusters then
            { cl with offset := (recordLevel compactHierarchy W st).lineCount }
          else cl) :=
  offsets_getD _ st.newClusters st.clusters i

theorem sorted_getD_le {α : Type} [LinearOrder α] [Zero α] (l : List α)
    (hs : l.Sorted (· ≤ ·)) (i j : Nat) (hij : i ≤ j) (hj : j < l.length) :
    l.getD i 0 ≤ l.getD j 0 := by
  rw [List.getD_eq_getElem _ _ (by omega), List.getD_eq_getElem _ _ hj]
  rcases Nat.lt_or_ge i j with h | h
  · exact List.pairwise_iff_getElem.mp hs i j (by omega) hj h
  · have : i = j := by omega
    subst this
    exact le_refl _

/-! ### The number of points of the clusters during the construction -/

/-- The invariant of the main loop and the return codes of `cluster_detach_points`, on a
graph whose vertices all have an edge. -/
theorem hierarchy_counts {α : Type} [LinearOrderedField α] (D_MAX NAN : α)
    (minPoints : Nat) (mst : graph α) (compactHierarchy : Bool) (pointNoiseLevels : List α)
    (pointLastClusters : List Nat)
    (hgraph : GraphOk mst.numVertices mst.verticesA mst.verticesB mst.edgeWeights.length
      mst.edges)
    (hinc : ∀ v, v < mst.numVertices → ∃ i, i < mst.edgeWeights.length ∧
      (mst.verticesA.getD i 0 = v ∨ mst.verticesB.getD i 0 = v)) :
    (∃ st, hdbscan_compute_hierarchy_and_cluster_tree D_MAX NAN minPoints mst compactHierarchy
      pointNoiseLevels pointLastClusters = some st) ∧
    (∀ k, ∃ st, hierarchyIter D_MAX minPoints compactHierarchy k
        (hierarchyInit D_MAX NAN mst pointNoiseLevels pointLastClusters) = some st ∧
      ClustersOk False st.clusters st.currentClusterLabels st.nextClusterLabel) ∧
    (∀ c, c ∈ hierarchyCalls D_MAX NAN minPoints mst compactHierarchy pointNoiseLevels
        pointLastClusters → callDetachCode c = some true) := by
  have hinit := hierarchyInit_inv False mst D_MAX NAN pointNoiseLevels pointLastClusters
    hgraph hinc
  have hpos : False → ∀ i, i < mst.edgeWeights.length → 0 < mst.edgeWeights.getD i 0 :=
    fun h => h.elim
  refine ⟨?_, ?_, ?_⟩
  · obtain ⟨st, hst, _⟩ := compute_hierarchy_final False mst D_MAX NAN minPoints
      compactHierarchy pointNoiseLevels pointLastClusters hgraph hinc hpos
    exact ⟨st, hst⟩
  · intro k
    obtain ⟨st, hst, hinv, _, _⟩ :=
      hierarchyIter_calls False mst.numVertices mst.verticesA mst.verticesB mst.edgeWeights
        D_MAX minPoints compactHierarchy hpos (fun _ => True) (fun _ _ => True)
        (fun _ _ => True)
        (fun _ _ _ _ _ _ => ⟨trivial, trivial⟩) (fun _ _ _ _ => trivial)
        (fun _ _ _ _ => trivial)
        (fun _ _ _ _ _ _ _ _ => trivial) (fun _ _ _ _ _ _ _ _ _ => ⟨trivial, trivial⟩) k _ hinit trivial
    exact ⟨st, hst, hinv.core.clusters⟩
  · intro c hc
    obtain ⟨_, _, _, _, _, hcalls⟩ :=
      hierarchyLoop_calls False mst.numVertices mst.verticesA mst.verticesB mst.edgeWeights
        D_MAX minPoints compactHierarchy hpos (fun _ => True) (fun _ _ => True)
        (fun _ _ => True)
        (fun _ _ _ _ _ _ => ⟨trivial, trivial⟩) (fun _ _ _ _ => trivial)
        (fun _ _ _ _ => trivial)
        (fun _ _ _ _ _ _ _ _ => trivial) (fun _ _ _ _ _ _ _ _ _ => ⟨trivial, trivial⟩)
        mst.edgeWeights.length _ hinit trivial (le_refl _)
    obtain ⟨st0, _, _, _, hok, _, _⟩ := hcalls c hc
    obtain ⟨par, hpar, _, _, _, hle⟩ := callOk_parent hok
    unfold callDetachCode
    rw [hpar]
    simp only [Option.map_some']
    rw [cluster_detach_points_code par c.points.length c.edgeWeight hle]

/-- C39: for the edges that `hdbscan_construct_mst` produces with self edges (`size ≥ 1`),
made a graph by `graph_init` and sorted by edge weight,
`hdbscan_compute_hierarchy_and_cluster_tree` returns; after every number `k` of iterations
of its main loop position 0 of the cluster list holds `NULL` and every position `L ≥ 1`
holds a cluster with the label `L` whose `numPoints` is the number of points with the
current label `L` and is not negative; and every call of `cluster_detach_points` in the
construction returns `CLUSTER_SUCCESS`. -/
theorem compute_hierarchy_num_points {α : Type} [LinearOrderedField α] (D_MAX NAN : α)
    (dis : distance α) (size minPoints : Nat) (compactHierarchy : Bool)
    (pointNoiseLevels : List α) (pointLastClusters : List Nat) (g : MstEdges α) (mst : graph α)
    (hsize : 1 ≤ size)
    (hg : hdbscan_construct_mst D_MAX dis size true = some g)
    (hsort : SortedByEdgeWeight (graph_init size g.verticesA g.verticesB g.edgeWeights) mst) :
    (∃ st, hdbscan_compute_hierarchy_and_cluster_tree D_MAX NAN minPoints mst compactHierarchy
      pointNoiseLevels pointLastClusters = some st) ∧
    (∀ k, ∃ st, hierarchyIter D_MAX minPoints compactHierarchy k
        (hierarchyInit D_MAX NAN mst pointNoiseLevels pointLastClusters) = some st ∧
      st.clusters.getD 0 none = none ∧
      ∀ L, 1 ≤ L → L < st.clusters.length →
        ∃ c, st.clusters.getD L none = some c ∧ c.label = L ∧
          c.numPoints = (st.currentClusterLabels.count L : Int) ∧ 0 ≤ c.numPoints) ∧
    (∀ c, c ∈ hierarchyCalls D_MAX NAN minPoints mst compactHierarchy pointNoiseLevels
        pointLastClusters → callDetachCode c = some true) := by
  obtain ⟨_, hmst⟩ := sorted_mst_selfLoopGraph D_MAX dis size hsize g mst hg hsort
  obtain ⟨h1, h2, h3⟩ := hierarchy_counts D_MAX NAN minPoints mst compactHierarchy
    pointNoiseLevels pointLastClusters hmst.graph
    (fun v hv => by
      obtain ⟨i, hi, ha, _⟩ := hmst.selfLoops v hv
      exact ⟨i, hi, Or.inl ha⟩)
  refine ⟨h1, ?_, h3⟩
  intro k
  obtain ⟨st, hst, hok⟩ := h2 k
  refine ⟨st, hst, hok.null, ?_⟩
  intro L hL hLn
  rw [hok.len] at hLn
  obtain ⟨c, hc, hlab, hnum, _⟩ := hok.some L hL hLn
  exact ⟨c, hc, hlab, hnum, by rw [hnum]; exact Int.natCast_nonneg _⟩

/-- Witness of C39: the four points `0, 2, -2, 1` on a line with `mpts = 2`. -/
theorem compute_hierarchy_num_points_witness :
    (∃ st, hdbscan_compute_hierarchy_and_cluster_tree (1000 : ℚ) 0 2 lineMst false
      [0, 0, 0, 0] [0, 0, 0, 0] = some st) ∧
    (∀ k, ∃ st, hierarchyIter (1000 : ℚ) 2 false k
        (hierarchyInit 1000 0 lineMst [0, 0, 0, 0] [0, 0, 0, 0]) = some st ∧
      st.clusters.getD 0 none = none ∧
      ∀ L, 1 ≤ L → L < st.clusters.length →
        ∃ c, st.clusters.getD L none = some c ∧ c.label = L ∧
          c.numPoints = (st.currentClusterLabels.count L : Int) ∧ 0 ≤ c.numPoints) ∧
    (∀ c, c ∈ hierarchyCalls (1000 : ℚ) 0 2 lineMst false [0, 0, 0, 0] [0, 0, 0, 0] →
      callDetachCode c = some true) :=
  compute_hierarchy_num_points 1000 0 lineStoreQ 4 2 false [0, 0, 0, 0] [0, 0, 0, 0]
    { verticesA := [3, 3, 0, 0, 1, 2, 3], verticesB := [0, 1, 2, 0, 1, 2, 3],
      edgeWeights := [1, 1, 2, 1, 1, 2, 1] }
    lineMst (by decide) (by decide) ⟨rfl, rfl, rfl, rfl, by decide, by decide⟩

/-! ### The stability of the clusters during the construction -/

theorem detach_stability_nonneg {α : Type} [LinearOrderedField α] (par : cluster α) (k : Nat)
    (W : α) (hW : 0 < W) (hs : 0 ≤ par.stability) (hb : W ≤ par.birthLevel) :
    0 ≤ (cluster_detach_points par (k : Int) W).1.stability ∧
      W ≤ (cluster_detach_points par (k : Int) W).1.birthLevel := by
  obtain ⟨hbl, _, _, hst, _⟩ := cluster_detach_points_static par (k : Int) W
  rw [hbl, hst]
  refine ⟨?_, hb⟩
  have h1 : 1 / par.birthLevel ≤ 1 / W := one_div_le_one_div_of_le hW hb
  have h2 : (0 : α) ≤ ((k : Int) : α) := by exact_mod_cast Nat.zero_le k
  have h3 : 0 ≤ ((k : Int) : α) * (1 / W - 1 / par.birthLevel) :=
    mul_nonneg h2 (sub_nonneg.mpr h1)
  linarith

theorem stabilityAt_call {α : Type} [LinearOrderedField α] (pos : Prop) (N : Nat)
    (A B : List Nat) (Wts : List α) (pend0 : List Nat) (D_MAX W : α) (c : ClusterCall α)
    (hok : CallOk pos N A B Wts pend0 W c) (hW : 0 < W) (hP : StabilityAt W c.st) :
    StabilityAt W (callResult D_MAX c) := by
  obtain ⟨par, hpar, _, hLlt, hlen, _⟩ := callOk_parent hok
  have hwt := hok.weight
  have hnext : c.st.nextClusterLabel ≠ 0 := by
    have := hok.label_lt
    omega
  intro i c1 hi hc1
  cases hn : c.noise with
  | true =>
    rw [(callResult_noise D_MAX c par hpar hn).1, getD_set_eq] at hc1
    by_cases hLi : c.parentCluster = i ∧ c.parentCluster < c.st.clusters.length
    · rw [if_pos hLi] at hc1
      cases hc1
      have hp := hP c.parentCluster par (by omega) hpar
      rw [hwt]
      exact detach_stability_nonneg par c.points.length W hW hp.1 hp.2
    · rw [if_neg hLi] at hc1
      exact hP i c1 hi hc1
  | false =>
    rw [(callResult_create D_MAX c par hpar hnext hn).1] at hc1
    by_cases hil : i < c.st.clusters.length
    · rw [getD_append_lt _ _ _ _ (by rw [List.length_set]; exact hil), getD_set_eq] at hc1
      by_cases hLi : c.parentCluster = i ∧ c.parentCluster < c.st.clusters.length
      · rw [if_pos hLi] at hc1
        cases hc1
        have hp := hP c.parentCluster par (by omega) hpar
        rw [hwt]
        exact detach_stability_nonneg par c.points.length W hW hp.1 hp.2
      · rw [if_neg hLi] at hc1
        exact hP i c1 hi hc1
    · have hlt := getD_some_lt hc1
      rw [List.length_append, List.length_set, List.length_singleton] at hlt
      have hieq : i = c.st.clusters.length := by omega
      rw [hieq, getD_append_length_eq _ _ _ _ (by rw [List.length_set])] at hc1
      cases hc1
      rw [hwt]
      exact ⟨le_refl _, le_refl _⟩

theorem hierarchyIter_done {α : Type} [LinearOrderedField α] (D_MAX : α) (minPoints : Nat)
    (compactHierarchy : Bool) (k : Nat) (st : HierarchyState α) (h0 : st.edgeCount = 0) :
    hierarchyIter D_MAX minPoints compactHierarchy k st = some st := by
  cases k with
  | zero => rfl
  | succ k => rw [hierarchyIter_succ, if_pos h0]

/-- The stability of the clusters on a sorted graph with positive edge weights whose vertices
all have an edge: the invariant of the main loop, and the state at every call of
`hdbscan_create_new_cluster`. -/
theorem hierarchy_stability {α : Type} [LinearOrderedField α] (D_MAX NAN : α)
    (minPoints : Nat) (mst : graph α) (compactHierarchy : Bool) (pointNoiseLevels : List α)
    (pointLastClusters : List Nat)
    (hgraph : GraphOk mst.numVertices mst.verticesA mst.verticesB mst.edgeWeights.length
      mst.edges)
    (hinc : ∀ v, v < mst.numVertices → ∃ i, i < mst.edgeWeights.length ∧
      (mst.verticesA.getD i 0 = v ∨ mst.verticesB.getD i 0 = v))
    (hsorted : mst.edgeWeights.Sorted (· ≤ ·))
    (hpos : ∀ i, i < mst.edgeWeights.length → 0 < mst.edgeWeights.getD i 0) :
    (∃ st, hierarchyLoop D_MAX minPoints compactHierarchy mst.edgeWeights.length
        (hierarchyInit D_MAX NAN mst pointNoiseLevels pointLastClusters) = some st ∧
      StabilityInv mst.edgeWeights st) ∧
    (∀ k, ∃ st, hierarchyIter D_MAX minPoints compactHierarchy k
        (hierarchyInit D_MAX NAN mst pointNoiseLevels pointLastClusters) = some st ∧
      StabilityInv mst.edgeWeights st) ∧
    (∀ c, c ∈ hierarchyCalls D_MAX NAN minPoints mst compactHierarchy pointNoiseLevels
        pointLastClusters →
      0 < c.edgeWeight ∧ StabilityAt c.edgeWeight c.st ∧
        StabilityAt c.edgeWeight (callResult D_MAX c)) := by
  have hinit := hierarchyInit_inv True mst D_MAX NAN pointNoiseLevels pointLastClusters
    hgraph hinc
  have hpos1 : True → ∀ i, i < mst.edgeWeights.length → 0 < mst.edgeWeights.getD i 0 :=
    fun _ => hpos
  have hQ0 : StabilityInv mst.edgeWeights
      (hierarchyInit D_MAX NAN mst pointNoiseLevels pointLastClusters) := by
    intro i c hi hc
    have hlt := getD_some_lt hc
    have hl : (hierarchyInit D_MAX NAN mst pointNoiseLevels pointLastClusters).clusters.length =
        2 := rfl
    omega
  have hWpos : ∀ st : HierarchyState α,
      HierInv True mst.numVertices mst.verticesA mst.verticesB mst.edgeWeights st →
      st.edgeCount ≠ 0 → 0 < stepWeight st := by
    intro st h hne
    unfold stepWeight
    rw [h.core.vW]
    apply hpos
    have := h.core.count_le
    omega
  have hskip : ∀ st : HierarchyState α,
      HierInv True mst.numVertices mst.verticesA mst.verticesB mst.edgeWeights st →
      StabilityInv mst.edgeWeights st → st.edgeCount ≠ 0 →
      (stepStart st).edgeCount < st.edgeCount →
      (stepStart st).affectedClusterLabels.length < 1 →
      StabilityInv mst.edgeWeights (stepStart st) ∧ True := by
    intro st _ hQ _ hlt _
    refine ⟨?_, trivial⟩
    intro i c hi hc
    rw [(stepStart_fields st).1] at hc
    obtain ⟨h1, h2⟩ := hQ i c hi hc
    exact ⟨h1, fun j hj => h2 j (by omega)⟩
  have henter : ∀ st : HierarchyState α,
      HierInv True mst.numVertices mst.verticesA mst.verticesB mst.edgeWeights st →
      StabilityInv mst.edgeWeights st → st.edgeCount ≠ 0 →
      StabilityAt (stepWeight st) { stepStart st with affectedClusterLabels := [] } := by
    intro st h hQ hne i c hi hc
    have hc' : (stepStart st).clusters.getD i none = some c := hc
    rw [(stepStart_fields st).1] at hc'
    obtain ⟨h1, h2⟩ := hQ i c hi hc'
    refine ⟨h1, ?_⟩
    unfold stepWeight
    rw [h.core.vW]
    exact h2 _ (by omega)
  have hcall : ∀ (st0 : HierarchyState α) (c : ClusterCall α),
      HierInv True mst.numVertices mst.verticesA mst.verticesB mst.edgeWeights st0 →
      StabilityInv mst.edgeWeights st0 → st0.edgeCount ≠ 0 →
      CallOk True mst.numVertices mst.verticesA mst.verticesB mst.edgeWeights
        (stepStart st0).affectedClusterLabels.reverse (stepWeight st0) c →
      c.parentCluster < st0.nextClusterLabel → StabilityAt (stepWeight st0) c.st →
      StabilityAt (stepWeight st0) (callResult D_MAX c) := by
    intro st0 c h _ hne hok _ hP
    exact stabilityAt_call True _ _ _ _ _ D_MAX (stepWeight st0) c hok (hWpos st0 h hne) hP
  have hrecord : ∀ (st0 st2 : HierarchyState α),
      HierInv True mst.numVertices mst.verticesA mst.verticesB mst.edgeWeights st0 →
      StabilityInv mst.edgeWeights st0 → st0.edgeCount ≠ 0 →
      StabilityAt (stepWeight st0) st2 →
      HierInv True mst.numVertices mst.verticesA mst.verticesB mst.edgeWeights st2 →
      st2.edgeCount = (stepStart st0).edgeCount →
      (stepStart st0).edgeCount < st0.edgeCount →
      StabilityInv mst.edgeWeights (recordLevel compactHierarchy (stepWeight st0) st2) ∧
        True := by
    intro st0 st2 h _ hne hP _ hec hlt
    refine ⟨?_, trivial⟩
    intro i c hi hc
    rw [recordLevel_clusters_getD] at hc
    cases hc2 : st2.clusters.getD i none with
    | none => rw [hc2] at hc; cases hc
    | some c2 =>
      rw [hc2] at hc
      simp only [Option.map_some', Option.some.injEq] at hc
      obtain ⟨h1, h2⟩ := hP i c2 hi hc2
      have hfields : c.stability = c2.stability ∧ c.birthLevel = c2.birthLevel := by
        rw [← hc]
        split <;> exact ⟨rfl, rfl⟩
      rw [hfields.1, hfields.2]
      refine ⟨h1, ?_⟩
      intro j hj
      have hj' : j < st2.edgeCount := hj
      have hcount := h.core.count_le
      refine le_trans ?_ h2
      unfold stepWeight
      rw [h.core.vW]
      exact sorted_getD_le _ hsorted j (st0.edgeCount - 1) (by omega) (by omega)
  refine ⟨?_, ?_, ?_⟩
  · obtain ⟨st, hst, _, _, hQ, _⟩ :=
      hierarchyLoop_calls True mst.numVertices mst.verticesA mst.verticesB mst.edgeWeights
        D_MAX minPoints compactHierarchy hpos1 (StabilityInv mst.edgeWeights)
        (fun st0 st => StabilityAt (stepWeight st0) st) (fun _ _ => True) hskip henter
        (fun _ _ _ hp => hp) hcall hrecord mst.edgeWeights.length _ hinit hQ0 (le_refl _)
    exact ⟨st, hst, hQ⟩
  · intro k
    obtain ⟨st, hst, _, hQ, _⟩ :=
      hierarchyIter_calls True mst.numVertices mst.verticesA mst.verticesB mst.edgeWeights
        D_MAX minPoints compactHierarchy hpos1 (StabilityInv mst.edgeWeights)
        (fun st0 st => StabilityAt (stepWeight st0) st) (fun _ _ => True) hskip henter
        (fun _ _ _ hp => hp) hcall hrecord k _ hinit hQ0
    exact ⟨st, hst, hQ⟩
  · intro c hc
    obtain ⟨_, _, _, _, _, hcalls⟩ :=
      hierarchyLoop_calls True mst.numVertices mst.verticesA mst.verticesB mst.edgeWeights
        D_MAX minPoints compactHierarchy hpos1 (StabilityInv mst.edgeWeights)
        (fun st0 st => StabilityAt (stepWeight st0) st) (fun _ _ => True) hskip henter
        (fun _ _ _ hp => hp) hcall hrecord mst.edgeWeights.length _ hinit hQ0 (le_refl _)
    obtain ⟨st0, h0, _, hne, hok, _, hP⟩ := hcalls c hc
    have hw := hok.weight
    have hWp := hWpos st0 h0 hne
    rw [hw]
    exact ⟨hWp, hP, stabilityAt_call True _ _ _ _ _ D_MAX (stepWeight st0) c hok hWp hP⟩

/-- C35: on a sorted graph with positive edge weights (every vertex with an edge, or no edges
at all), `hdbscan_compute_hierarchy_and_cluster_tree` returns, and every cluster other than
the root (positions 2 and up) has a stability of at least 0 at the end, after every number
`k` of iterations of the main loop, and before and after every call of
`hdbscan_create_new_cluster`; the level `eps` at which such a call detaches points satisfies
`0 < eps`, and `eps ≤ birthLevel` for every cluster other than the root. -/
theorem compute_hierarchy_stability_nonneg {α : Type} [LinearOrderedField α] (D_MAX NAN : α)
    (minPoints : Nat) (mst : graph α) (compactHierarchy : Bool) (pointNoiseLevels : List α)
    (pointLastClusters : List Nat)
    (hgraph : GraphOk mst.numVertices mst.verticesA mst.verticesB mst.edgeWeights.length
      mst.edges)
    (hinc : mst.edgeWeights.length = 0 ∨
      ∀ v, v < mst.numVertices → ∃ i, i < mst.edgeWeights.length ∧
        (mst.verticesA.getD i 0 = v ∨ mst.verticesB.getD i 0 = v))
    (hsorted : mst.edgeWeights.Sorted (· ≤ ·))
    (hpos : ∀ i, i < mst.edgeWeights.length → 0 < mst.edgeWeights.getD i 0) :
    (∃ st, hdbscan_compute_hierarchy_and_cluster_tree D_MAX NAN minPoints mst compactHierarchy
        pointNoiseLevels pointLastClusters = some st ∧
      ∀ i c, 2 ≤ i → st.clusters.getD i none = some c → 0 ≤ c.stability) ∧
    (∀ k, ∃ st, hierarchyIter D_MAX minPoints compactHierarchy k
        (hierarchyInit D_MAX NAN mst pointNoiseLevels pointLastClusters) = some st ∧
      ∀ i c, 2 ≤ i → st.clusters.getD i none = some c → 0 ≤ c.stability) ∧
    (∀ call, call ∈ hierarchyCalls D_MAX NAN minPoints mst compactHierarchy pointNoiseLevels
        pointLastClusters →
      0 < call.edgeWeight ∧
      (∀ i c, 2 ≤ i → call.st.clusters.getD i none = some c →
        0 ≤ c.stability ∧ call.edgeWeight ≤ c.birthLevel) ∧
      (∀ i c, 2 ≤ i → (callResult D_MAX call).clusters.getD i none = some c →
        0 ≤ c.stability)) := by
  rcases hinc with hzero | hinc
  · have h0 : (hierarchyInit D_MAX NAN mst pointNoiseLevels pointLastClusters).edgeCount = 0 :=
      hzero
    have hcl : ∀ i c, 2 ≤ i →
        (hierarchyInit D_MAX NAN mst pointNoiseLevels pointLastClusters).clusters.getD i none =
          some c → 0 ≤ c.stability := by
      intro i c hi hc
      have hlt := getD_some_lt hc
      have hl : (hierarchyInit D_MAX NAN mst pointNoiseLevels
          pointLastClusters).clusters.length = 2 := rfl
      omega
    refine ⟨?_, ?_, ?_⟩
    · unfold hdbscan_compute_hierarchy_and_cluster_tree
      rw [hierarchyLoop_done D_MAX minPoints compactHierarchy _ _ h0]
      exact ⟨_, rfl, hcl⟩
    · intro k
      exact ⟨_, hierarchyIter_done D_MAX minPoints compactHierarchy k _ h0, hcl⟩
    · intro call hcall
      unfold hierarchyCalls at hcall
      rw [hzero] at hcall
      unfold hierarchyLoopCalls at hcall
      cases hcall
  · obtain ⟨⟨st, hst, hQ⟩, h2, h3⟩ := hierarchy_stability D_MAX NAN minPoints mst
      compactHierarchy pointNoiseLevels pointLastClusters hgraph hinc hsorted hpos
    refine ⟨?_, ?_, ?_⟩
    · unfold hdbscan_compute_hierarchy_and_cluster_tree
      rw [hst]
      exact ⟨_, rfl, fun i c hi hc => (hQ i c hi hc).1⟩
    · intro k
      obtain ⟨st1, hst1, hQ1⟩ := h2 k
      exact ⟨st1, hst1, fun i c hi hc => (hQ1 i c hi hc).1⟩
    · intro call hcall
      obtain ⟨hw, hP, hP1⟩ := h3 call hcall
      exact ⟨hw, hP, fun i c hi hc => (hP1 i c hi hc).1⟩

/-- Witness of C35: the graph `twoGroupsMst` with `mpts = 2`. -/
theorem compute_hierarchy_stability_nonneg_witness :
    (∃ st, hdbscan_compute_hierarchy_and_cluster_tree (1000 : ℚ) 0 2 twoGroupsMst false
        [0, 0, 0, 0, 0, 0] [0, 0, 0, 0, 0, 0] = some st ∧
      ∀ i c, 2 ≤ i → st.clusters.getD i none = some c → 0 ≤ c.stability) ∧
    (∀ k, ∃ st, hierarchyIter (1000 : ℚ) 2 false k
        (hierarchyInit 1000 0 twoGroupsMst [0, 0, 0, 0, 0, 0] [0, 0, 0, 0, 0, 0]) = some st ∧
      ∀ i c, 2 ≤ i → st.clusters.getD i none = some c → 0 ≤ c.stability) ∧
    (∀ call, call ∈ hierarchyCalls (1000 : ℚ) 0 2 twoGroupsMst false [0, 0, 0, 0, 0, 0]
        [0, 0, 0, 0, 0, 0] →
      0 < call.edgeWeight ∧
      (∀ i c, 2 ≤ i → call.st.clusters.getD i none = some c →
        0 ≤ c.stability ∧ call.edgeWeight ≤ c.birthLevel) ∧
      (∀ i c, 2 ≤ i → (callResult 1000 call).clusters.getD i none = some c →
        0 ≤ c.stability)) :=
  compute_hierarchy_stability_nonneg 1000 0 2 twoGroupsMst false [0, 0, 0, 0, 0, 0]
    [0, 0, 0, 0, 0, 0] (graph_init_ok 6 _ _ _ (by decide)) (Or.inr (by decide)) (by decide)
    (by decide)

/-! ### The levels of the hierarchy and the births of the clusters -/

theorem lookup_append_some {β : Type} (t l : List (Nat × β)) (k : Nat) (e : β)
    (h : hashtable_lookup t k = some e) : hashtable_lookup (t ++ l) k = some e := by
  unfold hashtable_lookup at h ⊢
  rw [List.find?_append]
  cases hf : t.find? (fun e => e.1 = k) with
  | none => rw [hf] at h; simp at h
  | some x =>
    rw [hf] at h
    simpa using h

theorem lookup_none_of_not_mem {β : Type} (t : List (Nat × β)) (k : Nat)
    (h : k ∉ t.map (fun e => e.1)) : hashtable_lookup t k = none := by
  unfold hashtable_lookup
  rw [Option.map_eq_none', List.find?_eq_none]
  intro x hx hk
  apply h
  rw [List.mem_map]
  exact ⟨x, hx, by simpa using hk⟩

theorem lookup_some_of_mem {β : Type} (t : List (Nat × β)) (k : Nat)
    (h : k ∈ t.map (fun e => e.1)) : ∃ e, hashtable_lookup t k = some e := by
  unfold hashtable_lookup
  obtain ⟨x, hx, hk⟩ := List.mem_map.mp h
  cases hf : t.find? (fun e => e.1 = k) with
  | none =>
    rw [List.find?_eq_none] at hf
    exact absurd (by simpa using hk) (hf x hx)
  | some y => exact ⟨y.2, rfl⟩

theorem lookup_append_last {β : Type} (t : List (Nat × β)) (k : Nat) (e : β)
    (h : hashtable_lookup t k = none) : hashtable_lookup (t ++ [(k, e)]) k = some e := by
  unfold hashtable_lookup at h ⊢
  rw [List.find?_append]
  rw [Option.map_eq_none'] at h
  rw [h]
  simp

theorem lookup_append_ne {β : Type} (t : List (Nat × β)) (k k1 : Nat) (e : β) (hne : k1 ≠ k) :
    hashtable_lookup (t ++ [(k1, e)]) k = hashtable_lookup t k := by
  unfold hashtable_lookup
  rw [List.find?_append]
  cases hf : t.find? (fun e => e.1 = k) with
  | none => simp [hne]
  | some x => simp

theorem parentAt_some_lt {α : Type} {cs : ClusterList α} {j a : Nat}
    (h : parentAt cs j = some a) : j < cs.length := by
  unfold parentAt at h
  cases hc : cs.getD j none with
  | none => rw [hc] at h; cases h
  | some c => exact getD_some_lt hc

theorem isAncestor_mono {α : Type} {cs cs1 : ClusterList α}
    (h : ∀ j a, parentAt cs j = some a → parentAt cs1 j = some a) {a s : Nat}
    (ha : IsAncestor cs a s) : IsAncestor cs1 a s := by
  induction ha with
  | parent hp => exact IsAncestor.parent (h _ _ hp)
  | step hp _ ih => exact IsAncestor.step (h _ _ hp) ih

theorem clusterTree_set {α : Type} (cs : ClusterList α) (L : Nat) (par par1 : cluster α)
    (hwf : ClusterTree cs) (hpar : cs.getD L none = some par)
    (hl : par1.label = par.label) (hp : par1.parent = par.parent)
    (hc : par1.hasChildren = par.hasChildren) :
    ClusterTree (cs.set L (some par1)) ∧
      ∀ j, parentAt (cs.set L (some par1)) j = parentAt cs j := by
  have hLlt : L < cs.length := getD_some_lt hpar
  have hget : ∀ i, (cs.set L (some par1)).getD i none =
      if L = i then some par1 else cs.getD i none := by
    intro i
    rw [getD_set_eq]
    by_cases h : L = i
    · rw [if_pos ⟨h, hLlt⟩, if_pos h]
    · rw [if_neg (fun hh => h hh.1), if_neg h]
  have hparent : ∀ j, parentAt (cs.set L (some par1)) j = parentAt cs j := by
    intro j
    unfold parentAt
    rw [hget]
    by_cases h : L = j
    · rw [if_pos h, ← h, hpar]
      exact hp
    · rw [if_neg h]
  have hL0 : L ≠ 0 := by
    intro h
    rw [h, hwf.null] at hpar
    cases hpar
  refine ⟨⟨by rw [List.length_set]; exact hwf.two_le, ?_, ?_, ?_, ?_, ?_⟩, hparent⟩
  · rw [hget, if_neg hL0]
    exact hwf.null
  · obtain ⟨r, hr, hrp⟩ := hwf.root
    rw [hget]
    by_cases h : L = 1
    · rw [if_pos h]
      rw [h, hr] at hpar
      cases hpar
      exact ⟨par1, rfl, by rw [hp]; exact hrp⟩
    · rw [if_neg h]
      exact ⟨r, hr, hrp⟩
  · intro i hi hlt
    rw [List.length_set] at hlt
    obtain ⟨c, p, hci, hcp, h1, h2⟩ := hwf.nonroot i hi hlt
    rw [hget]
    by_cases h : L = i
    · rw [if_pos h]
      rw [h, hci] at hpar
      cases hpar
      exact ⟨par1, p, rfl, by rw [hp]; exact hcp, h1, h2⟩
    · rw [if_neg h]
      exact ⟨c, p, hci, hcp, h1, h2⟩
  · intro i c hci
    rw [hget] at hci
    by_cases h : L = i
    · rw [if_pos h] at hci
      cases hci
      rw [hl, hwf.label L par hpar]
      exact h
    · rw [if_neg h] at hci
      exact hwf.label i c hci
  · intro i c hci
    rw [hget] at hci
    have hiff : (∃ j, parentAt (cs.set L (some par1)) j = some i) ↔
        ∃ j, parentAt cs j = some i := by
      constructor
      · rintro ⟨j, hj⟩
        exact ⟨j, by rw [← hparent]; exact hj⟩
      · rintro ⟨j, hj⟩
        exact ⟨j, by rw [hparent]; exact hj⟩
    rw [hiff]
    by_cases h : L = i
    · rw [if_pos h] at hci
      cases hci
      rw [hc, ← h]
      exact hwf.children L par hpar
    · rw [if_neg h] at hci
      exact hwf.children i c hci

theorem clusterTree_create {α : Type} (cs : ClusterList α) (L : Nat)
    (par par1 new : cluster α) (hwf : ClusterTree cs) (hpar : cs.getD L none = some par)
    (hl : par1.label = par.label) (hp : par1.parent = par.parent)
    (hc : par1.hasChildren = true) (hnl : new.label = cs.length) (hnp : new.parent = some L)
    (hnc : new.hasChildren = false) :
    ClusterTree (cs.set L (some par1) ++ [some new]) ∧
      ∀ j, parentAt (cs.set L (some par1) ++ [some new]) j =
        if j = cs.length then some L else parentAt cs j := by
  have hLlt : L < cs.length := getD_some_lt hpar
  have hL0 : L ≠ 0 := by
    intro h
    rw [h, hwf.null] at hpar
    cases hpar
  have hget : ∀ i, (cs.set L (some par1) ++ [some new]).getD i none =
      if i = cs.length then some new else if L = i then some par1 else cs.getD i none := by
    intro i
    by_cases hi : i = cs.length
    · rw [if_pos hi, hi]
      exact getD_append_length_eq _ _ _ _ (by rw [List.length_set])
    · rw [if_neg hi]
      by_cases hlt : i < cs.length
      · rw [getD_append_lt _ _ _ _ (by rw [List.length_set]; exact hlt), getD_set_eq]
        by_cases h : L = i
        · rw [if_pos ⟨h, hLlt⟩, if_pos h]
        · rw [if_neg (fun hh => h hh.1), if_neg h]
      · have h1 : (cs.set L (some par1) ++ [some new]).getD i none = none := by
          rw [List.getD_eq_getElem?_getD, List.getElem?_eq_none]
          · rfl
          · rw [List.length_append, List.length_set, List.length_singleton]; omega
        have h2 : cs.getD i none = none := by
          rw [List.getD_eq_getElem?_getD, List.getElem?_eq_none (by omega)]
          rfl
        rw [h1, if_neg (by omega), h2]
  have hparent : ∀ j, parentAt (cs.set L (some par1) ++ [some new]) j =
      if j = cs.length then some L else parentAt cs j := by
    intro j
    unfold parentAt
    rw [hget]
    by_cases hj : j = cs.length
    · rw [if_pos hj, if_pos hj]
      exact hnp
    · rw [if_neg hj, if_neg hj]
      by_cases h : L = j
      · rw [if_pos h, ← h, hpar]
        exact hp
      · rw [if_neg h]
  have hlen : (cs.set L (some par1) ++ [some new]).length = cs.length + 1 := by
    rw [List.length_append, List.length_set, List.length_singleton]
  have h2 := hwf.two_le
  refine ⟨⟨by rw [hlen]; omega, ?_, ?_, ?_, ?_, ?_⟩, hparent⟩
  · rw [hget, if_neg (by omega), if_neg hL0]
    exact hwf.null
  · obtain ⟨r, hr, hrp⟩ := hwf.root
    rw [hget, if_neg (by omega)]
    by_cases h : L = 1
    · rw [if_pos h]
      rw [h, hr] at hpar
      cases hpar
      exact ⟨par1, rfl, by rw [hp]; exact hrp⟩
    · rw [if_neg h]
      exact ⟨r, hr, hrp⟩
  · intro i hi hlt
    rw [hlen] at hlt
    rw [hget]
    by_cases hil : i = cs.length
    · rw [if_pos hil]
      exact ⟨new, L, rfl, hnp, by omega, by omega⟩
    · rw [if_neg hil]
      obtain ⟨c, p, hci, hcp, h1, h3⟩ := hwf.nonroot i hi (by omega)
      by_cases h : L = i
      · rw [if_pos h]
        rw [h, hci] at hpar
        cases hpar
        exact ⟨par1, p, rfl, by rw [hp]; exact hcp, h1, h3⟩
      · rw [if_neg h]
        exact ⟨c, p, hci, hcp, h1, h3⟩
  · intro i c hci
    rw [hget] at hci
    by_cases hil : i = cs.length
    · rw [if_pos hil] at hci
      cases hci
      rw [hnl, hil]
    · rw [if_neg hil] at hci
      by_cases h : L = i
      · rw [if_pos h] at hci
        cases hci
        rw [hl, hwf.label L par hpar]
        exact h
      · rw [if_neg h] at hci
        exact hwf.label i c hci
  · intro i c hci
    rw [hget] at hci
    by_cases hil : i = cs.length
    · rw [if_pos hil] at hci
      cases hci
      rw [hnc]
      constructor
      · intro h; cases h
      · rintro ⟨j, hj⟩
        rw [hparent] at hj
        by_cases hjl : j = cs.length
        · rw [if_pos hjl] at hj
          cases hj
          omega
        · rw [if_neg hjl] at hj
          have := parentAt_lt hwf hj
          omega
    · rw [if_neg hil] at hci
      by_cases h : L = i
      · rw [if_pos h] at hci
        cases hci
        rw [hc]
        constructor
        · intro _
          exact ⟨cs.length, by rw [hparent, if_pos rfl, h]⟩
        · intro _; rfl
      · rw [if_neg h] at hci
        rw [hwf.children i c hci]
        constructor
        · rintro ⟨j, hj⟩
          have := parentAt_lt hwf hj
          exact ⟨j, by rw [hparent, if_neg (by omega)]; exact hj⟩
        · rintro ⟨j, hj⟩
          rw [hparent] at hj
          by_cases hjl : j = cs.length
          · rw [if_pos hjl] at hj
            cases hj
            exact absurd rfl h
          · rw [if_neg hjl] at hj
            exact ⟨j, hj⟩

theorem clusterTree_offsets {α : Type} (cs cs1 : ClusterList α) (g : Nat → cluster α → cluster α)
    (hlen : cs1.length = cs.length)
    (hmap : ∀ i, cs1.getD i none = (cs.getD i none).map (g i))
    (hg : ∀ i c, (g i c).label = c.label ∧ (g i c).parent = c.parent ∧
      (g i c).hasChildren = c.hasChildren)
    (hwf : ClusterTree cs) :
    ClusterTree cs1 ∧ ∀ j, parentAt cs1 j = parentAt cs j := by
  have hparent : ∀ j, parentAt cs1 j = parentAt cs j := by
    intro j
    unfold parentAt
    rw [hmap]
    cases hc : cs.getD j none with
    | none => rfl
    | some c => exact (hg j c).2.1
  refine ⟨⟨by rw [hlen]; exact hwf.two_le, ?_, ?_, ?_, ?_, ?_⟩, hparent⟩
  · rw [hmap, hwf.null]
    rfl
  · obtain ⟨r, hr, hrp⟩ := hwf.root
    exact ⟨g 1 r, by rw [hmap, hr]; rfl, by rw [(hg 1 r).2.1]; exact hrp⟩
  · intro i hi hlt
    rw [hlen] at hlt
    obtain ⟨c, p, hci, hcp, h1, h3⟩ := hwf.nonroot i hi hlt
    exact ⟨g i c, p, by rw [hmap, hci]; rfl, by rw [(hg i c).2.1]; exact hcp, h1, h3⟩
  · intro i c1 hci
    rw [hmap] at hci
    cases hc : cs.getD i none with
    | none => rw [hc] at hci; cases hci
    | some c =>
      rw [hc] at hci
      cases hci
      rw [(hg i c).1]
      exact hwf.label i c hc
  · intro i c1 hci
    rw [hmap] at hci
    cases hc : cs.getD i none with
    | none => rw [hc] at hci; cases hci
    | some c =>
      rw [hc] at hci
      cases hci
      rw [(hg i c).2.2, hwf.children i c hc]
      constructor
      · rintro ⟨j, hj⟩
        exact ⟨j, by rw [hparent]; exact hj⟩
      · rintro ⟨j, hj⟩
        exact ⟨j, by rw [← hparent]; exact hj⟩

theorem born_iff {α : Type} (st : HierarchyState α) (p M : Nat) (c : cluster α)
    (hc : st.clusters.getD M none = some c) :
    Born st p M ↔ BornAt st.hierarchy st.lineCount st.currentClusterLabels c.offset p M := by
  unfold Born
  constructor
  · rintro ⟨c1, hc1, hb⟩
    rw [hc] at hc1
    cases hc1
    exact hb
  · intro hb
    exact ⟨c, hc, hb⟩

theorem born_congr {α : Type} (st st1 : HierarchyState α) (hc : st1.clusters = st.clusters)
    (hh : st1.hierarchy = st.hierarchy) (hl : st1.lineCount = st.lineCount)
    (hcur : st1.currentClusterLabels = st.currentClusterLabels) (p M : Nat) :
    Born st1 p M ↔ Born st p M := by
  unfold Born
  rw [hc, hh, hl, hcur]

theorem levelInv_congr {α : Type} [Zero α] (N : Nat) (st st1 : HierarchyState α)
    (hc : st1.clusters = st.clusters)
    (hh : st1.hierarchy = st.hierarchy) (hl : st1.lineCount = st.lineCount)
    (hn : st1.nextLevelSignificant = st.nextLevelSignificant)
    (hp : st1.previousClusterLabels = st.previousClusterLabels)
    (hcur : st1.currentClusterLabels = st.currentClusterLabels) (h : LevelInv N st) :
    LevelInv N st1 := by
  refine ⟨by rw [hp, hcur]; exact h.prev, by rw [hh, hl]; exact h.keys,
    by rw [hc]; exact h.tree, by rw [hc]; exact h.fresh, by rw [hc, hl]; exact h.offset_le,
    by rw [hc, hl, hn, hcur]; exact h.pending, ?_⟩
  intro p hp
  obtain ⟨l, h1, h2, h3, h4⟩ := h.history p hp
  refine ⟨l, h1, by rw [hc]; exact h2, by rw [hcur]; exact h3, ?_⟩
  intro M hM hb
  rw [hc]
  exact h4 M hM ((born_congr st st1 hc hh hl hcur p M).mp hb)

theorem levelInv_skip {α : Type} [LinearOrderedField α] (N : Nat) (st : HierarchyState α)
    (h : LevelInv N st) : LevelInv N (stepStart st) ∧ LevelStep st (stepStart st) := by
  obtain ⟨hc, hh, hl, _, hn, hp, hcur, _, _⟩ := stepStart_fields st
  refine ⟨levelInv_congr N st (stepStart st) hc hh hl hn hp hcur h, ⟨⟨by rw [hc], ?_, ?_⟩, ?_⟩⟩
  · intro M c hM
    exact ⟨c, by rw [hc]; exact hM, rfl⟩
  · intro p M _ _
    exact (born_congr st (stepStart st) hc hh hl hcur p M).symm
  · intro M h1 h2
    rw [hc] at h2
    omega

theorem levelFrame_enter {α : Type} [LinearOrderedField α] (N : Nat) (st : HierarchyState α)
    (h : LevelInv N st) :
    LevelFrame N st { stepStart st with affectedClusterLabels := [] } := by
  obtain ⟨hc, hh, hl, _, hn, hp, hcur, hnew, _⟩ := stepStart_fields st
  refine ⟨hh, hl, hp, hn, ?_, ?_, ?_, ?_, ?_, ?_, ?_⟩
  · show st.clusters.length ≤ (stepStart st).clusters.length
    rw [hc]
  · intro i c0 hi
    exact ⟨c0, by show (stepStart st).clusters.getD i none = some c0; rw [hc]; exact hi,
      rfl, rfl⟩
  · intro i h1 h2
    have : i < (stepStart st).clusters.length := h2
    rw [hc] at this
    omega
  · intro p _
    left
    show (stepStart st).currentClusterLabels.getD p 0 = _
    rw [hcur]
  · intro i
    show i ∈ (stepStart st).newClusters ↔
      (st.clusters.length ≤ i ∧ i < (stepStart st).clusters.length)
    rw [hnew, hc]
    constructor
    · intro hi; cases hi
    · intro hi; omega
  · show ClusterTree (stepStart st).clusters
    rw [hc]; exact h.tree
  · show ∀ i c, (stepStart st).clusters.getD i none = some c → _
    rw [hc]; exact h.fresh

theorem getD_lt_of_labels {α : Type} [LinearOrderedField α] {pos : Prop} {N : Nat}
    {A B : List Nat} {Wts : List α} {st : HierarchyState α} (h : HierCore pos N A B Wts st)
    (p : Nat) (hp : p < N) : st.currentClusterLabels.getD p 0 < st.clusters.length := by
  rw [h.clusters.len]
  apply h.clusters.lt
  rw [List.getD_eq_getElem _ _ (by rw [h.labels_len]; exact hp)]
  exact List.getElem_mem _

theorem levelFrame_call {α : Type} [LinearOrderedField α] (pos : Prop) (N : Nat)
    (A B : List Nat) (Wts : List α) (pend0 : List Nat) (D_MAX W : α) (st0 : HierarchyState α)
    (c : ClusterCall α) (hok : CallOk pos N A B Wts pend0 W c)
    (hLn : c.parentCluster < st0.clusters.length) (h : LevelFrame N st0 c.st) :
    LevelFrame N st0 (callResult D_MAX c) := by
  obtain ⟨par, hpar, hplab, hLlt, hlen, _⟩ := callOk_parent hok
  have hL1 := hok.label_pos
  have hnext : c.st.nextClusterLabel ≠ 0 := by
    have := hok.label_lt
    omega
  have hcurlen : c.st.currentClusterLabels.length = N := hok.core.labels_len
  have hn0 := h.len_le
  -- the points of the call carry the label of the parent at the start of the iteration
  have hC0 : ∀ p, p ∈ c.points → st0.currentClusterLabels.getD p 0 = c.parentCluster := by
    intro p hp
    obtain ⟨hpN, hpL⟩ := hok.labels p hp
    rcases h.labels p hpN with h1 | ⟨_, h2⟩ | ⟨h3, _⟩
    · rw [← h1]; exact hpL
    · rw [hpL] at h2; omega
    · rw [hpL] at h3; omega
  have hfr := h.fresh c.parentCluster par hpar
  obtain ⟨hdl, _, hdh, _⟩ := cluster_detach_points_fields par c.points.length c.edgeWeight
  obtain ⟨_, hdo, hdp, _, hd1, hd2, hd3, hd4⟩ :=
    cluster_detach_points_static par c.points.length c.edgeWeight
  cases hn : c.noise with
  | true =>
    obtain ⟨hcl, hlab, _, hnewc, hhier, hline, hprev, hsig⟩ :=
      callResult_noise D_MAX c par hpar hn
    have hget : ∀ i, (callResult D_MAX c).clusters.getD i none =
        if c.parentCluster = i then
          some (cluster_add_points_to_virtual_child_cluster
            (cluster_detach_points par c.points.length c.edgeWeight).1 c.points)
        else c.st.clusters.getD i none := by
      intro i
      rw [hcl, getD_set_eq]
      by_cases hi : c.parentCluster = i
      · rw [if_pos ⟨hi, hLlt⟩, if_pos hi]
      · rw [if_neg (fun hh => hi hh.1), if_neg hi]
    have hcur : ∀ p, (callResult D_MAX c).currentClusterLabels.getD p 0 =
        if p ∈ c.points ∧ p < c.st.currentClusterLabels.length then 0
        else c.st.currentClusterLabels.getD p 0 := by
      intro p
      rw [hlab, relabel_getD]
    obtain ⟨htree, hparent⟩ := clusterTree_set c.st.clusters c.parentCluster par
      (cluster_add_points_to_virtual_child_cluster
        (cluster_detach_points par c.points.length c.edgeWeight).1 c.points)
      h.tree hpar hdl hdp hdh
    rw [← hcl] at htree hparent
    have hlen1 : (callResult D_MAX c).clusters.length = c.st.clusters.length := by
      rw [hcl, List.length_set]
    refine ⟨by rw [hhier]; exact h.hierarchy, by rw [hline]; exact h.lineCount,
      by rw [hprev]; exact h.prev, by rw [hsig]; exact h.signif, by rw [hlen1]; exact hn0,
      ?_, ?_, ?_, ?_, htree, ?_⟩
    · intro i c0 hi
      obtain ⟨c1, hc1, ho, hp⟩ := h.old i c0 hi
      rw [hget]
      by_cases hLi : c.parentCluster = i
      · rw [if_pos hLi]
        rw [← hLi, hpar] at hc1
        cases hc1
        exact ⟨_, rfl, by rw [← ho]; exact hdo, by rw [← hp]; exact hdp⟩
      · rw [if_neg hLi]
        exact ⟨c1, hc1, ho, hp⟩
    · intro i h1 h2
      rw [hlen1] at h2
      obtain ⟨c1, L1, hc1, hp1, hL1a, hL1b, p, hpN, hpi⟩ := h.new i h1 h2
      refine ⟨c1, L1, ?_, hp1, hL1a, hL1b, p, hpN, ?_⟩
      · rw [hget, if_neg (by omega)]
        exact hc1
      · rw [hcur, if_neg]
        · exact hpi
        · intro hh
          have := (hok.labels p hh.1).2
          omega
    · intro p hpN
      rw [hcur]
      by_cases hpC : p ∈ c.points
      · rw [if_pos ⟨hpC, by rw [hcurlen]; exact hpN⟩]
        right; left
        exact ⟨by rw [hC0 p hpC]; omega, rfl⟩
      · rw [if_neg (fun hh => hpC hh.1)]
        rcases h.labels p hpN with h1 | h2 | ⟨h3, h4⟩
        · exact Or.inl h1
        · exact Or.inr (Or.inl h2)
        · exact Or.inr (Or.inr ⟨h3, by rw [hparent]; exact h4⟩)
    · intro i
      rw [hnewc, hlen1]
      exact h.newClusters i
    · intro i c1 hc1
      rw [hget] at hc1
      by_cases hLi : c.parentCluster = i
      · rw [if_pos hLi] at hc1
        cases hc1
        exact ⟨by rw [← hfr.1]; exact hd1, by rw [← hfr.2.1]; exact hd2,
          by rw [← hfr.2.2.1]; exact hd3, by rw [← hfr.2.2.2]; exact hd4⟩
      · rw [if_neg hLi] at hc1
        exact h.fresh i c1 hc1
  | false =>
    obtain ⟨hcl, hlab, _, hnewc, hhier, hline, hprev, hsig⟩ :=
      callResult_create D_MAX c par hpar hnext hn
    obtain ⟨htree, hparent⟩ := clusterTree_create c.st.clusters c.parentCluster par
      { (cluster_detach_points par c.points.length c.edgeWeight).1 with hasChildren := true }
      (cluster_init D_MAX ([] : ClusterList α) c.st.nextClusterLabel (some c.parentCluster)
        c.edgeWeight c.points.length).2
      h.tree hpar hdl hdp rfl hlen.symm rfl rfl
    rw [← hcl] at htree hparent
    have hlen1 : (callResult D_MAX c).clusters.length = c.st.clusters.length + 1 := by
      rw [hcl, List.length_append, List.length_set, List.length_singleton]
    have hget : ∀ i, i ≠ c.st.clusters.length → (callResult D_MAX c).clusters.getD i none =
        if c.parentCluster = i then
          some { (cluster_detach_points par c.points.length c.edgeWeight).1 with
            hasChildren := true }
        else c.st.clusters.getD i none := by
      intro i hi
      rw [hcl]
      by_cases hlt : i < c.st.clusters.length
      · rw [getD_append_lt _ _ _ _ (by rw [List.length_set]; exact hlt), getD_set_eq]
        by_cases hLi : c.parentCluster = i
        · rw [if_pos ⟨hLi, hLlt⟩, if_pos hLi]
        · rw [if_neg (fun hh => hLi hh.1), if_neg hLi]
      · have h1 : (c.st.clusters.set c.parentCluster
            (some { (cluster_detach_points par c.points.length c.edgeWeight).1 with
              hasChildren := true }) ++
            [some (cluster_init D_MAX ([] : ClusterList α) c.st.nextClusterLabel
              (some c.parentCluster) c.edgeWeight c.points.length).2]).getD i none = none := by
          rw [List.getD_eq_getElem?_getD, List.getElem?_eq_none]
          · rfl
          · rw [List.length_append, List.length_set, List.length_singleton]; omega
        have h2 : c.st.clusters.getD i none = none := by
          rw [List.getD_eq_getElem?_getD, List.getElem?_eq_none (by omega)]
          rfl
        rw [h1, if_neg (by omega), h2]
    have hgetnew : (callResult D_MAX c).clusters.getD c.st.clusters.length none =
        some (cluster_init D_MAX ([] : ClusterList α) c.st.nextClusterLabel
          (some c.parentCluster) c.edgeWeight c.points.length).2 := by
      rw [hcl]
      exact getD_append_length_eq _ _ _ _ (by rw [List.length_set])
    have hcur : ∀ p, (callResult D_MAX c).currentClusterLabels.getD p 0 =
        if p ∈ c.points ∧ p < c.st.currentClusterLabels.length then c.st.clusters.length
        else c.st.currentClusterLabels.getD p 0 := by
      intro p
      rw [hlab, relabel_getD, hlen]
    refine ⟨by rw [hhier]; exact h.hierarchy, by rw [hline]; exact h.lineCount,
      by rw [hprev]; exact h.prev, by rw [hsig]; exact h.signif, by rw [hlen1]; omega,
      ?_, ?_, ?_, ?_, htree, ?_⟩
    · intro i c0 hi
      obtain ⟨c1, hc1, ho, hp⟩ := h.old i c0 hi
      have hilt := getD_some_lt hc1
      rw [hget i (by omega)]
      by_cases hLi : c.parentCluster = i
      · rw [if_pos hLi]
        rw [← hLi, hpar] at hc1
        cases hc1
        exact ⟨_, rfl, by rw [← ho]; exact hdo, by rw [← hp]; exact hdp⟩
      · rw [if_neg hLi]
        exact ⟨c1, hc1, ho, hp⟩
    · intro i h1 h2
      rw [hlen1] at h2
      by_cases hil : i = c.st.clusters.length
      · obtain ⟨p, hpC⟩ := List.exists_mem_of_ne_nil _ hok.ne
        have hpN := (hok.labels p hpC).1
        refine ⟨_, c.parentCluster, by rw [hil]; exact hgetnew, rfl, hL1, hLn, p, hpN, ?_⟩
        rw [hcur, if_pos ⟨hpC, by rw [hcurlen]; exact hpN⟩, hil]
      · obtain ⟨c1, L1, hc1, hp1, hL1a, hL1b, p, hpN, hpi⟩ := h.new i h1 (by omega)
        refine ⟨c1, L1, ?_, hp1, hL1a, hL1b, p, hpN, ?_⟩
        · rw [hget i hil, if_neg (by omega)]
          exact hc1
        · rw [hcur, if_neg]
          · exact hpi
          · intro hh
            have := (hok.labels p hh.1).2
            omega
    · intro p hpN
      rw [hcur]
      by_cases hpC : p ∈ c.points
      · rw [if_pos ⟨hpC, by rw [hcurlen]; exact hpN⟩]
        right; right
        refine ⟨hn0, ?_⟩
        rw [hparent, if_pos rfl, hC0 p hpC]
      · rw [if_neg (fun hh => hpC hh.1)]
        rcases h.labels p hpN with h1 | h2 | ⟨h3, h4⟩
        · exact Or.inl h1
        · exact Or.inr (Or.inl h2)
        · refine Or.inr (Or.inr ⟨h3, ?_⟩)
          have := getD_lt_of_labels hok.core p hpN
          rw [hparent, if_neg (by omega)]
          exact h4
    · intro i
      rw [hnewc, hlen1, List.mem_append, List.mem_singleton, h.newClusters i]
      constructor
      · rintro (⟨h1, h2⟩ | h3)
        · exact ⟨h1, by omega⟩
        · exact ⟨by omega, by omega⟩
      · rintro ⟨h1, h2⟩
        by_cases hil : i = c.st.clusters.length
        · exact Or.inr hil
        · exact Or.inl ⟨h1, by omega⟩
    · intro i c1 hc1
      by_cases hil : i = c.st.clusters.length
      · rw [hil, hgetnew] at hc1
        cases hc1
        exact ⟨rfl, rfl, rfl, rfl⟩
      · rw [hget i hil] at hc1
        by_cases hLi : c.parentCluster = i
        · rw [if_pos hLi] at hc1
          cases hc1
          exact ⟨by rw [← hfr.1]; exact hd1, by rw [← hfr.2.1]; exact hd2,
            by rw [← hfr.2.2.1]; exact hd3, by rw [← hfr.2.2.2]; exact hd4⟩
        · rw [if_neg hLi] at hc1
          exact h.fresh i c1 hc1

theorem key_mem_iff {α : Type} (hierarchy : List (Nat × hierarchy_entry α)) (lineCount k : Nat)
    (hkeys : hierarchy.map (fun e => e.1) = List.range' 1 lineCount) :
    k ∈ hierarchy.map (fun e => e.1) ↔ (1 ≤ k ∧ k ≤ lineCount) := by
  rw [hkeys, List.mem_range'_1]
  omega

/-- The end of an iteration of the main loop in which clusters have been examined: the
invariant about the levels holds again, and the state is a later one. -/
theorem levelInv_record {α : Type} [LinearOrderedField α] (pos : Prop) (N : Nat)
    (A B : List Nat) (Wts : List α) (compactHierarchy : Bool) (W : α)
    (st0 st2 : HierarchyState α) (h0 : HierInv pos N A B Wts st0) (hQ : LevelInv N st0)
    (hF : LevelFrame N st0 st2) (h2 : HierInv pos N A B Wts st2) :
    LevelInv N (recordLevel compactHierarchy W st2) ∧
      LevelStep st0 (recordLevel compactHierarchy W st2) := by
  have hrcur : (recordLevel compactHierarchy W st2).currentClusterLabels =
      st2.currentClusterLabels := rfl
  have hrprev : (recordLevel compactHierarchy W st2).previousClusterLabels =
      st2.currentClusterLabels := rfl
  have hrlen : (recordLevel compactHierarchy W st2).clusters.length = st2.clusters.length :=
    offsets_length _ _ _
  have hrget := recordLevel_clusters_getD compactHierarchy W st2
  have hrsig : (recordLevel compactHierarchy W st2).nextLevelSignificant =
      if st2.newClusters.length = 0 then false else true := rfl
  have hrline : (recordLevel compactHierarchy W st2).lineCount =
      if compactHierarchy = false ∨ st2.nextLevelSignificant = true ∨
          st2.newClusters.length > 0 then st2.lineCount + 1
      else st2.lineCount := rfl
  have hrhier : (recordLevel compactHierarchy W st2).hierarchy =
      if compactHierarchy = false ∨ st2.nextLevelSignificant = true ∨
          st2.newClusters.length > 0 then
        st2.hierarchy ++
          [((recordLevel compactHierarchy W st2).lineCount,
            { edgeWeight := W, labels := st2.previousClusterLabels })]
      else st2.hierarchy := rfl
  generalize recordLevel compactHierarchy W st2 = r at hrcur hrprev hrlen hrget hrsig hrline hrhier ⊢
  have hlc2 : st2.lineCount = st0.lineCount := hF.lineCount
  have hh2 : st2.hierarchy = st0.hierarchy := hF.hierarchy
  have hprev2 : st2.previousClusterLabels = st0.currentClusterLabels := by
    rw [hF.prev, hQ.prev]
  have hle : st2.lineCount ≤ r.lineCount := by
    rw [hrline]
    split <;> omega
  have hn0 := hF.len_le
  -- the clusters of `st0`
  have hold : ∀ M c0, st0.clusters.getD M none = some c0 →
      ∃ c2, st2.clusters.getD M none = some c2 ∧ r.clusters.getD M none = some c2 ∧
        c2.offset = c0.offset ∧ c2.parent = c0.parent := by
    intro M c0 hM
    obtain ⟨c2, hc2, ho, hp⟩ := hF.old M c0 hM
    have hMlt := getD_some_lt hM
    have hnot : M ∉ st2.newClusters := fun hin => by
      have := (hF.newClusters M).mp hin
      omega
    refine ⟨c2, hc2, ?_, ho, hp⟩
    rw [hrget, hc2]
    simp only [Option.map_some', if_neg hnot]
  -- the new clusters
  have hnewsig : ∀ M, M ∈ st2.newClusters →
      (compactHierarchy = false ∨ st2.nextLevelSignificant = true ∨
        st2.newClusters.length > 0) :=
    fun M hM => Or.inr (Or.inr (List.length_pos_of_mem hM))
  have hnewcl : ∀ M, st0.clusters.length ≤ M → M < st2.clusters.length →
      ∃ c2, st2.clusters.getD M none = some c2 ∧
        r.clusters.getD M none = some { c2 with offset := r.lineCount } ∧
        M ∈ st2.newClusters := by
    intro M h1 h3
    obtain ⟨c2, L, hc2, _⟩ := hF.new M h1 h3
    have hin : M ∈ st2.newClusters := (hF.newClusters M).mpr ⟨h1, h3⟩
    refine ⟨c2, hc2, ?_, hin⟩
    rw [hrget, hc2]
    simp only [Option.map_some', if_pos hin]
  -- the tree
  obtain ⟨hrtree, hrparent⟩ := clusterTree_offsets st2.clusters r.clusters
    (fun i cl => if i ∈ st2.newClusters then { cl with offset := r.lineCount } else cl)
    hrlen hrget (fun i c => by
      by_cases hi : i ∈ st2.newClusters <;> simp [hi]) hF.tree
  have hpar02 : ∀ j a, parentAt st0.clusters j = some a → parentAt r.clusters j = some a := by
    intro j a hj
    rw [hrparent]
    unfold parentAt at hj ⊢
    cases hc : st0.clusters.getD j none with
    | none => rw [hc] at hj; cases hj
    | some c0 =>
      rw [hc] at hj
      obtain ⟨c2, hc2, _, _, hp⟩ := hold j c0 hc
      rw [hc2]
      show c2.parent = some a
      rw [hp]
      exact hj
  have hanc : ∀ a s, IsAncestor st0.clusters a s → IsAncestor r.clusters a s :=
    fun a s h => isAncestor_mono hpar02 h
  -- the keys
  have hkeys : r.hierarchy.map (fun e => e.1) = List.range' 1 r.lineCount := by
    rw [hrhier, hrline]
    split
    · rw [List.map_append, hh2, hQ.keys, hlc2, List.range'_concat]
      simp [Nat.add_comm]
    · rw [hh2, hQ.keys, hlc2]
  have hnokey : hashtable_lookup r.hierarchy (r.lineCount + 1) = none := by
    apply lookup_none_of_not_mem
    rw [key_mem_iff r.hierarchy r.lineCount _ hkeys]
    omega
  -- the births of the clusters of `st0`
  have hborn : ∀ p M, 2 ≤ M → M < st0.clusters.length → (Born st0 p M ↔ Born r p M) := by
    intro p M hM hMlt
    obtain ⟨c0, hc0⟩ := clusterTree_some hQ.tree M (by omega) hMlt
    obtain ⟨c2, _, hcr, ho, _⟩ := hold M c0 hc0
    rw [born_iff st0 p M c0 hc0, born_iff r p M c2 hcr, ho, hrcur]
    unfold BornAt
    have hoff := hQ.offset_le M c0 hc0
    rcases Nat.lt_or_ge c0.offset st0.lineCount with hlt | hge
    · obtain ⟨e, he⟩ := lookup_some_of_mem st0.hierarchy (c0.offset + 1)
        ((key_mem_iff st0.hierarchy st0.lineCount _ hQ.keys).mpr ⟨by omega, by omega⟩)
      have hre : hashtable_lookup r.hierarchy (c0.offset + 1) = some e := by
        rw [hrhier]
        split
        · rw [hh2]
          exact lookup_append_some _ _ _ _ he
        · rw [hh2]
          exact he
      constructor
      · rintro (⟨e1, he1, hl⟩ | ⟨heq, _⟩)
        · rw [he] at he1
          cases he1
          exact Or.inl ⟨e, hre, hl⟩
        · omega
      · rintro (⟨e1, he1, hl⟩ | ⟨heq, _⟩)
        · rw [hre] at he1
          cases he1
          exact Or.inl ⟨e, he, hl⟩
        · omega
    · have heq : c0.offset = st0.lineCount := by omega
      have hsig0 := (hQ.pending M c0 hM hc0 heq).1
      have hsig : compactHierarchy = false ∨ st2.nextLevelSignificant = true ∨
          st2.newClusters.length > 0 := Or.inr (Or.inl (by rw [hF.signif]; exact hsig0))
      have hline : r.lineCount = st0.lineCount + 1 := by
        rw [hrline, if_pos hsig, hlc2]
      have hnone : hashtable_lookup st0.hierarchy (c0.offset + 1) = none := by
        apply lookup_none_of_not_mem
        rw [key_mem_iff st0.hierarchy st0.lineCount _ hQ.keys]
        omega
      have hlast : hashtable_lookup r.hierarchy (c0.offset + 1) =
          some { edgeWeight := W, labels := st2.previousClusterLabels } := by
        rw [hrhier, if_pos hsig, hline, heq, hh2]
        apply lookup_append_last
        rw [← heq]
        exact hnone
      constructor
      · rintro (⟨e1, he1, _⟩ | ⟨_, hcur⟩)
        · rw [hnone] at he1
          cases he1
        · refine Or.inl ⟨_, hlast, ?_⟩
          show st2.previousClusterLabels.getD p 0 = M
          rw [hprev2]
          exact hcur
      · rintro (⟨e1, he1, hl⟩ | ⟨heq1, _⟩)
        · rw [hlast] at he1
          cases he1
          refine Or.inr ⟨heq, ?_⟩
          have hl' : st2.previousClusterLabels.getD p 0 = M := hl
          rw [hprev2] at hl'
          exact hl'
        · omega
  -- the births of the new clusters
  have hbornnew : ∀ p M, st0.clusters.length ≤ M → Born r p M →
      st2.currentClusterLabels.getD p 0 = M := by
    intro p M hM hb
    obtain ⟨c, hc, hba⟩ := hb
    have hMlt : M < st2.clusters.length := by
      rw [← hrlen]
      exact getD_some_lt hc
    obtain ⟨c2, _, hcr, _⟩ := hnewcl M hM hMlt
    rw [hcr] at hc
    cases hc
    rcases hba with ⟨e, he, _⟩ | ⟨_, hcur⟩
    · have he' : hashtable_lookup r.hierarchy (r.lineCount + 1) = some e := he
      rw [hnokey] at he'
      cases he'
    · rw [← hrcur]
      exact hcur
  refine ⟨⟨by rw [hrprev, hrcur], hkeys, hrtree, ?_, ?_, ?_, ?_⟩,
    ⟨⟨by rw [hrlen]; exact hn0, ?_, hborn⟩, ?_⟩⟩
  · -- fresh
    intro i c1 hc1
    rw [hrget] at hc1
    cases hc : st2.clusters.getD i none with
    | none => rw [hc] at hc1; cases hc1
    | some c2 =>
      rw [hc] at hc1
      simp only [Option.map_some', Option.some.injEq] at hc1
      have hf := hF.fresh i c2 hc
      rw [← hc1]
      split <;> exact hf
  · -- offset_le
    intro M c1 hc1
    have hMlt : M < st2.clusters.length := by
      rw [← hrlen]
      exact getD_some_lt hc1
    rcases Nat.lt_or_ge M st0.clusters.length with hlt | hge
    · have hM1 : 1 ≤ M := by
        rcases Nat.eq_zero_or_pos M with hz | hp
        · rw [hz, hrtree.null] at hc1
          cases hc1
        · exact hp
      obtain ⟨c0, hc0⟩ := clusterTree_some hQ.tree M hM1 hlt
      obtain ⟨c2, _, hcr, ho, _⟩ := hold M c0 hc0
      rw [hcr] at hc1
      cases hc1
      rw [ho]
      have := hQ.offset_le M c0 hc0
      omega
    · obtain ⟨c2, _, hcr, _⟩ := hnewcl M hge hMlt
      rw [hcr] at hc1
      cases hc1
      exact le_refl _
  · -- pending
    intro M c1 hM hc1 hoff
    have hMlt : M < st2.clusters.length := by
      rw [← hrlen]
      exact getD_some_lt hc1
    rcases Nat.lt_or_ge M st0.clusters.length with hlt | hge
    · exfalso
      obtain ⟨c0, hc0⟩ := clusterTree_some hQ.tree M (by omega) hlt
      obtain ⟨c2, _, hcr, ho, _⟩ := hold M c0 hc0
      rw [hcr] at hc1
      cases hc1
      rw [ho] at hoff
      have hle0 := hQ.offset_le M c0 hc0
      have heq : c0.offset = st0.lineCount := by omega
      have hsig0 := (hQ.pending M c0 hM hc0 heq).1
      have hsig : compactHierarchy = false ∨ st2.nextLevelSignificant = true ∨
          st2.newClusters.length > 0 := Or.inr (Or.inl (by rw [hF.signif]; exact hsig0))
      rw [hrline, if_pos hsig] at hoff
      omega
    · obtain ⟨c2, _, _, hin⟩ := hnewcl M hge hMlt
      obtain ⟨_, _, _, _, _, _, p, hpN, hpM⟩ := hF.new M hge hMlt
      refine ⟨?_, p, hpN, ?_⟩
      · rw [hrsig, if_neg]
        have := List.length_pos_of_mem hin
        omega
      · rw [hrcur, hpM]
        omega
  · -- history
    intro p hp
    obtain ⟨l, hl1, hl2, hl3, hl4⟩ := hQ.history p hp
    have hcur0 := getD_lt_of_labels h0.core p hp
    have hcur2 := getD_lt_of_labels h2.core p hp
    have hcase12 : st2.currentClusterLabels.getD p 0 < st0.clusters.length →
        (st2.currentClusterLabels.getD p 0 ≠ 0 → st2.currentClusterLabels.getD p 0 = l) →
        ∃ l1, 1 ≤ l1 ∧ l1 < r.clusters.length ∧
          (r.currentClusterLabels.getD p 0 ≠ 0 → r.currentClusterLabels.getD p 0 = l1) ∧
          ∀ M, 2 ≤ M → Born r p M → (M = l1 ∨ IsAncestor r.clusters M l1) := by
      intro hlt hne
      refine ⟨l, hl1, by rw [hrlen]; omega, by rw [hrcur]; exact hne, ?_⟩
      intro M hM hb
      rcases Nat.lt_or_ge M st0.clusters.length with hMlt | hMge
      · rcases hl4 M hM ((hborn p M hM hMlt).mpr hb) with h | h
        · exact Or.inl h
        · exact Or.inr (hanc _ _ h)
      · have := hbornnew p M hMge hb
        omega
    rcases hF.labels p hp with h1 | ⟨h2a, h2b⟩ | ⟨h3a, h3b⟩
    · exact hcase12 (by rw [h1]; exact hcur0) (by rw [h1]; exact hl3)
    · exact hcase12 (by rw [h2b]; omega) (by rw [h2b]; intro h; exact absurd rfl h)
    · obtain ⟨c, L, hc, hcp, hL1, _, _⟩ := hF.new _ h3a hcur2
      have hq : st0.currentClusterLabels.getD p 0 = L := by
        unfold parentAt at h3b
        rw [hc] at h3b
        have : c.parent = some (st0.currentClusterLabels.getD p 0) := h3b
        rw [hcp] at this
        cases this
        rfl
      have hql : st0.currentClusterLabels.getD p 0 = l := hl3 (by omega)
      have hparl : IsAncestor r.clusters l (st2.currentClusterLabels.getD p 0) := by
        apply IsAncestor.parent
        rw [hrparent, h3b, hql]
      refine ⟨st2.currentClusterLabels.getD p 0, by omega, by rw [hrlen]; exact hcur2,
        by rw [hrcur]; exact fun _ => rfl, ?_⟩
      intro M hM hb
      rcases Nat.lt_or_ge M st0.clusters.length with hMlt | hMge
      · rcases hl4 M hM ((hborn p M hM hMlt).mpr hb) with h | h
        · rw [h]
          exact Or.inr hparl
        · exact Or.inr (isAncestor_trans (hanc _ _ h) hparl)
      · exact Or.inl (hbornnew p M hMge hb).symm
  · -- the offsets of the clusters of `st0`
    intro M c0 hM
    obtain ⟨c2, _, hcr, ho, _⟩ := hold M c0 hM
    exact ⟨c2, hcr, ho⟩
  · -- the new clusters
    intro M h1 h3
    rw [hrlen] at h3
    obtain ⟨c2, _, hcr, hin⟩ := hnewcl M h1 h3
    refine ⟨_, W, hcr, rfl, ?_⟩
    rw [hrhier, if_pos (hnewsig M hin), hh2, hprev2]

theorem levelLater_refl {α : Type} (st : HierarchyState α) : LevelLater st st :=
  ⟨le_refl _, fun _ c h => ⟨c, h, rfl⟩, fun _ _ _ _ => Iff.rfl⟩

theorem levelLater_trans {α : Type} {st st1 st2 : HierarchyState α}
    (h1 : LevelLater st st1) (h2 : LevelLater st1 st2) : LevelLater st st2 := by
  refine ⟨le_trans h1.len_le h2.len_le, ?_, ?_⟩
  · intro M c hc
    obtain ⟨c1, hc1, ho1⟩ := h1.offset M c hc
    obtain ⟨c2, hc2, ho2⟩ := h2.offset M c1 hc1
    exact ⟨c2, hc2, by rw [ho2, ho1]⟩
  · intro p M hM hlt
    exact (h1.born p M hM hlt).trans (h2.born p M hM (by have := h1.len_le; omega))

theorem hierarchyLoop_mono {α : Type} [LinearOrderedField α] (D_MAX : α) (minPoints : Nat)
    (compactHierarchy : Bool) (m : Nat) :
    ∀ (fuel : Nat) (st fin : HierarchyState α),
      hierarchyLoop D_MAX minPoints compactHierarchy fuel st = some fin →
      hierarchyLoop D_MAX minPoints compactHierarchy (fuel + m) st = some fin := by
  intro fuel
  induction fuel with
  | zero =>
    intro st fin h
    unfold hierarchyLoop at h
    split at h
    · rename_i h0
      cases h
      exact hierarchyLoop_done D_MAX minPoints compactHierarchy _ _ h0
    · cases h
  | succ fuel ih =>
    intro st fin h
    have e : fuel + 1 + m = (fuel + m) + 1 := by omega
    rw [e, hierarchyLoop_succ]
    rw [hierarchyLoop_succ] at h
    by_cases h0 : st.edgeCount = 0
    · rw [if_pos h0] at h ⊢
      exact h
    · rw [if_neg h0] at h ⊢
      cases hs : hierarchyStep D_MAX minPoints compactHierarchy st with
      | none => rw [hs] at h; cases h
      | some st1 =>
        rw [hs] at h
        exact ih st1 fin h

theorem hierarchyIter_step_last {α : Type} [LinearOrderedField α] (D_MAX : α)
    (minPoints : Nat) (compactHierarchy : Bool) :
    ∀ (k : Nat) (st0 st st1 : HierarchyState α),
      hierarchyIter D_MAX minPoints compactHierarchy k st0 = some st → st.edgeCount ≠ 0 →
      hierarchyStep D_MAX minPoints compactHierarchy st = some st1 →
      hierarchyIter D_MAX minPoints compactHierarchy (k + 1) st0 = some st1 := by
  intro k
  induction k with
  | zero =>
    intro st0 st st1 h hne hs
    cases h
    rw [hierarchyIter_succ, if_neg hne, hs]
    rfl
  | succ k ih =>
    intro st0 st st1 h hne hs
    rw [hierarchyIter_succ] at h
    rw [hierarchyIter_succ]
    by_cases h0 : st0.edgeCount = 0
    · rw [if_pos h0] at h
      cases h
      exact absurd h0 hne
    · rw [if_neg h0] at h ⊢
      cases hs0 : hierarchyStep D_MAX minPoints compactHierarchy st0 with
      | none => rw [hs0] at h; cases h
      | some s1 =>
        rw [hs0] at h
        exact ih s1 st st1 h hne hs

theorem levelInv_init {α : Type} [LinearOrderedField α] (D_MAX NAN : α) (mst : graph α)
    (pointNoiseLevels : List α) (pointLastClusters : List Nat) :
    LevelInv mst.numVertices
      (hierarchyInit D_MAX NAN mst pointNoiseLevels pointLastClusters) := by
  have hget : ∀ i c,
      (hierarchyInit D_MAX NAN mst pointNoiseLevels pointLastClusters).clusters.getD i none =
        some c →
      i = 1 ∧ c = (cluster_init D_MAX ([none] : ClusterList α) 1 none NAN
        (mst.numVertices : Int)).2 := by
    intro i c hc
    have hlt := getD_some_lt hc
    have hl : (hierarchyInit D_MAX NAN mst pointNoiseLevels pointLastClusters).clusters.length =
        2 := rfl
    rw [hl] at hlt
    interval_cases i
    · cases hc
    · cases hc
      exact ⟨rfl, rfl⟩
  have hparent : ∀ j,
      parentAt (hierarchyInit D_MAX NAN mst pointNoiseLevels pointLastClusters).clusters j =
        none := by
    intro j
    unfold parentAt
    cases hc : (hierarchyInit D_MAX NAN mst pointNoiseLevels pointLastClusters).clusters.getD j
      none with
    | none => rfl
    | some c =>
      obtain ⟨_, rfl⟩ := hget j c hc
      rfl
  refine ⟨rfl, rfl, ⟨le_refl _, rfl, ⟨_, rfl, rfl⟩, ?_, ?_, ?_⟩, ?_, ?_, ?_, ?_⟩
  · intro i hi hlt
    have hl : (hierarchyInit D_MAX NAN mst pointNoiseLevels pointLastClusters).clusters.length =
        2 := rfl
    omega
  · intro i c hc
    obtain ⟨rfl, rfl⟩ := hget i c hc
    rfl
  · intro i c hc
    obtain ⟨rfl, rfl⟩ := hget i c hc
    constructor
    · intro h; cases h
    · rintro ⟨j, hj⟩
      rw [hparent] at hj
      cases hj
  · intro i c hc
    obtain ⟨rfl, rfl⟩ := hget i c hc
    exact ⟨rfl, rfl, rfl, rfl⟩
  · intro M c hc
    obtain ⟨rfl, rfl⟩ := hget M c hc
    exact le_refl _
  · intro M c hM hc
    obtain ⟨rfl, _⟩ := hget M c hc
    omega
  · intro p hp
    have hl : (hierarchyInit D_MAX NAN mst pointNoiseLevels pointLastClusters).clusters.length =
        2 := rfl
    refine ⟨1, le_refl _, by rw [hl]; omega, ?_, ?_⟩
    · intro _
      show (List.replicate mst.numVertices 1).getD p 0 = 1
      rw [List.getD_eq_getElem?_getD, List.getElem?_replicate, if_pos hp]
      rfl
    · intro M hM hb
      obtain ⟨c, hc, _⟩ := hb
      obtain ⟨rfl, _⟩ := hget M c hc
      omega

/-- One iteration of the main loop keeps the invariant about the levels, and the state after
it is a later state. -/
theorem hierarchyStep_levels {α : Type} [LinearOrderedField α] (N : Nat)
    (A B : List Nat) (Wts : List α) (D_MAX : α) (minPoints : Nat) (compactHierarchy : Bool)
    (R : HierarchyState α → Prop)
    (hR : ∀ st st1 : HierarchyState α, R st → LevelLater st st1 → R st1)
    (st : HierarchyState α) (h : HierInv False N A B Wts st) (hQ : LevelInv N st ∧ R st)
    (hne : st.edgeCount ≠ 0) :
    ∃ st1, hierarchyStep D_MAX minPoints compactHierarchy st = some st1 ∧
      HierInv False N A B Wts st1 ∧ st1.edgeCount < st.edgeCount ∧
      (LevelInv N st1 ∧ R st1) ∧ LevelStep st st1 := by
  obtain ⟨st1, hs, hinv, hlt, hQ1, hS, _⟩ :=
    hierarchyStep_calls False N A B Wts D_MAX minPoints compactHierarchy (fun hf => hf.elim)
      (fun x => LevelInv N x ∧ R x) (fun st0 x => LevelFrame N st0 x) (fun x x1 => LevelStep x x1)
      (fun x _ hq _ _ _ =>
        ⟨⟨(levelInv_skip N x hq.1).1, hR _ _ hq.2 (levelInv_skip N x hq.1).2.later⟩,
          (levelInv_skip N x hq.1).2⟩)
      (fun x _ hq _ => levelFrame_enter N x hq.1)
      (fun _ _ _ hp => ⟨hp.hierarchy, hp.lineCount, hp.prev, hp.signif, hp.len_le, hp.old,
        hp.new, hp.labels, hp.newClusters, hp.tree, hp.fresh⟩)
      (fun st0 c h0 _ _ hok hL hp =>
        levelFrame_call False N A B Wts _ D_MAX _ st0 c hok
          (by rw [h0.core.clusters.len]; exact hL) hp)
      (fun st0 st2 h0 hq _ hp h2 _ _ =>
        ⟨⟨(levelInv_record False N A B Wts compactHierarchy _ st0 st2 h0 hq.1 hp h2).1,
          hR _ _ hq.2
            (levelInv_record False N A B Wts compactHierarchy _ st0 st2 h0 hq.1 hp h2).2.later⟩,
          (levelInv_record False N A B Wts compactHierarchy _ st0 st2 h0 hq.1 hp h2).2⟩)
      st h hQ hne
  exact ⟨st1, hs, hinv, hlt, hQ1, hS⟩

theorem hierarchyLoop_levels {α : Type} [LinearOrderedField α] (N : Nat)
    (A B : List Nat) (Wts : List α) (D_MAX : α) (minPoints : Nat) (compactHierarchy : Bool)
    (R : HierarchyState α → Prop)
    (hR : ∀ st st1 : HierarchyState α, R st → LevelLater st st1 → R st1) :
    ∀ (fuel : Nat) (st : HierarchyState α), HierInv False N A B Wts st →
      (LevelInv N st ∧ R st) → st.edgeCount ≤ fuel →
      ∃ st1, hierarchyLoop D_MAX minPoints compactHierarchy fuel st = some st1 ∧
        HierInv False N A B Wts st1 ∧ st1.edgeCount = 0 ∧ LevelInv N st1 ∧ R st1 := by
  intro fuel
  induction fuel with
  | zero =>
    intro st h hQ hle
    have h0 : st.edgeCount = 0 := by omega
    exact ⟨st, hierarchyLoop_done D_MAX minPoints compactHierarchy 0 st h0, h, h0, hQ.1, hQ.2⟩
  | succ fuel ih =>
    intro st h hQ hle
    by_cases h0 : st.edgeCount = 0
    · exact ⟨st, hierarchyLoop_done D_MAX minPoints compactHierarchy _ st h0, h, h0, hQ.1,
        hQ.2⟩
    · obtain ⟨st1, hs, hinv, hlt, hQ1, _⟩ :=
        hierarchyStep_levels N A B Wts D_MAX minPoints compactHierarchy R hR st h hQ h0
      obtain ⟨st2, hl2, hinv2, hz2, hQ2⟩ := ih st1 hinv hQ1 (by omega)
      refine ⟨st2, ?_, hinv2, hz2, hQ2⟩
      rw [hierarchyLoop_succ, if_neg h0, hs]
      exact hl2

theorem hierarchyIter_levels {α : Type} [LinearOrderedField α] (N : Nat)
    (A B : List Nat) (Wts : List α) (D_MAX : α) (minPoints : Nat) (compactHierarchy : Bool) :
    ∀ (k : Nat) (st st1 : HierarchyState α), HierInv False N A B Wts st → LevelInv N st →
      hierarchyIter D_MAX minPoints compactHierarchy k st = some st1 →
      HierInv False N A B Wts st1 ∧ LevelInv N st1 := by
  intro k
  induction k with
  | zero =>
    intro st st1 h hQ hi
    cases hi
    exact ⟨h, hQ⟩
  | succ k ih =>
    intro st st1 h hQ hi
    rw [hierarchyIter_succ] at hi
    by_cases h0 : st.edgeCount = 0
    · rw [if_pos h0] at hi
      cases hi
      exact ⟨h, hQ⟩
    · rw [if_neg h0] at hi
      obtain ⟨s1, hs, hinv, _, hQ1, _⟩ :=
        hierarchyStep_levels N A B Wts D_MAX minPoints compactHierarchy (fun _ => True)
          (fun _ _ _ _ => trivial) st h ⟨hQ, trivial⟩ h0
      rw [hs] at hi
      exact ih s1 st1 hinv hQ1.1 hi

/-- The levels of the hierarchy at the end of the main loop, and the iterations that lead
there. -/
theorem hierarchy_levels {α : Type} [LinearOrderedField α] (D_MAX NAN : α)
    (minPoints : Nat) (mst : graph α) (compactHierarchy : Bool) (pointNoiseLevels : List α)
    (pointLastClusters : List Nat)
    (hgraph : GraphOk mst.numVertices mst.verticesA mst.verticesB mst.edgeWeights.length
      mst.edges)
    (hinc : ∀ v, v < mst.numVertices → ∃ i, i < mst.edgeWeights.length ∧
      (mst.verticesA.getD i 0 = v ∨ mst.verticesB.getD i 0 = v)) :
    ∃ fin, hierarchyLoop D_MAX minPoints compactHierarchy mst.edgeWeights.length
        (hierarchyInit D_MAX NAN mst pointNoiseLevels pointLastClusters) = some fin ∧
      HierInv False mst.numVertices mst.verticesA mst.verticesB mst.edgeWeights fin ∧
      LevelInv mst.numVertices fin ∧
      (∀ p, p < mst.numVertices → fin.currentClusterLabels.getD p 0 = 0) ∧
      ∀ k st st1,
        hierarchyIter D_MAX minPoints compactHierarchy k
          (hierarchyInit D_MAX NAN mst pointNoiseLevels pointLastClusters) = some st →
        st.edgeCount ≠ 0 →
        hierarchyStep D_MAX minPoints compactHierarchy st = some st1 →
        HierInv False mst.numVertices mst.verticesA mst.verticesB mst.edgeWeights st ∧
        HierInv False mst.numVertices mst.verticesA mst.verticesB mst.edgeWeights st1 ∧
        LevelInv mst.numVertices st1 ∧ LevelStep st st1 ∧ LevelLater st1 fin := by
  have hinit := hierarchyInit_inv False mst D_MAX NAN pointNoiseLevels pointLastClusters
    hgraph hinc
  have hQ0 := levelInv_init D_MAX NAN mst pointNoiseLevels pointLastClusters
  obtain ⟨fin, hfin, hinvf, hzf, hQf, _⟩ :=
    hierarchyLoop_levels mst.numVertices mst.verticesA mst.verticesB mst.edgeWeights D_MAX
      minPoints compactHierarchy (fun _ => True) (fun _ _ _ _ => trivial)
      mst.edgeWeights.length _ hinit ⟨hQ0, trivial⟩ (le_refl _)
  refine ⟨fin, hfin, hinvf, hQf, ?_, ?_⟩
  · intro p hp
    apply hinvf.isolated p hp
    have hg := hinvf.core.graph
    rw [hzf] at hg
    exact hg.nil_of_zero p
  · intro k st st1 hk hne hs
    obtain ⟨hinv, hQ⟩ := hierarchyIter_levels mst.numVertices mst.verticesA mst.verticesB
      mst.edgeWeights D_MAX minPoints compactHierarchy k _ st hinit hQ0 hk
    obtain ⟨s1, hs1, hinv1, _, hQ1, hS⟩ :=
      hierarchyStep_levels mst.numVertices mst.verticesA mst.verticesB mst.edgeWeights D_MAX
        minPoints compactHierarchy (fun _ => True) (fun _ _ _ _ => trivial) st hinv
        ⟨hQ, trivial⟩ hne
    rw [hs] at hs1
    cases hs1
    refine ⟨hinv, hinv1, hQ1.1, hS, ?_⟩
    obtain ⟨fin1, hfin1, _, _, _, hlater⟩ :=
      hierarchyLoop_levels mst.numVertices mst.verticesA mst.verticesB mst.edgeWeights D_MAX
        minPoints compactHierarchy (fun x => LevelLater st1 x)
        (fun _ _ h1 h2 => levelLater_trans h1 h2)
        mst.edgeWeights.length st1 hinv1 ⟨hQ1.1, levelLater_refl st1⟩ hinv1.core.count_le
    have e1 : hierarchyLoop D_MAX minPoints compactHierarchy (k + 1 + mst.edgeWeights.length)
        (hierarchyInit D_MAX NAN mst pointNoiseLevels pointLastClusters) = some fin1 := by
      rw [hierarchyLoop_add, hierarchyIter_step_last D_MAX minPoints compactHierarchy k _ st
        st1 hk hne hs]
      exact hfin1
    have e2 := hierarchyLoop_mono D_MAX minPoints compactHierarchy (k + 1) _ _ _ hfin
    rw [Nat.add_comm] at e2
    rw [e1] at e2
    cases e2
    exact hlater

/-! ### The flat partition -/

/-- The entries of the table `significant` after the first loop of
`hdbscan_find_prominent_clusters`: the label `M` stands under the key `K` exactly when it
did before or one of the clusters has the offset `K` and the label `M`, and every key is
the offset of such a cluster or was there before. -/
theorem significantInsert_foldl {α : Type} (clusters : ClusterList α) :
    ∀ (desc : List Nat) (acc : List (Nat × List Nat)),
      (∀ K M, (∃ e, e ∈ desc.foldl (significantInsert clusters) acc ∧ e.1 = K ∧ M ∈ e.2) ↔
        ((∃ e, e ∈ acc ∧ e.1 = K ∧ M ∈ e.2) ∨
          ∃ d, d ∈ desc ∧ ∃ cl, clusters.getD d none = some cl ∧ cl.offset = K ∧
            cl.label = M)) ∧
      (∀ e, e ∈ desc.foldl (significantInsert clusters) acc →
        ((∃ e0, e0 ∈ acc ∧ e0.1 = e.1) ∨
          ∃ d, d ∈ desc ∧ ∃ cl, clusters.getD d none = some cl ∧ cl.offset = e.1)) := by
  intro desc
  induction desc with
  | nil =>
    intro acc
    refine ⟨fun K M => ?_, fun e he => Or.inl ⟨e, he, rfl⟩⟩
    constructor
    · intro h; exact Or.inl h
    · rintro (h | ⟨d, hd, _⟩)
      · exact h
      · cases hd
  | cons d desc ih =>
    intro acc
    rw [List.foldl_cons]
    obtain ⟨ih1, ih2⟩ := ih (significantInsert clusters acc d)
    -- one step
    have hstep1 : ∀ K M, (∃ e, e ∈ significantInsert clusters acc d ∧ e.1 = K ∧ M ∈ e.2) ↔
        ((∃ e, e ∈ acc ∧ e.1 = K ∧ M ∈ e.2) ∨
          ∃ cl, clusters.getD d none = some cl ∧ cl.offset = K ∧ cl.label = M) := by
      intro K M
      unfold significantInsert
      cases hc : clusters.getD d none with
      | none =>
        simp only
        constructor
        · intro h; exact Or.inl h
        · rintro (h | ⟨cl, hcl, _⟩)
          · exact h
          · cases hcl
      | some cl =>
        simp only
        cases hl : hashtable_lookup acc cl.offset with
        | none =>
          simp only
          constructor
          · rintro ⟨e, he, hK, hM⟩
            rcases List.mem_append.mp he with h | h
            · exact Or.inl ⟨e, h, hK, hM⟩
            · rw [List.mem_singleton.mp h] at hK hM
              exact Or.inr ⟨cl, rfl, hK, (List.mem_singleton.mp hM).symm⟩
          · rintro (⟨e, he, hK, hM⟩ | ⟨cl1, hcl1, hK, hM⟩)
            · exact ⟨e, List.mem_append_left _ he, hK, hM⟩
            · cases hcl1
              exact ⟨(cl.offset, [cl.label]), List.mem_append_right _ (List.mem_singleton_self _),
                hK, by rw [← hM]; exact List.mem_singleton_self _⟩
        | some v =>
          simp only
          have hex : ∃ e0, e0 ∈ acc ∧ e0.1 = cl.offset := by
            unfold hashtable_lookup at hl
            cases hf : acc.find? (fun e => e.1 = cl.offset) with
            | none => rw [hf] at hl; cases hl
            | some e0 =>
              exact ⟨e0, List.mem_of_find?_eq_some hf, by
                have := List.find?_some hf
                simpa using this⟩
          constructor
          · rintro ⟨e, he, hK, hM⟩
            obtain ⟨e1, he1, rfl⟩ := List.mem_map.mp he
            by_cases hk : e1.1 = cl.offset
            · rw [if_pos hk] at hK hM
              rcases List.mem_append.mp hM with h | h
              · exact Or.inl ⟨e1, he1, hK, h⟩
              · exact Or.inr ⟨cl, rfl, by rw [← hK]; exact hk.symm,
                  (List.mem_singleton.mp h).symm⟩
            · rw [if_neg hk] at hK hM
              exact Or.inl ⟨e1, he1, hK, hM⟩
          · rintro (⟨e, he, hK, hM⟩ | ⟨cl1, hcl1, hK, hM⟩)
            · refine ⟨if e.1 = cl.offset then (e.1, e.2 ++ [cl.label]) else e,
                List.mem_map.mpr ⟨e, he, rfl⟩, ?_, ?_⟩
              · split <;> exact hK
              · split
                · exact List.mem_append_left _ hM
                · exact hM
            · cases hcl1
              obtain ⟨e0, he0, hk0⟩ := hex
              refine ⟨if e0.1 = cl.offset then (e0.1, e0.2 ++ [cl.label]) else e0,
                List.mem_map.mpr ⟨e0, he0, rfl⟩, ?_, ?_⟩
              · rw [if_pos hk0]
                show e0.1 = K
                rw [hk0, hK]
              · rw [if_pos hk0, ← hM]
                exact List.mem_append_right _ (List.mem_singleton_self _)
    have hstep2 : ∀ e, e ∈ significantInsert clusters acc d →
        ((∃ e0, e0 ∈ acc ∧ e0.1 = e.1) ∨
          ∃ cl, clusters.getD d none = some cl ∧ cl.offset = e.1) := by
      intro e he
      unfold significantInsert at he
      cases hc : clusters.getD d none with
      | none =>
        rw [hc] at he
        exact Or.inl ⟨e, he, rfl⟩
      | some cl =>
        rw [hc] at he
        simp only at he
        cases hl : hashtable_lookup acc cl.offset with
        | none =>
          rw [hl] at he
          rcases List.mem_append.mp he with h | h
          · exact Or.inl ⟨e, h, rfl⟩
          · rw [List.mem_singleton.mp h]
            exact Or.inr ⟨cl, rfl, rfl⟩
        | some v =>
          rw [hl] at he
          obtain ⟨e1, he1, rfl⟩ := List.mem_map.mp he
          refine Or.inl ⟨e1, he1, ?_⟩
          split <;> rfl
    refine ⟨fun K M => ?_, fun e he => ?_⟩
    · rw [ih1 K M, hstep1 K M]
      constructor
      · rintro ((h | ⟨cl, hcl, hK, hM⟩) | ⟨d1, hd1, h⟩)
        · exact Or.inl h
        · exact Or.inr ⟨d, List.mem_cons_self _ _, cl, hcl, hK, hM⟩
        · exact Or.inr ⟨d1, List.mem_cons_of_mem _ hd1, h⟩
      · rintro (h | ⟨d1, hd1, h⟩)
        · exact Or.inl (Or.inl h)
        · rcases List.mem_cons.mp hd1 with rfl | hd
          · exact Or.inl (Or.inr h)
          · exact Or.inr ⟨d1, hd, h⟩
    · rcases ih2 e he with ⟨e0, he0, hk⟩ | ⟨d1, hd1, h⟩
      · rcases hstep2 e0 he0 with ⟨e1, he1, hk1⟩ | ⟨cl, hcl, hk1⟩
        · exact Or.inl ⟨e1, he1, by rw [hk1, hk]⟩
        · exact Or.inr ⟨d, List.mem_cons_self _ _, cl, hcl, by rw [hk1, hk]⟩
      · exact Or.inr ⟨d1, List.mem_cons_of_mem _ hd1, h⟩

theorem assign_foldl_getD (labels clusterList : List Nat) :
    ∀ (js : List Nat) (acc : List Nat) (j : Nat),
      ((js.foldl
        (fun clusterLabels j =>
          if labels.getD j 0 ∈ clusterList then clusterLabels.set j (labels.getD j 0)
          else clusterLabels) acc).length = acc.length) ∧
      (js.foldl
        (fun clusterLabels j =>
          if labels.getD j 0 ∈ clusterList then clusterLabels.set j (labels.getD j 0)
          else clusterLabels) acc).getD j 0 =
        if j ∈ js ∧ j < acc.length ∧ labels.getD j 0 ∈ clusterList then labels.getD j 0
        else acc.getD j 0 := by
  intro js
  induction js with
  | nil =>
    intro acc j
    simp
  | cons i js ih =>
    intro acc j
    rw [List.foldl_cons]
    obtain ⟨ihl, ihg⟩ := ih
      (if labels.getD i 0 ∈ clusterList then acc.set i (labels.getD i 0) else acc) j
    have hlen : (if labels.getD i 0 ∈ clusterList then acc.set i (labels.getD i 0)
        else acc).length = acc.length := by
      split
      · rw [List.length_set]
      · rfl
    refine ⟨by rw [ihl, hlen], ?_⟩
    rw [ihg, hlen]
    by_cases hj : j ∈ js ∧ j < acc.length ∧ labels.getD j 0 ∈ clusterList
    · rw [if_pos hj, if_pos ⟨List.mem_cons_of_mem _ hj.1, hj.2⟩]
    · rw [if_neg hj]
      by_cases hi : labels.getD i 0 ∈ clusterList
      · rw [if_pos hi, getD_set_eq]
        by_cases hij : i = j ∧ i < acc.length
        · rw [if_pos hij]
          obtain ⟨rfl, hlt⟩ := hij
          rw [if_pos ⟨List.mem_cons_self _ _, hlt, hi⟩]
        · rw [if_neg hij]
          rw [if_neg]
          rintro ⟨h1, h2, h3⟩
          rcases List.mem_cons.mp h1 with h | h
          · exact hij ⟨h.symm, by rw [← h]; exact h2⟩
          · exact hj ⟨h, h2, h3⟩
      · rw [if_neg hi, if_neg]
        rintro ⟨h1, h2, h3⟩
        rcases List.mem_cons.mp h1 with h | h
        · rw [h] at h3
          exact hi h3
        · exact hj ⟨h, h2, h3⟩

theorem assignSignificant_getD (numPoints : Nat) (labels clusterList acc : List Nat) (j : Nat)
    (hlen : acc.length = numPoints) :
    (assignSignificant numPoints labels clusterList acc).length = numPoints ∧
    (assignSignificant numPoints labels clusterList acc).getD j 0 =
      if j < numPoints ∧ labels.getD j 0 ∈ clusterList then labels.getD j 0
      else acc.getD j 0 := by
  obtain ⟨h1, h2⟩ := assign_foldl_getD labels clusterList (List.range numPoints) acc j
  unfold assignSignificant
  refine ⟨by rw [h1, hlen], ?_⟩
  rw [h2, hlen]
  by_cases h : j < numPoints ∧ labels.getD j 0 ∈ clusterList
  · rw [if_pos h, if_pos ⟨List.mem_range.mpr h.1, h.1, h.2⟩]
  · rw [if_neg h, if_neg]
    rintro ⟨_, h2, h3⟩
    exact h ⟨h2, h3⟩

/-- The second loop of `hdbscan_find_prominent_clusters` over a table `sig` all of whose
keys have a hierarchy entry: there is a result, and a point either keeps its label and no
entry of the table assigns it, or its label is one that an entry of the table assigns. -/
theorem prominent_foldlM {α : Type} (hierarchy : List (Nat × hierarchy_entry α))
    (numPoints : Nat) :
    ∀ (sig : List (Nat × List Nat)) (acc : List Nat), acc.length = numPoints →
      (∀ e, e ∈ sig → ∃ hp, hashtable_lookup hierarchy (e.1 + 1) = some hp) →
      ∃ res, sig.foldlM
          (fun clusterLabels e =>
            match hashtable_lookup hierarchy (e.1 + 1) with
            | none => none
            | some hpSecond =>
              some (assignSignificant numPoints hpSecond.labels e.2 clusterLabels))
          acc = some res ∧
        res.length = numPoints ∧
        ∀ j, j < numPoints →
          (res.getD j 0 = acc.getD j 0 ∧
            ¬ ∃ M e hp, e ∈ sig ∧ hashtable_lookup hierarchy (e.1 + 1) = some hp ∧
              hp.labels.getD j 0 = M ∧ M ∈ e.2) ∨
          (∃ e hp, e ∈ sig ∧ hashtable_lookup hierarchy (e.1 + 1) = some hp ∧
            hp.labels.getD j 0 = res.getD j 0 ∧ res.getD j 0 ∈ e.2) := by
  intro sig
  induction sig with
  | nil =>
    intro acc hlen _
    refine ⟨acc, rfl, hlen, fun j _ => Or.inl ⟨rfl, ?_⟩⟩
    rintro ⟨M, e, hp, he, _⟩
    cases he
  | cons e sig ih =>
    intro acc hlen hall
    obtain ⟨hp, hhp⟩ := hall e (List.mem_cons_self _ _)
    have hlen1 := fun j => (assignSignificant_getD numPoints hp.labels e.2 acc j hlen).1
    obtain ⟨res, hres, hrlen, hrj⟩ := ih (assignSignificant numPoints hp.labels e.2 acc)
      (hlen1 0) (fun e1 he1 => hall e1 (List.mem_cons_of_mem _ he1))
    refine ⟨res, ?_, hrlen, ?_⟩
    · rw [List.foldlM_cons, hhp]
      exact hres
    · intro j hj
      rcases hrj j hj with ⟨heq, hno⟩ | ⟨e1, hp1, he1, hl1, hv1, hm1⟩
      · rw [(assignSignificant_getD numPoints hp.labels e.2 acc j hlen).2] at heq
        by_cases hhit : j < numPoints ∧ hp.labels.getD j 0 ∈ e.2
        · rw [if_pos hhit] at heq
          right
          exact ⟨e, hp, List.mem_cons_self _ _, hhp, heq.symm, by rw [heq]; exact hhit.2⟩
        · rw [if_neg hhit] at heq
          left
          refine ⟨heq, ?_⟩
          rintro ⟨M, e2, hp2, he2, hl2, hv2, hm2⟩
          rcases List.mem_cons.mp he2 with h | h
          · rw [h] at hl2 hm2
            rw [hhp] at hl2
            cases hl2
            exact hhit ⟨hj, by rw [hv2]; exact hm2⟩
          · exact hno ⟨M, e2, hp2, h, hl2, hv2, hm2⟩
      · right
        exact ⟨e1, hp1, List.mem_cons_of_mem _ he1, hl1, hv1, hm1⟩

/-! ### The offsets of the clusters during the propagation -/

theorem cluster_propagate_keys {α : Type} [LinearOrder α] [Add α] (D_MAX : α)
    (clusters : ClusterList α) (x i : Nat) :
    ((cluster_propagate D_MAX clusters x).getD i none).map (fun c => (c.label, c.offset)) =
      (clusters.getD i none).map (fun c => (c.label, c.offset)) := by
  have hdeath : ∀ cl : cluster α, (propagateDeath D_MAX cl).label = cl.label ∧
      (propagateDeath D_MAX cl).offset = cl.offset := by
    intro cl
    unfold propagateDeath
    split <;> exact ⟨rfl, rfl⟩
  have hpd : ∀ cl par : cluster α, (propagateParentDeath cl par).label = par.label ∧
      (propagateParentDeath cl par).offset = par.offset := by
    intro cl par
    unfold propagateParentDeath
    split <;> exact ⟨rfl, rfl⟩
  have hchoice : ∀ (par cl : cluster α) (y : Nat), (propagateChoice par cl y).label = par.label ∧
      (propagateChoice par cl y).offset = par.offset := by
    intro par cl y
    unfold propagateChoice propagateSelf propagateDescendants
    split
    · exact ⟨rfl, rfl⟩
    · split
      · exact ⟨rfl, rfl⟩
      · split
        · split <;> exact ⟨rfl, rfl⟩
        · exact ⟨rfl, rfl⟩
  unfold cluster_propagate
  cases hx : clusters.getD x none with
  | none => rfl
  | some cl =>
    simp only
    cases hp : cl.parent with
    | none => rfl
    | some p =>
      simp only
      have hxlt : x < clusters.length := getD_some_lt hx
      have h1 : ∀ k, ((clusters.set x (some (propagateDeath D_MAX cl))).getD k none).map
          (fun c => (c.label, c.offset)) = (clusters.getD k none).map
            (fun c => (c.label, c.offset)) := by
        intro k
        rw [getD_set_eq]
        by_cases hk : x = k ∧ x < clusters.length
        · rw [if_pos hk, ← hk.1, hx]
          simp only [Option.map_some', (hdeath cl).1, (hdeath cl).2]
        · rw [if_neg hk]
      cases hpar : (clusters.set x (some (propagateDeath D_MAX cl))).getD p none with
      | none => exact h1 i
      | some par =>
        simp only
        rw [getD_set_eq]
        by_cases hk : p = i ∧ p < (clusters.set x (some (propagateDeath D_MAX cl))).length
        · rw [if_pos hk, ← h1 i, ← hk.1, hpar]
          simp only [Option.map_some', (hchoice _ _ _).1, (hchoice _ _ _).2, (hpd _ _).1,
            (hpd _ _).2]
        · rw [if_neg hk]
          exact h1 i

theorem propagateStep_keys {α : Type} [LinearOrder α] [Add α] (D_MAX : α)
    (st st1 : PropagateState α) (x : Nat) (rest : List Nat)
    (h : propagateStep D_MAX st x rest = some st1) (i : Nat) :
    (st1.clusters.getD i none).map (fun c => (c.label, c.offset)) =
      (st.clusters.getD i none).map (fun c => (c.label, c.offset)) := by
  have hcl : st1.clusters = cluster_propagate D_MAX st.clusters x := by
    unfold propagateStep at h
    split at h
    · cases h
    · simp only at h
      split at h
      · cases h
      · split at h
        · cases h; rfl
        · split at h
          · cases h
          · split at h
            · cases h; rfl
            · cases h; rfl
  rw [hcl]
  exact cluster_propagate_keys D_MAX st.clusters x i

theorem propagateLoop_keys {α : Type} [LinearOrder α] [Add α] (D_MAX : α) :
    ∀ (fuel : Nat) (st st1 : PropagateState α), propagateLoop D_MAX fuel st = some st1 →
      ∀ i, (st1.clusters.getD i none).map (fun c => (c.label, c.offset)) =
        (st.clusters.getD i none).map (fun c => (c.label, c.offset)) := by
  intro fuel
  induction fuel with
  | zero =>
    intro st st1 h i
    unfold propagateLoop at h
    split at h
    · cases h; rfl
    · cases h
  | succ fuel ih =>
    intro st st1 h i
    unfold propagateLoop at h
    split at h
    · cases h; rfl
    · split at h
      · cases h
      · rename_i x hx s1 hs1
        rw [ih s1 st1 h i, propagateStep_keys D_MAX st s1 _ _ hs1 i]

theorem propagate_tree_keys {α : Type} [LinearOrder α] [Add α] (D_MAX : α)
    (clusters : ClusterList α) (hlabel : ∀ i c, clusters.getD i none = some c → c.label = i)
    (res : ClusterList α × Bool) (h : hdbscan_propagate_tree D_MAX clusters = some res)
    (i : Nat) :
    (res.1.getD i none).map (fun c => (c.label, c.offset)) =
      (clusters.getD i none).map (fun c => (c.label, c.offset)) := by
  unfold hdbscan_propagate_tree at h
  cases hl : propagateLoop D_MAX clusters.length (propagateInit clusters) with
  | none => rw [hl] at h; cases h
  | some st1 =>
    rw [hl] at h
    cases h
    rw [propagateLoop_keys D_MAX _ _ _ hl i, (propagateInit_spec clusters hlabel).1]

/-- The result of the second loop of `hdbscan_find_prominent_clusters` when no point is
assigned two different labels: it does not depend on the order of the table. -/
theorem prominent_result {α : Type} (hierarchy : List (Nat × hierarchy_entry α))
    (numPoints : Nat) (sig sig1 : List (Nat × List Nat))
    (hmem : ∀ e, e ∈ sig1 ↔ e ∈ sig)
    (hall : ∀ e, e ∈ sig → ∃ hp, hashtable_lookup hierarchy (e.1 + 1) = some hp)
    (huniq : ∀ j M M1, j < numPoints → prominentHit hierarchy sig j M →
      prominentHit hierarchy sig j M1 → M = M1)
    (hne : ∀ j M, prominentHit hierarchy sig j M → M ≠ 0) :
    ∃ res, sig1.foldlM
        (fun clusterLabels e =>
          match hashtable_lookup hierarchy (e.1 + 1) with
          | none => none
          | some hpSecond =>
            some (assignSignificant numPoints hpSecond.labels e.2 clusterLabels))
        (List.replicate numPoints 0) = some res ∧
      res.length = numPoints ∧
      ∀ j, j < numPoints →
        (∀ M, M ≠ 0 → (res.getD j 0 = M ↔ prominentHit hierarchy sig j M)) ∧
        (res.getD j 0 = 0 ↔ ¬ ∃ M, prominentHit hierarchy sig j M) := by
  obtain ⟨res, hres, hlen, hj⟩ := prominent_foldlM hierarchy numPoints sig1
    (List.replicate numPoints 0) (by simp) (fun e he => hall e ((hmem e).mp he))
  refine ⟨res, hres, hlen, ?_⟩
  intro j hjlt
  have hzero : (List.replicate numPoints 0).getD j 0 = 0 := getD_replicate _ _ _
  have hcases : (res.getD j 0 = 0 ∧ ¬ ∃ M, prominentHit hierarchy sig j M) ∨
      prominentHit hierarchy sig j (res.getD j 0) := by
    rcases hj j hjlt with ⟨heq, hno⟩ | ⟨e, hp, he, hl, hv, hm⟩
    · left
      refine ⟨by rw [heq, hzero], ?_⟩
      rintro ⟨M, e, hp, he, hl, hv, hm⟩
      exact hno ⟨M, e, hp, (hmem e).mpr he, hl, hv, hm⟩
    · right
      exact ⟨e, hp, (hmem e).mp he, hl, hv, hm⟩
  refine ⟨fun M hM => ⟨?_, ?_⟩, ⟨?_, ?_⟩⟩
  · intro h
    rcases hcases with ⟨h0, _⟩ | hhit
    · rw [h0] at h
      exact absurd h.symm hM
    · rw [h] at hhit
      exact hhit
  · intro hhit
    rcases hcases with ⟨_, hno⟩ | hhit1
    · exact absurd ⟨M, hhit⟩ hno
    · exact huniq j _ _ hjlt hhit1 hhit
  · intro h
    rcases hcases with ⟨_, hno⟩ | hhit
    · exact hno
    · exact absurd h (hne j _ hhit)
  · intro hno
    rcases hcases with ⟨h0, _⟩ | hhit
    · exact h0
    · exact absurd ⟨_, hhit⟩ hno

theorem labels_determined (numPoints : Nat) (Hit : Nat → Nat → Prop) (l1 l2 : List Nat)
    (hlen1 : l1.length = numPoints) (hlen2 : l2.length = numPoints)
    (h1 : ∀ j, j < numPoints →
      (∀ M, M ≠ 0 → (l1.getD j 0 = M ↔ Hit j M)) ∧ (l1.getD j 0 = 0 ↔ ¬ ∃ M, Hit j M))
    (h2 : ∀ j, j < numPoints →
      (∀ M, M ≠ 0 → (l2.getD j 0 = M ↔ Hit j M)) ∧ (l2.getD j 0 = 0 ↔ ¬ ∃ M, Hit j M)) :
    l1 = l2 := by
  apply List.ext_getElem (by rw [hlen1, hlen2])
  intro j hj1 hj2
  have hj : j < numPoints := by rw [← hlen1]; exact hj1
  have e1 : l1.getD j 0 = l1[j] := List.getD_eq_getElem _ _ hj1
  have e2 : l2.getD j 0 = l2[j] := List.getD_eq_getElem _ _ hj2
  rw [← e1, ← e2]
  by_cases hz : l1.getD j 0 = 0
  · rw [hz]
    exact ((h2 j hj).2.mpr ((h1 j hj).2.mp hz)).symm
  · exact (((h2 j hj).1 _ hz).mpr (((h1 j hj).1 _ hz).mp rfl)).symm

/-- At the end of the main loop every cluster other than the root has its hierarchy entry
with the key `offset + 1`, and this entry tells the points that belong to its birth. -/
theorem final_entries {α : Type} [Zero α] (N : Nat) (fin0 : HierarchyState α)
    (hQ : LevelInv N fin0) (hzero : ∀ p, p < N → fin0.currentClusterLabels.getD p 0 = 0)
    (M : Nat) (c : cluster α) (hM : 2 ≤ M) (hc : fin0.clusters.getD M none = some c) :
    ∃ e, hashtable_lookup fin0.hierarchy (c.offset + 1) = some e ∧
      ∀ p, (Born fin0 p M ↔ e.labels.getD p 0 = M) := by
  have hle := hQ.offset_le M c hc
  have hlt : c.offset < fin0.lineCount := by
    rcases Nat.lt_or_ge c.offset fin0.lineCount with h | h
    · exact h
    · exfalso
      obtain ⟨_, p, hp, hne⟩ := hQ.pending M c hM hc (by omega)
      exact hne (hzero p hp)
  obtain ⟨e, he⟩ := lookup_some_of_mem fin0.hierarchy (c.offset + 1)
    ((key_mem_iff fin0.hierarchy fin0.lineCount _ hQ.keys).mpr ⟨by omega, by omega⟩)
  refine ⟨e, he, fun p => ?_⟩
  rw [born_iff fin0 p M c hc]
  unfold BornAt
  constructor
  · rintro (⟨e1, he1, hl⟩ | ⟨heq, _⟩)
    · rw [he] at he1
      cases he1
      exact hl
    · omega
  · intro hl
    exact Or.inl ⟨e, he, hl⟩

theorem born_comparable {α : Type} [Zero α] (N : Nat) (fin0 : HierarchyState α)
    (hQ : LevelInv N fin0) (p a b : Nat) (hp : p < N) (ha : 2 ≤ a) (hb : 2 ≤ b)
    (hba : Born fin0 p a) (hbb : Born fin0 p b) :
    a = b ∨ IsAncestor fin0.clusters a b ∨ IsAncestor fin0.clusters b a := by
  obtain ⟨l, _, _, _, hl⟩ := hQ.history p hp
  rcases hl a ha hba with h1 | h1
  · rcases hl b hb hbb with h2 | h2
    · exact Or.inl (by rw [h1, h2])
    · exact Or.inr (Or.inr (by rw [h1]; exact h2))
  · rcases hl b hb hbb with h2 | h2
    · exact Or.inr (Or.inl (by rw [h2]; exact h1))
    · exact isAncestor_chain h1 h2

/-- The function `hdbscan_find_prominent_clusters` is the loop with the body `prominentStep`
over the table of the propagated descendants of the root. -/
theorem find_prominent_clusters_eq {α : Type} (clusters : ClusterList α)
    (hierarchy : List (Nat × hierarchy_entry α)) (numPoints : Nat) (root : cluster α)
    (hroot : clusters.getD 1 none = some root) :
    hdbscan_find_prominent_clusters clusters hierarchy numPoints =
      (root.propagatedDescendants.foldl (significantInsert clusters) []).foldlM
        (prominentStep hierarchy numPoints) (List.replicate numPoints 0) := by
  unfold hdbscan_find_prominent_clusters
  rw [hroot]
  rfl

/-- The run of `hdbscan_compute_hierarchy_and_cluster_tree`, `hdbscan_propagate_tree` and
`hdbscan_find_prominent_clusters` on a graph whose vertices all have an edge. -/
theorem hierarchy_prominent {α : Type} [LinearOrderedField α] (D_MAX NAN : α)
    (minPoints : Nat) (mst : graph α) (compactHierarchy : Bool) (pointNoiseLevels : List α)
    (pointLastClusters : List Nat)
    (hgraph : GraphOk mst.numVertices mst.verticesA mst.verticesB mst.edgeWeights.length
      mst.edges)
    (hinc : ∀ v, v < mst.numVertices → ∃ i, i < mst.edgeWeights.length ∧
      (mst.verticesA.getD i 0 = v ∨ mst.verticesB.getD i 0 = v)) :
    ∃ fin0 fin res root labels,
      hdbscan_compute_hierarchy_and_cluster_tree D_MAX NAN minPoints mst compactHierarchy
        pointNoiseLevels pointLastClusters = some fin ∧
      fin.clusters = fin0.clusters ∧
      LevelInv mst.numVertices fin0 ∧
      (∀ M c, 2 ≤ M → fin.clusters.getD M none = some c →
        ∃ e, hashtable_lookup fin.hierarchy (c.offset + 1) = some e ∧
          ∀ p, (Born fin0 p M ↔ e.labels.getD p 0 = M)) ∧
      (∀ p M, 2 ≤ M → (birthMember fin.clusters fin.hierarchy p M ↔ Born fin0 p M)) ∧
      (∀ k st st1,
        hierarchyIter D_MAX minPoints compactHierarchy k
          (hierarchyInit D_MAX NAN mst pointNoiseLevels pointLastClusters) = some st →
        st.edgeCount ≠ 0 →
        hierarchyStep D_MAX minPoints compactHierarchy st = some st1 →
        2 ≤ st.clusters.length ∧ LevelInv mst.numVertices st1 ∧ LevelStep st st1 ∧
          LevelLater st1 fin0) ∧
      hdbscan_propagate_tree D_MAX fin.clusters = some res ∧
      res.1.getD 1 none = some root ∧
      root.propagatedDescendants.Nodup ∧
      (∀ d, d ∈ root.propagatedDescendants → 2 ≤ d) ∧
      (∀ a, a ∈ root.propagatedDescendants → ∀ b, b ∈ root.propagatedDescendants →
        ¬ IsAncestor fin.clusters a b) ∧
      (∀ p a b, p < mst.numVertices → a ∈ root.propagatedDescendants →
        b ∈ root.propagatedDescendants → birthMember fin.clusters fin.hierarchy p a →
        birthMember fin.clusters fin.hierarchy p b → a = b) ∧
      hdbscan_find_prominent_clusters res.1 fin.hierarchy mst.numVertices = some labels ∧
      labels.length = mst.numVertices ∧
      (∀ p, p < mst.numVertices →
        (∀ M, M ≠ 0 → (labels.getD p 0 = M ↔
          (M ∈ root.propagatedDescendants ∧ birthMember fin.clusters fin.hierarchy p M))) ∧
        (labels.getD p 0 = 0 ↔
          ∀ M, M ∈ root.propagatedDescendants →
            ¬ birthMember fin.clusters fin.hierarchy p M)) ∧
      (∀ sig1 : List (Nat × List Nat),
        sig1.Perm (root.propagatedDescendants.foldl (significantInsert res.1) []) →
        sig1.foldlM (prominentStep fin.hierarchy mst.numVertices)
          (List.replicate mst.numVertices 0) = some labels) := by
  obtain ⟨fin0, hloop, hinv, hQ, hzero, hiter⟩ := hierarchy_levels D_MAX NAN minPoints mst
    compactHierarchy pointNoiseLevels pointLastClusters hgraph hinc
  -- the result of the construction
  have hcomp : hdbscan_compute_hierarchy_and_cluster_tree D_MAX NAN minPoints mst
      compactHierarchy pointNoiseLevels pointLastClusters =
      some { fin0 with
        hierarchy := fin0.hierarchy ++
          [(0, { edgeWeight := 0, labels := List.replicate mst.numVertices 0 })]
        lineCount := fin0.lineCount + 1 } := by
    unfold hdbscan_compute_hierarchy_and_cluster_tree
    rw [hloop]
    rfl
  generalize hfin : ({ fin0 with
      hierarchy := fin0.hierarchy ++
        [(0, { edgeWeight := 0, labels := List.replicate mst.numVertices 0 })]
      lineCount := fin0.lineCount + 1 } : HierarchyState α) = fin at hcomp
  have hfcl : fin.clusters = fin0.clusters := by rw [← hfin]
  have hfh : fin.hierarchy = fin0.hierarchy ++
      [(0, { edgeWeight := 0, labels := List.replicate mst.numVertices 0 })] := by rw [← hfin]
  have hlookup : ∀ k, hashtable_lookup fin.hierarchy (k + 1) =
      hashtable_lookup fin0.hierarchy (k + 1) := by
    intro k
    rw [hfh]
    exact lookup_append_ne _ _ _ _ (by omega)
  have hentries : ∀ M c, 2 ≤ M → fin.clusters.getD M none = some c →
      ∃ e, hashtable_lookup fin.hierarchy (c.offset + 1) = some e ∧
        ∀ p, (Born fin0 p M ↔ e.labels.getD p 0 = M) := by
    intro M c hM hc
    rw [hfcl] at hc
    rw [hlookup]
    exact final_entries mst.numVertices fin0 hQ hzero M c hM hc
  have hbirth : ∀ p M, 2 ≤ M →
      (birthMember fin.clusters fin.hierarchy p M ↔ Born fin0 p M) := by
    intro p M hM
    constructor
    · rintro ⟨c, e, hc, he, hl⟩
      obtain ⟨e1, he1, hiff⟩ := hentries M c hM hc
      rw [he] at he1
      cases he1
      exact (hiff p).mpr hl
    · rintro ⟨c, hc, hb⟩
      have hc' : fin.clusters.getD M none = some c := by rw [hfcl]; exact hc
      obtain ⟨e1, he1, hiff⟩ := hentries M c hM hc'
      exact ⟨c, e1, hc', he1, (hiff p).mp ⟨c, hc, hb⟩⟩
  -- the propagation
  have htree : ClusterTree fin.clusters := by rw [hfcl]; exact hQ.tree
  have hfresh : FreshPropagation fin.clusters := by
    rw [hfcl]
    exact hQ.fresh
  obtain ⟨pst, D, hprop, hpinv, _⟩ := propagate_tree_final D_MAX fin.clusters htree hfresh
  obtain ⟨r0, hr0, _⟩ := htree.root
  obtain ⟨root, hroot, _⟩ := hpinv.frame_some 1 r0 hr0
  have hdesc2 : ∀ d, d ∈ root.propagatedDescendants → 2 ≤ d := by
    intro d hd
    obtain ⟨j, _, hpj, hdj⟩ := hpinv.desc_sub 1 root hroot d hd
    have hj := parentAt_lt htree hpj
    rcases hdj with rfl | hdj
    · omega
    · have := isAncestor_lt htree hdj
      omega
  have hanti := hpinv.desc_anti 1 root hroot
  have hkeys := propagate_tree_keys D_MAX fin.clusters htree.label _ hprop
  have hres_of_fin : ∀ d c, fin.clusters.getD d none = some c →
      ∃ cl, pst.clusters.getD d none = some cl ∧ cl.label = c.label ∧ cl.offset = c.offset := by
    intro d c hc
    have := hkeys d
    rw [hc] at this
    cases hcl : pst.clusters.getD d none with
    | none =>
      have h' : (pst.clusters, pst.infiniteStability).1.getD d none = none := hcl
      rw [h'] at this
      cases this
    | some cl =>
      have h' : (pst.clusters, pst.infiniteStability).1.getD d none = some cl := hcl
      rw [h'] at this
      simp only [Option.map_some', Option.some.injEq, Prod.mk.injEq] at this
      exact ⟨cl, rfl, this.1, this.2⟩
  have hfin_of_res : ∀ d cl, pst.clusters.getD d none = some cl →
      ∃ c, fin.clusters.getD d none = some c ∧ cl.label = c.label ∧ cl.offset = c.offset := by
    intro d cl hcl
    have := hkeys d
    have h' : (pst.clusters, pst.infiniteStability).1.getD d none = some cl := hcl
    rw [h'] at this
    cases hc : fin.clusters.getD d none with
    | none =>
      rw [hc] at this
      cases this
    | some c =>
      rw [hc] at this
      simp only [Option.map_some', Option.some.injEq, Prod.mk.injEq] at this
      exact ⟨c, rfl, this.1, this.2⟩
  -- the table of the selected clusters
  obtain ⟨hsig1, hsig2⟩ := significantInsert_foldl pst.clusters root.propagatedDescendants []
  have hhit : ∀ p M,
      prominentHit fin.hierarchy
          (root.propagatedDescendants.foldl (significantInsert pst.clusters) []) p M ↔
        (M ∈ root.propagatedDescendants ∧ birthMember fin.clusters fin.hierarchy p M) := by
    intro p M
    constructor
    · rintro ⟨e, hp, he, hl, hv, hm⟩
      rcases (hsig1 e.1 M).mp ⟨e, he, rfl, hm⟩ with ⟨e0, he0, _⟩ | ⟨d, hd, cl, hcl, hoff, hlab⟩
      · cases he0
      · obtain ⟨c, hc, hl1, ho1⟩ := hfin_of_res d cl hcl
        have hdM : d = M := by
          rw [← hlab, hl1]
          exact (htree.label d c hc).symm
        rw [hdM] at hd hc
        exact ⟨hd, c, hp, hc, by rw [← ho1, hoff]; exact hl, hv⟩
    · rintro ⟨hd, c, e0, hc, he0, hl0⟩
      obtain ⟨cl, hcl, hl1, ho1⟩ := hres_of_fin M c hc
      obtain ⟨e, he, hk, hm⟩ := (hsig1 c.offset M).mpr
        (Or.inr ⟨M, hd, cl, hcl, ho1, by rw [hl1]; exact htree.label M c hc⟩)
      exact ⟨e, e0, he, by rw [hk]; exact he0, hl0, hm⟩
  have hall : ∀ e, e ∈ root.propagatedDescendants.foldl (significantInsert pst.clusters) [] →
      ∃ hp, hashtable_lookup fin.hierarchy (e.1 + 1) = some hp := by
    intro e he
    rcases hsig2 e he with ⟨e0, he0, _⟩ | ⟨d, hd, cl, hcl, hoff⟩
    · cases he0
    · obtain ⟨c, hc, _, ho1⟩ := hfin_of_res d cl hcl
      obtain ⟨e1, he1, _⟩ := hentries d c (hdesc2 d hd) hc
      exact ⟨e1, by rw [← hoff, ho1]; exact he1⟩
  have huniq0 : ∀ p a b, p < mst.numVertices → a ∈ root.propagatedDescendants →
      b ∈ root.propagatedDescendants → birthMember fin.clusters fin.hierarchy p a →
      birthMember fin.clusters fin.hierarchy p b → a = b := by
    intro p a b hp ha hb hba hbb
    have h1 := (hbirth p a (hdesc2 a ha)).mp hba
    have h2 := (hbirth p b (hdesc2 b hb)).mp hbb
    rcases born_comparable mst.numVertices fin0 hQ p a b hp (hdesc2 a ha) (hdesc2 b hb) h1 h2
      with h | h | h
    · exact h
    · rw [← hfcl] at h
      exact absurd h (hanti a ha b hb)
    · rw [← hfcl] at h
      exact absurd h (hanti b hb a ha)
  have huniq : ∀ j M M1, j < mst.numVertices →
      prominentHit fin.hierarchy
        (root.propagatedDescendants.foldl (significantInsert pst.clusters) []) j M →
      prominentHit fin.hierarchy
        (root.propagatedDescendants.foldl (significantInsert pst.clusters) []) j M1 →
      M = M1 := by
    intro j M M1 hj h1 h2
    obtain ⟨ha, hba⟩ := (hhit j M).mp h1
    obtain ⟨hb, hbb⟩ := (hhit j M1).mp h2
    exact huniq0 j M M1 hj ha hb hba hbb
  have hne : ∀ j M,
      prominentHit fin.hierarchy
        (root.propagatedDescendants.foldl (significantInsert pst.clusters) []) j M → M ≠ 0 := by
    intro j M h
    have := hdesc2 M ((hhit j M).mp h).1
    omega
  obtain ⟨labels, hlabels, hlen, hchar⟩ := prominent_result fin.hierarchy mst.numVertices
    (root.propagatedDescendants.foldl (significantInsert pst.clusters) [])
    (root.propagatedDescendants.foldl (significantInsert pst.clusters) [])
    (fun _ => Iff.rfl) hall huniq hne
  refine ⟨fin0, fin, (pst.clusters, pst.infiniteStability), root, labels, hcomp, hfcl, hQ,
    hentries, hbirth, ?_, hprop, hroot, hpinv.desc_nodup 1 root hroot, hdesc2, hanti, huniq0,
    ?_, hlen, ?_, ?_⟩
  · intro k st st1 hk hne1 hs
    obtain ⟨h1, _, h3, h4, h5⟩ := hiter k st st1 hk hne1 hs
    exact ⟨by rw [h1.core.clusters.len]; exact h1.core.clusters.two_le, h3, h4, h5⟩
  · unfold hdbscan_find_prominent_clusters
    have h' : (pst.clusters, pst.infiniteStability).1.getD 1 none = some root := hroot
    rw [h']
    exact hlabels
  · intro p hp
    obtain ⟨h1, h2⟩ := hchar p hp
    refine ⟨fun M hM => (h1 M hM).trans (hhit p M), ?_⟩
    rw [h2]
    constructor
    · intro hno M hM hb
      exact hno ⟨M, (hhit p M).mpr ⟨hM, hb⟩⟩
    · rintro hno ⟨M, hh⟩
      exact hno M ((hhit p M).mp hh).1 ((hhit p M).mp hh).2
  · intro sig1 hperm
    obtain ⟨res1, hres1, hlen1, hchar1⟩ := prominent_result fin.hierarchy mst.numVertices
      (root.propagatedDescendants.foldl (significantInsert pst.clusters) []) sig1
      (fun e => hperm.mem_iff) hall huniq hne
    have hres2 : sig1.foldlM (prominentStep fin.hierarchy mst.numVertices)
        (List.replicate mst.numVertices 0) = some res1 := hres1
    rw [hres2]
    congr 1
    exact labels_determined mst.numVertices _ res1 labels hlen1 hlen hchar1 hchar

/-! ### The offsets of the clusters and the flat partition -/

theorem hierarchyIter_succ_back {α : Type} [LinearOrderedField α] (D_MAX : α)
    (minPoints : Nat) (compactHierarchy : Bool) :
    ∀ (k : Nat) (st0 st1 : HierarchyState α),
      hierarchyIter D_MAX minPoints compactHierarchy (k + 1) st0 = some st1 →
      ∃ st, hierarchyIter D_MAX minPoints compactHierarchy k st0 = some st ∧
        ((st.edgeCount = 0 ∧ st1 = st) ∨
          (st.edgeCount ≠ 0 ∧ hierarchyStep D_MAX minPoints compactHierarchy st = some st1)) := by
  intro k
  induction k with
  | zero =>
    intro st0 st1 h
    rw [hierarchyIter_succ] at h
    refine ⟨st0, rfl, ?_⟩
    by_cases h0 : st0.edgeCount = 0
    · rw [if_pos h0] at h
      cases h
      exact Or.inl ⟨h0, rfl⟩
    · rw [if_neg h0] at h
      cases hs : hierarchyStep D_MAX minPoints compactHierarchy st0 with
      | none => rw [hs] at h; cases h
      | some s1 =>
        rw [hs] at h
        cases h
        exact Or.inr ⟨h0, rfl⟩
  | succ k ih =>
    intro st0 st1 h
    rw [hierarchyIter_succ] at h
    by_cases h0 : st0.edgeCount = 0
    · rw [if_pos h0] at h
      cases h
      exact ⟨st0, hierarchyIter_done D_MAX minPoints compactHierarchy _ _ h0, Or.inl ⟨h0, rfl⟩⟩
    · rw [if_neg h0] at h
      cases hs : hierarchyStep D_MAX minPoints compactHierarchy st0 with
      | none => rw [hs] at h; cases h
      | some s1 =>
        rw [hs] at h
        obtain ⟨st, hst, hcase⟩ := ih s1 st1 h
        refine ⟨st, ?_, hcase⟩
        rw [hierarchyIter_succ, if_neg h0, hs]
        exact hst

/-- Every cluster that the cluster list holds after `k` iterations of the main loop, beyond
those of the state `st0` at the start, has been appended in one of the iterations. -/
theorem cluster_created {α : Type} [LinearOrderedField α] (D_MAX : α)
    (minPoints : Nat) (compactHierarchy : Bool) (st0 : HierarchyState α) :
    ∀ (k : Nat) (stk : HierarchyState α),
      hierarchyIter D_MAX minPoints compactHierarchy k st0 = some stk →
      ∀ M, st0.clusters.length ≤ M → M < stk.clusters.length →
        ∃ j st st1, hierarchyIter D_MAX minPoints compactHierarchy j st0 = some st ∧
          st.edgeCount ≠ 0 ∧ hierarchyStep D_MAX minPoints compactHierarchy st = some st1 ∧
          st.clusters.length ≤ M ∧ M < st1.clusters.length := by
  intro k
  induction k with
  | zero =>
    intro stk h M h1 h2
    cases h
    omega
  | succ k ih =>
    intro stk h M h1 h2
    obtain ⟨st, hst, hcase⟩ := hierarchyIter_succ_back D_MAX minPoints compactHierarchy k st0 stk h
    rcases hcase with ⟨_, rfl⟩ | ⟨hne, hs⟩
    · exact ih _ hst M h1 h2
    · rcases Nat.lt_or_ge M st.clusters.length with hlt | hge
      · exact ih st hst M h1 hlt
      · exact ⟨k, st, stk, hst, hne, hs, hge, h2⟩

/-- C33: on a graph whose vertices all have an edge,
`hdbscan_compute_hierarchy_and_cluster_tree` returns, every cluster of its cluster list
other than the root is appended by an iteration of the main loop, and for every cluster `M`
that an iteration creates (from the state `st` to the state `st1`): the iteration
has appended the hierarchy entry with the key `K = st1.lineCount` and the labels of `st`,
the offset of the cluster is `K`, the hierarchy has an entry with the key `K + 1`, and this
entry gives a point the label `M` exactly when the point carries the label `M` after the
iteration. After `hdbscan_propagate_tree`, `hdbscan_find_prominent_clusters` returns, and it
gives the point `p` the label `M ≠ 0` exactly when `M` is a propagated descendant of the
root and the entry with the key `offset + 1` of `M` gives `p` the label `M`, and the label 0
exactly when this holds for no propagated descendant of the root. -/
theorem cluster_offset_entry {α : Type} [LinearOrderedField α] (D_MAX NAN : α)
    (minPoints : Nat) (mst : graph α) (compactHierarchy : Bool) (pointNoiseLevels : List α)
    (pointLastClusters : List Nat)
    (hgraph : GraphOk mst.numVertices mst.verticesA mst.verticesB mst.edgeWeights.length
      mst.edges)
    (hinc : ∀ v, v < mst.numVertices → ∃ i, i < mst.edgeWeights.length ∧
      (mst.verticesA.getD i 0 = v ∨ mst.verticesB.getD i 0 = v)) :
    ∃ fin res root labels,
      hdbscan_compute_hierarchy_and_cluster_tree D_MAX NAN minPoints mst compactHierarchy
        pointNoiseLevels pointLastClusters = some fin ∧
      (∀ M, 2 ≤ M → M < fin.clusters.length →
        ∃ k st st1,
          hierarchyIter D_MAX minPoints compactHierarchy k
            (hierarchyInit D_MAX NAN mst pointNoiseLevels pointLastClusters) = some st ∧
          st.edgeCount ≠ 0 ∧ hierarchyStep D_MAX minPoints compactHierarchy st = some st1 ∧
          st.clusters.length ≤ M ∧ M < st1.clusters.length) ∧
      (∀ k st st1 M,
        hierarchyIter D_MAX minPoints compactHierarchy k
          (hierarchyInit D_MAX NAN mst pointNoiseLevels pointLastClusters) = some st →
        st.edgeCount ≠ 0 →
        hierarchyStep D_MAX minPoints compactHierarchy st = some st1 →
        st.clusters.length ≤ M → M < st1.clusters.length →
        ∃ c e W, fin.clusters.getD M none = some c ∧ c.label = M ∧
          c.offset = st1.lineCount ∧
          st1.hierarchy = st.hierarchy ++
            [(st1.lineCount, { edgeWeight := W, labels := st.currentClusterLabels })] ∧
          hashtable_lookup fin.hierarchy (c.offset + 1) = some e ∧
          ∀ p, p < mst.numVertices →
            (e.labels.getD p 0 = M ↔ st1.currentClusterLabels.getD p 0 = M)) ∧
      hdbscan_propagate_tree D_MAX fin.clusters = some res ∧
      res.1.getD 1 none = some root ∧
      hdbscan_find_prominent_clusters res.1 fin.hierarchy mst.numVertices = some labels ∧
      ∀ p, p < mst.numVertices →
        (∀ M, M ≠ 0 → (labels.getD p 0 = M ↔
          (M ∈ root.propagatedDescendants ∧ birthMember fin.clusters fin.hierarchy p M))) ∧
        (labels.getD p 0 = 0 ↔
          ∀ M, M ∈ root.propagatedDescendants →
            ¬ birthMember fin.clusters fin.hierarchy p M) := by
  obtain ⟨fin0, fin, res, root, labels, hcomp, hfcl, hQ, hentries, _, hiter, hprop, hroot, _, _,
    _, _, hlabels, _, hchar, _⟩ := hierarchy_prominent D_MAX NAN minPoints mst compactHierarchy
      pointNoiseLevels pointLastClusters hgraph hinc
  refine ⟨fin, res, root, labels, hcomp, ?_, ?_, hprop, hroot, hlabels, hchar⟩
  · intro M hM hMlt
    have hcomp1 := hcomp
    unfold hdbscan_compute_hierarchy_and_cluster_tree at hcomp1
    cases hl : hierarchyLoop D_MAX minPoints compactHierarchy mst.edgeWeights.length
        (hierarchyInit D_MAX NAN mst pointNoiseLevels pointLastClusters) with
    | none => rw [hl] at hcomp1; cases hcomp1
    | some x =>
      rw [hl] at hcomp1
      simp only [Option.map_some', Option.some.injEq] at hcomp1
      have hxcl : fin.clusters = x.clusters := by rw [← hcomp1]
      have hadd := hierarchyLoop_add D_MAX minPoints compactHierarchy 0 mst.edgeWeights.length
        (hierarchyInit D_MAX NAN mst pointNoiseLevels pointLastClusters)
      rw [Nat.add_zero, hl] at hadd
      cases hit : hierarchyIter D_MAX minPoints compactHierarchy mst.edgeWeights.length
          (hierarchyInit D_MAX NAN mst pointNoiseLevels pointLastClusters) with
      | none => rw [hit] at hadd; cases hadd
      | some y =>
        rw [hit] at hadd
        have hy : hierarchyLoop D_MAX minPoints compactHierarchy 0 y = some x := hadd.symm
        unfold hierarchyLoop at hy
        split at hy
        · cases hy
          rw [hxcl] at hMlt
          exact cluster_created D_MAX minPoints compactHierarchy _ _ _ hit M hM hMlt
        · cases hy
  intro k st st1 M hk hne hs h1 h2
  obtain ⟨hlen2, hQ1, hS, hL⟩ := hiter k st st1 hk hne hs
  obtain ⟨c1, W, hc1, ho1, hh1⟩ := hS.created M h1 h2
  obtain ⟨cf, hcf, hof⟩ := hL.offset M c1 hc1
  have hcf' : fin.clusters.getD M none = some cf := by rw [hfcl]; exact hcf
  have hM : 2 ≤ M := by omega
  obtain ⟨e, he, hborn⟩ := hentries M cf hM hcf'
  refine ⟨cf, e, W, hcf', hQ.tree.label M cf hcf, by rw [hof, ho1], hh1, he, ?_⟩
  intro p _
  rw [← hborn p, ← hL.born p M hM h2, born_iff st1 p M c1 hc1, ho1]
  unfold BornAt
  have hnone : hashtable_lookup st1.hierarchy (st1.lineCount + 1) = none := by
    apply lookup_none_of_not_mem
    rw [key_mem_iff st1.hierarchy st1.lineCount _ hQ1.keys]
    omega
  constructor
  · rintro (⟨e1, he1, _⟩ | ⟨_, hcur⟩)
    · rw [hnone] at he1
      cases he1
    · exact hcur
  · intro hcur
    exact Or.inr ⟨rfl, hcur⟩

/-- Witness of C33: the graph `twoGroupsMst` with `mpts = 2`. -/
theorem cluster_offset_entry_witness :
    ∃ fin res root labels,
      hdbscan_compute_hierarchy_and_cluster_tree (1000 : ℚ) 0 2 twoGroupsMst false
        [0, 0, 0, 0, 0, 0] [0, 0, 0, 0, 0, 0] = some fin ∧
      (∀ M, 2 ≤ M → M < fin.clusters.length →
        ∃ k st st1,
          hierarchyIter (1000 : ℚ) 2 false k
            (hierarchyInit 1000 0 twoGroupsMst [0, 0, 0, 0, 0, 0] [0, 0, 0, 0, 0, 0]) =
              some st ∧
          st.edgeCount ≠ 0 ∧ hierarchyStep (1000 : ℚ) 2 false st = some st1 ∧
          st.clusters.length ≤ M ∧ M < st1.clusters.length) ∧
      (∀ k st st1 M,
        hierarchyIter (1000 : ℚ) 2 false k
          (hierarchyInit 1000 0 twoGroupsMst [0, 0, 0, 0, 0, 0] [0, 0, 0, 0, 0, 0]) = some st →
        st.edgeCount ≠ 0 →
        hierarchyStep (1000 : ℚ) 2 false st = some st1 →
        st.clusters.length ≤ M → M < st1.clusters.length →
        ∃ c e W, fin.clusters.getD M none = some c ∧ c.label = M ∧
          c.offset = st1.lineCount ∧
          st1.hierarchy = st.hierarchy ++
            [(st1.lineCount, { edgeWeight := W, labels := st.currentClusterLabels })] ∧
          hashtable_lookup fin.hierarchy (c.offset + 1) = some e ∧
          ∀ p, p < twoGroupsMst.numVertices →
            (e.labels.getD p 0 = M ↔ st1.currentClusterLabels.getD p 0 = M)) ∧
      hdbscan_propagate_tree (1000 : ℚ) fin.clusters = some res ∧
      res.1.getD 1 none = some root ∧
      hdbscan_find_prominent_clusters res.1 fin.hierarchy twoGroupsMst.numVertices =
        some labels ∧
      ∀ p, p < twoGroupsMst.numVertices →
        (∀ M, M ≠ 0 → (labels.getD p 0 = M ↔
          (M ∈ root.propagatedDescendants ∧ birthMember fin.clusters fin.hierarchy p M))) ∧
        (labels.getD p 0 = 0 ↔
          ∀ M, M ∈ root.propagatedDescendants →
            ¬ birthMember fin.clusters fin.hierarchy p M) :=
  cluster_offset_entry 1000 0 2 twoGroupsMst false [0, 0, 0, 0, 0, 0] [0, 0, 0, 0, 0, 0]
    (graph_init_ok 6 _ _ _ (by decide)) (by decide)

/-- C40: on every well-formed cluster tree without constraints `hdbscan_propagate_tree`
returns, and afterwards no cluster occurs twice among the propagated descendants of the root
and none of them is an ancestor of another. On a graph whose vertices all have an edge, the
hierarchy construction, the propagation and `hdbscan_find_prominent_clusters` return; for
every point at most one propagated descendant of the root has a hierarchy entry (with the
key `offset + 1`) that gives the point its label; and the second loop of
`hdbscan_find_prominent_clusters` (with the body `prominentStep`) gives the same labels in
whatever order it visits the keys of the table `significant`. -/
theorem prominent_clusters_unique {α : Type} [LinearOrderedField α] (D_MAX NAN : α)
    (minPoints : Nat) (mst : graph α) (compactHierarchy : Bool) (pointNoiseLevels : List α)
    (pointLastClusters : List Nat)
    (hgraph : GraphOk mst.numVertices mst.verticesA mst.verticesB mst.edgeWeights.length
      mst.edges)
    (hinc : ∀ v, v < mst.numVertices → ∃ i, i < mst.edgeWeights.length ∧
      (mst.verticesA.getD i 0 = v ∨ mst.verticesB.getD i 0 = v)) :
    (∀ clusters : ClusterList α, ClusterTree clusters → FreshPropagation clusters →
      ∃ res root, hdbscan_propagate_tree D_MAX clusters = some res ∧
        res.1.getD 1 none = some root ∧ root.propagatedDescendants.Nodup ∧
        ∀ a, a ∈ root.propagatedDescendants → ∀ b, b ∈ root.propagatedDescendants →
          ¬ IsAncestor clusters a b) ∧
    ∃ fin res root labels,
      hdbscan_compute_hierarchy_and_cluster_tree D_MAX NAN minPoints mst compactHierarchy
        pointNoiseLevels pointLastClusters = some fin ∧
      hdbscan_propagate_tree D_MAX fin.clusters = some res ∧
      res.1.getD 1 none = some root ∧
      hdbscan_find_prominent_clusters res.1 fin.hierarchy mst.numVertices = some labels ∧
      (∀ p a b, p < mst.numVertices → a ∈ root.propagatedDescendants →
        b ∈ root.propagatedDescendants → birthMember fin.clusters fin.hierarchy p a →
        birthMember fin.clusters fin.hierarchy p b → a = b) ∧
      (∀ sig1 : List (Nat × List Nat),
        sig1.Perm (root.propagatedDescendants.foldl (significantInsert res.1) []) →
        sig1.foldlM (prominentStep fin.hierarchy mst.numVertices)
          (List.replicate mst.numVertices 0) = some labels) := by
  constructor
  · intro clusters hwf hfresh
    obtain ⟨st, D, hres, hinv, _⟩ := propagate_tree_final D_MAX clusters hwf hfresh
    obtain ⟨r0, hr0, _⟩ := hwf.root
    obtain ⟨root, hroot, _⟩ := hinv.frame_some 1 r0 hr0
    exact ⟨_, root, hres, hroot, hinv.desc_nodup 1 root hroot, hinv.desc_anti 1 root hroot⟩
  · obtain ⟨_, fin, res, root, labels, hcomp, _, _, _, _, _, hprop, hroot, _, _, _, huniq,
      hlabels, _, _, hperm⟩ := hierarchy_prominent D_MAX NAN minPoints mst compactHierarchy
        pointNoiseLevels pointLastClusters hgraph hinc
    exact ⟨fin, res, root, labels, hcomp, hprop, hroot, hlabels, huniq, hperm⟩

/-- Witness of C40: the graph `twoGroupsMst` with `mpts = 2`. -/
theorem prominent_clusters_unique_witness :
    (∀ clusters : ClusterList ℚ, ClusterTree clusters → FreshPropagation clusters →
      ∃ res root, hdbscan_propagate_tree 1000 clusters = some res ∧
        res.1.getD 1 none = some root ∧ root.propagatedDescendants.Nodup ∧
        ∀ a, a ∈ root.propagatedDescendants → ∀ b, b ∈ root.propagatedDescendants →
          ¬ IsAncestor clusters a b) ∧
    ∃ fin res root labels,
      hdbscan_compute_hierarchy_and_cluster_tree (1000 : ℚ) 0 2 twoGroupsMst false
        [0, 0, 0, 0, 0, 0] [0, 0, 0, 0, 0, 0] = some fin ∧
      hdbscan_propagate_tree 1000 fin.clusters = some res ∧
      res.1.getD 1 none = some root ∧
      hdbscan_find_prominent_clusters res.1 fin.hierarchy twoGroupsMst.numVertices =
        some labels ∧
      (∀ p a b, p < twoGroupsMst.numVertices → a ∈ root.propagatedDescendants →
        b ∈ root.propagatedDescendants → birthMember fin.clusters fin.hierarchy p a →
        birthMember fin.clusters fin.hierarchy p b → a = b) ∧
      (∀ sig1 : List (Nat × List Nat),
        sig1.Perm (root.propagatedDescendants.foldl (significantInsert res.1) []) →
        sig1.foldlM (prominentStep fin.hierarchy twoGroupsMst.numVertices)
          (List.replicate twoGroupsMst.numVertices 0) = some labels) :=
  prominent_clusters_unique 1000 0 2 twoGroupsMst false [0, 0, 0, 0, 0, 0]
    [0, 0, 0, 0, 0, 0] (graph_init_ok 6 _ _ _ (by decide)) (by decide)

/-! ### Sort keys that are not comparable with the pivot -/

/-- When neither `a` nor `b` is `<=` the pivot `x` or `>` the pivot, the loop of `partition`
on the window of the entries `a`, `b` never ends: both scans stop at once, the indices differ,
the entries are exchanged, and the next pass finds the same situation. -/
theorem partitionLoop_unordered {α : Type} [LE α] [LT α]
    [DecidableRel (LE.le : α → α → Prop)] [DecidableRel (LT.lt : α → α → Prop)] [Zero α]
    (x y : α) :
    ∀ (fuel : Nat) (c_data : List Nat) (a b : α), ¬ a ≤ x → ¬ a > x → ¬ b ≤ x → ¬ b > x →
      partitionLoop x fuel c_data [y, a, b] 1 2 = none := by
  intro fuel
  induction fuel with
  | zero => intro c a b _ _ _ _; rfl
  | succ n ih =>
    intro c a b ha1 ha2 hb1 hb2
    have hup : scanUp [y, a, b] x 2 (2 - 1) 1 = some 1 := by
      show (if 1 < 2 ∧ a ≤ x then scanUp [y, a, b] x 2 0 (1 + 1) else some 1) = some 1
      rw [if_neg (fun h => ha1 h.2)]
    have hdown : scanDown [y, a, b] x 1 (2 - 1) 2 = some 2 := by
      show (if 1 < 2 ∧ b > x then scanDown [y, a, b] x 1 0 (2 - 1) else some 2) = some 2
      rw [if_neg (fun h => hb2 h.2)]
    unfold partitionLoop
    rw [if_pos (by decide), hup]
    simp only []
    rw [hdown]
    simp only []
    rw [if_neg (by decide)]
    exact ih _ b a hb1 hb2 ha1 ha2

/-- With entries that are not comparable with the first one, `hdbscan_quicksort` on three
entries has no result, however deep its recursion may go. -/
theorem quicksort_unordered {α : Type} [LE α] [LT α]
    [DecidableRel (LE.le : α → α → Prop)] [DecidableRel (LT.lt : α → α → Prop)] [Zero α]
    (x a b : α) (ha1 : ¬ a ≤ x) (ha2 : ¬ a > x) (hb1 : ¬ b ≤ x) (hb2 : ¬ b > x)
    (clusters : List Nat) (fuel : Nat) :
    hdbscan_quicksort fuel clusters [x, a, b] 0 2 = none := by
  cases fuel with
  | zero => rfl
  | succ n =>
    have hp : partition clusters [x, a, b] 0 2 = none := by
      unfold partition
      simp only []
      have h := partitionLoop_unordered x x (2 * (2 - 0)) clusters a b ha1 ha2 hb1 hb2
      have hx : [x, a, b].getD 0 0 = x := rfl
      rw [hx, h]
    unfold hdbscan_quicksort
    rw [if_pos (by decide), hp]

/-- C19 (failing input): for the sort keys `NaN, 1, 2` (the confidences of the table
`nanTable`) and the pivot NaN both scans of `partition` stop at once with `up = 1` and
`down = 2`, the loop has no result after any number of passes, `hdbscan_quicksort` has none
whatever the bound on its recursion, and `hdbscan_sort_by_similarity` has none. -/
theorem quicksort_nan_pivot_no_result :
    gatherSortData (clusterConfidence 0 nanTable 0) [0, 1, 2] =
      some [double.nan, double.num 1, double.num 2] ∧
    scanUp [(double.nan : double ℚ), double.num 1, double.num 2] double.nan 2 (2 - 1) 1 =
      some 1 ∧
    scanDown [(double.nan : double ℚ), double.num 1, double.num 2] double.nan 1 (2 - 1) 2 =
      some 2 ∧
    (∀ fuel, partitionLoop (double.nan : double ℚ) fuel [0, 1, 2]
      [double.nan, double.num 1, double.num 2] 1 2 = none) ∧
    (∀ fuel, hdbscan_quicksort fuel [0, 1, 2]
      [(double.nan : double ℚ), double.num 1, double.num 2] 0 2 = none) ∧
    hdbscan_sort_by_similarity 0 nanTable none 0 = none := by
  have hq : ∀ fuel, hdbscan_quicksort fuel [0, 1, 2]
      [(double.nan : double ℚ), double.num 1, double.num 2] 0 2 = none :=
    fun fuel => quicksort_unordered double.nan (double.num 1) (double.num 2)
      (fun h => h) (fun h => h) (fun h => h) (fun h => h) [0, 1, 2] fuel
  refine ⟨rfl, rfl, rfl, ?_, hq, ?_⟩
  · intro fuel
    exact partitionLoop_unordered double.nan double.nan fuel [0, 1, 2] (double.num 1)
      (double.num 2) (fun h => h) (fun h => h) (fun h => h) (fun h => h)
  · have hg : gatherSortData (clusterConfidence 0 nanTable 0) [0, 1, 2] =
        some [double.nan, double.num 1, double.num 2] := rfl
    have hk : (if ((none : Option (List Nat)).getD []).length = 0 then
        nanTable.map (fun e => e.1) else (none : Option (List Nat)).getD []) = [0, 1, 2] := rfl
    unfold hdbscan_sort_by_similarity
    simp only []
    rw [hk, hg]
    simp only []
    have hq3 := hq [0, 1, 2].length
    have h2 : [0, 1, 2].length - 1 = 2 := rfl
    rw [h2, hq3]
    rfl

/-- C37 (failing input): for the arrays `clusters = 5, 6, 7` and `sortData = 1, NaN, NaN`
the loop of `partition` exchanges the entries 1 and 2 of both arrays for ever: it has no
result after any number of passes, and `hdbscan_quicksort` has no result whatever the bound
on its recursion, so the call does not get to a state in which a permutation has been
applied. On the two entries `NaN, 1` the call does return, with the pairs exchanged. -/
theorem quicksort_nan_entries_no_result :
    (∀ fuel, partitionLoop (double.num 1 : double ℚ) fuel [5, 6, 7]
      [double.num 1, double.nan, double.nan] 1 2 = none) ∧
    (∀ fuel, partitionLoop (double.num 1 : double ℚ) fuel [5, 7, 6]
      [double.num 1, double.nan, double.nan] 1 2 = none) ∧
    (∀ fuel, hdbscan_quicksort fuel [5, 6, 7]
      [(double.num 1 : double ℚ), double.nan, double.nan] 0 2 = none) ∧
    hdbscan_quicksort 1 [5, 6] [(double.nan : double ℚ), double.num 1] 0 1 =
      some ([6, 5], [double.num 1, double.nan]) := by
  refine ⟨?_, ?_, ?_, rfl⟩
  · intro fuel
    exact partitionLoop_unordered (double.num 1) (double.num 1) fuel [5, 6, 7] double.nan
      double.nan (fun h => h) (fun h => h) (fun h => h) (fun h => h)
  · intro fuel
    exact partitionLoop_unordered (double.num 1) (double.num 1) fuel [5, 7, 6] double.nan
      double.nan (fun h => h) (fun h => h) (fun h => h) (fun h => h)
  · intro fuel
    exact quicksort_unordered (double.num 1) double.nan double.nan
      (fun h => h) (fun h => h) (fun h => h) (fun h => h) [5, 6, 7] fuel

/-! ### The distances of an `int` data set -/

/-- C3 (failing input): for the `int` data set of the rows `(-2147483647, 5)` and `(2, 1)`
the cell that `distance_compute` writes for the pair is the cell `distance_get` reads for
`(0, 1)` and for `(1, 0)`, but it holds the square root of `2147483647^2 + 4^2`, while the
sum of the squared differences of the coordinates is `2147483649^2 + 4^2`: the difference
`-2147483647 - 2` is taken in `int`, where it wraps around. With a square root that is
one-to-one on the numbers from 0 on, the stored value is not the Euclidean distance. -/
theorem distance_compute_int_not_euclidean (D_MAX : ℚ) (sqrt : ℚ → ℚ) (uninit : Nat → ℚ)
    (numNeighbors : Nat) :
    distance_get (distance_compute D_MAX int32Diff sqrt uninit dataFar 2 2 numNeighbors) 0 1 =
      sqrt (2147483647 ^ 2 + 4 ^ 2) ∧
    distance_get (distance_compute D_MAX int32Diff sqrt uninit dataFar 2 2 numNeighbors) 1 0 =
      sqrt (2147483647 ^ 2 + 4 ^ 2) ∧
    (∑ k in Finset.range 2,
      (((dataFar (0 * 2 + k) - dataFar (1 * 2 + k) : Int) : ℚ)) ^ 2) =
        2147483649 ^ 2 + 4 ^ 2 ∧
    ((∀ a b : ℚ, 0 ≤ a → 0 ≤ b → sqrt a = sqrt b → a = b) →
      distance_get (distance_compute D_MAX int32Diff sqrt uninit dataFar 2 2 numNeighbors) 0 1 ≠
        sqrt (∑ k in Finset.range 2,
          (((dataFar (0 * 2 + k) - dataFar (1 * 2 + k) : Int) : ℚ)) ^ 2)) := by
  have hd0 : int32Diff (dataFar 0) (dataFar 2) = 2147483647 := by
    unfold int32Diff wrapInt32 dataFar
    norm_num
  have hd1 : int32Diff (dataFar 1) (dataFar 3) = 4 := by
    unfold int32Diff wrapInt32 dataFar
    norm_num
  have hsum : (∑ k in Finset.range 2,
      (((dataFar (0 * 2 + k) - dataFar (1 * 2 + k) : Int) : ℚ)) ^ 2) =
        2147483649 ^ 2 + 4 ^ 2 := by
    rw [Finset.sum_range_succ, Finset.sum_range_one]
    unfold dataFar
    norm_num
  have h01 : distance_get
      (distance_compute D_MAX int32Diff sqrt uninit dataFar 2 2 numNeighbors) 0 1 =
      sqrt (2147483647 ^ 2 + 4 ^ 2) := by
    have hlen : ((List.range ((2 * 2 - 2) / 2)).map uninit).length = (2 * 2 - 2) / 2 := by
      simp
    unfold distance_get distance_compute distance_get_core_distances
    simp only
    rw [if_pos (by decide)]
    have hf := fillDistances_getD int32Diff sqrt dataFar 2 2 _ hlen 0 0 1 (by decide)
      (by decide)
    unfold triIndex at hf
    rw [hf, pairDistance_eq_sum]
    rw [Finset.sum_range_succ, Finset.sum_range_one]
    simp only [Nat.zero_mul, Nat.one_mul, Nat.add_zero, Nat.zero_add]
    rw [hd0, hd1]
  have h10 : distance_get
      (distance_compute D_MAX int32Diff sqrt uninit dataFar 2 2 numNeighbors) 1 0 =
      distance_get
        (distance_compute D_MAX int32Diff sqrt uninit dataFar 2 2 numNeighbors) 0 1 := by
    unfold distance_get
    rw [if_neg (by decide), if_neg (by decide), if_pos (by decide)]
  refine ⟨h01, ?_, hsum, ?_⟩
  · rw [h10, h01]
  · intro hinj h
    rw [h01, hsum] at h
    have := hinj _ _ (by norm_num) (by norm_num) h
    norm_num at this

end Hdbscan
